import Mathlib

/-!
The library state_machine: a verification development.

A shallow embedding of `state_machine.c` / `state_machine.h` (hierarchical, polling-driven
finite state machines) and theorems about it.

Memory model.  The C code works on heap records linked by raw pointers (`struct state`, `struct fsm`,
intrusive `next` links).  The embedding keeps that shape:

* a pointer is a natural number (`Nat`), `0` is `NULL`;
* every record type has its own heap, a list of cells; the record at address `a + 1` is cell
  `a`, a freed or never written cell is `none`; `malloc` appends a zeroed cell, `free` empties
  the cell (addresses are never reused);
* the static `root_state` of `state_machine.c` lives at state address `ROOT`;
* OS queues are bounded FIFOs, OS mutexes are handles with a set of currently held ones;
* `uint32_t` values are naturals, arithmetic that may wrap is reduced modulo `2 ^ 32`;
* a state handler (a C function pointer) is a natural number, `0` is `NULL`; what the handler
  with a given number does is given by a table `hs` passed to `fsm_poll`; a handler receives
  the event by reference and the whole world, and may change both.

A loop that follows `next` links gets as fuel the number of cells of the heap it walks plus
one.  A walk that is not over after that many steps has seen a cell twice, so the C loop never
ends: the embedding reports `fault.hang`.  The recursion of `fsm_poll` into child FSMs takes
an explicit fuel argument instead, since handlers may grow the heap while it runs.
-/

namespace StateMachine

/-! ## Constants of `state_machine.h` and `state_machine.c` -/

/-- `UINT_MAX` for the 32-bit `unsigned int` of the target. -/
def UINT_MAX : Nat := 4294967295

def STATE_MAGIC_NUMBER : Nat := 0x1A1EA1CB
def FSM_MAGIC_NUMBER : Nat := 0xF51EE15F
def BLOCKTIME_MAX : Nat := UINT_MAX
def FSM_NO_POLL : Nat := UINT_MAX
def STATE_ID_ROOT : Nat := UINT_MAX
def STATE_NAME_ROOT : String := "ROOT"
def FSM_EVT_POLL : Nat := UINT_MAX
def FSM_EVT_ENTER : Nat := FSM_EVT_POLL - 1
def FSM_EVT_EXIT : Nat := FSM_EVT_ENTER - 1
def EVENT_QUEUE_LENGTH : Nat := 10
def DEFAULT_POLLING_INTERVAL : Nat := 100

/-- `sizeof(struct state_info)` on the 32-bit target: a `uint32_t` and a pointer. -/
def sizeof_state_info : Nat := 8

/-! ## Records -/

/-- `struct state_info`. -/
structure state_info where
  id : Nat
  name : String
deriving DecidableEq, Repr

/-- What the `void *data` of an event points to: nothing, a `struct state_info` built by
`fsm_poll` for an ENTER or EXIT event, or user memory at some address. -/
inductive payload where
  | null
  | info (i : state_info)
  | user (p : Nat)
deriving DecidableEq, Repr

/-- `struct event`. -/
structure event where
  type : Nat
  timestamp : Nat
  data : payload
  datalen : Nat
deriving DecidableEq, Repr

/-- `struct state`. -/
structure state where
  magic_number : Nat
  id : Nat
  name : String
  handler : Nat
  ts_poll : Nat
  poll_interval : Nat
  poll_interval_next : Nat
  lock : Nat
  parent_fsm : Nat
  child_fsm : Nat
  next : Nat
deriving DecidableEq, Repr

/-- `struct fsm`. -/
structure fsm where
  magic_number : Nat
  lock : Nat
  name : String
  poll_interval : Nat
  event_queue : Nat
  parent_state : Nat
  state_list : Nat
  sta_prev : Nat
  sta_curr : Nat
  sta_next : Nat
  next : Nat
  os : Nat
deriving DecidableEq, Repr

/-- Modelled from the spec: the OS queue behind `os->queue_create` (FreeRTOS, not part of the
sources) is a bounded-capacity FIFO; `length` is its capacity. -/
structure queue where
  length : Nat
  items : List event
deriving DecidableEq, Repr

/-- The ways a call can fail to return: an `ASSERT` that does not hold, a dereference of
`NULL` or of freed memory, a loop that never ends or a lock that is never obtained, and (for
`fsm_poll` only) not enough fuel for the recursion. -/
inductive fault where
  | assert
  | badptr
  | hang
  | fuel
deriving DecidableEq, Repr

instance {ε α : Type} [DecidableEq ε] [DecidableEq α] : DecidableEq (Except ε α)
  | .ok a, .ok b => if h : a = b then isTrue (by rw [h]) else isFalse (fun e => h (Except.ok.inj e))
  | .error a, .error b =>
    if h : a = b then isTrue (by rw [h]) else isFalse (fun e => h (Except.error.inj e))
  | .ok _, .error _ => isFalse (fun e => Except.noConfusion e)
  | .error _, .ok _ => isFalse (fun e => Except.noConfusion e)

/-- The memory the engine works on, the OS objects and the clock. -/
structure World where
  states : List (Option state)
  fsms : List (Option fsm)
  queues : List (Option queue)
  mutexes : Nat
  held : List Nat
  now : Nat
deriving DecidableEq, Repr

/-- The address of the static `root_state`. -/
def ROOT : Nat := 1

/-- The initial value of the static `root_state`. -/
def root_state : state :=
  { magic_number := STATE_MAGIC_NUMBER, id := STATE_ID_ROOT, name := STATE_NAME_ROOT,
    handler := 0, ts_poll := 0, poll_interval := 100, poll_interval_next := 100,
    lock := 0, parent_fsm := 0, child_fsm := 0, next := 0 }

/-! ## Heap access -/

/-- The cell at an address of a heap. -/
def cell {α : Type} (h : List (Option α)) : Nat → Option α
  | 0 => none
  | a + 1 => (h[a]?).join

/-- Overwrite the cell at an address. -/
def put {α : Type} (h : List (Option α)) (p : Nat) (v : Option α) : List (Option α) :=
  match p with
  | 0 => h
  | a + 1 => h.set a v

@[simp] def World.state? (w : World) (p : Nat) : Option state := cell w.states p
@[simp] def World.fsm? (w : World) (p : Nat) : Option fsm := cell w.fsms p
@[simp] def World.queue? (w : World) (p : Nat) : Option queue := cell w.queues p

@[simp] def World.setState (w : World) (p : Nat) (s : state) : World :=
  { w with states := put w.states p (some s) }

@[simp] def World.setFsm (w : World) (p : Nat) (f : fsm) : World :=
  { w with fsms := put w.fsms p (some f) }

@[simp] def World.setQueue (w : World) (p : Nat) (q : queue) : World :=
  { w with queues := put w.queues p (some q) }

/-- A dereference: `NULL` and freed memory fault. -/
def ld {α : Type} : Option α → Except fault α
  | some a => .ok a
  | none => .error .badptr

/-- The `ASSERT(e)` macro (`USE_ASSERT` is 1). -/
def ASSERT (c : Prop) [Decidable c] : Except fault Unit :=
  if c then .ok () else .error .assert

/-! ## OS port (`state_machine_port.c`) -/

/-- Modelled from the spec: `os->mutex_lock(m, BLOCKTIME_MAX)` on the FreeRTOS mutex behind
`fsm_port_mutex_lock`: the caller obtains the mutex; when it is already held the call never
returns. -/
def mutex_lock (m : Nat) (w : World) : Except fault World :=
  if m ∈ w.held then .error .hang else .ok { w with held := m :: w.held }

/-- Modelled from the spec: `os->mutex_unlock(m)` releases the mutex. -/
def mutex_unlock (m : Nat) (w : World) : World :=
  { w with held := w.held.erase m }

/-- Modelled from the spec: `os->mutex_create()` returns a handle that was never used. -/
def mutex_create (w : World) : Nat × World :=
  (w.mutexes + 1, { w with mutexes := w.mutexes + 1 })

/-- Modelled from the spec: `os->mutex_destroy(m)`; the handle is gone, held or not. -/
def mutex_destroy (m : Nat) (w : World) : World :=
  { w with held := w.held.erase m }

/-- Modelled from the spec: `os->queue_send(q, item, blocktime)` on the bounded FIFO behind
`fsm_port_queue_send`: the item goes to the tail when there is room; otherwise, nobody else
running, the wait times out and the result is `false`. -/
def queue_send (q : Nat) (e : event) (w : World) : Except fault (Bool × World) :=
  match w.queue? q with
  | none => .error .badptr
  | some Q =>
    if Q.items.length < Q.length then
      .ok (true, w.setQueue q { Q with items := Q.items ++ [e] })
    else .ok (false, w)

/-- Modelled from the spec: `os->queue_receive(q, dst, 0)`: the head item, when there is one. -/
def queue_receive (q : Nat) (w : World) : Except fault (Option event × World) :=
  match w.queue? q with
  | none => .error .badptr
  | some Q =>
    match Q.items with
    | [] => .ok (none, w)
    | e :: rest => .ok (some e, w.setQueue q { Q with items := rest })

/-! ## Walks over the intrusive lists -/

/-- The addresses on the `next` chain of states from `p` to `NULL`, in order. -/
def state_chain (h : List (Option state)) : Nat → Nat → Except fault (List Nat)
  | 0, _ => .error .hang
  | n + 1, p =>
    if p = 0 then .ok []
    else match cell h p with
      | none => .error .badptr
      | some s => (state_chain h n s.next).map (p :: ·)

/-- The loop `while(node && !hit(node)) node = node->next;`: the first node of the chain
from `p` that `hit` accepts, `NULL` when there is none. -/
def state_find (h : List (Option state)) (hit : Nat → state → Bool) :
    Nat → Nat → Except fault Nat
  | 0, _ => .error .hang
  | n + 1, p =>
    if p = 0 then .ok 0
    else match cell h p with
      | none => .error .badptr
      | some s => if hit p s then .ok p else state_find h hit n s.next

/-- The fuel of a walk over states. -/
@[simp] def World.sfuel (w : World) : Nat := w.states.length + 1

/-- The fuel of a walk over FSMs. -/
@[simp] def World.ffuel (w : World) : Nat := w.fsms.length + 1

/-- The registry of an FSM record: the addresses on its `state_list`, in list order. -/
def World.registry (w : World) (F : fsm) : Except fault (List Nat) :=
  state_chain w.states w.sfuel F.state_list

/-! ## Lookup -/

/-- `fsm_get_state`. -/
def fsm_get_state (f : Nat) (id : Nat) (w : World) : Except fault (Nat × World) := do
  let F ← ld (w.fsm? f)
  ASSERT (F.magic_number = FSM_MAGIC_NUMBER)
  let w ← mutex_lock F.lock w
  let node ← state_find w.states (fun _ s => s.id = id) w.sfuel F.state_list
  let w := mutex_unlock F.lock w
  return (node, w)

/-- `fsm_get_state_by_name`; `name` is a non-null string (`ASSERT(name)`). -/
def fsm_get_state_by_name (f : Nat) (name : String) (w : World) : Except fault (Nat × World) := do
  let F ← ld (w.fsm? f)
  ASSERT (F.magic_number = FSM_MAGIC_NUMBER)
  let w ← mutex_lock F.lock w
  let node ← state_find w.states (fun _ s => name = s.name) w.sfuel F.state_list
  let w := mutex_unlock F.lock w
  return (node, w)

/-! ## State life cycle and registration -/

/-- The record that `state_new` writes into the zeroed block it allocated; a `NULL` name
(`none`) becomes `"No name"`. -/
def state_new_record (name : Option String) (id : Nat) (handler : Nat) : state :=
  { magic_number := STATE_MAGIC_NUMBER, id := id,
    name := name.getD "No name",
    handler := handler, ts_poll := 0, poll_interval := 0, poll_interval_next := 0, lock := 0,
    parent_fsm := 0, child_fsm := 0, next := 0 }

/-- `state_new`: `os->malloc(sizeof(struct state))` gives a new cell at a fresh address, which
is zeroed and initialised. -/
def state_new (name : Option String) (id : Nat) (handler : Nat) (w : World) : Nat × World :=
  (w.states.length + 1,
   { w with states := w.states ++ [some (state_new_record name id handler)] })

/-- The loop of `fsm_state_register`: slide to the tail of the state list and check for an ID
collision.  `link` is the place `node` points to: `0` for `&fsm->state_list`, `a` for
`&a->next`.  The result is `none` on a collision, otherwise the link at the tail. -/
def register_walk (h : List (Option state)) (id : Nat) :
    Nat → Nat → Nat → Except fault (Option Nat)
  | 0, _, _ => .error .hang
  | n + 1, link, p =>
    if p = 0 then .ok (some link)
    else match cell h p with
      | none => .error .badptr
      | some s => if s.id = id then .ok none else register_walk h id n p s.next

/-- The assignment `*node = v` for a `state_t *node` into the state list of `f`. -/
def set_state_link (f : Nat) (link : Nat) (v : Nat) (w : World) : Except fault World :=
  if link = 0 then do
    let F ← ld (w.fsm? f)
    return w.setFsm f { F with state_list := v }
  else do
    let s ← ld (w.state? link)
    return w.setState link { s with next := v }

/-- `fsm_state_register`. -/
def fsm_state_register (f : Nat) (st : Nat) (w : World) : Except fault (Int × World) := do
  let F ← ld (w.fsm? f)
  ASSERT (F.magic_number = FSM_MAGIC_NUMBER)
  let S ← ld (w.state? st)
  ASSERT (S.magic_number = STATE_MAGIC_NUMBER)
  ASSERT (F.os ≠ 0)
  ASSERT (F.lock ≠ 0)
  ASSERT (S.parent_fsm = 0)
  ASSERT (S.lock = 0)
  let w ← mutex_lock F.lock w
  let is_first_state : Bool := F.state_list = 0
  match ← register_walk w.states S.id w.sfuel 0 F.state_list with
  | none => return (-1, mutex_unlock F.lock w)
  | some link =>
    let (m, w) := mutex_create w
    ASSERT (m ≠ 0)
    let w ← mutex_lock m w
    let w := w.setState st
      { S with lock := m, parent_fsm := f, poll_interval := F.poll_interval,
               poll_interval_next := F.poll_interval, next := 0 }
    let w := mutex_unlock m w
    let w ← set_state_link f link st w
    let w ← if is_first_state then do
        let F ← ld (w.fsm? f)
        pure (w.setFsm f { F with sta_next := st })
      else pure w
    return (0, mutex_unlock F.lock w)

/-- The loop of `fsm_state_unregister`: the link that holds `st`, when `st` is on the list
(`0` for `&fsm->state_list`, `a` for `&a->next`). -/
def unregister_walk (h : List (Option state)) (st : Nat) :
    Nat → Nat → Nat → Except fault (Option Nat)
  | 0, _, _ => .error .hang
  | n + 1, link, p =>
    if p = 0 then .ok none
    else if p = st then .ok (some link)
    else match cell h p with
      | none => .error .badptr
      | some s => unregister_walk h st n p s.next

/-- `fsm_state_unregister`. -/
def fsm_state_unregister (f : Nat) (st : Nat) (w : World) : Except fault (Int × World) := do
  let F ← ld (w.fsm? f)
  ASSERT (F.magic_number = FSM_MAGIC_NUMBER)
  ASSERT (F.os ≠ 0)
  ASSERT (F.lock ≠ 0)
  let w ← mutex_lock F.lock w
  match ← unregister_walk w.states st w.sfuel 0 F.state_list with
  | none => return (0, mutex_unlock F.lock w)
  | some link =>
    let S ← ld (w.state? st)
    ASSERT (S.magic_number = STATE_MAGIC_NUMBER)
    ASSERT (S.lock ≠ 0)
    let w ← mutex_lock S.lock w
    let w := w.setState st { S with parent_fsm := 0, lock := 0 }
    let w ← set_state_link f link S.next w
    let S1 ← ld (w.state? st)
    let w := w.setState st { S1 with next := 0 }
    let F1 ← ld (w.fsm? f)
    let w := if F1.sta_next = st then w.setFsm f { F1 with sta_next := 0 } else w
    let w := mutex_destroy S.lock w
    return (0, mutex_unlock F.lock w)

/-- `os->free` of a state. -/
def free_state (p : Nat) (w : World) : World :=
  { w with states := put w.states p none }

/-- `state_del`; the caller's handle `*pstate` is set to `NULL`, which the embedding leaves
to the caller. -/
def state_del (st : Nat) (w : World) : Except fault (Int × World) := do
  let S ← ld (w.state? st)
  let (ret, w) ← if S.parent_fsm ≠ 0 then fsm_state_unregister S.parent_fsm st w
                 else pure (0, w)
  return (ret, free_state st w)

/-- `fsm_state_add`; a `NULL` name is `none`. -/
def fsm_state_add (f : Nat) (name : Option String) (id : Nat) (handler : Nat) (w : World) :
    Except fault (Int × World) := do
  let (st, w) := state_new name id handler w
  let (ret, w) ← fsm_state_register f st w
  if ret ≠ 0 then
    let (_, w) ← state_del st w
    return (ret, w)
  else return (ret, w)

/-- `fsm_state_del_by_name`. -/
def fsm_state_del_by_name (f : Nat) (name : String) (w : World) : Except fault (Int × World) := do
  let (st, w) ← fsm_get_state_by_name f name w
  if st = 0 then return (-1, w)
  else
    let (_, w) ← fsm_state_unregister f st w
    state_del st w

/-- `fsm_state_del`. -/
def fsm_state_del (f : Nat) (id : Nat) (w : World) : Except fault (Int × World) := do
  let (st, w) ← fsm_get_state f id w
  if st = 0 then return (-1, w)
  else
    let (_, w) ← fsm_state_unregister f st w
    state_del st w

/-! ## Transition requests -/

/-- The common tail of `fsm_switch`, `fsm_switch_by_state_handle` and `fsm_switch_by_name`,
after the walk left `*node = node`: fill the empty buffer, drop the request when the buffer is
occupied (the log line reads `fsm->sta_curr->name` and `(*node)->name`), `-1` when the walk
found nothing. -/
def switch_to (f : Nat) (F : fsm) (node : Nat) (w : World) : Except fault (Int × World) :=
  if node ≠ 0 then
    if F.sta_next = 0 then
      .ok (0, mutex_unlock F.lock (w.setFsm f { F with sta_next := node }))
    else do
      let _ ← ld (w.state? F.sta_curr)
      let _ ← ld (w.state? node)
      return (0, mutex_unlock F.lock w)
  else .ok (-1, mutex_unlock F.lock w)

/-- `fsm_switch`. -/
def fsm_switch (f : Nat) (id : Nat) (w : World) : Except fault (Int × World) := do
  let F ← ld (w.fsm? f)
  ASSERT (F.magic_number = FSM_MAGIC_NUMBER)
  ASSERT (F.os ≠ 0)
  ASSERT (F.lock ≠ 0)
  let w ← mutex_lock F.lock w
  let node ← state_find w.states (fun _ s => s.id = id) w.sfuel F.state_list
  switch_to f F node w

/-- `fsm_switch_by_state_handle`. -/
def fsm_switch_by_state_handle (f : Nat) (st : Nat) (w : World) : Except fault (Int × World) := do
  let F ← ld (w.fsm? f)
  ASSERT (F.magic_number = FSM_MAGIC_NUMBER)
  let S ← ld (w.state? st)
  ASSERT (S.magic_number = STATE_MAGIC_NUMBER)
  ASSERT (F.os ≠ 0)
  ASSERT (F.lock ≠ 0)
  let w ← mutex_lock F.lock w
  let node ← state_find w.states (fun p _ => p = st) w.sfuel F.state_list
  switch_to f F node w

/-- `fsm_switch_by_name`; `name` is a non-null string (`ASSERT(name)`). -/
def fsm_switch_by_name (f : Nat) (name : String) (w : World) : Except fault (Int × World) := do
  let F ← ld (w.fsm? f)
  ASSERT (F.magic_number = FSM_MAGIC_NUMBER)
  ASSERT (F.os ≠ 0)
  ASSERT (F.lock ≠ 0)
  let w ← mutex_lock F.lock w
  let node ← state_find w.states (fun _ s => s.name = name) w.sfuel F.state_list
  switch_to f F node w

/-- `fsm_change_state_poll_interval`. -/
def fsm_change_state_poll_interval (st : Nat) (interval_ms : Nat) (w : World) :
    Except fault (Int × World) := do
  let S ← ld (w.state? st)
  ASSERT (S.magic_number = STATE_MAGIC_NUMBER)
  return (0, w.setState st { S with poll_interval_next := interval_ms })

/-! ## The poll engine -/

/-- What `fsm_poll` does that a caller or a handler can observe, besides the memory it
leaves: sends to and receives from OS queues, handler invocations (with the event passed and
the mutexes held at that moment) and the recursive calls `fsm_poll(child)`. -/
inductive action where
  | send (q : Nat) (e : event) (blocktime : Nat) (ok : Bool)
  | receive (q : Nat) (r : Option event)
  | call (h : Nat) (e : event) (held : List Nat)
  | poll (child : Nat)
deriving DecidableEq, Repr

/-- A handler table: what the handler with a given number does with the event it is handed
(by reference) and the world. -/
abbrev handlers := Nat → event → World → event × World

/-- The outcome of `fsm_poll`: the returned `int`, the world it leaves, and the actions it
took, each with the depth of the recursion at which it was taken (`0` for the call itself,
`1` for the polls of its child FSMs, and so on). -/
structure poll_result where
  ret : Int
  world : World
  trace : List (Nat × action)
deriving DecidableEq, Repr

/-- `os->uptime_ms()`: the clock, as a `uint32_t`. -/
def uptime_ms (w : World) : Nat := w.now % 4294967296

/-- The difference `a - b` of two `uint32_t`. -/
def sub32 (a b : Nat) : Nat := (a + 4294967296 - b % 4294967296) % 4294967296

/-- The addresses on the `next` chain of FSMs from `p` to `NULL`, in order: the loops that
count the child FSMs of the current state and copy them to `child_fsm_buf`. -/
def fsm_chain (h : List (Option fsm)) : Nat → Nat → Except fault (List Nat)
  | 0, _ => .error .hang
  | n + 1, p =>
    if p = 0 then .ok []
    else match cell h p with
      | none => .error .badptr
      | some F => (fsm_chain h n F.next).map (p :: ·)

/-- The locals of `fsm_poll` that are set while the lock is held and used afterwards. -/
structure poll_locals where
  ts : Nat
  exit : Nat
  enter : Nat
  handler : Nat
  event_queue : Nat
  child_fsm_buf : List Nat
deriving DecidableEq, Repr

/-- The state transition of `fsm_poll` (`if(*sta_next) ...`): the exit and enter handlers and
the world. -/
def poll_transition (f : Nat) (w : World) : Except fault (Nat × Nat × World) := do
  let F ← ld (w.fsm? f)
  if F.sta_next ≠ 0 then
    let w := w.setFsm f { F with sta_prev := F.sta_curr, sta_curr := F.sta_next, sta_next := 0 }
    let P ← ld (w.state? F.sta_curr)
    let C ← ld (w.state? F.sta_next)
    return (P.handler, C.handler, w)
  else return (0, 0, w)

/-- The `poll_event` that `fsm_poll` fills in at time `ts`. -/
def poll_event (ts : Nat) : event :=
  { type := FSM_EVT_POLL, timestamp := ts, data := .null, datalen := 0 }

/-- The generation of the polling event of `fsm_poll` for the current state `c`. -/
def poll_generate (ts : Nat) (event_queue : Nat) (c : Nat) (w : World) :
    Except fault (List action × World) := do
  let C ← ld (w.state? c)
  if C.poll_interval ≠ FSM_NO_POLL then
    if sub32 ts C.ts_poll ≥ C.poll_interval then
      let w := w.setState c { C with ts_poll := ts }
      let (ok, w) ← queue_send event_queue (poll_event ts) w
      let C ← ld (w.state? c)
      return ([.send event_queue (poll_event ts) 0 ok],
              w.setState c { C with poll_interval := C.poll_interval_next })
    else return ([], w)
  else
    return ([], w.setState c { C with poll_interval := C.poll_interval_next })

/-- The part of `fsm_poll` that runs with the lock of the FSM held: the transition, the
snapshot of the child FSMs of the current state and the generation of the polling event. -/
def poll_locked (f : Nat) (w : World) : Except fault (poll_locals × List action × World) := do
  let F ← ld (w.fsm? f)
  ASSERT (F.magic_number = FSM_MAGIC_NUMBER)
  ASSERT (F.os ≠ 0)
  ASSERT (F.lock ≠ 0)
  let ts := uptime_ms w
  let w ← mutex_lock F.lock w
  ASSERT (F.event_queue ≠ 0)
  let (exit, enter, w) ← poll_transition f w
  let F1 ← ld (w.fsm? f)
  let C ← ld (w.state? F1.sta_curr)
  let child_fsm_buf ← fsm_chain w.fsms w.ffuel C.child_fsm
  let (tr, w) ← poll_generate ts F1.event_queue F1.sta_curr w
  return ({ ts := ts, exit := exit, enter := enter, handler := C.handler,
            event_queue := F.event_queue, child_fsm_buf := child_fsm_buf },
          tr, mutex_unlock F.lock w)

/-- The EXIT event of `fsm_poll` at time `ts` for a transition to the state with record `C`:
its payload is the `state_info` of the target state. -/
def exit_event (ts : Nat) (C : state) : event :=
  { type := FSM_EVT_EXIT, timestamp := ts, data := .info { id := C.id, name := C.name },
    datalen := sizeof_state_info }

/-- The ENTER event of `fsm_poll` at time `ts` for a transition from the state with record
`P`: its payload is the `state_info` of the previous state. -/
def enter_event (ts : Nat) (P : state) : event :=
  { type := FSM_EVT_ENTER, timestamp := ts, data := .info { id := P.id, name := P.name },
    datalen := sizeof_state_info }

/-- The `if(exit) ...` block of `fsm_poll`: the EXIT event for the previous state tells the
current state, read through `*sta_curr` at that moment. -/
def poll_exit (hs : handlers) (f : Nat) (l : poll_locals) (w : World) :
    Except fault (List action × World) :=
  if l.exit ≠ 0 then do
    let F ← ld (w.fsm? f)
    let C ← ld (w.state? F.sta_curr)
    return ([.call l.exit (exit_event l.ts C) w.held], (hs l.exit (exit_event l.ts C) w).2)
  else .ok ([], w)

/-- The `if(enter) ...` block of `fsm_poll`: the ENTER event for the current state tells the
previous state, read through `*sta_prev` at that moment. -/
def poll_enter (hs : handlers) (f : Nat) (l : poll_locals) (w : World) :
    Except fault (List action × World) :=
  if l.enter ≠ 0 then do
    let F ← ld (w.fsm? f)
    let P ← ld (w.state? F.sta_prev)
    return ([.call l.enter (enter_event l.ts P) w.held], (hs l.enter (enter_event l.ts P) w).2)
  else .ok ([], w)

/-- The dispatch of `fsm_poll`: one non-blocking receive, and the handler captured under the
lock when an event was there.  The result holds `event` as the handler left it when
`event_occured`. -/
def poll_dispatch (hs : handlers) (l : poll_locals) (w : World) :
    Except fault (Option event × List action × World) := do
  let (r, w) ← queue_receive l.event_queue w
  match r with
  | none => return (none, [.receive l.event_queue none], w)
  | some ev =>
    if l.handler ≠ 0 then
      let (ev1, w1) := hs l.handler ev w
      return (some ev1, [.receive l.event_queue (some ev), .call l.handler ev w.held], w1)
    else return (some ev, [.receive l.event_queue (some ev)], w)

/-- The `PASS_EVENT_TO_CHILD_FSM` block of the child loop of `fsm_poll`. -/
def poll_forward (occured : Option event) (c : Nat) (w : World) :
    Except fault (List action × World) := do
  let C ← ld (w.fsm? c)
  ASSERT (C.magic_number = FSM_MAGIC_NUMBER)
  ASSERT (C.event_queue ≠ 0)
  ASSERT (C.lock ≠ 0)
  match occured with
  | none => return ([], w)
  | some ev =>
    if ev.type ≠ FSM_EVT_POLL then
      let w ← mutex_lock C.lock w
      let (ok, w) ← queue_send C.event_queue ev w
      return ([.send C.event_queue ev 200 ok], mutex_unlock C.lock w)
    else return ([], w)

/-- Raise the depth of the actions of a recursive call by one. -/
def deeper (t : List (Nat × action)) : List (Nat × action) :=
  t.map (fun a => (a.1 + 1, a.2))

/-- Put actions of the call itself at depth `0`. -/
def here (t : List action) : List (Nat × action) :=
  t.map (fun a => (0, a))

/-- The child loop of `fsm_poll` over `child_fsm_buf`; `poll` is the recursive call. -/
def poll_children (poll : Nat → World → Except fault poll_result) (occured : Option event) :
    List Nat → World → Except fault (List (Nat × action) × World)
  | [], w => .ok ([], w)
  | c :: rest, w => do
    let (t1, w) ← poll_forward occured c w
    let r ← poll c w
    let (t2, w) ← poll_children poll occured rest r.world
    return (here t1 ++ (0, .poll c) :: deeper r.trace ++ t2, w)

/-- `fsm_poll`; `hs` tells what the handlers do, the first argument bounds the depth of the
recursion into child FSMs. -/
def fsm_poll (hs : handlers) : Nat → Nat → World → Except fault poll_result
  | 0, _, _ => .error .fuel
  | n + 1, f, w => do
    let (l, t0, w) ← poll_locked f w
    let (t1, w) ← poll_exit hs f l w
    let (t2, w) ← poll_enter hs f l w
    let (occured, t3, w) ← poll_dispatch hs l w
    let (t4, w) ← poll_children (fsm_poll hs n) occured l.child_fsm_buf w
    return { ret := 0, world := w, trace := here (t0 ++ t1 ++ t2 ++ t3) ++ t4 }

/-! ## FSM life cycle, events, composition, introspection -/

/-- The address of `fsm_port_os_handle`. -/
def fsm_port_os_handle : Nat := 1

/-- Modelled from the spec: `os->queue_create(length, item_size)` makes an empty bounded FIFO
of the given capacity. -/
def queue_create (length : Nat) (w : World) : Nat × World :=
  (w.queues.length + 1, { w with queues := w.queues ++ [some { length := length, items := [] }] })

/-- Modelled from the spec: `os->queue_clear(q)` purges all queued events. -/
def queue_clear (q : Nat) (w : World) : Except fault World := do
  let Q ← ld (w.queue? q)
  return w.setQueue q { Q with items := [] }

/-- `fsm_init` on the record at `f`; `name` is a non-null string (`ASSERT(name)`). -/
def fsm_init (f : Nat) (name : String) (w : World) : Except fault (Int × World) := do
  let F ← ld (w.fsm? f)
  let R ← ld (w.state? ROOT)
  let w := if R.lock = 0 then
      let (m, w) := mutex_create w
      w.setState ROOT { R with lock := m }
    else w
  let (m, w) := mutex_create w
  ASSERT (m ≠ 0)
  let w ← mutex_lock m w
  ASSERT (F.event_queue = 0)
  let (q, w) := queue_create EVENT_QUEUE_LENGTH w
  let w := w.setFsm f
    { F with os := fsm_port_os_handle, lock := m, event_queue := q,
             poll_interval := DEFAULT_POLLING_INTERVAL, magic_number := FSM_MAGIC_NUMBER,
             name := name, parent_state := 0, state_list := 0, sta_prev := ROOT,
             sta_curr := ROOT, sta_next := 0, next := 0 }
  return (0, mutex_unlock m w)

/-- `fsm_new`; a `NULL` name is `none`.  The result is the new handle. -/
def fsm_new (name : Option String) (w : World) : Except fault (Nat × World) := do
  let name := name.getD "No name"
  let f := w.fsms.length + 1
  let w := { w with fsms := w.fsms ++ [some
    { magic_number := 0, lock := 0, name := "", poll_interval := 0, event_queue := 0,
      parent_state := 0, state_list := 0, sta_prev := 0, sta_curr := 0, sta_next := 0,
      next := 0, os := 0 }] }
  let (_, w) ← fsm_init f name w
  return (f, w)

/-- The world before any call: only the static `root_state` exists. -/
def World.boot : World :=
  { states := [some root_state], fsms := [], queues := [], mutexes := 0, held := [], now := 0 }

/-- `fsm_change_default_poll_interval`. -/
def fsm_change_default_poll_interval (f : Nat) (interval_ms : Nat) (w : World) :
    Except fault (Int × World) := do
  let F ← ld (w.fsm? f)
  ASSERT (F.magic_number = FSM_MAGIC_NUMBER)
  ASSERT (F.os ≠ 0)
  ASSERT (F.lock ≠ 0)
  let w ← mutex_lock F.lock w
  let w := w.setFsm f { F with poll_interval := interval_ms }
  return (0, mutex_unlock F.lock w)

/-- `fsm_event_send`. -/
def fsm_event_send (f : Nat) (type : Nat) (data : payload) (datalen : Nat) (w : World) :
    Except fault (Int × World) := do
  let F ← ld (w.fsm? f)
  ASSERT (F.magic_number = FSM_MAGIC_NUMBER)
  ASSERT (F.os ≠ 0)
  ASSERT (F.lock ≠ 0)
  ASSERT (F.event_queue ≠ 0)
  let ev : event := { type := type, timestamp := uptime_ms w, data := data, datalen := datalen }
  let w ← mutex_lock F.lock w
  let (ok, w) ← queue_send F.event_queue ev w
  return (if ok then 0 else -1, mutex_unlock F.lock w)

/-- `fsm_event_clear`. -/
def fsm_event_clear (f : Nat) (w : World) : Except fault (Int × World) := do
  let F ← ld (w.fsm? f)
  ASSERT (F.magic_number = FSM_MAGIC_NUMBER)
  ASSERT (F.os ≠ 0)
  ASSERT (F.event_queue ≠ 0)
  let w ← queue_clear F.event_queue w
  return (0, w)

/-- `fsm_get_current_state`; the result is what is written to `*info`. -/
def fsm_get_current_state (f : Nat) (w : World) : Except fault (state_info × World) := do
  let F ← ld (w.fsm? f)
  ASSERT (F.magic_number = FSM_MAGIC_NUMBER)
  ASSERT (F.os ≠ 0)
  ASSERT (F.lock ≠ 0)
  let w ← mutex_lock F.lock w
  ASSERT (F.sta_curr ≠ 0)
  let C ← ld (w.state? F.sta_curr)
  ASSERT (C.magic_number = STATE_MAGIC_NUMBER)
  let w ← mutex_lock C.lock w
  let info : state_info := { id := C.id, name := C.name }
  let w := mutex_unlock C.lock w
  return (info, mutex_unlock F.lock w)

/-- The loop `while(*node) node = &((*node)->next);` of `fsm_state_child_fsm_add`: the link at
the tail of the child list (`0` for `&state->child_fsm`, `a` for `&a->next`). -/
def child_tail (h : List (Option fsm)) : Nat → Nat → Nat → Except fault Nat
  | 0, _, _ => .error .hang
  | n + 1, link, p =>
    if p = 0 then .ok link
    else match cell h p with
      | none => .error .badptr
      | some F => child_tail h n p F.next

/-- The assignment `*node = v` for a `fsm_t *node` into the child list of state `st`. -/
def set_child_link (st : Nat) (link : Nat) (v : Nat) (w : World) : Except fault World :=
  if link = 0 then do
    let S ← ld (w.state? st)
    return w.setState st { S with child_fsm := v }
  else do
    let F ← ld (w.fsm? link)
    return w.setFsm link { F with next := v }

/-- `fsm_state_child_fsm_add`. -/
def fsm_state_child_fsm_add (st : Nat) (f : Nat) (w : World) : Except fault (Int × World) := do
  let S ← ld (w.state? st)
  ASSERT (S.magic_number = STATE_MAGIC_NUMBER)
  let F ← ld (w.fsm? f)
  ASSERT (F.magic_number = FSM_MAGIC_NUMBER)
  ASSERT (F.os ≠ 0)
  ASSERT (F.lock ≠ 0)
  ASSERT (S.lock ≠ 0)
  if f = S.parent_fsm then return (-1, w)
  else
    let w ← mutex_lock S.lock w
    let link ← child_tail w.fsms w.ffuel 0 S.child_fsm
    let w ← mutex_lock F.lock w
    let F1 ← ld (w.fsm? f)
    let w := w.setFsm f { F1 with parent_state := st, next := 0 }
    let w := mutex_unlock F.lock w
    let w ← set_child_link st link f w
    return (0, mutex_unlock S.lock w)

/-- The loop of `fsm_state_child_fsm_del`: the link that holds `f`, when `f` is on the child
list. -/
def child_walk (h : List (Option fsm)) (f : Nat) :
    Nat → Nat → Nat → Except fault (Option Nat)
  | 0, _, _ => .error .hang
  | n + 1, link, p =>
    if p = 0 then .ok none
    else if p = f then .ok (some link)
    else match cell h p with
      | none => .error .badptr
      | some F => child_walk h f n p F.next

/-- `fsm_state_child_fsm_del`. -/
def fsm_state_child_fsm_del (st : Nat) (f : Nat) (w : World) : Except fault (Int × World) := do
  let S ← ld (w.state? st)
  ASSERT (S.magic_number = STATE_MAGIC_NUMBER)
  let F ← ld (w.fsm? f)
  ASSERT (F.magic_number = FSM_MAGIC_NUMBER)
  ASSERT (F.os ≠ 0)
  ASSERT (F.lock ≠ 0)
  ASSERT (S.lock ≠ 0)
  let w ← mutex_lock S.lock w
  match ← child_walk w.fsms f w.ffuel 0 S.child_fsm with
  | none => return (0, mutex_unlock S.lock w)
  | some link =>
    let w ← mutex_lock F.lock w
    let F1 ← ld (w.fsm? f)
    let w := w.setFsm f { F1 with parent_state := 0 }
    let w ← set_child_link st link F1.next w
    let F2 ← ld (w.fsm? f)
    let w := w.setFsm f { F2 with next := 0 }
    let w := mutex_unlock F.lock w
    return (0, mutex_unlock S.lock w)

/-- Modelled from the spec: `os->queue_destroy(q)` on the FreeRTOS queue behind
`fsm_port_queue_destroy` frees the queue. -/
def queue_destroy (q : Nat) (w : World) : World :=
  { w with queues := put w.queues q none }

/-- The loop `while(node) { next = node->next; fsm_state_unregister(fsm, node);
os->free(node); node = next; }` of `fsm_deinit`. -/
def deinit_walk (f : Nat) : Nat → Nat → World → Except fault World
  | 0, _, _ => .error .hang
  | n + 1, node, w =>
    if node = 0 then .ok w
    else do
      let S ← ld (w.state? node)
      let next := S.next
      let (_, w) ← fsm_state_unregister f node w
      deinit_walk f n next (free_state node w)

/-- The last part of `fsm_deinit`, after the loop over the states: under the lock the record
is wiped (the `NULL` written to `fsm->name` is the empty string), the event queue is cleared
and destroyed, and the lock is destroyed. -/
def deinit_finish (f : Nat) (w : World) : Except fault (Int × World) := do
  let F1 ← ld (w.fsm? f)
  let w ← mutex_lock F1.lock w
  let w := w.setFsm f
    { F1 with magic_number := 0, poll_interval := 0, name := "", os := 0, state_list := 0,
              sta_prev := 0, sta_curr := 0, sta_next := 0 }
  let w ← queue_clear F1.event_queue w
  let w := queue_destroy F1.event_queue w
  let F2 ← ld (w.fsm? f)
  let w := w.setFsm f { F2 with event_queue := 0, lock := 0 }
  return (0, mutex_destroy F1.lock w)

/-- `fsm_deinit`. -/
def fsm_deinit (f : Nat) (w : World) : Except fault (Int × World) := do
  let F ← ld (w.fsm? f)
  ASSERT (F.magic_number = FSM_MAGIC_NUMBER)
  ASSERT (F.os ≠ 0)
  ASSERT (F.lock ≠ 0)
  let w ← mutex_lock F.lock w
  let parent_state := F.parent_state
  let node := F.state_list
  let w := mutex_unlock F.lock w
  let w ← if parent_state ≠ 0 then
      (fsm_state_child_fsm_del parent_state f w).map (fun r => r.2)
    else pure w
  let w ← deinit_walk f w.sfuel node w
  deinit_finish f w

/-- `os->free` of an FSM. -/
def free_fsm (p : Nat) (w : World) : World :=
  { w with fsms := put w.fsms p none }

/-- `fsm_del`; the argument `fsm_t *fsm` is `none` for `NULL`, otherwise the handle it
points to.  The result holds the returned `int` and the handle that `*fsm` holds afterwards. -/
def fsm_del (pf : Option Nat) (w : World) : Except fault (Int × Option Nat × World) :=
  match pf with
  | none => .ok (-1, none, w)
  | some f =>
    if f = 0 then .ok (-2, some 0, w)
    else do
      let (ret, w) ← fsm_deinit f w
      return (ret, some 0, free_fsm f w)

/-- The loop of `fsm_get_state_list_csv` from the node at `p`, with `buf` what `csv_buf` holds:
`strcat` of the name of the node, then of `","` when another node follows. -/
def csv_walk (h : List (Option state)) : Nat → Nat → String → Except fault String
  | 0, _, _ => .error .hang
  | n + 1, p, buf =>
    if p = 0 then .ok buf
    else match cell h p with
      | none => .error .badptr
      | some s =>
        if s.next ≠ 0 then csv_walk h n s.next (buf ++ s.name ++ ",")
        else csv_walk h n s.next (buf ++ s.name)

/-- `fsm_get_state_list_csv`; the result is the string left in `csv_buf`, which the caller
made large enough. -/
def fsm_get_state_list_csv (f : Nat) (w : World) : Except fault (String × World) := do
  let F ← ld (w.fsm? f)
  ASSERT (F.magic_number = FSM_MAGIC_NUMBER)
  ASSERT (F.os ≠ 0)
  ASSERT (F.lock ≠ 0)
  let w ← mutex_lock F.lock w
  let buf ← csv_walk w.states w.sfuel F.state_list ""
  return (buf, mutex_unlock F.lock w)

/-! ## Notions used to state the theorems -/

/-- Whether `hit` accepts the record at address `a`. -/
def hit_at (h : List (Option state)) (hit : Nat → state → Bool) (a : Nat) : Bool :=
  match cell h a with
  | some s => hit a s
  | none => false

/-- The first address in the list `L` whose record `hit` accepts, `0` when there is none. -/
def first_hit (h : List (Option state)) (hit : Nat → state → Bool) (L : List Nat) : Nat :=
  (L.find? (hit_at h hit)).getD 0

/-- A transition request through one of the three entry points. -/
inductive request where
  | by_id (id : Nat)
  | by_state_handle (st : Nat)
  | by_name (name : String)
deriving DecidableEq, Repr

/-- Issue a transition request. -/
def request.run (f : Nat) : request → World → Except fault (Int × World)
  | .by_id id => fsm_switch f id
  | .by_state_handle st => fsm_switch_by_state_handle f st
  | .by_name name => fsm_switch_by_name f name

/-- The request is a request for the registered state at address `a` with record `s`, where
`pre` are the states before it in the registry: its id, its handle, or its name is given, and
no state before it has that id or name (ids are unique in a registry, names need not be). -/
def request.asks (h : List (Option state)) (pre : List Nat) (a : Nat) (s : state) :
    request → Prop
  | .by_id id => s.id = id ∧ ∀ b ∈ pre, ∀ t, cell h b = some t → t.id ≠ id
  | .by_state_handle st => st = a ∧ s.magic_number = STATE_MAGIC_NUMBER
  | .by_name name => s.name = name ∧ ∀ b ∈ pre, ∀ t, cell h b = some t → t.name ≠ name

/-- The FSM record after the transition step of `fsm_poll`: a pending request becomes the
current state, the old current state becomes the previous one and the buffer is emptied; with
no pending request nothing changes. -/
def fsm.stepped (F : fsm) : fsm :=
  if F.sta_next ≠ 0 then { F with sta_prev := F.sta_curr, sta_curr := F.sta_next, sta_next := 0 }
  else F

/-- The actions `fsm_poll` took itself, those of the polls of child FSMs left out. -/
def own (t : List (Nat × action)) : List action :=
  (t.filter (fun a => a.1 = 0)).map (fun a => a.2)

/-- The child FSMs polled, in order, by the actions in `t`. -/
def polled (t : List action) : List Nat :=
  t.filterMap (fun a => match a with
    | .poll c => some c
    | _ => none)

/-- The events forwarded by the actions in `t`, each with the queue it was sent to: the
sends with the bounded wait of 200 that `fsm_poll` uses to pass an event to a child FSM. -/
def forwarded (t : List action) : List (Nat × event) :=
  t.filterMap (fun a => match a with
    | .send q e 200 _ => some (q, e)
    | _ => none)

/-- The handler invocations among the actions in `t`, in order. -/
def calls (t : List action) : List (Nat × event) :=
  t.filterMap (fun a => match a with
    | .call h e _ => some (h, e)
    | _ => none)

/-- The non-blocking sends among the actions in `t` (the wait of 0 that `fsm_poll` uses for
its own polling event), each with the queue it was sent to. -/
def posted (t : List action) : List (Nat × event) :=
  t.filterMap (fun a => match a with
    | .send q e 0 _ => some (q, e)
    | _ => none)

/-- The receives among the actions in `t`, each with the queue and what was received. -/
def received (t : List action) : List (Nat × Option event) :=
  t.filterMap (fun a => match a with
    | .receive q r => some (q, r)
    | _ => none)

/-- The child FSMs of an FSM: the list of FSMs attached to the state that is current once a
pending request is applied (`[]` when a link is broken). -/
def World.children (w : World) (g : Nat) : List Nat :=
  match w.fsm? g with
  | none => []
  | some G =>
    match w.state? G.stepped.sta_curr with
    | none => []
    | some C =>
      match fsm_chain w.fsms w.ffuel C.child_fsm with
      | .ok buf => buf
      | .error _ => []

/-- The polls of child FSMs that a poll of `g` is to make in the composition tree of `w`, in
order and with their depth, down to `n` levels: each child of `g`, followed by the polls below
that child. -/
def World.tree_polls (w : World) : Nat → Nat → Nat → List (Nat × Nat)
  | 0, _, _ => []
  | n + 1, d, g => (w.children g).flatMap (fun c => (d, c) :: World.tree_polls w n (d + 1) c)

/-- The polls of child FSMs in a trace, each with its depth. -/
def all_polled (t : List (Nat × action)) : List (Nat × Nat) :=
  t.filterMap (fun a => match a.2 with
    | .poll c => some (a.1, c)
    | _ => none)

/-- The event queue of the FSM at `c` (`0` when there is no such FSM). -/
def World.queue_of (w : World) (c : Nat) : Nat :=
  match w.fsm? c with
  | some C => C.event_queue
  | none => 0

/-- No FSM other than `f` has the state at `c` as its current or its pending state. -/
def World.sole_user (w : World) (f c : Nat) : Prop :=
  ∀ g G, g ≠ f → w.fsm? g = some G → G.sta_curr ≠ c ∧ G.sta_next ≠ c

/-- The handlers leave an observation `obs` of the world as it is. -/
def handlers.keep {α : Type} (hs : handlers) (obs : World → α) : Prop :=
  ∀ h e w, obs (hs h e w).2 = obs w

/-- The handlers do not write to the event they are handed. -/
def handlers.readonly (hs : handlers) : Prop :=
  ∀ h e w, (hs h e w).1 = e

/-- The FSM record is valid for the calls of the public API: it is initialised (magic number,
OS handle, lock and event queue are set). -/
def fsm.valid (F : fsm) : Prop :=
  F.magic_number = FSM_MAGIC_NUMBER ∧ F.os ≠ 0 ∧ F.lock ≠ 0 ∧ F.event_queue ≠ 0

instance (F : fsm) : Decidable F.valid := by unfold fsm.valid; infer_instance

/-- The state at `c` is alive, its child list is well formed, and every FSM on it has a rank
below that of the FSM `g`. -/
def World.kids_below (w : World) (rank : Nat → Nat) (g c : Nat) : Prop :=
  ∃ C buf, w.state? c = some C ∧ fsm_chain w.fsms w.ffuel C.child_fsm = .ok buf ∧
    ∀ k ∈ buf, rank k < rank g

/-- The world is sound for polling, with a ranking of the FSMs that shows the composition
to be finite and acyclic: no lock is held; every FSM is initialised, its queue exists, its
previous state is still alive, and its current state and its pending target (if any) are
alive with a well-formed child list of FSMs of lower rank. -/
def World.sound (w : World) (rank : Nat → Nat) : Prop :=
  w.held = [] ∧
  ∀ g G, w.fsm? g = some G →
    G.valid ∧ (w.queue? G.event_queue).isSome ∧ (w.state? G.sta_prev).isSome ∧
    w.kids_below rank g G.sta_curr ∧ (G.sta_next ≠ 0 → w.kids_below rank g G.sta_next)

/-- The handlers keep a sound world sound and destroy no FSM and no queue. -/
def handlers.tame (hs : handlers) (rank : Nat → Nat) : Prop :=
  ∀ h e w, w.sound rank →
    (hs h e w).2.sound rank ∧
    (∀ p, (w.fsm? p).isSome → ((hs h e w).2.fsm? p).isSome) ∧
    (∀ q, (w.queue? q).isSome → ((hs h e w).2.queue? q).isSome)

/-- The list `L` is the chain of addresses that starts at `p` and follows the links `nx`
to `NULL`. -/
def linked (nx : Nat → Option Nat) : Nat → List Nat → Prop
  | p, [] => p = 0
  | p, a :: L => p ≠ 0 ∧ a = p ∧ ∃ q, nx p = some q ∧ linked nx q L

/-- The `next` link of the state at an address. -/
def state_next (h : List (Option state)) (p : Nat) : Option Nat :=
  (cell h p).map (fun s => s.next)

/-- The `next` link of the FSM at an address. -/
def fsm_next (h : List (Option fsm)) (p : Nat) : Option Nat :=
  (cell h p).map (fun F => F.next)

/-- The child list of the state at `st`: the FSMs on the chain from its `child_fsm`. -/
def World.kids (w : World) (st : Nat) : Except fault (List Nat) := do
  let S ← ld (w.state? st)
  fsm_chain w.fsms w.ffuel S.child_fsm

/-- The names of the states at the addresses `L`. -/
def World.names (w : World) (L : List Nat) : List String :=
  L.filterMap (fun a => (w.state? a).map (fun s => s.name))

/-- What an action does to the queues: a send that succeeded puts the event at the tail of
the queue, a receive that got an event takes the head away, and nothing else changes a queue
(a send that failed in particular). -/
def queue_effect (qs : List (Option queue)) : action → List (Option queue)
  | .send q e _ true =>
    match cell qs q with
    | some Q => put qs q (some { Q with items := Q.items ++ [e] })
    | none => qs
  | .receive q (some _) =>
    match cell qs q with
    | some Q => put qs q (some { Q with items := Q.items.tail })
    | none => qs
  | _ => qs

/-- The queues after the actions of a trace, in order. -/
def replay (t : List (Nat × action)) (qs : List (Option queue)) : List (Option queue) :=
  t.foldl (fun qs a => queue_effect qs a.2) qs

/-- The world `w1` is the world `w` after the state at `a`, which was registered in the FSM
at `f` (with record `F`) between the states `pre` and the states `post`, was deleted: the
registry is `pre ++ post`, the cell of `a` is freed, the previous and the current state of
the FSM are as before and so is its pending request unless it was for `a` (then the slot is
empty), every other registered state has the record it had (up to its `next` link), and the
other FSM records, the queues and the held locks are as before. -/
def World.deleted (w w1 : World) (f : Nat) (F : fsm) (pre : List Nat) (a : Nat)
    (post : List Nat) : Prop :=
  ∃ F1, w1.fsm? f = some F1 ∧ w1.registry F1 = .ok (pre ++ post) ∧ w1.state? a = none ∧
    F1.sta_prev = F.sta_prev ∧ F1.sta_curr = F.sta_curr ∧
    F1.sta_next = (if F.sta_next = a then 0 else F.sta_next) ∧
    F1.magic_number = F.magic_number ∧ F1.lock = F.lock ∧
    F1.event_queue = F.event_queue ∧ F1.poll_interval = F.poll_interval ∧
    (∀ b ∈ pre ++ post, ∃ t t1, w.state? b = some t ∧ w1.state? b = some t1 ∧
      { t1 with next := 0 } = { t with next := 0 }) ∧
    (∀ g, g ≠ f → w1.fsm? g = w.fsm? g) ∧ w1.queues = w.queues ∧ w1.held = w.held

/-- The fields of a state record that the registries are made of: magic number, id, owner,
lock and `next` link. -/
def state.core (s : state) : Nat × Nat × Nat × Nat × Nat :=
  (s.magic_number, s.id, s.parent_fsm, s.lock, s.next)

/-- The fields of an FSM record that the registries are made of: magic number, OS handle,
lock, event queue and the head of the state list. -/
def fsm.core (F : fsm) : Nat × Nat × Nat × Nat × Nat :=
  (F.magic_number, F.os, F.lock, F.event_queue, F.state_list)

/-- The world `w1` has the registries of `w`: the same locks are held, no lock handle was
lost, and every state record and every FSM record is as in `w` in the fields that the
registries are made of. -/
def World.alike (w w1 : World) : Prop :=
  w1.held = w.held ∧ w.mutexes ≤ w1.mutexes ∧
  (∀ p, (cell w1.states p).map state.core = (cell w.states p).map state.core) ∧
  (∀ g, (cell w1.fsms g).map fsm.core = (cell w.fsms g).map fsm.core)

/-- The ids of the states at the addresses `L`. -/
def World.ids (w : World) (L : List Nat) : List Nat :=
  L.filterMap (fun a => (w.state? a).map (fun s => s.id))

/-- The registry of the FSM at `g`, with record `G`, is in order: the FSM is initialised, its
lock is a handle the OS gave out, and its state list is a chain of live states with pairwise
distinct ids, each owned by this FSM and with a lock of its own. -/
def World.neat (w : World) (g : Nat) (G : fsm) : Prop :=
  G.valid ∧ G.lock ≤ w.mutexes ∧
  ∃ L, w.registry G = .ok L ∧ (w.ids L).Nodup ∧
    ∀ a ∈ L, ∃ S, w.state? a = some S ∧ S.magic_number = STATE_MAGIC_NUMBER ∧
      S.parent_fsm = g ∧ S.lock ≠ 0 ∧ S.lock ≠ G.lock

/-- The registries are in order: no lock is held, and the registry of every FSM is in
order. -/
def World.tidy (w : World) : Prop :=
  w.held = [] ∧ ∀ g G, w.fsm? g = some G → w.neat g G

/-- The handlers keep the registries in order. -/
def handlers.steady (hs : handlers) : Prop :=
  ∀ h e w, w.tidy → (hs h e w).2.tidy

/-- A call of the public API that may change the world (the lookups and listings leave it as
it is), or the passing of time. -/
inductive op where
  | new (name : Option String)
  | del (f : Nat)
  | state_add (f : Nat) (name : Option String) (id handler : Nat)
  | state_del (f id : Nat)
  | state_del_by_name (f : Nat) (name : String)
  | switch (f : Nat) (r : request)
  | poll (n f : Nat)
  | child_fsm_add (st f : Nat)
  | child_fsm_del (st f : Nat)
  | change_default_poll_interval (f v : Nat)
  | change_state_poll_interval (st v : Nat)
  | event_send (f type : Nat) (data : payload) (datalen : Nat)
  | event_clear (f : Nat)
  | tick (ms : Nat)
deriving DecidableEq, Repr

/-- The world after a call that returned, whatever it returned. -/
def op.run (hs : handlers) : op → World → Except fault World
  | .new name, w => (fsm_new name w).map (fun r => r.2)
  | .del f, w => (fsm_del (some f) w).map (fun r => r.2.2)
  | .state_add f name id handler, w => (fsm_state_add f name id handler w).map (fun r => r.2)
  | .state_del f id, w => (fsm_state_del f id w).map (fun r => r.2)
  | .state_del_by_name f name, w => (fsm_state_del_by_name f name w).map (fun r => r.2)
  | .switch f r, w => (r.run f w).map (fun r => r.2)
  | .poll n f, w => (fsm_poll hs n f w).map (fun r => r.world)
  | .child_fsm_add st f, w => (fsm_state_child_fsm_add st f w).map (fun r => r.2)
  | .child_fsm_del st f, w => (fsm_state_child_fsm_del st f w).map (fun r => r.2)
  | .change_default_poll_interval f v, w =>
    (fsm_change_default_poll_interval f v w).map (fun r => r.2)
  | .change_state_poll_interval st v, w =>
    (fsm_change_state_poll_interval st v w).map (fun r => r.2)
  | .event_send f type data datalen, w => (fsm_event_send f type data datalen w).map (fun r => r.2)
  | .event_clear f, w => (fsm_event_clear f w).map (fun r => r.2)
  | .tick ms, w => .ok { w with now := w.now + ms }

/-- The world after a sequence of calls, each of which returned. -/
def op.runs (hs : handlers) : List op → World → Except fault World
  | [], w => .ok w
  | o :: rest, w => do
    let w ← o.run hs w
    op.runs hs rest w

/-- The world can be reached from the world before any call by calls of the public API, with
`hs` as the handlers. -/
def World.reachable (hs : handlers) (w : World) : Prop :=
  ∃ ops, op.runs hs ops World.boot = .ok w

/-- The calls `fsm_state_add(fsm, name, id, handler)` for a list of states, in order, with the
values they return. -/
def adds (f : Nat) : List (Option String × Nat × Nat) → World → Except fault (List Int × World)
  | [], w => .ok ([], w)
  | (name, id, handler) :: rest, w => do
    let (ret, w) ← fsm_state_add f name id handler w
    let (rets, w) ← adds f rest w
    return (ret :: rets, w)

/-- The calls `fsm_poll(fsm)` at the times `ts`, in order. -/
def polls (hs : handlers) (n f : Nat) : List Nat → World → Except fault World
  | [], w => .ok w
  | t :: rest, w => do
    let r ← fsm_poll hs n f { w with now := t }
    polls hs n f rest r.world

/-- The handler calls in a trace, at any depth, in order. -/
def all_calls (t : List (Nat × action)) : List (Nat × event) :=
  calls (t.map (fun a => a.2))

/-- The world after a sequence of calls, each of which returned, with the handler calls that
the polls among them made, in order. -/
def op.traced (hs : handlers) : List op → World → Except fault (List (Nat × event) × World)
  | [], w => .ok ([], w)
  | .poll n f :: rest, w => do
    let r ← fsm_poll hs n f w
    let (t, w) ← op.traced hs rest r.world
    return (all_calls r.trace ++ t, w)
  | o :: rest, w => do
    let w ← o.run hs w
    op.traced hs rest w

/-- The state record as it is when everything happens `d` ms later: a poll timestamp that
was set is `d` later (0 is the value of a state that was never polled). -/
def state.later (d : Nat) (s : state) : state :=
  { s with ts_poll := if s.ts_poll = 0 then 0 else s.ts_poll + d }

/-- The event as it is when everything happens `d` ms later. -/
def event.later (d : Nat) (e : event) : event :=
  { e with timestamp := e.timestamp + d }

/-- The queue as it is when everything happens `d` ms later. -/
def queue.later (d : Nat) (Q : queue) : queue :=
  { Q with items := Q.items.map (event.later d) }

/-- The world as it is when everything happens `d` ms later. -/
def World.later (d : Nat) (w : World) : World :=
  { states := w.states.map (Option.map (state.later d)), fsms := w.fsms,
    queues := w.queues.map (Option.map (queue.later d)), mutexes := w.mutexes, held := w.held,
    now := w.now + d }

/-- The action as it is when everything happens `d` ms later. -/
def action.later (d : Nat) : action → action
  | .send q e b ok => .send q (e.later d) b ok
  | .receive q r => .receive q (r.map (event.later d))
  | .call h e held => .call h (e.later d) held
  | .poll c => .poll c

/-- The outcome of a poll as it is when everything happens `d` ms later. -/
def poll_result.later (d : Nat) (r : poll_result) : poll_result :=
  { ret := r.ret, world := r.world.later d,
    trace := r.trace.map (fun a => (a.1, a.2.later d)) }

/-- The state at address `a` is past the point where the time of the first poll matters: its
poll timestamp is not in the future, and when it was never polled (and is not ROOT) its
interval, or the pending one that replaces a never-poll interval, has passed since time 0
already. -/
def state.timed (now a : Nat) (S : state) : Bool :=
  decide (S.ts_poll ≤ now) &&
  (a == ROOT || S.ts_poll != 0 ||
    (if S.poll_interval = FSM_NO_POLL then
      (S.poll_interval_next == FSM_NO_POLL || decide (S.poll_interval_next ≤ now))
    else decide (S.poll_interval ≤ now)))

/-- The world is past the point where the time of the first poll matters: the clock is past
0, every state is, and no FSM is in ROOT or about to stay there. -/
def World.timed (w : World) : Bool :=
  decide (0 < w.now) &&
  (List.range (w.states.length + 1)).all (fun a =>
    match w.state? a with
    | some S => S.timed w.now a
    | none => true) &&
  (List.range (w.fsms.length + 1)).all (fun g =>
    match w.fsm? g with
    | some G => G.stepped.sta_curr != ROOT
    | none => true)

/-- A call that does not read the poll timestamps and neither creates nor deletes an FSM or
a state. -/
def op.plain : op → Bool
  | .switch _ _ => true
  | .poll _ _ => true
  | .child_fsm_add _ _ => true
  | .change_state_poll_interval _ _ => true
  | .event_send _ _ _ _ => true
  | .event_clear _ => true
  | .tick _ => true
  | _ => false

/-- Every poll in the sequence of calls is made in a world that is past the point where the
time of the first poll matters, and no poll is made and no event is sent later than
`limit`. -/
def op.timed_all (hs : handlers) (limit : Nat) : List op → World → Bool
  | [], _ => true
  | o :: rest, w =>
    (match o with
      | .poll _ _ => w.timed && decide (w.now ≤ limit)
      | .event_send _ _ _ _ => decide (w.now ≤ limit)
      | _ => true) &&
    match o.run hs w with
    | .ok w1 => op.timed_all hs limit rest w1
    | .error _ => true

/-! ## The reference test (`test_state_machine.c`) -/

def TEST_SEQ_BUF_LEN : Nat := 200
def STATE_1_ID : Nat := 5
def STATE_1_NAME : String := "Test state 1"
def STATE_2_ID : Nat := 2
def STATE_2_NAME : String := "Test state 2"
def STATE_3_ID : Nat := 80
def STATE_3_NAME : String := "Test child state"
def TEST_EVENT : Nat := 0xA555

/-- The variables that the handlers of the test write: the static `test_seq_buf` and run
counters, and the `test_event_data` of the test case, which the events point to. -/
structure test_vars where
  test_seq_buf : String
  sta1_run_cnt : Int
  sta2_run_cnt : Int
  sta3_run_cnt : Int
  test_event_data : Int
deriving DecidableEq, Repr

/-- `append_seq`: `snprintf` into the five bytes of `seq_str`, then `strncat` of what the
buffer still has room for. -/
def append_seq (seq : Nat) (v : test_vars) : test_vars :=
  { v with test_seq_buf := v.test_seq_buf ++
      (((toString seq ++ " ").take 4).take (TEST_SEQ_BUF_LEN - v.test_seq_buf.length)) }

/-- `IS_ENTER_FROM` and `IS_EXIT_TO`: the id in the `state_info` that the event points to. -/
def IS_ENTER_FROM (e : event) (id : Nat) : Bool :=
  match e.data with
  | .info i => i.id = id
  | _ => false

/-- `IS_ENTER_FROM_NAME` and `IS_EXIT_TO_NAME`: the name in the `state_info` that the event
points to. -/
def IS_ENTER_FROM_NAME (e : event) (name : String) : Bool :=
  match e.data with
  | .info i => i.name = name
  | _ => false

/-- `state1_handler`, as what it does to the variables of the test. -/
def state1_handler (e : event) (v : test_vars) : test_vars :=
  let v := { v with sta1_run_cnt := v.sta1_run_cnt + 1 }
  if e.type = FSM_EVT_ENTER then
    if IS_ENTER_FROM e STATE_ID_ROOT then append_seq 1 v
    else if IS_ENTER_FROM_NAME e STATE_2_NAME then append_seq 7 v
    else v
  else if e.type = FSM_EVT_EXIT then
    if IS_ENTER_FROM_NAME e STATE_2_NAME then append_seq 3 v else v
  else if e.type = FSM_EVT_POLL then append_seq 2 v
  else if e.type = TEST_EVENT then
    let v := append_seq 9 v
    { v with test_event_data := v.test_event_data + 1 }
  else v

/-- `state2_handler`, as what it does to the variables of the test. -/
def state2_handler (e : event) (v : test_vars) : test_vars :=
  let v := { v with sta2_run_cnt := v.sta2_run_cnt + 1 }
  if e.type = FSM_EVT_ENTER then
    if IS_ENTER_FROM e STATE_1_ID then append_seq 4 v else v
  else if e.type = FSM_EVT_EXIT then
    if IS_ENTER_FROM_NAME e STATE_1_NAME then append_seq 6 v else v
  else if e.type = FSM_EVT_POLL then append_seq 5 v
  else v

/-- `state3_handler`, as what it does to the variables of the test. -/
def state3_handler (e : event) (v : test_vars) : test_vars :=
  let v := { v with sta3_run_cnt := v.sta3_run_cnt + 1 }
  if e.type = FSM_EVT_ENTER then
    if IS_ENTER_FROM e STATE_ID_ROOT then append_seq 8 v else v
  else if e.type = TEST_EVENT then append_seq 10 v
  else if e.type = FSM_EVT_POLL then append_seq 11 v
  else v

/-- The handlers of the test as the engine sees them, `state1_handler` as handler 1,
`state2_handler` as 2 and `state3_handler` as 3: they leave the memory of the engine and the
event they are handed as they are. -/
def hs_test : handlers := fun _ e w => (e, w)

/-- What the handlers of the test record when they are called as in the list of calls. -/
def test_record (v : test_vars) : List (Nat × event) → test_vars
  | [] => v
  | (h, e) :: t =>
    test_record
      (if h = 1 then state1_handler e v
       else if h = 2 then state2_handler e v
       else if h = 3 then state3_handler e v
       else v) t

/-- The loop `for(i = 0; i < k; i++) { fsm_poll(fsm); sysdelay_ms(ms); }`. -/
def poll_loop (fsm ms : Nat) : Nat → List op
  | 0 => []
  | k + 1 => .poll 2 fsm :: .tick ms :: poll_loop fsm ms k

/-- The loop of 500 polls of the test from index `i` on, `k` polls to go: a poll, a delay of
1 ms and, when the index is a multiple of 50, `TEST_EVENT` sent with a pointer to
`test_event_data`. -/
def send_loop (fsm : Nat) : Nat → Nat → List op
  | 0, _ => []
  | k + 1, i =>
    .poll 2 fsm :: .tick 1 ::
      ((if i % 50 = 0 then [op.event_send fsm TEST_EVENT (.user 1) 4] else []) ++
        send_loop fsm k (i + 1))

/-- The part of the test case from the first poll to the last, given the handles. -/
def test_polls (fsm child_fsm state1 state2 state3 : Nat) : List op :=
  poll_loop fsm 1 51 ++
  [.switch fsm (.by_state_handle state2), .switch fsm (.by_id STATE_1_ID), .event_clear fsm] ++
  poll_loop fsm 10 50 ++
  [.switch fsm (.by_id STATE_1_ID), .switch fsm (.by_id STATE_2_ID),
   .change_state_poll_interval state1 FSM_NO_POLL, .child_fsm_add state1 child_fsm] ++
  send_loop fsm 500 0 ++
  [.change_state_poll_interval state3 20] ++
  poll_loop fsm 1 100

/-- The test case up to the first poll: the two FSMs, three states added and deleted again,
the default intervals, the three states with their handlers, two additions refused, the
lookups and the pending interval of `S2`.  The result holds the handles `fsm`, `child_fsm`,
`state1`, `state2` and `state3`. -/
def test_setup : Except fault ((Nat × Nat × Nat × Nat × Nat) × World) := do
  let (fsm, w) ← fsm_new (some "Test FSM") World.boot
  let (child_fsm, w) ← fsm_new (some "Test child FSM") w
  let (_, w) ← fsm_state_add fsm (some STATE_1_NAME) STATE_1_ID 0 w
  let (_, w) ← fsm_state_add fsm (some STATE_2_NAME) STATE_2_ID 0 w
  let (_, w) ← fsm_state_add fsm (some STATE_3_NAME) STATE_3_ID 0 w
  let (_, w) ← fsm_state_del fsm STATE_1_ID w
  let (_, w) ← fsm_state_del fsm STATE_2_ID w
  let (_, w) ← fsm_state_del fsm STATE_3_ID w
  let (_, w) ← fsm_change_default_poll_interval fsm 10 w
  let (_, w) ← fsm_change_default_poll_interval child_fsm FSM_NO_POLL w
  let (_, w) ← fsm_state_add fsm (some STATE_1_NAME) STATE_1_ID 1 w
  let (_, w) ← fsm_state_add fsm (some STATE_2_NAME) STATE_2_ID 2 w
  let (_, w) ← fsm_state_add child_fsm (some STATE_3_NAME) STATE_3_ID 3 w
  let (_, w) ← fsm_state_add fsm (some STATE_2_NAME) STATE_2_ID 2 w
  let (_, w) ← fsm_state_add child_fsm (some STATE_3_NAME) STATE_3_ID 3 w
  let (state1, w) ← fsm_get_state fsm STATE_1_ID w
  let (state2, w) ← fsm_get_state_by_name fsm STATE_2_NAME w
  let (state3, w) ← fsm_get_state child_fsm STATE_3_ID w
  let (_, w) ← fsm_change_state_poll_interval state2 100 w
  return ((fsm, child_fsm, state1, state2, state3), w)

/-- The test case with the first poll at time `t0`, the clock advancing by the delays of the
test only: what the handlers have recorded after the last poll. -/
def test_case (t0 : Nat) : Except fault test_vars := do
  let ((fsm, child_fsm, state1, state2, state3), w) ← test_setup
  let (t, _) ← op.traced hs_test (test_polls fsm child_fsm state1 state2 state3)
    { w with now := t0 }
  return test_record
    { test_seq_buf := "", sta1_run_cnt := 0, sta2_run_cnt := 0, sta3_run_cnt := 0,
      test_event_data := 0 } t

/-! ## Example worlds

Worlds built with the public API, in the manner of the reference test
(`test_state_machine.c`), each given as the construction and as the world it yields. -/

/-- Handlers that do nothing to the world and to the event. -/
def hs_idle : handlers := fun _ e w => (e, w)

/-- Handlers of which handler `1` detaches the FSM at `3` from the state at `2` when it is
called, and which do nothing else. -/
def hs_detach : handlers := fun h e w =>
  if h = 1 then
    match fsm_state_child_fsm_del 2 3 w with
    | .ok (_, w1) => (e, w1)
    | .error _ => (e, w)
  else (e, w)

/-- An FSM with two states of the same name, `"A"`, with ids 1 and 2. -/
def mk_dup : Except fault World := do
  let (f, w) ← fsm_new (some "F") World.boot
  let (_, w) ← fsm_state_add f (some "A") 1 0 w
  let (_, w) ← fsm_state_add f (some "A") 2 0 w
  pure w

/-- The world that `mk_dup` yields: the FSM at 1, its states at 2 and 3. -/
def w_dup : World :=
  { states := [
      some { magic_number := 438215115, id := 4294967295, name := "ROOT", handler := 0,
             ts_poll := 0, poll_interval := 100, poll_interval_next := 100, lock := 1,
             parent_fsm := 0, child_fsm := 0, next := 0 },
      some { magic_number := 438215115, id := 1, name := "A", handler := 0, ts_poll := 0,
             poll_interval := 100, poll_interval_next := 100, lock := 3, parent_fsm := 1,
             child_fsm := 0, next := 3 },
      some { magic_number := 438215115, id := 2, name := "A", handler := 0, ts_poll := 0,
             poll_interval := 100, poll_interval_next := 100, lock := 4, parent_fsm := 1,
             child_fsm := 0, next := 0 }],
    fsms := [
      some { magic_number := 4112441695, lock := 2, name := "F", poll_interval := 100,
             event_queue := 1, parent_state := 0, state_list := 2, sta_prev := 1, sta_curr := 1,
             sta_next := 2, next := 0, os := 1 }],
    queues := [
      some { length := 10, items := [] }],
    mutexes := 4,
    held := [],
    now := 0 }

/-- The FSM of the reference test: default interval 10, states `S1` (id 5, handler 1) and
`S2` (id 2, handler 2); `S1`, registered first, is the pending target. -/
def mk_two : Except fault World := do
  let (f, w) ← fsm_new (some "Test FSM") World.boot
  let (_, w) ← fsm_change_default_poll_interval f 10 w
  let (_, w) ← fsm_state_add f (some "Test state 1") 5 1 w
  let (_, w) ← fsm_state_add f (some "Test state 2") 2 2 w
  pure w

/-- The world that `mk_two` yields: the FSM at 1, `S1` at 2, `S2` at 3. -/
def w_two : World :=
  { states := [
      some { magic_number := 438215115, id := 4294967295, name := "ROOT", handler := 0,
             ts_poll := 0, poll_interval := 100, poll_interval_next := 100, lock := 1,
             parent_fsm := 0, child_fsm := 0, next := 0 },
      some { magic_number := 438215115, id := 5, name := "Test state 1", handler := 1,
             ts_poll := 0, poll_interval := 10, poll_interval_next := 10, lock := 3,
             parent_fsm := 1, child_fsm := 0, next := 3 },
      some { magic_number := 438215115, id := 2, name := "Test state 2", handler := 2,
             ts_poll := 0, poll_interval := 10, poll_interval_next := 10, lock := 4,
             parent_fsm := 1, child_fsm := 0, next := 0 }],
    fsms := [
      some { magic_number := 4112441695, lock := 2, name := "Test FSM", poll_interval := 10,
             event_queue := 1, parent_state := 0, state_list := 2, sta_prev := 1, sta_curr := 1,
             sta_next := 2, next := 0, os := 1 }],
    queues := [
      some { length := 10, items := [] }],
    mutexes := 4,
    held := [],
    now := 0 }

/-- The FSM of `mk_two` after polls at times 10 and 11: `S1` is current, nothing is pending. -/
def mk_run : Except fault World := do
  let w ← mk_two
  let r ← fsm_poll hs_idle 1 1 { w with now := 10 }
  let r ← fsm_poll hs_idle 1 1 { r.world with now := 11 }
  pure r.world

/-- The world that `mk_run` yields. -/
def w_run : World :=
  { states := [
      some { magic_number := 438215115, id := 4294967295, name := "ROOT", handler := 0,
             ts_poll := 0, poll_interval := 100, poll_interval_next := 100, lock := 1,
             parent_fsm := 0, child_fsm := 0, next := 0 },
      some { magic_number := 438215115, id := 5, name := "Test state 1", handler := 1,
             ts_poll := 10, poll_interval := 10, poll_interval_next := 10, lock := 3,
             parent_fsm := 1, child_fsm := 0, next := 3 },
      some { magic_number := 438215115, id := 2, name := "Test state 2", handler := 2,
             ts_poll := 0, poll_interval := 10, poll_interval_next := 10, lock := 4,
             parent_fsm := 1, child_fsm := 0, next := 0 }],
    fsms := [
      some { magic_number := 4112441695, lock := 2, name := "Test FSM", poll_interval := 10,
             event_queue := 1, parent_state := 0, state_list := 2, sta_prev := 1, sta_curr := 2,
             sta_next := 0, next := 0, os := 1 }],
    queues := [
      some { length := 10, items := [] }],
    mutexes := 4,
    held := [],
    now := 11 }

/-- A composition tree: the FSM of the reference test with two child FSMs attached under
`S1`, the child FSM of the test (default interval `FSM_NO_POLL`, state `S3` with id 80 and
handler 3) and an FSM without states; polled at times 10 and 11, so that `S1` and `S3` are
current; at time 12 the event `0xA555` is sent to the parent. -/
def mk_tree : Except fault World := do
  let (f, w) ← fsm_new (some "Test FSM") World.boot
  let (c, w) ← fsm_new (some "Test child FSM") w
  let (c2, w) ← fsm_new (some "Second child FSM") w
  let (_, w) ← fsm_change_default_poll_interval f 10 w
  let (_, w) ← fsm_change_default_poll_interval c FSM_NO_POLL w
  let (_, w) ← fsm_state_add f (some "Test state 1") 5 1 w
  let (_, w) ← fsm_state_add f (some "Test state 2") 2 2 w
  let (_, w) ← fsm_state_add c (some "Test child state") 80 3 w
  let (s1, w) ← fsm_get_state f 5 w
  let (_, w) ← fsm_state_child_fsm_add s1 c w
  let (_, w) ← fsm_state_child_fsm_add s1 c2 w
  let r ← fsm_poll hs_idle 2 f { w with now := 10 }
  let r ← fsm_poll hs_idle 2 f { r.world with now := 11 }
  let (_, w) ← fsm_event_send f 0xA555 (.user 7) 4 { r.world with now := 12 }
  pure w

/-- The world that `mk_tree` yields: the parent FSM at 1, the child FSMs at 2 and 3, `S1` at
2, `S2` at 3, `S3` at 4. -/
def w_tree : World :=
  { states := [
      some { magic_number := 438215115, id := 4294967295, name := "ROOT", handler := 0,
             ts_poll := 0, poll_interval := 100, poll_interval_next := 100, lock := 1,
             parent_fsm := 0, child_fsm := 0, next := 0 },
      some { magic_number := 438215115, id := 5, name := "Test state 1", handler := 1,
             ts_poll := 10, poll_interval := 10, poll_interval_next := 10, lock := 5,
             parent_fsm := 1, child_fsm := 2, next := 3 },
      some { magic_number := 438215115, id := 2, name := "Test state 2", handler := 2,
             ts_poll := 0, poll_interval := 10, poll_interval_next := 10, lock := 6,
             parent_fsm := 1, child_fsm := 0, next := 0 },
      some { magic_number := 438215115, id := 80, name := "Test child state", handler := 3,
             ts_poll := 0, poll_interval := 4294967295, poll_interval_next := 4294967295,
             lock := 7, parent_fsm := 2, child_fsm := 0, next := 0 }],
    fsms := [
      some { magic_number := 4112441695, lock := 2, name := "Test FSM", poll_interval := 10,
             event_queue := 1, parent_state := 0, state_list := 2, sta_prev := 1, sta_curr := 2,
             sta_next := 0, next := 0, os := 1 },
      some { magic_number := 4112441695, lock := 3, name := "Test child FSM",
             poll_interval := 4294967295, event_queue := 2, parent_state := 2, state_list := 4,
             sta_prev := 1, sta_curr := 4, sta_next := 0, next := 3, os := 1 },
      some { magic_number := 4112441695, lock := 4, name := "Second child FSM",
             poll_interval := 100, event_queue := 3, parent_state := 2, state_list := 0,
             sta_prev := 1, sta_curr := 1, sta_next := 0, next := 0, os := 1 }],
    queues := [
      some { length := 10,
             items := [{ type := 42325, timestamp := 12, data := .user 7, datalen := 4 }] },
      some { length := 10, items := [] },
      some { length := 10, items := [] }],
    mutexes := 7,
    held := [],
    now := 12 }

/-- A new FSM and nothing else. -/
def mk_new : Except fault World := do
  let (_, w) ← fsm_new (some "F") World.boot
  pure w

/-- The world that `mk_new` yields: the FSM at 1, with ROOT as its current state. -/
def w_new : World :=
  { states := [
      some { magic_number := 438215115, id := 4294967295, name := "ROOT", handler := 0,
             ts_poll := 0, poll_interval := 100, poll_interval_next := 100, lock := 1,
             parent_fsm := 0, child_fsm := 0, next := 0 }],
    fsms := [
      some { magic_number := 4112441695, lock := 2, name := "F", poll_interval := 100,
             event_queue := 1, parent_state := 0, state_list := 0, sta_prev := 1, sta_curr := 1,
             sta_next := 0, next := 0, os := 1 }],
    queues := [
      some { length := 10, items := [] }],
    mutexes := 2,
    held := [],
    now := 0 }

/-- An FSM whose current state was deleted: a new FSM, one state with id 5 added, a poll at
time 10 that makes the state current, and the state deleted by its id. -/
def mk_gone : Except fault World :=
  op.runs hs_idle [.new (some "F"), .state_add 1 (some "A") 5 1, .tick 10, .poll 1 1,
    .state_del 1 5] World.boot

/-- The world that `test_setup` yields: the FSM of the test at 1, the child FSM at 2, `S1` at
5, `S2` at 6 and `S3` at 7; the cells of the states that were deleted or refused are free. -/
def w_case : World :=
  { states := [
      some { magic_number := 438215115, id := 4294967295, name := "ROOT", handler := 0,
             ts_poll := 0, poll_interval := 100, poll_interval_next := 100, lock := 1,
             parent_fsm := 0, child_fsm := 0, next := 0 },
      none,
      none,
      none,
      some { magic_number := 438215115, id := 5, name := "Test state 1", handler := 1,
             ts_poll := 0, poll_interval := 10, poll_interval_next := 10, lock := 7,
             parent_fsm := 1, child_fsm := 0, next := 6 },
      some { magic_number := 438215115, id := 2, name := "Test state 2", handler := 2,
             ts_poll := 0, poll_interval := 10, poll_interval_next := 100, lock := 8,
             parent_fsm := 1, child_fsm := 0, next := 0 },
      some { magic_number := 438215115, id := 80, name := "Test child state", handler := 3,
             ts_poll := 0, poll_interval := 4294967295, poll_interval_next := 4294967295,
             lock := 9, parent_fsm := 2, child_fsm := 0, next := 0 },
      none,
      none],
    fsms := [
      some { magic_number := 4112441695, lock := 2, name := "Test FSM", poll_interval := 10,
             event_queue := 1, parent_state := 0, state_list := 5, sta_prev := 1, sta_curr := 1,
             sta_next := 5, next := 0, os := 1 },
      some { magic_number := 4112441695, lock := 3, name := "Test child FSM",
             poll_interval := 4294967295, event_queue := 2, parent_state := 0, state_list := 7,
             sta_prev := 1, sta_curr := 1, sta_next := 7, next := 0, os := 1 }],
    queues := [
      some { length := 10, items := [] },
      some { length := 10, items := [] }],
    mutexes := 9,
    held := [],
    now := 0 }

/-- The world of the reference test during its polls: `w_case` at the time `now`, with the
fields that the polls and the calls between them change.  `s1`, `s2` and `s3` are the poll
timestamp, the poll interval and the pending poll interval of the three states, `kid` is the
child list of `S1`, `par` the parent state of the child FSM, `f1` and `f2` are the previous,
current and pending state of the two FSMs. -/
def w_case_at (now : Nat) (s1 s2 s3 : Nat × Nat × Nat) (kid par : Nat)
    (f1 f2 : Nat × Nat × Nat) : World :=
  { states := [
      some { magic_number := 438215115, id := 4294967295, name := "ROOT", handler := 0,
             ts_poll := 0, poll_interval := 100, poll_interval_next := 100, lock := 1,
             parent_fsm := 0, child_fsm := 0, next := 0 },
      none,
      none,
      none,
      some { magic_number := 438215115, id := 5, name := "Test state 1", handler := 1,
             ts_poll := s1.1, poll_interval := s1.2.1, poll_interval_next := s1.2.2,
             lock := 7, parent_fsm := 1, child_fsm := kid, next := 6 },
      some { magic_number := 438215115, id := 2, name := "Test state 2", handler := 2,
             ts_poll := s2.1, poll_interval := s2.2.1, poll_interval_next := s2.2.2,
             lock := 8, parent_fsm := 1, child_fsm := 0, next := 0 },
      some { magic_number := 438215115, id := 80, name := "Test child state", handler := 3,
             ts_poll := s3.1, poll_interval := s3.2.1, poll_interval_next := s3.2.2,
             lock := 9, parent_fsm := 2, child_fsm := 0, next := 0 },
      none,
      none],
    fsms := [
      some { magic_number := 4112441695, lock := 2, name := "Test FSM", poll_interval := 10,
             event_queue := 1, parent_state := 0, state_list := 5, sta_prev := f1.1,
             sta_curr := f1.2.1, sta_next := f1.2.2, next := 0, os := 1 },
      some { magic_number := 4112441695, lock := 3, name := "Test child FSM",
             poll_interval := 4294967295, event_queue := 2, parent_state := par,
             state_list := 7, sta_prev := f2.1, sta_curr := f2.2.1, sta_next := f2.2.2,
             next := 0, os := 1 }],
    queues := [
      some { length := 10, items := [] },
      some { length := 10, items := [] }],
    mutexes := 9,
    held := [],
    now := now }

/-- The polls of the reference test in stages, with the handles and the first poll at time
10, each stage with the world it ends in. -/
def test_stages : List (List op × World) :=
  [(poll_loop 1 1 51,
      w_case_at 61 (60, 10, 10) (0, 10, 100) (0, 4294967295, 4294967295) 0 0 (1, 5, 0) (1, 1, 7)),
   ([.switch 1 (.by_state_handle 6), .switch 1 (.by_id STATE_1_ID), .event_clear 1],
      w_case_at 61 (60, 10, 10) (0, 10, 100) (0, 4294967295, 4294967295) 0 0 (1, 5, 6) (1, 1, 7)),
   (poll_loop 1 10 50,
      w_case_at 561 (60, 10, 10) (461, 100, 100) (0, 4294967295, 4294967295) 0 0 (5, 6, 0)
        (1, 1, 7)),
   ([.switch 1 (.by_id STATE_1_ID), .switch 1 (.by_id STATE_2_ID),
     .change_state_poll_interval 5 FSM_NO_POLL, .child_fsm_add 5 2],
      w_case_at 561 (60, 10, 4294967295) (461, 100, 100) (0, 4294967295, 4294967295) 2 5
        (5, 6, 5) (1, 1, 7))] ++
  (List.range 10).map (fun k =>
    (send_loop 1 50 (50 * k),
      w_case_at (611 + 50 * k) (561, 4294967295, 4294967295) (461, 100, 100)
        (0, 4294967295, 4294967295) 2 5 (6, 5, 0) (1, 7, 0))) ++
  [([.change_state_poll_interval 7 20],
      w_case_at 1061 (561, 4294967295, 4294967295) (461, 100, 100) (0, 4294967295, 20) 2 5
        (6, 5, 0) (1, 7, 0)),
   (poll_loop 1 1 50,
      w_case_at 1111 (561, 4294967295, 4294967295) (461, 100, 100) (1102, 20, 20) 2 5
        (6, 5, 0) (1, 7, 0)),
   (poll_loop 1 1 50,
      w_case_at 1161 (561, 4294967295, 4294967295) (461, 100, 100) (1142, 20, 20) 2 5
        (6, 5, 0) (1, 7, 0))]

/-- The calls of `ops` made from the world `w` as `op.traced` makes them, with the check of
`op.timed_all` made on the way: the handler calls and the last world when every call
returned and the check holds. -/
def op.checked (hs : handlers) (limit : Nat) :
    List op → World → Option (List (Nat × event) × World)
  | [], w => some ([], w)
  | o :: rest, w =>
    if (match o with
        | .poll _ _ => w.timed && decide (w.now ≤ limit)
        | .event_send _ _ _ _ => decide (w.now ≤ limit)
        | _ => true) = true then
      match o with
      | .poll n f =>
        match fsm_poll hs n f w with
        | .ok r =>
          (op.checked hs limit rest r.world).map (fun q => (all_calls r.trace ++ q.1, q.2))
        | .error _ => none
      | _ =>
        match o.run hs w with
        | .ok w1 => op.checked hs limit rest w1
        | .error _ => none
    else none

/-- The calls of `stages` made one stage after the other from the world `w`, with the
handlers of the test: what the handlers have recorded at the end, starting from `v`, provided
that every stage ends in the world given with it and that no poll is made and no event is
sent later than `limit` (`op.checked`). -/
def test_staged (limit : Nat) (v : test_vars) : List (List op × World) → World → Option test_vars
  | [], _ => some v
  | (c, w1) :: rest, w =>
    match op.checked hs_test limit c w with
    | some (t, w2) => if w2 = w1 then test_staged limit (test_record v t) rest w1 else none
    | none => none

/-! ## Notions used to state the theorems (continued) -/

/-- The FSMs `L` form a chain below the FSM `f`: the first is a child FSM of `f` (attached
to the state of `f` that is current once a pending request is applied), and each of the
others is a child FSM of the one before it. -/
def World.chain (w : World) : Nat → List Nat → Prop
  | _, [] => True
  | f, c :: L => c ∈ w.children f ∧ World.chain w c L

/-- The depth that the recursion of `fsm_poll` reached: the number of calls of `fsm_poll`
that were active at the deepest action of the trace. -/
def recursion_depth (t : List (Nat × action)) : Nat :=
  (t.map (fun a => a.1 + 1)).foldr max 0

/-- The child lists are consistent: every FSM is initialised; the child list of every state
is well formed and every FSM on it has that state as its parent state; and every FSM with a
parent state is on the child list of that state. -/
def World.paired (w : World) : Prop :=
  (∀ g G, w.fsm? g = some G → G.valid) ∧
  (∀ st S, w.state? st = some S →
    ∃ L, w.kids st = .ok L ∧ ∀ c ∈ L, ∃ C, w.fsm? c = some C ∧ C.parent_state = st) ∧
  (∀ c C, w.fsm? c = some C → C.parent_state ≠ 0 →
    ∃ L, w.kids C.parent_state = .ok L ∧ c ∈ L)

/-- A sequence of calls of `fsm_state_child_fsm_add(st, f)` (`true`) and
`fsm_state_child_fsm_del(st, f)` (`false`), each of which returns `0`, in which only FSMs
without a parent state are attached: the world after the calls (`none` when the sequence is
not of this kind). -/
def child_calls : List (Bool × Nat × Nat) → World → Option World
  | [], w => some w
  | (true, st, f) :: rest, w =>
    match w.fsm? f, fsm_state_child_fsm_add st f w with
    | some F, .ok (r, w1) => if F.parent_state = 0 ∧ r = 0 then child_calls rest w1 else none
    | _, _ => none
  | (false, st, f) :: rest, w =>
    match fsm_state_child_fsm_del st f w with
    | .ok (r, w1) => if r = 0 then child_calls rest w1 else none
    | .error _ => none

/-- The pending requests are in order: the pending-transition slot of every FSM is empty or
holds a state that is in the registry of the FSM. -/
def World.poised (w : World) : Prop :=
  ∀ g G, w.fsm? g = some G → G.sta_next = 0 ∨ ∃ L, w.registry G = .ok L ∧ G.sta_next ∈ L

/-- The handlers keep the registries and the pending requests in order (as they do when all
they do to the FSMs is to call the public API). -/
def handlers.orderly (hs : handlers) : Prop :=
  ∀ h e w, w.tidy → w.poised → (hs h e w).2.tidy ∧ (hs h e w).2.poised

/-- The handler of the current state of the FSM at `g`, the state that is current once a
pending request is applied (`0`, which is `NULL`, when a link is broken). -/
def World.handler_of (w : World) (g : Nat) : Nat :=
  match w.fsm? g with
  | none => 0
  | some G =>
    match w.state? G.stepped.sta_curr with
    | none => 0
    | some C => C.handler

/-- The FSMs that a poll of `g` reaches in a composition with the child lists `K`, in the
order of the polls and down to `n` levels: `g` itself, then each child of `g`, followed by
the FSMs below that child. -/
def poll_tree (K : Nat → List Nat) : Nat → Nat → List Nat
  | 0, _ => []
  | n + 1, g => g :: (K g).flatMap (poll_tree K n)

/-- One call for each FSM in `T` whose current state has a handler, with the event `e`: the
handler invocations of a poll that hands `e` down to every FSM in `T`. -/
def handed_down (H : Nat → Nat) (e : event) (T : List Nat) : List (Nat × event) :=
  T.flatMap (fun g => if H g = 0 then [] else [(H g, e)])

/-! ## Example worlds (continued) -/

/-- Handlers that change the type of the event they are handed, and do nothing else. -/
def hs_retype : handlers := fun _ e w => ({ e with type := e.type + 1 }, w)

/-- Handlers of which handler `1` requests a transition of the FSM at `2` to its state with
the id 21 when it is called, and which do nothing else. -/
def hs_switch : handlers := fun h e w =>
  if h = 1 then
    match fsm_switch 2 21 w with
    | .ok (_, w1) => (e, w1)
    | .error _ => (e, w)
  else (e, w)

/-- A composition of three levels, after its first poll: the FSM `A` is attached to the
state of the top FSM and the FSM `B` to the first state of `A`; `A` has a second state.  The
values that the calls returned come with the world. -/
def mk_chain : Except fault (List Int × World) := do
  let (f, w) ← fsm_new (some "Top FSM") World.boot
  let (a, w) ← fsm_new (some "Child FSM A") w
  let (b, w) ← fsm_new (some "Child FSM B") w
  let (r1, w) ← fsm_state_add f (some "Top state") 10 1 w
  let (r2, w) ← fsm_state_add a (some "State of A") 20 2 w
  let (r3, w) ← fsm_state_add a (some "Other state of A") 21 4 w
  let (r4, w) ← fsm_state_add b (some "State of B") 30 3 w
  let (s0, w) ← fsm_get_state f 10 w
  let (sa, w) ← fsm_get_state a 20 w
  let (r5, w) ← fsm_state_child_fsm_add s0 a w
  let (r6, w) ← fsm_state_child_fsm_add sa b w
  let r ← fsm_poll hs_idle 3 f w
  return ([r1, r2, r3, r4, r5, r6, r.ret], r.world)

/-- The world that `mk_chain` yields. -/
def w_chain : World :=
  { states := [
      some { magic_number := 438215115, id := 4294967295, name := "ROOT", handler := 0,
             ts_poll := 0, poll_interval := 100, poll_interval_next := 100, lock := 1,
             parent_fsm := 0, child_fsm := 0, next := 0 },
      some { magic_number := 438215115, id := 10, name := "Top state", handler := 1,
             ts_poll := 0, poll_interval := 100, poll_interval_next := 100, lock := 5,
             parent_fsm := 1, child_fsm := 2, next := 0 },
      some { magic_number := 438215115, id := 20, name := "State of A", handler := 2,
             ts_poll := 0, poll_interval := 100, poll_interval_next := 100, lock := 6,
             parent_fsm := 2, child_fsm := 3, next := 4 },
      some { magic_number := 438215115, id := 21, name := "Other state of A", handler := 4,
             ts_poll := 0, poll_interval := 100, poll_interval_next := 100, lock := 7,
             parent_fsm := 2, child_fsm := 0, next := 0 },
      some { magic_number := 438215115, id := 30, name := "State of B", handler := 3,
             ts_poll := 0, poll_interval := 100, poll_interval_next := 100, lock := 8,
             parent_fsm := 3, child_fsm := 0, next := 0 }],
    fsms := [
      some { magic_number := 4112441695, lock := 2, name := "Top FSM", poll_interval := 100,
             event_queue := 1, parent_state := 0, state_list := 2, sta_prev := 1, sta_curr := 2,
             sta_next := 0, next := 0, os := 1 },
      some { magic_number := 4112441695, lock := 3, name := "Child FSM A", poll_interval := 100,
             event_queue := 2, parent_state := 2, state_list := 3, sta_prev := 1, sta_curr := 3,
             sta_next := 0, next := 0, os := 1 },
      some { magic_number := 4112441695, lock := 4, name := "Child FSM B", poll_interval := 100,
             event_queue := 3, parent_state := 3, state_list := 5, sta_prev := 1, sta_curr := 5,
             sta_next := 0, next := 0, os := 1 }],
    queues := [
      some { length := 10, items := [] },
      some { length := 10, items := [] },
      some { length := 10, items := [] }],
    mutexes := 8,
    held := [],
    now := 0 }

/-- Handlers that make the event they are handed a polling event, and do nothing else. -/
def hs_as_poll : handlers := fun _ e w => ({ e with type := FSM_EVT_POLL }, w)

/-- Handlers that give the event they are handed the type `TEST_EVENT`, and do nothing
else. -/
def hs_as_user : handlers := fun _ e w => ({ e with type := TEST_EVENT }, w)

/-- An FSM with the states `"X"` (id 9), `"A"` (id 1) and `"A"` (id 2), after its first poll:
`"X"`, registered first, is the current state and nothing is pending.  The values that the
calls returned come with the world. -/
def mk_twin : Except fault (List Int × World) := do
  let (f, w) ← fsm_new (some "F") World.boot
  let (r1, w) ← fsm_state_add f (some "X") 9 3 w
  let (r2, w) ← fsm_state_add f (some "A") 1 1 w
  let (r3, w) ← fsm_state_add f (some "A") 2 2 w
  let r ← fsm_poll hs_idle 1 f w
  return ([r1, r2, r3, r.ret], r.world)

/-- The world that `mk_twin` yields: the FSM at 1, its states at 2, 3 and 4. -/
def w_twin : World :=
  { states := [
      some { magic_number := 438215115, id := 4294967295, name := "ROOT", handler := 0,
             ts_poll := 0, poll_interval := 100, poll_interval_next := 100, lock := 1,
             parent_fsm := 0, child_fsm := 0, next := 0 },
      some { magic_number := 438215115, id := 9, name := "X", handler := 3, ts_poll := 0,
             poll_interval := 100, poll_interval_next := 100, lock := 3, parent_fsm := 1,
             child_fsm := 0, next := 3 },
      some { magic_number := 438215115, id := 1, name := "A", handler := 1, ts_poll := 0,
             poll_interval := 100, poll_interval_next := 100, lock := 4, parent_fsm := 1,
             child_fsm := 0, next := 4 },
      some { magic_number := 438215115, id := 2, name := "A", handler := 2, ts_poll := 0,
             poll_interval := 100, poll_interval_next := 100, lock := 5, parent_fsm := 1,
             child_fsm := 0, next := 0 }],
    fsms := [
      some { magic_number := 4112441695, lock := 2, name := "F", poll_interval := 100,
             event_queue := 1, parent_state := 0, state_list := 2, sta_prev := 1, sta_curr := 2,
             sta_next := 0, next := 0, os := 1 }],
    queues := [
      some { length := 10, items := [] }],
    mutexes := 5,
    held := [],
    now := 0 }

/-- A child FSM whose parent state was deleted: the child FSM is attached to the one state of
the parent FSM, and the state is deleted with `fsm_state_del`.  The values that the calls
returned come with the world. -/
def mk_orphan : Except fault (List Int × World) := do
  let (p, w) ← fsm_new (some "Parent FSM") World.boot
  let (c, w) ← fsm_new (some "Child FSM") w
  let (r1, w) ← fsm_state_add p (some "S") 1 1 w
  let (s, w) ← fsm_get_state p 1 w
  let (r2, w) ← fsm_state_child_fsm_add s c w
  let (r3, w) ← fsm_state_del p 1 w
  return ([r1, r2, r3], w)

/-- The world that `mk_orphan` yields: the parent FSM at 1, the child FSM at 2, and the freed
cell of the state at 2. -/
def w_orphan : World :=
  { states := [
      some { magic_number := 438215115, id := 4294967295, name := "ROOT", handler := 0,
             ts_poll := 0, poll_interval := 100, poll_interval_next := 100, lock := 1,
             parent_fsm := 0, child_fsm := 0, next := 0 },
      none],
    fsms := [
      some { magic_number := 4112441695, lock := 2, name := "Parent FSM", poll_interval := 100,
             event_queue := 1, parent_state := 0, state_list := 0, sta_prev := 1, sta_curr := 1,
             sta_next := 0, next := 0, os := 1 },
      some { magic_number := 4112441695, lock := 3, name := "Child FSM", poll_interval := 100,
             event_queue := 2, parent_state := 2, state_list := 0, sta_prev := 1, sta_curr := 1,
             sta_next := 0, next := 0, os := 1 }],
    queues := [
      some { length := 10, items := [] },
      some { length := 10, items := [] }],
    mutexes := 4,
    held := [],
    now := 0 }

/-! ## The error monad -/

@[simp] theorem ok_bind {α β : Type} (a : α) (f : α → Except fault β) :
    (Except.ok a >>= f) = f a := rfl

@[simp] theorem error_bind {α β : Type} (e : fault) (f : α → Except fault β) :
    ((Except.error e : Except fault α) >>= f) = Except.error e := rfl

@[simp] theorem pure_eq_ok {α : Type} (a : α) : (pure a : Except fault α) = Except.ok a := rfl

@[simp] theorem map_ok {α β : Type} (g : α → β) (a : α) :
    (Except.ok a : Except fault α).map g = Except.ok (g a) := rfl

@[simp] theorem map_error {α β : Type} (g : α → β) (e : fault) :
    (Except.error e : Except fault α).map g = Except.error e := rfl

theorem bind_eq_ok {α β : Type} {x : Except fault α} {f : α → Except fault β} {r : β} :
    (x >>= f) = Except.ok r ↔ ∃ a, x = Except.ok a ∧ f a = Except.ok r := by
  cases x with
  | error e => simp
  | ok a => simp

theorem map_eq_ok {α β : Type} {x : Except fault α} {g : α → β} {r : β} :
    x.map g = Except.ok r ↔ ∃ a, x = Except.ok a ∧ g a = r := by
  cases x with
  | error e => simp
  | ok a => simp

theorem ld_eq_ok {α : Type} {o : Option α} {a : α} : ld o = Except.ok a ↔ o = some a := by
  cases o <;> simp [ld]

theorem ASSERT_eq_ok {c : Prop} [Decidable c] {u : Unit} : ASSERT c = Except.ok u ↔ c := by
  by_cases h : c <;> simp [ASSERT, h]

theorem mutex_lock_eq_ok {m : Nat} {w w1 : World} :
    mutex_lock m w = Except.ok w1 ↔ m ∉ w.held ∧ w1 = { w with held := m :: w.held } := by
  by_cases h : m ∈ w.held <;> simp [mutex_lock, h, eq_comm]

/-! ## Heaps -/

@[simp] theorem cell_zero {α : Type} (h : List (Option α)) : cell h 0 = none := rfl

theorem cell_bound {α : Type} {h : List (Option α)} {p : Nat} {v : α} (hp : cell h p = some v) :
    p ≠ 0 ∧ p ≤ h.length := by
  cases p with
  | zero => simp at hp
  | succ a =>
    refine ⟨by omega, ?_⟩
    by_contra hlt
    have : h[a]? = none := List.getElem?_eq_none (by omega)
    simp [cell, this] at hp

theorem cell_put_same {α : Type} {h : List (Option α)} {p : Nat} {v : α} (x : Option α)
    (hp : cell h p = some v) : cell (put h p x) p = x := by
  obtain ⟨h0, hl⟩ := cell_bound hp
  cases p with
  | zero => exact absurd rfl h0
  | succ a =>
    have : a < h.length := by omega
    simp [cell, put, List.getElem?_set_self, this]

theorem cell_put_ne {α : Type} (h : List (Option α)) {p q : Nat} (x : Option α) (hne : p ≠ q) :
    cell (put h p x) q = cell h q := by
  cases p with
  | zero => rfl
  | succ a =>
    cases q with
    | zero => rfl
    | succ b =>
      have : a ≠ b := by omega
      simp [cell, put, List.getElem?_set_ne, this]

@[simp] theorem put_length {α : Type} (h : List (Option α)) (p : Nat) (x : Option α) :
    (put h p x).length = h.length := by
  cases p <;> simp [put]

theorem put_cell_self {α : Type} {h : List (Option α)} {p : Nat} {v : α}
    (hp : cell h p = some v) : put h p (some v) = h := by
  obtain ⟨h0, hl⟩ := cell_bound hp
  cases p with
  | zero => rfl
  | succ a =>
    have hlt : a < h.length := by omega
    apply List.ext_getElem?
    intro i
    by_cases hi : a = i
    · subst hi
      simp [cell, List.getElem?_eq_getElem hlt] at hp
      simp [put, List.getElem?_set_self, hlt, hp, List.getElem?_eq_getElem hlt]
    · simp [put, List.getElem?_set_ne, hi]

theorem cell_append_old {α : Type} (h : List (Option α)) (x : Option α) {p : Nat}
    (hp : p ≤ h.length) : cell (h ++ [x]) p = cell h p := by
  cases p with
  | zero => rfl
  | succ a =>
    have : a < h.length := by omega
    simp [cell, List.getElem?_append_left this]

theorem cell_append_new {α : Type} (h : List (Option α)) (x : Option α) :
    cell (h ++ [x]) (h.length + 1) = x := by
  simp [cell]

theorem put_append_new {α : Type} (h : List (Option α)) (x y : Option α) :
    put (h ++ [x]) (h.length + 1) y = h ++ [y] := by
  simp [put]

theorem cell_append_none {α : Type} (h : List (Option α)) (p : Nat) :
    cell (h ++ [none]) p = cell h p := by
  by_cases hp : p ≤ h.length
  · exact cell_append_old h none hp
  · have h1 : cell h p = none := by
      cases hc : cell h p with
      | none => rfl
      | some v => exact absurd (cell_bound hc).2 hp
    rw [h1]
    cases hc : cell (h ++ [none]) p with
    | none => rfl
    | some v =>
      have hb := (cell_bound hc).2
      simp at hb
      have : p = h.length + 1 := by omega
      subst this
      rw [cell_append_new] at hc
      simp at hc

/-! ## Walks over the state list -/

theorem state_chain_mono (h : List (Option state)) :
    ∀ (n p : Nat) (L : List Nat), state_chain h n p = .ok L → state_chain h (n + 1) p = .ok L := by
  intro n
  induction n with
  | zero => intro p L hc; simp [state_chain] at hc
  | succ n ih =>
    intro p L hc
    unfold state_chain at hc ⊢
    by_cases hp : p = 0
    · simpa [hp] using hc
    · simp only [hp, if_false] at hc ⊢
      cases hs : cell h p with
      | none => simp [hs] at hc
      | some s =>
        simp only [hs] at hc ⊢
        obtain ⟨L1, h1, h2⟩ := map_eq_ok.mp hc
        rw [ih _ _ h1]
        simpa using h2

theorem state_chain_congr {h h1 : List (Option state)}
    (hh : ∀ p, (cell h1 p).map (fun s => s.next) = (cell h p).map (fun s => s.next)) :
    ∀ (n p : Nat), state_chain h1 n p = state_chain h n p := by
  intro n
  induction n with
  | zero => intro p; rfl
  | succ n ih =>
    intro p
    unfold state_chain
    by_cases hp : p = 0
    · simp [hp]
    · simp only [hp, if_false]
      have := hh p
      cases hs : cell h p with
      | none =>
        cases hs1 : cell h1 p with
        | none => rfl
        | some s1 => simp [hs, hs1] at this
      | some s =>
        cases hs1 : cell h1 p with
        | none => simp [hs, hs1] at this
        | some s1 =>
          simp [hs, hs1] at this
          simp only [this, ih]

theorem state_chain_alloc (h : List (Option state)) :
    ∀ (n p : Nat) (L : List Nat), state_chain h n p = .ok L →
      ∀ a ∈ L, a ≠ 0 ∧ ∃ s, cell h a = some s := by
  intro n
  induction n with
  | zero => intro p L hc; simp [state_chain] at hc
  | succ n ih =>
    intro p L hc
    unfold state_chain at hc
    by_cases hp : p = 0
    · simp [hp] at hc
      subst hc
      simp
    · simp only [hp, if_false] at hc
      cases hs : cell h p with
      | none => simp [hs] at hc
      | some s =>
        simp only [hs] at hc
        obtain ⟨L1, h1, h2⟩ := map_eq_ok.mp hc
        subst h2
        intro a ha
        rcases List.mem_cons.mp ha with rfl | ha
        · exact ⟨hp, s, hs⟩
        · exact ih _ _ h1 a ha

theorem state_find_of_chain (h : List (Option state)) (hit : Nat → state → Bool) :
    ∀ (n p : Nat) (L : List Nat), state_chain h n p = .ok L →
      state_find h hit n p = .ok (first_hit h hit L) := by
  intro n
  induction n with
  | zero => intro p L hc; simp [state_chain] at hc
  | succ n ih =>
    intro p L hc
    unfold state_chain at hc
    unfold state_find
    by_cases hp : p = 0
    · simp [hp] at hc
      subst hc
      simp [hp, first_hit]
    · simp only [hp, if_false] at hc ⊢
      cases hs : cell h p with
      | none => simp [hs] at hc
      | some s =>
        simp only [hs] at hc ⊢
        obtain ⟨L1, h1, h2⟩ := map_eq_ok.mp hc
        subst h2
        by_cases hh : hit p s = true
        · simp [hh, first_hit, hit_at, hs]
        · simp [hh, first_hit, hit_at, hs]
          have := ih s.next L1 h1
          simpa [first_hit] using this

theorem first_hit_decomp (h : List (Option state)) (hit : Nat → state → Bool)
    (pre post : List Nat) (a : Nat) (s : state) (ha : cell h a = some s) (hs : hit a s = true)
    (hpre : ∀ b ∈ pre, ∀ t, cell h b = some t → hit b t = false) :
    first_hit h hit (pre ++ a :: post) = a := by
  induction pre with
  | nil => simp [first_hit, hit_at, ha, hs]
  | cons b pre ih =>
    have hb : hit_at h hit b = false := by
      unfold hit_at
      cases hc : cell h b with
      | none => rfl
      | some t => simpa using hpre b (List.mem_cons_self _ _) t hc
    have := ih (fun c hc => hpre c (List.mem_cons_of_mem _ hc))
    simp only [first_hit, List.cons_append, List.find?_cons, hb] at this ⊢
    exact this

theorem first_hit_none (h : List (Option state)) (hit : Nat → state → Bool) (L : List Nat)
    (hL : ∀ b ∈ L, ∀ t, cell h b = some t → hit b t = false) :
    first_hit h hit L = 0 := by
  induction L with
  | nil => simp [first_hit]
  | cons b L ih =>
    have hb : hit_at h hit b = false := by
      unfold hit_at
      cases hc : cell h b with
      | none => rfl
      | some t => simpa using hL b (List.mem_cons_self _ _) t hc
    have := ih (fun c hc => hL c (List.mem_cons_of_mem _ hc))
    simp only [first_hit, List.find?_cons, hb] at this ⊢
    exact this

/-- The lookups on a valid FSM whose lock is free and whose state list is well formed. -/
theorem fsm_get_state_eq (f id : Nat) (w : World) (F : fsm) (L : List Nat)
    (hF : w.fsm? f = some F) (hm : F.magic_number = FSM_MAGIC_NUMBER) (hl : F.lock ∉ w.held)
    (hL : w.registry F = .ok L) :
    fsm_get_state f id w = .ok (first_hit w.states (fun _ s => s.id = id) L, w) := by
  have h1 := state_find_of_chain w.states (fun _ s => s.id = id) _ _ _ hL
  simp only [World.fsm?] at hF
  simp [fsm_get_state, hF, ld, ASSERT, hm, mutex_lock, hl, mutex_unlock] 
  simp at h1
  rw [h1]
  simp

theorem fsm_get_state_by_name_eq (f : Nat) (name : String) (w : World) (F : fsm) (L : List Nat)
    (hF : w.fsm? f = some F) (hm : F.magic_number = FSM_MAGIC_NUMBER) (hl : F.lock ∉ w.held)
    (hL : w.registry F = .ok L) :
    fsm_get_state_by_name f name w =
      .ok (first_hit w.states (fun _ s => name = s.name) L, w) := by
  have h1 := state_find_of_chain w.states (fun _ s => name = s.name) _ _ _ hL
  simp only [World.fsm?] at hF
  simp [fsm_get_state_by_name, hF, ld, ASSERT, hm, mutex_lock, hl, mutex_unlock] 
  simp at h1
  rw [h1]
  simp

theorem state_chain_append (h : List (Option state)) (x : Option state) :
    ∀ (n p : Nat) (L : List Nat), state_chain h n p = .ok L →
      state_chain (h ++ [x]) n p = .ok L := by
  intro n
  induction n with
  | zero => intro p L hc; simp [state_chain] at hc
  | succ n ih =>
    intro p L hc
    unfold state_chain at hc ⊢
    by_cases hp : p = 0
    · simpa [hp] using hc
    · simp only [hp, if_false] at hc ⊢
      cases hs : cell h p with
      | none => simp [hs] at hc
      | some s =>
        rw [cell_append_old h x (cell_bound hs).2]
        simp only [hs] at hc ⊢
        obtain ⟨L1, h1, h2⟩ := map_eq_ok.mp hc
        rw [ih _ _ h1]
        simpa using h2

theorem register_walk_of_chain (h : List (Option state)) (id : Nat) :
    ∀ (n link p : Nat) (L : List Nat), state_chain h n p = .ok L →
      register_walk h id n link p =
        .ok (if (L.find? (hit_at h (fun _ s => s.id = id))).isSome then none
             else some (L.getLast?.getD link)) := by
  intro n
  induction n with
  | zero => intro link p L hc; simp [state_chain] at hc
  | succ n ih =>
    intro link p L hc
    unfold state_chain at hc
    unfold register_walk
    by_cases hp : p = 0
    · simp [hp] at hc
      subst hc
      simp [hp]
    · simp only [hp, if_false] at hc ⊢
      cases hs : cell h p with
      | none => simp [hs] at hc
      | some s =>
        simp only [hs] at hc ⊢
        obtain ⟨L1, h1, h2⟩ := map_eq_ok.mp hc
        subst h2
        by_cases hh : s.id = id
        · simp [hh, hit_at, hs]
        · rw [ih p s.next L1 h1]
          simp [hh, hit_at, hs, List.getLast?_cons]

theorem find_hit_isSome (h : List (Option state)) (hit : Nat → state → Bool) (L : List Nat)
    (a : Nat) (s : state) (ha : a ∈ L) (hs : cell h a = some s) (hh : hit a s = true) :
    (L.find? (hit_at h hit)).isSome = true := by
  rw [List.find?_isSome]
  exact ⟨a, ha, by simp [hit_at, hs, hh]⟩

theorem fsm_state_register_collision (f st : Nat) (w : World) (F : fsm) (S : state)
    (L : List Nat) (a : Nat) (s : state)
    (hF : cell w.fsms f = some F) (hv : F.valid) (hl : F.lock ∉ w.held)
    (hS : cell w.states st = some S) (hSm : S.magic_number = STATE_MAGIC_NUMBER)
    (hSp : S.parent_fsm = 0) (hSl : S.lock = 0)
    (hL : state_chain w.states (w.states.length + 1) F.state_list = .ok L)
    (ha : a ∈ L) (hs : cell w.states a = some s) (hid : s.id = S.id) :
    fsm_state_register f st w = .ok (-1, w) := by
  obtain ⟨hm, hos, hlk, hq⟩ := hv
  have hw := register_walk_of_chain _ S.id _ 0 _ _ hL
  rw [find_hit_isSome w.states (fun _ s => s.id = S.id) L a s ha hs (by simp [hid])] at hw
  simp only [if_true] at hw
  unfold fsm_state_register
  simp only [World.fsm?, World.state?, hF, hS, ld, ok_bind, ASSERT, hm, hSm, hos, hlk, hSp, hSl,
    if_true, ne_eq, not_false_eq_true, mutex_lock, hl, if_false, World.sfuel, hw, pure_eq_ok,
    mutex_unlock, List.erase_cons_head]

/-- Uniqueness: for every valid FSM (lock free, state list well formed) and every id that
a state of its registry already has, `fsm_state_add` returns `-1`, a non-zero value, and the
only trace it leaves in memory is the freed cell of the state it allocated: the FSM record
(with its pending request, previous and current state) and every state record are as before,
and the registry has the same members in the same order. -/
theorem add_duplicate_id (f : Nat) (name : Option String) (id handler : Nat) (w : World)
    (F : fsm) (L : List Nat) (a : Nat) (s : state)
    (hF : w.fsm? f = some F) (hv : F.valid) (hl : F.lock ∉ w.held)
    (hL : w.registry F = .ok L) (ha : a ∈ L) (hs : w.state? a = some s) (hid : s.id = id) :
    fsm_state_add f name id handler w = .ok (-1, { w with states := w.states ++ [none] }) ∧
    (-1 : Int) ≠ 0 ∧
    ({ w with states := w.states ++ [none] } : World).fsm? f = some F ∧
    (∀ p, ({ w with states := w.states ++ [none] } : World).state? p = w.state? p) ∧
    ({ w with states := w.states ++ [none] } : World).registry F = .ok L := by
  simp only [World.fsm?, World.state?, World.registry, World.sfuel] at hF hs hL
  have hc1 := state_chain_append w.states none _ _ _ (state_chain_mono _ _ _ _ hL)
  refine ⟨?_, by decide, hF, fun p => cell_append_none _ p, ?_⟩
  · have hc := state_chain_append w.states (some (state_new_record name id handler)) _ _ _
        (state_chain_mono _ _ _ _ hL)
    have hreg := fsm_state_register_collision f (w.states.length + 1)
      { w with states := w.states ++ [some (state_new_record name id handler)] } F
      (state_new_record name id handler) L a s hF hv hl (cell_append_new _ _) rfl rfl rfl
      (by simpa using hc) ha
      (by show cell (w.states ++ [_]) a = some s
          rw [cell_append_old _ _ (cell_bound hs).2]; exact hs) hid
    unfold fsm_state_add state_new
    simp only [hreg, ok_bind]
    have hp : (state_new_record name id handler).parent_fsm = 0 := rfl
    simp [state_del, ld, cell_append_new, hp, free_state, put_append_new]
  · simpa [World.registry] using hc1

/-! ## Walks over the child list -/

theorem fsm_chain_congr {h h1 : List (Option fsm)}
    (hh : ∀ p, (cell h1 p).map (fun F => F.next) = (cell h p).map (fun F => F.next)) :
    ∀ (n p : Nat), fsm_chain h1 n p = fsm_chain h n p := by
  intro n
  induction n with
  | zero => intro p; rfl
  | succ n ih =>
    intro p
    unfold fsm_chain
    by_cases hp : p = 0
    · simp [hp]
    · simp only [hp, if_false]
      have := hh p
      cases hs : cell h p with
      | none =>
        cases hs1 : cell h1 p with
        | none => rfl
        | some s1 => simp [hs, hs1] at this
      | some s =>
        cases hs1 : cell h1 p with
        | none => simp [hs, hs1] at this
        | some s1 =>
          simp [hs, hs1] at this
          simp only [this, ih]

theorem cell_put_map {α β : Type} (h : List (Option α)) (p : Nat) (v v1 : α) (g : α → β)
    (hp : cell h p = some v) (hg : g v1 = g v) (q : Nat) :
    (cell (put h p (some v1)) q).map g = (cell h q).map g := by
  by_cases hq : p = q
  · subst hq
    rw [cell_put_same _ hp, hp]
    simp [hg]
  · rw [cell_put_ne _ _ hq]

/-! ## The part of `fsm_poll` under the lock -/

theorem stepped_next (F : fsm) : F.stepped.next = F.next := by
  unfold fsm.stepped; split <;> rfl

theorem stepped_event_queue (F : fsm) : F.stepped.event_queue = F.event_queue := by
  unfold fsm.stepped; split <;> rfl

theorem stepped_sta_next (F : fsm) : F.stepped.sta_next = 0 := by
  unfold fsm.stepped; split
  · rfl
  · rename_i h; simpa using h

theorem stepped_of_empty (F : fsm) (h : F.sta_next = 0) : F.stepped = F := by
  simp [fsm.stepped, h]

theorem poll_transition_inv {f : Nat} {w w1 : World} {x e : Nat}
    (h : poll_transition f w = .ok (x, e, w1)) :
    ∃ F, cell w.fsms f = some F ∧ w1 = { w with fsms := put w.fsms f (some F.stepped) } ∧
      (F.sta_next = 0 → x = 0 ∧ e = 0) ∧
      (F.sta_next ≠ 0 → ∃ P C, cell w.states F.sta_curr = some P ∧
        cell w.states F.sta_next = some C ∧ x = P.handler ∧ e = C.handler) := by
  unfold poll_transition at h
  obtain ⟨F, hF, h⟩ := bind_eq_ok.mp h
  rw [ld_eq_ok] at hF
  simp only [World.fsm?] at hF
  refine ⟨F, hF, ?_⟩
  by_cases hn : F.sta_next = 0
  · simp [hn] at h
    obtain ⟨rfl, rfl, rfl⟩ := h
    simp [hn, stepped_of_empty, put_cell_self hF]
  · simp only [hn, ne_eq, not_false_eq_true, if_true] at h
    obtain ⟨P, hP, h⟩ := bind_eq_ok.mp h
    obtain ⟨C, hC, h⟩ := bind_eq_ok.mp h
    rw [ld_eq_ok] at hP hC
    simp at hP hC h
    obtain ⟨rfl, rfl, rfl⟩ := h
    simp [hn, fsm.stepped, hP, hC]

@[simp] theorem put_put {α : Type} (h : List (Option α)) (p : Nat) (x y : Option α) :
    put (put h p x) p y = put h p y := by
  cases p <;> simp [put]

theorem queue_send_inv {q : Nat} {e : event} {w w1 : World} {ok : Bool}
    (h : queue_send q e w = .ok (ok, w1)) :
    ∃ Q, cell w.queues q = some Q ∧ ok = decide (Q.items.length < Q.length) ∧
      w1 = { w with queues := if Q.items.length < Q.length
                then put w.queues q (some { Q with items := Q.items ++ [e] }) else w.queues } := by
  unfold queue_send at h
  simp only [World.queue?] at h
  cases hQ : cell w.queues q with
  | none => simp [hQ] at h
  | some Q =>
    refine ⟨Q, rfl, ?_⟩
    simp only [hQ] at h
    by_cases hlt : Q.items.length < Q.length
    · simp [hlt] at h
      obtain ⟨rfl, rfl⟩ := h
      simp [hlt]
    · simp [hlt] at h
      obtain ⟨rfl, rfl⟩ := h
      simp [hlt]

theorem queue_receive_inv {q : Nat} {w w1 : World} {r : Option event}
    (h : queue_receive q w = .ok (r, w1)) :
    ∃ Q, cell w.queues q = some Q ∧ r = Q.items.head? ∧
      w1 = { w with queues := put w.queues q (some { Q with items := Q.items.tail }) } := by
  unfold queue_receive at h
  simp only [World.queue?] at h
  cases hQ : cell w.queues q with
  | none => simp [hQ] at h
  | some Q =>
    refine ⟨Q, rfl, ?_⟩
    simp only [hQ] at h
    cases hi : Q.items with
    | nil =>
      simp [hi] at h
      obtain ⟨rfl, rfl⟩ := h
      have : ({ length := Q.length, items := [] } : queue) = Q := by
        cases Q; simp_all
      simp [this, put_cell_self hQ]
    | cons e rest =>
      simp [hi] at h
      obtain ⟨rfl, rfl⟩ := h
      simp

theorem poll_generate_inv {ts q c : Nat} {w w1 : World} {t : List action}
    (h : poll_generate ts q c w = .ok (t, w1)) :
    ∃ C, cell w.states c = some C ∧ w1.fsms = w.fsms ∧ w1.held = w.held ∧ w1.now = w.now ∧
      w1.mutexes = w.mutexes ∧ w1.states.length = w.states.length ∧
      (C.poll_interval = FSM_NO_POLL → t = [] ∧ w1.queues = w.queues ∧
        w1.states = put w.states c (some { C with poll_interval := C.poll_interval_next })) ∧
      (C.poll_interval ≠ FSM_NO_POLL → sub32 ts C.ts_poll < C.poll_interval →
        t = [] ∧ w1 = w) ∧
      (C.poll_interval ≠ FSM_NO_POLL → C.poll_interval ≤ sub32 ts C.ts_poll →
        ∃ Q, cell w.queues q = some Q ∧
          t = [.send q (poll_event ts) 0 (decide (Q.items.length < Q.length))] ∧
          w1.queues = (if Q.items.length < Q.length
            then put w.queues q (some { Q with items := Q.items ++ [poll_event ts] })
            else w.queues) ∧
          w1.states = put w.states c
            (some { C with ts_poll := ts, poll_interval := C.poll_interval_next })) := by
  unfold poll_generate at h
  obtain ⟨C, hC, h⟩ := bind_eq_ok.mp h
  rw [ld_eq_ok] at hC
  simp only [World.state?] at hC
  refine ⟨C, hC, ?_⟩
  by_cases hno : C.poll_interval = FSM_NO_POLL
  · simp [hno] at h
    obtain ⟨rfl, rfl⟩ := h
    simp [hno]
  · by_cases hge : C.poll_interval ≤ sub32 ts C.ts_poll
    · simp only [hno, ne_eq, not_false_eq_true, if_true, ge_iff_le, hge] at h
      obtain ⟨⟨ok, w2⟩, hsend, h⟩ := bind_eq_ok.mp h
      obtain ⟨Q, hQ, rfl, rfl⟩ := queue_send_inv hsend
      simp only [World.setState, World.state?, cell_put_same _ hC, ld, ok_bind, pure_eq_ok,
        Except.ok.injEq, Prod.mk.injEq] at h
      obtain ⟨rfl, rfl⟩ := h
      simp only [World.setState] at hQ
      simp [hno, hge, Nat.not_lt.mpr hge, hQ]
    · simp [hno, hge] at h
      obtain ⟨rfl, rfl⟩ := h
      simp [hno, hge, Nat.lt_of_not_le hge]

/-- What `fsm_poll` has done when it releases the lock of the FSM. -/
theorem poll_locked_inv {f : Nat} {w w1 : World} {l : poll_locals} {t : List action}
    (h : poll_locked f w = .ok (l, t, w1)) :
    ∃ F C, cell w.fsms f = some F ∧ F.valid ∧ F.lock ∉ w.held ∧
      cell w.states F.stepped.sta_curr = some C ∧
      (F.sta_next = 0 → l.exit = 0 ∧ l.enter = 0) ∧
      (F.sta_next ≠ 0 → ∃ P, cell w.states F.sta_curr = some P ∧ l.exit = P.handler ∧
        l.enter = C.handler) ∧
      l.ts = uptime_ms w ∧ l.handler = C.handler ∧ l.event_queue = F.event_queue ∧
      fsm_chain w.fsms (w.fsms.length + 1) C.child_fsm = .ok l.child_fsm_buf ∧
      w1.fsms = put w.fsms f (some F.stepped) ∧ w1.held = w.held ∧ w1.now = w.now ∧
      w1.mutexes = w.mutexes ∧ w1.states.length = w.states.length ∧
      (C.poll_interval = FSM_NO_POLL → t = [] ∧ w1.queues = w.queues ∧
        w1.states = put w.states F.stepped.sta_curr
          (some { C with poll_interval := C.poll_interval_next })) ∧
      (C.poll_interval ≠ FSM_NO_POLL → sub32 (uptime_ms w) C.ts_poll < C.poll_interval →
        t = [] ∧ w1.queues = w.queues ∧ w1.states = w.states) ∧
      (C.poll_interval ≠ FSM_NO_POLL → C.poll_interval ≤ sub32 (uptime_ms w) C.ts_poll →
        ∃ Q, cell w.queues F.event_queue = some Q ∧
          t = [.send F.event_queue (poll_event (uptime_ms w)) 0
                (decide (Q.items.length < Q.length))] ∧
          w1.queues = (if Q.items.length < Q.length
            then put w.queues F.event_queue
              (some { Q with items := Q.items ++ [poll_event (uptime_ms w)] })
            else w.queues) ∧
          w1.states = put w.states F.stepped.sta_curr
            (some { C with ts_poll := uptime_ms w, poll_interval := C.poll_interval_next })) := by
  unfold poll_locked at h
  obtain ⟨F, hF, h⟩ := bind_eq_ok.mp h
  rw [ld_eq_ok] at hF
  simp only [World.fsm?] at hF
  obtain ⟨_, hm, h⟩ := bind_eq_ok.mp h
  rw [ASSERT_eq_ok] at hm
  obtain ⟨_, hos, h⟩ := bind_eq_ok.mp h
  rw [ASSERT_eq_ok] at hos
  obtain ⟨_, hlk, h⟩ := bind_eq_ok.mp h
  rw [ASSERT_eq_ok] at hlk
  obtain ⟨w2, hw2, h⟩ := bind_eq_ok.mp h
  obtain ⟨hheld, rfl⟩ := mutex_lock_eq_ok.mp hw2
  obtain ⟨_, hq, h⟩ := bind_eq_ok.mp h
  rw [ASSERT_eq_ok] at hq
  obtain ⟨⟨x, e, w3⟩, htr, h⟩ := bind_eq_ok.mp h
  obtain ⟨F0, hF0, rfl, hno, hyes⟩ := poll_transition_inv htr
  simp only [hF, Option.some.injEq] at hF0
  subst hF0
  obtain ⟨F1, hF1, h⟩ := bind_eq_ok.mp h
  rw [ld_eq_ok] at hF1
  simp only [World.fsm?, cell_put_same _ hF, Option.some.injEq] at hF1
  subst hF1
  obtain ⟨C, hC, h⟩ := bind_eq_ok.mp h
  rw [ld_eq_ok] at hC
  simp only [World.state?] at hC
  obtain ⟨buf, hbuf, h⟩ := bind_eq_ok.mp h
  obtain ⟨⟨t1, w4⟩, hgen, h⟩ := bind_eq_ok.mp h
  simp only [pure_eq_ok, Except.ok.injEq, Prod.mk.injEq] at h
  obtain ⟨rfl, rfl, rfl⟩ := h
  obtain ⟨C1, hC1, g1, g2, g3, g4, g5, g6, g7, g8⟩ := poll_generate_inv hgen
  simp only [hC, Option.some.injEq] at hC1
  subst hC1
  have hchain : fsm_chain w.fsms (w.fsms.length + 1) C.child_fsm = .ok buf := by
    rw [← hbuf]
    simp only [World.ffuel, put_length]
    exact (fsm_chain_congr (fun p => cell_put_map w.fsms f F F.stepped (fun G => G.next) hF
      (stepped_next F) p) _ _).symm
  refine ⟨F, C, hF, ⟨hm, hos, hlk, hq⟩, hheld, hC, ?_, ?_, rfl, rfl, rfl, hchain, ?_, ?_, ?_, ?_,
    ?_, ?_, ?_, ?_⟩
  · intro h0
    exact hno h0
  · intro h0
    obtain ⟨P, C', hP, hC', rfl, rfl⟩ := hyes h0
    refine ⟨P, hP, rfl, ?_⟩
    have : F.stepped.sta_curr = F.sta_next := by simp [fsm.stepped, h0]
    rw [this, hC'] at hC
    simp at hC
    rw [hC]
  · simp [mutex_unlock, g1]
  · simp [mutex_unlock, g2]
  · simp [mutex_unlock, g3]
  · simp [mutex_unlock, g4]
  · simp [mutex_unlock, g5]
  · intro h0
    obtain ⟨a, b, c⟩ := g6 h0
    exact ⟨a, by simp [mutex_unlock, b], by simp [mutex_unlock, c]⟩
  · intro h0 h1
    obtain ⟨a, b⟩ := g7 h0 h1
    exact ⟨a, by simp [mutex_unlock, b], by simp [mutex_unlock, b]⟩
  · intro h0 h1
    obtain ⟨Q, a, b, c, d⟩ := g8 h0 h1
    rw [stepped_event_queue] at a b c
    exact ⟨Q, a, b, by simp [mutex_unlock, c], by simp [mutex_unlock, d]⟩

/-! ## The part of `fsm_poll` after the lock is released -/

theorem poll_exit_inv {hs : handlers} {f : Nat} {l : poll_locals} {w w1 : World}
    {t : List action} (h : poll_exit hs f l w = .ok (t, w1)) :
    (l.exit = 0 → t = [] ∧ w1 = w) ∧
    (l.exit ≠ 0 → ∃ F C, cell w.fsms f = some F ∧ cell w.states F.sta_curr = some C ∧
      t = [.call l.exit (exit_event l.ts C) w.held] ∧
      w1 = (hs l.exit (exit_event l.ts C) w).2) := by
  unfold poll_exit at h
  by_cases h0 : l.exit = 0
  · simp [h0] at h
    obtain ⟨rfl, rfl⟩ := h
    simp [h0]
  · simp only [h0, ne_eq, not_false_eq_true, if_true] at h
    obtain ⟨F, hF, h⟩ := bind_eq_ok.mp h
    obtain ⟨C, hC, h⟩ := bind_eq_ok.mp h
    rw [ld_eq_ok] at hF hC
    simp at h
    obtain ⟨rfl, rfl⟩ := h
    exact ⟨fun h1 => absurd h1 h0, fun _ => ⟨F, C, hF, hC, rfl, rfl⟩⟩

theorem poll_enter_inv {hs : handlers} {f : Nat} {l : poll_locals} {w w1 : World}
    {t : List action} (h : poll_enter hs f l w = .ok (t, w1)) :
    (l.enter = 0 → t = [] ∧ w1 = w) ∧
    (l.enter ≠ 0 → ∃ F P, cell w.fsms f = some F ∧ cell w.states F.sta_prev = some P ∧
      t = [.call l.enter (enter_event l.ts P) w.held] ∧
      w1 = (hs l.enter (enter_event l.ts P) w).2) := by
  unfold poll_enter at h
  by_cases h0 : l.enter = 0
  · simp [h0] at h
    obtain ⟨rfl, rfl⟩ := h
    simp [h0]
  · simp only [h0, ne_eq, not_false_eq_true, if_true] at h
    obtain ⟨F, hF, h⟩ := bind_eq_ok.mp h
    obtain ⟨P, hP, h⟩ := bind_eq_ok.mp h
    rw [ld_eq_ok] at hF hP
    simp at h
    obtain ⟨rfl, rfl⟩ := h
    exact ⟨fun h1 => absurd h1 h0, fun _ => ⟨F, P, hF, hP, rfl, rfl⟩⟩

theorem poll_dispatch_inv {hs : handlers} {l : poll_locals} {w w1 : World}
    {o : Option event} {t : List action} (h : poll_dispatch hs l w = .ok (o, t, w1)) :
    ∃ Q, cell w.queues l.event_queue = some Q ∧
      (Q.items = [] → o = none ∧ t = [.receive l.event_queue none] ∧ w1 = w) ∧
      (∀ e rest, Q.items = e :: rest →
        (l.handler = 0 → o = some e ∧ t = [.receive l.event_queue (some e)] ∧
          w1 = { w with queues := put w.queues l.event_queue (some { Q with items := rest }) }) ∧
        (l.handler ≠ 0 →
          o = some (hs l.handler e
            { w with queues := put w.queues l.event_queue (some { Q with items := rest }) }).1 ∧
          t = [.receive l.event_queue (some e), .call l.handler e w.held] ∧
          w1 = (hs l.handler e
            { w with queues := put w.queues l.event_queue (some { Q with items := rest }) }).2))
    := by
  unfold poll_dispatch at h
  obtain ⟨⟨r, w2⟩, hr, h⟩ := bind_eq_ok.mp h
  obtain ⟨Q, hQ, rfl, rfl⟩ := queue_receive_inv hr
  refine ⟨Q, hQ, ?_, ?_⟩
  · intro hi
    simp [hi] at h
    obtain ⟨rfl, rfl, rfl⟩ := h
    have : ({ length := Q.length, items := [] } : queue) = Q := by
      cases Q; simp_all
    simp [this, put_cell_self hQ]
  · intro e rest hi
    by_cases h0 : l.handler = 0
    · simp [hi, h0] at h
      obtain ⟨rfl, rfl, rfl⟩ := h
      simp [h0]
    · simp [hi, h0] at h
      obtain ⟨rfl, rfl, rfl⟩ := h
      simp [h0]

theorem poll_forward_inv {o : Option event} {c : Nat} {w w1 : World} {t : List action}
    (h : poll_forward o c w = .ok (t, w1)) :
    ∃ C, cell w.fsms c = some C ∧ C.magic_number = FSM_MAGIC_NUMBER ∧ C.event_queue ≠ 0 ∧
      C.lock ≠ 0 ∧ w1.fsms = w.fsms ∧ w1.states = w.states ∧ w1.held = w.held ∧
      w1.now = w.now ∧ w1.mutexes = w.mutexes ∧
      (o = none → t = [] ∧ w1 = w) ∧
      (∀ e, o = some e → e.type = FSM_EVT_POLL → t = [] ∧ w1 = w) ∧
      (∀ e, o = some e → e.type ≠ FSM_EVT_POLL → C.lock ∉ w.held ∧
        ∃ Q, cell w.queues C.event_queue = some Q ∧
          t = [.send C.event_queue e 200 (decide (Q.items.length < Q.length))] ∧
          w1.queues = (if Q.items.length < Q.length
            then put w.queues C.event_queue (some { Q with items := Q.items ++ [e] })
            else w.queues)) := by
  unfold poll_forward at h
  obtain ⟨C, hC, h⟩ := bind_eq_ok.mp h
  rw [ld_eq_ok] at hC
  simp only [World.fsm?] at hC
  obtain ⟨_, hm, h⟩ := bind_eq_ok.mp h
  rw [ASSERT_eq_ok] at hm
  obtain ⟨_, hq, h⟩ := bind_eq_ok.mp h
  rw [ASSERT_eq_ok] at hq
  obtain ⟨_, hlk, h⟩ := bind_eq_ok.mp h
  rw [ASSERT_eq_ok] at hlk
  refine ⟨C, hC, hm, hq, hlk, ?_⟩
  cases o with
  | none =>
    simp at h
    obtain ⟨rfl, rfl⟩ := h
    simp
  | some e =>
    by_cases hp : e.type = FSM_EVT_POLL
    · simp [hp] at h
      obtain ⟨rfl, rfl⟩ := h
      simp [hp]
    · simp only [hp, ne_eq, not_false_eq_true, if_true] at h
      obtain ⟨w2, hw2, h⟩ := bind_eq_ok.mp h
      obtain ⟨hheld, rfl⟩ := mutex_lock_eq_ok.mp hw2
      obtain ⟨⟨ok, w3⟩, hsend, h⟩ := bind_eq_ok.mp h
      obtain ⟨Q, hQ, rfl, rfl⟩ := queue_send_inv hsend
      simp at h
      obtain ⟨rfl, rfl⟩ := h
      have hQ1 : cell w.queues C.event_queue = some Q := hQ
      simp [mutex_unlock, hp, hheld, hQ1]

/-- The steps of one call of `fsm_poll`. -/
theorem fsm_poll_inv {hs : handlers} {n f : Nat} {w : World} {r : poll_result}
    (h : fsm_poll hs n f w = .ok r) :
    ∃ m l t0 w1 t1 w2 t2 w3 o t3 w4 t4, n = m + 1 ∧
      poll_locked f w = .ok (l, t0, w1) ∧ poll_exit hs f l w1 = .ok (t1, w2) ∧
      poll_enter hs f l w2 = .ok (t2, w3) ∧ poll_dispatch hs l w3 = .ok (o, t3, w4) ∧
      poll_children (fsm_poll hs m) o l.child_fsm_buf w4 = .ok (t4, r.world) ∧
      r.ret = 0 ∧ r.trace = here (t0 ++ t1 ++ t2 ++ t3) ++ t4 := by
  cases n with
  | zero => simp [fsm_poll] at h
  | succ m =>
    unfold fsm_poll at h
    obtain ⟨⟨l, t0, w1⟩, h0, h⟩ := bind_eq_ok.mp h
    obtain ⟨⟨t1, w2⟩, h1, h⟩ := bind_eq_ok.mp h
    obtain ⟨⟨t2, w3⟩, h2, h⟩ := bind_eq_ok.mp h
    obtain ⟨⟨o, t3, w4⟩, h3, h⟩ := bind_eq_ok.mp h
    obtain ⟨⟨t4, w5⟩, h4, h⟩ := bind_eq_ok.mp h
    simp at h
    subst h
    exact ⟨m, l, t0, w1, t1, w2, t2, w3, o, t3, w4, t4, rfl, h0, h1, h2, h3, h4, rfl,
      by simp⟩

theorem poll_children_cons_inv {P : Nat → World → Except fault poll_result} {o : Option event}
    {c : Nat} {rest : List Nat} {w w1 : World} {t : List (Nat × action)}
    (h : poll_children P o (c :: rest) w = .ok (t, w1)) :
    ∃ t1 w2 r t2, poll_forward o c w = .ok (t1, w2) ∧ P c w2 = .ok r ∧
      poll_children P o rest r.world = .ok (t2, w1) ∧
      t = here t1 ++ (0, .poll c) :: deeper r.trace ++ t2 := by
  unfold poll_children at h
  obtain ⟨⟨t1, w2⟩, h1, h⟩ := bind_eq_ok.mp h
  obtain ⟨r, h2, h⟩ := bind_eq_ok.mp h
  obtain ⟨⟨t2, w3⟩, h3, h⟩ := bind_eq_ok.mp h
  simp at h
  obtain ⟨rfl, rfl⟩ := h
  exact ⟨t1, w2, r, t2, h1, h2, h3, by simp⟩

/-! ## Actions of the call itself -/

@[simp] theorem own_nil : own [] = [] := rfl

@[simp] theorem own_append (a b : List (Nat × action)) : own (a ++ b) = own a ++ own b := by
  simp [own]

@[simp] theorem own_here (t : List action) : own (here t) = t := by
  induction t with
  | nil => rfl
  | cons a t ih => simp_all [own, here]

@[simp] theorem own_deeper (t : List (Nat × action)) : own (deeper t) = [] := by
  simp only [own, deeper, List.map_eq_nil_iff, List.filter_eq_nil_iff, List.mem_map]
  rintro ⟨d, a⟩ ⟨b, _, hb⟩
  simp only [Prod.mk.injEq] at hb
  simp [← hb.1]

@[simp] theorem own_cons_zero (a : action) (t : List (Nat × action)) :
    own ((0, a) :: t) = a :: own t := by
  simp [own]

/-! ## Invariants of a poll -/

theorem world_queues_only {w w1 : World} (h1 : w1.fsms = w.fsms) (h2 : w1.states = w.states)
    (h3 : w1.held = w.held) (h4 : w1.now = w.now) (h5 : w1.mutexes = w.mutexes) :
    w1 = { w with queues := w1.queues } := by
  cases w; cases w1; simp_all

theorem cell_put_isSome {α : Type} {h : List (Option α)} {p : Nat} {v : α} (v1 : α)
    (hp : cell h p = some v) (q : Nat) :
    (cell (put h p (some v1)) q).isSome = (cell h q).isSome := by
  by_cases hq : p = q
  · subst hq
    rw [cell_put_same _ hp, hp]
    rfl
  · rw [cell_put_ne _ _ hq]

theorem poll_forward_queues {o : Option event} {c : Nat} {w w1 : World} {t : List action}
    (h : poll_forward o c w = .ok (t, w1)) :
    w1 = { w with queues := w1.queues } ∧
    ∀ q, (cell w1.queues q).isSome = (cell w.queues q).isSome := by
  obtain ⟨C, -, -, -, -, h1, h2, h3, h4, h5, ha, hb, hc⟩ := poll_forward_inv h
  refine ⟨world_queues_only h1 h2 h3 h4 h5, ?_⟩
  intro q
  cases o with
  | none => rw [(ha rfl).2]
  | some e =>
    by_cases hp : e.type = FSM_EVT_POLL
    · rw [(hb e rfl hp).2]
    · obtain ⟨-, Q, hQ, -, hq⟩ := hc e rfl hp
      rw [hq]
      split
      · exact cell_put_isSome _ hQ q
      · rfl

/-- The steps of `fsm_poll` after the lock is released keep a property of the world that the
handlers, changes of the queues, and the polls of the child FSMs keep. -/
theorem poll_rest_keeps (hs : handlers) (I : World → Prop)
    (hh : ∀ h e w, I w → I (hs h e w).2)
    (hq : ∀ (w : World) (qs : List (Option queue)), I w →
      (∀ q, (cell qs q).isSome = (cell w.queues q).isSome) → I { w with queues := qs })
    {f : Nat} {l : poll_locals} {w1 w2 w3 w4 w5 : World} {t1 t2 t3 : List action}
    {o : Option event} {t4 : List (Nat × action)} {P : Nat → World → Except fault poll_result}
    (hc : ∀ buf w t w1, I w → poll_children P o buf w = .ok (t, w1) →
      (∀ d c, (d, action.poll c) ∈ t → (d, action.poll c) ∈ t4) → I w1)
    (h1 : poll_exit hs f l w1 = .ok (t1, w2)) (h2 : poll_enter hs f l w2 = .ok (t2, w3))
    (h3 : poll_dispatch hs l w3 = .ok (o, t3, w4))
    (h4 : poll_children P o l.child_fsm_buf w4 = .ok (t4, w5)) (hI : I w1) : I w5 := by
  have hI2 : I w2 := by
    obtain ⟨ha, hb⟩ := poll_exit_inv h1
    by_cases h0 : l.exit = 0
    · rw [(ha h0).2]; exact hI
    · obtain ⟨F, C, -, -, -, rfl⟩ := hb h0
      exact hh _ _ _ hI
  have hI3 : I w3 := by
    obtain ⟨ha, hb⟩ := poll_enter_inv h2
    by_cases h0 : l.enter = 0
    · rw [(ha h0).2]; exact hI2
    · obtain ⟨F, C, -, -, -, rfl⟩ := hb h0
      exact hh _ _ _ hI2
  have hI4 : I w4 := by
    obtain ⟨Q, hQ, ha, hb⟩ := poll_dispatch_inv h3
    cases hi : Q.items with
    | nil => rw [(ha hi).2.2]; exact hI3
    | cons e rest =>
      obtain ⟨hb1, hb2⟩ := hb e rest hi
      by_cases h0 : l.handler = 0
      · rw [(hb1 h0).2.2]; exact hq _ _ hI3 (cell_put_isSome _ hQ)
      · rw [(hb2 h0).2.2]; exact hh _ _ _ (hq _ _ hI3 (cell_put_isSome _ hQ))
  exact hc _ _ _ _ hI4 h4 (fun _ _ h => h)

/-- The child loop keeps a property of the world that the forwarding (a change of the queues)
and the polls of the child FSMs that occur keep. -/
theorem poll_children_keeps (I : World → Prop) (D : Nat → Prop)
    (hq : ∀ (w : World) (qs : List (Option queue)), I w →
      (∀ q, (cell qs q).isSome = (cell w.queues q).isSome) → I { w with queues := qs })
    (P : Nat → World → Except fault poll_result) (o : Option event)
    (hP : ∀ g w r, D g → (∀ d c, (d, action.poll c) ∈ r.trace → D c) → I w → P g w = .ok r →
      I r.world) :
    ∀ (buf : List Nat) (w : World) (t : List (Nat × action)) (w1 : World),
      (∀ d c, (d, action.poll c) ∈ t → D c) → I w → poll_children P o buf w = .ok (t, w1) →
      I w1 := by
  intro buf
  induction buf with
  | nil =>
    intro w t w1 _ hI h
    simp [poll_children] at h
    rw [← h.2]; exact hI
  | cons c rest ih =>
    intro w t w1 hD hI h
    obtain ⟨t1, w2, r, t2, h1, h2, h3, rfl⟩ := poll_children_cons_inv h
    have hI2 : I w2 := by
      rw [(poll_forward_queues h1).1]; exact hq _ _ hI (poll_forward_queues h1).2
    have hIr : I r.world := by
      refine hP c w2 r (hD 0 c (List.mem_append_left _ (List.mem_append_right _ (List.mem_cons_self _ _)))) ?_ hI2 h2
      intro d c1 hm
      have hx : (d + 1, action.poll c1) ∈ deeper r.trace :=
        List.mem_map.mpr ⟨(d, action.poll c1), hm, rfl⟩
      exact hD (d + 1) c1
        (List.mem_append_left _ (List.mem_append_right _ (List.mem_cons_of_mem _ hx)))
    refine ih r.world t2 w1 ?_ hIr h3
    intro d c1 hm
    exact hD d c1 (List.mem_append_right _ hm)

/-- `fsm_poll` keeps a property of the world that the handlers, changes of the queues, and
the locked part of the poll of every FSM polled keep. -/
theorem fsm_poll_keeps (hs : handlers) (I : World → Prop) (D : Nat → Prop)
    (hh : ∀ h e w, I w → I (hs h e w).2)
    (hq : ∀ (w : World) (qs : List (Option queue)), I w →
      (∀ q, (cell qs q).isSome = (cell w.queues q).isSome) → I { w with queues := qs })
    (hl : ∀ g w l t w1, D g → I w → poll_locked g w = .ok (l, t, w1) → I w1) :
    ∀ (n g : Nat) (w : World) (r : poll_result), D g →
      (∀ d c, (d, action.poll c) ∈ r.trace → D c) → I w → fsm_poll hs n g w = .ok r →
      I r.world := by
  intro n
  induction n with
  | zero => intro g w r _ _ _ h; simp [fsm_poll] at h
  | succ n ih =>
    intro g w r hg hD hI h
    obtain ⟨m, l, t0, w1, t1, w2, t2, w3, o, t3, w4, t4, hm, h0, h1, h2, h3, h4, -, htr⟩ :=
      fsm_poll_inv h
    have hm1 : m = n := by omega
    subst hm1
    refine poll_rest_keeps hs I hh hq ?_ h1 h2 h3 h4 (hl g w l t0 w1 hg hI h0)
    intro buf w' t w1' hI' hc hsub
    refine poll_children_keeps I D hq (fsm_poll hs m) o ih buf w' t w1' ?_ hI' hc
    intro d c hmem
    refine hD d c ?_
    rw [htr]
    exact List.mem_append_right _ (hsub d c hmem)

/-! ## Transition requests and their application -/

theorem poll_locked_fsm_other {g : Nat} {w w1 : World} {l : poll_locals} {t : List action}
    (h : poll_locked g w = .ok (l, t, w1)) {f : Nat} (hne : g ≠ f) :
    cell w1.fsms f = cell w.fsms f := by
  obtain ⟨G, C, hG, -, -, -, -, -, -, -, -, -, hf, -⟩ := poll_locked_inv h
  rw [hf, cell_put_ne _ _ hne]

theorem poll_locked_fsm_self {f : Nat} {w w1 : World} {l : poll_locals} {t : List action}
    (h : poll_locked f w = .ok (l, t, w1)) {F : fsm} (hF : cell w.fsms f = some F) :
    cell w1.fsms f = some F.stepped := by
  obtain ⟨G, C, hG, -, -, -, -, -, -, -, -, -, hf, -⟩ := poll_locked_inv h
  rw [hG] at hF
  simp only [Option.some.injEq] at hF
  subst hF
  rw [hf, cell_put_same _ hG]

/-- Once the request buffer of an FSM is empty, no poll changes the record of that FSM as
long as the handlers leave the record alone. -/
theorem fsm_poll_keeps_settled (hs : handlers) (f : Nat) (R : fsm) (hR : R.sta_next = 0)
    (hkeep : hs.keep (fun w => w.fsm? f)) :
    (∀ h e w, cell w.fsms f = some R → cell (hs h e w).2.fsms f = some R) ∧
    (∀ (w : World) (qs : List (Option queue)), cell w.fsms f = some R →
      (∀ q, (cell qs q).isSome = (cell w.queues q).isSome) →
      cell ({ w with queues := qs } : World).fsms f = some R) ∧
    (∀ g w l t w1, True → cell w.fsms f = some R → poll_locked g w = .ok (l, t, w1) →
      cell w1.fsms f = some R) := by
  refine ⟨?_, ?_, ?_⟩
  · intro h e w hw
    have := hkeep h e w
    simp only [World.fsm?] at this
    rw [this]; exact hw
  · intro w qs hw _; exact hw
  · intro g w l t w1 _ hw hl
    by_cases hg : g = f
    · subst hg
      rw [poll_locked_fsm_self hl hw, stepped_of_empty R hR]
    · rw [poll_locked_fsm_other hl hg]; exact hw

/-- The record of the polled FSM when `fsm_poll` releases its lock, and, when the handlers
leave that record alone, when `fsm_poll` returns. -/
theorem fsm_poll_record {hs : handlers} {n f : Nat} {w : World} {r : poll_result} {F : fsm}
    (hF : cell w.fsms f = some F) (hr : fsm_poll hs n f w = .ok r) :
    (∃ l t w1, poll_locked f w = .ok (l, t, w1) ∧ cell w1.fsms f = some F.stepped) ∧
    (hs.keep (fun w => w.fsm? f) → cell r.world.fsms f = some F.stepped) := by
  obtain ⟨m, l, t0, w1, t1, w2, t2, w3, o, t3, w4, t4, hm, h0, h1, h2, h3, h4, -, htr⟩ :=
    fsm_poll_inv hr
  have hw1 := poll_locked_fsm_self h0 hF
  refine ⟨⟨l, t0, w1, h0, hw1⟩, ?_⟩
  intro hkeep
  obtain ⟨ka, kb, kc⟩ := fsm_poll_keeps_settled hs f F.stepped (stepped_sta_next F) hkeep
  refine poll_rest_keeps hs (fun w => cell w.fsms f = some F.stepped) ka kb ?_ h1 h2 h3 h4 hw1
  intro buf w' t w1' hI hc _
  exact poll_children_keeps (fun w => cell w.fsms f = some F.stepped) (fun _ => True) kb
    (fsm_poll hs m) o
    (fun g w r hg hD hI h => fsm_poll_keeps hs _ (fun _ => True) ka kb kc m g w r hg hD hI h)
    buf w' t w1' (fun _ _ _ => trivial) hI hc

/-- Transition application: for every FSM and every call of `fsm_poll` on it that
returns, the transition step leaves, at the moment the lock of the FSM is released, the record
with `previous := old current`, `current := N`, `next := empty` when a request `N` was pending
and the unchanged record when none was; and when the handlers leave the record of this FSM
alone (they issue no new request on it), this is also the record when `fsm_poll` returns. -/
theorem transition_applied (hs : handlers) (n f : Nat) (w : World) (r : poll_result)
    (F : fsm) (hF : w.fsm? f = some F) (hr : fsm_poll hs n f w = .ok r) :
    (∃ l t w1, poll_locked f w = .ok (l, t, w1) ∧
      (F.sta_next ≠ 0 → w1.fsm? f = some
        { F with sta_prev := F.sta_curr, sta_curr := F.sta_next, sta_next := 0 }) ∧
      (F.sta_next = 0 → w1.fsm? f = some F)) ∧
    (hs.keep (fun w => w.fsm? f) →
      (F.sta_next ≠ 0 → r.world.fsm? f = some
        { F with sta_prev := F.sta_curr, sta_curr := F.sta_next, sta_next := 0 }) ∧
      (F.sta_next = 0 → r.world.fsm? f = some F)) := by
  simp only [World.fsm?] at hF ⊢
  have hcase1 : F.sta_next ≠ 0 → F.stepped =
      { F with sta_prev := F.sta_curr, sta_curr := F.sta_next, sta_next := 0 } := by
    intro h; simp [fsm.stepped, h]
  have hcase2 : F.sta_next = 0 → F.stepped = F := stepped_of_empty F
  obtain ⟨⟨l, t, w1, h0, hw1⟩, hfin⟩ := fsm_poll_record hF hr
  refine ⟨⟨l, t, w1, h0, fun h => by rw [hw1, hcase1 h], fun h => by rw [hw1, hcase2 h]⟩, ?_⟩
  intro hkeep
  exact ⟨fun h => by rw [hfin hkeep, hcase1 h], fun h => by rw [hfin hkeep, hcase2 h]⟩

theorem first_hit_handle (h : List (Option state)) (L : List Nat) (a : Nat) (s : state)
    (ha : a ∈ L) (hs : cell h a = some s) :
    first_hit h (fun p _ => p = a) L = a := by
  induction L with
  | nil => simp at ha
  | cons b L ih =>
    by_cases hb : b = a
    · subst hb
      simp [first_hit, hit_at, hs]
    · have hb1 : hit_at h (fun p _ => decide (p = a)) b = false := by
        unfold hit_at
        cases cell h b <;> simp [hb]
      have := ih (by simpa [Ne.symm hb] using ha)
      simp only [first_hit, List.find?_cons, hb1] at this ⊢
      exact this

/-- The walk of a request for a registered state ends at that state. -/
theorem request_run_eq (f : Nat) (w : World) (F : fsm) (pre post : List Nat) (a : Nat)
    (s : state) (r : request)
    (hF : cell w.fsms f = some F) (hv : F.valid) (hl : F.lock ∉ w.held)
    (hL : state_chain w.states (w.states.length + 1) F.state_list = .ok (pre ++ a :: post))
    (hs : cell w.states a = some s) (hr : r.asks w.states pre a s) :
    r.run f w = switch_to f F a { w with held := F.lock :: w.held } := by
  obtain ⟨hm, hos, hlk, hq⟩ := hv
  cases r with
  | by_id id =>
    obtain ⟨h1, h2⟩ := hr
    have hfind := state_find_of_chain w.states (fun _ s => s.id = id) _ _ _ hL
    rw [first_hit_decomp w.states _ pre post a s hs (by simp [h1])
      (fun b hb t ht => by simpa using h2 b hb t ht)] at hfind
    simp only [request.run, fsm_switch, World.fsm?, hF, ld, ok_bind, ASSERT, hm, hos, hlk,
      if_true, ne_eq, not_false_eq_true, mutex_lock, hl, if_false, World.sfuel, hfind]
  | by_state_handle st =>
    obtain ⟨h1, h2⟩ := hr
    subst h1
    have hfind := state_find_of_chain w.states (fun p _ => p = st) _ _ _ hL
    rw [first_hit_handle w.states _ st s (by simp) hs] at hfind
    simp only [request.run, fsm_switch_by_state_handle, World.fsm?, World.state?, hF, hs, ld,
      ok_bind, ASSERT, hm, hos, hlk, h2, if_true, ne_eq, not_false_eq_true, mutex_lock, hl,
      if_false, World.sfuel, hfind]
  | by_name name =>
    obtain ⟨h1, h2⟩ := hr
    have hfind := state_find_of_chain w.states (fun _ s => s.name = name) _ _ _ hL
    rw [first_hit_decomp w.states _ pre post a s hs (by simp [h1])
      (fun b hb t ht => by simpa using h2 b hb t ht)] at hfind
    simp only [request.run, fsm_switch_by_name, World.fsm?, hF, ld, ok_bind, ASSERT, hm, hos,
      hlk, if_true, ne_eq, not_false_eq_true, mutex_lock, hl, if_false, World.sfuel, hfind]

theorem switch_to_empty (f : Nat) (w : World) (F : fsm) (a : Nat) (ha : a ≠ 0)
    (hn : F.sta_next = 0) :
    switch_to f F a { w with held := F.lock :: w.held } =
      .ok (0, w.setFsm f { F with sta_next := a }) := by
  simp [switch_to, ha, hn, mutex_unlock]

theorem switch_to_pending (f : Nat) (w : World) (F : fsm) (a : Nat) (ha : a ≠ 0)
    (hn : F.sta_next ≠ 0) (c s : state) (hc : cell w.states F.sta_curr = some c)
    (hs : cell w.states a = some s) :
    switch_to f F a { w with held := F.lock :: w.held } = .ok (0, w) := by
  simp [switch_to, ha, hn, mutex_unlock, ld, hc, hs]

@[simp] theorem calls_nil : calls [] = [] := rfl

@[simp] theorem calls_cons_send (q : Nat) (e : event) (b : Nat) (ok : Bool) (t : List action) :
    calls (action.send q e b ok :: t) = calls t := rfl

@[simp] theorem calls_cons_receive (q : Nat) (r : Option event) (t : List action) :
    calls (action.receive q r :: t) = calls t := rfl

@[simp] theorem calls_cons_call (h : Nat) (e : event) (held : List Nat) (t : List action) :
    calls (action.call h e held :: t) = (h, e) :: calls t := rfl

@[simp] theorem calls_cons_poll (c : Nat) (t : List action) :
    calls (action.poll c :: t) = calls t := rfl

@[simp] theorem polled_nil : polled [] = [] := rfl

@[simp] theorem polled_cons_send (q : Nat) (e : event) (b : Nat) (ok : Bool) (t : List action) :
    polled (action.send q e b ok :: t) = polled t := rfl

@[simp] theorem polled_cons_receive (q : Nat) (r : Option event) (t : List action) :
    polled (action.receive q r :: t) = polled t := rfl

@[simp] theorem polled_cons_call (h : Nat) (e : event) (held : List Nat) (t : List action) :
    polled (action.call h e held :: t) = polled t := rfl

@[simp] theorem polled_cons_poll (c : Nat) (t : List action) :
    polled (action.poll c :: t) = c :: polled t := rfl

@[simp] theorem received_nil : received [] = [] := rfl

@[simp] theorem received_cons_send (q : Nat) (e : event) (b : Nat) (ok : Bool) (t : List action) :
    received (action.send q e b ok :: t) = received t := rfl

@[simp] theorem received_cons_receive (q : Nat) (r : Option event) (t : List action) :
    received (action.receive q r :: t) = (q, r) :: received t := rfl

@[simp] theorem received_cons_call (h : Nat) (e : event) (held : List Nat) (t : List action) :
    received (action.call h e held :: t) = received t := rfl

@[simp] theorem received_cons_poll (c : Nat) (t : List action) :
    received (action.poll c :: t) = received t := rfl

@[simp] theorem forwarded_nil : forwarded [] = [] := rfl

@[simp] theorem forwarded_cons_send_200 (q : Nat) (e : event) (ok : Bool) (t : List action) :
    forwarded (action.send q e 200 ok :: t) = (q, e) :: forwarded t := rfl

@[simp] theorem forwarded_cons_send_0 (q : Nat) (e : event) (ok : Bool) (t : List action) :
    forwarded (action.send q e 0 ok :: t) = forwarded t := rfl

@[simp] theorem forwarded_cons_receive (q : Nat) (r : Option event) (t : List action) :
    forwarded (action.receive q r :: t) = forwarded t := rfl

@[simp] theorem forwarded_cons_call (h : Nat) (e : event) (held : List Nat) (t : List action) :
    forwarded (action.call h e held :: t) = forwarded t := rfl

@[simp] theorem forwarded_cons_poll (c : Nat) (t : List action) :
    forwarded (action.poll c :: t) = forwarded t := rfl

@[simp] theorem posted_nil : posted [] = [] := rfl

@[simp] theorem posted_cons_send_0 (q : Nat) (e : event) (ok : Bool) (t : List action) :
    posted (action.send q e 0 ok :: t) = (q, e) :: posted t := rfl

@[simp] theorem posted_cons_send_200 (q : Nat) (e : event) (ok : Bool) (t : List action) :
    posted (action.send q e 200 ok :: t) = posted t := rfl

@[simp] theorem posted_cons_receive (q : Nat) (r : Option event) (t : List action) :
    posted (action.receive q r :: t) = posted t := rfl

@[simp] theorem posted_cons_call (h : Nat) (e : event) (held : List Nat) (t : List action) :
    posted (action.call h e held :: t) = posted t := rfl

@[simp] theorem posted_cons_poll (c : Nat) (t : List action) :
    posted (action.poll c :: t) = posted t := rfl

@[simp] theorem calls_append (a b : List action) : calls (a ++ b) = calls a ++ calls b := by
  simp [calls]

@[simp] theorem polled_append (a b : List action) : polled (a ++ b) = polled a ++ polled b := by
  simp [polled]

@[simp] theorem forwarded_append (a b : List action) :
    forwarded (a ++ b) = forwarded a ++ forwarded b := by
  simp [forwarded]

@[simp] theorem posted_append (a b : List action) : posted (a ++ b) = posted a ++ posted b := by
  simp [posted]

@[simp] theorem received_append (a b : List action) :
    received (a ++ b) = received a ++ received b := by
  simp [received]

theorem poll_forward_trace {o : Option event} {c : Nat} {w w1 : World} {t : List action}
    (h : poll_forward o c w = .ok (t, w1)) :
    ∃ C, cell w.fsms c = some C ∧
      ((t = [] ∧ (o = none ∨ ∃ e, o = some e ∧ e.type = FSM_EVT_POLL)) ∨
       ∃ e ok, o = some e ∧ e.type ≠ FSM_EVT_POLL ∧ t = [.send C.event_queue e 200 ok]) := by
  obtain ⟨C, hC, -, -, -, -, -, -, -, -, ha, hb, hc⟩ := poll_forward_inv h
  refine ⟨C, hC, ?_⟩
  cases o with
  | none => exact Or.inl ⟨(ha rfl).1, Or.inl rfl⟩
  | some e =>
    by_cases hp : e.type = FSM_EVT_POLL
    · exact Or.inl ⟨(hb e rfl hp).1, Or.inr ⟨e, rfl, hp⟩⟩
    · obtain ⟨-, Q, -, ht, -⟩ := hc e rfl hp
      exact Or.inr ⟨e, _, rfl, hp, ht⟩

/-- The child loop itself makes no handler call, no receive and no non-blocking send, and it
polls exactly the FSMs of the buffer, in order. -/
theorem poll_children_own (P : Nat → World → Except fault poll_result) (o : Option event) :
    ∀ (buf : List Nat) (w : World) (t : List (Nat × action)) (w1 : World),
      poll_children P o buf w = .ok (t, w1) →
      calls (own t) = [] ∧ received (own t) = [] ∧ posted (own t) = [] ∧
      polled (own t) = buf := by
  intro buf
  induction buf with
  | nil =>
    intro w t w1 h
    simp [poll_children] at h
    rw [h.1]
    simp
  | cons c rest ih =>
    intro w t w1 h
    obtain ⟨t1, w2, r, t2, h1, h2, h3, rfl⟩ := poll_children_cons_inv h
    obtain ⟨i1, i2, i3, i4⟩ := ih _ _ _ h3
    obtain ⟨C, -, hcase⟩ := poll_forward_trace h1
    rcases hcase with ⟨rfl, -⟩ | ⟨e, ok, -, -, rfl⟩
    · simp [i1, i2, i3, i4, here]
    · simp [i1, i2, i3, i4, here]

/-! ## The actions of one poll -/

/-- The locked part of a poll changes of the states only the polling fields `ts_poll` and
`poll_interval` of one of them. -/
theorem poll_locked_states {α : Type} (σ : state → α)
    (hσ : ∀ (C : state) (x y : Nat), σ { C with ts_poll := x, poll_interval := y } = σ C)
    {g : Nat} {w w1 : World} {l : poll_locals} {t : List action}
    (h : poll_locked g w = .ok (l, t, w1)) (p : Nat) :
    (cell w1.states p).map σ = (cell w.states p).map σ := by
  obtain ⟨G, C, -, -, -, hC, -, -, -, -, -, -, -, -, -, -, -, ha, hb, hc⟩ := poll_locked_inv h
  by_cases hno : C.poll_interval = FSM_NO_POLL
  · rw [(ha hno).2.2]
    exact cell_put_map _ _ C _ σ hC (hσ C C.ts_poll C.poll_interval_next) p
  · by_cases hlt : sub32 (uptime_ms w) C.ts_poll < C.poll_interval
    · rw [(hb hno hlt).2.2]
    · obtain ⟨Q, -, -, -, hs⟩ := hc hno (Nat.le_of_not_lt hlt)
      rw [hs]
      exact cell_put_map _ _ C _ σ hC (hσ C _ _) p

/-- The shape of the trace of one call of `fsm_poll`. -/
theorem fsm_poll_own {hs : handlers} {n f : Nat} {w : World} {r : poll_result}
    (h : fsm_poll hs n f w = .ok r) :
    ∃ m l t0 w1 t1 w2 t2 w3 o t3 w4 t4, n = m + 1 ∧
      poll_locked f w = .ok (l, t0, w1) ∧ poll_exit hs f l w1 = .ok (t1, w2) ∧
      poll_enter hs f l w2 = .ok (t2, w3) ∧ poll_dispatch hs l w3 = .ok (o, t3, w4) ∧
      poll_children (fsm_poll hs m) o l.child_fsm_buf w4 = .ok (t4, r.world) ∧
      r.trace = here (t0 ++ t1 ++ t2 ++ t3) ++ t4 ∧
      own r.trace = t0 ++ t1 ++ t2 ++ t3 ++ own t4 ∧
      calls (own r.trace) = calls t1 ++ calls t2 ++ calls t3 ∧
      polled (own r.trace) = l.child_fsm_buf ∧
      posted (own r.trace) = posted t0 ∧
      received (own r.trace) = received t3 ∧
      forwarded (own r.trace) = forwarded (own t4) := by
  obtain ⟨m, l, t0, w1, t1, w2, t2, w3, o, t3, w4, t4, hm, h0, h1, h2, h3, h4, -, htr⟩ :=
    fsm_poll_inv h
  obtain ⟨c1, c2, c3, c4⟩ := poll_children_own _ _ _ _ _ _ h4
  have hown : own r.trace = t0 ++ t1 ++ t2 ++ t3 ++ own t4 := by
    rw [htr]; simp
  -- the shapes of the four front traces
  have s0 : t0 = [] ∨ ∃ q e ok, t0 = [action.send q e 0 ok] := by
    obtain ⟨G, C, -, -, -, -, -, -, -, -, -, -, -, -, -, -, -, ha, hb, hc⟩ := poll_locked_inv h0
    by_cases hno : C.poll_interval = FSM_NO_POLL
    · exact Or.inl (ha hno).1
    · by_cases hlt : sub32 (uptime_ms w) C.ts_poll < C.poll_interval
      · exact Or.inl (hb hno hlt).1
      · obtain ⟨Q, -, ht, -⟩ := hc hno (Nat.le_of_not_lt hlt)
        exact Or.inr ⟨_, _, _, ht⟩
  have s1 : t1 = [] ∨ ∃ h e held, t1 = [action.call h e held] := by
    obtain ⟨ha, hb⟩ := poll_exit_inv h1
    by_cases hx : l.exit = 0
    · exact Or.inl (ha hx).1
    · obtain ⟨_, _, -, -, ht, -⟩ := hb hx
      exact Or.inr ⟨_, _, _, ht⟩
  have s2 : t2 = [] ∨ ∃ h e held, t2 = [action.call h e held] := by
    obtain ⟨ha, hb⟩ := poll_enter_inv h2
    by_cases hx : l.enter = 0
    · exact Or.inl (ha hx).1
    · obtain ⟨_, _, -, -, ht, -⟩ := hb hx
      exact Or.inr ⟨_, _, _, ht⟩
  have s3 : (∃ q r, t3 = [action.receive q r]) ∨
      ∃ q r h e held, t3 = [action.receive q r, action.call h e held] := by
    obtain ⟨Q, -, ha, hb⟩ := poll_dispatch_inv h3
    cases hi : Q.items with
    | nil => exact Or.inl ⟨_, _, (ha hi).2.1⟩
    | cons e rest =>
      obtain ⟨hb1, hb2⟩ := hb e rest hi
      by_cases hx : l.handler = 0
      · exact Or.inl ⟨_, _, (hb1 hx).2.1⟩
      · exact Or.inr ⟨_, _, _, _, _, (hb2 hx).2.1⟩
  refine ⟨m, l, t0, w1, t1, w2, t2, w3, o, t3, w4, t4, hm, h0, h1, h2, h3, h4, htr, hown,
    ?_, ?_, ?_, ?_, ?_⟩
  · rw [hown]
    rcases s0 with rfl | ⟨q, e, ok, rfl⟩ <;> simp [c1]
  · rw [hown]
    rcases s0 with rfl | ⟨q, e, ok, rfl⟩ <;>
    rcases s1 with rfl | ⟨h1, e1, hd1, rfl⟩ <;>
    rcases s2 with rfl | ⟨h2, e2, hd2, rfl⟩ <;>
    rcases s3 with ⟨q3, r3, rfl⟩ | ⟨q3, r3, h3, e3, hd3, rfl⟩ <;> simp [c4]
  · rw [hown]
    rcases s1 with rfl | ⟨h1, e1, hd1, rfl⟩ <;>
    rcases s2 with rfl | ⟨h2, e2, hd2, rfl⟩ <;>
    rcases s3 with ⟨q3, r3, rfl⟩ | ⟨q3, r3, h3, e3, hd3, rfl⟩ <;> simp [c3]
  · rw [hown]
    rcases s0 with rfl | ⟨q, e, ok, rfl⟩ <;>
    rcases s1 with rfl | ⟨h1, e1, hd1, rfl⟩ <;>
    rcases s2 with rfl | ⟨h2, e2, hd2, rfl⟩ <;> simp [c2]
  · rw [hown]
    rcases s0 with rfl | ⟨q, e, ok, rfl⟩ <;>
    rcases s1 with rfl | ⟨h1, e1, hd1, rfl⟩ <;>
    rcases s2 with rfl | ⟨h2, e2, hd2, rfl⟩ <;>
    rcases s3 with ⟨q3, r3, rfl⟩ | ⟨q3, r3, h3, e3, hd3, rfl⟩ <;> simp

/-- The handler call of the dispatch step: none, or one call of the captured handler with an
event that was received from the queue. -/
theorem poll_dispatch_calls {hs : handlers} {l : poll_locals} {w w1 : World}
    {o : Option event} {t : List action} (h : poll_dispatch hs l w = .ok (o, t, w1)) :
    calls t = [] ∨ ∃ e, calls t = [(l.handler, e)] ∧ (l.event_queue, some e) ∈ received t := by
  obtain ⟨Q, -, ha, hb⟩ := poll_dispatch_inv h
  cases hi : Q.items with
  | nil => left; rw [(ha hi).2.1]; rfl
  | cons e rest =>
    obtain ⟨hb1, hb2⟩ := hb e rest hi
    by_cases hx : l.handler = 0
    · left; rw [(hb1 hx).2.1]; rfl
    · right
      refine ⟨e, ?_, ?_⟩
      · rw [(hb2 hx).2.1]; rfl
      · rw [(hb2 hx).2.1]; simp

/-- Enter/Exit payloads: for every call of `fsm_poll` that returns.  When it applies a
transition from state `A` (the old current state) to state `B` (the pending target), and the
handlers neither redirect the `previous` reference of the FSM nor change the id and name of
`A`, the handler calls it makes itself are, in this order: one call of the handler of `A`, if
it has one, with the EXIT event whose payload is the `state_info` of `B`; one call of the
handler of `B`, if it has one, with the ENTER event whose payload is the `state_info` of `A`;
both with the timestamp of the poll and `datalen = sizeof(struct state_info)`; and then at
most the dispatch to the handler of `B` of an event received from the queue.  When no
transition is applied, the only handler call it makes itself is that dispatch, to the
handler of the current state: it delivers no ENTER and no EXIT event of its own. -/
theorem enter_exit_calls (hs : handlers) (n f : Nat) (w : World) (r : poll_result)
    (F : fsm) (hF : w.fsm? f = some F) (hr : fsm_poll hs n f w = .ok r) :
    (∀ A B : state, F.sta_next ≠ 0 → w.state? F.sta_curr = some A →
      w.state? F.sta_next = some B →
      hs.keep (fun w => (w.fsm? f).map (fun G => G.sta_prev)) →
      hs.keep (fun w => (w.state? F.sta_curr).map (fun s => (s.id, s.name))) →
      ∃ d, calls (own r.trace) =
        (if A.handler ≠ 0 then
          [(A.handler, ({ type := FSM_EVT_EXIT, timestamp := uptime_ms w,
                          data := .info { id := B.id, name := B.name },
                          datalen := sizeof_state_info } : event))] else []) ++
        (if B.handler ≠ 0 then
          [(B.handler, ({ type := FSM_EVT_ENTER, timestamp := uptime_ms w,
                          data := .info { id := A.id, name := A.name },
                          datalen := sizeof_state_info } : event))] else []) ++ d ∧
        (d = [] ∨ ∃ e, d = [(B.handler, e)] ∧
          (F.event_queue, some e) ∈ received (own r.trace))) ∧
    (∀ C : state, F.sta_next = 0 → w.state? F.sta_curr = some C →
      calls (own r.trace) = [] ∨ ∃ e, calls (own r.trace) = [(C.handler, e)] ∧
        (F.event_queue, some e) ∈ received (own r.trace)) := by
  simp only [World.fsm?, World.state?] at hF ⊢
  obtain ⟨m, l, t0, w1, t1, w2, t2, w3, o, t3, w4, t4, hm, h0, h1, h2, h3, h4, htr, hown,
    hcalls, -, -, hrecv, -⟩ := fsm_poll_own hr
  have hident := poll_locked_states (fun s => (s.id, s.name)) (fun _ _ _ => rfl) h0
  have hw1f := poll_locked_fsm_self h0 hF
  obtain ⟨F0, C0, hF0, -, -, hC0, hno, hyes, hts, hh, hq, -⟩ := poll_locked_inv h0
  rw [hF] at hF0
  simp only [Option.some.injEq] at hF0
  subst hF0
  have hd := poll_dispatch_calls h3
  rw [hq, hh] at hd
  rw [hcalls, hrecv]
  constructor
  · intro A B hn hA hB hk1 hk2
    have hstep : F.stepped.sta_curr = F.sta_next := by simp [fsm.stepped, hn]
    rw [hstep, hB] at hC0
    simp only [Option.some.injEq] at hC0
    subst hC0
    obtain ⟨P, hP, hx, he⟩ := hyes hn
    rw [hA] at hP
    simp only [Option.some.injEq] at hP
    subst hP
    refine ⟨calls t3, ?_, hd⟩
    -- the exit call
    obtain ⟨xa, xb⟩ := poll_exit_inv h1
    have ht1 : calls t1 = if A.handler ≠ 0 then
        [(A.handler, ({ type := FSM_EVT_EXIT, timestamp := uptime_ms w,
                        data := .info { id := B.id, name := B.name },
                        datalen := sizeof_state_info } : event))] else [] := by
      by_cases h0x : A.handler = 0
      · rw [(xa (hx.trans h0x)).1]; simp [h0x]
      · obtain ⟨F1, C1, hF1, hC1, ht, -⟩ := xb (by rw [hx]; exact h0x)
        rw [hw1f] at hF1
        simp only [Option.some.injEq] at hF1
        subst hF1
        rw [hstep] at hC1
        have := hident F.sta_next
        rw [hC1, hB] at this
        simp only [Option.map_some', Option.some.injEq, Prod.mk.injEq] at this
        rw [ht]
        simp [h0x, hx, exit_event, hts, this.1, this.2]
    -- the world the enter block reads
    have hprev : (cell w2.fsms f).map (fun G => G.sta_prev) = some F.sta_curr := by
      have e1 : (cell w1.fsms f).map (fun G => G.sta_prev) = some F.sta_curr := by
        rw [hw1f]; simp [fsm.stepped, hn]
      by_cases h0x : l.exit = 0
      · rw [(xa h0x).2]; exact e1
      · obtain ⟨F1, C1, -, -, -, hw2⟩ := xb h0x
        rw [hw2]
        have := hk1 l.exit (exit_event l.ts C1) w1
        simp only [World.fsm?] at this
        rw [this]; exact e1
    have hAid : (cell w2.states F.sta_curr).map (fun s => (s.id, s.name)) =
        some (A.id, A.name) := by
      have e1 : (cell w1.states F.sta_curr).map (fun s => (s.id, s.name)) =
          some (A.id, A.name) := by
        rw [hident, hA]; rfl
      by_cases h0x : l.exit = 0
      · rw [(xa h0x).2]; exact e1
      · obtain ⟨F1, C1, -, -, -, hw2⟩ := xb h0x
        rw [hw2]
        have := hk2 l.exit (exit_event l.ts C1) w1
        simp only [World.state?] at this
        rw [this]; exact e1
    obtain ⟨na, nb⟩ := poll_enter_inv h2
    have ht2 : calls t2 = if B.handler ≠ 0 then
        [(B.handler, ({ type := FSM_EVT_ENTER, timestamp := uptime_ms w,
                        data := .info { id := A.id, name := A.name },
                        datalen := sizeof_state_info } : event))] else [] := by
      by_cases h0e : B.handler = 0
      · rw [(na (he.trans h0e)).1]; simp [h0e]
      · obtain ⟨F2, P2, hF2, hP2, ht, -⟩ := nb (by rw [he]; exact h0e)
        rw [hF2] at hprev
        simp only [Option.map_some', Option.some.injEq] at hprev
        rw [hprev] at hP2
        rw [hP2] at hAid
        simp only [Option.map_some', Option.some.injEq, Prod.mk.injEq] at hAid
        rw [ht]
        simp [h0e, he, enter_event, hts, hAid.1, hAid.2]
    rw [ht1, ht2]
  · intro C hn hC
    have hstep : F.stepped.sta_curr = F.sta_curr := by simp [fsm.stepped, hn]
    rw [hstep, hC] at hC0
    simp only [Option.some.injEq] at hC0
    subst hC0
    obtain ⟨hx, he⟩ := hno hn
    rw [(poll_exit_inv h1).1 hx |>.1, (poll_enter_inv h2).1 he |>.1]
    simpa using hd

/-! ## The polling event -/

/-- The locked part of a poll writes to no state but the current one. -/
theorem poll_locked_state_other {g : Nat} {w w1 : World} {l : poll_locals} {t : List action}
    (h : poll_locked g w = .ok (l, t, w1)) :
    ∃ G, cell w.fsms g = some G ∧ ∀ p, p ≠ G.stepped.sta_curr →
      cell w1.states p = cell w.states p := by
  obtain ⟨G, C, hG, -, -, hC, -, -, -, -, -, -, -, -, -, -, -, ha, hb, hc⟩ := poll_locked_inv h
  refine ⟨G, hG, ?_⟩
  intro p hp
  by_cases hno : C.poll_interval = FSM_NO_POLL
  · rw [(ha hno).2.2, cell_put_ne _ _ (Ne.symm hp)]
  · by_cases hlt : sub32 (uptime_ms w) C.ts_poll < C.poll_interval
    · rw [(hb hno hlt).2.2]
    · obtain ⟨Q, -, -, -, hs⟩ := hc hno (Nat.le_of_not_lt hlt)
      rw [hs, cell_put_ne _ _ (Ne.symm hp)]

theorem stepped_sta_curr_mem (G : fsm) :
    G.stepped.sta_curr = G.sta_curr ∨ G.stepped.sta_curr = G.sta_next := by
  unfold fsm.stepped
  split
  · right; rfl
  · left; rfl

/-- The record of a state that only the FSM `f` uses as current or pending state is not
changed by the rest of a poll of `f` in which `f` is not polled again, as long as the
handlers leave that record and the FSM records alone. -/
theorem fsm_poll_state_kept {hs : handlers} {n f : Nat} {w : World} {r : poll_result}
    {c : Nat} (hr : fsm_poll hs n f w = .ok r)
    (hk1 : hs.keep (fun w => w.state? c)) (hk2 : hs.keep (fun w => w.fsms))
    (hsole : w.sole_user f c) (hagain : ∀ d, (d, action.poll f) ∉ r.trace) :
    ∃ l t w1, poll_locked f w = .ok (l, t, w1) ∧
      (∀ X, cell w1.states c = some X → cell r.world.states c = some X) := by
  obtain ⟨m, l, t0, w1, t1, w2, t2, w3, o, t3, w4, t4, hm, h0, h1, h2, h3, h4, -, htr⟩ :=
    fsm_poll_inv hr
  refine ⟨l, t0, w1, h0, ?_⟩
  intro X hX
  have hh : ∀ h e w, (cell w.states c = some X ∧ w.sole_user f c) →
      (cell (hs h e w).2.states c = some X ∧ (hs h e w).2.sole_user f c) := by
    intro h e w ⟨a, b⟩
    have e1 := hk1 h e w
    have e2 := hk2 h e w
    simp only [World.state?] at e1
    refine ⟨by rw [e1]; exact a, ?_⟩
    intro g G hg hG
    simp only [World.fsm?, e2] at hG
    exact b g G hg hG
  have hq : ∀ (w : World) (qs : List (Option queue)),
      (cell w.states c = some X ∧ w.sole_user f c) →
      (∀ q, (cell qs q).isSome = (cell w.queues q).isSome) →
      (cell ({ w with queues := qs } : World).states c = some X ∧
        ({ w with queues := qs } : World).sole_user f c) := by
    intro w qs hI _; exact hI
  have hl : ∀ g w l t w1, g ≠ f → (cell w.states c = some X ∧ w.sole_user f c) →
      poll_locked g w = .ok (l, t, w1) →
      (cell w1.states c = some X ∧ w1.sole_user f c) := by
    intro g w l t w1 hg ⟨a, b⟩ hp
    obtain ⟨G, hG, hother⟩ := poll_locked_state_other hp
    have hGc := b g G hg hG
    have hc0 : c ≠ 0 := by
      intro h; rw [h] at a; simp at a
    have hne : c ≠ G.stepped.sta_curr := by
      rcases stepped_sta_curr_mem G with h | h <;> rw [h]
      · exact Ne.symm hGc.1
      · exact Ne.symm hGc.2
    refine ⟨by rw [hother c hne]; exact a, ?_⟩
    intro g1 G1 hg1 hG1
    simp only [World.fsm?] at hG1
    by_cases hgg : g = g1
    · subst hgg
      rw [poll_locked_fsm_self hp hG] at hG1
      simp only [Option.some.injEq] at hG1
      subst hG1
      refine ⟨Ne.symm hne, ?_⟩
      rw [stepped_sta_next]
      exact Ne.symm hc0
    · rw [poll_locked_fsm_other hp hgg] at hG1
      exact b g1 G1 hg1 hG1
  have hI1 : cell w1.states c = some X ∧ w1.sole_user f c := by
    refine ⟨hX, ?_⟩
    intro g G hg hG
    simp only [World.fsm?] at hG
    rw [poll_locked_fsm_other h0 (Ne.symm hg)] at hG
    exact hsole g G hg hG
  have := poll_rest_keeps hs (fun w => cell w.states c = some X ∧ w.sole_user f c) hh hq
    (P := fsm_poll hs m) (o := o) ?_ h1 h2 h3 h4 hI1
  · exact this.1
  · intro buf w' t w1' hI hc hsub
    refine poll_children_keeps _ (fun g => g ≠ f) hq (fsm_poll hs m) o
      (fun g w r hg hD hI h => fsm_poll_keeps hs _ (fun g => g ≠ f) hh hq hl m g w r hg hD hI h)
      buf w' t w1' ?_ hI hc
    intro d c1 hmem hcf
    subst hcf
    exact hagain d (by rw [htr]; exact List.mem_append_right _ (hsub d c1 hmem))

/-- The sends of the child loop are forwards with the bounded wait, and never of an event of
type POLL. -/
theorem poll_children_sends (P : Nat → World → Except fault poll_result) (o : Option event) :
    ∀ (buf : List Nat) (w : World) (t : List (Nat × action)) (w1 : World),
      poll_children P o buf w = .ok (t, w1) →
      ∀ q e b ok, action.send q e b ok ∈ own t → b = 200 ∧ e.type ≠ FSM_EVT_POLL := by
  intro buf
  induction buf with
  | nil =>
    intro w t w1 h
    simp [poll_children] at h
    rw [h.1]
    simp
  | cons c rest ih =>
    intro w t w1 h q e b ok hmem
    obtain ⟨t1, w2, r, t2, h1, h2, h3, rfl⟩ := poll_children_cons_inv h
    obtain ⟨C, -, hcase⟩ := poll_forward_trace h1
    rcases hcase with ⟨rfl, -⟩ | ⟨e1, ok1, -, hty, rfl⟩
    · simp [here] at hmem
      exact ih _ _ _ h3 q e b ok hmem
    · simp [here] at hmem
      rcases hmem with ⟨-, rfl, rfl, -⟩ | hmem
      · exact ⟨rfl, hty⟩
      · exact ih _ _ _ h3 q e b ok hmem

/-- A send that `fsm_poll` makes itself is either the one made under the lock or a forward:
a send with the bounded wait of an event whose type is not POLL. -/
theorem fsm_poll_sends {hs : handlers} {n f : Nat} {w : World} {r : poll_result}
    (h : fsm_poll hs n f w = .ok r) :
    ∃ l t0 w1, poll_locked f w = .ok (l, t0, w1) ∧
      ∀ q e b ok, action.send q e b ok ∈ own r.trace →
        action.send q e b ok ∈ t0 ∨ (b = 200 ∧ e.type ≠ FSM_EVT_POLL) := by
  obtain ⟨m, l, t0, w1, t1, w2, t2, w3, o, t3, w4, t4, hm, h0, h1, h2, h3, h4, htr, hown, -⟩ :=
    fsm_poll_own h
  refine ⟨l, t0, w1, h0, ?_⟩
  intro q e b ok hmem
  rw [hown] at hmem
  have s1 : t1 = [] ∨ ∃ h e held, t1 = [action.call h e held] := by
    obtain ⟨ha, hb⟩ := poll_exit_inv h1
    by_cases hx : l.exit = 0
    · exact Or.inl (ha hx).1
    · obtain ⟨_, _, -, -, ht, -⟩ := hb hx
      exact Or.inr ⟨_, _, _, ht⟩
  have s2 : t2 = [] ∨ ∃ h e held, t2 = [action.call h e held] := by
    obtain ⟨ha, hb⟩ := poll_enter_inv h2
    by_cases hx : l.enter = 0
    · exact Or.inl (ha hx).1
    · obtain ⟨_, _, -, -, ht, -⟩ := hb hx
      exact Or.inr ⟨_, _, _, ht⟩
  have s3 : (∃ q r, t3 = [action.receive q r]) ∨
      ∃ q r h e held, t3 = [action.receive q r, action.call h e held] := by
    obtain ⟨Q, -, ha, hb⟩ := poll_dispatch_inv h3
    cases hi : Q.items with
    | nil => exact Or.inl ⟨_, _, (ha hi).2.1⟩
    | cons e rest =>
      obtain ⟨hb1, hb2⟩ := hb e rest hi
      by_cases hx : l.handler = 0
      · exact Or.inl ⟨_, _, (hb1 hx).2.1⟩
      · exact Or.inr ⟨_, _, _, _, _, (hb2 hx).2.1⟩
  have hkids := poll_children_sends _ _ _ _ _ _ h4 q e b ok
  rcases s1 with rfl | ⟨h1, e1, hd1, rfl⟩ <;>
  rcases s2 with rfl | ⟨h2, e2, hd2, rfl⟩ <;>
  rcases s3 with ⟨q3, r3, rfl⟩ | ⟨q3, r3, h3, e3, hd3, rfl⟩ <;>
  · simp only [List.append_nil, List.mem_append, List.mem_cons, List.mem_singleton,
      List.not_mem_nil, or_false, false_or, reduceCtorEq] at hmem
    rcases hmem with hmem | hmem
    · exact Or.inl hmem
    · exact Or.inr (hkids hmem)

/-- Interval gating: for every call of `fsm_poll` that returns and in which the
effective `poll_interval` of the current state (the pending target, when a request is
pending) is `FSM_NO_POLL`, whatever the clock and the last poll timestamp are: the call
itself sends no event of type POLL to any queue and makes no non-blocking send at all; when
it releases the lock the queues are as before and the record of the current state differs
only in its effective interval, which is the `poll_interval_next` it had before the call
(`ts_poll` is unchanged); and this is still the record when the call returns, provided the
handlers leave it and the FSM records alone, no other FSM uses the state as its current or
pending state, and the FSM is not polled again inside the call. -/
theorem gating_never_poll (hs : handlers) (n f : Nat) (w : World) (r : poll_result)
    (F : fsm) (C : state) (hF : w.fsm? f = some F)
    (hC : w.state? F.stepped.sta_curr = some C) (hno : C.poll_interval = FSM_NO_POLL)
    (hr : fsm_poll hs n f w = .ok r) :
    (∀ q e b ok, action.send q e b ok ∈ own r.trace → e.type ≠ FSM_EVT_POLL) ∧
    posted (own r.trace) = [] ∧
    (∃ l t w1, poll_locked f w = .ok (l, t, w1) ∧ t = [] ∧ w1.queues = w.queues ∧
      w1.state? F.stepped.sta_curr =
        some { C with poll_interval := C.poll_interval_next }) ∧
    (hs.keep (fun w => w.state? F.stepped.sta_curr) → hs.keep (fun w => w.fsms) →
      w.sole_user f F.stepped.sta_curr → (∀ d, (d, action.poll f) ∉ r.trace) →
      r.world.state? F.stepped.sta_curr =
        some { C with poll_interval := C.poll_interval_next }) := by
  simp only [World.fsm?, World.state?] at hF hC ⊢
  obtain ⟨l, t0, w1, h0, hsend⟩ := fsm_poll_sends hr
  obtain ⟨F0, C0, hF0, -, -, hC0, -, -, -, -, -, -, -, -, -, -, -, ha, -, -⟩ := poll_locked_inv h0
  rw [hF] at hF0
  simp only [Option.some.injEq] at hF0
  subst hF0
  rw [hC] at hC0
  simp only [Option.some.injEq] at hC0
  subst hC0
  obtain ⟨ht, hq, hs1⟩ := ha hno
  have hw1 : cell w1.states F.stepped.sta_curr =
      some { C with poll_interval := C.poll_interval_next } := by
    rw [hs1, cell_put_same _ hC]
  refine ⟨?_, ?_, ⟨l, t0, w1, h0, ht, hq, hw1⟩, ?_⟩
  · intro q e b ok hmem
    rcases hsend q e b ok hmem with h | h
    · rw [ht] at h; simp at h
    · exact h.2
  · obtain ⟨m, l', t0', w1', t1, w2, t2, w3, o, t3, w4, t4, -, h0', -, -, -, -, -, -, -, -,
      hposted, -⟩ := fsm_poll_own hr
    rw [h0] at h0'
    simp only [Except.ok.injEq, Prod.mk.injEq] at h0'
    rw [hposted, ← h0'.2.1, ht]
    rfl
  · intro hk1 hk2 hsole hagain
    obtain ⟨l', t', w1', h0', hkept⟩ := fsm_poll_state_kept hr hk1 hk2 hsole hagain
    rw [h0] at h0'
    simp only [Except.ok.injEq, Prod.mk.injEq] at h0'
    rw [← h0'.2.2] at hkept
    exact hkept _ hw1

/-- Poll-event generation with a finite interval: for every call of `fsm_poll` at
clock value `ts` that returns and in which the effective `poll_interval` `I` of the current
state (the pending target, when a request is pending) is not `FSM_NO_POLL`.  If
`ts - ts_poll >= I` in `uint32_t` arithmetic, the call makes exactly one non-blocking send,
of the event `{FSM_EVT_POLL, ts, NULL, 0}` to the queue of the FSM, and when it releases the
lock the record of the state has `ts_poll = ts` and `poll_interval = poll_interval_next`.
Otherwise it makes no non-blocking send and sends no event of type POLL at all, and the state
records and the queues are untouched when it releases the lock.  In both cases this is still
the record of the state when the call returns, provided the handlers leave it and the FSM
records alone, no other FSM uses the state as its current or pending state, and the FSM is
not polled again inside the call.  `fsm_change_state_poll_interval` writes
`poll_interval_next` only, so a value it set stays pending until a polling event is
generated. -/
theorem generation_finite (hs : handlers) (n f : Nat) (w : World) (r : poll_result)
    (F : fsm) (C : state) (hF : w.fsm? f = some F)
    (hC : w.state? F.stepped.sta_curr = some C) (hfin : C.poll_interval ≠ FSM_NO_POLL)
    (hr : fsm_poll hs n f w = .ok r) :
    (C.poll_interval ≤ sub32 (uptime_ms w) C.ts_poll →
      posted (own r.trace) = [(F.event_queue,
        ({ type := FSM_EVT_POLL, timestamp := uptime_ms w, data := .null, datalen := 0 }
          : event))] ∧
      (∃ l t w1, poll_locked f w = .ok (l, t, w1) ∧
        w1.state? F.stepped.sta_curr = some
          { C with ts_poll := uptime_ms w, poll_interval := C.poll_interval_next }) ∧
      (hs.keep (fun w => w.state? F.stepped.sta_curr) → hs.keep (fun w => w.fsms) →
        w.sole_user f F.stepped.sta_curr → (∀ d, (d, action.poll f) ∉ r.trace) →
        r.world.state? F.stepped.sta_curr = some
          { C with ts_poll := uptime_ms w, poll_interval := C.poll_interval_next })) ∧
    (sub32 (uptime_ms w) C.ts_poll < C.poll_interval →
      posted (own r.trace) = [] ∧
      (∀ q e b ok, action.send q e b ok ∈ own r.trace → e.type ≠ FSM_EVT_POLL) ∧
      (∃ l t w1, poll_locked f w = .ok (l, t, w1) ∧ w1.states = w.states ∧
        w1.queues = w.queues) ∧
      (hs.keep (fun w => w.state? F.stepped.sta_curr) → hs.keep (fun w => w.fsms) →
        w.sole_user f F.stepped.sta_curr → (∀ d, (d, action.poll f) ∉ r.trace) →
        r.world.state? F.stepped.sta_curr = some C)) ∧
    (∀ st S v, w.state? st = some S → S.magic_number = STATE_MAGIC_NUMBER →
      fsm_change_state_poll_interval st v w =
        .ok (0, w.setState st { S with poll_interval_next := v })) := by
  simp only [World.fsm?, World.state?] at hF hC ⊢
  obtain ⟨l, t0, w1, h0, hsend⟩ := fsm_poll_sends hr
  obtain ⟨F0, C0, hF0, -, -, hC0, -, -, -, -, -, -, -, -, -, -, -, -, hb, hc⟩ := poll_locked_inv h0
  rw [hF] at hF0
  simp only [Option.some.injEq] at hF0
  subst hF0
  rw [hC] at hC0
  simp only [Option.some.injEq] at hC0
  subst hC0
  have hposted : posted (own r.trace) = posted t0 := by
    obtain ⟨m, l', t0', w1', t1, w2, t2, w3, o, t3, w4, t4, -, h0', -, -, -, -, -, -, -, -,
      hp, -⟩ := fsm_poll_own hr
    rw [h0] at h0'
    simp only [Except.ok.injEq, Prod.mk.injEq] at h0'
    rw [hp, ← h0'.2.1]
  have hkept : hs.keep (fun w => w.state? F.stepped.sta_curr) → hs.keep (fun w => w.fsms) →
      w.sole_user f F.stepped.sta_curr → (∀ d, (d, action.poll f) ∉ r.trace) →
      ∀ X, cell w1.states F.stepped.sta_curr = some X →
        cell r.world.states F.stepped.sta_curr = some X := by
    intro hk1 hk2 hsole hagain
    obtain ⟨l', t', w1', h0', hk⟩ := fsm_poll_state_kept hr hk1 hk2 hsole hagain
    rw [h0] at h0'
    simp only [Except.ok.injEq, Prod.mk.injEq] at h0'
    rw [← h0'.2.2] at hk
    exact hk
  refine ⟨?_, ?_, ?_⟩
  · intro hge
    obtain ⟨Q, hQ, ht, hq, hs1⟩ := hc hfin hge
    have hw1 : cell w1.states F.stepped.sta_curr = some
        { C with ts_poll := uptime_ms w, poll_interval := C.poll_interval_next } := by
      rw [hs1, cell_put_same _ hC]
    refine ⟨?_, ⟨l, t0, w1, h0, hw1⟩, fun a b c d => hkept a b c d _ hw1⟩
    rw [hposted, ht]
    rfl
  · intro hlt
    obtain ⟨ht, hq, hs1⟩ := hb hfin hlt
    refine ⟨by rw [hposted, ht]; rfl, ?_, ⟨l, t0, w1, h0, hs1, hq⟩, ?_⟩
    · intro q e b ok hmem
      rcases hsend q e b ok hmem with h | h
      · rw [ht] at h; simp at h
      · exact h.2
    · intro a b c d
      exact hkept a b c d C (by rw [hs1]; exact hC)
  · intro st S v hS hm
    simp [fsm_change_state_poll_interval, hS, ld, ASSERT, hm]

/-! ## The composition tree during a poll -/

theorem stepped_stepped (G : fsm) : G.stepped.stepped = G.stepped :=
  stepped_of_empty _ (stepped_sta_next G)

theorem poll_locked_fsms_length {g : Nat} {w w1 : World} {l : poll_locals} {t : List action}
    (h : poll_locked g w = .ok (l, t, w1)) : w1.fsms.length = w.fsms.length := by
  obtain ⟨G, C, -, -, -, -, -, -, -, -, -, -, hf, -⟩ := poll_locked_inv h
  rw [hf, put_length]

theorem poll_locked_fsm_map {α : Type} (σ : fsm → α) (hσ : ∀ G : fsm, σ G.stepped = σ G)
    {g : Nat} {w w1 : World} {l : poll_locals} {t : List action}
    (h : poll_locked g w = .ok (l, t, w1)) (p : Nat) :
    (cell w1.fsms p).map σ = (cell w.fsms p).map σ := by
  obtain ⟨G, C, hG, -, -, -, -, -, -, -, -, -, hf, -⟩ := poll_locked_inv h
  rw [hf]
  exact cell_put_map _ _ G _ σ hG (hσ G) p

/-- The locked part of a poll leaves the child lists of all FSMs as they are. -/
theorem poll_locked_children {g : Nat} {w w1 : World} {l : poll_locals} {t : List action}
    (h : poll_locked g w = .ok (l, t, w1)) : w1.children = w.children := by
  funext c
  have hcur := poll_locked_fsm_map (fun G => G.stepped.sta_curr)
    (fun G => by simp [stepped_stepped]) h c
  have hnext := poll_locked_fsm_map (fun G => G.next) stepped_next h
  have hlen := poll_locked_fsms_length h
  have hchild := poll_locked_states (fun s => s.child_fsm) (fun _ _ _ => rfl) h
  have hchain : ∀ x, fsm_chain w1.fsms (w1.fsms.length + 1) x =
      fsm_chain w.fsms (w.fsms.length + 1) x := by
    intro x; rw [hlen]; exact fsm_chain_congr hnext _ x
  unfold World.children
  simp only [World.fsm?, World.state?, World.ffuel]
  cases h1 : cell w1.fsms c with
  | none =>
    cases h2 : cell w.fsms c with
    | none => rfl
    | some G => simp [h1, h2] at hcur
  | some G1 =>
    cases h2 : cell w.fsms c with
    | none => simp [h1, h2] at hcur
    | some G =>
      simp only [h1, h2, Option.map_some', Option.some.injEq] at hcur
      simp only [hcur]
      have := hchild G.stepped.sta_curr
      cases h3 : cell w1.states G.stepped.sta_curr with
      | none =>
        cases h4 : cell w.states G.stepped.sta_curr with
        | none => rfl
        | some S => simp [h3, h4] at this
      | some S1 =>
        cases h4 : cell w.states G.stepped.sta_curr with
        | none => simp [h3, h4] at this
        | some S =>
          simp only [h3, h4, Option.map_some', Option.some.injEq] at this
          simp only [this, hchain]

/-- The snapshot that a poll takes is the child list of the polled FSM. -/
theorem poll_locked_snapshot {f : Nat} {w w1 : World} {l : poll_locals} {t : List action}
    (h : poll_locked f w = .ok (l, t, w1)) :
    w.children f = l.child_fsm_buf ∧ w1.children f = l.child_fsm_buf := by
  have hc := poll_locked_children h
  obtain ⟨G, C, hG, -, -, hC, -, -, -, -, -, hchain, -⟩ := poll_locked_inv h
  have : w.children f = l.child_fsm_buf := by
    unfold World.children
    simp only [World.fsm?, World.state?, World.ffuel, hG, hC, hchain]
  exact ⟨this, by rw [hc]; exact this⟩

theorem tree_polls_congr {w w1 : World} (h : w1.children = w.children) :
    ∀ n d g, w1.tree_polls n d g = w.tree_polls n d g := by
  intro n
  induction n with
  | zero => intro d g; rfl
  | succ n ih =>
    intro d g
    simp only [World.tree_polls, h, ih]

theorem tree_polls_shift (w : World) :
    ∀ n d g, (w.tree_polls n d g).map (fun a => (a.1 + 1, a.2)) = w.tree_polls n (d + 1) g := by
  intro n
  induction n with
  | zero => intro d g; rfl
  | succ n ih =>
    intro d g
    simp only [World.tree_polls, List.map_flatMap, List.map_cons, ih]

@[simp] theorem all_polled_append (a b : List (Nat × action)) :
    all_polled (a ++ b) = all_polled a ++ all_polled b := by
  simp [all_polled]

theorem all_polled_deeper (t : List (Nat × action)) :
    all_polled (deeper t) = (all_polled t).map (fun a => (a.1 + 1, a.2)) := by
  induction t with
  | nil => rfl
  | cons a t ih =>
    obtain ⟨d, x⟩ := a
    cases x <;> simp_all [all_polled, deeper]

theorem all_polled_here (t : List action) : all_polled (here t) = (polled t).map (fun c => (0, c)) := by
  induction t with
  | nil => rfl
  | cons a t ih =>
    cases a <;> simp_all [all_polled, here, polled]

theorem children_queues (w : World) (qs : List (Option queue)) :
    ({ w with queues := qs } : World).children = w.children := rfl

/-- The steps of a poll between the release of the lock and the child loop keep what the
handlers keep and changes of the queues keep. -/
theorem poll_front_keeps {α : Type} (obs : World → α) (hs : handlers) (hk : hs.keep obs)
    (hq : ∀ (w : World) (qs : List (Option queue)), obs { w with queues := qs } = obs w)
    {f : Nat} {l : poll_locals} {w1 w2 w3 w4 : World} {t1 t2 t3 : List action}
    {o : Option event}
    (h1 : poll_exit hs f l w1 = .ok (t1, w2)) (h2 : poll_enter hs f l w2 = .ok (t2, w3))
    (h3 : poll_dispatch hs l w3 = .ok (o, t3, w4)) : obs w4 = obs w1 := by
  have e2 : obs w2 = obs w1 := by
    obtain ⟨ha, hb⟩ := poll_exit_inv h1
    by_cases h0 : l.exit = 0
    · rw [(ha h0).2]
    · obtain ⟨F, C, -, -, -, rfl⟩ := hb h0
      exact hk _ _ _
  have e3 : obs w3 = obs w2 := by
    obtain ⟨ha, hb⟩ := poll_enter_inv h2
    by_cases h0 : l.enter = 0
    · rw [(ha h0).2]
    · obtain ⟨F, C, -, -, -, rfl⟩ := hb h0
      exact hk _ _ _
  have e4 : obs w4 = obs w3 := by
    obtain ⟨Q, hQ, ha, hb⟩ := poll_dispatch_inv h3
    cases hi : Q.items with
    | nil => rw [(ha hi).2.2]
    | cons e rest =>
      obtain ⟨hb1, hb2⟩ := hb e rest hi
      by_cases h0 : l.handler = 0
      · rw [(hb1 h0).2.2]; exact hq _ _
      · rw [(hb2 h0).2.2, hk]; exact hq _ _
  rw [e4, e3, e2]

/-- With handlers that keep the composition tree, the polls of child FSMs in the trace of a
poll are the polls of the tree, and the tree is as before when the poll returns. -/
theorem fsm_poll_tree (hs : handlers) (hk : hs.keep (fun w => w.children)) :
    ∀ (n f : Nat) (w : World) (r : poll_result), fsm_poll hs n f w = .ok r →
      all_polled r.trace = w.tree_polls n 0 f ∧ r.world.children = w.children := by
  intro n
  induction n with
  | zero => intro f w r h; simp [fsm_poll] at h
  | succ n ih =>
    intro f w r h
    obtain ⟨m, l, t0, w1, t1, w2, t2, w3, o, t3, w4, t4, hm, h0, h1, h2, h3, h4, htr, hown,
      -, hpolled, -, -, -⟩ := fsm_poll_own h
    have hm1 : m = n := by omega
    subst hm1
    have hw1 : w1.children = w.children := poll_locked_children h0
    have hw4 : w4.children = w.children := by
      rw [poll_front_keeps (fun w => w.children) hs hk children_queues h1 h2 h3, hw1]
    have hkids : ∀ (buf : List Nat) (w' : World) (t : List (Nat × action)) (w1' : World),
        w'.children = w.children → poll_children (fsm_poll hs m) o buf w' = .ok (t, w1') →
        all_polled t = buf.flatMap (fun c => (0, c) :: w.tree_polls m 1 c) ∧
        w1'.children = w.children := by
      intro buf
      induction buf with
      | nil =>
        intro w' t w1' hc hp
        simp [poll_children] at hp
        rw [hp.1, ← hp.2]
        exact ⟨rfl, hc⟩
      | cons c rest ihb =>
        intro w' t w1' hc hp
        obtain ⟨tf, wf, rc, t2', hf, hpc, hrest, rfl⟩ := poll_children_cons_inv hp
        have hwf : wf.children = w.children := by
          rw [(poll_forward_queues hf).1, children_queues, hc]
        obtain ⟨i1, i2⟩ := ih c wf rc hpc
        obtain ⟨j1, j2⟩ := ihb rc.world t2' w1' (by rw [i2, hwf]) hrest
        refine ⟨?_, j2⟩
        have hfw : all_polled (here tf) = [] := by
          obtain ⟨C, -, hcase⟩ := poll_forward_trace hf
          rcases hcase with ⟨rfl, -⟩ | ⟨e, ok, -, -, rfl⟩ <;> rfl
        simp only [all_polled_append, hfw, List.nil_append, List.flatMap_cons, j1]
        have hd : all_polled ((0, action.poll c) :: deeper rc.trace) =
            (0, c) :: w.tree_polls m 1 c := by
          have : all_polled ((0, action.poll c) :: deeper rc.trace) =
              (0, c) :: all_polled (deeper rc.trace) := rfl
          rw [this, all_polled_deeper, i1, tree_polls_shift, tree_polls_congr hwf]
        rw [hd]
    obtain ⟨k1, k2⟩ := hkids _ _ _ _ hw4 h4
    refine ⟨?_, k2⟩
    have hfront : all_polled (here (t0 ++ t1 ++ t2 ++ t3)) = [] := by
      have hp4 := (poll_children_own _ _ _ _ _ _ h4).2.2.2
      rw [hown, polled_append, hp4] at hpolled
      have : polled (t0 ++ t1 ++ t2 ++ t3) = [] := by
        have := congrArg List.length hpolled
        simp only [List.length_append] at this
        exact List.eq_nil_of_length_eq_zero (by omega)
      rw [all_polled_here, this]
      rfl
    rw [htr, all_polled_append, hfront, k1, List.nil_append]
    simp only [World.tree_polls, (poll_locked_snapshot h0).1]

/-- Tree recursion: for every call of `fsm_poll` that returns, the calls `fsm_poll(child)`
it makes itself are exactly one for each child FSM attached to its current state (the pending
target, when a request is pending), in list order, whatever event is or is not forwarded; and
when the handlers keep the composition tree, the polls of child FSMs at all depths are, in
order and with their depth, exactly those of the tree: every child of the current state of
every FSM polled, and no FSM attached to a state that is not current. -/
theorem tree_polls_made (hs : handlers) (n f : Nat) (w : World) (r : poll_result)
    (hr : fsm_poll hs n f w = .ok r) :
    polled (own r.trace) = w.children f ∧
    (hs.keep (fun w => w.children) → all_polled r.trace = w.tree_polls n 0 f) := by
  obtain ⟨m, l, t0, w1, t1, w2, t2, w3, o, t3, w4, t4, hm, h0, h1, h2, h3, h4, htr, hown,
    -, hpolled, -, -, -⟩ := fsm_poll_own hr
  exact ⟨by rw [hpolled, (poll_locked_snapshot h0).1],
    fun hk => (fsm_poll_tree hs hk n f w r hr).1⟩

/-! ## Forwarding to the child FSMs -/

theorem queue_of_queues (w : World) (qs : List (Option queue)) :
    ({ w with queues := qs } : World).queue_of = w.queue_of := rfl

theorem poll_locked_queue_of {g : Nat} {w w1 : World} {l : poll_locals} {t : List action}
    (h : poll_locked g w = .ok (l, t, w1)) : w1.queue_of = w.queue_of := by
  funext c
  have := poll_locked_fsm_map (fun G => G.event_queue) stepped_event_queue h c
  unfold World.queue_of
  simp only [World.fsm?]
  cases h1 : cell w1.fsms c <;> cases h2 : cell w.fsms c <;> simp_all

/-- `fsm_poll` does not change which queue belongs to which FSM, when the handlers do not. -/
theorem fsm_poll_queue_of (hs : handlers) (hkq : hs.keep (fun w => w.queue_of))
    (Q : Nat → Nat) (n g : Nat) (w : World) (r : poll_result)
    (hw : w.queue_of = Q) (h : fsm_poll hs n g w = .ok r) : r.world.queue_of = Q := by
  refine fsm_poll_keeps hs (fun w => w.queue_of = Q) (fun _ => True) ?_ ?_ ?_ n g w r trivial
    (fun _ _ _ => trivial) hw h
  · intro h e w hI
    have := hkq h e w
    simp only at this
    rw [this]; exact hI
  · intro w qs hI _; exact hI
  · intro g w l t w1 _ hI hl
    rw [poll_locked_queue_of hl]; exact hI

/-- The forwards of the child loop: the event, when it is not of type POLL, to the queue of
each FSM of the buffer, in order. -/
theorem poll_children_forwarded (hs : handlers) (hkq : hs.keep (fun w => w.queue_of))
    (Q : Nat → Nat) (m : Nat) (o : Option event) :
    ∀ (buf : List Nat) (w : World) (t : List (Nat × action)) (w1 : World),
      w.queue_of = Q → poll_children (fsm_poll hs m) o buf w = .ok (t, w1) →
      forwarded (own t) = (match o with
        | some e => if e.type = FSM_EVT_POLL then [] else buf.map (fun c => (Q c, e))
        | none => []) := by
  intro buf
  induction buf with
  | nil =>
    intro w t w1 _ h
    simp [poll_children] at h
    rw [h.1]
    cases o with
    | none => rfl
    | some e => by_cases hp : e.type = FSM_EVT_POLL <;> simp [hp]
  | cons c rest ih =>
    intro w t w1 hQ h
    obtain ⟨tf, wf, rc, t2, hf, hpc, hrest, rfl⟩ := poll_children_cons_inv h
    have hwf : wf.queue_of = Q := by
      rw [(poll_forward_queues hf).1, queue_of_queues, hQ]
    have hrc := fsm_poll_queue_of hs hkq Q m c wf rc hwf hpc
    have hi := ih rc.world t2 w1 hrc hrest
    obtain ⟨C, hC, hcase⟩ := poll_forward_trace hf
    have hqc : C.event_queue = Q c := by
      rw [← hQ]
      simp [World.queue_of, hC]
    rcases hcase with ⟨rfl, ho | ⟨e, ho, hp⟩⟩ | ⟨e, ok, ho, hp, rfl⟩
    · subst ho
      simp [here, hi]
    · subst ho
      simp [here, hi, hp]
    · subst ho
      simp [here, hi, hp, hqc]

/-- What the receive of a poll yields, and what the child loop forwards. -/
theorem fsm_poll_forwarded {hs : handlers} {n f : Nat} {w : World} {r : poll_result} {F : fsm}
    (hF : cell w.fsms f = some F) (hkq : hs.keep (fun w => w.queue_of))
    (hr : fsm_poll hs n f w = .ok r) :
    ∃ l t0 w1 o o1, poll_locked f w = .ok (l, t0, w1) ∧
      received (own r.trace) = [(F.event_queue, o)] ∧
      (o = none → o1 = none) ∧
      (∀ e, o = some e → ∃ e1, o1 = some e1 ∧ (hs.readonly → e1 = e)) ∧
      forwarded (own r.trace) = (match o1 with
        | some e => if e.type = FSM_EVT_POLL then []
                    else l.child_fsm_buf.map (fun c => (w.queue_of c, e))
        | none => []) := by
  obtain ⟨m, l, t0, w1, t1, w2, t2, w3, o1, t3, w4, t4, hm, h0, h1, h2, h3, h4, htr, hown,
    -, -, -, hrecv, hfwd⟩ := fsm_poll_own hr
  have hq1 : w1.queue_of = w.queue_of := poll_locked_queue_of h0
  have hq4 : w4.queue_of = w.queue_of := by
    rw [poll_front_keeps (fun w => w.queue_of) hs hkq queue_of_queues h1 h2 h3, hq1]
  have hf := poll_children_forwarded hs hkq w.queue_of m o1 _ _ _ _ hq4 h4
  obtain ⟨F0, C0, hF0, -, -, -, -, -, -, -, hlq, -⟩ := poll_locked_inv h0
  rw [hF] at hF0
  simp only [Option.some.injEq] at hF0
  subst hF0
  obtain ⟨Q, hQ, ha, hb⟩ := poll_dispatch_inv h3
  rw [hlq] at ha hb
  refine ⟨l, t0, w1, Q.items.head?, o1, h0, ?_, ?_, ?_, by rw [hfwd, hf]⟩
  · rw [hrecv]
    cases hi : Q.items with
    | nil => rw [(ha hi).2.1]; rfl
    | cons e rest =>
      obtain ⟨hb1, hb2⟩ := hb e rest hi
      by_cases hx : l.handler = 0
      · rw [(hb1 hx).2.1]; rfl
      · rw [(hb2 hx).2.1]; rfl
  · intro hnone
    cases hi : Q.items with
    | nil => exact (ha hi).1
    | cons e rest => simp [hi] at hnone
  · intro e he
    cases hi : Q.items with
    | nil => simp [hi] at he
    | cons e0 rest =>
      simp only [hi, List.head?_cons, Option.some.injEq] at he
      subst he
      obtain ⟨hb1, hb2⟩ := hb e0 rest hi
      by_cases hx : l.handler = 0
      · exact ⟨e0, (hb1 hx).1, fun _ => rfl⟩
      · exact ⟨_, (hb2 hx).1, fun hro => hro _ _ _⟩

/-- Propagation scoping: for every call of `fsm_poll` on a parent FSM that returns,
with handlers that do not write to the event they are handed and do not change which queue
belongs to which FSM: the call makes one receive, from the queue of the FSM; if an event was
dequeued and its type is not `FSM_EVT_POLL`, then that same event (type, timestamp, payload
pointer and length) is sent to the queue of every child FSM in the snapshot of the child list
of the current state, in list order, and nothing else is forwarded; if the dequeued event has
type `FSM_EVT_POLL`, or no event was dequeued, the call forwards nothing. -/
theorem propagation_scoped (hs : handlers) (n f : Nat) (w : World) (r : poll_result)
    (F : fsm) (hF : w.fsm? f = some F) (hro : hs.readonly)
    (hkq : hs.keep (fun w => w.queue_of)) (hr : fsm_poll hs n f w = .ok r) :
    ∃ o, received (own r.trace) = [(F.event_queue, o)] ∧
      (∀ e, o = some e → e.type ≠ FSM_EVT_POLL →
        forwarded (own r.trace) = (w.children f).map (fun c => (w.queue_of c, e))) ∧
      (∀ e, o = some e → e.type = FSM_EVT_POLL → forwarded (own r.trace) = []) ∧
      (o = none → forwarded (own r.trace) = []) := by
  simp only [World.fsm?] at hF
  obtain ⟨l, t0, w1, o, o1, h0, hrecv, hnone, hsome, hfwd⟩ := fsm_poll_forwarded hF hkq hr
  refine ⟨o, hrecv, ?_, ?_, ?_⟩
  · intro e he hp
    obtain ⟨e1, ho1, heq⟩ := hsome e he
    rw [heq hro] at ho1
    rw [hfwd, ho1, (poll_locked_snapshot h0).1]
    simp [hp]
  · intro e he hp
    obtain ⟨e1, ho1, heq⟩ := hsome e he
    rw [heq hro] at ho1
    rw [hfwd, ho1]
    simp [hp]
  · intro he
    rw [hfwd, hnone he]

/-- Snapshot semantics: for every call of `fsm_poll` that returns, whatever the handlers
do (attach or detach child FSMs included): the child FSMs polled by the call are exactly the
members, in order, of the child list that the current state has when the lock is released,
after the transition and before any handler runs; and, as long as the handlers do not change
which queue belongs to which FSM, what the call forwards is nothing or one event to the queue
of each of these FSMs, in the same order. -/
theorem snapshot_polled (hs : handlers) (n f : Nat) (w : World) (r : poll_result)
    (hr : fsm_poll hs n f w = .ok r) :
    ∃ l t w1, poll_locked f w = .ok (l, t, w1) ∧
      polled (own r.trace) = w1.children f ∧
      (hs.keep (fun w => w.queue_of) →
        forwarded (own r.trace) = [] ∨
        ∃ e, forwarded (own r.trace) = (w1.children f).map (fun c => (w1.queue_of c, e))) := by
  obtain ⟨m, l, t0, w1, t1, w2, t2, w3, o, t3, w4, t4, hm, h0, h1, h2, h3, h4, htr, hown,
    -, hpolled, -, -, -⟩ := fsm_poll_own hr
  refine ⟨l, t0, w1, h0, by rw [hpolled, (poll_locked_snapshot h0).2], ?_⟩
  intro hkq
  obtain ⟨F, C, hF, -⟩ := poll_locked_inv h0
  obtain ⟨l', t0', w1', o', o1, h0', -, -, -, hfwd⟩ := fsm_poll_forwarded hF hkq hr
  rw [h0] at h0'
  simp only [Except.ok.injEq, Prod.mk.injEq] at h0'
  rw [← h0'.1] at hfwd
  rw [hfwd, (poll_locked_snapshot h0).2, poll_locked_queue_of h0]
  cases o1 with
  | none => left; rfl
  | some e =>
    by_cases hp : e.type = FSM_EVT_POLL
    · left; simp [hp]
    · right; exact ⟨e, by simp [hp]⟩

/-! ## Termination of a poll -/

theorem fsm_chain_alloc (h : List (Option fsm)) :
    ∀ (n p : Nat) (L : List Nat), fsm_chain h n p = .ok L →
      ∀ a ∈ L, a ≠ 0 ∧ ∃ F, cell h a = some F := by
  intro n
  induction n with
  | zero => intro p L hc; simp [fsm_chain] at hc
  | succ n ih =>
    intro p L hc
    unfold fsm_chain at hc
    by_cases hp : p = 0
    · simp [hp] at hc
      subst hc
      simp
    · simp only [hp, if_false] at hc
      cases hs : cell h p with
      | none => simp [hs] at hc
      | some s =>
        simp only [hs] at hc
        obtain ⟨L1, h1, h2⟩ := map_eq_ok.mp hc
        subst h2
        intro a ha
        rcases List.mem_cons.mp ha with rfl | ha
        · exact ⟨hp, s, hs⟩
        · exact ih _ _ h1 a ha

theorem stepped_valid (G : fsm) (h : G.valid) : G.stepped.valid := by
  unfold fsm.stepped
  split
  · exact h
  · exact h

theorem stepped_sta_prev_mem (G : fsm) :
    G.stepped.sta_prev = G.sta_prev ∨ G.stepped.sta_prev = G.sta_curr := by
  unfold fsm.stepped
  split
  · right; rfl
  · left; rfl

theorem isSome_of_map_eq {α β : Type} {a b : Option α} (g : α → β)
    (h : a.map g = b.map g) : a.isSome = b.isSome := by
  cases a <;> cases b <;> simp_all

/-- A change of the world that keeps the links of the composition tree keeps `kids_below`. -/
theorem kids_below_congr {w w1 : World} (rank : Nat → Nat)
    (hlen : w1.fsms.length = w.fsms.length)
    (hnext : ∀ p, (cell w1.fsms p).map (fun F => F.next) = (cell w.fsms p).map (fun F => F.next))
    (hchild : ∀ p, (cell w1.states p).map (fun s => s.child_fsm) =
      (cell w.states p).map (fun s => s.child_fsm))
    (g c : Nat) (h : w.kids_below rank g c) : w1.kids_below rank g c := by
  obtain ⟨C, buf, hC, hchain, hr⟩ := h
  simp only [World.state?, World.ffuel] at hC hchain
  have := hchild c
  rw [hC] at this
  cases hC1 : cell w1.states c with
  | none => simp [hC1] at this
  | some C1 =>
    simp only [hC1, Option.map_some', Option.some.injEq] at this
    refine ⟨C1, buf, hC1, ?_, hr⟩
    simp only [World.ffuel, hlen, this]
    rw [fsm_chain_congr hnext]
    exact hchain

/-- The locked part of a poll keeps a sound world sound. -/
theorem poll_locked_sound (rank : Nat → Nat) {g : Nat} {w w1 : World} {l : poll_locals}
    {t : List action} (h : poll_locked g w = .ok (l, t, w1)) (hw : w.sound rank) :
    w1.sound rank := by
  obtain ⟨hheld, hall⟩ := hw
  have hlen := poll_locked_fsms_length h
  have hnext := poll_locked_fsm_map (fun G => G.next) stepped_next h
  have hchild := poll_locked_states (fun s => s.child_fsm) (fun _ _ _ => rfl) h
  have hstate : ∀ p, (cell w1.states p).isSome = (cell w.states p).isSome :=
    fun p => isSome_of_map_eq _ (hchild p)
  obtain ⟨G, C, hG, -, -, hC, -, -, -, -, -, -, hf, hh, -, -, -, ha, hb, hc⟩ := poll_locked_inv h
  have hqueue : ∀ q, (cell w1.queues q).isSome = (cell w.queues q).isSome := by
    intro q
    by_cases hno : C.poll_interval = FSM_NO_POLL
    · rw [(ha hno).2.1]
    · by_cases hlt : sub32 (uptime_ms w) C.ts_poll < C.poll_interval
      · rw [(hb hno hlt).2.1]
      · obtain ⟨Q, hQ, -, hq, -⟩ := hc hno (Nat.le_of_not_lt hlt)
        rw [hq]
        split
        · exact cell_put_isSome _ hQ q
        · rfl
  refine ⟨by rw [hh]; exact hheld, ?_⟩
  intro g1 G1 hG1
  simp only [World.fsm?] at hG1
  have hkb : ∀ c, w.kids_below rank g1 c → w1.kids_below rank g1 c :=
    fun c => kids_below_congr rank hlen hnext hchild g1 c
  by_cases hgg : g = g1
  · subst hgg
    rw [hf, cell_put_same _ hG] at hG1
    simp only [Option.some.injEq] at hG1
    subst hG1
    obtain ⟨v, q, p, kc, kn⟩ := hall g G hG
    refine ⟨stepped_valid G v, ?_, ?_, ?_, ?_⟩
    · simp only [World.queue?, stepped_event_queue, hqueue]; exact q
    · simp only [World.state?, hstate]
      rcases stepped_sta_prev_mem G with e | e <;> rw [e]
      · exact p
      · obtain ⟨C', -, hC', -⟩ := kc
        simp only [World.state?] at hC'
        simp [hC']
    · rcases stepped_sta_curr_mem G with e | e <;> rw [e]
      · exact hkb _ kc
      · by_cases hn : G.sta_next = 0
        · have : G.stepped.sta_curr = G.sta_curr := by simp [fsm.stepped, hn]
          rw [← e, this]; exact hkb _ kc
        · exact hkb _ (kn hn)
    · intro hn
      exact absurd (stepped_sta_next G) hn
  · rw [hf, cell_put_ne _ _ hgg] at hG1
    obtain ⟨v, q, p, kc, kn⟩ := hall g1 G1 hG1
    refine ⟨v, ?_, ?_, hkb _ kc, fun hn => hkb _ (kn hn)⟩
    · simp only [World.queue?, hqueue]; exact q
    · simp only [World.state?, hstate]; exact p

/-- A change of the contents of queues keeps a sound world sound. -/
theorem sound_queues (rank : Nat → Nat) (w : World) (qs : List (Option queue))
    (hw : w.sound rank) (hq : ∀ q, (cell qs q).isSome = (cell w.queues q).isSome) :
    ({ w with queues := qs } : World).sound rank := by
  obtain ⟨hheld, hall⟩ := hw
  refine ⟨hheld, ?_⟩
  intro g G hG
  obtain ⟨v, q, p, kc, kn⟩ := hall g G hG
  refine ⟨v, ?_, p, kc, kn⟩
  simp only [World.queue?, hq]
  exact q

/-- A poll with tame handlers keeps a sound world sound. -/
theorem fsm_poll_sound (hs : handlers) (rank : Nat → Nat) (ht : hs.tame rank)
    (n g : Nat) (w : World) (r : poll_result) (hw : w.sound rank)
    (h : fsm_poll hs n g w = .ok r) : r.world.sound rank :=
  fsm_poll_keeps hs (fun w => w.sound rank) (fun _ => True)
    (fun h e w hI => (ht h e w hI).1) (fun w qs hI hq => sound_queues rank w qs hI hq)
    (fun _ _ _ _ _ _ hI hl => poll_locked_sound rank hl hI) n g w r trivial
    (fun _ _ _ => trivial) hw h

theorem isSome_iff_exists {α : Type} {o : Option α} : o.isSome = true ↔ ∃ a, o = some a :=
  Option.isSome_iff_exists

theorem poll_transition_ok {f : Nat} {w : World} {F : fsm} (hF : cell w.fsms f = some F)
    (hc : ∃ P, cell w.states F.sta_curr = some P)
    (hn : F.sta_next ≠ 0 → ∃ C, cell w.states F.sta_next = some C) :
    ∃ r, poll_transition f w = .ok r := by
  unfold poll_transition
  simp only [World.fsm?, hF, ld, ok_bind]
  by_cases h0 : F.sta_next = 0
  · simp [h0]
  · obtain ⟨P, hP⟩ := hc
    obtain ⟨C, hC⟩ := hn h0
    simp [h0, hP, hC]

theorem queue_send_ok {q : Nat} {e : event} {w : World} (hq : (cell w.queues q).isSome) :
    ∃ r, queue_send q e w = .ok r := by
  obtain ⟨Q, hQ⟩ := isSome_iff_exists.mp hq
  unfold queue_send
  simp only [World.queue?, hQ]
  by_cases hlt : Q.items.length < Q.length <;> simp [hlt]

theorem poll_generate_ok {ts q c : Nat} {w : World} {C : state}
    (hC : cell w.states c = some C) (hq : (cell w.queues q).isSome) :
    ∃ r, poll_generate ts q c w = .ok r := by
  unfold poll_generate
  simp only [World.state?, hC, ld, ok_bind]
  by_cases hno : C.poll_interval = FSM_NO_POLL
  · simp [hno]
  · by_cases hge : C.poll_interval ≤ sub32 ts C.ts_poll
    · obtain ⟨⟨ok, w1⟩, hs⟩ := queue_send_ok (q := q) (e := poll_event ts)
        (w := w.setState c { C with ts_poll := ts }) (by simpa using hq)
      obtain ⟨Q, hQ, -, hw1⟩ := queue_send_inv hs
      have hc1 : cell w1.states c = some { C with ts_poll := ts } := by
        rw [hw1]
        simp only [World.setState]
        exact cell_put_same _ hC
      simp only [hno, ne_eq, not_false_eq_true, if_true, ge_iff_le, hge, hs, ok_bind, hc1,
        pure_eq_ok]
      exact ⟨_, rfl⟩
    · simp [hno, hge]

/-- In a sound world the locked part of a poll of an existing FSM goes through. -/
theorem poll_locked_ok (rank : Nat → Nat) {g : Nat} {w : World} {G : fsm}
    (hw : w.sound rank) (hG : cell w.fsms g = some G) :
    ∃ r, poll_locked g w = .ok r := by
  obtain ⟨hheld, hall⟩ := hw
  obtain ⟨⟨hm, hos, hlk, hqn⟩, hq, hp, kc, kn⟩ := hall g G hG
  have hcur : ∃ P, cell w.states G.sta_curr = some P := by
    obtain ⟨C, -, hC, -⟩ := kc; exact ⟨C, hC⟩
  have hnext : G.sta_next ≠ 0 → ∃ C, cell w.states G.sta_next = some C := by
    intro hn; obtain ⟨C, -, hC, -⟩ := kn hn; exact ⟨C, hC⟩
  have hks : w.kids_below rank g G.stepped.sta_curr := by
    by_cases hn : G.sta_next = 0
    · have : G.stepped.sta_curr = G.sta_curr := by simp [fsm.stepped, hn]
      rw [this]; exact kc
    · have : G.stepped.sta_curr = G.sta_next := by simp [fsm.stepped, hn]
      rw [this]; exact kn hn
  obtain ⟨C, buf, hC, hchain, -⟩ := hks
  simp only [World.state?, World.ffuel] at hC hchain
  obtain ⟨⟨x, e, w2⟩, htr⟩ := poll_transition_ok
    (w := { w with held := [G.lock] }) hG hcur hnext
  obtain ⟨G0, hG0, hw2, -⟩ := poll_transition_inv htr
  rw [hG] at hG0
  simp only [Option.some.injEq] at hG0
  subst hG0
  have hchain1 : fsm_chain w2.fsms (w2.fsms.length + 1) C.child_fsm = .ok buf := by
    rw [hw2]
    simp only [put_length]
    rw [fsm_chain_congr (fun p => cell_put_map w.fsms g G G.stepped (fun G => G.next) hG
      (stepped_next G) p)]
    exact hchain
  have hG2 : cell w2.fsms g = some G.stepped := by
    rw [hw2]; exact cell_put_same _ hG
  have hC2 : cell w2.states G.stepped.sta_curr = some C := by
    rw [hw2]; exact hC
  obtain ⟨⟨t, w1⟩, hgen⟩ := @poll_generate_ok (uptime_ms w) G.stepped.event_queue
    G.stepped.sta_curr w2 C hC2
    (by rw [stepped_event_queue, hw2]; exact hq)
  unfold poll_locked
  simp only [World.fsm?, hG, ld, ok_bind, ASSERT, hm, hos, hlk, hqn, if_true, ne_eq,
    not_false_eq_true, mutex_lock, hheld, List.not_mem_nil, if_false, htr,
    hG2, World.state?, hC2, World.ffuel, hchain1, hgen, pure_eq_ok]
  exact ⟨_, rfl⟩

theorem poll_exit_ok (hs : handlers) {f : Nat} {l : poll_locals} {w : World} {F : fsm} {C : state}
    (hF : cell w.fsms f = some F) (hC : cell w.states F.sta_curr = some C) :
    ∃ r, poll_exit hs f l w = .ok r := by
  unfold poll_exit
  by_cases h0 : l.exit = 0
  · simp [h0]
  · simp [h0, hF, hC, ld]

theorem poll_enter_ok (hs : handlers) {f : Nat} {l : poll_locals} {w : World} {F : fsm} {P : state}
    (hF : cell w.fsms f = some F) (hP : cell w.states F.sta_prev = some P) :
    ∃ r, poll_enter hs f l w = .ok r := by
  unfold poll_enter
  by_cases h0 : l.enter = 0
  · simp [h0]
  · simp [h0, hF, hP, ld]

theorem poll_dispatch_ok (hs : handlers) {l : poll_locals} {w : World}
    (hq : (cell w.queues l.event_queue).isSome) :
    ∃ r, poll_dispatch hs l w = .ok r := by
  obtain ⟨Q, hQ⟩ := isSome_iff_exists.mp hq
  unfold poll_dispatch queue_receive
  simp only [World.queue?, hQ]
  cases hi : Q.items with
  | nil => simp
  | cons e rest =>
    by_cases h0 : l.handler = 0
    · simp [h0]
    · simp [h0]

theorem poll_forward_ok (rank : Nat → Nat) (o : Option event) {c : Nat} {w : World} {C : fsm}
    (hw : w.sound rank) (hC : cell w.fsms c = some C) :
    ∃ r, poll_forward o c w = .ok r := by
  obtain ⟨hheld, hall⟩ := hw
  obtain ⟨⟨hm, hos, hlk, hqn⟩, hq, -⟩ := hall c C hC
  unfold poll_forward
  simp only [World.fsm?, hC, ld, ok_bind, ASSERT, hm, hqn, hlk, if_true, ne_eq,
    not_false_eq_true]
  cases o with
  | none => simp
  | some e =>
    by_cases hp : e.type = FSM_EVT_POLL
    · simp [hp]
    · obtain ⟨⟨ok, w1⟩, hs⟩ := queue_send_ok (q := C.event_queue) (e := e)
        (w := { w with held := [C.lock] }) hq
      simp [hp, mutex_lock, hheld, hs]

/-- The world `w1` is sound and still has every FSM and every queue of `w`. -/
theorem still_sound_rules (hs : handlers) (rank : Nat → Nat) (ht : hs.tame rank) (w : World) :
    let J : World → Prop := fun w1 => w1.sound rank ∧
      (∀ p, (cell w.fsms p).isSome → (cell w1.fsms p).isSome) ∧
      (∀ q, (cell w.queues q).isSome → (cell w1.queues q).isSome)
    (∀ h e w1, J w1 → J (hs h e w1).2) ∧
    (∀ (w1 : World) (qs : List (Option queue)), J w1 →
      (∀ q, (cell qs q).isSome = (cell w1.queues q).isSome) → J { w1 with queues := qs }) ∧
    (∀ g w1 l t w2, True → J w1 → poll_locked g w1 = .ok (l, t, w2) → J w2) := by
  intro J
  refine ⟨?_, ?_, ?_⟩
  · intro h e w1 ⟨a, b, c⟩
    obtain ⟨t1, t2, t3⟩ := ht h e w1 a
    exact ⟨t1, fun p hp => t2 p (b p hp), fun q hq => t3 q (c q hq)⟩
  · intro w1 qs ⟨a, b, c⟩ hq
    exact ⟨sound_queues rank w1 qs a hq, b, fun q hq1 => by
      show (cell qs q).isSome = true
      rw [hq]; exact c q hq1⟩
  · intro g w1 l t w2 _ ⟨a, b, c⟩ hl
    refine ⟨poll_locked_sound rank hl a, ?_, ?_⟩
    · intro p hp
      have := poll_locked_fsm_map (fun G => G.next) stepped_next hl p
      rw [isSome_of_map_eq _ this]
      exact b p hp
    · intro q hq
      have hs2 := poll_locked_sound rank hl a
      obtain ⟨G, C, hG, -, -, hC, -, -, -, -, -, -, -, -, -, -, -, ha, hb, hc⟩ :=
        poll_locked_inv hl
      have hq1 := c q hq
      by_cases hno : C.poll_interval = FSM_NO_POLL
      · rw [(ha hno).2.1]; exact hq1
      · by_cases hlt : sub32 (uptime_ms w1) C.ts_poll < C.poll_interval
        · rw [(hb hno hlt).2.1]; exact hq1
        · obtain ⟨Q, hQ, -, hq2, -⟩ := hc hno (Nat.le_of_not_lt hlt)
          rw [hq2]
          split
          · rw [cell_put_isSome _ hQ q]; exact hq1
          · exact hq1

/-- Termination of `fsm_poll`: in a sound world, with tame handlers, a poll of an existing FSM
returns `0` as soon as the fuel exceeds the rank of the FSM. -/
theorem fsm_poll_total (hs : handlers) (rank : Nat → Nat) (ht : hs.tame rank) :
    ∀ (n f : Nat) (w : World), w.sound rank → (cell w.fsms f).isSome → rank f < n →
      ∃ r, fsm_poll hs n f w = .ok r ∧ r.ret = 0 := by
  intro n
  induction n with
  | zero => intro f w _ _ h; omega
  | succ n ih =>
    intro f w hw hf hrank
    obtain ⟨F, hF⟩ := isSome_iff_exists.mp hf
    obtain ⟨kh, kq, kl⟩ := still_sound_rules hs rank ht w
    -- the locked part
    obtain ⟨⟨l, t0, w1⟩, h0⟩ := poll_locked_ok rank hw hF
    have hJ0 : w.sound rank ∧ (∀ p, (cell w.fsms p).isSome → (cell w.fsms p).isSome) ∧
        (∀ q, (cell w.queues q).isSome → (cell w.queues q).isSome) :=
      ⟨hw, fun _ h => h, fun _ h => h⟩
    have hJ1 := kl f w l t0 w1 trivial hJ0 h0
    obtain ⟨F0, C, hF0, -, -, hC, -, -, -, -, hlq, hchain, -⟩ := poll_locked_inv h0
    rw [hF] at hF0
    simp only [Option.some.injEq] at hF0
    subst hF0
    obtain ⟨-, hqF, -, kc, kn⟩ := hw.2 f F hF
    have hbuf : ∀ c ∈ l.child_fsm_buf, rank c < n ∧ (cell w.fsms c).isSome := by
      have hks : w.kids_below rank f F.stepped.sta_curr := by
        by_cases hn : F.sta_next = 0
        · have : F.stepped.sta_curr = F.sta_curr := by simp [fsm.stepped, hn]
          rw [this]; exact kc
        · have : F.stepped.sta_curr = F.sta_next := by simp [fsm.stepped, hn]
          rw [this]; exact kn hn
      obtain ⟨C', buf, hC', hchain', hr⟩ := hks
      simp only [World.state?, World.ffuel] at hC' hchain'
      rw [hC] at hC'
      simp only [Option.some.injEq] at hC'
      subst hC'
      rw [hchain] at hchain'
      simp only [Except.ok.injEq] at hchain'
      subst hchain'
      intro c hc
      refine ⟨by have := hr c hc; omega, ?_⟩
      obtain ⟨-, G, hG⟩ := fsm_chain_alloc _ _ _ _ hchain c hc
      simp [hG]
    -- the exit block
    have hex : ∃ r, poll_exit hs f l w1 = .ok r := by
      have hF1 := poll_locked_fsm_self h0 hF
      obtain ⟨-, -, -, kc1, -⟩ := hJ1.1.2 f F.stepped hF1
      obtain ⟨C1, -, hC1, -⟩ := kc1
      exact poll_exit_ok hs hF1 hC1
    obtain ⟨⟨t1, w2⟩, h1⟩ := hex
    have hJ2 : w2.sound rank ∧ (∀ p, (cell w.fsms p).isSome → (cell w2.fsms p).isSome) ∧
        (∀ q, (cell w.queues q).isSome → (cell w2.queues q).isSome) := by
      obtain ⟨ha, hb⟩ := poll_exit_inv h1
      by_cases hx : l.exit = 0
      · rw [(ha hx).2]; exact hJ1
      · obtain ⟨_, _, -, -, -, rfl⟩ := hb hx
        exact kh _ _ _ hJ1
    -- the enter block
    have hen : ∃ r, poll_enter hs f l w2 = .ok r := by
      obtain ⟨F2, hF2⟩ := isSome_iff_exists.mp (hJ2.2.1 f hf)
      obtain ⟨-, -, hp, -, -⟩ := hJ2.1.2 f F2 hF2
      obtain ⟨P, hP⟩ := isSome_iff_exists.mp hp
      exact poll_enter_ok hs hF2 hP
    obtain ⟨⟨t2, w3⟩, h2⟩ := hen
    have hJ3 : w3.sound rank ∧ (∀ p, (cell w.fsms p).isSome → (cell w3.fsms p).isSome) ∧
        (∀ q, (cell w.queues q).isSome → (cell w3.queues q).isSome) := by
      obtain ⟨ha, hb⟩ := poll_enter_inv h2
      by_cases hx : l.enter = 0
      · rw [(ha hx).2]; exact hJ2
      · obtain ⟨_, _, -, -, -, rfl⟩ := hb hx
        exact kh _ _ _ hJ2
    -- the dispatch
    obtain ⟨⟨o, t3, w4⟩, h3⟩ := poll_dispatch_ok hs (l := l) (w := w3)
      (by rw [hlq]; exact hJ3.2.2 _ hqF)
    have hJ4 : w4.sound rank ∧ (∀ p, (cell w.fsms p).isSome → (cell w4.fsms p).isSome) ∧
        (∀ q, (cell w.queues q).isSome → (cell w4.queues q).isSome) := by
      obtain ⟨Q, hQ, ha, hb⟩ := poll_dispatch_inv h3
      cases hi : Q.items with
      | nil => rw [(ha hi).2.2]; exact hJ3
      | cons e rest =>
        obtain ⟨hb1, hb2⟩ := hb e rest hi
        by_cases hx : l.handler = 0
        · rw [(hb1 hx).2.2]; exact kq _ _ hJ3 (cell_put_isSome _ hQ)
        · rw [(hb2 hx).2.2]; exact kh _ _ _ (kq _ _ hJ3 (cell_put_isSome _ hQ))
    -- the child loop
    have hkids : ∀ (buf : List Nat) (w' : World),
        (∀ c ∈ buf, rank c < n ∧ (cell w.fsms c).isSome) →
        (w'.sound rank ∧ (∀ p, (cell w.fsms p).isSome → (cell w'.fsms p).isSome) ∧
          (∀ q, (cell w.queues q).isSome → (cell w'.queues q).isSome)) →
        ∃ r, poll_children (fsm_poll hs n) o buf w' = .ok r := by
      intro buf
      induction buf with
      | nil => intro w' _ _; exact ⟨_, rfl⟩
      | cons c rest ihb =>
        intro w' hb hJ
        obtain ⟨hrc, hac⟩ := hb c (List.mem_cons_self _ _)
        obtain ⟨Cf, hCf⟩ := isSome_iff_exists.mp (hJ.2.1 c hac)
        obtain ⟨⟨tf, wf⟩, hfw⟩ := poll_forward_ok rank o hJ.1 hCf
        have hJf := kq w' wf.queues hJ (poll_forward_queues hfw).2
        rw [← (poll_forward_queues hfw).1] at hJf
        obtain ⟨rc, hpc, -⟩ := ih c wf hJf.1 (hJf.2.1 c hac) hrc
        have hJc := fsm_poll_keeps hs _ (fun _ => True) kh kq kl n c wf rc trivial
          (fun _ _ _ => trivial) hJf hpc
        obtain ⟨⟨t2', w5⟩, hrest⟩ := ihb rc.world
          (fun c' hc' => hb c' (List.mem_cons_of_mem _ hc')) hJc
        unfold poll_children
        simp only [hfw, ok_bind, hpc, hrest, pure_eq_ok]
        exact ⟨_, rfl⟩
    obtain ⟨⟨t4, w5⟩, h4⟩ := hkids l.child_fsm_buf w4 hbuf hJ4
    have hfin : fsm_poll hs (n + 1) f w =
        .ok { ret := 0, world := w5, trace := here (t0 ++ t1 ++ t2 ++ t3) ++ t4 } := by
      unfold fsm_poll
      simp only [h0, ok_bind, h1, h2, h3, h4, pure_eq_ok]
    exact ⟨_, hfin, rfl⟩

/-! ## The example worlds -/

theorem mk_dup_eq : mk_dup = .ok w_dup := by rfl

theorem mk_two_eq : mk_two = .ok w_two := by rfl

theorem mk_run_eq : mk_run = .ok w_run := by rfl

theorem mk_tree_eq : mk_tree = .ok w_tree := by rfl

theorem hs_idle_keep {α : Type} (obs : World → α) : hs_idle.keep obs := fun _ _ _ => rfl

theorem hs_idle_readonly : hs_idle.readonly := fun _ _ _ => rfl

theorem hs_idle_tame (rank : Nat → Nat) : hs_idle.tame rank :=
  fun _ _ _ hw => ⟨hw, fun _ hp => hp, fun _ hq => hq⟩

theorem w_two_sound : w_two.sound (fun _ => 0) := by
  refine ⟨rfl, ?_⟩
  intro g G hG
  rcases g with _ | _ | g
  · simp [World.fsm?] at hG
  · have hG1 := Option.some.inj hG
    subst hG1
    exact ⟨by decide, rfl, rfl, ⟨_, [], rfl, rfl, by simp⟩, fun _ => ⟨_, [], rfl, rfl, by simp⟩⟩
  · simp [World.fsm?, w_two, cell] at hG

theorem w_run_sound : w_run.sound (fun _ => 0) := by
  refine ⟨rfl, ?_⟩
  intro g G hG
  rcases g with _ | _ | g
  · simp [World.fsm?] at hG
  · have hG1 := Option.some.inj hG
    subst hG1
    exact ⟨by decide, rfl, rfl, ⟨_, [], rfl, rfl, by simp⟩, fun h => absurd rfl h⟩
  · simp [World.fsm?, w_run, cell] at hG

/-- The world of `w_run` after the request for `S2` (the state at 3). -/
theorem w_req_sound :
    (w_run.setFsm 1
      { magic_number := FSM_MAGIC_NUMBER, lock := 2, name := "Test FSM", poll_interval := 10,
        event_queue := 1, parent_state := 0, state_list := 2, sta_prev := 1, sta_curr := 2,
        sta_next := 3, next := 0, os := 1 }).sound (fun _ => 0) := by
  refine ⟨rfl, ?_⟩
  intro g G hG
  rcases g with _ | _ | g
  · simp [World.fsm?] at hG
  · have hG1 := Option.some.inj hG
    subst hG1
    exact ⟨by decide, rfl, rfl, ⟨_, [], rfl, rfl, by simp⟩, fun _ => ⟨_, [], rfl, rfl, by simp⟩⟩
  · simp [World.fsm?, w_run, cell, put] at hG

theorem w_tree_sound : w_tree.sound (fun g => if g = 1 then 1 else 0) := by
  refine ⟨rfl, ?_⟩
  intro g G hG
  rcases g with _ | _ | _ | _ | g
  · simp [World.fsm?] at hG
  · have hG1 := Option.some.inj hG
    subst hG1
    exact ⟨by decide, rfl, rfl, ⟨_, [2, 3], rfl, rfl, by decide⟩, fun h => absurd rfl h⟩
  · have hG1 := Option.some.inj hG
    subst hG1
    exact ⟨by decide, rfl, rfl, ⟨_, [], rfl, rfl, by simp⟩, fun h => absurd rfl h⟩
  · have hG1 := Option.some.inj hG
    subst hG1
    exact ⟨by decide, rfl, rfl, ⟨_, [], rfl, rfl, by simp⟩, fun h => absurd rfl h⟩
  · simp [World.fsm?, w_tree, cell] at hG

theorem sound_now (rank : Nat → Nat) (w : World) (t : Nat) (h : w.sound rank) :
    ({ w with now := t } : World).sound rank := h

/-! ## The properties of the specification -/

/-- C2 (Transition application): for every FSM and every call of `fsm_poll` on it: the call
returns (in a sound world, with tame handlers and enough fuel), and whenever it returns, the
transition step leaves, at the moment the lock of the FSM is released, the record with
`previous := old current`, `current := N`, `next := empty` when a request `N` was pending
and the unchanged record when none was; and when the handlers leave the record of this FSM
alone (they issue no new request on it), this is also the record when `fsm_poll` returns. -/
theorem C2_transition_application (hs : handlers) (n f : Nat) (w : World) (F : fsm)
    (hF : w.fsm? f = some F) :
    (∀ rank : Nat → Nat, w.sound rank → hs.tame rank → rank f < n →
      ∃ r, fsm_poll hs n f w = .ok r ∧ r.ret = 0) ∧
    (∀ r, fsm_poll hs n f w = .ok r →
      (∃ l t w1, poll_locked f w = .ok (l, t, w1) ∧
        (F.sta_next ≠ 0 → w1.fsm? f = some
          { F with sta_prev := F.sta_curr, sta_curr := F.sta_next, sta_next := 0 }) ∧
        (F.sta_next = 0 → w1.fsm? f = some F)) ∧
      (hs.keep (fun w => w.fsm? f) →
        (F.sta_next ≠ 0 → r.world.fsm? f = some
          { F with sta_prev := F.sta_curr, sta_curr := F.sta_next, sta_next := 0 }) ∧
        (F.sta_next = 0 → r.world.fsm? f = some F))) := by
  refine ⟨?_, fun r hr => transition_applied hs n f w r F hF hr⟩
  intro rank hw ht hr
  exact fsm_poll_total hs rank ht n f w hw (by simp only [World.fsm?] at hF; simp [hF]) hr

/-- C2, on the FSM of the reference test: the first poll makes the pending `S1` current with
ROOT as previous state; a poll with nothing pending leaves the record as it is. -/
theorem C2_transition_application_witness :
    (∃ r, fsm_poll hs_idle 1 1 w_two = .ok r ∧ r.world.fsm? 1 = some
      { magic_number := FSM_MAGIC_NUMBER, lock := 2, name := "Test FSM", poll_interval := 10,
        event_queue := 1, parent_state := 0, state_list := 2, sta_prev := 1, sta_curr := 2,
        sta_next := 0, next := 0, os := 1 }) ∧
    (∃ r, fsm_poll hs_idle 1 1 w_run = .ok r ∧ r.world.fsm? 1 = w_run.fsm? 1) := by
  constructor
  · obtain ⟨h1, h2⟩ := C2_transition_application hs_idle 1 1 w_two _ rfl
    obtain ⟨r, hr, -⟩ := h1 (fun _ => 0) w_two_sound (hs_idle_tame _) (by decide)
    exact ⟨r, hr, ((h2 r hr).2 (hs_idle_keep _)).1 (by decide)⟩
  · obtain ⟨h1, h2⟩ := C2_transition_application hs_idle 1 1 w_run _ rfl
    obtain ⟨r, hr, -⟩ := h1 (fun _ => 0) w_run_sound (hs_idle_tame _) (by decide)
    exact ⟨r, hr, ((h2 r hr).2 (hs_idle_keep _)).2 rfl⟩

/-- C3 (Enter/Exit payloads): for every call of `fsm_poll`: the call returns (in a sound
world, with tame handlers and enough fuel), and whenever it returns: when it applies a
transition from state `A` (the old current state) to state `B` (the pending target), and the
handlers neither redirect the `previous` reference of the FSM nor change the id and name of
`A`, the handler calls it makes itself are, in this order: one call of the handler of `A`, if
it has one, with the EXIT event whose payload is the `state_info` of `B`; one call of the
handler of `B`, if it has one, with the ENTER event whose payload is the `state_info` of `A`
(that of ROOT on the first transition of an FSM); both with the timestamp of the poll and
`datalen = sizeof(struct state_info)`; and then at most the dispatch to the handler of `B` of
an event received from the queue.  When no transition is applied, the only handler call it
makes itself is that dispatch, to the handler of the current state: it delivers no ENTER and
no EXIT event of its own. -/
theorem C3_enter_exit_payloads (hs : handlers) (n f : Nat) (w : World) (F : fsm)
    (hF : w.fsm? f = some F) :
    (∀ rank : Nat → Nat, w.sound rank → hs.tame rank → rank f < n →
      ∃ r, fsm_poll hs n f w = .ok r ∧ r.ret = 0) ∧
    (∀ r, fsm_poll hs n f w = .ok r →
      (∀ A B : state, F.sta_next ≠ 0 → w.state? F.sta_curr = some A →
        w.state? F.sta_next = some B →
        hs.keep (fun w => (w.fsm? f).map (fun G => G.sta_prev)) →
        hs.keep (fun w => (w.state? F.sta_curr).map (fun s => (s.id, s.name))) →
        ∃ d, calls (own r.trace) =
          (if A.handler ≠ 0 then
            [(A.handler, ({ type := FSM_EVT_EXIT, timestamp := uptime_ms w,
                            data := .info { id := B.id, name := B.name },
                            datalen := sizeof_state_info } : event))] else []) ++
          (if B.handler ≠ 0 then
            [(B.handler, ({ type := FSM_EVT_ENTER, timestamp := uptime_ms w,
                            data := .info { id := A.id, name := A.name },
                            datalen := sizeof_state_info } : event))] else []) ++ d ∧
          (d = [] ∨ ∃ e, d = [(B.handler, e)] ∧
            (F.event_queue, some e) ∈ received (own r.trace))) ∧
      (∀ C : state, F.sta_next = 0 → w.state? F.sta_curr = some C →
        calls (own r.trace) = [] ∨ ∃ e, calls (own r.trace) = [(C.handler, e)] ∧
          (F.event_queue, some e) ∈ received (own r.trace))) := by
  refine ⟨?_, fun r hr => enter_exit_calls hs n f w r F hF hr⟩
  intro rank hw ht hr
  exact fsm_poll_total hs rank ht n f w hw (by simp only [World.fsm?] at hF; simp [hF]) hr

/-- C3, on the FSM of the reference test.  The first poll (from ROOT to `S1`, at time 0)
calls the handler of `S1` with the ENTER event that tells ROOT, and ROOT, which has no
handler, gets no EXIT event.  The poll at time 11 after a request for `S2` calls the handler
of `S1` with the EXIT event that tells `S2` and then the handler of `S2` with the ENTER event
that tells `S1`. -/
theorem C3_enter_exit_payloads_witness :
    (∃ r d, fsm_poll hs_idle 1 1 w_two = .ok r ∧ calls (own r.trace) =
      (1, ({ type := FSM_EVT_ENTER, timestamp := 0,
             data := .info { id := STATE_ID_ROOT, name := "ROOT" },
             datalen := sizeof_state_info } : event)) :: d) ∧
    (∃ r d, fsm_poll hs_idle 1 1 (w_run.setFsm 1
      { magic_number := FSM_MAGIC_NUMBER, lock := 2, name := "Test FSM", poll_interval := 10,
        event_queue := 1, parent_state := 0, state_list := 2, sta_prev := 1, sta_curr := 2,
        sta_next := 3, next := 0, os := 1 }) = .ok r ∧ calls (own r.trace) =
      (1, ({ type := FSM_EVT_EXIT, timestamp := 11,
             data := .info { id := 2, name := "Test state 2" },
             datalen := sizeof_state_info } : event)) ::
      (2, ({ type := FSM_EVT_ENTER, timestamp := 11,
             data := .info { id := 5, name := "Test state 1" },
             datalen := sizeof_state_info } : event)) :: d) := by
  constructor
  · obtain ⟨h1, h2⟩ := C3_enter_exit_payloads hs_idle 1 1 w_two _ rfl
    obtain ⟨r, hr, -⟩ := h1 (fun _ => 0) w_two_sound (hs_idle_tame _) (by decide)
    obtain ⟨d, hd, -⟩ := (h2 r hr).1 _ _ (by decide) rfl rfl (hs_idle_keep _) (hs_idle_keep _)
    exact ⟨r, d, hr, hd⟩
  · obtain ⟨h1, h2⟩ := C3_enter_exit_payloads hs_idle 1 1 (w_run.setFsm 1
      { magic_number := FSM_MAGIC_NUMBER, lock := 2, name := "Test FSM", poll_interval := 10,
        event_queue := 1, parent_state := 0, state_list := 2, sta_prev := 1, sta_curr := 2,
        sta_next := 3, next := 0, os := 1 }) _ rfl
    obtain ⟨r, hr, -⟩ := h1 (fun _ => 0) w_req_sound (hs_idle_tame _) (by decide)
    obtain ⟨d, hd, -⟩ := (h2 r hr).1 _ _ (by decide) rfl rfl (hs_idle_keep _) (hs_idle_keep _)
    exact ⟨r, d, hr, hd⟩

/-- C4 (Uniqueness): for every valid FSM (lock free, state list well formed) and every id that
a state of its registry already has, `fsm_state_add` returns `-1`, a non-zero value, and the
only trace it leaves in memory is the freed cell of the state it allocated: the FSM record
(with its pending request, previous and current state) and every state record are as before,
and the registry has the same members in the same order. -/
theorem C4_add_duplicate_id (f : Nat) (name : Option String) (id handler : Nat) (w : World)
    (F : fsm) (L : List Nat) (a : Nat) (s : state)
    (hF : w.fsm? f = some F) (hv : F.valid) (hl : F.lock ∉ w.held)
    (hL : w.registry F = .ok L) (ha : a ∈ L) (hs : w.state? a = some s) (hid : s.id = id) :
    fsm_state_add f name id handler w = .ok (-1, { w with states := w.states ++ [none] }) ∧
    (-1 : Int) ≠ 0 ∧
    ({ w with states := w.states ++ [none] } : World).fsm? f = some F ∧
    (∀ p, ({ w with states := w.states ++ [none] } : World).state? p = w.state? p) ∧
    ({ w with states := w.states ++ [none] } : World).registry F = .ok L :=
  add_duplicate_id f name id handler w F L a s hF hv hl hL ha hs hid

/-- C4, on the FSM of the reference test: adding a state with the id of `S2` again. -/
theorem C4_add_duplicate_id_witness :
    fsm_state_add 1 (some "Test state 2") 2 2 w_two =
      .ok (-1, { w_two with states := w_two.states ++ [none] }) ∧
    ({ w_two with states := w_two.states ++ [none] } : World).fsm? 1 = w_two.fsm? 1 ∧
    ({ w_two with states := w_two.states ++ [none] } : World).registry
      { magic_number := FSM_MAGIC_NUMBER, lock := 2, name := "Test FSM", poll_interval := 10,
        event_queue := 1, parent_state := 0, state_list := 2, sta_prev := 1, sta_curr := 1,
        sta_next := 2, next := 0, os := 1 } = .ok [2, 3] := by
  obtain ⟨h1, -, h2, -, h3⟩ := C4_add_duplicate_id 1 (some "Test state 2") 2 2 w_two _ [2, 3] 3 _
    rfl (by decide) (by decide) rfl (by decide) rfl rfl
  exact ⟨h1, h2, h3⟩

/-- C5 (Interval gating): for every call of `fsm_poll` in which the effective
`poll_interval` of the current state (the pending target, when a request is pending) is
`FSM_NO_POLL`, whatever the clock and the last poll timestamp are: the call returns (in a
sound world, with tame handlers and enough fuel), and whenever it returns: the call itself
sends no event of type POLL to any queue and makes no non-blocking send at all; when it
releases the lock the queues are as before and the record of the current state differs only
in its effective interval, which is the `poll_interval_next` it had before the call
(`ts_poll` is unchanged); and this is still the record when the call returns, provided the
handlers leave it and the FSM records alone, no other FSM uses the state as its current or
pending state, and the FSM is not polled again inside the call. -/
theorem C5_interval_gating (hs : handlers) (n f : Nat) (w : World) (F : fsm) (C : state)
    (hF : w.fsm? f = some F) (hC : w.state? F.stepped.sta_curr = some C)
    (hno : C.poll_interval = FSM_NO_POLL) :
    (∀ rank : Nat → Nat, w.sound rank → hs.tame rank → rank f < n →
      ∃ r, fsm_poll hs n f w = .ok r ∧ r.ret = 0) ∧
    (∀ r, fsm_poll hs n f w = .ok r →
      (∀ q e b ok, action.send q e b ok ∈ own r.trace → e.type ≠ FSM_EVT_POLL) ∧
      posted (own r.trace) = [] ∧
      (∃ l t w1, poll_locked f w = .ok (l, t, w1) ∧ t = [] ∧ w1.queues = w.queues ∧
        w1.state? F.stepped.sta_curr =
          some { C with poll_interval := C.poll_interval_next }) ∧
      (hs.keep (fun w => w.state? F.stepped.sta_curr) → hs.keep (fun w => w.fsms) →
        w.sole_user f F.stepped.sta_curr → (∀ d, (d, action.poll f) ∉ r.trace) →
        r.world.state? F.stepped.sta_curr =
          some { C with poll_interval := C.poll_interval_next })) := by
  refine ⟨?_, fun r hr => gating_never_poll hs n f w r F C hF hC hno hr⟩
  intro rank hw ht hr
  exact fsm_poll_total hs rank ht n f w hw (by simp only [World.fsm?] at hF; simp [hF]) hr

theorem mem_all_polled {t : List (Nat × action)} {d c : Nat} (h : (d, action.poll c) ∈ t) :
    (d, c) ∈ all_polled t := by
  simp only [all_polled, List.mem_filterMap]
  exact ⟨(d, action.poll c), h, rfl⟩

/-- The child FSM of `w_tree` with the pending interval of its state `S3` set to 20. -/
theorem w_pend_eq : fsm_change_state_poll_interval 4 20 w_tree = .ok (0, w_tree.setState 4
    { magic_number := STATE_MAGIC_NUMBER, id := 80, name := "Test child state", handler := 3,
      ts_poll := 0, poll_interval := FSM_NO_POLL, poll_interval_next := 20, lock := 7,
      parent_fsm := 2, child_fsm := 0, next := 0 }) := by rfl

theorem w_pend_sound : (w_tree.setState 4
    { magic_number := STATE_MAGIC_NUMBER, id := 80, name := "Test child state", handler := 3,
      ts_poll := 0, poll_interval := FSM_NO_POLL, poll_interval_next := 20, lock := 7,
      parent_fsm := 2, child_fsm := 0, next := 0 }).sound (fun g => if g = 1 then 1 else 0) := by
  refine ⟨rfl, ?_⟩
  intro g G hG
  rcases g with _ | _ | _ | _ | g
  · simp [World.fsm?] at hG
  · have hG1 := Option.some.inj hG
    subst hG1
    exact ⟨by decide, rfl, rfl, ⟨_, [2, 3], rfl, rfl, by decide⟩, fun h => absurd rfl h⟩
  · have hG1 := Option.some.inj hG
    subst hG1
    exact ⟨by decide, rfl, rfl, ⟨_, [], rfl, rfl, by simp⟩, fun h => absurd rfl h⟩
  · have hG1 := Option.some.inj hG
    subst hG1
    exact ⟨by decide, rfl, rfl, ⟨_, [], rfl, rfl, by simp⟩, fun h => absurd rfl h⟩
  · simp [World.fsm?, w_tree, cell] at hG

/-- C5, on the child FSM of `w_tree`, whose current state `S3` has the interval
`FSM_NO_POLL` and the pending interval 20: the poll at time 12 posts nothing, and afterwards
the interval of `S3` is 20 and its `ts_poll` is still 0. -/
theorem C5_interval_gating_witness :
    ∃ r, fsm_poll hs_idle 1 2 (w_tree.setState 4
      { magic_number := STATE_MAGIC_NUMBER, id := 80, name := "Test child state", handler := 3,
        ts_poll := 0, poll_interval := FSM_NO_POLL, poll_interval_next := 20, lock := 7,
        parent_fsm := 2, child_fsm := 0, next := 0 }) = .ok r ∧
      posted (own r.trace) = [] ∧
      r.world.state? 4 = some
        { magic_number := STATE_MAGIC_NUMBER, id := 80, name := "Test child state", handler := 3,
          ts_poll := 0, poll_interval := 20, poll_interval_next := 20, lock := 7,
          parent_fsm := 2, child_fsm := 0, next := 0 } := by
  obtain ⟨h1, h2⟩ := C5_interval_gating hs_idle 1 2 (w_tree.setState 4
      { magic_number := STATE_MAGIC_NUMBER, id := 80, name := "Test child state", handler := 3,
        ts_poll := 0, poll_interval := FSM_NO_POLL, poll_interval_next := 20, lock := 7,
        parent_fsm := 2, child_fsm := 0, next := 0 }) _ _ rfl rfl rfl
  obtain ⟨r, hr, -⟩ := h1 _ w_pend_sound (hs_idle_tame _) (by decide)
  obtain ⟨-, hp, -, hfin⟩ := h2 r hr
  refine ⟨r, hr, hp, hfin (hs_idle_keep _) (hs_idle_keep _) ?_ ?_⟩
  · intro g G hg hG
    rcases g with _ | _ | _ | _ | g
    · simp [World.fsm?] at hG
    · have hG1 := Option.some.inj hG
      subst hG1
      decide
    · exact absurd rfl hg
    · have hG1 := Option.some.inj hG
      subst hG1
      decide
    · simp [World.fsm?, w_tree, cell] at hG
  · intro d hm
    have h3 := mem_all_polled hm
    rw [(tree_polls_made hs_idle 1 2 _ r hr).2 (hs_idle_keep _)] at h3
    simp [World.tree_polls, World.children, w_tree, cell, put, fsm.stepped, fsm_chain] at h3

/-- C6 (Poll-event generation): for every call of `fsm_poll` at a clock value `ts` in which
the effective `poll_interval` `I` of the current state (the pending target, when a request is
pending) is not `FSM_NO_POLL`: the call returns (in a sound world, with tame handlers and
enough fuel), and whenever it returns: if `ts - ts_poll >= I` in `uint32_t` arithmetic, the
call makes exactly one non-blocking send, of the event `{FSM_EVT_POLL, ts, NULL, 0}` to the
queue of the FSM, and when it releases the lock the record of the state has `ts_poll = ts`
and `poll_interval = poll_interval_next`; otherwise it makes no non-blocking send and sends
no event of type POLL at all, and the state records and the queues are untouched when it
releases the lock.  In both cases this is still the record of the state when the call
returns, provided the handlers leave it and the FSM records alone, no other FSM uses the
state as its current or pending state, and the FSM is not polled again inside the call.
`fsm_change_state_poll_interval` writes `poll_interval_next` only, so a value it set stays
pending until a polling event is generated. -/
theorem C6_poll_event_generation (hs : handlers) (n f : Nat) (w : World) (F : fsm) (C : state)
    (hF : w.fsm? f = some F) (hC : w.state? F.stepped.sta_curr = some C)
    (hfin : C.poll_interval ≠ FSM_NO_POLL) :
    (∀ rank : Nat → Nat, w.sound rank → hs.tame rank → rank f < n →
      ∃ r, fsm_poll hs n f w = .ok r ∧ r.ret = 0) ∧
    (∀ r, fsm_poll hs n f w = .ok r →
      (C.poll_interval ≤ sub32 (uptime_ms w) C.ts_poll →
        posted (own r.trace) = [(F.event_queue,
          ({ type := FSM_EVT_POLL, timestamp := uptime_ms w, data := .null, datalen := 0 }
            : event))] ∧
        (∃ l t w1, poll_locked f w = .ok (l, t, w1) ∧
          w1.state? F.stepped.sta_curr = some
            { C with ts_poll := uptime_ms w, poll_interval := C.poll_interval_next }) ∧
        (hs.keep (fun w => w.state? F.stepped.sta_curr) → hs.keep (fun w => w.fsms) →
          w.sole_user f F.stepped.sta_curr → (∀ d, (d, action.poll f) ∉ r.trace) →
          r.world.state? F.stepped.sta_curr = some
            { C with ts_poll := uptime_ms w, poll_interval := C.poll_interval_next })) ∧
      (sub32 (uptime_ms w) C.ts_poll < C.poll_interval →
        posted (own r.trace) = [] ∧
        (∀ q e b ok, action.send q e b ok ∈ own r.trace → e.type ≠ FSM_EVT_POLL) ∧
        (∃ l t w1, poll_locked f w = .ok (l, t, w1) ∧ w1.states = w.states ∧
          w1.queues = w.queues) ∧
        (hs.keep (fun w => w.state? F.stepped.sta_curr) → hs.keep (fun w => w.fsms) →
          w.sole_user f F.stepped.sta_curr → (∀ d, (d, action.poll f) ∉ r.trace) →
          r.world.state? F.stepped.sta_curr = some C)) ∧
      (∀ st S v, w.state? st = some S → S.magic_number = STATE_MAGIC_NUMBER →
        fsm_change_state_poll_interval st v w =
          .ok (0, w.setState st { S with poll_interval_next := v }))) := by
  refine ⟨?_, fun r hr => generation_finite hs n f w r F C hF hC hfin hr⟩
  intro rank hw ht hr
  exact fsm_poll_total hs rank ht n f w hw (by simp only [World.fsm?] at hF; simp [hF]) hr

theorem w_run_sole (t : Nat) : ({ w_run with now := t } : World).sole_user 1 2 := by
  intro g G hg hG
  rcases g with _ | _ | g
  · simp [World.fsm?] at hG
  · exact absurd rfl hg
  · simp [World.fsm?, w_run, cell] at hG

theorem w_run_once (t : Nat) (r : poll_result)
    (hr : fsm_poll hs_idle 1 1 { w_run with now := t } = .ok r) (d : Nat) :
    (d, action.poll 1) ∉ r.trace := by
  intro hm
  have h3 := mem_all_polled hm
  rw [(tree_polls_made hs_idle 1 1 _ r hr).2 (hs_idle_keep _)] at h3
  simp [World.tree_polls, World.children, w_run, cell, fsm.stepped, fsm_chain] at h3

/-- C6, on the FSM of the reference test, whose state `S1` has the interval 10 and was last
polled at time 10: the poll at time 25 posts one POLL event stamped 25 and sets `ts_poll` to
25; the poll at time 11 posts nothing and leaves the record of `S1` as it is. -/
theorem C6_poll_event_generation_witness :
    (∃ r, fsm_poll hs_idle 1 1 { w_run with now := 25 } = .ok r ∧
      posted (own r.trace) =
        [(1, ({ type := FSM_EVT_POLL, timestamp := 25, data := .null, datalen := 0 } : event))] ∧
      r.world.state? 2 = some
        { magic_number := STATE_MAGIC_NUMBER, id := 5, name := "Test state 1", handler := 1,
          ts_poll := 25, poll_interval := 10, poll_interval_next := 10, lock := 3,
          parent_fsm := 1, child_fsm := 0, next := 3 }) ∧
    (∃ r, fsm_poll hs_idle 1 1 { w_run with now := 11 } = .ok r ∧
      posted (own r.trace) = [] ∧
      r.world.state? 2 = some
        { magic_number := STATE_MAGIC_NUMBER, id := 5, name := "Test state 1", handler := 1,
          ts_poll := 10, poll_interval := 10, poll_interval_next := 10, lock := 3,
          parent_fsm := 1, child_fsm := 0, next := 3 }) := by
  constructor
  · obtain ⟨h1, h2⟩ := C6_poll_event_generation hs_idle 1 1 { w_run with now := 25 } _ _
      rfl rfl (by decide)
    obtain ⟨r, hr, -⟩ := h1 _ (sound_now _ _ 25 w_run_sound) (hs_idle_tame _) (by decide)
    obtain ⟨hp, -, hfin⟩ := (h2 r hr).1 (by decide)
    exact ⟨r, hr, hp, hfin (hs_idle_keep _) (hs_idle_keep _) (w_run_sole 25)
      (w_run_once 25 r hr)⟩
  · obtain ⟨h1, h2⟩ := C6_poll_event_generation hs_idle 1 1 { w_run with now := 11 } _ _
      rfl rfl (by decide)
    obtain ⟨r, hr, -⟩ := h1 _ (sound_now _ _ 11 w_run_sound) (hs_idle_tame _) (by decide)
    obtain ⟨hp, -, -, hfin⟩ := (h2 r hr).2.1 (by decide)
    exact ⟨r, hr, hp, hfin (hs_idle_keep _) (hs_idle_keep _) (w_run_sole 11)
      (w_run_once 11 r hr)⟩

/-- C7 (Propagation scoping), amended: for every call of `fsm_poll` on a parent FSM: the call
returns (in a sound world, with tame handlers and enough fuel), and whenever it returns, with
handlers that do not write to the event they are handed and do not change which queue belongs
to which FSM: the call makes one receive, from the queue of the FSM; if an event was dequeued
and its type is not `FSM_EVT_POLL`, then that same event (type, timestamp, payload pointer
and length) is sent to the queue of every child FSM in the child list of the current state,
in list order, and nothing else is forwarded; if the dequeued event has type `FSM_EVT_POLL`,
or no event was dequeued, the call forwards nothing. -/
theorem C7_propagation_scoping (hs : handlers) (n f : Nat) (w : World) (F : fsm)
    (hF : w.fsm? f = some F) (hro : hs.readonly) (hkq : hs.keep (fun w => w.queue_of)) :
    (∀ rank : Nat → Nat, w.sound rank → hs.tame rank → rank f < n →
      ∃ r, fsm_poll hs n f w = .ok r ∧ r.ret = 0) ∧
    (∀ r, fsm_poll hs n f w = .ok r →
      ∃ o, received (own r.trace) = [(F.event_queue, o)] ∧
        (∀ e, o = some e → e.type ≠ FSM_EVT_POLL →
          forwarded (own r.trace) = (w.children f).map (fun c => (w.queue_of c, e))) ∧
        (∀ e, o = some e → e.type = FSM_EVT_POLL → forwarded (own r.trace) = []) ∧
        (o = none → forwarded (own r.trace) = [])) := by
  refine ⟨?_, fun r hr => propagation_scoped hs n f w r F hF hro hkq hr⟩
  intro rank hw ht hr
  exact fsm_poll_total hs rank ht n f w hw (by simp only [World.fsm?] at hF; simp [hF]) hr

/-- C7, on the tree `w_tree`: the parent FSM, in state `S1` with the two child FSMs 2 and 3
attached, dequeues the user event of type 42325 and forwards it, unchanged, to the queues of
both children. -/
theorem C7_propagation_scoping_witness :
    ∃ r, fsm_poll hs_idle 2 1 w_tree = .ok r ∧
      received (own r.trace) = [(1, some
        ({ type := 42325, timestamp := 12, data := .user 7, datalen := 4 } : event))] ∧
      forwarded (own r.trace) =
        [(2, ({ type := 42325, timestamp := 12, data := .user 7, datalen := 4 } : event)),
         (3, ({ type := 42325, timestamp := 12, data := .user 7, datalen := 4 } : event))] := by
  obtain ⟨r, hr, hv⟩ := map_eq_ok.mp (show (fsm_poll hs_idle 2 1 w_tree).map
    (fun r => received (own r.trace)) = .ok [(1, some
      ({ type := 42325, timestamp := 12, data := .user 7, datalen := 4 } : event))] from by
    decide)
  obtain ⟨o, ho, hf, -, -⟩ := (C7_propagation_scoping hs_idle 2 1 w_tree _ rfl hs_idle_readonly
    (hs_idle_keep _)).2 r hr
  rw [hv] at ho
  simp only [List.cons.injEq, Prod.mk.injEq, and_true, true_and] at ho
  exact ⟨r, hr, hv, hf _ ho.symm (by decide)⟩

/-- C8 (Tree recursion): for every call of `fsm_poll` on an FSM of a finite acyclic
composition tree (a sound world, ranked by `rank`) with tame handlers and enough fuel, the
call returns; and whenever a call returns, the calls `fsm_poll(child)` it makes itself are
exactly one for each child FSM attached to its current state (the pending target, when a
request is pending), in list order, whatever event is or is not forwarded; and when the
handlers keep the composition tree, the polls of child FSMs at all depths are, in order and
with their depth, exactly those of the tree: every child of the current state of every FSM
polled, and no FSM attached to a state that is not current. -/
theorem C8_tree_recursion (hs : handlers) (n f : Nat) (w : World) :
    (∀ rank : Nat → Nat, w.sound rank → hs.tame rank → (cell w.fsms f).isSome → rank f < n →
      ∃ r, fsm_poll hs n f w = .ok r ∧ r.ret = 0) ∧
    (∀ r, fsm_poll hs n f w = .ok r →
      polled (own r.trace) = w.children f ∧
      (hs.keep (fun w => w.children) → all_polled r.trace = w.tree_polls n 0 f)) := by
  refine ⟨?_, fun r hr => tree_polls_made hs n f w r hr⟩
  intro rank hw ht hf hr
  exact fsm_poll_total hs rank ht n f w hw hf hr

/-- C8, on the tree `w_tree`: the parent FSM is in state `S1`, to which the FSMs 2 and 3
are attached; both are polled, once each and in this order, and they have no children of
their own. -/
theorem C8_tree_recursion_witness :
    ∃ r, fsm_poll hs_idle 2 1 w_tree = .ok r ∧
      polled (own r.trace) = [2, 3] ∧ all_polled r.trace = [(0, 2), (0, 3)] := by
  obtain ⟨h1, h2⟩ := C8_tree_recursion hs_idle 2 1 w_tree
  obtain ⟨r, hr, -⟩ := h1 _ w_tree_sound (hs_idle_tame _) (by decide) (by decide)
  obtain ⟨hp, ha⟩ := h2 r hr
  exact ⟨r, hr, hp, ha (hs_idle_keep _)⟩

/-- C9 (Snapshot semantics): for every call of `fsm_poll`: the call returns (in a sound
world, with tame handlers and enough fuel); and whenever a call returns, whatever the
handlers do (attach or detach child FSMs included): the child FSMs polled by the call are
exactly the members, in order, of the child list that the current state has when the lock is
released, after the transition and before any handler runs, which is the child list of the
state that is current after the transition in the world of the call; and, as long as the
handlers do not change which queue belongs to which FSM, what the call forwards is nothing or
one event to the queue of each of these FSMs, in the same order. -/
theorem C9_snapshot_semantics (hs : handlers) (n f : Nat) (w : World) :
    (∀ rank : Nat → Nat, w.sound rank → hs.tame rank → (cell w.fsms f).isSome → rank f < n →
      ∃ r, fsm_poll hs n f w = .ok r ∧ r.ret = 0) ∧
    (∀ r, fsm_poll hs n f w = .ok r →
      ∃ l t w1, poll_locked f w = .ok (l, t, w1) ∧
        w1.children f = w.children f ∧
        polled (own r.trace) = w1.children f ∧
        (hs.keep (fun w => w.queue_of) →
          forwarded (own r.trace) = [] ∨
          ∃ e, forwarded (own r.trace) =
            (w1.children f).map (fun c => (w1.queue_of c, e)))) := by
  refine ⟨?_, fun r hr => ?_⟩
  · intro rank hw ht hf hr
    exact fsm_poll_total hs rank ht n f w hw hf hr
  · obtain ⟨l, t, w1, h0, hp, hq⟩ := snapshot_polled hs n f w r hr
    have hsnap := poll_locked_snapshot h0
    exact ⟨l, t, w1, h0, by rw [hsnap.1, hsnap.2], hp, hq⟩

/-- C9, on the tree `w_tree`.  With handlers that do nothing, the call returns and polls
the FSMs 2 and 3.  With a handler of `S1` that detaches the FSM 3 from `S1` when it is
called, the call still polls the FSMs 2 and 3 and forwards the user event to the queues of
both, although the child list of `S1` is `[2]` when the call returns. -/
theorem C9_snapshot_semantics_witness :
    (∃ r, fsm_poll hs_idle 2 1 w_tree = .ok r ∧ polled (own r.trace) = [2, 3]) ∧
    (∃ r, fsm_poll hs_detach 2 1 w_tree = .ok r ∧
      polled (own r.trace) = [2, 3] ∧
      forwarded (own r.trace) =
        [(2, ({ type := 42325, timestamp := 12, data := .user 7, datalen := 4 } : event)),
         (3, ({ type := 42325, timestamp := 12, data := .user 7, datalen := 4 } : event))] ∧
      r.world.children 1 = [2]) := by
  constructor
  · obtain ⟨h1, h2⟩ := C9_snapshot_semantics hs_idle 2 1 w_tree
    obtain ⟨r, hr, -⟩ := h1 _ w_tree_sound (hs_idle_tame _) (by decide) (by decide)
    obtain ⟨l, t, w1, -, hc, hp, -⟩ := h2 r hr
    exact ⟨r, hr, by rw [hp, hc]; decide⟩
  · obtain ⟨r, hr, hv⟩ := map_eq_ok.mp (show (fsm_poll hs_detach 2 1 w_tree).map
      (fun r => (forwarded (own r.trace), r.world.children 1)) = .ok
        ([(2, ({ type := 42325, timestamp := 12, data := .user 7, datalen := 4 } : event)),
          (3, ({ type := 42325, timestamp := 12, data := .user 7, datalen := 4 } : event))],
         [2]) from by decide)
    obtain ⟨l, t, w1, -, hc, hp, -⟩ := (C9_snapshot_semantics hs_detach 2 1 w_tree).2 r hr
    exact ⟨r, hr, by rw [hp, hc]; decide, congrArg Prod.fst hv, congrArg Prod.snd hv⟩

/-- C10 (Identity lookup equivalence), amended: for every valid FSM (magic number set, lock
free, state list well formed) and every state registered in it, with id `i` and name `n`,
such that no state registered before it in the state list has the id `i` or the name `n`:
`fsm_get_state(fsm, i)` and `fsm_get_state_by_name(fsm, n)` both return the handle of that
state, and hence the same handle, and leave the world as it is. -/
theorem C10_lookup_equivalence (f : Nat) (w : World) (F : fsm) (pre post : List Nat) (a : Nat)
    (s : state) (hF : w.fsm? f = some F) (hm : F.magic_number = FSM_MAGIC_NUMBER)
    (hl : F.lock ∉ w.held) (hL : w.registry F = .ok (pre ++ a :: post))
    (hs : w.state? a = some s)
    (hpre : ∀ b ∈ pre, ∀ t, w.state? b = some t → t.id ≠ s.id ∧ t.name ≠ s.name) :
    fsm_get_state f s.id w = .ok (a, w) ∧ fsm_get_state_by_name f s.name w = .ok (a, w) := by
  simp only [World.state?] at hs hpre
  constructor
  · rw [fsm_get_state_eq f s.id w F _ hF hm hl hL,
      first_hit_decomp w.states _ pre post a s hs (by simp)
        (fun b hb t ht => by simpa using (hpre b hb t ht).1)]
  · rw [fsm_get_state_by_name_eq f s.name w F _ hF hm hl hL,
      first_hit_decomp w.states _ pre post a s hs (by simp)
        (fun b hb t ht => by simpa using fun h => (hpre b hb t ht).2 h.symm)]

/-- C10, amended, on the FSM of the reference test: the state `S2`, registered second, with
id 2 and name `"Test state 2"`, is found at its address 3 by both lookups. -/
theorem C10_lookup_equivalence_witness :
    fsm_get_state 1 2 w_two = .ok (3, w_two) ∧
    fsm_get_state_by_name 1 "Test state 2" w_two = .ok (3, w_two) := by
  refine C10_lookup_equivalence 1 w_two _ [2] [] 3
    { magic_number := STATE_MAGIC_NUMBER, id := 2, name := "Test state 2", handler := 2,
      ts_poll := 0, poll_interval := 10, poll_interval_next := 10, lock := 4,
      parent_fsm := 1, child_fsm := 0, next := 0 } rfl rfl (by decide) rfl rfl ?_
  intro b hb t ht
  simp only [List.mem_singleton] at hb
  subst hb
  have ht1 := Option.some.inj ht
  subst ht1
  decide

/-- C10 as claimed is refuted: `fsm_state_add` accepts two states with the same name, and
then the lookups of the second one disagree.  The world `w_dup` is made through the public
API (`fsm_new`, then `fsm_state_add` of `"A"` with id 1 and of `"A"` with id 2); the state at
address 3 is registered in the FSM with id 2 and name `"A"`; `fsm_get_state` with its id
returns its handle 3, and `fsm_get_state_by_name` with its name returns the handle 2 of the
other state. -/
theorem C10_counterexample :
    mk_dup = .ok w_dup ∧
    ∃ F s, w_dup.fsm? 1 = some F ∧ w_dup.registry F = .ok [2, 3] ∧
      w_dup.state? 3 = some s ∧ s.id = 2 ∧ s.name = "A" ∧
      fsm_get_state 1 s.id w_dup = .ok (3, w_dup) ∧
      fsm_get_state_by_name 1 s.name w_dup = .ok (2, w_dup) ∧
      ¬ ((fsm_get_state 1 s.id w_dup).map Prod.fst =
          (fsm_get_state_by_name 1 s.name w_dup).map Prod.fst) :=
  ⟨mk_dup_eq, _, _, rfl, rfl, rfl, rfl, rfl, rfl, rfl, by decide⟩

/-! ## Requests that find no state, and what a request leaves alone -/

theorem switch_to_null (f : Nat) (w : World) (F : fsm) :
    switch_to f F 0 { w with held := F.lock :: w.held } = .ok (-1, w) := by
  simp [switch_to, mutex_unlock]

/-- C11 (Unknown transition target): for every valid FSM (lock free, state list well formed),
`fsm_switch` with an id that no registered state has, `fsm_switch_by_name` with a name that no
registered state has, and `fsm_switch_by_state_handle` with a valid state that is not in the
registry of the FSM each return `-1` and leave the whole world as it is: the pending request,
the previous and the current state and the registry in particular. -/
theorem C11_unknown_target (f : Nat) (w : World) (F : fsm) (L : List Nat)
    (hF : w.fsm? f = some F) (hv : F.valid) (hl : F.lock ∉ w.held)
    (hL : w.registry F = .ok L) :
    (∀ id, (∀ a ∈ L, ∀ s, w.state? a = some s → s.id ≠ id) →
      fsm_switch f id w = .ok (-1, w)) ∧
    (∀ name, (∀ a ∈ L, ∀ s, w.state? a = some s → s.name ≠ name) →
      fsm_switch_by_name f name w = .ok (-1, w)) ∧
    (∀ st S, w.state? st = some S → S.magic_number = STATE_MAGIC_NUMBER → st ∉ L →
      fsm_switch_by_state_handle f st w = .ok (-1, w)) := by
  obtain ⟨hm, hos, hlk, hq⟩ := hv
  simp only [World.fsm?, World.state?, World.registry, World.sfuel] at hF hL ⊢
  refine ⟨?_, ?_, ?_⟩
  · intro id hno
    have hfind := state_find_of_chain w.states (fun _ s => s.id = id) _ _ _ hL
    rw [first_hit_none w.states _ L (fun b hb t ht => by simpa using hno b hb t ht)] at hfind
    simp only [fsm_switch, World.fsm?, hF, ld, ok_bind, ASSERT, hm, hos, hlk, if_true, ne_eq,
      not_false_eq_true, mutex_lock, hl, if_false, World.sfuel, hfind]
    exact switch_to_null f w F
  · intro name hno
    have hfind := state_find_of_chain w.states (fun _ s => s.name = name) _ _ _ hL
    rw [first_hit_none w.states _ L (fun b hb t ht => by simpa using hno b hb t ht)] at hfind
    simp only [fsm_switch_by_name, World.fsm?, hF, ld, ok_bind, ASSERT, hm, hos, hlk, if_true,
      ne_eq, not_false_eq_true, mutex_lock, hl, if_false, World.sfuel, hfind]
    exact switch_to_null f w F
  · intro st S hS hSm hno
    have hfind := state_find_of_chain w.states (fun p _ => p = st) _ _ _ hL
    rw [first_hit_none w.states _ L (fun b hb t _ => by
      simp only [decide_eq_false_iff_not]
      intro h
      exact hno (h ▸ hb))] at hfind
    simp only [fsm_switch_by_state_handle, World.fsm?, World.state?, hF, hS, ld, ok_bind, ASSERT,
      hm, hSm, hos, hlk, if_true, ne_eq, not_false_eq_true, mutex_lock, hl, if_false,
      World.sfuel, hfind]
    exact switch_to_null f w F

/-- C11, on the FSM of the reference test with `S1` current: an id and a name that no state
has, and the handle of the ROOT state, which is in no registry. -/
theorem C11_unknown_target_witness :
    fsm_switch 1 15247204 w_run = .ok (-1, w_run) ∧
    fsm_switch_by_name 1 "random name" w_run = .ok (-1, w_run) ∧
    fsm_switch_by_state_handle 1 ROOT w_run = .ok (-1, w_run) := by
  obtain ⟨h1, h2, h3⟩ := C11_unknown_target 1 w_run _ [2, 3] rfl (by decide) (by decide) rfl
  refine ⟨h1 _ ?_, h2 _ ?_, h3 ROOT _ rfl rfl (by decide)⟩
  · intro a ha s hs
    simp only [List.mem_cons, List.mem_singleton, List.not_mem_nil, or_false] at ha
    rcases ha with rfl | rfl
    · have h := Option.some.inj hs
      subst h
      decide
    · have h := Option.some.inj hs
      subst h
      decide
  · intro a ha s hs
    simp only [List.mem_cons, List.mem_singleton, List.not_mem_nil, or_false] at ha
    rcases ha with rfl | rfl
    · have h := Option.some.inj hs
      subst h
      decide
    · have h := Option.some.inj hs
      subst h
      decide

theorem get_current_state_eq (f : Nat) (w : World) (F : fsm) (C : state)
    (hF : cell w.fsms f = some F) (hv : F.valid) (hl : F.lock ∉ w.held)
    (hc0 : F.sta_curr ≠ 0) (hC : cell w.states F.sta_curr = some C)
    (hCm : C.magic_number = STATE_MAGIC_NUMBER) (hCl : C.lock ∉ w.held)
    (hne : C.lock ≠ F.lock) :
    fsm_get_current_state f w = .ok ({ id := C.id, name := C.name }, w) := by
  obtain ⟨hm, hos, hlk, hq⟩ := hv
  have h1 : C.lock ∉ F.lock :: w.held := by
    simp [hne, hCl]
  have h2 : (C.lock :: F.lock :: w.held).erase C.lock = F.lock :: w.held := by simp
  simp only [fsm_get_current_state, World.fsm?, World.state?, hF, hC, ld, ok_bind, ASSERT, hm,
    hos, hlk, hc0, hCm, if_true, ne_eq, not_false_eq_true, mutex_lock, hl, h1, if_false,
    mutex_unlock, h2]
  simp

/-- C12 (A transition request only fills the buffer), amended: for every valid FSM with an
empty pending slot (lock free, state list well formed) and every registered state `S`, a
request for `S` through any of the three entry points (a request for a state gives its
handle, or its id or name where no state registered before it has the same: a request by name
takes the first state with the name) returns `0` and leaves the world
as it was but for the pending slot of the FSM, which now is `S`: the previous and the current
state, the state list head, every state record (the registry, the interval fields), every
queue and every other FSM record are unchanged, and `fsm_get_current_state` reports the id
and the name of the same current state before and after the request. -/
theorem C12_request_fills_buffer (f : Nat) (w : World) (F : fsm) (pre post : List Nat)
    (a : Nat) (s : state) (r : request)
    (hF : w.fsm? f = some F) (hv : F.valid) (hl : F.lock ∉ w.held) (hnext : F.sta_next = 0)
    (hL : w.registry F = .ok (pre ++ a :: post)) (hs : w.state? a = some s)
    (hr : r.asks w.states pre a s) :
    r.run f w = .ok (0, w.setFsm f { F with sta_next := a }) ∧
    (w.setFsm f { F with sta_next := a }).fsm? f = some { F with sta_next := a } ∧
    (∀ g, g ≠ f → (w.setFsm f { F with sta_next := a }).fsm? g = w.fsm? g) ∧
    (w.setFsm f { F with sta_next := a }).states = w.states ∧
    (w.setFsm f { F with sta_next := a }).queues = w.queues ∧
    (w.setFsm f { F with sta_next := a }).registry { F with sta_next := a } =
      .ok (pre ++ a :: post) ∧
    (∀ C : state, F.sta_curr ≠ 0 → w.state? F.sta_curr = some C →
      C.magic_number = STATE_MAGIC_NUMBER → C.lock ∉ w.held → C.lock ≠ F.lock →
      fsm_get_current_state f w = .ok ({ id := C.id, name := C.name }, w) ∧
      fsm_get_current_state f (w.setFsm f { F with sta_next := a }) =
        .ok ({ id := C.id, name := C.name }, w.setFsm f { F with sta_next := a })) := by
  simp only [World.fsm?, World.state?, World.registry, World.sfuel] at hF hL hs
  have ha0 : a ≠ 0 := by
    intro h; rw [h] at hs; simp at hs
  have hF1 : cell (w.setFsm f { F with sta_next := a }).fsms f = some { F with sta_next := a } := by
    simp only [World.setFsm]
    exact cell_put_same _ hF
  refine ⟨?_, hF1, ?_, rfl, rfl, ?_, ?_⟩
  · rw [request_run_eq f w F pre post a s r hF hv hl hL hs hr, switch_to_empty f w F a ha0 hnext]
  · intro g hg
    simp only [World.fsm?, World.setFsm]
    exact cell_put_ne _ _ (Ne.symm hg)
  · simpa [World.registry] using hL
  · intro C hc0 hC hCm hCl hne
    simp only [World.state?] at hC
    exact ⟨get_current_state_eq f w F C hF hv hl hc0 hC hCm hCl hne,
      get_current_state_eq f _ { F with sta_next := a } C hF1 hv hl hc0 hC hCm hCl hne⟩

/-- C12, on the FSM of the reference test with `S1` current: a request for `S2` by its name
fills the pending slot, and `fsm_get_current_state` still reports `S1`. -/
theorem C12_request_fills_buffer_witness :
    fsm_switch_by_name 1 "Test state 2" w_run = .ok (0, w_run.setFsm 1
      { magic_number := FSM_MAGIC_NUMBER, lock := 2, name := "Test FSM", poll_interval := 10,
        event_queue := 1, parent_state := 0, state_list := 2, sta_prev := 1, sta_curr := 2,
        sta_next := 3, next := 0, os := 1 }) ∧
    fsm_get_current_state 1 (w_run.setFsm 1
      { magic_number := FSM_MAGIC_NUMBER, lock := 2, name := "Test FSM", poll_interval := 10,
        event_queue := 1, parent_state := 0, state_list := 2, sta_prev := 1, sta_curr := 2,
        sta_next := 3, next := 0, os := 1 }) =
      .ok ({ id := 5, name := "Test state 1" }, w_run.setFsm 1
        { magic_number := FSM_MAGIC_NUMBER, lock := 2, name := "Test FSM", poll_interval := 10,
          event_queue := 1, parent_state := 0, state_list := 2, sta_prev := 1, sta_curr := 2,
          sta_next := 3, next := 0, os := 1 }) := by
  obtain ⟨h1, -, -, -, -, -, h2⟩ := C12_request_fills_buffer 1 w_run
    { magic_number := FSM_MAGIC_NUMBER, lock := 2, name := "Test FSM", poll_interval := 10,
      event_queue := 1, parent_state := 0, state_list := 2, sta_prev := 1, sta_curr := 2,
      sta_next := 0, next := 0, os := 1 }
    [2] [] 3 _ (.by_name "Test state 2") rfl (by decide) (by decide) rfl rfl rfl ⟨rfl, by
      intro b hb t ht
      simp only [List.mem_singleton] at hb
      subst hb
      have h := Option.some.inj ht
      subst h
      decide⟩
  exact ⟨h1, (h2 _ (by decide) rfl rfl (by decide) (by decide)).2⟩

/-! ## Lookup -/

theorem first_hit_cases (h : List (Option state)) (hit : Nat → state → Bool) (L : List Nat)
    (h0 : ∀ a ∈ L, a ≠ 0) :
    (first_hit h hit L = 0 ∧ ∀ b ∈ L, ∀ t, cell h b = some t → hit b t = false) ∨
    (∃ pre post s, L = pre ++ first_hit h hit L :: post ∧ first_hit h hit L ≠ 0 ∧
      cell h (first_hit h hit L) = some s ∧ hit (first_hit h hit L) s = true ∧
      ∀ b ∈ pre, ∀ t, cell h b = some t → hit b t = false) := by
  induction L with
  | nil => left; simp [first_hit]
  | cons a L ih =>
    have ha0 : a ≠ 0 := h0 a (List.mem_cons_self _ _)
    by_cases ha : hit_at h hit a = true
    · right
      have hfa : first_hit h hit (a :: L) = a := by simp [first_hit, List.find?, ha]
      rw [hfa]
      unfold hit_at at ha
      cases hc : cell h a with
      | none => simp [hc] at ha
      | some s =>
        simp only [hc] at ha
        exact ⟨[], L, s, rfl, ha0, rfl, ha, by simp⟩
    · have hfa : first_hit h hit (a :: L) = first_hit h hit L := by
        simp [first_hit, List.find?, ha]
      have hfalse : ∀ t, cell h a = some t → hit a t = false := by
        intro t ht
        unfold hit_at at ha
        simpa [ht] using ha
      rw [hfa]
      rcases ih (fun b hb => h0 b (List.mem_cons_of_mem _ hb)) with ⟨h1, h2⟩ | ⟨pre, post, s, h1, h2, h3, h4, h5⟩
      · left
        refine ⟨h1, ?_⟩
        intro b hb t ht
        rcases List.mem_cons.mp hb with rfl | hb
        · exact hfalse t ht
        · exact h2 b hb t ht
      · right
        refine ⟨a :: pre, post, s, by rw [List.cons_append, ← h1], h2, h3, h4, ?_⟩
        intro b hb t ht
        rcases List.mem_cons.mp hb with rfl | hb
        · exact hfalse t ht
        · exact h5 b hb t ht

/-- C15 (Lookup): for every valid FSM (lock free, state list well formed, with the registry
`L`), `fsm_get_state(fsm, id)` returns `NULL` exactly when no registered state has that id
and otherwise returns a registered state whose id is `id` (the first one in list order);
`fsm_get_state_by_name(fsm, name)` returns `NULL` exactly when no registered state has that
name and otherwise returns the first state in list order whose name is `name`; both return
`NULL` when the registry is empty; and both leave the whole world as it is. -/
theorem C15_lookup (f : Nat) (w : World) (F : fsm) (L : List Nat)
    (hF : w.fsm? f = some F) (hm : F.magic_number = FSM_MAGIC_NUMBER) (hl : F.lock ∉ w.held)
    (hL : w.registry F = .ok L) :
    (∀ id, ∃ a, fsm_get_state f id w = .ok (a, w) ∧
      (a = 0 ↔ ∀ b ∈ L, ∀ t, w.state? b = some t → t.id ≠ id) ∧
      (a ≠ 0 → ∃ pre post s, L = pre ++ a :: post ∧ w.state? a = some s ∧ s.id = id ∧
        ∀ b ∈ pre, ∀ t, w.state? b = some t → t.id ≠ id)) ∧
    (∀ name, ∃ a, fsm_get_state_by_name f name w = .ok (a, w) ∧
      (a = 0 ↔ ∀ b ∈ L, ∀ t, w.state? b = some t → t.name ≠ name) ∧
      (a ≠ 0 → ∃ pre post s, L = pre ++ a :: post ∧ w.state? a = some s ∧ s.name = name ∧
        ∀ b ∈ pre, ∀ t, w.state? b = some t → t.name ≠ name)) ∧
    (L = [] → ∀ id name, fsm_get_state f id w = .ok (0, w) ∧
      fsm_get_state_by_name f name w = .ok (0, w)) := by
  have h0 : ∀ a ∈ L, a ≠ 0 := fun a ha =>
    (state_chain_alloc w.states _ _ _ (by simpa [World.registry] using hL) a ha).1
  have hmem : ∀ (x : Nat) (pre post : List Nat), L = pre ++ x :: post → x ∈ L :=
    fun x pre post hx => by rw [hx]; simp
  simp only [World.state?]
  refine ⟨?_, ?_, ?_⟩
  · intro id
    refine ⟨_, fsm_get_state_eq f id w F L hF hm hl hL, ?_⟩
    rcases first_hit_cases w.states (fun _ s => s.id = id) L h0 with
      ⟨h1, h2⟩ | ⟨pre, post, s, h1, h2, h3, h4, h5⟩
    · exact ⟨⟨fun _ b hb t ht => by simpa using h2 b hb t ht, fun _ => h1⟩,
        fun h => absurd h1 h⟩
    · have h4' : s.id = id := by simpa using h4
      refine ⟨⟨fun h => absurd h h2, fun hno => ?_⟩, fun _ => ⟨pre, post, s, h1, h3, h4',
        fun b hb t ht => by simpa using h5 b hb t ht⟩⟩
      exact absurd h4' (hno _ (hmem _ _ _ h1) s h3)
  · intro name
    refine ⟨_, fsm_get_state_by_name_eq f name w F L hF hm hl hL, ?_⟩
    have hflip : ∀ (b : Nat) (t : state), (decide (name = t.name)) = false → t.name ≠ name := by
      intro b t h
      simp only [decide_eq_false_iff_not] at h
      exact fun e => h e.symm
    rcases first_hit_cases w.states (fun _ s => name = s.name) L h0 with
      ⟨h1, h2⟩ | ⟨pre, post, s, h1, h2, h3, h4, h5⟩
    · exact ⟨⟨fun _ b hb t ht => hflip b t (h2 b hb t ht), fun _ => h1⟩,
        fun h => absurd h1 h⟩
    · have h4' : s.name = name := by
        simp only [decide_eq_true_eq] at h4
        exact h4.symm
      refine ⟨⟨fun h => absurd h h2, fun hno => ?_⟩, fun _ => ⟨pre, post, s, h1, h3, h4',
        fun b hb t ht => hflip b t (h5 b hb t ht)⟩⟩
      exact absurd h4' (hno _ (hmem _ _ _ h1) s h3)
  · intro hnil id name
    subst hnil
    have h1 := fsm_get_state_eq f id w F [] hF hm hl hL
    have h2 := fsm_get_state_by_name_eq f name w F [] hF hm hl hL
    simpa [first_hit] using And.intro h1 h2

/-! ## The CSV listing -/

theorem intercalate_go (s : String) : ∀ (l : List String) (acc : String),
    String.intercalate.go acc s l = acc ++ String.intercalate.go "" s l := by
  intro l
  induction l with
  | nil => intro acc; simp [String.intercalate.go]
  | cons a l ih =>
    intro acc
    simp only [String.intercalate.go]
    rw [ih (acc ++ s ++ a), ih ("" ++ s ++ a)]
    simp [String.append_assoc]

theorem intercalate_cons_cons (s a b : String) (l : List String) :
    s.intercalate (a :: b :: l) = a ++ s ++ s.intercalate (b :: l) := by
  simp only [String.intercalate, String.intercalate.go]
  rw [intercalate_go s l (a ++ s ++ b), intercalate_go s l b]
  simp [String.append_assoc]

theorem names_cons (w : World) (a : Nat) (L : List Nat) (s : state)
    (h : cell w.states a = some s) : w.names (a :: L) = s.name :: w.names L := by
  simp [World.names, h]

theorem csv_walk_of_chain (w : World) :
    ∀ (n p : Nat) (L : List Nat) (buf : String), state_chain w.states n p = .ok L →
      csv_walk w.states n p buf = .ok (buf ++ ",".intercalate (w.names L)) := by
  intro n
  induction n with
  | zero => intro p L buf hc; simp [state_chain] at hc
  | succ n ih =>
    intro p L buf hc
    unfold state_chain at hc
    unfold csv_walk
    by_cases hp : p = 0
    · simp [hp] at hc
      subst hc
      simp [hp, World.names, String.intercalate]
    · simp only [hp, if_false] at hc ⊢
      cases hs : cell w.states p with
      | none => simp [hs] at hc
      | some s =>
        simp only [hs] at hc ⊢
        obtain ⟨L1, hL1, hL⟩ := map_eq_ok.mp hc
        subst hL
        rw [names_cons w p L1 s hs]
        by_cases hn : s.next = 0
        · cases n with
          | zero => simp [state_chain] at hL1
          | succ m =>
            have : L1 = [] := by
              unfold state_chain at hL1
              simpa [hn] using hL1.symm
            subst this
            simp only [hn, ne_eq, not_true_eq_false, if_false]
            unfold csv_walk
            simp [World.names, String.intercalate, String.intercalate.go]
        · simp only [ne_eq, hn, not_false_eq_true, if_true]
          rw [ih s.next L1 _ hL1]
          cases L1 with
          | nil =>
            cases n with
            | zero => simp [state_chain] at hL1
            | succ m =>
              unfold state_chain at hL1
              simp only [hn, if_false] at hL1
              cases hq : cell w.states s.next with
              | none => simp [hq] at hL1
              | some t =>
                simp only [hq] at hL1
                obtain ⟨L2, -, hL2⟩ := map_eq_ok.mp hL1
                simp at hL2
          | cons b L2 =>
            obtain ⟨-, t, ht⟩ := state_chain_alloc w.states _ _ _ hL1 b (List.mem_cons_self _ _)
            rw [names_cons w b L2 t ht, intercalate_cons_cons]
            simp [String.append_assoc]

/-- C16 (CSV listing): for every valid FSM (lock free, state list well formed, with the
registry `L`), `fsm_get_state_list_csv` leaves in the buffer the names of the registered
states in registry order joined by single commas, with no comma before the first and none
after the last name, the empty string when the registry is empty; and it leaves the world as
it is. -/
theorem C16_csv_listing (f : Nat) (w : World) (F : fsm) (L : List Nat)
    (hF : w.fsm? f = some F) (hv : F.valid) (hl : F.lock ∉ w.held)
    (hL : w.registry F = .ok L) :
    fsm_get_state_list_csv f w = .ok (",".intercalate (w.names L), w) ∧
    (w.names L).length = L.length ∧
    (∀ i : Nat, ∀ s, (L[i]?).bind w.state? = some s → (w.names L)[i]? = some s.name) ∧
    (L = [] → fsm_get_state_list_csv f w = .ok ("", w)) := by
  obtain ⟨hm, hos, hlk, hq⟩ := hv
  simp only [World.fsm?, World.registry, World.sfuel] at hF hL
  have hcsv := csv_walk_of_chain w _ _ L "" hL
  have hrun : fsm_get_state_list_csv f w = .ok (",".intercalate (w.names L), w) := by
    simp only [fsm_get_state_list_csv, World.fsm?, hF, ld, ok_bind, ASSERT, hm, hos, hlk,
      if_true, ne_eq, not_false_eq_true, mutex_lock, hl, if_false, World.sfuel, hcsv]
    simp [mutex_unlock]
  have hall := state_chain_alloc w.states _ _ _ hL
  have hnames : ∀ (M : List Nat), (∀ a ∈ M, ∃ s, cell w.states a = some s) →
      (w.names M).length = M.length ∧
      ∀ i : Nat, ∀ s, (M[i]?).bind w.state? = some s → (w.names M)[i]? = some s.name := by
    intro M
    induction M with
    | nil => intro _; simp [World.names]
    | cons a M ih =>
      intro hM
      obtain ⟨s, hs⟩ := hM a (List.mem_cons_self _ _)
      obtain ⟨h1, h2⟩ := ih (fun b hb => hM b (List.mem_cons_of_mem _ hb))
      rw [names_cons w a M s hs]
      refine ⟨by simp [h1], ?_⟩
      intro i t hi
      cases i with
      | zero =>
        simp only [List.getElem?_cons_zero, Option.some_bind, World.state?, hs,
          Option.some.injEq] at hi
        simp [hi]
      | succ i =>
        simp only [List.getElem?_cons_succ] at hi ⊢
        exact h2 i t hi
  obtain ⟨h1, h2⟩ := hnames L (fun a ha => (hall a ha).2)
  refine ⟨hrun, h1, h2, ?_⟩
  intro hnil
  subst hnil
  simpa [World.names, String.intercalate] using hrun

/-- C16, on the FSM of the reference test. -/
theorem C16_csv_listing_witness :
    fsm_get_state_list_csv 1 w_two = .ok ("Test state 1,Test state 2", w_two) := by
  have h := (C16_csv_listing 1 w_two _ [2, 3] rfl (by decide) (by decide) rfl).1
  rw [h]
  rfl

/-- C15, on the FSM of the reference test: an id that no state has is not found, and the
name of `S2` is found at the address of `S2`, behind `S1`. -/
theorem C15_lookup_witness :
    fsm_get_state 1 15247204 w_two = .ok (0, w_two) ∧
    ∃ s, fsm_get_state_by_name 1 "Test state 2" w_two = .ok (3, w_two) ∧
      w_two.state? 3 = some s ∧ s.name = "Test state 2" := by
  obtain ⟨h1, h2, -⟩ := C15_lookup 1 w_two _ [2, 3] rfl rfl (by decide) rfl
  constructor
  · obtain ⟨a, ha, hz, -⟩ := h1 15247204
    have h0 : a = 0 := by
      refine hz.mpr ?_
      intro b hb t ht
      simp only [List.mem_cons, List.mem_singleton, List.not_mem_nil, or_false] at hb
      rcases hb with rfl | rfl
      · have h := Option.some.inj ht
        subst h
        decide
      · have h := Option.some.inj ht
        subst h
        decide
    rw [h0] at ha
    exact ha
  · obtain ⟨a, ha, -, hnz⟩ := h2 "Test state 2"
    have h3 : a = 3 := by
      have h := ha.symm.trans (show fsm_get_state_by_name 1 "Test state 2" w_two =
        .ok (3, w_two) from rfl)
      simpa using h
    subst h3
    obtain ⟨pre, post, s, -, hs, hn, -⟩ := hnz (by decide)
    exact ⟨s, ha, hs, hn⟩

/-! ## Sending an event -/

theorem fsm_init_queue (f : Nat) (name : String) (w w1 : World) (r : Int)
    (h : fsm_init f name w = .ok (r, w1)) :
    ∃ G Q, w1.fsm? f = some G ∧ w1.queue? G.event_queue = some Q ∧
      Q.length = EVENT_QUEUE_LENGTH ∧ Q.items = [] ∧ G.poll_interval = DEFAULT_POLLING_INTERVAL := by
  unfold fsm_init at h
  obtain ⟨F, hF, h⟩ := bind_eq_ok.mp h
  obtain ⟨R, hR, h⟩ := bind_eq_ok.mp h
  rw [ld_eq_ok] at hF hR
  simp only [World.fsm?] at hF
  have hfs : (if R.lock = 0 then
      match mutex_create w with
      | (m, w) => w.setState ROOT { R with lock := m }
      else w).fsms = w.fsms := by
    split <;> rfl
  generalize (if R.lock = 0 then
      match mutex_create w with
      | (m, w) => w.setState ROOT { R with lock := m }
      else w) = w2 at h hfs
  simp only [mutex_create, ASSERT, mutex_lock, queue_create] at h
  by_cases h1 : w2.mutexes + 1 ∈ w2.held
  · simp [h1] at h
  · by_cases h2 : F.event_queue = 0
    · simp only [Nat.add_one_ne_zero, ne_eq, not_false_eq_true, if_true, ok_bind, h1, if_false,
        h2, pure_eq_ok, Except.ok.injEq, Prod.mk.injEq] at h
      obtain ⟨-, h⟩ := h
      subst h
      refine ⟨{ magic_number := FSM_MAGIC_NUMBER, lock := w2.mutexes + 1, name := name,
                poll_interval := DEFAULT_POLLING_INTERVAL,
                event_queue := w2.queues.length + 1, parent_state := 0, state_list := 0,
                sta_prev := ROOT, sta_curr := ROOT, sta_next := 0, next := 0,
                os := fsm_port_os_handle },
        { length := EVENT_QUEUE_LENGTH, items := [] }, ?_, ?_, rfl, rfl, rfl⟩
      · simp only [World.fsm?, mutex_unlock, World.setFsm, hfs]
        exact cell_put_same _ hF
      · simp only [World.queue?, mutex_unlock, World.setFsm]
        exact cell_append_new _ _
    · simp [h1, h2] at h

/-- C20 (Event send): for every valid FSM (lock free, its queue `Q` alive): when `Q` holds
fewer events than its capacity, `fsm_event_send(fsm, type, data, datalen)` returns `0` and
puts one event with that type, payload pointer and length and the current timestamp at the
tail of the queue, behind the events already queued; when `Q` is full it returns `-1` and
leaves the queue, and the whole world, unchanged; in both cases the FSM records (previous,
current and pending state) and the state records (the registry) are unchanged.  The queue
that `fsm_new` creates has the capacity `EVENT_QUEUE_LENGTH`, which is 10, and is empty. -/
theorem C20_event_send (f type : Nat) (data : payload) (datalen : Nat) (w : World) (F : fsm)
    (Q : queue) (hF : w.fsm? f = some F) (hv : F.valid) (hl : F.lock ∉ w.held)
    (hQ : w.queue? F.event_queue = some Q) :
    (Q.items.length < Q.length →
      fsm_event_send f type data datalen w = .ok (0, w.setQueue F.event_queue
        { Q with items := Q.items ++ [{ type := type, timestamp := uptime_ms w, data := data,
                                        datalen := datalen }] })) ∧
    (Q.length ≤ Q.items.length → fsm_event_send f type data datalen w = .ok (-1, w)) ∧
    (∀ r w1, fsm_event_send f type data datalen w = .ok (r, w1) →
      w1.fsms = w.fsms ∧ w1.states = w.states ∧
      ∀ q, q ≠ F.event_queue → w1.queue? q = w.queue? q) ∧
    (∀ name w0 g w1, fsm_new name w0 = .ok (g, w1) →
      ∃ G Q0, w1.fsm? g = some G ∧ w1.queue? G.event_queue = some Q0 ∧
        Q0.length = EVENT_QUEUE_LENGTH ∧ EVENT_QUEUE_LENGTH = 10 ∧ Q0.items = []) := by
  obtain ⟨hm, hos, hlk, hq⟩ := hv
  simp only [World.fsm?, World.queue?] at hF hQ
  have hfull : Q.items.length < Q.length →
      fsm_event_send f type data datalen w = .ok (0, w.setQueue F.event_queue
        { Q with items := Q.items ++ [{ type := type, timestamp := uptime_ms w, data := data,
                                        datalen := datalen }] }) := by
    intro hlt
    simp only [fsm_event_send, World.fsm?, hF, ld, ok_bind, ASSERT, hm, hos, hlk, hq, if_true,
      ne_eq, not_false_eq_true, mutex_lock, hl, if_false, queue_send, World.queue?, hQ, hlt]
    simp [mutex_unlock]
  have hroom : Q.length ≤ Q.items.length →
      fsm_event_send f type data datalen w = .ok (-1, w) := by
    intro hge
    simp only [fsm_event_send, World.fsm?, hF, ld, ok_bind, ASSERT, hm, hos, hlk, hq, if_true,
      ne_eq, not_false_eq_true, mutex_lock, hl, if_false, queue_send, World.queue?, hQ,
      Nat.not_lt.mpr hge]
    simp [mutex_unlock]
  refine ⟨hfull, hroom, ?_, ?_⟩
  · intro r w1 h
    by_cases hlt : Q.items.length < Q.length
    · rw [hfull hlt] at h
      simp only [Except.ok.injEq, Prod.mk.injEq] at h
      obtain ⟨-, h⟩ := h
      subst h
      refine ⟨rfl, rfl, fun q hq => ?_⟩
      simp only [World.queue?, World.setQueue]
      exact cell_put_ne _ _ (Ne.symm hq)
    · rw [hroom (Nat.not_lt.mp hlt)] at h
      simp only [Except.ok.injEq, Prod.mk.injEq] at h
      obtain ⟨-, h⟩ := h
      subst h
      exact ⟨rfl, rfl, fun _ _ => rfl⟩
  · intro name w0 g w1 h
    unfold fsm_new at h
    obtain ⟨⟨r, w2⟩, hi, h⟩ := bind_eq_ok.mp h
    simp only [pure_eq_ok, Except.ok.injEq, Prod.mk.injEq] at h
    obtain ⟨hg, hw⟩ := h
    subst hg hw
    obtain ⟨G, Q0, h1, h2, h3, h4, -⟩ := fsm_init_queue _ _ _ _ _ hi
    exact ⟨G, Q0, h1, h2, h3, rfl, h4⟩

/-- C20, on the FSM of the reference test at time 11: with an empty queue the event is
queued and the result is `0`; with ten events queued the result is `-1` and nothing changes. -/
theorem C20_event_send_witness :
    fsm_event_send 1 42325 (.user 7) 4 w_run = .ok (0, w_run.setQueue 1
      { length := 10,
        items := [{ type := 42325, timestamp := 11, data := .user 7, datalen := 4 }] }) ∧
    fsm_event_send 1 42325 (.user 7) 4 (w_run.setQueue 1
      { length := 10, items := List.replicate 10
          { type := 1, timestamp := 3, data := .null, datalen := 0 } }) =
      .ok (-1, w_run.setQueue 1
        { length := 10, items := List.replicate 10
            { type := 1, timestamp := 3, data := .null, datalen := 0 } }) :=
  ⟨(C20_event_send 1 42325 (.user 7) 4 w_run _ _ rfl (by decide) (by decide) rfl).1
      (by decide),
    (C20_event_send 1 42325 (.user 7) 4 (w_run.setQueue 1
      { length := 10, items := List.replicate 10
          { type := 1, timestamp := 3, data := .null, datalen := 0 } }) _ _
      rfl (by decide) (by decide) rfl).2.1 (by decide)⟩

/-! ## Chains of links, without fuel -/

theorem linked_unique (nx : Nat → Option Nat) :
    ∀ (L M : List Nat) (p : Nat), linked nx p L → linked nx p M → L = M := by
  intro L
  induction L with
  | nil =>
    intro M p hL hM
    cases M with
    | nil => rfl
    | cons b M => exact absurd hL hM.1
  | cons a L ih =>
    intro M p hL hM
    cases M with
    | nil => exact absurd hM hL.1
    | cons b M =>
      obtain ⟨-, ha, q, hq, hL⟩ := hL
      obtain ⟨-, hb, q1, hq1, hM⟩ := hM
      rw [hq] at hq1
      cases hq1
      rw [ha, hb, ih M q hL hM]

theorem linked_suffix (nx : Nat → Option Nat) :
    ∀ (A B : List Nat) (x p : Nat), linked nx p (A ++ x :: B) → linked nx x (x :: B) := by
  intro A
  induction A with
  | nil =>
    intro B x p h
    obtain ⟨h0, hx, q, hq, h⟩ := h
    subst hx
    exact ⟨h0, rfl, q, hq, h⟩
  | cons a A ih =>
    intro B x p h
    obtain ⟨-, -, q, -, h⟩ := h
    exact ih B x q h

theorem linked_nodup (nx : Nat → Option Nat) :
    ∀ (L : List Nat) (p : Nat), linked nx p L → L.Nodup := by
  intro L
  induction L with
  | nil => intro p _; exact List.nodup_nil
  | cons a L ih =>
    intro p h
    have h' := h
    obtain ⟨h0, ha, q, hq, hL⟩ := h
    subst ha
    refine List.nodup_cons.mpr ⟨?_, ih q hL⟩
    intro hmem
    obtain ⟨A, B, hAB⟩ := List.append_of_mem hmem
    have h1 : linked nx a (a :: B) := linked_suffix nx A B a q (hAB ▸ hL)
    have h2 := linked_unique nx _ _ a h1 h'
    simp only [List.cons.injEq, true_and] at h2
    have h3 := congrArg List.length hAB
    rw [← h2] at h3
    simp at h3
    omega

theorem linked_mem (nx : Nat → Option Nat) :
    ∀ (L : List Nat) (p : Nat), linked nx p L → ∀ a ∈ L, a ≠ 0 ∧ (nx a).isSome := by
  intro L
  induction L with
  | nil => intro p _ a ha; simp at ha
  | cons b L ih =>
    intro p h a ha
    obtain ⟨h0, hb, q, hq, hL⟩ := h
    subst hb
    rcases List.mem_cons.mp ha with rfl | ha
    · exact ⟨h0, by simp [hq]⟩
    · exact ih q hL a ha

theorem linked_congr (nx nx1 : Nat → Option Nat) :
    ∀ (L : List Nat) (p : Nat), (∀ a ∈ L, nx1 a = nx a) → linked nx p L → linked nx1 p L := by
  intro L
  induction L with
  | nil => intro p _ h; exact h
  | cons b L ih =>
    intro p hc h
    obtain ⟨h0, hb, q, hq, hL⟩ := h
    subst hb
    exact ⟨h0, rfl, q, by rw [hc b (List.mem_cons_self _ _)]; exact hq,
      ih q (fun a ha => hc a (List.mem_cons_of_mem _ ha)) hL⟩

theorem length_le_of_nodup_bound (L : List Nat) (n : Nat) (hn : L.Nodup)
    (hb : ∀ a ∈ L, a ≠ 0 ∧ a ≤ n) : L.length ≤ n := by
  have h1 : L.toFinset ⊆ Finset.Icc 1 n := by
    intro a ha
    rw [List.mem_toFinset] at ha
    obtain ⟨h0, hle⟩ := hb a ha
    exact Finset.mem_Icc.mpr ⟨Nat.one_le_iff_ne_zero.mpr h0, hle⟩
  have h2 := Finset.card_le_card h1
  rw [List.toFinset_card_of_nodup hn] at h2
  simpa using h2

/-- Appending `x`, which is not on the chain and whose link is made `NULL`, behind the last
node of the chain. -/
theorem linked_snoc (nx nx1 : Nat → Option Nat) (x : Nat) (hx0 : x ≠ 0)
    (hx : nx1 x = some 0) :
    ∀ (L : List Nat) (p : Nat), linked nx p L → x ∉ L →
      (∀ a ∈ L.dropLast, nx1 a = nx a) →
      (∀ a, L.getLast? = some a → nx1 a = some x) →
      linked nx1 (if L = [] then x else p) (L ++ [x]) := by
  intro L
  induction L with
  | nil =>
    intro p _ _ _ _
    exact ⟨hx0, rfl, 0, hx, rfl⟩
  | cons b L ih =>
    intro p h hxL hkeep hlast
    obtain ⟨h0, hb, q, hq, hL⟩ := h
    subst hb
    simp only [List.mem_cons, not_or] at hxL
    simp only [reduceCtorEq, if_false, List.cons_append]
    cases L with
    | nil =>
      have hq0 : q = 0 := hL
      refine ⟨h0, rfl, x, hlast b rfl, ?_⟩
      exact ⟨hx0, rfl, 0, hx, rfl⟩
    | cons c L =>
      have hkb : nx1 b = nx b := hkeep b (by simp [List.dropLast])
      have hrec := ih q hL hxL.2
        (fun a ha => hkeep a (by
          simp only [List.dropLast_cons₂, List.mem_cons]
          exact Or.inr ha))
        (fun a ha => hlast a (by simpa [List.getLast?_cons_cons] using ha))
      simp only [reduceCtorEq, if_false] at hrec
      exact ⟨h0, rfl, q, by rw [hkb]; exact hq, hrec⟩

/-- Taking `x` out of the chain: the link before it (the head link when `x` is first) is
made to hold what the link of `x` held. -/
theorem linked_remove (nx nx1 : Nat → Option Nat) (x : Nat) (post : List Nat) :
    ∀ (pre : List Nat) (p : Nat), linked nx p (pre ++ x :: post) →
      (∀ a ∈ pre.dropLast, nx1 a = nx a) → (∀ a ∈ post, nx1 a = nx a) →
      (∀ a, pre.getLast? = some a → nx1 a = nx x) →
      ∃ q, nx x = some q ∧ linked nx1 (if pre = [] then q else p) (pre ++ post) := by
  intro pre
  induction pre with
  | nil =>
    intro p h _ hpost _
    obtain ⟨h0, hb, q, hq, hL⟩ := h
    subst hb
    exact ⟨q, hq, linked_congr nx nx1 post q hpost hL⟩
  | cons b pre ih =>
    intro p h hkeep hpost hlast
    obtain ⟨h0, hb, q, hq, hL⟩ := h
    subst hb
    simp only [reduceCtorEq, if_false, List.cons_append]
    cases pre with
    | nil =>
      obtain ⟨q1, hq1, hrec⟩ := ih q hL (by simp) hpost (by simp)
      simp only [if_true, List.nil_append] at hrec
      refine ⟨q1, hq1, h0, rfl, q1, ?_, hrec⟩
      rw [hlast b rfl]
      exact hq1
    | cons c pre =>
      have hkb : nx1 b = nx b := hkeep b (by simp [List.dropLast])
      obtain ⟨q1, hq1, hrec⟩ := ih q hL
        (fun a ha => hkeep a (by
          simp only [List.dropLast_cons₂, List.mem_cons]
          exact Or.inr ha))
        hpost
        (fun a ha => hlast a (by simpa [List.getLast?_cons_cons] using ha))
      simp only [reduceCtorEq, if_false] at hrec
      exact ⟨q1, hq1, h0, rfl, q, by rw [hkb]; exact hq, hrec⟩

/-! ## The walks of the engine on a chain -/

theorem state_chain_linked (h : List (Option state)) :
    ∀ (n p : Nat) (L : List Nat), state_chain h n p = .ok L → linked (state_next h) p L := by
  intro n
  induction n with
  | zero => intro p L hc; simp [state_chain] at hc
  | succ n ih =>
    intro p L hc
    unfold state_chain at hc
    by_cases hp : p = 0
    · simp [hp] at hc
      subst hc
      exact hp
    · simp only [hp, if_false] at hc
      cases hs : cell h p with
      | none => simp [hs] at hc
      | some s =>
        simp only [hs] at hc
        obtain ⟨L1, hL1, hL⟩ := map_eq_ok.mp hc
        subst hL
        exact ⟨hp, rfl, s.next, by simp [state_next, hs], ih _ _ hL1⟩

theorem linked_state_chain (h : List (Option state)) :
    ∀ (n p : Nat) (L : List Nat), linked (state_next h) p L → L.length < n →
      state_chain h n p = .ok L := by
  intro n
  induction n with
  | zero => intro p L _ hn; omega
  | succ n ih =>
    intro p L hL hn
    unfold state_chain
    cases L with
    | nil =>
      have hp : p = 0 := hL
      simp [hp]
    | cons a L =>
      obtain ⟨h0, ha, q, hq, hL⟩ := hL
      subst ha
      simp only [h0, if_false]
      cases hs : cell h a with
      | none => simp [state_next, hs] at hq
      | some s =>
        simp only [state_next, hs, Option.map_some', Option.some.injEq] at hq
        subst hq
        simp only [List.length_cons, Nat.add_lt_add_iff_right] at hn
        simp only [ih _ _ hL hn]
        rfl

theorem linked_states_length (h : List (Option state)) (p : Nat) (L : List Nat)
    (hL : linked (state_next h) p L) : L.length < h.length + 1 := by
  have hn := linked_nodup _ L p hL
  have hb : ∀ a ∈ L, a ≠ 0 ∧ a ≤ h.length := by
    intro a ha
    obtain ⟨h0, hsome⟩ := linked_mem _ L p hL a ha
    cases hs : cell h a with
    | none => simp [state_next, hs] at hsome
    | some s => exact cell_bound hs
  have := length_le_of_nodup_bound L h.length hn hb
  omega

/-- The registry is the chain from the head of the state list. -/
theorem registry_iff (w : World) (F : fsm) (L : List Nat) :
    w.registry F = .ok L ↔ linked (state_next w.states) F.state_list L := by
  unfold World.registry
  constructor
  · exact state_chain_linked _ _ _ _
  · intro h
    exact linked_state_chain _ _ _ _ h (linked_states_length _ _ _ h)

theorem fsm_chain_linked (h : List (Option fsm)) :
    ∀ (n p : Nat) (L : List Nat), fsm_chain h n p = .ok L → linked (fsm_next h) p L := by
  intro n
  induction n with
  | zero => intro p L hc; simp [fsm_chain] at hc
  | succ n ih =>
    intro p L hc
    unfold fsm_chain at hc
    by_cases hp : p = 0
    · simp [hp] at hc
      subst hc
      exact hp
    · simp only [hp, if_false] at hc
      cases hs : cell h p with
      | none => simp [hs] at hc
      | some s =>
        simp only [hs] at hc
        obtain ⟨L1, hL1, hL⟩ := map_eq_ok.mp hc
        subst hL
        exact ⟨hp, rfl, s.next, by simp [fsm_next, hs], ih _ _ hL1⟩

theorem linked_fsm_chain (h : List (Option fsm)) :
    ∀ (n p : Nat) (L : List Nat), linked (fsm_next h) p L → L.length < n →
      fsm_chain h n p = .ok L := by
  intro n
  induction n with
  | zero => intro p L _ hn; omega
  | succ n ih =>
    intro p L hL hn
    unfold fsm_chain
    cases L with
    | nil =>
      have hp : p = 0 := hL
      simp [hp]
    | cons a L =>
      obtain ⟨h0, ha, q, hq, hL⟩ := hL
      subst ha
      simp only [h0, if_false]
      cases hs : cell h a with
      | none => simp [fsm_next, hs] at hq
      | some s =>
        simp only [fsm_next, hs, Option.map_some', Option.some.injEq] at hq
        subst hq
        simp only [List.length_cons, Nat.add_lt_add_iff_right] at hn
        simp only [ih _ _ hL hn]
        rfl

theorem linked_fsms_length (h : List (Option fsm)) (p : Nat) (L : List Nat)
    (hL : linked (fsm_next h) p L) : L.length < h.length + 1 := by
  have hn := linked_nodup _ L p hL
  have hb : ∀ a ∈ L, a ≠ 0 ∧ a ≤ h.length := by
    intro a ha
    obtain ⟨h0, hsome⟩ := linked_mem _ L p hL a ha
    cases hs : cell h a with
    | none => simp [fsm_next, hs] at hsome
    | some s => exact cell_bound hs
  have := length_le_of_nodup_bound L h.length hn hb
  omega

/-- The child list of a state is the chain from its `child_fsm`. -/
theorem kids_iff (w : World) (st : Nat) (S : state) (L : List Nat)
    (hS : w.state? st = some S) :
    w.kids st = .ok L ↔ linked (fsm_next w.fsms) S.child_fsm L := by
  simp only [World.kids, hS, ld, ok_bind, World.ffuel]
  constructor
  · exact fsm_chain_linked _ _ _ _
  · intro h
    exact linked_fsm_chain _ _ _ _ h (linked_fsms_length _ _ _ h)

theorem unregister_walk_found (h : List (Option state)) (x : Nat) (post : List Nat) :
    ∀ (n : Nat) (pre : List Nat) (link p : Nat),
      state_chain h n p = .ok (pre ++ x :: post) → x ∉ pre →
      unregister_walk h x n link p = .ok (some (pre.getLast?.getD link)) := by
  intro n
  induction n with
  | zero => intro pre link p hc; simp [state_chain] at hc
  | succ n ih =>
    intro pre link p hc hx
    unfold state_chain at hc
    unfold unregister_walk
    by_cases hp : p = 0
    · simp [hp] at hc
    · simp only [hp, if_false] at hc ⊢
      cases hs : cell h p with
      | none => simp [hs] at hc
      | some s =>
        simp only [hs] at hc ⊢
        obtain ⟨L1, hL1, hL⟩ := map_eq_ok.mp hc
        cases pre with
        | nil =>
          simp only [List.nil_append, List.cons.injEq] at hL
          simp [hL.1]
        | cons b pre =>
          simp only [List.cons_append, List.cons.injEq] at hL
          obtain ⟨hb, hL⟩ := hL
          subst hb hL
          simp only [List.mem_cons, not_or] at hx
          have hpx : ¬ p = x := fun e => hx.1 e.symm
          simp only [hpx, if_false]
          rw [ih pre p s.next hL1 hx.2]
          cases pre with
          | nil => rfl
          | cons c pre =>
            have hv : (c :: pre).getLast? = some ((c :: pre).getLast (by simp)) :=
              List.getLast?_eq_getLast _ _
            rw [List.getLast?_cons_cons, hv]
            rfl

theorem unregister_walk_absent (h : List (Option state)) (x : Nat) :
    ∀ (n : Nat) (L : List Nat) (link p : Nat),
      state_chain h n p = .ok L → x ∉ L → unregister_walk h x n link p = .ok none := by
  intro n
  induction n with
  | zero => intro L link p hc; simp [state_chain] at hc
  | succ n ih =>
    intro L link p hc hx
    unfold state_chain at hc
    unfold unregister_walk
    by_cases hp : p = 0
    · simp [hp]
    · simp only [hp, if_false] at hc ⊢
      cases hs : cell h p with
      | none => simp [hs] at hc
      | some s =>
        simp only [hs] at hc ⊢
        obtain ⟨L1, hL1, hL⟩ := map_eq_ok.mp hc
        subst hL
        simp only [List.mem_cons, not_or] at hx
        have hpx : ¬ p = x := fun e => hx.1 e.symm
        simp only [hpx, if_false]
        exact ih L1 p s.next hL1 hx.2

/-! ## Unregistering and deleting a state -/

theorem mem_split_last (pre : List Nat) (h : pre ≠ []) :
    ∃ b, pre.getLast? = some b ∧ b ∈ pre := by
  refine ⟨pre.getLast h, List.getLast?_eq_getLast _ _, List.getLast_mem _⟩

/-- What `fsm_state_unregister` does to a registered state `a` with record `S`: the state is
taken out of the chain (the link before it now holds `S.next`), its owning link, lock and
`next` are cleared, a pending request for it is dropped, and nothing else changes. -/
theorem fsm_state_unregister_found (f a : Nat) (w : World) (F : fsm) (S : state)
    (pre post : List Nat)
    (hF : cell w.fsms f = some F) (hv : F.valid) (hl : F.lock ∉ w.held)
    (hL : state_chain w.states (w.states.length + 1) F.state_list = .ok (pre ++ a :: post))
    (hS : cell w.states a = some S) (hSm : S.magic_number = STATE_MAGIC_NUMBER)
    (hSl : S.lock ≠ 0) (hSh : S.lock ∉ w.held) (hne : S.lock ≠ F.lock) :
    ∃ w1, fsm_state_unregister f a w = .ok (0, w1) ∧
      w1.held = w.held ∧ w1.queues = w.queues ∧ w1.mutexes = w.mutexes ∧ w1.now = w.now ∧
      w1.states.length = w.states.length ∧ w1.fsms.length = w.fsms.length ∧
      cell w1.states a = some { S with parent_fsm := 0, lock := 0, next := 0 } ∧
      (∀ b, b ≠ a → pre.getLast? ≠ some b → cell w1.states b = cell w.states b) ∧
      (∀ b, pre.getLast? = some b →
        cell w1.states b = (cell w.states b).map (fun s => { s with next := S.next })) ∧
      (∀ g, g ≠ f → cell w1.fsms g = cell w.fsms g) ∧
      cell w1.fsms f = some
        { F with state_list := if pre = [] then S.next else F.state_list,
                 sta_next := if F.sta_next = a then 0 else F.sta_next } := by
  obtain ⟨hm, hos, hlk, hq⟩ := hv
  have hnd := linked_nodup _ _ _ (state_chain_linked _ _ _ _ hL)
  have hapre : a ∉ pre := by
    intro hmem
    have := List.nodup_append.mp hnd
    exact this.2.2 hmem (List.mem_cons_self _ _)
  have hwalk := unregister_walk_found w.states a post _ pre 0 _ hL hapre
  have hall := state_chain_alloc w.states _ _ _ hL
  have h1 : S.lock ∉ F.lock :: w.held := by simp [hne, hSh]
  have herase : ((S.lock :: F.lock :: w.held).erase S.lock).erase F.lock = w.held := by simp
  by_cases hpre : pre = []
  · subst hpre
    simp only [List.getLast?_nil, Option.getD_none] at hwalk
    by_cases hn : F.sta_next = a
    · simp only [fsm_state_unregister, World.fsm?, World.state?, hF, ld, ok_bind, ASSERT, hm,
        hos, hlk, if_true, ne_eq, not_false_eq_true, mutex_lock, hl, if_false, World.sfuel,
        hwalk, hS, hSm, hSl, h1, World.setState, set_state_link, World.setFsm,
        cell_put_same _ hS, cell_put_same _ hF, pure_eq_ok, hn, mutex_destroy, mutex_unlock,
        herase, put_put]
      refine ⟨_, rfl, rfl, rfl, rfl, rfl, by simp, by simp, ?_, ?_, ?_, ?_, ?_⟩
      · exact cell_put_same _ hS
      · intro b hb _
        exact cell_put_ne _ _ (Ne.symm hb)
      · intro b hb
        simp at hb
      · intro g hg
        exact cell_put_ne _ _ (Ne.symm hg)
      · rw [cell_put_same _ hF]
        try simp [hn]
    · simp only [fsm_state_unregister, World.fsm?, World.state?, hF, ld, ok_bind, ASSERT, hm,
        hos, hlk, if_true, ne_eq, not_false_eq_true, mutex_lock, hl, if_false, World.sfuel,
        hwalk, hS, hSm, hSl, h1, World.setState, set_state_link, World.setFsm,
        cell_put_same _ hS, cell_put_same _ hF, pure_eq_ok, hn, mutex_destroy, mutex_unlock,
        herase, put_put]
      refine ⟨_, rfl, rfl, rfl, rfl, rfl, by simp, by simp, ?_, ?_, ?_, ?_, ?_⟩
      · exact cell_put_same _ hS
      · intro b hb _
        exact cell_put_ne _ _ (Ne.symm hb)
      · intro b hb
        simp at hb
      · intro g hg
        exact cell_put_ne _ _ (Ne.symm hg)
      · rw [cell_put_same _ hF]
        try simp [hn]
  · obtain ⟨b, hb, hbmem⟩ := mem_split_last pre hpre
    have hba : b ≠ a := fun e => hapre (e ▸ hbmem)
    obtain ⟨hb0, sb, hsb⟩ := hall b (List.mem_append_left _ hbmem)
    simp only [hb, Option.getD_some] at hwalk
    have hsb1 : ∀ v, cell (put w.states a v) b = some sb := by
      intro v
      rw [cell_put_ne _ _ (Ne.symm hba)]; exact hsb
    have hS1 : ∀ v u, cell (put (put w.states a v) b u) a = v := by
      intro v u
      rw [cell_put_ne _ _ hba]; exact cell_put_same _ hS
    by_cases hn : F.sta_next = a
    · simp only [fsm_state_unregister, World.fsm?, World.state?, hF, ld, ok_bind, ASSERT, hm,
        hos, hlk, if_true, ne_eq, not_false_eq_true, mutex_lock, hl, if_false, World.sfuel,
        hwalk, hS, hSm, hSl, h1, World.setState, set_state_link, World.setFsm, hb0, hsb1, hS1,
        pure_eq_ok, hn, mutex_destroy, mutex_unlock, herase]
      refine ⟨_, rfl, rfl, rfl, rfl, rfl, by simp, by simp, ?_, ?_, ?_, ?_, ?_⟩
      · exact cell_put_same _ (hS1 _ _)
      · intro c hc hcb
        have hcb1 : c ≠ b := fun e => hcb (e ▸ hb)
        rw [cell_put_ne _ _ (Ne.symm hc), cell_put_ne _ _ (Ne.symm hcb1),
          cell_put_ne _ _ (Ne.symm hc)]
      · intro c hc
        rw [hb] at hc
        cases hc
        rw [cell_put_ne _ _ (Ne.symm hba), cell_put_same _ (hsb1 _), hsb]
        rfl
      · intro g hg
        exact cell_put_ne _ _ (Ne.symm hg)
      · rw [cell_put_same _ hF]
        simp [hpre, hn]
    · simp only [fsm_state_unregister, World.fsm?, World.state?, hF, ld, ok_bind, ASSERT, hm,
        hos, hlk, if_true, ne_eq, not_false_eq_true, mutex_lock, hl, if_false, World.sfuel,
        hwalk, hS, hSm, hSl, h1, World.setState, set_state_link, World.setFsm, hb0, hsb1, hS1,
        pure_eq_ok, hn, mutex_destroy, mutex_unlock, herase]
      refine ⟨_, rfl, rfl, rfl, rfl, rfl, by simp, by simp, ?_, ?_, ?_, ?_, ?_⟩
      · exact cell_put_same _ (hS1 _ _)
      · intro c hc hcb
        have hcb1 : c ≠ b := fun e => hcb (e ▸ hb)
        rw [cell_put_ne _ _ (Ne.symm hc), cell_put_ne _ _ (Ne.symm hcb1),
          cell_put_ne _ _ (Ne.symm hc)]
      · intro c hc
        rw [hb] at hc
        cases hc
        rw [cell_put_ne _ _ (Ne.symm hba), cell_put_same _ (hsb1 _), hsb]
        rfl
      · intro g hg
        rfl
      · rw [hF]
        simp only [hpre, hn, if_false]
        cases F
        simp only [Option.some.injEq, fsm.mk.injEq, true_and, and_true] at hm ⊢
        exact hm

theorem getLast_not_mem_dropLast (pre : List Nat) (hn : pre.Nodup) (b : Nat)
    (hb : b ∈ pre.dropLast) : pre.getLast? ≠ some b := by
  intro h
  have hne : pre ≠ [] := by
    intro e
    subst e
    simp at hb
  have hsplit := List.dropLast_append_getLast hne
  rw [List.getLast?_eq_getLast _ hne] at h
  cases h
  rw [← hsplit] at hn
  have := List.nodup_append.mp hn
  exact this.2.2 hb (List.mem_singleton_self _)

/-- Unregistering the registered state `a` and then deleting it: the registry loses `a` and
keeps the other states in order, the cell of `a` is freed, and the records of the other states
are as before but for the `next` link of the state that was before `a`. -/
theorem unregister_then_delete (f a : Nat) (w : World) (F : fsm) (S : state)
    (pre post : List Nat)
    (hF : cell w.fsms f = some F) (hv : F.valid) (hl : F.lock ∉ w.held)
    (hL : state_chain w.states (w.states.length + 1) F.state_list = .ok (pre ++ a :: post))
    (hS : cell w.states a = some S) (hSm : S.magic_number = STATE_MAGIC_NUMBER)
    (hSl : S.lock ≠ 0) (hSh : S.lock ∉ w.held) (hne : S.lock ≠ F.lock) :
    ∃ w1, (do let (_, w) ← fsm_state_unregister f a w; state_del a w) = .ok (0, w1) ∧
      w1.held = w.held ∧ w1.queues = w.queues ∧
      cell w1.fsms f = some
        { F with state_list := if pre = [] then S.next else F.state_list,
                 sta_next := if F.sta_next = a then 0 else F.sta_next } ∧
      (∀ g, g ≠ f → cell w1.fsms g = cell w.fsms g) ∧
      cell w1.states a = none ∧
      (∀ b, b ≠ a → pre.getLast? ≠ some b → cell w1.states b = cell w.states b) ∧
      (∀ b, pre.getLast? = some b →
        cell w1.states b = (cell w.states b).map (fun s => { s with next := S.next })) ∧
      state_chain w1.states (w1.states.length + 1)
        (if pre = [] then S.next else F.state_list) = .ok (pre ++ post) := by
  obtain ⟨w1, hun, hheld, hqs, -, -, hlen, -, hSa, hother, hlast, hfo, hff⟩ :=
    fsm_state_unregister_found f a w F S pre post hF hv hl hL hS hSm hSl hSh hne
  have hlk := state_chain_linked _ _ _ _ hL
  have hnd := linked_nodup _ _ _ hlk
  have hall := state_chain_alloc w.states _ _ _ hL
  obtain ⟨hnd1, hnd2, hdis⟩ := List.nodup_append.mp hnd
  have hapre : a ∉ pre := fun hmem => hdis hmem (List.mem_cons_self _ _)
  have hapost : a ∉ post := (List.nodup_cons.mp hnd2).1
  have hfree : ∀ b, b ≠ a → cell (put w1.states a none) b = cell w1.states b :=
    fun b hb => cell_put_ne _ _ (Ne.symm hb)
  have hnx : ∀ b, b ≠ a → pre.getLast? ≠ some b →
      state_next (put w1.states a none) b = state_next w.states b := by
    intro b hb hbl
    simp only [state_next, hfree b hb, hother b hb hbl]
  refine ⟨free_state a w1, ?_, hheld, hqs, hff, hfo, ?_, ?_, ?_, ?_⟩
  · simp only [hun, ok_bind, state_del, World.state?, hSa, ld, ne_eq, not_true_eq_false,
      if_false, pure_eq_ok]
  · exact cell_put_same _ hSa
  · intro b hb hbl
    simp only [free_state]
    rw [hfree b hb, hother b hb hbl]
  · intro b hb
    have hbmem : b ∈ pre := List.mem_of_mem_getLast? hb
    have hba : b ≠ a := fun e => hapre (e ▸ hbmem)
    simp only [free_state]
    rw [hfree b hba, hlast b hb]
  · obtain ⟨q, hq, hrem⟩ := linked_remove (state_next w.states)
      (state_next (put w1.states a none)) a post pre F.state_list hlk
      (fun b hb => hnx b (fun e => hapre (e ▸ List.mem_of_mem_dropLast hb))
        (getLast_not_mem_dropLast pre hnd1 b hb))
      (fun b hb => hnx b (fun e => hapost (e ▸ hb)) (fun e =>
        hdis (List.mem_of_mem_getLast? e) (List.mem_cons_of_mem _ hb)))
      (fun b hb => by
        have hbmem : b ∈ pre := List.mem_of_mem_getLast? hb
        have hba : b ≠ a := fun e => hapre (e ▸ hbmem)
        obtain ⟨-, sb, hsb⟩ := hall b (List.mem_append_left _ hbmem)
        simp only [state_next, hfree b hba, hlast b hb, hsb, hS, Option.map_some'])
    simp only [state_next, hS, Option.map_some', Option.some.injEq] at hq
    subst hq
    simp only [free_state]
    exact linked_state_chain _ _ _ _ hrem (linked_states_length _ _ _ hrem)

theorem deleted_of_unregister (f a : Nat) (w : World) (F : fsm) (S : state)
    (pre post : List Nat)
    (hF : cell w.fsms f = some F) (hv : F.valid) (hl : F.lock ∉ w.held)
    (hL : state_chain w.states (w.states.length + 1) F.state_list = .ok (pre ++ a :: post))
    (hS : cell w.states a = some S) (hSm : S.magic_number = STATE_MAGIC_NUMBER)
    (hSl : S.lock ≠ 0) (hSh : S.lock ∉ w.held) (hne : S.lock ≠ F.lock) :
    ∃ w1, (do let (_, w) ← fsm_state_unregister f a w; state_del a w) = .ok (0, w1) ∧
      w.deleted w1 f F pre a post := by
  obtain ⟨w1, hrun, hheld, hqs, hff, hfo, hfree, hother, hlast, hreg⟩ :=
    unregister_then_delete f a w F S pre post hF hv hl hL hS hSm hSl hSh hne
  have hlk := state_chain_linked _ _ _ _ hL
  have hnd := linked_nodup _ _ _ hlk
  have hall := state_chain_alloc w.states _ _ _ hL
  obtain ⟨hnd1, hnd2, hdis⟩ := List.nodup_append.mp hnd
  have hapre : a ∉ pre := fun hmem => hdis hmem (List.mem_cons_self _ _)
  have hapost : a ∉ post := (List.nodup_cons.mp hnd2).1
  refine ⟨w1, hrun, _, hff, hreg, hfree, rfl, rfl, rfl, rfl, rfl, rfl, rfl, ?_, hfo, hqs,
    hheld⟩
  intro b hb
  have hbL : b ∈ pre ++ a :: post := by
    rcases List.mem_append.mp hb with h | h
    · exact List.mem_append_left _ h
    · exact List.mem_append_right _ (List.mem_cons_of_mem _ h)
  have hba : b ≠ a := by
    rcases List.mem_append.mp hb with h | h
    · exact fun e => hapre (e ▸ h)
    · exact fun e => hapost (e ▸ h)
  obtain ⟨-, t, ht⟩ := hall b hbL
  by_cases hbl : pre.getLast? = some b
  · exact ⟨t, { t with next := S.next }, ht, by
      simp only [World.state?]
      rw [hlast b hbl, ht]; rfl, rfl⟩
  · exact ⟨t, t, ht, by
      simp only [World.state?]
      rw [hother b hba hbl, ht], rfl⟩

/-- C13 (State deletion): for every valid FSM (lock free, state list well formed, with the
registry `L`): `fsm_state_del(fsm, id)` returns `-1` and leaves the world as it is when no
registered state has that id, and `fsm_state_del_by_name(fsm, name)` does when none has that
name; otherwise (the state found being valid, with a lock of its own that is free) each returns
`0` and deletes the first state in list order that has the id, or the name: exactly this
state leaves the registry, the remaining states keep their relative order and their records,
the previous and the current state of the FSM are unchanged; and when no other registered
state has the id, `fsm_get_state(fsm, id)` afterwards reports not found. -/
theorem C13_state_deletion (f : Nat) (w : World) (F : fsm) (L : List Nat)
    (hF : w.fsm? f = some F) (hv : F.valid) (hl : F.lock ∉ w.held)
    (hL : w.registry F = .ok L) :
    (∀ id, (∀ b ∈ L, ∀ t, w.state? b = some t → t.id ≠ id) →
      fsm_state_del f id w = .ok (-1, w)) ∧
    (∀ name, (∀ b ∈ L, ∀ t, w.state? b = some t → t.name ≠ name) →
      fsm_state_del_by_name f name w = .ok (-1, w)) ∧
    (∀ id pre a post S, L = pre ++ a :: post → w.state? a = some S → S.id = id →
      (∀ b ∈ pre, ∀ t, w.state? b = some t → t.id ≠ id) →
      S.magic_number = STATE_MAGIC_NUMBER → S.lock ≠ 0 → S.lock ∉ w.held → S.lock ≠ F.lock →
      ∃ w1, fsm_state_del f id w = .ok (0, w1) ∧ w.deleted w1 f F pre a post ∧
        ((∀ b ∈ post, ∀ t, w.state? b = some t → t.id ≠ id) →
          fsm_get_state f id w1 = .ok (0, w1))) ∧
    (∀ name pre a post S, L = pre ++ a :: post → w.state? a = some S → S.name = name →
      (∀ b ∈ pre, ∀ t, w.state? b = some t → t.name ≠ name) →
      S.magic_number = STATE_MAGIC_NUMBER → S.lock ≠ 0 → S.lock ∉ w.held → S.lock ≠ F.lock →
      ∃ w1, fsm_state_del_by_name f name w = .ok (0, w1) ∧ w.deleted w1 f F pre a post) := by
  have hm := hv.1
  simp only [World.state?]
  refine ⟨?_, ?_, ?_, ?_⟩
  · intro id hno
    rw [fsm_state_del, fsm_get_state_eq f id w F L hF hm hl hL,
      first_hit_none w.states _ L (fun b hb t ht => by simpa using hno b hb t ht)]
    rfl
  · intro name hno
    rw [fsm_state_del_by_name, fsm_get_state_by_name_eq f name w F L hF hm hl hL,
      first_hit_none w.states _ L (fun b hb t ht => by
        simp only [decide_eq_false_iff_not]
        exact fun e => hno b hb t ht e.symm)]
    rfl
  · intro id pre a post S hsplit hS hid hpre hSm hSl hSh hne
    subst hsplit
    have ha0 : a ≠ 0 := by
      intro h; rw [h] at hS; simp at hS
    obtain ⟨w1, hrun, hdel⟩ := deleted_of_unregister f a w F S pre post
      (by simpa using hF) hv hl (by simpa [World.registry] using hL) hS hSm hSl hSh hne
    refine ⟨w1, ?_, hdel, ?_⟩
    · rw [fsm_state_del, fsm_get_state_eq f id w F _ hF hm hl hL,
        first_hit_decomp w.states _ pre post a S hS (by simp [hid])
          (fun b hb t ht => by simpa using hpre b hb t ht)]
      simp only [ok_bind, ha0, if_false]
      exact hrun
    · intro hpost
      obtain ⟨F1, hF1, hreg, -, -, -, -, hm1, hl1, -, -, hrec, -, -, hheld⟩ := hdel
      rw [fsm_get_state_eq f id w1 F1 _ hF1 (by rw [hm1]; exact hm)
        (by rw [hl1, hheld]; exact hl) hreg,
        first_hit_none w1.states _ _ (fun b hb t1 ht1 => by
          obtain ⟨t, t1', ht, ht1', heq⟩ := hrec b hb
          simp only [World.state?] at ht ht1'
          rw [ht1] at ht1'
          cases ht1'
          have hid1 : t1.id = t.id := (state.mk.inj heq).2.1
          simp only [decide_eq_false_iff_not, hid1]
          rcases List.mem_append.mp hb with h | h
          · exact hpre b h t ht
          · exact hpost b h t ht)]
  · intro name pre a post S hsplit hS hname hpre hSm hSl hSh hne
    subst hsplit
    have ha0 : a ≠ 0 := by
      intro h; rw [h] at hS; simp at hS
    obtain ⟨w1, hrun, hdel⟩ := deleted_of_unregister f a w F S pre post
      (by simpa using hF) hv hl (by simpa [World.registry] using hL) hS hSm hSl hSh hne
    refine ⟨w1, ?_, hdel⟩
    rw [fsm_state_del_by_name, fsm_get_state_by_name_eq f name w F _ hF hm hl hL,
      first_hit_decomp w.states _ pre post a S hS (by simp [hname])
        (fun b hb t ht => by
          simp only [decide_eq_false_iff_not]
          exact fun e => hpre b hb t ht e.symm)]
    simp only [ok_bind, ha0, if_false]
    exact hrun

/-- A property of the records at the addresses `L`, checked by evaluation. -/
theorem all_cells {α : Type} (h : List (Option α)) (L : List Nat) (P : α → Prop)
    [DecidablePred P]
    (hd : (L.all fun b => match cell h b with
      | some t => decide (P t)
      | none => true) = true) :
    ∀ b ∈ L, ∀ t, cell h b = some t → P t := by
  intro b hb t ht
  have := List.all_eq_true.mp hd b hb
  simpa [ht] using this

/-- C13, on the FSM of the reference test before its first poll (`S1` is the pending
target): an id that no state has; the id of `S2`, registered second; and the name of `S1`,
registered first. -/
theorem C13_state_deletion_witness :
    fsm_state_del 1 15247204 w_two = .ok (-1, w_two) ∧
    (∃ w1, fsm_state_del 1 2 w_two = .ok (0, w1) ∧
      w_two.deleted w1 1
        { magic_number := FSM_MAGIC_NUMBER, lock := 2, name := "Test FSM", poll_interval := 10,
          event_queue := 1, parent_state := 0, state_list := 2, sta_prev := 1, sta_curr := 1,
          sta_next := 2, next := 0, os := 1 } [2] 3 [] ∧
      fsm_get_state 1 2 w1 = .ok (0, w1)) ∧
    (∃ w1, fsm_state_del_by_name 1 "Test state 1" w_two = .ok (0, w1) ∧
      w_two.deleted w1 1
        { magic_number := FSM_MAGIC_NUMBER, lock := 2, name := "Test FSM", poll_interval := 10,
          event_queue := 1, parent_state := 0, state_list := 2, sta_prev := 1, sta_curr := 1,
          sta_next := 2, next := 0, os := 1 } [] 2 [3]) := by
  obtain ⟨h1, -, h3, h4⟩ := C13_state_deletion 1 w_two _ [2, 3] rfl (by decide) (by decide) rfl
  refine ⟨h1 _ (all_cells _ _ _ (by decide)), ?_, ?_⟩
  · obtain ⟨w1, hrun, hdel, hget⟩ := h3 2 [2] 3 [] _ rfl rfl rfl (all_cells _ _ _ (by decide))
      rfl (by decide) (by decide) (by decide)
    exact ⟨w1, hrun, hdel, hget (all_cells _ _ _ (by decide))⟩
  · exact h4 "Test state 1" [] 2 [3] _ rfl rfl rfl (all_cells _ _ _ (by decide))
      rfl (by decide) (by decide) (by decide)

/-! ## Registering and adding a state -/

theorem find_hit_none (h : List (Option state)) (hit : Nat → state → Bool) (L : List Nat)
    (hL : ∀ b ∈ L, ∀ t, cell h b = some t → hit b t = false) :
    (L.find? (hit_at h hit)).isSome = false := by
  rw [Bool.eq_false_iff]
  intro hsome
  rw [List.find?_isSome] at hsome
  obtain ⟨b, hb, hhit⟩ := hsome
  unfold hit_at at hhit
  cases hc : cell h b with
  | none => simp [hc] at hhit
  | some t =>
    simp only [hc] at hhit
    rw [hL b hb t hc] at hhit
    exact Bool.false_ne_true hhit

theorem chain_head_zero (h : List (Option state)) (n p : Nat) (L : List Nat)
    (hL : state_chain h n p = .ok L) : p = 0 ↔ L = [] := by
  have hlk := state_chain_linked h n p L hL
  cases L with
  | nil => exact ⟨fun _ => rfl, fun _ => hlk⟩
  | cons a L => exact ⟨fun hp => absurd hp hlk.1, fun e => by cases e⟩

/-- What `fsm_state_register` does with a detached valid state `st` whose id no registered
state has: the state goes to the tail of the chain, gets a new lock, the FSM as its owner and
the default interval of the FSM, becomes the pending target when it is the first state, and
nothing else changes. -/
theorem fsm_state_register_fresh (f st : Nat) (w : World) (F : fsm) (S : state) (L : List Nat)
    (hF : cell w.fsms f = some F) (hv : F.valid) (hl : F.lock ∉ w.held)
    (hS : cell w.states st = some S) (hSm : S.magic_number = STATE_MAGIC_NUMBER)
    (hSp : S.parent_fsm = 0) (hSl : S.lock = 0)
    (hL : state_chain w.states (w.states.length + 1) F.state_list = .ok L)
    (hst : st ∉ L) (hno : ∀ b ∈ L, ∀ t, cell w.states b = some t → t.id ≠ S.id)
    (hm1 : F.lock ≠ w.mutexes + 1) (hm2 : w.mutexes + 1 ∉ w.held) :
    ∃ w1, fsm_state_register f st w = .ok (0, w1) ∧
      w1.held = w.held ∧ w1.queues = w.queues ∧ w1.mutexes = w.mutexes + 1 ∧
      w1.states.length = w.states.length ∧
      cell w1.states st = some
        { S with lock := w.mutexes + 1, parent_fsm := f, poll_interval := F.poll_interval,
                 poll_interval_next := F.poll_interval, next := 0 } ∧
      (∀ b, b ≠ st → L.getLast? ≠ some b → cell w1.states b = cell w.states b) ∧
      (∀ b, L.getLast? = some b →
        cell w1.states b = (cell w.states b).map (fun s => { s with next := st })) ∧
      (∀ g, g ≠ f → cell w1.fsms g = cell w.fsms g) ∧
      cell w1.fsms f = some
        { F with state_list := if L = [] then st else F.state_list,
                 sta_next := if L = [] then st else F.sta_next } := by
  obtain ⟨hm, hos, hlk, hq⟩ := hv
  have hw := register_walk_of_chain _ S.id _ 0 _ _ hL
  rw [find_hit_none w.states (fun _ s => s.id = S.id) L
    (fun b hb t ht => by simpa using hno b hb t ht)] at hw
  simp only [Bool.false_eq_true, if_false] at hw
  have hall := state_chain_alloc w.states _ _ _ hL
  have hhead := chain_head_zero _ _ _ _ hL
  have h1 : w.mutexes + 1 ∉ F.lock :: w.held := by
    simp only [List.mem_cons, not_or]
    exact ⟨fun e => hm1 e.symm, hm2⟩
  have herase : (((w.mutexes + 1) :: F.lock :: w.held).erase (w.mutexes + 1)) =
      F.lock :: w.held := by simp
  by_cases hnil : L = []
  · have hz : F.state_list = 0 := hhead.mpr hnil
    subst hnil
    simp only [List.getLast?_nil, Option.getD_none] at hw
    rw [hz] at hw
    simp only [fsm_state_register, World.fsm?, World.state?, hF, hS, ld, ok_bind, ASSERT, hm,
      hSm, hos, hlk, hSp, hSl, if_true, ne_eq, not_false_eq_true, mutex_lock, hl, if_false,
      World.sfuel, hw, pure_eq_ok, mutex_create, Nat.add_one_ne_zero, h1, World.setState,
      mutex_unlock, herase, set_state_link, World.setFsm, hz, decide_True,
      cell_put_same _ hF, put_put, List.erase_cons_head]
    refine ⟨_, rfl, rfl, rfl, rfl, by simp, ?_, ?_, ?_, ?_, ?_⟩
    · exact cell_put_same _ hS
    · intro b hb _
      exact cell_put_ne _ _ (Ne.symm hb)
    · intro b hb
      simp at hb
    · intro g hg
      exact cell_put_ne _ _ (Ne.symm hg)
    · rw [cell_put_same _ hF]
  · have hz : F.state_list ≠ 0 := fun e => hnil (hhead.mp e)
    obtain ⟨b, hb, hbmem⟩ := mem_split_last L hnil
    have hbst : b ≠ st := fun e => hst (e ▸ hbmem)
    obtain ⟨hb0, sb, hsb⟩ := hall b hbmem
    simp only [hb, Option.getD_some] at hw
    have hsb1 : ∀ v, cell (put w.states st v) b = some sb := by
      intro v
      rw [cell_put_ne _ _ (Ne.symm hbst)]; exact hsb
    simp only [fsm_state_register, World.fsm?, World.state?, hF, hS, ld, ok_bind, ASSERT, hm,
      hSm, hos, hlk, hSp, hSl, if_true, ne_eq, not_false_eq_true, mutex_lock, hl, if_false,
      World.sfuel, hw, pure_eq_ok, mutex_create, Nat.add_one_ne_zero, h1, World.setState,
      mutex_unlock, herase, set_state_link, World.setFsm, hz, decide_False, hb0, hsb1,
      List.erase_cons_head, Bool.false_eq_true]
    refine ⟨_, rfl, rfl, rfl, rfl, by simp, ?_, ?_, ?_, ?_, ?_⟩
    · rw [cell_put_ne _ _ hbst]
      exact cell_put_same _ hS
    · intro c hc hcb
      have hcb1 : c ≠ b := fun e => hcb (e ▸ hb)
      rw [cell_put_ne _ _ (Ne.symm hcb1), cell_put_ne _ _ (Ne.symm hc)]
    · intro c hc
      rw [hb] at hc
      cases hc
      rw [cell_put_same _ (hsb1 _), hsb]
      rfl
    · intro g hg
      rfl
    · rw [hF]
      simp only [hnil, if_false]
      cases F
      simp only [Option.some.injEq, fsm.mk.injEq, true_and, and_true] at hm ⊢
      exact hm

/-- The chain after a registration: the new state is behind the states that were there. -/
theorem registered_chain (st : Nat) (h h1 : List (Option state)) (p : Nat) (L : List Nat)
    (S1 : state) (hL : state_chain h (h.length + 1) p = .ok L) (hst : st ∉ L)
    (hS1 : cell h1 st = some S1) (hnext : S1.next = 0)
    (hother : ∀ b, b ≠ st → L.getLast? ≠ some b → cell h1 b = cell h b)
    (hlast : ∀ b, L.getLast? = some b →
      cell h1 b = (cell h b).map (fun s => { s with next := st })) :
    state_chain h1 (h1.length + 1) (if L = [] then st else p) = .ok (L ++ [st]) := by
  have hlk := state_chain_linked _ _ _ _ hL
  have hnd := linked_nodup _ _ _ hlk
  have hall := state_chain_alloc h _ _ _ hL
  have hsnoc := linked_snoc (state_next h) (state_next h1) st (cell_bound hS1).1
    (by simp [state_next, hS1, hnext]) L p hlk hst
    (fun b hb => by
      have hbst : b ≠ st := fun e => hst (e ▸ List.mem_of_mem_dropLast hb)
      simp only [state_next, hother b hbst (getLast_not_mem_dropLast L hnd b hb)])
    (fun b hb => by
      obtain ⟨-, sb, hsb⟩ := hall b (List.mem_of_mem_getLast? hb)
      simp only [state_next, hlast b hb, hsb, Option.map_some'])
  exact linked_state_chain _ _ _ _ hsnoc (linked_states_length _ _ _ hsnoc)

/-- What a successful `fsm_state_add` does: one new state, at a new address, goes to the tail
of the registry. -/
theorem add_fresh_id (f : Nat) (name : Option String) (id handler : Nat) (w : World)
    (F : fsm) (L : List Nat)
    (hF : cell w.fsms f = some F) (hv : F.valid) (hl : F.lock ∉ w.held)
    (hL : state_chain w.states (w.states.length + 1) F.state_list = .ok L)
    (hno : ∀ b ∈ L, ∀ t, cell w.states b = some t → t.id ≠ id)
    (hm1 : F.lock ≠ w.mutexes + 1) (hm2 : w.mutexes + 1 ∉ w.held) :
    ∃ w1, fsm_state_add f name id handler w = .ok (0, w1) ∧
      w1.held = w.held ∧ w1.queues = w.queues ∧ w1.mutexes = w.mutexes + 1 ∧
      w1.states.length = w.states.length + 1 ∧
      cell w1.states (w.states.length + 1) = some
        { state_new_record name id handler with
            lock := w.mutexes + 1, parent_fsm := f, poll_interval := F.poll_interval,
            poll_interval_next := F.poll_interval, next := 0 } ∧
      (∀ b, b ≠ w.states.length + 1 → L.getLast? ≠ some b →
        cell w1.states b = cell w.states b) ∧
      (∀ b, L.getLast? = some b →
        cell w1.states b =
          (cell w.states b).map (fun s => { s with next := w.states.length + 1 })) ∧
      (∀ g, g ≠ f → cell w1.fsms g = cell w.fsms g) ∧
      cell w1.fsms f = some
        { F with state_list := if L = [] then w.states.length + 1 else F.state_list,
                 sta_next := if L = [] then w.states.length + 1 else F.sta_next } ∧
      state_chain w1.states (w1.states.length + 1)
        (if L = [] then w.states.length + 1 else F.state_list) =
          .ok (L ++ [w.states.length + 1]) := by
  have hall := state_chain_alloc w.states _ _ _ hL
  have hle : ∀ b ∈ L, b ≤ w.states.length := fun b hb => by
    obtain ⟨-, t, ht⟩ := hall b hb
    exact (cell_bound ht).2
  have hold : ∀ b, b ≠ w.states.length + 1 →
      cell (w.states ++ [some (state_new_record name id handler)]) b = cell w.states b := by
    intro b hb
    by_cases hble : b ≤ w.states.length
    · exact cell_append_old _ _ hble
    · have h1 : cell w.states b = none := by
        cases hc : cell w.states b with
        | none => rfl
        | some v => exact absurd (cell_bound hc).2 hble
      rw [h1]
      cases hc : cell (w.states ++ [some (state_new_record name id handler)]) b with
      | none => rfl
      | some v =>
        have := (cell_bound hc).2
        simp only [List.length_append, List.length_singleton] at this
        omega
  have hst : w.states.length + 1 ∉ L := fun hmem => by
    have := hle _ hmem
    omega
  have hc := state_chain_append w.states (some (state_new_record name id handler)) _ _ _
    (state_chain_mono _ _ _ _ hL)
  obtain ⟨w1, hrun, hheld, hqs, hmx, hlen, hnew, hother, hlast, hfo, hff⟩ :=
    fsm_state_register_fresh f (w.states.length + 1)
      { w with states := w.states ++ [some (state_new_record name id handler)] } F
      (state_new_record name id handler) L hF hv hl (cell_append_new _ _) rfl rfl rfl
      (by simpa using hc) hst
      (fun b hb t ht => by
        have hb1 : b ≠ w.states.length + 1 := fun e => hst (e ▸ hb)
        simp only [hold b hb1] at ht
        exact hno b hb t ht)
      hm1 hm2
  have hchain := registered_chain (w.states.length + 1)
    (w.states ++ [some (state_new_record name id handler)]) w1.states F.state_list L _
    (by simpa using hc) hst hnew rfl hother hlast
  refine ⟨w1, ?_, hheld, hqs, hmx, by simpa using hlen, hnew, ?_, ?_, hfo, hff, hchain⟩
  · unfold fsm_state_add state_new
    simp only [hrun, ok_bind]
    rfl
  · intro b hb hbl
    rw [hother b hb hbl]
    exact hold b hb
  · intro b hb
    have hb1 : b ≠ w.states.length + 1 := fun e => hst (e ▸ List.mem_of_mem_getLast? hb)
    rw [hlast b hb]
    simp only [hold b hb1]

/-- C14 (Successful add): for every valid FSM (lock free, state list well formed, with the
registry `L`; the lock handles in use were made by `mutex_create`) and every id that no
registered state has, `fsm_state_add(fsm, name, id, handler)` returns `0` and puts exactly
one new state, at a new address, at the tail of the registry, with that id, name (`"No name"`
when the name passed is `NULL`) and handler, with `poll_interval` and `poll_interval_next`
both equal to the default interval the FSM has at the call, and with the FSM as its owner;
every state registered before keeps its position and its record, the previous and the
current state of the FSM are unchanged, and `fsm_get_state(fsm, id)` afterwards returns the
new state. -/
theorem C14_successful_add (f : Nat) (name : Option String) (id handler : Nat) (w : World)
    (F : fsm) (L : List Nat)
    (hF : w.fsm? f = some F) (hv : F.valid) (hl : F.lock ∉ w.held)
    (hL : w.registry F = .ok L)
    (hno : ∀ b ∈ L, ∀ t, w.state? b = some t → t.id ≠ id)
    (hm1 : F.lock ≤ w.mutexes) (hm2 : ∀ m ∈ w.held, m ≤ w.mutexes) :
    ∃ w1 F1 S1, fsm_state_add f name id handler w = .ok (0, w1) ∧
      w1.fsm? f = some F1 ∧ w1.registry F1 = .ok (L ++ [w.states.length + 1]) ∧
      w.state? (w.states.length + 1) = none ∧ w1.state? (w.states.length + 1) = some S1 ∧
      S1.magic_number = STATE_MAGIC_NUMBER ∧ S1.id = id ∧ S1.name = name.getD "No name" ∧
      S1.handler = handler ∧ S1.poll_interval = F.poll_interval ∧
      S1.poll_interval_next = F.poll_interval ∧ S1.parent_fsm = f ∧
      (∀ b ∈ L, ∃ t t1, w.state? b = some t ∧ w1.state? b = some t1 ∧
        { t1 with next := 0 } = { t with next := 0 }) ∧
      F1.sta_prev = F.sta_prev ∧ F1.sta_curr = F.sta_curr ∧
      F1.poll_interval = F.poll_interval ∧
      (∀ g, g ≠ f → w1.fsm? g = w.fsm? g) ∧ w1.queues = w.queues ∧
      fsm_get_state f id w1 = .ok (w.states.length + 1, w1) := by
  simp only [World.fsm?, World.state?, World.registry, World.sfuel] at hF hL hno ⊢
  have hm1' : F.lock ≠ w.mutexes + 1 := by omega
  have hm2' : w.mutexes + 1 ∉ w.held := fun hmem => by
    have := hm2 _ hmem
    omega
  obtain ⟨w1, hrun, hheld, hqs, -, hlen, hnew, hother, hlast, hfo, hff, hchain⟩ :=
    add_fresh_id f name id handler w F L hF hv hl hL hno hm1' hm2'
  have hall := state_chain_alloc w.states _ _ _ hL
  have hst : w.states.length + 1 ∉ L := fun hmem => by
    obtain ⟨-, t, ht⟩ := hall _ hmem
    have := (cell_bound ht).2
    omega
  have hrec : ∀ b ∈ L, ∃ t t1, cell w.states b = some t ∧ cell w1.states b = some t1 ∧
      { t1 with next := 0 } = { t with next := 0 } := by
    intro b hb
    have hb1 : b ≠ w.states.length + 1 := fun e => hst (e ▸ hb)
    obtain ⟨-, t, ht⟩ := hall b hb
    by_cases hbl : L.getLast? = some b
    · exact ⟨t, { t with next := w.states.length + 1 }, ht, by rw [hlast b hbl, ht]; rfl, rfl⟩
    · exact ⟨t, t, ht, by rw [hother b hb1 hbl, ht], rfl⟩
  have hnone : cell w.states (w.states.length + 1) = none := by
    cases hc : cell w.states (w.states.length + 1) with
    | none => rfl
    | some v =>
      have := (cell_bound hc).2
      omega
  refine ⟨w1, _, _, hrun, hff, hchain, hnone, hnew, rfl, rfl, rfl, rfl, rfl, rfl, rfl, hrec,
    rfl, rfl, rfl, hfo, hqs, ?_⟩
  rw [fsm_get_state_eq f id w1 _ _ hff hv.1 (by rw [hheld]; exact hl) hchain,
    first_hit_decomp w1.states _ L [] _ _ hnew (by simp [state_new_record])
      (fun b hb t1 ht1 => by
        obtain ⟨t, t1', ht, ht1', heq⟩ := hrec b hb
        rw [ht1] at ht1'
        cases ht1'
        have hid1 : t1.id = t.id := (state.mk.inj heq).2.1
        simp only [decide_eq_false_iff_not, hid1]
        exact hno b hb t ht)]

/-- C14, on the FSM of the reference test: a third state, with id 7 and no name, is added
behind `S1` and `S2`, at the new address 4, with the default interval 10 of the FSM. -/
theorem C14_successful_add_witness :
    ∃ w1 F1, fsm_state_add 1 none 7 3 w_two = .ok (0, w1) ∧
      w1.fsm? 1 = some F1 ∧ w1.registry F1 = .ok [2, 3, 4] ∧
      w1.state? 4 = some
        { magic_number := STATE_MAGIC_NUMBER, id := 7, name := "No name", handler := 3,
          ts_poll := 0, poll_interval := 10, poll_interval_next := 10, lock := 5,
          parent_fsm := 1, child_fsm := 0, next := 0 } ∧
      fsm_get_state 1 7 w1 = .ok (4, w1) := by
  obtain ⟨w1, F1, S1, hrun, hF1, hreg, -, hS1, -, -, -, -, -, -, -, -, -, -, -, -, -, hget⟩ :=
    C14_successful_add 1 none 7 3 w_two _ [2, 3] rfl (by decide) (by decide) rfl
      (all_cells _ _ _ (by decide)) (by decide) (by decide)
  have hv := map_eq_ok.mp (show (fsm_state_add 1 none 7 3 w_two).map
    (fun r => r.2.state? 4) = .ok (some
      { magic_number := STATE_MAGIC_NUMBER, id := 7, name := "No name", handler := 3,
        ts_poll := 0, poll_interval := 10, poll_interval_next := 10, lock := 5,
        parent_fsm := 1, child_fsm := 0, next := 0 }) from by decide)
  obtain ⟨r, hr, hrec⟩ := hv
  rw [hrun] at hr
  cases hr
  exact ⟨w1, F1, hrun, hF1, hreg, hrec, hget⟩

/-! ## Attaching and detaching a child FSM -/

theorem child_tail_of_chain (h : List (Option fsm)) :
    ∀ (n link p : Nat) (L : List Nat), fsm_chain h n p = .ok L →
      child_tail h n link p = .ok (L.getLast?.getD link) := by
  intro n
  induction n with
  | zero => intro link p L hc; simp [fsm_chain] at hc
  | succ n ih =>
    intro link p L hc
    unfold fsm_chain at hc
    unfold child_tail
    by_cases hp : p = 0
    · simp [hp] at hc
      subst hc
      simp [hp]
    · simp only [hp, if_false] at hc ⊢
      cases hs : cell h p with
      | none => simp [hs] at hc
      | some s =>
        simp only [hs] at hc ⊢
        obtain ⟨L1, hL1, hL⟩ := map_eq_ok.mp hc
        subst hL
        rw [ih p s.next L1 hL1]
        cases L1 with
        | nil => rfl
        | cons c L1 =>
          have hv : (c :: L1).getLast? = some ((c :: L1).getLast (by simp)) :=
            List.getLast?_eq_getLast _ _
          rw [List.getLast?_cons_cons, hv]
          rfl

theorem child_walk_found (h : List (Option fsm)) (x : Nat) (post : List Nat) :
    ∀ (n : Nat) (pre : List Nat) (link p : Nat),
      fsm_chain h n p = .ok (pre ++ x :: post) → x ∉ pre →
      child_walk h x n link p = .ok (some (pre.getLast?.getD link)) := by
  intro n
  induction n with
  | zero => intro pre link p hc; simp [fsm_chain] at hc
  | succ n ih =>
    intro pre link p hc hx
    unfold fsm_chain at hc
    unfold child_walk
    by_cases hp : p = 0
    · simp [hp] at hc
    · simp only [hp, if_false] at hc ⊢
      cases hs : cell h p with
      | none => simp [hs] at hc
      | some s =>
        simp only [hs] at hc ⊢
        obtain ⟨L1, hL1, hL⟩ := map_eq_ok.mp hc
        cases pre with
        | nil =>
          simp only [List.nil_append, List.cons.injEq] at hL
          simp [hL.1]
        | cons b pre =>
          simp only [List.cons_append, List.cons.injEq] at hL
          obtain ⟨hb, hL⟩ := hL
          subst hb hL
          simp only [List.mem_cons, not_or] at hx
          have hpx : ¬ p = x := fun e => hx.1 e.symm
          simp only [hpx, if_false]
          rw [ih pre p s.next hL1 hx.2]
          cases pre with
          | nil => rfl
          | cons c pre =>
            have hv : (c :: pre).getLast? = some ((c :: pre).getLast (by simp)) :=
              List.getLast?_eq_getLast _ _
            rw [List.getLast?_cons_cons, hv]
            rfl

theorem child_walk_absent (h : List (Option fsm)) (x : Nat) :
    ∀ (n : Nat) (L : List Nat) (link p : Nat),
      fsm_chain h n p = .ok L → x ∉ L → child_walk h x n link p = .ok none := by
  intro n
  induction n with
  | zero => intro L link p hc; simp [fsm_chain] at hc
  | succ n ih =>
    intro L link p hc hx
    unfold fsm_chain at hc
    unfold child_walk
    by_cases hp : p = 0
    · simp [hp]
    · simp only [hp, if_false] at hc ⊢
      cases hs : cell h p with
      | none => simp [hs] at hc
      | some s =>
        simp only [hs] at hc ⊢
        obtain ⟨L1, hL1, hL⟩ := map_eq_ok.mp hc
        subst hL
        simp only [List.mem_cons, not_or] at hx
        have hpx : ¬ p = x := fun e => hx.1 e.symm
        simp only [hpx, if_false]
        exact ih L1 p s.next hL1 hx.2

theorem fsm_chain_head_zero (h : List (Option fsm)) (n p : Nat) (L : List Nat)
    (hL : fsm_chain h n p = .ok L) : p = 0 ↔ L = [] := by
  have hlk := fsm_chain_linked h n p L hL
  cases L with
  | nil => exact ⟨fun _ => rfl, fun _ => hlk⟩
  | cons a L => exact ⟨fun hp => absurd hp hlk.1, fun e => by cases e⟩

/-- What `fsm_state_child_fsm_add` does with an FSM `f` that is not the owner of the state
`st` and is not on its child list `L`: `f` goes to the tail of the chain, with `st` as its
parent state, and nothing else changes. -/
theorem child_fsm_add_fresh (st f : Nat) (w : World) (S : state) (F : fsm) (L : List Nat)
    (hS : cell w.states st = some S) (hSm : S.magic_number = STATE_MAGIC_NUMBER)
    (hSl : S.lock ≠ 0) (hSh : S.lock ∉ w.held)
    (hF : cell w.fsms f = some F) (hv : F.valid) (hl : F.lock ∉ w.held)
    (hne : F.lock ≠ S.lock) (hown : f ≠ S.parent_fsm)
    (hL : fsm_chain w.fsms (w.fsms.length + 1) S.child_fsm = .ok L) (hf : f ∉ L) :
    ∃ w1, fsm_state_child_fsm_add st f w = .ok (0, w1) ∧
      w1.held = w.held ∧ w1.queues = w.queues ∧ w1.mutexes = w.mutexes ∧
      w1.fsms.length = w.fsms.length ∧
      cell w1.fsms f = some { F with parent_state := st, next := 0 } ∧
      (∀ g, g ≠ f → L.getLast? ≠ some g → cell w1.fsms g = cell w.fsms g) ∧
      (∀ g, L.getLast? = some g →
        cell w1.fsms g = (cell w.fsms g).map (fun G => { G with next := f })) ∧
      (∀ b, b ≠ st → cell w1.states b = cell w.states b) ∧
      cell w1.states st = some { S with child_fsm := if L = [] then f else S.child_fsm } := by
  obtain ⟨hm, hos, hlk, hq⟩ := hv
  have hw := child_tail_of_chain _ _ 0 _ _ hL
  have hall := fsm_chain_alloc w.fsms _ _ _ hL
  have hhead := fsm_chain_head_zero _ _ _ _ hL
  have h1 : F.lock ∉ S.lock :: w.held := by
    simp only [List.mem_cons, not_or]
    exact ⟨hne, hl⟩
  have herase : ((F.lock :: S.lock :: w.held).erase F.lock) = S.lock :: w.held := by simp
  by_cases hnil : L = []
  · subst hnil
    simp only [List.getLast?_nil, Option.getD_none] at hw
    simp only [fsm_state_child_fsm_add, World.fsm?, World.state?, hF, hS, ld, ok_bind, ASSERT,
      hm, hSm, hos, hlk, hSl, if_true, ne_eq, not_false_eq_true, mutex_lock, hSh, h1, if_false,
      World.ffuel, hw, pure_eq_ok, hown, World.setState, mutex_unlock, herase, set_child_link,
      World.setFsm, List.erase_cons_head]
    refine ⟨_, rfl, rfl, rfl, rfl, by simp, ?_, ?_, ?_, ?_, ?_⟩
    · exact cell_put_same _ hF
    · intro g hg _
      exact cell_put_ne _ _ (Ne.symm hg)
    · intro g hg
      simp at hg
    · intro b hb
      exact cell_put_ne _ _ (Ne.symm hb)
    · rw [cell_put_same _ hS]
  · obtain ⟨g, hg, hgmem⟩ := mem_split_last L hnil
    have hgf : g ≠ f := fun e => hf (e ▸ hgmem)
    obtain ⟨hg0, G, hG⟩ := hall g hgmem
    simp only [hg, Option.getD_some] at hw
    have hG1 : ∀ v, cell (put w.fsms f v) g = some G := by
      intro v
      rw [cell_put_ne _ _ (Ne.symm hgf)]; exact hG
    simp only [fsm_state_child_fsm_add, World.fsm?, World.state?, hF, hS, ld, ok_bind, ASSERT,
      hm, hSm, hos, hlk, hSl, if_true, ne_eq, not_false_eq_true, mutex_lock, hSh, h1, if_false,
      World.ffuel, hw, pure_eq_ok, hown, World.setState, mutex_unlock, herase, set_child_link,
      World.setFsm, List.erase_cons_head, hg0, hG1]
    refine ⟨_, rfl, rfl, rfl, rfl, by simp, ?_, ?_, ?_, ?_, ?_⟩
    · rw [cell_put_ne _ _ hgf]
      exact cell_put_same _ hF
    · intro c hc hcg
      have hcg1 : c ≠ g := fun e => hcg (e ▸ hg)
      rw [cell_put_ne _ _ (Ne.symm hcg1), cell_put_ne _ _ (Ne.symm hc)]
    · intro c hc
      rw [hg] at hc
      cases hc
      rw [cell_put_same _ (hG1 _), hG]
      rfl
    · intro b hb
      rfl
    · rw [hS]
      simp only [hnil, if_false]
      cases S
      simp only [Option.some.injEq, state.mk.injEq, true_and, and_true] at hSm ⊢
      exact hSm

/-- The chain after an attachment: the new FSM is behind the FSMs that were there. -/
theorem attached_chain (f : Nat) (h h1 : List (Option fsm)) (p : Nat) (L : List Nat)
    (F1 : fsm) (hL : fsm_chain h (h.length + 1) p = .ok L) (hf : f ∉ L)
    (hF1 : cell h1 f = some F1) (hnext : F1.next = 0)
    (hother : ∀ g, g ≠ f → L.getLast? ≠ some g → cell h1 g = cell h g)
    (hlast : ∀ g, L.getLast? = some g →
      cell h1 g = (cell h g).map (fun G => { G with next := f })) :
    fsm_chain h1 (h1.length + 1) (if L = [] then f else p) = .ok (L ++ [f]) := by
  have hlk := fsm_chain_linked _ _ _ _ hL
  have hnd := linked_nodup _ _ _ hlk
  have hall := fsm_chain_alloc h _ _ _ hL
  have hsnoc := linked_snoc (fsm_next h) (fsm_next h1) f (cell_bound hF1).1
    (by simp [fsm_next, hF1, hnext]) L p hlk hf
    (fun b hb => by
      have hbf : b ≠ f := fun e => hf (e ▸ List.mem_of_mem_dropLast hb)
      simp only [fsm_next, hother b hbf (getLast_not_mem_dropLast L hnd b hb)])
    (fun b hb => by
      obtain ⟨-, sb, hsb⟩ := hall b (List.mem_of_mem_getLast? hb)
      simp only [fsm_next, hlast b hb, hsb, Option.map_some'])
  exact linked_fsm_chain _ _ _ _ hsnoc (linked_fsms_length _ _ _ hsnoc)

/-- What `fsm_state_child_fsm_del` does with an FSM `f` that is on the child list of the state
`st`: `f` is taken out of the chain (the link before it now holds what its `next` held), its
parent state and its `next` are cleared, and nothing else changes. -/
theorem child_fsm_del_found (st f : Nat) (w : World) (S : state) (F : fsm)
    (pre post : List Nat)
    (hS : cell w.states st = some S) (hSm : S.magic_number = STATE_MAGIC_NUMBER)
    (hSl : S.lock ≠ 0) (hSh : S.lock ∉ w.held)
    (hF : cell w.fsms f = some F) (hv : F.valid) (hl : F.lock ∉ w.held)
    (hne : F.lock ≠ S.lock)
    (hL : fsm_chain w.fsms (w.fsms.length + 1) S.child_fsm = .ok (pre ++ f :: post)) :
    ∃ w1, fsm_state_child_fsm_del st f w = .ok (0, w1) ∧
      w1.held = w.held ∧ w1.queues = w.queues ∧ w1.mutexes = w.mutexes ∧
      w1.fsms.length = w.fsms.length ∧
      cell w1.fsms f = some { F with parent_state := 0, next := 0 } ∧
      (∀ g, g ≠ f → pre.getLast? ≠ some g → cell w1.fsms g = cell w.fsms g) ∧
      (∀ g, pre.getLast? = some g →
        cell w1.fsms g = (cell w.fsms g).map (fun G => { G with next := F.next })) ∧
      (∀ b, b ≠ st → cell w1.states b = cell w.states b) ∧
      cell w1.states st = some
        { S with child_fsm := if pre = [] then F.next else S.child_fsm } := by
  obtain ⟨hm, hos, hlk, hq⟩ := hv
  have hnd := linked_nodup _ _ _ (fsm_chain_linked _ _ _ _ hL)
  have hfpre : f ∉ pre := fun hmem =>
    (List.nodup_append.mp hnd).2.2 hmem (List.mem_cons_self _ _)
  have hw := child_walk_found w.fsms f post _ pre 0 _ hL hfpre
  have hall := fsm_chain_alloc w.fsms _ _ _ hL
  have h1 : F.lock ∉ S.lock :: w.held := by
    simp only [List.mem_cons, not_or]
    exact ⟨hne, hl⟩
  have herase : ((F.lock :: S.lock :: w.held).erase F.lock) = S.lock :: w.held := by simp
  by_cases hnil : pre = []
  · subst hnil
    simp only [List.getLast?_nil, Option.getD_none] at hw
    simp only [fsm_state_child_fsm_del, World.fsm?, World.state?, hF, hS, ld, ok_bind, ASSERT,
      hm, hSm, hos, hlk, hSl, if_true, ne_eq, not_false_eq_true, mutex_lock, hSh, h1, if_false,
      World.ffuel, hw, pure_eq_ok, World.setState, mutex_unlock, herase, set_child_link,
      World.setFsm, List.erase_cons_head, cell_put_same _ hF, put_put]
    refine ⟨_, rfl, rfl, rfl, rfl, by simp, ?_, ?_, ?_, ?_, ?_⟩
    · exact cell_put_same _ hF
    · intro g hg _
      exact cell_put_ne _ _ (Ne.symm hg)
    · intro g hg
      simp at hg
    · intro b hb
      exact cell_put_ne _ _ (Ne.symm hb)
    · rw [cell_put_same _ hS]
  · obtain ⟨g, hg, hgmem⟩ := mem_split_last pre hnil
    have hgf : g ≠ f := fun e => hfpre (e ▸ hgmem)
    obtain ⟨hg0, G, hG⟩ := hall g (List.mem_append_left _ hgmem)
    simp only [hg, Option.getD_some] at hw
    have hG1 : ∀ v, cell (put w.fsms f v) g = some G := by
      intro v
      rw [cell_put_ne _ _ (Ne.symm hgf)]; exact hG
    have hF1 : ∀ v u, cell (put (put w.fsms f v) g u) f = v := by
      intro v u
      rw [cell_put_ne _ _ hgf]; exact cell_put_same _ hF
    simp only [fsm_state_child_fsm_del, World.fsm?, World.state?, hF, hS, ld, ok_bind, ASSERT,
      hm, hSm, hos, hlk, hSl, if_true, ne_eq, not_false_eq_true, mutex_lock, hSh, h1, if_false,
      World.ffuel, hw, pure_eq_ok, World.setState, mutex_unlock, herase, set_child_link,
      World.setFsm, List.erase_cons_head, hg0, hG1, hF1]
    refine ⟨_, rfl, rfl, rfl, rfl, by simp, ?_, ?_, ?_, ?_, ?_⟩
    · exact cell_put_same _ (hF1 _ _)
    · intro c hc hcg
      have hcg1 : c ≠ g := fun e => hcg (e ▸ hg)
      rw [cell_put_ne _ _ (Ne.symm hc), cell_put_ne _ _ (Ne.symm hcg1),
        cell_put_ne _ _ (Ne.symm hc)]
    · intro c hc
      rw [hg] at hc
      cases hc
      rw [cell_put_ne _ _ (Ne.symm hgf), cell_put_same _ (hG1 _), hG]
      rfl
    · intro b hb
      rfl
    · rw [hS]
      simp only [hnil, if_false]
      cases S
      simp only [Option.some.injEq, state.mk.injEq, true_and, and_true] at hSm ⊢
      exact hSm

theorem child_fsm_del_absent (st f : Nat) (w : World) (S : state) (F : fsm) (L : List Nat)
    (hS : cell w.states st = some S) (hSm : S.magic_number = STATE_MAGIC_NUMBER)
    (hSl : S.lock ≠ 0) (hSh : S.lock ∉ w.held)
    (hF : cell w.fsms f = some F) (hv : F.valid)
    (hL : fsm_chain w.fsms (w.fsms.length + 1) S.child_fsm = .ok L) (hf : f ∉ L) :
    fsm_state_child_fsm_del st f w = .ok (0, w) := by
  obtain ⟨hm, hos, hlk, hq⟩ := hv
  have hw := child_walk_absent w.fsms f _ L 0 _ hL hf
  simp only [fsm_state_child_fsm_del, World.fsm?, World.state?, hF, hS, ld, ok_bind, ASSERT,
    hm, hSm, hos, hlk, hSl, if_true, ne_eq, not_false_eq_true, mutex_lock, hSh, if_false,
    World.ffuel, hw, pure_eq_ok, mutex_unlock, List.erase_cons_head]

/-- The chain after a detachment: the other FSMs, in order. -/
theorem detached_chain (f : Nat) (h h1 : List (Option fsm)) (p : Nat) (pre post : List Nat)
    (F : fsm) (hL : fsm_chain h (h.length + 1) p = .ok (pre ++ f :: post))
    (hF : cell h f = some F)
    (hother : ∀ g, g ≠ f → pre.getLast? ≠ some g → cell h1 g = cell h g)
    (hlast : ∀ g, pre.getLast? = some g →
      cell h1 g = (cell h g).map (fun G => { G with next := F.next })) :
    fsm_chain h1 (h1.length + 1) (if pre = [] then F.next else p) = .ok (pre ++ post) := by
  have hlk := fsm_chain_linked _ _ _ _ hL
  have hnd := linked_nodup _ _ _ hlk
  have hall := fsm_chain_alloc h _ _ _ hL
  obtain ⟨hnd1, hnd2, hdis⟩ := List.nodup_append.mp hnd
  have hfpre : f ∉ pre := fun hmem => hdis hmem (List.mem_cons_self _ _)
  have hfpost : f ∉ post := (List.nodup_cons.mp hnd2).1
  obtain ⟨q, hq, hrem⟩ := linked_remove (fsm_next h) (fsm_next h1) f post pre p hlk
    (fun b hb => by
      have hbf : b ≠ f := fun e => hfpre (e ▸ List.mem_of_mem_dropLast hb)
      simp only [fsm_next, hother b hbf (getLast_not_mem_dropLast pre hnd1 b hb)])
    (fun b hb => by
      have hbf : b ≠ f := fun e => hfpost (e ▸ hb)
      have hbl : pre.getLast? ≠ some b := fun e =>
        hdis (List.mem_of_mem_getLast? e) (List.mem_cons_of_mem _ hb)
      simp only [fsm_next, hother b hbf hbl])
    (fun b hb => by
      obtain ⟨-, sb, hsb⟩ := hall b (List.mem_append_left _ (List.mem_of_mem_getLast? hb))
      simp only [fsm_next, hlast b hb, hsb, hF, Option.map_some'])
  simp only [fsm_next, hF, Option.map_some', Option.some.injEq] at hq
  subst hq
  exact linked_fsm_chain _ _ _ _ hrem (linked_fsms_length _ _ _ hrem)

/-- C18 (Detach): for every valid state `st` (its lock free, its child list `L` well formed)
and every valid FSM `f` (its lock free and not the lock of the state),
`fsm_state_child_fsm_del(state, fsm)` returns `0`.  If `f` is in the child list it is
removed, the other children keep their relative order and their records, and the parent-state
back-reference of `f` is cleared (and its `next` link); if `f` is not in the list, the whole
world is unchanged: the list and the back-reference of `f` in particular. -/
theorem C18_detach (st f : Nat) (w : World) (S : state) (F : fsm) (L : List Nat)
    (hS : w.state? st = some S) (hSm : S.magic_number = STATE_MAGIC_NUMBER)
    (hSl : S.lock ≠ 0) (hSh : S.lock ∉ w.held)
    (hF : w.fsm? f = some F) (hv : F.valid) (hl : F.lock ∉ w.held) (hne : F.lock ≠ S.lock)
    (hL : w.kids st = .ok L) :
    (∃ w1, fsm_state_child_fsm_del st f w = .ok (0, w1)) ∧
    (f ∉ L → fsm_state_child_fsm_del st f w = .ok (0, w)) ∧
    (∀ pre post, L = pre ++ f :: post →
      ∃ w1, fsm_state_child_fsm_del st f w = .ok (0, w1) ∧
        w1.kids st = .ok (pre ++ post) ∧
        w1.fsm? f = some { F with parent_state := 0, next := 0 } ∧
        (∀ g ∈ pre ++ post, ∃ G G1, w.fsm? g = some G ∧ w1.fsm? g = some G1 ∧
          { G1 with next := 0 } = { G with next := 0 }) ∧
        (∀ g, g ≠ f → g ∉ pre → w1.fsm? g = w.fsm? g) ∧
        (∀ b, b ≠ st → w1.state? b = w.state? b) ∧
        (∃ S1, w1.state? st = some S1 ∧
          { S1 with child_fsm := 0 } = { S with child_fsm := 0 }) ∧
        w1.queues = w.queues ∧ w1.held = w.held) := by
  simp only [World.fsm?, World.state?] at hS hF
  have hL' : fsm_chain w.fsms (w.fsms.length + 1) S.child_fsm = .ok L := by
    simpa [World.kids, hS, ld] using hL
  have habs : f ∉ L → fsm_state_child_fsm_del st f w = .ok (0, w) :=
    fun hf => child_fsm_del_absent st f w S F L hS hSm hSl hSh hF hv hL' hf
  have hfound : ∀ pre post, L = pre ++ f :: post →
      ∃ w1, fsm_state_child_fsm_del st f w = .ok (0, w1) ∧
        w1.kids st = .ok (pre ++ post) ∧
        w1.fsm? f = some { F with parent_state := 0, next := 0 } ∧
        (∀ g ∈ pre ++ post, ∃ G G1, w.fsm? g = some G ∧ w1.fsm? g = some G1 ∧
          { G1 with next := 0 } = { G with next := 0 }) ∧
        (∀ g, g ≠ f → g ∉ pre → w1.fsm? g = w.fsm? g) ∧
        (∀ b, b ≠ st → w1.state? b = w.state? b) ∧
        (∃ S1, w1.state? st = some S1 ∧
          { S1 with child_fsm := 0 } = { S with child_fsm := 0 }) ∧
        w1.queues = w.queues ∧ w1.held = w.held := by
    intro pre post hsplit
    subst hsplit
    obtain ⟨w1, hrun, hheld, hqs, -, -, hnew, hother, hlast, hso, hss⟩ :=
      child_fsm_del_found st f w S F pre post hS hSm hSl hSh hF hv hl hne hL'
    have hchain := detached_chain f w.fsms w1.fsms S.child_fsm pre post F hL' hF hother hlast
    have hlk := fsm_chain_linked _ _ _ _ hL'
    have hnd := linked_nodup _ _ _ hlk
    have hall := fsm_chain_alloc w.fsms _ _ _ hL'
    obtain ⟨hnd1, hnd2, hdis⟩ := List.nodup_append.mp hnd
    have hfpre : f ∉ pre := fun hmem => hdis hmem (List.mem_cons_self _ _)
    have hfpost : f ∉ post := (List.nodup_cons.mp hnd2).1
    refine ⟨w1, hrun, ?_, hnew, ?_, ?_, hso, ⟨_, hss, rfl⟩, hqs, hheld⟩
    · simp only [World.kids, World.state?, hss, ld, ok_bind, World.ffuel]
      exact hchain
    · intro g hg
      have hgL : g ∈ pre ++ f :: post := by
        rcases List.mem_append.mp hg with h | h
        · exact List.mem_append_left _ h
        · exact List.mem_append_right _ (List.mem_cons_of_mem _ h)
      have hgf : g ≠ f := by
        rcases List.mem_append.mp hg with h | h
        · exact fun e => hfpre (e ▸ h)
        · exact fun e => hfpost (e ▸ h)
      obtain ⟨-, G, hG⟩ := hall g hgL
      by_cases hgl : pre.getLast? = some g
      · exact ⟨G, { G with next := F.next }, hG, by
          simp only [World.fsm?]
          rw [hlast g hgl, hG]; rfl, rfl⟩
      · exact ⟨G, G, hG, by
          simp only [World.fsm?]
          rw [hother g hgf hgl, hG], rfl⟩
    · intro g hgf hgpre
      exact hother g hgf (fun e => hgpre (List.mem_of_mem_getLast? e))
  refine ⟨?_, habs, hfound⟩
  by_cases hf : f ∈ L
  · obtain ⟨pre, post, hsplit⟩ := List.append_of_mem hf
    obtain ⟨w1, hrun, -⟩ := hfound pre post hsplit
    exact ⟨w1, hrun⟩
  · exact ⟨w, habs hf⟩

/-- C18, on the tree `w_tree`, where the FSMs 2 and 3 are attached to `S1`: detaching the
FSM 3 leaves the list `[2]` and clears the back-reference of 3; detaching the FSM 1, which is
not on the list, changes nothing. -/
theorem C18_detach_witness :
    (∃ w1, fsm_state_child_fsm_del 2 3 w_tree = .ok (0, w1) ∧ w1.kids 2 = .ok [2] ∧
      w1.fsm? 3 = some
        { magic_number := FSM_MAGIC_NUMBER, lock := 4, name := "Second child FSM",
          poll_interval := 100, event_queue := 3, parent_state := 0, state_list := 0,
          sta_prev := 1, sta_curr := 1, sta_next := 0, next := 0, os := 1 }) ∧
    fsm_state_child_fsm_del 2 1 w_tree = .ok (0, w_tree) := by
  constructor
  · obtain ⟨w1, hrun, hk, hf, -⟩ := (C18_detach 2 3 w_tree _ _ [2, 3] rfl rfl (by decide)
      (by decide) rfl (by decide) (by decide) (by decide) rfl).2.2 [2] [] rfl
    exact ⟨w1, hrun, hk, hf⟩
  · exact (C18_detach 2 1 w_tree _ _ [2, 3] rfl rfl (by decide) (by decide) rfl (by decide)
      (by decide) (by decide) rfl).2.1 (by decide)

/-- Attaching a child FSM that is not attached to the state: for every valid state `st` (its
lock free, its child list `L` well formed) and every valid FSM `f` (its lock free and not the
lock of the state): `fsm_state_child_fsm_add(state, fsm)` returns `-1` and changes nothing when `f` is the FSM
that owns the state; otherwise, when `f` is not already in the child list of the state, it
returns `0`, puts `f` at the tail of the child list with the earlier children kept in order
(and their records kept), and sets the parent-state back-reference of `f` to the state (and
its `next` link to `NULL`); the other FSMs, the other states, the other fields of the state,
the queues and the locks are unchanged. -/
theorem attach_appends (st f : Nat) (w : World) (S : state) (F : fsm) (L : List Nat)
    (hS : w.state? st = some S) (hSm : S.magic_number = STATE_MAGIC_NUMBER)
    (hSl : S.lock ≠ 0) (hSh : S.lock ∉ w.held)
    (hF : w.fsm? f = some F) (hv : F.valid) (hl : F.lock ∉ w.held) (hne : F.lock ≠ S.lock)
    (hL : w.kids st = .ok L) :
    (f = S.parent_fsm → fsm_state_child_fsm_add st f w = .ok (-1, w)) ∧
    (f ≠ S.parent_fsm → f ∉ L →
      ∃ w1, fsm_state_child_fsm_add st f w = .ok (0, w1) ∧
        w1.kids st = .ok (L ++ [f]) ∧
        w1.fsm? f = some { F with parent_state := st, next := 0 } ∧
        (∀ g ∈ L, ∃ G G1, w.fsm? g = some G ∧ w1.fsm? g = some G1 ∧
          { G1 with next := 0 } = { G with next := 0 }) ∧
        (∀ g, g ≠ f → g ∉ L → w1.fsm? g = w.fsm? g) ∧
        (∀ b, b ≠ st → w1.state? b = w.state? b) ∧
        (∃ S1, w1.state? st = some S1 ∧
          { S1 with child_fsm := 0 } = { S with child_fsm := 0 }) ∧
        w1.queues = w.queues ∧ w1.held = w.held) := by
  simp only [World.fsm?, World.state?] at hS hF
  have hL' : fsm_chain w.fsms (w.fsms.length + 1) S.child_fsm = .ok L := by
    simpa [World.kids, hS, ld] using hL
  constructor
  · intro hown
    obtain ⟨hm, hos, hlk, hq⟩ := hv
    have hF' : cell w.fsms S.parent_fsm = some F := hown ▸ hF
    simp only [fsm_state_child_fsm_add, World.fsm?, World.state?, hF', hS, ld, ok_bind, ASSERT,
      hm, hSm, hos, hlk, hSl, if_true, ne_eq, not_false_eq_true, hown, pure_eq_ok]
  · intro hown hf
    obtain ⟨w1, hrun, hheld, hqs, -, -, hnew, hother, hlast, hso, hss⟩ :=
      child_fsm_add_fresh st f w S F L hS hSm hSl hSh hF hv hl hne hown hL' hf
    have hchain := attached_chain f w.fsms w1.fsms S.child_fsm L _ hL' hf hnew rfl hother hlast
    have hall := fsm_chain_alloc w.fsms _ _ _ hL'
    refine ⟨w1, hrun, ?_, hnew, ?_, ?_, hso, ⟨_, hss, rfl⟩, hqs, hheld⟩
    · simp only [World.kids, World.state?, hss, ld, ok_bind, World.ffuel]
      exact hchain
    · intro g hg
      have hgf : g ≠ f := fun e => hf (e ▸ hg)
      obtain ⟨-, G, hG⟩ := hall g hg
      by_cases hgl : L.getLast? = some g
      · exact ⟨G, { G with next := f }, hG, by
          simp only [World.fsm?]
          rw [hlast g hgl, hG]; rfl, rfl⟩
      · exact ⟨G, G, hG, by
          simp only [World.fsm?]
          rw [hother g hgf hgl, hG], rfl⟩
    · intro g hgf hgL
      exact hother g hgf (fun e => hgL (List.mem_of_mem_getLast? e))

/-- On the tree `w_tree`: attaching the FSM 1, which owns `S1`, to `S1` is
refused; and in the world where the FSM 3 was detached from `S1`, attaching it puts it
behind the FSM 2 again. -/
theorem attach_appends_example :
    fsm_state_child_fsm_add 2 1 w_tree = .ok (-1, w_tree) ∧
    ∃ w0 w1, fsm_state_child_fsm_del 2 3 w_tree = .ok (0, w0) ∧ w0.kids 2 = .ok [2] ∧
      fsm_state_child_fsm_add 2 3 w0 = .ok (0, w1) ∧ w1.kids 2 = .ok [2, 3] ∧
      w1.fsm? 3 = some
        { magic_number := FSM_MAGIC_NUMBER, lock := 4, name := "Second child FSM",
          poll_interval := 100, event_queue := 3, parent_state := 2, state_list := 0,
          sta_prev := 1, sta_curr := 1, sta_next := 0, next := 0, os := 1 } := by
  constructor
  · exact (attach_appends 2 1 w_tree _ _ [2, 3] rfl rfl (by decide) (by decide) rfl (by decide)
      (by decide) (by decide) rfl).1 rfl
  · have h0 : fsm_state_child_fsm_del 2 3 w_tree = .ok (0,
        (w_tree.setFsm 2
          { magic_number := FSM_MAGIC_NUMBER, lock := 3, name := "Test child FSM",
            poll_interval := 4294967295, event_queue := 2, parent_state := 2, state_list := 4,
            sta_prev := 1, sta_curr := 4, sta_next := 0, next := 0, os := 1 }).setFsm 3
          { magic_number := FSM_MAGIC_NUMBER, lock := 4, name := "Second child FSM",
            poll_interval := 100, event_queue := 3, parent_state := 0, state_list := 0,
            sta_prev := 1, sta_curr := 1, sta_next := 0, next := 0, os := 1 }) := by decide
    obtain ⟨w1, hrun, hk, hf, -⟩ := (attach_appends 2 3
      ((w_tree.setFsm 2
          { magic_number := FSM_MAGIC_NUMBER, lock := 3, name := "Test child FSM",
            poll_interval := 4294967295, event_queue := 2, parent_state := 2, state_list := 4,
            sta_prev := 1, sta_curr := 4, sta_next := 0, next := 0, os := 1 }).setFsm 3
          { magic_number := FSM_MAGIC_NUMBER, lock := 4, name := "Second child FSM",
            poll_interval := 100, event_queue := 3, parent_state := 0, state_list := 0,
            sta_prev := 1, sta_curr := 1, sta_next := 0, next := 0, os := 1 })
      _ _ [2] rfl rfl (by decide) (by decide)
      rfl (by decide) (by decide) (by decide) rfl).2 (by decide) (by decide)
    exact ⟨_, w1, h0, rfl, hrun, hk, hf⟩

/-! ## What a poll does to the queues -/

theorem replay_nil (qs : List (Option queue)) : replay [] qs = qs := rfl

theorem replay_append (a b : List (Nat × action)) (qs : List (Option queue)) :
    replay (a ++ b) qs = replay b (replay a qs) := by
  simp [replay, List.foldl_append]

theorem replay_cons (x : Nat × action) (t : List (Nat × action)) (qs : List (Option queue)) :
    replay (x :: t) qs = replay t (queue_effect qs x.2) := rfl

theorem replay_deeper (t : List (Nat × action)) (qs : List (Option queue)) :
    replay (deeper t) qs = replay t qs := by
  induction t generalizing qs with
  | nil => rfl
  | cons x t ih =>
    simp only [deeper, List.map_cons, replay_cons] at ih ⊢
    exact ih _

theorem replay_send (q : Nat) (e : event) (b : Nat) (Q : queue) (qs : List (Option queue))
    (hQ : cell qs q = some Q) :
    replay (here [.send q e b (decide (Q.items.length < Q.length))]) qs =
      (if Q.items.length < Q.length then put qs q (some { Q with items := Q.items ++ [e] })
       else qs) := by
  by_cases hlt : Q.items.length < Q.length
  · simp [here, replay, queue_effect, hlt, hQ]
  · simp [here, replay, queue_effect, hlt]

theorem poll_locked_replay {f : Nat} {w w1 : World} {l : poll_locals} {t : List action}
    (h : poll_locked f w = .ok (l, t, w1)) : w1.queues = replay (here t) w.queues := by
  obtain ⟨F, C, -, -, -, -, -, -, -, -, -, -, -, -, -, -, -, h1, h2, h3⟩ := poll_locked_inv h
  by_cases hno : C.poll_interval = FSM_NO_POLL
  · obtain ⟨ht, hq, -⟩ := h1 hno
    rw [ht, hq]; rfl
  · by_cases hdue : C.poll_interval ≤ sub32 (uptime_ms w) C.ts_poll
    · obtain ⟨Q, hQ, ht, hq, -⟩ := h3 hno hdue
      rw [ht, hq, replay_send _ _ _ Q _ hQ]
    · obtain ⟨ht, hq, -⟩ := h2 hno (Nat.lt_of_not_le hdue)
      rw [ht, hq]; rfl

theorem poll_exit_replay {hs : handlers} {f : Nat} {l : poll_locals} {w w1 : World}
    {t : List action} (hk : hs.keep (fun w => w.queues))
    (h : poll_exit hs f l w = .ok (t, w1)) : w1.queues = replay (here t) w.queues := by
  have hk' : ∀ h e w, (hs h e w).2.queues = w.queues := hk
  obtain ⟨h1, h2⟩ := poll_exit_inv h
  by_cases h0 : l.exit = 0
  · obtain ⟨ht, hw⟩ := h1 h0
    rw [ht, hw]; rfl
  · obtain ⟨F, C, -, -, ht, hw⟩ := h2 h0
    rw [ht, hw, hk']; rfl

theorem poll_enter_replay {hs : handlers} {f : Nat} {l : poll_locals} {w w1 : World}
    {t : List action} (hk : hs.keep (fun w => w.queues))
    (h : poll_enter hs f l w = .ok (t, w1)) : w1.queues = replay (here t) w.queues := by
  have hk' : ∀ h e w, (hs h e w).2.queues = w.queues := hk
  obtain ⟨h1, h2⟩ := poll_enter_inv h
  by_cases h0 : l.enter = 0
  · obtain ⟨ht, hw⟩ := h1 h0
    rw [ht, hw]; rfl
  · obtain ⟨F, C, -, -, ht, hw⟩ := h2 h0
    rw [ht, hw, hk']; rfl

theorem poll_dispatch_replay {hs : handlers} {l : poll_locals} {w w1 : World}
    {o : Option event} {t : List action} (hk : hs.keep (fun w => w.queues))
    (h : poll_dispatch hs l w = .ok (o, t, w1)) : w1.queues = replay (here t) w.queues := by
  have hk' : ∀ h e w, (hs h e w).2.queues = w.queues := hk
  obtain ⟨Q, hQ, h1, h2⟩ := poll_dispatch_inv h
  cases hi : Q.items with
  | nil =>
    obtain ⟨-, ht, hw⟩ := h1 hi
    rw [ht, hw]; rfl
  | cons e rest =>
    obtain ⟨h3, h4⟩ := h2 e rest hi
    by_cases h0 : l.handler = 0
    · obtain ⟨-, ht, hw⟩ := h3 h0
      rw [ht, hw]
      simp [here, replay, queue_effect, hQ, hi]
    · obtain ⟨-, ht, hw⟩ := h4 h0
      rw [ht, hw, hk']
      simp [here, replay, queue_effect, hQ, hi]

theorem poll_forward_replay {o : Option event} {c : Nat} {w w1 : World} {t : List action}
    (h : poll_forward o c w = .ok (t, w1)) : w1.queues = replay (here t) w.queues := by
  obtain ⟨C, -, -, -, -, -, -, -, -, -, h1, h2, h3⟩ := poll_forward_inv h
  cases o with
  | none =>
    obtain ⟨ht, hw⟩ := h1 rfl
    rw [ht, hw]; rfl
  | some e =>
    by_cases hp : e.type = FSM_EVT_POLL
    · obtain ⟨ht, hw⟩ := h2 e rfl hp
      rw [ht, hw]; rfl
    · obtain ⟨-, Q, hQ, ht, hq⟩ := h3 e rfl hp
      rw [ht, hq, replay_send _ _ _ Q _ hQ]

theorem poll_children_replay (P : Nat → World → Except fault poll_result) (o : Option event)
    (hP : ∀ c w r, P c w = .ok r → r.world.queues = replay r.trace w.queues) :
    ∀ (buf : List Nat) (w w1 : World) (t : List (Nat × action)),
      poll_children P o buf w = .ok (t, w1) → w1.queues = replay t w.queues := by
  intro buf
  induction buf with
  | nil =>
    intro w w1 t h
    simp only [poll_children, Except.ok.injEq, Prod.mk.injEq] at h
    obtain ⟨ht, hw⟩ := h
    rw [← ht, ← hw]; rfl
  | cons c rest ih =>
    intro w w1 t h
    obtain ⟨t1, w2, r, t2, hf, hp, hrest, ht⟩ := poll_children_cons_inv h
    rw [ht, replay_append, ih _ _ _ hrest, hP c w2 r hp, poll_forward_replay hf]
    simp only [List.cons_append, replay_append, replay_cons, queue_effect, replay_deeper]

/-- The queues after a poll are the queues before it with the sends that succeeded and the
receives of the trace applied, in order, as long as the handlers leave the queues alone. -/
theorem fsm_poll_replay (hs : handlers) (hk : hs.keep (fun w => w.queues)) :
    ∀ (n f : Nat) (w : World) (r : poll_result), fsm_poll hs n f w = .ok r →
      r.world.queues = replay r.trace w.queues := by
  intro n
  induction n with
  | zero => intro f w r h; simp [fsm_poll] at h
  | succ n ih =>
    intro f w r h
    obtain ⟨m, l, t0, w1, t1, w2, t2, w3, o, t3, w4, t4, hm, h0, h1, h2, h3, h4, -, htr⟩ :=
      fsm_poll_inv h
    have hmn : m = n := by omega
    subst hmn
    rw [htr, replay_append, poll_children_replay _ o (fun c w r hr => ih c w r hr) _ _ _ _ h4,
      poll_dispatch_replay hk h3, poll_enter_replay hk h2, poll_exit_replay hk h1,
      poll_locked_replay h0]
    simp only [here, List.map_append, replay_append]

theorem poll_exit_queues {hs : handlers} {f : Nat} {l : poll_locals} {w w1 : World}
    {t : List action} (hk : hs.keep (fun w => w.queues))
    (h : poll_exit hs f l w = .ok (t, w1)) : w1.queues = w.queues := by
  have hk' : ∀ h e w, (hs h e w).2.queues = w.queues := hk
  obtain ⟨h1, h2⟩ := poll_exit_inv h
  by_cases h0 : l.exit = 0
  · rw [(h1 h0).2]
  · obtain ⟨F, C, -, -, -, hw⟩ := h2 h0
    rw [hw, hk']

theorem poll_enter_queues {hs : handlers} {f : Nat} {l : poll_locals} {w w1 : World}
    {t : List action} (hk : hs.keep (fun w => w.queues))
    (h : poll_enter hs f l w = .ok (t, w1)) : w1.queues = w.queues := by
  have hk' : ∀ h e w, (hs h e w).2.queues = w.queues := hk
  obtain ⟨h1, h2⟩ := poll_enter_inv h
  by_cases h0 : l.enter = 0
  · rw [(h1 h0).2]
  · obtain ⟨F, C, -, -, -, hw⟩ := h2 h0
    rw [hw, hk']

/-- The receive and the dispatch of a poll, from the queue as it is at the dispatch. -/
theorem poll_dispatch_head {hs : handlers} {l : poll_locals} {w w1 : World}
    {o : Option event} {t : List action} {Q : queue}
    (hQ : cell w.queues l.event_queue = some Q)
    (h : poll_dispatch hs l w = .ok (o, t, w1)) :
    received t = [(l.event_queue, Q.items.head?)] ∧
    (∀ e, Q.items.head? = some e → l.handler ≠ 0 → calls t = [(l.handler, e)]) := by
  obtain ⟨Q1, hQ1, h1, h2⟩ := poll_dispatch_inv h
  rw [hQ] at hQ1
  cases hQ1
  cases hi : Q.items with
  | nil =>
    obtain ⟨-, ht, -⟩ := h1 hi
    rw [ht]
    exact ⟨by simp [received], fun e he => by simp at he⟩
  | cons e rest =>
    obtain ⟨h3, h4⟩ := h2 e rest hi
    by_cases h0 : l.handler = 0
    · obtain ⟨-, ht, -⟩ := h3 h0
      rw [ht]
      exact ⟨by simp [received], fun _ _ hne => absurd h0 hne⟩
    · obtain ⟨-, ht, -⟩ := h4 h0
      rw [ht]
      refine ⟨by simp [received], fun e1 he1 _ => ?_⟩
      simp only [List.head?_cons, Option.some.injEq] at he1
      subst he1
      simp [calls]

/-- A poll whose polling event is due while the queue of the FSM is full. -/
theorem poll_full_queue (hs : handlers) (n f : Nat) (w : World) (r : poll_result) (F : fsm)
    (C : state) (Q : queue) (hF : cell w.fsms f = some F)
    (hC : cell w.states F.stepped.sta_curr = some C)
    (hQ : cell w.queues F.event_queue = some Q)
    (hfin : C.poll_interval ≠ FSM_NO_POLL)
    (hdue : C.poll_interval ≤ sub32 (uptime_ms w) C.ts_poll)
    (hfull : Q.length ≤ Q.items.length) (hr : fsm_poll hs n f w = .ok r) :
    action.send F.event_queue (poll_event (uptime_ms w)) 0 false ∈ own r.trace ∧
    (∃ l t w1, poll_locked f w = .ok (l, t, w1) ∧ w1.queues = w.queues) ∧
    (hs.keep (fun w => w.queues) →
      received (own r.trace) = [(F.event_queue, Q.items.head?)] ∧
      (∀ e, Q.items.head? = some e → C.handler ≠ 0 →
        (C.handler, e) ∈ calls (own r.trace))) := by
  obtain ⟨m, l, t0, w1, t1, w2, t2, w3, o, t3, w4, t4, hm, h0, h1, h2, h3, h4, htr, hown,
    hcalls, -, -, hrecv, -⟩ := fsm_poll_own hr
  obtain ⟨F0, C0, hF0, -, -, hC0, -, -, -, hlh, hlq, -, -, -, -, -, -, -, -, hgen⟩ :=
    poll_locked_inv h0
  rw [hF] at hF0
  cases hF0
  rw [hC] at hC0
  cases hC0
  obtain ⟨Q0, hQ0, ht0, hq0, -⟩ := hgen hfin hdue
  rw [hQ] at hQ0
  cases hQ0
  have hnlt : ¬ Q.items.length < Q.length := Nat.not_lt.mpr hfull
  simp only [hnlt, decide_False, if_false] at ht0 hq0
  refine ⟨?_, ⟨l, t0, w1, h0, hq0⟩, ?_⟩
  · rw [hown, ht0]
    simp
  · intro hk
    have hq3 : w3.queues = w.queues := by
      rw [poll_enter_queues hk h2, poll_exit_queues hk h1, hq0]
    have hQ3 : cell w3.queues l.event_queue = some Q := by
      rw [hq3, hlq]; exact hQ
    obtain ⟨hr1, hr2⟩ := poll_dispatch_head hQ3 h3
    rw [hrecv, hr1, hlq]
    refine ⟨rfl, fun e he hne => ?_⟩
    rw [hcalls, hr2 e he (by rw [hlh]; exact hne), hlh]
    simp

/-- C19 (`fsm_poll` never fails): for every call of `fsm_poll` on an FSM (in a sound world,
with tame handlers and enough fuel, whatever the queues hold) the call returns, and whenever
it returns the result is `0`, the pending transition is applied when the lock is released,
and every child FSM in the snapshot is polled, whether a send failed or not.  When the
polling event is due and the queue of the FSM is full, the send of the polling event fails
and leaves the queues as they are, and (with handlers that leave the queues alone) the head
event of the queue is still received and dispatched to the handler of the current state.
With such handlers the queues after the call are the queues before it with the sends that
succeeded and the receives applied, in order: a send that failed, of a polling event or to a
child FSM, changes no queue, and a queue loses nothing but the head event received from it. -/
theorem C19_poll_never_fails (hs : handlers) (n f : Nat) (w : World) (F : fsm)
    (hF : w.fsm? f = some F) :
    (∀ rank : Nat → Nat, w.sound rank → hs.tame rank → rank f < n →
      ∃ r, fsm_poll hs n f w = .ok r ∧ r.ret = 0) ∧
    (∀ r, fsm_poll hs n f w = .ok r →
      r.ret = 0 ∧
      (∃ l t w1, poll_locked f w = .ok (l, t, w1) ∧ w1.fsm? f = some F.stepped) ∧
      polled (own r.trace) = w.children f ∧
      (hs.keep (fun w => w.queues) → r.world.queues = replay r.trace w.queues) ∧
      (∀ C Q, w.state? F.stepped.sta_curr = some C → w.queue? F.event_queue = some Q →
        C.poll_interval ≠ FSM_NO_POLL → C.poll_interval ≤ sub32 (uptime_ms w) C.ts_poll →
        Q.length ≤ Q.items.length →
        action.send F.event_queue (poll_event (uptime_ms w)) 0 false ∈ own r.trace ∧
        (∃ l t w1, poll_locked f w = .ok (l, t, w1) ∧ w1.queues = w.queues) ∧
        (hs.keep (fun w => w.queues) →
          received (own r.trace) = [(F.event_queue, Q.items.head?)] ∧
          (∀ e, Q.items.head? = some e → C.handler ≠ 0 →
            (C.handler, e) ∈ calls (own r.trace))))) := by
  simp only [World.fsm?, World.state?, World.queue?] at hF ⊢
  refine ⟨?_, fun r hr => ?_⟩
  · intro rank hw ht hrk
    exact fsm_poll_total hs rank ht n f w hw (by simp [hF]) hrk
  · obtain ⟨m, l, t0, w1, t1, w2, t2, w3, o, t3, w4, t4, -, -, -, -, -, -, hret, -⟩ :=
      fsm_poll_inv hr
    exact ⟨hret, (fsm_poll_record hF hr).1, (tree_polls_made hs n f w r hr).1,
      fun hk => fsm_poll_replay hs hk n f w r hr,
      fun C Q hC hQ hfin hdue hfull =>
        poll_full_queue hs n f w r F C Q hF hC hQ hfin hdue hfull hr⟩

theorem put_some_isSome {α : Type} (h : List (Option α)) (p : Nat) (v : α)
    (hp : (cell h p).isSome) : ∀ q, (cell (put h p (some v)) q).isSome = (cell h q).isSome := by
  intro q
  obtain ⟨x, hx⟩ := Option.isSome_iff_exists.mp hp
  by_cases hq : p = q
  · subst hq
    rw [cell_put_same _ hx, hx]
    rfl
  · rw [cell_put_ne _ _ hq]

/-- C19, at work.  On the FSM of the reference test at time 25, with ten events queued: the
polling event is due and its send fails, the result is `0`, the head event is received, and
nine events stay queued.  On the tree `w_tree` with ten events in the queue of the child FSM
2: the forward of the user event to it fails, the result is `0`, both children are polled,
and the queue of the child holds nine events afterwards, its head event taken by its own
poll. -/
theorem C19_poll_never_fails_witness :
    (∃ r, fsm_poll hs_idle 1 1
        { (w_run.setQueue 1
          { length := 10,
            items := List.replicate 10
              { type := 1, timestamp := 3, data := .null, datalen := 0 } }) with now := 25 }
        = .ok r ∧ r.ret = 0 ∧
      action.send 1 (poll_event 25) 0 false ∈ own r.trace ∧
      received (own r.trace) =
        [(1, some { type := 1, timestamp := 3, data := .null, datalen := 0 })] ∧
      r.world.queue? 1 = some
        { length := 10,
          items := List.replicate 9
            { type := 1, timestamp := 3, data := .null, datalen := 0 } }) ∧
    (∃ r, fsm_poll hs_idle 2 1
        (w_tree.setQueue 2
          { length := 10,
            items := List.replicate 10
              { type := 1, timestamp := 3, data := .null, datalen := 0 } })
        = .ok r ∧ r.ret = 0 ∧ polled (own r.trace) = [2, 3] ∧
      action.send 2 { type := 42325, timestamp := 12, data := .user 7, datalen := 4 } 200
        false ∈ own r.trace ∧
      r.world.queue? 2 = some
        { length := 10,
          items := List.replicate 9
            { type := 1, timestamp := 3, data := .null, datalen := 0 } }) := by
  constructor
  · obtain ⟨h1, h2⟩ := C19_poll_never_fails hs_idle 1 1
      { (w_run.setQueue 1
          { length := 10,
            items := List.replicate 10
              { type := 1, timestamp := 3, data := .null, datalen := 0 } }) with now := 25 } _ rfl
    obtain ⟨r, hr, -⟩ := h1 (fun _ => 0)
      (sound_now _ _ 25 (sound_queues _ w_run _ w_run_sound
        (put_some_isSome _ 1 _ (by decide))))
      (hs_idle_tame _) (by decide)
    obtain ⟨r1, hr1, hv⟩ := map_eq_ok.mp (show (fsm_poll hs_idle 1 1
      { (w_run.setQueue 1
          { length := 10,
            items := List.replicate 10
              { type := 1, timestamp := 3, data := .null, datalen := 0 } }) with now := 25 }).map
      (fun r => r.world.queue? 1) = .ok (some
        { length := 10,
          items := List.replicate 9
            { type := 1, timestamp := 3, data := .null, datalen := 0 } }) from by decide)
    rw [hr] at hr1
    cases hr1
    obtain ⟨hret, -, -, -, hfull⟩ := h2 r hr
    obtain ⟨hsend, -, hrest⟩ := hfull _ _ rfl rfl (by decide) (by decide) (by decide)
    exact ⟨r, hr, hret, hsend, (hrest (hs_idle_keep _)).1, hv⟩
  · obtain ⟨h1, h2⟩ := C19_poll_never_fails hs_idle 2 1
      (w_tree.setQueue 2
          { length := 10,
            items := List.replicate 10
              { type := 1, timestamp := 3, data := .null, datalen := 0 } }) _ rfl
    obtain ⟨r, hr, -⟩ := h1 (fun g => if g = 1 then 1 else 0)
      (sound_queues _ w_tree _ w_tree_sound (put_some_isSome _ 2 _ (by decide)))
      (hs_idle_tame _) (by decide)
    obtain ⟨r1, hr1, hv⟩ := map_eq_ok.mp (show (fsm_poll hs_idle 2 1
      (w_tree.setQueue 2
          { length := 10,
            items := List.replicate 10
              { type := 1, timestamp := 3, data := .null, datalen := 0 } })).map
      (fun r => (r.world.queue? 2, decide (action.send 2
        { type := 42325, timestamp := 12, data := .user 7, datalen := 4 } 200
        false ∈ own r.trace))) = .ok (some
        { length := 10,
          items := List.replicate 9
            { type := 1, timestamp := 3, data := .null, datalen := 0 } }, true) from by decide)
    rw [hr] at hr1
    cases hr1
    obtain ⟨hret, -, hpolled, -, -⟩ := h2 r hr
    exact ⟨r, hr, hret, by rw [hpolled]; decide,
      of_decide_eq_true (congrArg Prod.snd hv), congrArg Prod.fst hv⟩

/-! ## The default poll interval -/

/-- C24 (Default poll interval): for every valid FSM (lock free),
`fsm_change_default_poll_interval(fsm, v)` returns `0` and changes only the default poll
interval of the FSM: every state record (the effective and the pending interval of every
registered state), every queue and every other FSM record are as before; and every state
added to the FSM in the world it leaves (state list well formed, the id new, the lock handles
in use made by `mutex_create`) starts with both intervals equal to `v`.  The FSM that
`fsm_new` creates has the default interval `DEFAULT_POLLING_INTERVAL`, which is 100. -/
theorem C24_default_poll_interval (f v : Nat) (w : World) (F : fsm)
    (hF : w.fsm? f = some F) (hv : F.valid) (hl : F.lock ∉ w.held) :
    fsm_change_default_poll_interval f v w =
      .ok (0, w.setFsm f { F with poll_interval := v }) ∧
    (w.setFsm f { F with poll_interval := v }).fsm? f = some { F with poll_interval := v } ∧
    (w.setFsm f { F with poll_interval := v }).states = w.states ∧
    (w.setFsm f { F with poll_interval := v }).queues = w.queues ∧
    (∀ g, g ≠ f → (w.setFsm f { F with poll_interval := v }).fsm? g = w.fsm? g) ∧
    (∀ (name : Option String) (id handler : Nat) (L : List Nat),
      w.registry F = .ok L → (∀ b ∈ L, ∀ t, w.state? b = some t → t.id ≠ id) →
      F.lock ≤ w.mutexes → (∀ m ∈ w.held, m ≤ w.mutexes) →
      ∃ w1 S1, fsm_state_add f name id handler (w.setFsm f { F with poll_interval := v }) =
          .ok (0, w1) ∧
        w1.state? (w.states.length + 1) = some S1 ∧ S1.id = id ∧
        S1.poll_interval = v ∧ S1.poll_interval_next = v) ∧
    (∀ name w0 g w1, fsm_new name w0 = .ok (g, w1) →
      ∃ G, w1.fsm? g = some G ∧ G.poll_interval = DEFAULT_POLLING_INTERVAL ∧
        DEFAULT_POLLING_INTERVAL = 100) := by
  have hF' : cell w.fsms f = some F := by simpa using hF
  have hF1 : cell (w.setFsm f { F with poll_interval := v }).fsms f =
      some { F with poll_interval := v } := by
    simp only [World.setFsm]
    exact cell_put_same _ hF'
  refine ⟨?_, hF1, rfl, rfl, ?_, ?_, ?_⟩
  · obtain ⟨hm, hos, hlk, hq⟩ := hv
    simp only [fsm_change_default_poll_interval, World.fsm?, hF', ld, ok_bind, ASSERT, hm, hos,
      hlk, if_true, ne_eq, not_false_eq_true, mutex_lock, hl, if_false, pure_eq_ok]
    simp [mutex_unlock]
  · intro g hg
    simp only [World.fsm?, World.setFsm]
    exact cell_put_ne _ _ (Ne.symm hg)
  · intro name id handler L hL hno hm1 hm2
    have hm1' : F.lock ≠ w.mutexes + 1 := by omega
    have hm2' : w.mutexes + 1 ∉ w.held := fun hmem => by
      have := hm2 _ hmem
      omega
    obtain ⟨w1, hrun, -, -, -, -, hnew, -⟩ :=
      add_fresh_id f name id handler (w.setFsm f { F with poll_interval := v })
        { F with poll_interval := v } L hF1 hv hl (by simpa [World.registry] using hL)
        (by simpa using hno) hm1' hm2'
    exact ⟨w1, _, hrun, hnew, rfl, rfl, rfl⟩
  · intro name w0 g w1 h
    unfold fsm_new at h
    obtain ⟨⟨r, w2⟩, hi, h⟩ := bind_eq_ok.mp h
    simp only [pure_eq_ok, Except.ok.injEq, Prod.mk.injEq] at h
    obtain ⟨hg, hw⟩ := h
    subst hg hw
    obtain ⟨G, Q0, h1, -, -, -, h5⟩ := fsm_init_queue _ _ _ _ _ hi
    exact ⟨G, h1, h5, rfl⟩

/-- C24, on the FSM of the reference test, whose states have the interval 10: the default
becomes 250, the states keep their records, and a state added then starts with 250. -/
theorem C24_default_poll_interval_witness :
    ∃ w0 w1, fsm_change_default_poll_interval 1 250 w_two = .ok (0, w0) ∧
      w0.states = w_two.states ∧
      fsm_state_add 1 (some "Third") 7 3 w0 = .ok (0, w1) ∧
      (w1.state? 4).map (fun s => (s.poll_interval, s.poll_interval_next)) =
        some (250, 250) := by
  obtain ⟨h1, -, h3, -, -, h6, -⟩ := C24_default_poll_interval 1 250 w_two _ rfl (by decide)
    (by decide)
  obtain ⟨w1, S1, hrun, hS1, -, hp1, hp2⟩ := h6 (some "Third") 7 3 [2, 3] rfl
    (all_cells _ _ _ (by decide)) (by decide) (by decide)
  refine ⟨_, w1, h1, h3, hrun, ?_⟩
  have hS1' : w1.state? 4 = some S1 := hS1
  rw [hS1', Option.map_some', hp1, hp2]

/-! ## The ROOT state -/

theorem mk_new_eq : mk_new = .ok w_new := by rfl

theorem w_new_sound : w_new.sound (fun _ => 0) := by
  refine ⟨rfl, ?_⟩
  intro g G hG
  rcases g with _ | _ | g
  · simp [World.fsm?] at hG
  · have hG1 := Option.some.inj hG
    subst hG1
    exact ⟨by decide, rfl, rfl, ⟨_, [], rfl, rfl, by simp⟩, fun h => absurd rfl h⟩
  · simp [World.fsm?, w_new, cell] at hG

/-- C22, as stated, does not hold: the poll interval of the static `root_state` is 100, not
`FSM_NO_POLL`.  The FSM that `fsm_new` creates in the world before any call has ROOT as its
current state, no pending request and no registered state; polled at time 100 it posts a POLL
event to its queue and stamps the poll timestamp of ROOT, which was 0, with 100. -/
theorem C22_counterexample :
    root_state.poll_interval ≠ FSM_NO_POLL ∧
    fsm_new (some "F") World.boot = .ok (1, w_new) ∧
    (w_new.fsm? 1).map (fun F => (F.sta_curr, F.sta_next, F.state_list)) = some (ROOT, 0, 0) ∧
    (w_new.state? ROOT).map (fun R => R.ts_poll) = some 0 ∧
    ∃ r, fsm_poll hs_idle 1 1 { w_new with now := 100 } = .ok r ∧
      posted (own r.trace) = [(1, poll_event 100)] ∧
      (r.world.state? ROOT).map (fun R => R.ts_poll) = some 100 := by
  refine ⟨by decide, by rfl, by decide, by decide, ?_⟩
  obtain ⟨r, hr, hv⟩ := map_eq_ok.mp
    (show (fsm_poll hs_idle 1 1 { w_new with now := 100 }).map
        (fun r => (posted (own r.trace), (r.world.state? ROOT).map (fun R => R.ts_poll))) =
      .ok ([(1, poll_event 100)], some 100) from by decide)
  simp only [Prod.mk.injEq] at hv
  exact ⟨r, hr, hv.1, hv.2⟩

/-- C22 (The ROOT state is polled at its interval of 100), amended: the poll interval of the
static `root_state` is 100, which is not `FSM_NO_POLL`.  For every FSM whose current state is
ROOT with no pending request (a new FSM with no registered state), while ROOT has that
interval, `fsm_poll` returns (in a sound world, with tame handlers and enough fuel) and:
when fewer than 100 ms (modulo `2 ^ 32`) have passed since the poll timestamp of ROOT it
generates no POLL event, leaves every state record as it is under the lock, and (with handlers
that leave ROOT and the FSM records alone, no other FSM using ROOT and no poll of the FSM
itself further down) leaves every field of ROOT unchanged; when 100 ms or more have passed it
posts exactly one POLL event, stamped with the current time, to the queue of the FSM and sets
the poll timestamp of ROOT to the current time. -/
theorem C22_root_polling (hs : handlers) (n f : Nat) (w : World) (F : fsm) (R : state)
    (hF : w.fsm? f = some F) (hnext : F.sta_next = 0) (hcur : F.sta_curr = ROOT)
    (hR : w.state? ROOT = some R) (hint : R.poll_interval = 100) :
    root_state.poll_interval = 100 ∧ (100 : Nat) ≠ FSM_NO_POLL ∧
    (∀ rank, w.sound rank → hs.tame rank → rank f < n →
      ∃ r, fsm_poll hs n f w = .ok r ∧ r.ret = 0) ∧
    ∀ r, fsm_poll hs n f w = .ok r →
      (100 ≤ sub32 (uptime_ms w) R.ts_poll →
        posted (own r.trace) = [(F.event_queue, poll_event (uptime_ms w))] ∧
        ∃ l t w1, poll_locked f w = .ok (l, t, w1) ∧
          w1.state? ROOT = some
            { R with ts_poll := uptime_ms w, poll_interval := R.poll_interval_next }) ∧
      (sub32 (uptime_ms w) R.ts_poll < 100 →
        posted (own r.trace) = [] ∧
        (∀ q e b ok, action.send q e b ok ∈ own r.trace → e.type ≠ FSM_EVT_POLL) ∧
        (∃ l t w1, poll_locked f w = .ok (l, t, w1) ∧ w1.states = w.states ∧
          w1.queues = w.queues) ∧
        (hs.keep (fun w => w.state? ROOT) → hs.keep (fun w => w.fsms) →
          w.sole_user f ROOT → (∀ d, (d, action.poll f) ∉ r.trace) →
          r.world.state? ROOT = some R)) := by
  have hst : F.stepped.sta_curr = ROOT := by rw [stepped_of_empty F hnext]; exact hcur
  refine ⟨rfl, by decide, ?_, ?_⟩
  · intro rank hw ht hn
    exact fsm_poll_total hs rank ht n f w hw (by simp only [World.fsm?] at hF; simp [hF]) hn
  · intro r hr
    have hC : w.state? F.stepped.sta_curr = some R := by rw [hst]; exact hR
    have hfin : R.poll_interval ≠ FSM_NO_POLL := by rw [hint]; decide
    obtain ⟨h1, h2, -⟩ := generation_finite hs n f w r F R hF hC hfin hr
    rw [hst, hint] at h1 h2
    refine ⟨fun h => ?_, fun h => ?_⟩
    · obtain ⟨a, b, -⟩ := h1 h
      exact ⟨a, b⟩
    · exact h2 h

theorem C22_root_polling_witness :
    w_new.fsm? 1 = some
      { magic_number := 4112441695, lock := 2, name := "F", poll_interval := 100,
        event_queue := 1, parent_state := 0, state_list := 0, sta_prev := 1, sta_curr := 1,
        sta_next := 0, next := 0, os := 1 } ∧
    (∃ r, fsm_poll hs_idle 1 1 { w_new with now := 50 } = .ok r ∧ r.ret = 0) ∧
    ∀ r, fsm_poll hs_idle 1 1 { w_new with now := 50 } = .ok r →
      posted (own r.trace) = [] ∧ r.world.state? ROOT = some
        { magic_number := 438215115, id := 4294967295, name := "ROOT", handler := 0,
          ts_poll := 0, poll_interval := 100, poll_interval_next := 100, lock := 1,
          parent_fsm := 0, child_fsm := 0, next := 0 } := by
  have h := C22_root_polling hs_idle 1 1 { w_new with now := 50 }
    { magic_number := 4112441695, lock := 2, name := "F", poll_interval := 100,
      event_queue := 1, parent_state := 0, state_list := 0, sta_prev := 1, sta_curr := 1,
      sta_next := 0, next := 0, os := 1 }
    { magic_number := 438215115, id := 4294967295, name := "ROOT", handler := 0,
      ts_poll := 0, poll_interval := 100, poll_interval_next := 100, lock := 1,
      parent_fsm := 0, child_fsm := 0, next := 0 } rfl rfl rfl rfl rfl
  obtain ⟨-, -, htot, hres⟩ := h
  refine ⟨rfl, htot (fun _ => 0) (sound_now _ _ 50 w_new_sound) (hs_idle_tame _) (by decide), ?_⟩
  intro r hr
  obtain ⟨-, hlt⟩ := hres r hr
  obtain ⟨hp, -, -, hk⟩ := hlt (by decide)
  refine ⟨hp, hk (hs_idle_keep _) (hs_idle_keep _) ?_ ?_⟩
  · intro g G hne hG
    rcases g with _ | _ | g
    · simp [World.fsm?] at hG
    · exact absurd rfl hne
    · simp [World.fsm?, w_new, cell] at hG
  · intro d hmem
    have := map_eq_ok.mp
      (show (fsm_poll hs_idle 1 1 { w_new with now := 50 }).map
          (fun r => all_polled r.trace) = .ok [] from by decide)
    obtain ⟨r1, hr1, hv⟩ := this
    rw [hr] at hr1
    cases hr1
    have := mem_all_polled hmem
    rw [hv] at this
    simp at this

/-! ## Locks and handlers -/

theorem mem_deeper {t : List (Nat × action)} {d : Nat} {a : action}
    (h : (d, a) ∈ deeper t) : ∃ d1, (d1, a) ∈ t := by
  simp only [deeper, List.mem_map, Prod.mk.injEq] at h
  obtain ⟨⟨d1, a1⟩, hm, -, rfl⟩ := h
  exact ⟨d1, hm⟩

theorem mem_here {t : List action} {d : Nat} {a : action}
    (h : (d, a) ∈ here t) : a ∈ t := by
  simp only [here, List.mem_map, Prod.mk.injEq] at h
  obtain ⟨a1, hm, -, rfl⟩ := h
  exact hm

/-- The child loop: the locks held are as before, and so they were at every handler call,
when that holds for the polls. -/
theorem poll_children_held (P : Nat → World → Except fault poll_result)
    (ih : ∀ f w r, P f w = .ok r → r.world.held = w.held ∧
      ∀ d h e H, (d, action.call h e H) ∈ r.trace → H = w.held)
    (o : Option event) :
    ∀ (buf : List Nat) (w w1 : World) (t : List (Nat × action)),
      poll_children P o buf w = .ok (t, w1) →
      w1.held = w.held ∧ ∀ d h e H, (d, action.call h e H) ∈ t → H = w.held := by
  intro buf
  induction buf with
  | nil =>
    intro w w1 t h
    simp only [poll_children, Except.ok.injEq, Prod.mk.injEq] at h
    obtain ⟨rfl, rfl⟩ := h
    exact ⟨rfl, fun d h e H hm => by simp at hm⟩
  | cons c rest ihb =>
    intro w w1 t h
    obtain ⟨t1, w2, r, t2, hf, hp, hc, rfl⟩ := poll_children_cons_inv h
    obtain ⟨C, -, -, -, -, -, -, hheld, -⟩ := poll_forward_inv hf
    obtain ⟨C1, -, ht1⟩ := poll_forward_trace hf
    obtain ⟨hr1, hr2⟩ := ih c w2 r hp
    obtain ⟨hc1, hc2⟩ := ihb r.world w1 t2 hc
    refine ⟨by rw [hc1, hr1, hheld], ?_⟩
    intro d h e H hm
    simp only [List.mem_append, List.mem_cons, Prod.mk.injEq] at hm
    rcases hm with (hm | hm | hm) | hm
    · have := mem_here hm
      rcases ht1 with ⟨rfl, -⟩ | ⟨e1, ok, -, -, rfl⟩
      · simp at this
      · simp at this
    · exact absurd hm.2 (by simp)
    · obtain ⟨d1, hd1⟩ := mem_deeper hm
      rw [hr2 d1 h e H hd1, hheld]
    · rw [hc2 d h e H hm, hr1, hheld]

/-- A poll leaves the locks held as they were, and at every handler call, at any depth, the
locks held were those held when the poll was called. -/
theorem fsm_poll_held (hs : handlers) (hk : hs.keep (fun w => w.held)) :
    ∀ (n f : Nat) (w : World) (r : poll_result), fsm_poll hs n f w = .ok r →
      r.world.held = w.held ∧ ∀ d h e H, (d, action.call h e H) ∈ r.trace → H = w.held := by
  have hk1 : ∀ h e w, (hs h e w).2.held = w.held := hk
  intro n
  induction n with
  | zero => intro f w r h; simp [fsm_poll] at h
  | succ m ih =>
    intro f w r h
    obtain ⟨m1, l, t0, w1, t1, w2, t2, w3, o, t3, w4, t4, hm, hl, hx, he, hd, hc, -, htr⟩ :=
      fsm_poll_inv h
    obtain rfl : m = m1 := Nat.succ.inj hm
    obtain ⟨F, C, -, -, -, -, -, -, -, -, -, -, -, h1, -, -, -, hg1, hg2, hg3⟩ := poll_locked_inv hl
    obtain ⟨hx0, hx1⟩ := poll_exit_inv hx
    obtain ⟨he0, he1⟩ := poll_enter_inv he
    obtain ⟨Q, hQ, hd0, hd1⟩ := poll_dispatch_inv hd
    have h2 : w2.held = w1.held ∧ ∀ a ∈ t1, ∀ h e H, a = action.call h e H → H = w1.held := by
      by_cases hz : l.exit = 0
      · obtain ⟨rfl, rfl⟩ := hx0 hz
        exact ⟨rfl, fun a ha => by simp at ha⟩
      · obtain ⟨F1, C1, -, -, rfl, rfl⟩ := hx1 hz
        refine ⟨hk1 _ _ _, ?_⟩
        intro a ha h e H hh
        simp only [List.mem_singleton] at ha
        rw [ha] at hh
        exact (action.call.inj hh).2.2.symm
    have h3 : w3.held = w2.held ∧ ∀ a ∈ t2, ∀ h e H, a = action.call h e H → H = w2.held := by
      by_cases hz : l.enter = 0
      · obtain ⟨rfl, rfl⟩ := he0 hz
        exact ⟨rfl, fun a ha => by simp at ha⟩
      · obtain ⟨F1, P1, -, -, rfl, rfl⟩ := he1 hz
        refine ⟨hk1 _ _ _, ?_⟩
        intro a ha h e H hh
        simp only [List.mem_singleton] at ha
        rw [ha] at hh
        exact (action.call.inj hh).2.2.symm
    have h4 : w4.held = w3.held ∧ ∀ a ∈ t3, ∀ h e H, a = action.call h e H → H = w3.held := by
      cases hi : Q.items with
      | nil =>
        obtain ⟨-, rfl, rfl⟩ := hd0 hi
        exact ⟨rfl, fun a ha h e H hh => by
          simp only [List.mem_singleton] at ha
          rw [ha] at hh
          cases hh⟩
      | cons ev rest =>
        obtain ⟨hn0, hn1⟩ := hd1 ev rest hi
        by_cases hz : l.handler = 0
        · obtain ⟨-, rfl, rfl⟩ := hn0 hz
          exact ⟨rfl, fun a ha h e H hh => by
            simp only [List.mem_singleton] at ha
            rw [ha] at hh
            cases hh⟩
        · obtain ⟨-, rfl, rfl⟩ := hn1 hz
          refine ⟨hk1 _ _ _, ?_⟩
          intro a ha h e H hh
          simp only [List.mem_cons, List.mem_singleton, List.not_mem_nil, or_false] at ha
          rcases ha with ha | ha
          · rw [ha] at hh
            cases hh
          · rw [ha] at hh
            exact (action.call.inj hh).2.2.symm
    have h0 : ∀ a ∈ t0, ∀ h e H, a ≠ action.call h e H := by
      intro a ha h e H hh
      by_cases hn : C.poll_interval = FSM_NO_POLL
      · rw [(hg1 hn).1] at ha
        simp at ha
      · by_cases hlt : sub32 (uptime_ms w) C.ts_poll < C.poll_interval
        · rw [(hg2 hn hlt).1] at ha
          simp at ha
        · obtain ⟨Q1, -, ht, -⟩ := hg3 hn (Nat.le_of_not_lt hlt)
          rw [ht] at ha
          simp only [List.mem_singleton] at ha
          rw [ha] at hh
          cases hh
    obtain ⟨h5, h6⟩ := poll_children_held (fsm_poll hs m) ih o l.child_fsm_buf w4 r.world t4 hc
    refine ⟨by rw [h5, h4.1, h3.1, h2.1, h1], ?_⟩
    intro d h e H hmem
    rw [htr] at hmem
    simp only [List.mem_append] at hmem
    rcases hmem with hmem | hmem
    · have hm1 := mem_here hmem
      simp only [List.mem_append] at hm1
      rcases hm1 with ((hm1 | hm1) | hm1) | hm1
      · exact absurd rfl (h0 _ hm1 h e H)
      · rw [h2.2 _ hm1 h e H rfl, h1]
      · rw [h3.2 _ hm1 h e H rfl, h2.1, h1]
      · rw [h4.2 _ hm1 h e H rfl, h3.1, h2.1, h1]
    · rw [h6 d h e H hmem, h4.1, h3.1, h2.1, h1]

/-- C23 (No lock is held while user code runs): `fsm_poll`, called with no lock held and with
handlers that return with the locks as they found them, returns (in a sound world, with tame
handlers and enough fuel), and at every invocation of a state handler in the poll (the EXIT
call, the ENTER call and the dispatch of the dequeued event), at any depth of the recursion
into child FSMs, the set of locks the engine had acquired and not yet released was empty; no
lock is held when the poll returns either. -/
theorem C23_no_lock_in_handlers (hs : handlers) (hk : hs.keep (fun w => w.held)) (n f : Nat)
    (w : World) (hw : w.held = []) :
    (∀ rank, w.sound rank → hs.tame rank → (w.fsm? f).isSome → rank f < n →
      ∃ r, fsm_poll hs n f w = .ok r ∧ r.ret = 0) ∧
    ∀ r, fsm_poll hs n f w = .ok r →
      r.world.held = [] ∧ ∀ d h e held, (d, action.call h e held) ∈ r.trace → held = [] := by
  refine ⟨fun rank hs1 ht hf hn => fsm_poll_total hs rank ht n f w hs1 hf hn, ?_⟩
  intro r hr
  obtain ⟨h1, h2⟩ := fsm_poll_held hs hk n f w r hr
  rw [hw] at h1 h2
  exact ⟨h1, h2⟩

theorem C23_no_lock_in_handlers_witness :
    w_tree.held = [] ∧
    ∃ r, fsm_poll hs_idle 2 1 { w_tree with now := 13 } = .ok r ∧
      calls (own r.trace) = [(1, { type := 42325, timestamp := 12, data := .user 7, datalen := 4 })] ∧
      (r.trace.filterMap (fun a => match a.2 with
        | .call h _ _ => some (a.1, h)
        | _ => none)) = [(0, 1), (1, 3)] ∧
      ∀ d h e held, (d, action.call h e held) ∈ r.trace → held = [] := by
  have h := C23_no_lock_in_handlers hs_idle (hs_idle_keep _) 2 1 { w_tree with now := 13 } rfl
  obtain ⟨r, hr, hv⟩ := map_eq_ok.mp
    (show (fsm_poll hs_idle 2 1 { w_tree with now := 13 }).map
        (fun r => (calls (own r.trace), r.trace.filterMap (fun a => match a.2 with
          | .call h _ _ => some (a.1, h)
          | _ => none))) =
      .ok ([(1, { type := 42325, timestamp := 12, data := .user 7, datalen := 4 })],
        [(0, 1), (1, 3)]) from by decide)
  simp only [Prod.mk.injEq] at hv
  exact ⟨rfl, r, hr, hv.1, hv.2, (h.2 r hr).2⟩

/-! ## Deleting an FSM -/

/-- The loop of `fsm_deinit` over a well-formed state list of valid states: it ends, every
state of the list is freed, the list of the FSM is empty afterwards, and nothing else
changes but the pending request. -/
theorem deinit_walk_ok (f : Nat) : ∀ (L : List Nat) (n : Nat) (w : World) (F : fsm),
    cell w.fsms f = some F → F.valid → F.lock ∉ w.held →
    linked (state_next w.states) F.state_list L →
    (∀ a ∈ L, ∃ S, cell w.states a = some S ∧ S.magic_number = STATE_MAGIC_NUMBER ∧
      S.lock ≠ 0 ∧ S.lock ∉ w.held ∧ S.lock ≠ F.lock) →
    L.length < n →
    ∃ w1 x, deinit_walk f n F.state_list w = .ok w1 ∧ w1.held = w.held ∧
      w1.queues = w.queues ∧ w1.mutexes = w.mutexes ∧ w1.now = w.now ∧
      w1.states.length = w.states.length ∧ w1.fsms.length = w.fsms.length ∧
      cell w1.fsms f = some { F with state_list := 0, sta_next := x } ∧
      (∀ g, g ≠ f → cell w1.fsms g = cell w.fsms g) ∧
      (∀ a ∈ L, cell w1.states a = none) ∧
      (∀ b, b ∉ L → cell w1.states b = cell w.states b) := by
  intro L
  induction L with
  | nil =>
    intro n w F hF hv hl hL hS hn
    have h0 : F.state_list = 0 := hL
    obtain ⟨m, rfl⟩ : ∃ m, n = m + 1 := ⟨n - 1, by omega⟩
    refine ⟨w, F.sta_next, ?_, rfl, rfl, rfl, rfl, rfl, rfl, ?_, fun _ _ => rfl,
      fun a ha => by simp at ha, fun _ _ => rfl⟩
    · simp [deinit_walk, h0]
    · rw [hF, ← h0]
  | cons a post ih =>
    intro n w F hF hv hl hL hS hn
    have hnd := linked_nodup _ _ _ hL
    obtain ⟨h0, ha, q, hq, hpost⟩ := hL
    obtain ⟨S, hSa, hSm, hSl, hSh, hne⟩ := hS a (List.mem_cons_self _ _)
    have hSq : S.next = q := by
      rw [← ha] at hq
      simp only [state_next, hSa, Option.map_some'] at hq
      exact Option.some.inj hq
    obtain ⟨m, rfl⟩ : ∃ m, n = m + 1 := ⟨n - 1, by simp at hn; omega⟩
    have hchain : state_chain w.states (w.states.length + 1) F.state_list =
        .ok ([] ++ a :: post) :=
      (registry_iff w F (a :: post)).mpr ⟨h0, ha, q, hq, hpost⟩
    obtain ⟨w1, hun, hheld, hqs, hmx, hnow, hlen, hflen, hca, hother, -, hfo, hff⟩ :=
      fsm_state_unregister_found f a w F S [] post hF hv hl hchain hSa hSm hSl hSh hne
    simp only [if_true] at hff
    have hapost : a ∉ post := (List.nodup_cons.mp hnd).1
    have hcell : ∀ b, b ≠ a → cell (free_state a w1).states b = cell w.states b := by
      intro b hb
      simp only [free_state]
      rw [cell_put_ne _ _ (Ne.symm hb)]
      exact hother b hb (by simp)
    have hpost1 : linked (state_next (free_state a w1).states)
        ({ F with state_list := S.next,
                  sta_next := if F.sta_next = a then 0 else F.sta_next } : fsm).state_list
        post := by
      refine linked_congr (state_next w.states) _ post _ ?_ (hSq ▸ hpost)
      intro b hb
      simp only [state_next]
      rw [hcell b (fun e => hapost (e ▸ hb))]
    obtain ⟨w2, x, hw2, hh2, hq2, hm2, hn2, hl2, hfl2, hf2, ho2, hs2, hk2⟩ :=
      ih m (free_state a w1)
        { F with state_list := S.next, sta_next := if F.sta_next = a then 0 else F.sta_next }
        (by simpa [free_state] using hff) hv
        (by simpa [free_state, hheld] using hl) hpost1
        (by
          intro b hb
          obtain ⟨T, hT, h1, h2, h3, h4⟩ := hS b (List.mem_cons_of_mem _ hb)
          refine ⟨T, ?_, h1, h2, ?_, h4⟩
          · rw [hcell b (fun e => hapost (e ▸ hb))]
            exact hT
          · simpa [free_state, hheld] using h3)
        (by simp at hn; omega)
    refine ⟨w2, x, ?_, ?_, ?_, ?_, ?_, ?_, ?_, ?_, ?_, ?_, ?_⟩
    · rw [← ha] at h0 ⊢
      simp only [deinit_walk, h0, if_false, World.state?, hSa, ld, ok_bind, hun]
      exact hw2
    · rw [hh2]; simpa [free_state] using hheld
    · rw [hq2]; simpa [free_state] using hqs
    · rw [hm2]; simpa [free_state] using hmx
    · rw [hn2]; simpa [free_state] using hnow
    · rw [hl2]
      simp only [free_state]
      cases a with
      | zero => simpa [put] using hlen
      | succ k => simpa [put] using hlen
    · rw [hfl2]; simpa [free_state] using hflen
    · rw [hf2]
    · intro g hg
      rw [ho2 g hg]
      simpa [free_state] using hfo g hg
    · intro b hb
      rcases List.mem_cons.mp hb with rfl | hb
      · rw [hk2 b hapost]
        simp only [free_state]
        exact cell_put_same _ hca
      · exact hs2 b hb
    · intro b hb
      have hba : b ≠ a := fun e => hb (e ▸ List.mem_cons_self _ _)
      have hbp : b ∉ post := fun e => hb (List.mem_cons_of_mem _ e)
      rw [hk2 b hbp, hcell b hba]

/-! ## Worlds with the same registries -/

theorem alike_refl (w : World) : w.alike w :=
  ⟨rfl, Nat.le_refl _, fun _ => rfl, fun _ => rfl⟩

theorem alike_trans {a b c : World} (h1 : a.alike b) (h2 : b.alike c) : a.alike c :=
  ⟨h2.1.trans h1.1, Nat.le_trans h1.2.1 h2.2.1,
    fun p => (h2.2.2.1 p).trans (h1.2.2.1 p), fun g => (h2.2.2.2 g).trans (h1.2.2.2 g)⟩

theorem alike_state {w w1 : World} (h : w.alike w1) {a : Nat} {S : state}
    (hS : cell w.states a = some S) : ∃ S1, cell w1.states a = some S1 ∧ S1.core = S.core := by
  have := h.2.2.1 a
  rw [hS] at this
  cases h1 : cell w1.states a with
  | none => simp [h1] at this
  | some S1 => exact ⟨S1, rfl, by simpa [h1] using this⟩

theorem alike_fsm {w w1 : World} (h : w.alike w1) {g : Nat} {G : fsm}
    (hG : cell w.fsms g = some G) : ∃ G1, cell w1.fsms g = some G1 ∧ G1.core = G.core := by
  have := h.2.2.2 g
  rw [hG] at this
  cases h1 : cell w1.fsms g with
  | none => simp [h1] at this
  | some G1 => exact ⟨G1, rfl, by simpa [h1] using this⟩

theorem alike_fsm_back {w w1 : World} (h : w.alike w1) {g : Nat} {G1 : fsm}
    (hG : cell w1.fsms g = some G1) : ∃ G, cell w.fsms g = some G ∧ G1.core = G.core := by
  have := h.2.2.2 g
  rw [hG] at this
  cases h1 : cell w.fsms g with
  | none => simp [h1] at this
  | some G => exact ⟨G, rfl, by simpa [h1] using this⟩

theorem alike_next {w w1 : World} (h : w.alike w1) (a : Nat) :
    state_next w1.states a = state_next w.states a := by
  have := h.2.2.1 a
  simp only [state_next]
  cases h1 : cell w1.states a with
  | none =>
    cases h0 : cell w.states a with
    | none => rfl
    | some S => simp [h1, h0] at this
  | some S1 =>
    cases h0 : cell w.states a with
    | none => simp [h1, h0] at this
    | some S =>
      simp only [h1, h0, Option.map_some', Option.some.injEq, state.core, Prod.mk.injEq] at this
      simp [this.2.2.2.2]

theorem alike_ids {w w1 : World} (h : w.alike w1) (L : List Nat) : w1.ids L = w.ids L := by
  unfold World.ids
  apply List.filterMap_congr
  intro a _
  have := h.2.2.1 a
  simp only [World.state?]
  cases h1 : cell w1.states a with
  | none =>
    cases h0 : cell w.states a with
    | none => rfl
    | some S => simp [h1, h0] at this
  | some S1 =>
    cases h0 : cell w.states a with
    | none => simp [h1, h0] at this
    | some S =>
      simp only [h1, h0, Option.map_some', Option.some.injEq, state.core, Prod.mk.injEq] at this
      simp [this.2.1]

/-- What `tidy` says is a matter of the registries only. -/
theorem tidy_alike {w w1 : World} (h : w.alike w1) (ht : w.tidy) : w1.tidy := by
  obtain ⟨hheld, hall⟩ := ht
  refine ⟨h.1.trans hheld, ?_⟩
  intro g G1 hG1
  obtain ⟨G, hG, hc⟩ := alike_fsm_back h hG1
  simp only [fsm.core, Prod.mk.injEq] at hc
  obtain ⟨hv, hlk, L, hL, hnd, hS⟩ := hall g G hG
  refine ⟨?_, ?_, L, ?_, ?_, ?_⟩
  · unfold fsm.valid at hv ⊢
    rw [hc.1, hc.2.1, hc.2.2.1, hc.2.2.2.1]
    exact hv
  · rw [hc.2.2.1]
    exact Nat.le_trans hlk h.2.1
  · rw [registry_iff] at hL ⊢
    rw [hc.2.2.2.2]
    exact linked_congr _ _ L _ (fun a _ => alike_next h a) hL
  · rw [alike_ids h]
    exact hnd
  · intro a ha
    obtain ⟨S, hSa, h1, h2, h3, h4⟩ := hS a ha
    obtain ⟨S1, hS1, hc1⟩ := alike_state h hSa
    simp only [state.core, Prod.mk.injEq] at hc1
    refine ⟨S1, hS1, ?_, ?_, ?_, ?_⟩
    · rw [hc1.1]; exact h1
    · rw [hc1.2.2.1]; exact h2
    · rw [hc1.2.2.2.1]; exact h3
    · rw [hc1.2.2.2.1, hc.2.2.1]; exact h4

theorem alike_setState {w : World} {p : Nat} {S S1 : state} (hS : cell w.states p = some S)
    (hc : S1.core = S.core) : w.alike (w.setState p S1) :=
  ⟨rfl, Nat.le_refl _, fun q => cell_put_map _ _ _ _ _ hS hc q, fun _ => rfl⟩

theorem alike_setFsm {w : World} {p : Nat} {F F1 : fsm} (hF : cell w.fsms p = some F)
    (hc : F1.core = F.core) : w.alike (w.setFsm p F1) :=
  ⟨rfl, Nat.le_refl _, fun _ => rfl, fun q => cell_put_map _ _ _ _ _ hF hc q⟩

/-- A world that differs in the held locks, the queues and the clock only. -/
theorem alike_of_eq {w w1 : World} (hh : w1.held = w.held) (hm : w.mutexes ≤ w1.mutexes)
    (hs : w1.states = w.states) (hf : w1.fsms = w.fsms) : w.alike w1 :=
  ⟨hh, hm, fun _ => by rw [hs], fun _ => by rw [hf]⟩

theorem lock_unlock (m : Nat) (w : World) :
    mutex_unlock m { w with held := m :: w.held } = w := by
  cases w
  simp [mutex_unlock]

/-- The detachment of an FSM from its parent state, as `fsm_deinit` does it: the call
returns 0 and keeps the registries and the queues. -/
theorem deinit_detach (f : Nat) (w : World) (F : fsm) (P : state) (K : List Nat)
    (hF : cell w.fsms f = some F) (hv : F.valid) (hl : F.lock ∉ w.held)
    (hP : cell w.states F.parent_state = some P) (hPm : P.magic_number = STATE_MAGIC_NUMBER)
    (hPl : P.lock ≠ 0) (hPh : P.lock ∉ w.held) (hne : F.lock ≠ P.lock)
    (hK : fsm_chain w.fsms (w.fsms.length + 1) P.child_fsm = .ok K) :
    ∃ wa y z, fsm_state_child_fsm_del F.parent_state f w = .ok (0, wa) ∧ w.alike wa ∧
      wa.queues = w.queues ∧ wa.mutexes = w.mutexes ∧
      cell wa.fsms f = some { F with parent_state := y, next := z } := by
  by_cases hmem : f ∈ K
  · obtain ⟨pre, post, rfl⟩ := List.append_of_mem hmem
    obtain ⟨wa, hrun, hheld, hq, hm, -, hcf, hother, hlast, hso, hst⟩ :=
      child_fsm_del_found F.parent_state f w P F pre post hP hPm hPl hPh hF hv hl hne hK
    refine ⟨wa, 0, 0, hrun, ⟨hheld, Nat.le_of_eq hm.symm, ?_, ?_⟩, hq, hm, hcf⟩
    · intro p
      by_cases hp : p = F.parent_state
      · rw [hp, hst, hP]
        rfl
      · rw [hso p hp]
    · intro g
      by_cases hg : g = f
      · rw [hg, hcf, hF]
        rfl
      · by_cases hg1 : pre.getLast? = some g
        · rw [hlast g hg1]
          cases cell w.fsms g with
          | none => rfl
          | some G => rfl
        · rw [hother g hg hg1]
  · have hrun := child_fsm_del_absent F.parent_state f w P F K hP hPm hPl hPh hF hv hK hmem
    refine ⟨w, F.parent_state, F.next, hrun, alike_refl w, rfl, rfl, ?_⟩
    rw [hF]

/-- What `fsm_deinit` does with a valid FSM (lock free, event queue alive, state list well
formed and of valid states, attached to a valid state or to none): it returns 0, every state
of the list is freed, the queue is destroyed, the record is wiped, and the other registries
are as before. -/
theorem fsm_deinit_ok (f : Nat) (w : World) (F : fsm) (Q : queue) (L : List Nat)
    (hF : cell w.fsms f = some F) (hv : F.valid) (hl : F.lock ∉ w.held)
    (hQ : cell w.queues F.event_queue = some Q)
    (hL : w.registry F = .ok L)
    (hS : ∀ a ∈ L, ∃ S, cell w.states a = some S ∧ S.magic_number = STATE_MAGIC_NUMBER ∧
      S.lock ≠ 0 ∧ S.lock ∉ w.held ∧ S.lock ≠ F.lock)
    (hpar : F.parent_state ≠ 0 → ∃ P K, cell w.states F.parent_state = some P ∧
      P.magic_number = STATE_MAGIC_NUMBER ∧ P.lock ≠ 0 ∧ P.lock ∉ w.held ∧ F.lock ≠ P.lock ∧
      fsm_chain w.fsms (w.fsms.length + 1) P.child_fsm = .ok K) :
    ∃ w1 y z, fsm_deinit f w = .ok (0, w1) ∧ w1.held = w.held ∧ w.mutexes ≤ w1.mutexes ∧
      (∀ a ∈ L, cell w1.states a = none) ∧
      (∀ b, b ∉ L → (cell w1.states b).map state.core = (cell w.states b).map state.core) ∧
      cell w1.queues F.event_queue = none ∧
      cell w1.fsms f = some
        { magic_number := 0, lock := 0, name := "", poll_interval := 0, event_queue := 0,
          parent_state := y, state_list := 0, sta_prev := 0, sta_curr := 0, sta_next := 0,
          next := z, os := 0 } ∧
      (∀ g, g ≠ f → (cell w1.fsms g).map fsm.core = (cell w.fsms g).map fsm.core) := by
  have hdet : ∃ wa y z, (if F.parent_state ≠ 0 then
        (fsm_state_child_fsm_del F.parent_state f w).map (fun r => r.2)
      else .ok w) = .ok wa ∧ w.alike wa ∧ wa.queues = w.queues ∧ wa.mutexes = w.mutexes ∧
      cell wa.fsms f = some { F with parent_state := y, next := z } := by
    by_cases hp : F.parent_state = 0
    · exact ⟨w, F.parent_state, F.next, by simp [hp], alike_refl w, rfl, rfl, by rw [hF]⟩
    · obtain ⟨P, K, h1, h2, h3, h4, h5, h6⟩ := hpar hp
      obtain ⟨wa, y, z, hrun, hal, hq, hm, hc⟩ :=
        deinit_detach f w F P K hF hv hl h1 h2 h3 h4 h5 h6
      exact ⟨wa, y, z, by simp [hp, hrun], hal, hq, hm, hc⟩
  obtain ⟨wa, y, z, hrun, hal, hqa, hma, hca⟩ := hdet
  have hLa : linked (state_next wa.states)
      ({ F with parent_state := y, next := z } : fsm).state_list L :=
    linked_congr _ _ L _ (fun a _ => alike_next hal a) ((registry_iff w F L).mp hL)
  have hla : F.lock ∉ wa.held := by rw [hal.1]; exact hl
  obtain ⟨w2, x, hwalk, hh2, hq2, hm2, -, -, -, hf2, ho2, hs2, hk2⟩ :=
    deinit_walk_ok f L (wa.states.length + 1) wa { F with parent_state := y, next := z }
      hca hv hla hLa
      (by
        intro a ha
        obtain ⟨S, hSa, h1, h2, h3, h4⟩ := hS a ha
        obtain ⟨S1, hS1, hc1⟩ := alike_state hal hSa
        simp only [state.core, Prod.mk.injEq] at hc1
        refine ⟨S1, hS1, ?_, ?_, ?_, ?_⟩
        · rw [hc1.1]; exact h1
        · rw [hc1.2.2.2.1]; exact h2
        · rw [hc1.2.2.2.1, hal.1]; exact h3
        · rw [hc1.2.2.2.1]; exact h4)
      (linked_states_length _ _ _ hLa)
  have hl2 : F.lock ∉ w2.held := by rw [hh2]; exact hla
  have hQ2 : cell w2.queues F.event_queue = some Q := by rw [hq2, hqa]; exact hQ
  dsimp only at hwalk hf2
  have hwa : wa.states.length + 1 = wa.sfuel := rfl
  have hfin : ∃ w1, deinit_finish f w2 = .ok (0, w1) ∧ w1.held = w2.held ∧
      w1.states = w2.states ∧ w1.mutexes = w2.mutexes ∧
      w1.queues = put (put w2.queues F.event_queue (some { Q with items := [] }))
        F.event_queue none ∧
      cell w1.fsms f = some
        { magic_number := 0, lock := 0, name := "", poll_interval := 0, event_queue := 0,
          parent_state := y, state_list := 0, sta_prev := 0, sta_curr := 0, sta_next := 0,
          next := z, os := 0 } ∧
      ∀ g, g ≠ f → cell w1.fsms g = cell w2.fsms g := by
    unfold deinit_finish
    simp only [World.fsm?, hf2, ld, ok_bind, mutex_lock, hl2, if_false, queue_clear,
      World.queue?, World.setFsm, hQ2, World.setQueue, queue_destroy, pure_eq_ok,
      cell_put_same _ hf2, mutex_destroy, List.erase_cons_head]
    refine ⟨_, rfl, rfl, rfl, rfl, rfl, ?_, ?_⟩
    · exact cell_put_same _ (cell_put_same _ hf2)
    · intro g hg
      rw [cell_put_ne _ _ (Ne.symm hg), cell_put_ne _ _ (Ne.symm hg)]
  obtain ⟨w1, hfin, hh1, hs1, hm1, hq1, hf1, ho1⟩ := hfin
  refine ⟨w1, y, z, ?_, ?_, ?_, ?_, ?_, ?_, hf1, ?_⟩
  · unfold fsm_deinit
    simp only [World.fsm?, hF, ld, ok_bind, ASSERT, hv.1, hv.2.1, hv.2.2.1, if_true, ne_eq,
      not_false_eq_true, mutex_lock, hl, if_false, lock_unlock, pure_eq_ok]
    by_cases hp : F.parent_state = 0
    · simp only [hp, ne_eq, not_true_eq_false, if_false, Except.ok.injEq] at hrun
      subst hrun
      simp only [hp, not_true_eq_false, if_false, ← hwa, hwalk, ok_bind, hfin]
    · simp only [hp, ne_eq, not_false_eq_true, if_true] at hrun
      simp only [hp, not_false_eq_true, if_true, hrun, ok_bind, ← hwa, hwalk, hfin]
  · rw [hh1, hh2, hal.1]
  · rw [hm1, hm2, hma]
  · intro a ha
    rw [hs1]
    exact hs2 a ha
  · intro b hb
    rw [hs1, hk2 b hb]
    exact hal.2.2.1 b
  · rw [hq1]
    exact cell_put_same _ (cell_put_same _ hQ2)
  · intro g hg
    rw [ho1 g hg, ho2 g hg]
    exact hal.2.2.2 g

/-- The values that `fsm_del` returns: `-1` when given a null
pointer-to-handle and `-2` when the handle it points to is null, and leaves the world as it
is in both cases; for a handle to a valid FSM (lock free, event queue alive, state list well
formed and of valid states, empty or not, attached to a valid state or to none) it returns
`0` and sets the handle of the caller to null, and afterwards the FSM record and every state
that was registered are freed, the event queue is destroyed and no lock is held that was not
held before. -/
theorem fsm_del_codes (w : World) :
    fsm_del none w = .ok (-1, none, w) ∧
    fsm_del (some 0) w = .ok (-2, some 0, w) ∧
    ∀ (f : Nat) (F : fsm) (Q : queue) (L : List Nat),
      w.fsm? f = some F → F.valid → F.lock ∉ w.held → w.queue? F.event_queue = some Q →
      w.registry F = .ok L →
      (∀ a ∈ L, ∃ S, w.state? a = some S ∧ S.magic_number = STATE_MAGIC_NUMBER ∧
        S.lock ≠ 0 ∧ S.lock ∉ w.held ∧ S.lock ≠ F.lock) →
      (F.parent_state ≠ 0 → ∃ P K, w.state? F.parent_state = some P ∧
        P.magic_number = STATE_MAGIC_NUMBER ∧ P.lock ≠ 0 ∧ P.lock ∉ w.held ∧
        F.lock ≠ P.lock ∧ w.kids F.parent_state = .ok K) →
      ∃ w1, fsm_del (some f) w = .ok (0, some 0, w1) ∧ w1.fsm? f = none ∧
        (∀ a ∈ L, w1.state? a = none) ∧ w1.queue? F.event_queue = none ∧
        w1.held = w.held := by
  refine ⟨rfl, rfl, ?_⟩
  intro f F Q L hF hv hl hQ hL hS hpar
  simp only [World.fsm?, World.queue?, World.state?] at hF hQ hS hpar
  have hf0 : f ≠ 0 := (cell_bound hF).1
  obtain ⟨w1, y, z, hrun, hheld, -, hst, -, hq, hfz, -⟩ :=
    fsm_deinit_ok f w F Q L hF hv hl hQ hL hS (by
      intro hp
      obtain ⟨P, K, h1, h2, h3, h4, h5, h6⟩ := hpar hp
      refine ⟨P, K, h1, h2, h3, h4, h5, ?_⟩
      simpa [World.kids, h1, ld] using h6)
  refine ⟨free_fsm f w1, ?_, ?_, hst, hq, hheld⟩
  · simp only [fsm_del, hf0, if_false, hrun, ok_bind, pure_eq_ok]
  · simp only [World.fsm?, free_fsm]
    exact cell_put_same _ hfz

theorem fsm_del_codes_example :
    fsm_del none w_tree = .ok (-1, none, w_tree) ∧
    fsm_del (some 0) w_tree = .ok (-2, some 0, w_tree) ∧
    (w_tree.fsm? 2).map (fun F => (F.parent_state, F.state_list)) = some (2, 4) ∧
    ∃ w1, fsm_del (some 2) w_tree = .ok (0, some 0, w1) ∧ w1.fsm? 2 = none ∧
      (∀ a ∈ [4], w1.state? a = none) ∧ w1.queue? 2 = none ∧ w1.held = [] := by
  have h := fsm_del_codes w_tree
  refine ⟨h.1, h.2.1, rfl, ?_⟩
  exact h.2.2 2
    { magic_number := 4112441695, lock := 3, name := "Test child FSM",
      poll_interval := 4294967295, event_queue := 2, parent_state := 2, state_list := 4,
      sta_prev := 1, sta_curr := 4, sta_next := 0, next := 3, os := 1 }
    { length := 10, items := [] } [4] rfl (by decide) (by decide) rfl (by decide)
    (by
      intro a ha
      simp only [List.mem_singleton] at ha
      subst ha
      exact ⟨_, rfl, by decide, by decide, by decide, by decide⟩)
    (fun _ => ⟨_, [2, 3], rfl, by decide, by decide, by decide, by decide, by decide⟩)

/-! ## Calls that keep the registries -/

theorem alike_unlock {w w1 : World} (m : Nat) (h : w.alike w1) (hh : w1.held = m :: w.held) :
    w.alike (mutex_unlock m w1) := by
  refine ⟨?_, h.2.1, h.2.2.1, h.2.2.2⟩
  simp [mutex_unlock, hh]

theorem alike_lock (m : Nat) (w : World) :
    (∀ p, (cell ({ w with held := m :: w.held } : World).states p).map state.core =
      (cell w.states p).map state.core) ∧
    (∀ g, (cell ({ w with held := m :: w.held } : World).fsms g).map fsm.core =
      (cell w.fsms g).map fsm.core) :=
  ⟨fun _ => rfl, fun _ => rfl⟩

/-- The common tail of the three request functions keeps the registries. -/
theorem switch_to_alike {f : Nat} {F : fsm} {node : Nat} {w w1 : World} {r : Int}
    (hF : cell w.fsms f = some F)
    (h : switch_to f F node { w with held := F.lock :: w.held } = .ok (r, w1)) :
    w.alike w1 := by
  unfold switch_to at h
  by_cases hn : node = 0
  · simp only [hn, ne_eq, not_true_eq_false, if_false, Except.ok.injEq, Prod.mk.injEq] at h
    rw [← h.2]
    exact ⟨by simp [mutex_unlock], Nat.le_refl _, fun _ => rfl, fun _ => rfl⟩
  · by_cases hx : F.sta_next = 0
    · simp only [hn, ne_eq, not_false_eq_true, if_true, hx, Except.ok.injEq,
        Prod.mk.injEq] at h
      rw [← h.2]
      refine ⟨by simp [mutex_unlock], Nat.le_refl _, fun _ => rfl, ?_⟩
      intro g
      exact cell_put_map w.fsms f F _ fsm.core hF (by rfl) g
    · simp only [hn, ne_eq, not_false_eq_true, if_true, hx, if_false] at h
      obtain ⟨_, -, h⟩ := bind_eq_ok.mp h
      obtain ⟨_, -, h⟩ := bind_eq_ok.mp h
      simp only [pure_eq_ok, Except.ok.injEq, Prod.mk.injEq] at h
      rw [← h.2]
      exact ⟨by simp [mutex_unlock], Nat.le_refl _, fun _ => rfl, fun _ => rfl⟩

/-- A transition request that returns keeps the registries. -/
theorem request_run_alike {f : Nat} {q : request} {w w1 : World} {r : Int}
    (h : q.run f w = .ok (r, w1)) : w.alike w1 := by
  cases q with
  | by_id id =>
    simp only [request.run, fsm_switch] at h
    obtain ⟨F, hF, h⟩ := bind_eq_ok.mp h
    rw [ld_eq_ok] at hF
    obtain ⟨_, -, h⟩ := bind_eq_ok.mp h
    obtain ⟨_, -, h⟩ := bind_eq_ok.mp h
    obtain ⟨_, -, h⟩ := bind_eq_ok.mp h
    obtain ⟨w2, hw2, h⟩ := bind_eq_ok.mp h
    obtain ⟨-, rfl⟩ := mutex_lock_eq_ok.mp hw2
    obtain ⟨node, -, h⟩ := bind_eq_ok.mp h
    exact switch_to_alike hF h
  | by_state_handle st =>
    simp only [request.run, fsm_switch_by_state_handle] at h
    obtain ⟨F, hF, h⟩ := bind_eq_ok.mp h
    rw [ld_eq_ok] at hF
    obtain ⟨_, -, h⟩ := bind_eq_ok.mp h
    obtain ⟨_, -, h⟩ := bind_eq_ok.mp h
    obtain ⟨_, -, h⟩ := bind_eq_ok.mp h
    obtain ⟨_, -, h⟩ := bind_eq_ok.mp h
    obtain ⟨_, -, h⟩ := bind_eq_ok.mp h
    obtain ⟨w2, hw2, h⟩ := bind_eq_ok.mp h
    obtain ⟨-, rfl⟩ := mutex_lock_eq_ok.mp hw2
    obtain ⟨node, -, h⟩ := bind_eq_ok.mp h
    exact switch_to_alike hF h
  | by_name name =>
    simp only [request.run, fsm_switch_by_name] at h
    obtain ⟨F, hF, h⟩ := bind_eq_ok.mp h
    rw [ld_eq_ok] at hF
    obtain ⟨_, -, h⟩ := bind_eq_ok.mp h
    obtain ⟨_, -, h⟩ := bind_eq_ok.mp h
    obtain ⟨_, -, h⟩ := bind_eq_ok.mp h
    obtain ⟨w2, hw2, h⟩ := bind_eq_ok.mp h
    obtain ⟨-, rfl⟩ := mutex_lock_eq_ok.mp hw2
    obtain ⟨node, -, h⟩ := bind_eq_ok.mp h
    exact switch_to_alike hF h

theorem change_default_alike {f v : Nat} {w w1 : World} {r : Int}
    (h : fsm_change_default_poll_interval f v w = .ok (r, w1)) : w.alike w1 := by
  unfold fsm_change_default_poll_interval at h
  obtain ⟨F, hF, h⟩ := bind_eq_ok.mp h
  rw [ld_eq_ok] at hF
  obtain ⟨_, -, h⟩ := bind_eq_ok.mp h
  obtain ⟨_, -, h⟩ := bind_eq_ok.mp h
  obtain ⟨_, -, h⟩ := bind_eq_ok.mp h
  obtain ⟨w2, hw2, h⟩ := bind_eq_ok.mp h
  obtain ⟨-, rfl⟩ := mutex_lock_eq_ok.mp hw2
  simp only [pure_eq_ok, Except.ok.injEq, Prod.mk.injEq] at h
  rw [← h.2]
  refine ⟨by simp [mutex_unlock], Nat.le_refl _, fun _ => rfl, ?_⟩
  intro g
  exact cell_put_map w.fsms f F _ fsm.core hF (by rfl) g

theorem change_state_alike {st v : Nat} {w w1 : World} {r : Int}
    (h : fsm_change_state_poll_interval st v w = .ok (r, w1)) : w.alike w1 := by
  unfold fsm_change_state_poll_interval at h
  obtain ⟨S, hS, h⟩ := bind_eq_ok.mp h
  rw [ld_eq_ok] at hS
  obtain ⟨_, -, h⟩ := bind_eq_ok.mp h
  simp only [pure_eq_ok, Except.ok.injEq, Prod.mk.injEq] at h
  rw [← h.2]
  exact alike_setState hS rfl

theorem event_send_alike {f type datalen : Nat} {data : payload} {w w1 : World} {r : Int}
    (h : fsm_event_send f type data datalen w = .ok (r, w1)) : w.alike w1 := by
  unfold fsm_event_send at h
  obtain ⟨F, hF, h⟩ := bind_eq_ok.mp h
  obtain ⟨_, -, h⟩ := bind_eq_ok.mp h
  obtain ⟨_, -, h⟩ := bind_eq_ok.mp h
  obtain ⟨_, -, h⟩ := bind_eq_ok.mp h
  obtain ⟨_, -, h⟩ := bind_eq_ok.mp h
  obtain ⟨w2, hw2, h⟩ := bind_eq_ok.mp h
  obtain ⟨-, rfl⟩ := mutex_lock_eq_ok.mp hw2
  obtain ⟨⟨ok, w3⟩, hsend, h⟩ := bind_eq_ok.mp h
  obtain ⟨Q, hQ, rfl, rfl⟩ := queue_send_inv hsend
  simp only [pure_eq_ok, Except.ok.injEq, Prod.mk.injEq] at h
  rw [← h.2]
  refine ⟨?_, ?_, fun p => ?_, fun g => ?_⟩
  · split <;> simp [mutex_unlock]
  · split <;> exact Nat.le_refl _
  · split <;> rfl
  · split <;> rfl

theorem event_clear_alike {f : Nat} {w w1 : World} {r : Int}
    (h : fsm_event_clear f w = .ok (r, w1)) : w.alike w1 := by
  unfold fsm_event_clear at h
  obtain ⟨F, hF, h⟩ := bind_eq_ok.mp h
  obtain ⟨_, -, h⟩ := bind_eq_ok.mp h
  obtain ⟨_, -, h⟩ := bind_eq_ok.mp h
  obtain ⟨_, -, h⟩ := bind_eq_ok.mp h
  obtain ⟨w2, hw2, h⟩ := bind_eq_ok.mp h
  unfold queue_clear at hw2
  obtain ⟨Q, hQ, hw2⟩ := bind_eq_ok.mp hw2
  simp only [pure_eq_ok, Except.ok.injEq, Prod.mk.injEq] at h hw2
  rw [← h.2, ← hw2]
  exact ⟨rfl, Nat.le_refl _, fun _ => rfl, fun _ => rfl⟩

/-- Releasing the lock that was taken last. -/
theorem alike_release {w w1 : World} (m : Nat)
    (h : ({ w with held := m :: w.held } : World).alike w1) : w.alike (mutex_unlock m w1) := by
  refine ⟨?_, h.2.1, h.2.2.1, h.2.2.2⟩
  have := h.1
  simp only at this
  simp [mutex_unlock, this]

theorem set_child_link_alike {st link v : Nat} {w w1 : World}
    (h : set_child_link st link v w = .ok w1) : w.alike w1 := by
  unfold set_child_link at h
  by_cases hl : link = 0
  · simp only [hl, if_true] at h
    obtain ⟨S, hS, h⟩ := bind_eq_ok.mp h
    rw [ld_eq_ok] at hS
    simp only [pure_eq_ok, Except.ok.injEq] at h
    rw [← h]
    exact alike_setState hS rfl
  · simp only [hl, if_false] at h
    obtain ⟨F, hF, h⟩ := bind_eq_ok.mp h
    rw [ld_eq_ok] at hF
    simp only [pure_eq_ok, Except.ok.injEq] at h
    rw [← h]
    exact alike_setFsm hF rfl

theorem child_fsm_add_alike {st f : Nat} {w w1 : World} {r : Int}
    (h : fsm_state_child_fsm_add st f w = .ok (r, w1)) : w.alike w1 := by
  unfold fsm_state_child_fsm_add at h
  obtain ⟨S, hS, h⟩ := bind_eq_ok.mp h
  obtain ⟨_, -, h⟩ := bind_eq_ok.mp h
  obtain ⟨F, hF, h⟩ := bind_eq_ok.mp h
  rw [ld_eq_ok] at hF
  obtain ⟨_, -, h⟩ := bind_eq_ok.mp h
  obtain ⟨_, -, h⟩ := bind_eq_ok.mp h
  obtain ⟨_, -, h⟩ := bind_eq_ok.mp h
  obtain ⟨_, -, h⟩ := bind_eq_ok.mp h
  by_cases ho : f = S.parent_fsm
  · simp only [ho, if_true, pure_eq_ok, Except.ok.injEq, Prod.mk.injEq] at h
    rw [← h.2]
    exact alike_refl w
  · simp only [ho, if_false] at h
    obtain ⟨w2, hw2, h⟩ := bind_eq_ok.mp h
    obtain ⟨-, rfl⟩ := mutex_lock_eq_ok.mp hw2
    obtain ⟨link, -, h⟩ := bind_eq_ok.mp h
    obtain ⟨w3, hw3, h⟩ := bind_eq_ok.mp h
    obtain ⟨-, rfl⟩ := mutex_lock_eq_ok.mp hw3
    obtain ⟨F1, hF1, h⟩ := bind_eq_ok.mp h
    rw [ld_eq_ok] at hF1
    obtain ⟨w6, hw6, h⟩ := bind_eq_ok.mp h
    simp only [pure_eq_ok, Except.ok.injEq, Prod.mk.injEq] at h
    rw [← h.2]
    apply alike_release
    refine alike_trans ?_ (set_child_link_alike hw6)
    apply alike_release
    exact alike_setFsm hF1 rfl

theorem child_fsm_del_alike {st f : Nat} {w w1 : World} {r : Int}
    (h : fsm_state_child_fsm_del st f w = .ok (r, w1)) : w.alike w1 := by
  unfold fsm_state_child_fsm_del at h
  obtain ⟨S, hS, h⟩ := bind_eq_ok.mp h
  obtain ⟨_, -, h⟩ := bind_eq_ok.mp h
  obtain ⟨F, hF, h⟩ := bind_eq_ok.mp h
  obtain ⟨_, -, h⟩ := bind_eq_ok.mp h
  obtain ⟨_, -, h⟩ := bind_eq_ok.mp h
  obtain ⟨_, -, h⟩ := bind_eq_ok.mp h
  obtain ⟨_, -, h⟩ := bind_eq_ok.mp h
  obtain ⟨w2, hw2, h⟩ := bind_eq_ok.mp h
  obtain ⟨-, rfl⟩ := mutex_lock_eq_ok.mp hw2
  obtain ⟨o, -, h⟩ := bind_eq_ok.mp h
  cases o with
  | none =>
    simp only [pure_eq_ok, Except.ok.injEq, Prod.mk.injEq] at h
    rw [← h.2]
    exact alike_release _ (alike_refl _)
  | some link =>
    simp only at h
    obtain ⟨w3, hw3, h⟩ := bind_eq_ok.mp h
    obtain ⟨-, rfl⟩ := mutex_lock_eq_ok.mp hw3
    obtain ⟨F1, hF1, h⟩ := bind_eq_ok.mp h
    rw [ld_eq_ok] at hF1
    obtain ⟨w5, hw5, h⟩ := bind_eq_ok.mp h
    obtain ⟨F2, hF2, h⟩ := bind_eq_ok.mp h
    rw [ld_eq_ok] at hF2
    simp only [pure_eq_ok, Except.ok.injEq, Prod.mk.injEq] at h
    rw [← h.2]
    apply alike_release
    apply alike_release
    exact alike_trans (alike_trans (alike_setFsm hF1 (by rfl)) (set_child_link_alike hw5))
      (alike_setFsm hF2 (by rfl))

/-! ## The registries stay in order -/

theorem ids_congr {w w1 : World} (L : List Nat)
    (h : ∀ a ∈ L, (cell w1.states a).map (fun s => s.id) = (cell w.states a).map (fun s => s.id)) :
    w1.ids L = w.ids L := by
  unfold World.ids
  apply List.filterMap_congr
  intro a ha
  exact h a ha

theorem ids_append (w : World) (L M : List Nat) : w.ids (L ++ M) = w.ids L ++ w.ids M := by
  simp [World.ids]

theorem mem_ids {w : World} {L : List Nat} {i : Nat} :
    i ∈ w.ids L ↔ ∃ a ∈ L, ∃ s, cell w.states a = some s ∧ s.id = i := by
  simp [World.ids]

/-- The registry of an FSM stays in order when its record keeps its core, no lock handle is
lost and the records of its states are untouched. -/
theorem neat_transfer {w w1 : World} {g : Nat} {G G1 : fsm} (h : w.neat g G)
    (hc : G1.core = G.core) (hm : w.mutexes ≤ w1.mutexes)
    (hcell : ∀ L, w.registry G = .ok L → ∀ a ∈ L, cell w1.states a = cell w.states a) :
    w1.neat g G1 := by
  obtain ⟨hv, hlk, L, hL, hnd, hS⟩ := h
  simp only [fsm.core, Prod.mk.injEq] at hc
  have hcl := hcell L hL
  refine ⟨?_, ?_, L, ?_, ?_, ?_⟩
  · unfold fsm.valid at hv ⊢
    rw [hc.1, hc.2.1, hc.2.2.1, hc.2.2.2.1]
    exact hv
  · rw [hc.2.2.1]
    exact Nat.le_trans hlk hm
  · rw [registry_iff] at hL ⊢
    rw [hc.2.2.2.2]
    refine linked_congr _ _ L _ (fun a ha => ?_) hL
    simp only [state_next, hcl a ha]
  · rw [@ids_congr w w1 L (fun a ha => by rw [hcl a ha])]
    exact hnd
  · intro a ha
    obtain ⟨S, hSa, h1, h2, h3, h4⟩ := hS a ha
    refine ⟨S, ?_, h1, h2, h3, ?_⟩
    · simp only [World.state?] at hSa ⊢
      rw [hcl a ha]
      exact hSa
    · rw [hc.2.2.1]
      exact h4

theorem stepped_core (G : fsm) : G.stepped.core = G.core := by
  unfold fsm.stepped
  split <;> rfl

/-- The part of a poll under the lock keeps the registries. -/
theorem poll_locked_alike {g : Nat} {w w1 : World} {l : poll_locals} {t : List action}
    (h : poll_locked g w = .ok (l, t, w1)) : w.alike w1 := by
  obtain ⟨F, C, -, -, -, -, -, -, -, -, -, -, -, hheld, -, hm, -⟩ := poll_locked_inv h
  exact ⟨hheld, Nat.le_of_eq hm.symm,
    fun p => poll_locked_states state.core (fun _ _ _ => rfl) h p,
    fun p => poll_locked_fsm_map fsm.core stepped_core h p⟩

/-- A poll keeps the registries in order when the handlers do. -/
theorem tidy_poll (hs : handlers) (hst : hs.steady) (n f : Nat) (w : World) (r : poll_result)
    (hw : w.tidy) (h : fsm_poll hs n f w = .ok r) : r.world.tidy :=
  fsm_poll_keeps hs World.tidy (fun _ => True) hst
    (fun _ _ hw _ => tidy_alike (alike_of_eq rfl (Nat.le_refl _) rfl rfl) hw)
    (fun _ _ _ _ _ _ hw hl => tidy_alike (poll_locked_alike hl) hw)
    n f w r trivial (fun _ _ _ => trivial) hw h

/-- An added state with a new id: the registries stay in order. -/
theorem tidy_add_fresh (f : Nat) (name : Option String) (id handler : Nat) (w : World)
    (F : fsm) (L : List Nat) (hw : w.tidy) (hF : cell w.fsms f = some F)
    (hL : w.registry F = .ok L)
    (hno : ∀ b ∈ L, ∀ t, cell w.states b = some t → t.id ≠ id) :
    ∃ w1, fsm_state_add f name id handler w = .ok (0, w1) ∧ w1.tidy := by
  obtain ⟨hheld, hall⟩ := hw
  obtain ⟨hv, hlk, L0, hL0, hnd, hS⟩ := hall f F hF
  obtain rfl : L0 = L := Except.ok.inj (hL0.symm.trans hL)
  have hl : F.lock ∉ w.held := by rw [hheld]; simp
  have hm1 : F.lock ≠ w.mutexes + 1 := by omega
  have hm2 : w.mutexes + 1 ∉ w.held := by rw [hheld]; simp
  obtain ⟨w1, hrun, hh1, -, hmx, hlen, hnew, hother, hlast, hfo, hff, hchain⟩ :=
    add_fresh_id f name id handler w F L0 hF hv hl hL hno hm1 hm2
  have hle : ∀ b (s : state), cell w.states b = some s → b ≠ w.states.length + 1 :=
    fun b s hb => by have := (cell_bound hb).2; omega
  have hmem : ∀ a ∈ L0, ∃ S x, cell w.states a = some S ∧
      cell w1.states a = some { S with next := x } := by
    intro a ha
    obtain ⟨S, hSa, -⟩ := hS a ha
    simp only [World.state?] at hSa
    by_cases hla : L0.getLast? = some a
    · exact ⟨S, _, hSa, by rw [hlast a hla, hSa]; rfl⟩
    · exact ⟨S, S.next, hSa, by rw [hother a (hle a S hSa) hla, hSa]⟩
  refine ⟨w1, hrun, hh1.trans hheld, ?_⟩
  intro g G1 hG1
  simp only [World.fsm?] at hG1
  by_cases hg : g = f
  · subst hg
    rw [hff] at hG1
    have hG1 := (Option.some.inj hG1).symm
    subst hG1
    refine ⟨hv, by rw [hmx]; exact Nat.le_succ_of_le hlk, L0 ++ [w.states.length + 1], ?_, ?_, ?_⟩
    · exact hchain
    · rw [ids_append, @ids_congr w w1 L0 (fun a ha => by
        obtain ⟨S, x, h1, h2⟩ := hmem a ha
        rw [h1, h2]; rfl)]
      have hn : w1.ids [w.states.length + 1] = [id] := by
        simp [World.ids, hnew, state_new_record]
      rw [hn]
      refine List.nodup_append.mpr ⟨hnd, List.nodup_singleton _, ?_⟩
      intro i hi hi2
      simp only [List.mem_singleton] at hi2
      subst hi2
      obtain ⟨a, ha, s, hs, hid⟩ := mem_ids.mp hi
      exact hno a ha s hs hid
    · intro a ha
      rcases List.mem_append.mp ha with ha | ha
      · obtain ⟨S, x, h1, h2⟩ := hmem a ha
        obtain ⟨S0, hS0, k1, k2, k3, k4⟩ := hS a ha
        simp only [World.state?] at hS0
        obtain rfl : S0 = S := Option.some.inj (hS0.symm.trans h1)
        exact ⟨_, h2, k1, k2, k3, k4⟩
      · simp only [List.mem_singleton] at ha
        subst ha
        refine ⟨_, hnew, rfl, rfl, by simp, ?_⟩
        simp only
        omega
  · rw [hfo g hg] at hG1
    refine neat_transfer (hall g G1 hG1) rfl (by rw [hmx]; exact Nat.le_succ _) ?_
    intro Lg hLg a ha
    obtain ⟨-, -, Lg0, hLg0, -, hSg⟩ := hall g G1 hG1
    obtain rfl : Lg0 = Lg := Except.ok.inj (hLg0.symm.trans hLg)
    obtain ⟨S, hSa, -, hpa, -⟩ := hSg a ha
    simp only [World.state?] at hSa
    refine hother a (hle a S hSa) ?_
    intro hla
    have haL : a ∈ L0 := List.mem_of_mem_getLast? hla
    obtain ⟨S0, hS0, -, hp0, -⟩ := hS a haL
    simp only [World.state?] at hS0
    obtain rfl : S0 = S := Option.some.inj (hS0.symm.trans hSa)
    exact hg (hpa.symm.trans hp0)

theorem first_hit_mem (h : List (Option state)) (hit : Nat → state → Bool) (L : List Nat)
    (hne : first_hit h hit L ≠ 0) : first_hit h hit L ∈ L := by
  unfold first_hit at hne ⊢
  cases hf : L.find? (hit_at h hit) with
  | none => simp [hf] at hne
  | some a =>
    simp only [Option.getD_some]
    exact List.mem_of_find?_eq_some hf

/-- The unregistration of a registered state followed by its release, as `fsm_state_del`,
`fsm_state_del_by_name` and `fsm_deinit` do it: the owning link is cleared by the
unregistration, `state_del` then only frees the record, and the registries stay in order. -/
theorem tidy_unregister (f a : Nat) (w : World) (F : fsm) (pre post : List Nat)
    (hw : w.tidy) (hF : cell w.fsms f = some F)
    (hL : w.registry F = .ok (pre ++ a :: post)) :
    ∃ w1 S, cell w.states a = some S ∧ S.parent_fsm = f ∧
      fsm_state_unregister f a w = .ok (0, w1) ∧
      cell w1.states a = some { S with parent_fsm := 0, lock := 0, next := 0 } ∧
      w1.registry { F with state_list := if pre = [] then S.next else F.state_list,
                           sta_next := if F.sta_next = a then 0 else F.sta_next } =
        .ok (pre ++ post) ∧
      state_del a w1 = .ok (0, free_state a w1) ∧
      (free_state a w1).tidy ∧
      cell (free_state a w1).fsms f = some
        { F with state_list := if pre = [] then S.next else F.state_list,
                 sta_next := if F.sta_next = a then 0 else F.sta_next } ∧
      w1.queues = w.queues := by
  obtain ⟨hheld, hall⟩ := hw
  obtain ⟨hv, hlk, L0, hL0, hnd, hS⟩ := hall f F hF
  obtain rfl : L0 = pre ++ a :: post := Except.ok.inj (hL0.symm.trans hL)
  have hl : F.lock ∉ w.held := by rw [hheld]; simp
  obtain ⟨S, hSa, hSm, hSp, hSl, hSne⟩ := hS a (by simp)
  simp only [World.state?] at hSa
  have hSh : S.lock ∉ w.held := by rw [hheld]; simp
  obtain ⟨w1, hun, hh1, hq1, hm1, -, hlen1, -, hca, hother, hlast, hfo, hff⟩ :=
    fsm_state_unregister_found f a w F S pre post hF hv hl hL hSa hSm hSl hSh hSne
  obtain ⟨w2, hrun, -, -, -, -, -, -, -, hchain⟩ :=
    unregister_then_delete f a w F S pre post hF hv hl hL hSa hSm hSl hSh hSne
  have hdel : state_del a w1 = .ok (0, free_state a w1) := by
    simp [state_del, hca, ld]
  have hw2 : w2 = free_state a w1 := by
    simp only [hun, ok_bind, hdel, Except.ok.injEq, Prod.mk.injEq, true_and] at hrun
    exact hrun.symm
  subst hw2
  have hnodup := linked_nodup _ _ _ ((registry_iff w F _).mp hL)
  have hapre : a ∉ pre := fun hm =>
    (List.nodup_append.mp hnodup).2.2 hm (List.mem_cons_self _ _)
  have hapost : a ∉ post :=
    (List.nodup_cons.mp (List.nodup_append.mp hnodup).2.1).1
  have hmem : ∀ b ∈ pre ++ post, ∃ T x, cell w.states b = some T ∧
      cell (free_state a w1).states b = some { T with next := x } := by
    intro b hb
    have hba : b ≠ a := by
      rintro rfl
      rcases List.mem_append.mp hb with h | h
      · exact hapre h
      · exact hapost h
    obtain ⟨T, hT, -⟩ := hS b (by
      rcases List.mem_append.mp hb with h | h
      · exact List.mem_append_left _ h
      · exact List.mem_append_right _ (List.mem_cons_of_mem _ h))
    simp only [World.state?] at hT
    simp only [free_state]
    rw [cell_put_ne _ _ (Ne.symm hba)]
    by_cases hla : pre.getLast? = some b
    · exact ⟨T, _, hT, by rw [hlast b hla, hT]; rfl⟩
    · exact ⟨T, T.next, hT, by rw [hother b hba hla, hT]⟩
  refine ⟨w1, S, hSa, hSp, hun, hca, ?_, hdel, ⟨?_, ?_⟩, by simpa [free_state] using hff, hq1⟩
  · rw [registry_iff]
    refine linked_congr (state_next (free_state a w1).states) _ _ _ ?_
      (state_chain_linked _ _ _ _ hchain)
    intro b hb
    have hba : b ≠ a := by
      rintro rfl
      rcases List.mem_append.mp hb with h | h
      · exact hapre h
      · exact hapost h
    simp only [state_next, free_state]
    rw [cell_put_ne _ _ (Ne.symm hba)]
  · simpa [free_state, hh1] using hheld
  · intro g G1 hG1
    simp only [World.fsm?, free_state] at hG1
    by_cases hg : g = f
    · subst hg
      rw [hff] at hG1
      have hG1 := (Option.some.inj hG1).symm
      subst hG1
      refine ⟨hv, by simpa [free_state, hm1] using hlk, pre ++ post, hchain, ?_, ?_⟩
      · rw [@ids_congr w (free_state a w1) (pre ++ post) (fun b hb => by
          obtain ⟨T, x, h1, h2⟩ := hmem b hb
          rw [h1, h2]; rfl)]
        refine List.Nodup.sublist ?_ hnd
        unfold World.ids
        exact List.Sublist.filterMap _
          (List.Sublist.append (List.Sublist.refl pre) (List.sublist_cons_self a post))
      · intro b hb
        obtain ⟨T, x, h1, h2⟩ := hmem b hb
        obtain ⟨T0, hT0, k1, k2, k3, k4⟩ := hS b (by
          rcases List.mem_append.mp hb with h | h
          · exact List.mem_append_left _ h
          · exact List.mem_append_right _ (List.mem_cons_of_mem _ h))
        simp only [World.state?] at hT0
        obtain rfl : T0 = T := Option.some.inj (hT0.symm.trans h1)
        exact ⟨_, h2, k1, k2, k3, k4⟩
    · rw [hfo g hg] at hG1
      refine neat_transfer (hall g G1 hG1) rfl (by simp [free_state, hm1]) ?_
      intro Lg hLg b hb
      obtain ⟨-, -, Lg0, hLg0, -, hSg⟩ := hall g G1 hG1
      obtain rfl : Lg0 = Lg := Except.ok.inj (hLg0.symm.trans hLg)
      obtain ⟨T, hT, -, hpb, -⟩ := hSg b hb
      simp only [World.state?] at hT
      have hown : ∀ c ∈ pre ++ a :: post, c ≠ b := by
        rintro c hc rfl
        obtain ⟨T0, hT0, -, hp0, -⟩ := hS c hc
        simp only [World.state?] at hT0
        obtain rfl : T0 = T := Option.some.inj (hT0.symm.trans hT)
        exact hg (hpb.symm.trans hp0)
      have hba : b ≠ a := fun e => hown a (by simp) e.symm
      simp only [free_state]
      rw [cell_put_ne _ _ (Ne.symm hba)]
      refine hother b hba ?_
      intro hla
      exact hown b (List.mem_append_left _ (List.mem_of_mem_getLast? hla)) rfl

theorem cell_append_ne {α : Type} (h : List (Option α)) (x : Option α) {p : Nat}
    (hp : p ≠ h.length + 1) : cell (h ++ [x]) p = cell h p := by
  by_cases hle : p ≤ h.length
  · exact cell_append_old h x hle
  · have h1 : cell h p = none := by
      cases hc : cell h p with
      | none => rfl
      | some v => exact absurd (cell_bound hc).2 hle
    rw [h1]
    cases hc : cell (h ++ [x]) p with
    | none => rfl
    | some v =>
      have hb := (cell_bound hc).2
      simp at hb
      omega

/-- What `fsm_new` does when it returns: the new record is at a fresh address, initialised,
with a new lock and a new empty queue and ROOT as its previous and current state; ROOT gets a
lock when it had none; nothing else changes. -/
theorem fsm_new_inv {name : Option String} {w w1 : World} {g : Nat}
    (h : fsm_new name w = .ok (g, w1)) :
    ∃ R, cell w.states ROOT = some R ∧ g = w.fsms.length + 1 ∧ w1.held = w.held ∧
      w1.now = w.now ∧
      w1.mutexes = w.mutexes + (if R.lock = 0 then 2 else 1) ∧
      w1.states = (if R.lock = 0 then put w.states ROOT (some { R with lock := w.mutexes + 1 })
        else w.states) ∧
      w1.queues = w.queues ++ [some { length := EVENT_QUEUE_LENGTH, items := [] }] ∧
      w1.fsms.length = w.fsms.length + 1 ∧
      (∀ p, p ≠ g → cell w1.fsms p = cell w.fsms p) ∧
      cell w1.fsms g = some
        { magic_number := FSM_MAGIC_NUMBER, lock := w1.mutexes, name := name.getD "No name",
          poll_interval := DEFAULT_POLLING_INTERVAL, event_queue := w.queues.length + 1,
          parent_state := 0, state_list := 0, sta_prev := ROOT, sta_curr := ROOT,
          sta_next := 0, next := 0, os := fsm_port_os_handle } := by
  unfold fsm_new at h
  simp only at h
  obtain ⟨⟨r, w2⟩, hinit, h⟩ := bind_eq_ok.mp h
  simp only [pure_eq_ok, Except.ok.injEq, Prod.mk.injEq] at h
  obtain ⟨hg, rfl⟩ := h
  unfold fsm_init at hinit
  obtain ⟨F, hF, hinit⟩ := bind_eq_ok.mp hinit
  obtain ⟨R, hR, hinit⟩ := bind_eq_ok.mp hinit
  rw [ld_eq_ok] at hF hR
  simp only [World.fsm?, World.state?] at hF hR
  rw [cell_append_new] at hF
  have hF := (Option.some.inj hF).symm
  subst hF
  subst hg
  refine ⟨R, hR, rfl, ?_⟩
  clear hF
  by_cases h0 : R.lock = 0
  · simp only [h0, if_true, mutex_create, ASSERT, mutex_lock, queue_create, World.setState,
      Nat.add_one_ne_zero, ne_eq, not_false_eq_true, ok_bind] at hinit
    by_cases hh : w.mutexes + 1 + 1 ∈ w.held
    · simp [hh] at hinit
    · simp only [hh, if_false, ok_bind, if_true, pure_eq_ok, Except.ok.injEq, Prod.mk.injEq,
        World.setFsm, mutex_unlock, List.erase_cons_head, put_append_new] at hinit
      obtain ⟨-, rfl⟩ := hinit
      refine ⟨rfl, rfl, by simp [h0], by simp [h0], rfl, by simp, ?_, ?_⟩
      · intro p hp
        exact cell_append_ne _ _ hp
      · exact cell_append_new _ _
  · simp only [h0, if_false, mutex_create, ASSERT, mutex_lock, queue_create,
      Nat.add_one_ne_zero, ne_eq, not_false_eq_true, ok_bind] at hinit
    by_cases hh : w.mutexes + 1 ∈ w.held
    · simp [hh] at hinit
    · simp only [hh, if_false, ok_bind, if_true, pure_eq_ok, Except.ok.injEq, Prod.mk.injEq,
        World.setFsm, mutex_unlock, List.erase_cons_head, put_append_new] at hinit
      obtain ⟨-, rfl⟩ := hinit
      refine ⟨rfl, rfl, by simp [h0], by simp [h0], rfl, by simp, ?_, ?_⟩
      · intro p hp
        exact cell_append_ne _ _ hp
      · exact cell_append_new _ _

theorem cell_put_none_self {α : Type} (h : List (Option α)) (p : Nat) :
    cell (put h p none) p = none := by
  cases hc : cell h p with
  | none =>
    cases p with
    | zero => rfl
    | succ a =>
      simp only [cell, put, List.getElem?_set] at hc ⊢
      split
      · split <;> rfl
      · exact hc
  | some v => exact cell_put_same _ hc

/-- A new FSM: the registries stay in order. -/
theorem tidy_new {name : Option String} {w w1 : World} {g : Nat} (hw : w.tidy)
    (h : fsm_new name w = .ok (g, w1)) : w1.tidy := by
  obtain ⟨R, hR, hg, hheld, -, hmx, hst, -, -, hfo, hfg⟩ := fsm_new_inv h
  have hle : w.mutexes ≤ w1.mutexes := by rw [hmx]; omega
  have hpos : w1.mutexes ≠ 0 := by rw [hmx]; split <;> omega
  refine ⟨hheld.trans hw.1, ?_⟩
  intro p G hG
  simp only [World.fsm?] at hG
  by_cases hp : p = g
  · subst hp
    rw [hfg] at hG
    have hG := (Option.some.inj hG).symm
    subst hG
    refine ⟨⟨rfl, by simp [fsm_port_os_handle], hpos, by simp⟩, Nat.le_refl _, [], ?_,
      by simp [World.ids], ?_⟩
    · simp [World.registry, state_chain]
    · intro a ha
      simp at ha
  · rw [hfo p hp] at hG
    refine neat_transfer (hw.2 p G hG) rfl hle ?_
    intro L hL a ha
    obtain ⟨-, -, L0, hL0, -, hS⟩ := hw.2 p G hG
    obtain rfl : L0 = L := Except.ok.inj (hL0.symm.trans hL)
    obtain ⟨S, hSa, -, -, hSl, -⟩ := hS a ha
    simp only [World.state?] at hSa
    rw [hst]
    split
    · rename_i h0
      have hne : ROOT ≠ a := by
        rintro rfl
        rw [hR] at hSa
        exact hSl ((Option.some.inj hSa) ▸ h0)
      rw [cell_put_ne _ _ hne]
    · rfl

/-- An added state, registered or refused: the registries stay in order. -/
theorem tidy_state_add {f : Nat} {name : Option String} {id handler : Nat} {w w1 : World}
    {r : Int} (hw : w.tidy) (h : fsm_state_add f name id handler w = .ok (r, w1)) :
    w1.tidy := by
  have hF : ∃ F, cell w.fsms f = some F := by
    unfold fsm_state_add at h
    simp only [state_new] at h
    obtain ⟨⟨ret, w2⟩, hreg, -⟩ := bind_eq_ok.mp h
    unfold fsm_state_register at hreg
    obtain ⟨F, hF, -⟩ := bind_eq_ok.mp hreg
    rw [ld_eq_ok] at hF
    exact ⟨F, hF⟩
  obtain ⟨F, hF⟩ := hF
  obtain ⟨hv, hlk, L, hL, hnd, hS⟩ := hw.2 f F hF
  by_cases hdup : ∃ b ∈ L, ∃ t, cell w.states b = some t ∧ t.id = id
  · obtain ⟨b, hb, t, ht, hid⟩ := hdup
    have hrun := (add_duplicate_id f name id handler w F L b t hF hv
      (by rw [hw.1]; simp) hL hb ht hid).1
    rw [hrun] at h
    simp only [Except.ok.injEq, Prod.mk.injEq] at h
    rw [← h.2]
    have hal : w.alike { w with states := w.states ++ [none] } :=
      ⟨rfl, Nat.le_refl _, fun p => by simp only [cell_append_none], fun _ => rfl⟩
    exact tidy_alike hal hw
  · obtain ⟨w2, hrun, ht⟩ := tidy_add_fresh f name id handler w F L hw hF hL
      (fun b hb t ht hid => hdup ⟨b, hb, t, ht, hid⟩)
    rw [hrun] at h
    simp only [Except.ok.injEq, Prod.mk.injEq] at h
    rw [← h.2]
    exact ht

/-- The deletion of a state by a lookup that gave `st`: the registries stay in order. -/
theorem tidy_delete_found {f : Nat} {w w1 : World} {r : Int} {F : fsm} {L : List Nat}
    (st : Nat) (hw : w.tidy) (hF : cell w.fsms f = some F) (hL : w.registry F = .ok L)
    (hst : st = 0 ∨ st ∈ L)
    (h : (if st = 0 then (pure (-1, w) : Except fault (Int × World))
      else do
        let (_, w) ← fsm_state_unregister f st w
        state_del st w) = .ok (r, w1)) : w1.tidy := by
  by_cases h0 : st = 0
  · simp only [h0, if_true, pure_eq_ok, Except.ok.injEq, Prod.mk.injEq] at h
    rw [← h.2]
    exact hw
  · rcases hst with hst | hst
    · exact absurd hst h0
    · obtain ⟨pre, post, rfl⟩ := List.append_of_mem hst
      obtain ⟨w2, S, -, -, hun, -, -, hdel, ht, -⟩ := tidy_unregister f st w F pre post hw hF hL
      simp only [h0, if_false, hun, ok_bind, hdel, Except.ok.injEq, Prod.mk.injEq] at h
      rw [← h.2]
      exact ht

theorem tidy_state_del {f id : Nat} {w w1 : World} {r : Int} (hw : w.tidy)
    (h : fsm_state_del f id w = .ok (r, w1)) : w1.tidy := by
  have hF : ∃ F, cell w.fsms f = some F := by
    unfold fsm_state_del at h
    obtain ⟨⟨st, w2⟩, hget, -⟩ := bind_eq_ok.mp h
    unfold fsm_get_state at hget
    obtain ⟨F, hF, -⟩ := bind_eq_ok.mp hget
    rw [ld_eq_ok] at hF
    exact ⟨F, hF⟩
  obtain ⟨F, hF⟩ := hF
  obtain ⟨hv, hlk, L, hL, hnd, hS⟩ := hw.2 f F hF
  rw [fsm_state_del, fsm_get_state_eq f id w F L hF hv.1 (by rw [hw.1]; simp) hL] at h
  simp only [ok_bind] at h
  refine tidy_delete_found _ hw hF hL ?_ h
  by_cases h0 : first_hit w.states (fun _ s => decide (s.id = id)) L = 0
  · exact Or.inl h0
  · exact Or.inr (first_hit_mem _ _ _ h0)

theorem tidy_state_del_by_name {f : Nat} {name : String} {w w1 : World} {r : Int}
    (hw : w.tidy) (h : fsm_state_del_by_name f name w = .ok (r, w1)) : w1.tidy := by
  have hF : ∃ F, cell w.fsms f = some F := by
    unfold fsm_state_del_by_name at h
    obtain ⟨⟨st, w2⟩, hget, -⟩ := bind_eq_ok.mp h
    unfold fsm_get_state_by_name at hget
    obtain ⟨F, hF, -⟩ := bind_eq_ok.mp hget
    rw [ld_eq_ok] at hF
    exact ⟨F, hF⟩
  obtain ⟨F, hF⟩ := hF
  obtain ⟨hv, hlk, L, hL, hnd, hS⟩ := hw.2 f F hF
  rw [fsm_state_del_by_name,
    fsm_get_state_by_name_eq f name w F L hF hv.1 (by rw [hw.1]; simp) hL] at h
  simp only [ok_bind] at h
  refine tidy_delete_found _ hw hF hL ?_ h
  by_cases h0 : first_hit w.states (fun _ s => decide (name = s.name)) L = 0
  · exact Or.inl h0
  · exact Or.inr (first_hit_mem _ _ _ h0)

theorem deinit_finish_inv {f : Nat} {w w1 : World} {r : Int}
    (h : deinit_finish f w = .ok (r, w1)) :
    w1.held = w.held ∧ w1.states = w.states ∧ w1.mutexes = w.mutexes ∧
    ∀ g, g ≠ f → cell w1.fsms g = cell w.fsms g := by
  unfold deinit_finish at h
  obtain ⟨F1, hF1, h⟩ := bind_eq_ok.mp h
  obtain ⟨w2, hw2, h⟩ := bind_eq_ok.mp h
  obtain ⟨-, rfl⟩ := mutex_lock_eq_ok.mp hw2
  obtain ⟨w3, hw3, h⟩ := bind_eq_ok.mp h
  unfold queue_clear at hw3
  obtain ⟨Q, hQ, hw3⟩ := bind_eq_ok.mp hw3
  simp only [pure_eq_ok, Except.ok.injEq] at hw3
  subst hw3
  obtain ⟨F2, hF2, h⟩ := bind_eq_ok.mp h
  simp only [pure_eq_ok, Except.ok.injEq, Prod.mk.injEq] at h
  rw [← h.2]
  refine ⟨by simp [mutex_destroy, queue_destroy], rfl, rfl, ?_⟩
  intro g hg
  simp only [mutex_destroy, queue_destroy, World.setFsm, World.setQueue]
  rw [cell_put_ne _ _ (Ne.symm hg), cell_put_ne _ _ (Ne.symm hg)]

theorem fsm_deinit_inv {f : Nat} {w w1 : World} {r : Int}
    (h : fsm_deinit f w = .ok (r, w1)) :
    ∃ F wa w3, cell w.fsms f = some F ∧ w.alike wa ∧
      deinit_walk f (wa.states.length + 1) F.state_list wa = .ok w3 ∧
      deinit_finish f w3 = .ok (r, w1) := by
  unfold fsm_deinit at h
  obtain ⟨F, hF, h⟩ := bind_eq_ok.mp h
  rw [ld_eq_ok] at hF
  obtain ⟨_, -, h⟩ := bind_eq_ok.mp h
  obtain ⟨_, -, h⟩ := bind_eq_ok.mp h
  obtain ⟨_, -, h⟩ := bind_eq_ok.mp h
  obtain ⟨w2, hw2, h⟩ := bind_eq_ok.mp h
  obtain ⟨-, rfl⟩ := mutex_lock_eq_ok.mp hw2
  simp only [lock_unlock] at h
  by_cases hp : F.parent_state = 0
  · simp only [hp, ne_eq, not_true_eq_false, if_false, pure_eq_ok, ok_bind] at h
    obtain ⟨w3, hw3, h⟩ := bind_eq_ok.mp h
    exact ⟨F, w, w3, hF, alike_refl w, hw3, h⟩
  · simp only [hp, ne_eq, not_false_eq_true, if_true] at h
    obtain ⟨wa, hwa, h⟩ := bind_eq_ok.mp h
    obtain ⟨⟨r1, wa1⟩, hdel, hwa⟩ := map_eq_ok.mp hwa
    simp only at hwa
    subst hwa
    obtain ⟨w3, hw3, h⟩ := bind_eq_ok.mp h
    exact ⟨F, wa1, w3, hF, child_fsm_del_alike hdel, hw3, h⟩

/-- A deleted FSM: the registries stay in order. -/
theorem tidy_del {pf : Option Nat} {w w1 : World} {r : Int} {pf1 : Option Nat} (hw : w.tidy)
    (h : fsm_del pf w = .ok (r, pf1, w1)) : w1.tidy := by
  unfold fsm_del at h
  cases pf with
  | none =>
    simp only [Except.ok.injEq, Prod.mk.injEq] at h
    rw [← h.2.2]
    exact hw
  | some f =>
    by_cases h0 : f = 0
    · simp only [h0, if_true, Except.ok.injEq, Prod.mk.injEq] at h
      rw [← h.2.2]
      exact hw
    · simp only [h0, if_false] at h
      obtain ⟨⟨r1, w4⟩, hde, h⟩ := bind_eq_ok.mp h
      simp only [pure_eq_ok, Except.ok.injEq, Prod.mk.injEq] at h
      obtain ⟨-, -, rfl⟩ := h
      obtain ⟨F, wa, w3, hF, hal, hwalk, hfin⟩ := fsm_deinit_inv hde
      have hta := tidy_alike hal hw
      obtain ⟨Fa, hFa, hca⟩ := alike_fsm hal hF
      simp only [fsm.core, Prod.mk.injEq] at hca
      obtain ⟨hv, hlk, L, hL, hnd, hS⟩ := hta.2 f Fa hFa
      have hLl := (registry_iff wa Fa L).mp hL
      obtain ⟨w3a, x, hwalk1, hh3, -, hm3, -, -, -, -, ho3, -, hk3⟩ :=
        deinit_walk_ok f L (wa.states.length + 1) wa Fa hFa hv (by rw [hta.1]; simp) hLl
          (by
            intro a ha
            obtain ⟨S, hSa, h1, -, h3, h4⟩ := hS a ha
            exact ⟨S, hSa, h1, h3, by rw [hta.1]; simp, h4⟩)
          (linked_states_length _ _ _ hLl)
      rw [hca.2.2.2.2, hwalk] at hwalk1
      have := Except.ok.inj hwalk1
      subst this
      obtain ⟨hh4, hs4, hm4, ho4⟩ := deinit_finish_inv hfin
      refine ⟨?_, ?_⟩
      · simp only [free_fsm]
        rw [hh4, hh3]
        exact hta.1
      · intro g G hG
        simp only [World.fsm?, free_fsm] at hG
        by_cases hg : g = f
        · subst hg
          rw [cell_put_none_self] at hG
          cases hG
        · rw [cell_put_ne _ _ (Ne.symm hg), ho4 g hg, ho3 g hg] at hG
          refine neat_transfer (hta.2 g G hG) rfl (by simp [free_fsm, hm4, hm3]) ?_
          intro Lg hLg b hb
          obtain ⟨-, -, Lg0, hLg0, -, hSg⟩ := hta.2 g G hG
          obtain rfl : Lg0 = Lg := Except.ok.inj (hLg0.symm.trans hLg)
          obtain ⟨T, hT, -, hpb, -⟩ := hSg b hb
          simp only [free_fsm, hs4]
          refine hk3 b ?_
          intro hbL
          obtain ⟨T0, hT0, -, hp0, -⟩ := hS b hbL
          rw [hT] at hT0
          obtain rfl : T = T0 := Option.some.inj hT0
          exact hg (hpb.symm.trans hp0)

theorem boot_tidy : World.boot.tidy := by
  refine ⟨rfl, ?_⟩
  intro g G hG
  cases g with
  | zero => simp [World.fsm?, cell] at hG
  | succ k => simp [World.fsm?, cell, World.boot] at hG

/-- Every call of the public API that returns keeps the registries in order, when the
handlers do. -/
theorem tidy_run (hs : handlers) (hst : hs.steady) (o : op) (w w1 : World) (hw : w.tidy)
    (h : o.run hs w = .ok w1) : w1.tidy := by
  cases o with
  | new name =>
    obtain ⟨⟨g, w2⟩, h1, rfl⟩ := map_eq_ok.mp h
    exact tidy_new hw h1
  | del f =>
    obtain ⟨⟨r, pf, w2⟩, h1, rfl⟩ := map_eq_ok.mp h
    exact tidy_del hw h1
  | state_add f name id handler =>
    obtain ⟨⟨r, w2⟩, h1, rfl⟩ := map_eq_ok.mp h
    exact tidy_state_add hw h1
  | state_del f id =>
    obtain ⟨⟨r, w2⟩, h1, rfl⟩ := map_eq_ok.mp h
    exact tidy_state_del hw h1
  | state_del_by_name f name =>
    obtain ⟨⟨r, w2⟩, h1, rfl⟩ := map_eq_ok.mp h
    exact tidy_state_del_by_name hw h1
  | switch f q =>
    obtain ⟨⟨r, w2⟩, h1, rfl⟩ := map_eq_ok.mp h
    exact tidy_alike (request_run_alike h1) hw
  | poll n f =>
    obtain ⟨r, h1, rfl⟩ := map_eq_ok.mp h
    exact tidy_poll hs hst n f w r hw h1
  | child_fsm_add st f =>
    obtain ⟨⟨r, w2⟩, h1, rfl⟩ := map_eq_ok.mp h
    exact tidy_alike (child_fsm_add_alike h1) hw
  | child_fsm_del st f =>
    obtain ⟨⟨r, w2⟩, h1, rfl⟩ := map_eq_ok.mp h
    exact tidy_alike (child_fsm_del_alike h1) hw
  | change_default_poll_interval f v =>
    obtain ⟨⟨r, w2⟩, h1, rfl⟩ := map_eq_ok.mp h
    exact tidy_alike (change_default_alike h1) hw
  | change_state_poll_interval st v =>
    obtain ⟨⟨r, w2⟩, h1, rfl⟩ := map_eq_ok.mp h
    exact tidy_alike (change_state_alike h1) hw
  | event_send f type data datalen =>
    obtain ⟨⟨r, w2⟩, h1, rfl⟩ := map_eq_ok.mp h
    exact tidy_alike (event_send_alike h1) hw
  | event_clear f =>
    obtain ⟨⟨r, w2⟩, h1, rfl⟩ := map_eq_ok.mp h
    exact tidy_alike (event_clear_alike h1) hw
  | tick ms =>
    simp only [op.run, Except.ok.injEq] at h
    rw [← h]
    exact tidy_alike (alike_of_eq rfl (Nat.le_refl _) rfl rfl) hw

theorem tidy_runs (hs : handlers) (hst : hs.steady) :
    ∀ (ops : List op) (w w1 : World), w.tidy → op.runs hs ops w = .ok w1 → w1.tidy := by
  intro ops
  induction ops with
  | nil =>
    intro w w1 hw h
    simp only [op.runs, Except.ok.injEq] at h
    rw [← h]
    exact hw
  | cons o rest ih =>
    intro w w1 hw h
    simp only [op.runs] at h
    obtain ⟨w2, h1, h2⟩ := bind_eq_ok.mp h
    exact ih w2 w1 (tidy_run hs hst o w w2 hw h1) h2

/-- In every reachable world the registries are in order, when the handlers keep them so. -/
theorem reachable_tidy (hs : handlers) (hst : hs.steady) (w : World) (h : w.reachable hs) :
    w.tidy := by
  obtain ⟨ops, hops⟩ := h
  exact tidy_runs hs hst ops World.boot w boot_tidy hops

theorem hs_idle_steady : hs_idle.steady := fun _ _ _ hw => hw

/-! ## Invariants of the registries -/

theorem ids_distinct (w : World) : ∀ (L : List Nat), (w.ids L).Nodup → L.Nodup →
    ∀ a b S T, a ∈ L → b ∈ L → a ≠ b → cell w.states a = some S → cell w.states b = some T →
      S.id ≠ T.id := by
  intro L
  induction L with
  | nil => intro _ _ a b S T ha; simp at ha
  | cons c L ih =>
    intro hnd hL a b S T ha hb hab hS hT
    have hsplit : w.ids (c :: L) = w.ids [c] ++ w.ids L := ids_append w [c] L
    rw [hsplit] at hnd
    obtain ⟨-, hnd2, hdis⟩ := List.nodup_append.mp hnd
    have hc : ∀ X, cell w.states c = some X → X.id ∈ w.ids [c] := fun X hX =>
      mem_ids.mpr ⟨c, List.mem_singleton.mpr rfl, X, hX, rfl⟩
    rcases List.mem_cons.mp ha with rfl | ha1
    · rcases List.mem_cons.mp hb with rfl | hb1
      · exact absurd rfl hab
      · intro heq
        exact hdis (hc S hS) (mem_ids.mpr ⟨b, hb1, T, hT, heq.symm⟩)
    · rcases List.mem_cons.mp hb with rfl | hb1
      · intro heq
        exact hdis (hc T hT) (mem_ids.mpr ⟨a, ha1, S, hS, heq⟩)
      · exact ih hnd2 (List.nodup_cons.mp hL).2 a b S T ha1 hb1 hab hS hT

theorem w_tree_reachable : w_tree.reachable hs_idle :=
  ⟨[.new (some "Test FSM"), .new (some "Test child FSM"), .new (some "Second child FSM"),
    .change_default_poll_interval 1 10, .change_default_poll_interval 2 FSM_NO_POLL,
    .state_add 1 (some "Test state 1") 5 1, .state_add 1 (some "Test state 2") 2 2,
    .state_add 2 (some "Test child state") 80 3, .child_fsm_add 2 2, .child_fsm_add 2 3,
    .tick 10, .poll 2 1, .tick 1, .poll 2 1, .tick 1, .event_send 1 0xA555 (.user 7) 4],
   by rfl⟩

/-- C27 (Id-uniqueness invariant): in every world reachable from the world before any call
by calls of `fsm_new`, `fsm_del`, `fsm_state_add`, `fsm_state_del`, `fsm_state_del_by_name`,
the three transition requests, `fsm_poll`, attach and detach, the interval changes, event
send and clear, and the passing of time (each call having returned, with handlers that keep
the registries in order), the state list of every FSM is a well-formed chain of live states
whose ids are pairwise distinct. -/
theorem C27_id_uniqueness (hs : handlers) (hst : hs.steady) (w : World)
    (hw : w.reachable hs) (f : Nat) (F : fsm) (hF : w.fsm? f = some F) :
    ∃ L, w.registry F = .ok L ∧ (∀ a ∈ L, (w.state? a).isSome) ∧ (w.ids L).Nodup ∧
      ∀ a b S T, a ∈ L → b ∈ L → a ≠ b → w.state? a = some S → w.state? b = some T →
        S.id ≠ T.id := by
  obtain ⟨-, -, L, hL, hnd, hS⟩ := (reachable_tidy hs hst w hw).2 f F hF
  refine ⟨L, hL, ?_, hnd, ?_⟩
  · intro a ha
    obtain ⟨S, hSa, -⟩ := hS a ha
    rw [hSa]
    rfl
  · exact ids_distinct w L hnd (linked_nodup _ _ _ ((registry_iff w F L).mp hL))

theorem C27_id_uniqueness_witness :
    w_tree.reachable hs_idle ∧ w_tree.ids [2, 3] = [5, 2] ∧
    ∃ L, w_tree.registry
        { magic_number := 4112441695, lock := 2, name := "Test FSM", poll_interval := 10,
          event_queue := 1, parent_state := 0, state_list := 2, sta_prev := 1, sta_curr := 2,
          sta_next := 0, next := 0, os := 1 } = .ok L ∧
      (∀ a ∈ L, (w_tree.state? a).isSome) ∧ (w_tree.ids L).Nodup ∧
      ∀ a b S T, a ∈ L → b ∈ L → a ≠ b → w_tree.state? a = some S → w_tree.state? b = some T →
        S.id ≠ T.id :=
  ⟨w_tree_reachable, by decide,
    C27_id_uniqueness hs_idle hs_idle_steady w_tree w_tree_reachable 1 _ rfl⟩

/-- C28 (Owning-link invariant): in every world reachable by calls of the public API (each
call having returned, with handlers that keep the registries in order), every state in the
state list of an FSM has its owning-FSM link equal to that FSM; and for every state `a` of
the list, `fsm_state_unregister` returns 0, takes `a` off the list and clears its owning
link (and its lock and `next` link) while the record is still alive, `state_del` then frees
the record without unregistering again, and `fsm_state_del` with the id of `a` does exactly
these two steps. -/
theorem C28_owning_link (hs : handlers) (hst : hs.steady) (w : World)
    (hw : w.reachable hs) (f : Nat) (F : fsm) (hF : w.fsm? f = some F) :
    ∃ L, w.registry F = .ok L ∧
      (∀ a ∈ L, ∃ S, w.state? a = some S ∧ S.parent_fsm = f) ∧
      ∀ pre a post, L = pre ++ a :: post →
        ∃ w1 S F1, w.state? a = some S ∧ fsm_state_unregister f a w = .ok (0, w1) ∧
          w1.state? a = some { S with parent_fsm := 0, lock := 0, next := 0 } ∧
          w1.fsm? f = some F1 ∧ w1.registry F1 = .ok (pre ++ post) ∧
          state_del a w1 = .ok (0, free_state a w1) ∧ (free_state a w1).state? a = none ∧
          fsm_state_del f S.id w = .ok (0, free_state a w1) := by
  have ht := reachable_tidy hs hst w hw
  obtain ⟨hv, -, L, hL, hnd, hS⟩ := ht.2 f F hF
  refine ⟨L, hL, ?_, ?_⟩
  · intro a ha
    obtain ⟨S, hSa, -, hp, -⟩ := hS a ha
    exact ⟨S, hSa, hp⟩
  · rintro pre a post rfl
    obtain ⟨w1, S, hSa, -, hun, hca, hreg, hdel, -, hff, -⟩ :=
      tidy_unregister f a w F pre post ht hF hL
    have hdist := ids_distinct w _ hnd (linked_nodup _ _ _ ((registry_iff w F _).mp hL))
    have hnodup := linked_nodup _ _ _ ((registry_iff w F _).mp hL)
    have hapre : a ∉ pre := fun hm =>
      (List.nodup_append.mp hnodup).2.2 hm (List.mem_cons_self _ _)
    have ha0 : a ≠ 0 := (cell_bound hSa).1
    refine ⟨w1, S, _, hSa, hun, hca, by simpa [free_state] using hff, hreg, hdel, ?_, ?_⟩
    · simp only [World.state?, free_state]
      exact cell_put_same _ hca
    · rw [fsm_state_del, fsm_get_state_eq f S.id w F _ hF hv.1 (by rw [ht.1]; simp) hL,
        first_hit_decomp w.states _ pre post a S hSa (by simp)
          (fun b hb t htb => by
            simp only [decide_eq_false_iff_not]
            exact hdist b a t S (List.mem_append_left _ hb) (by simp)
              (fun e => hapre (e ▸ hb)) htb hSa)]
      simp only [ok_bind, ha0, if_false, hun, hdel]

theorem C28_owning_link_witness :
    w_tree.reachable hs_idle ∧
    ∃ L, w_tree.registry
        { magic_number := 4112441695, lock := 3, name := "Test child FSM",
          poll_interval := 4294967295, event_queue := 2, parent_state := 2, state_list := 4,
          sta_prev := 1, sta_curr := 4, sta_next := 0, next := 3, os := 1 } = .ok L ∧
      (∀ a ∈ L, ∃ S, w_tree.state? a = some S ∧ S.parent_fsm = 2) ∧
      ∀ pre a post, L = pre ++ a :: post →
        ∃ w1 S F1, w_tree.state? a = some S ∧ fsm_state_unregister 2 a w_tree = .ok (0, w1) ∧
          w1.state? a = some { S with parent_fsm := 0, lock := 0, next := 0 } ∧
          w1.fsm? 2 = some F1 ∧ w1.registry F1 = .ok (pre ++ post) ∧
          state_del a w1 = .ok (0, free_state a w1) ∧ (free_state a w1).state? a = none ∧
          fsm_state_del 2 S.id w_tree = .ok (0, free_state a w1) :=
  ⟨w_tree_reachable, C28_owning_link hs_idle hs_idle_steady w_tree w_tree_reachable 2 _ rfl⟩

/-! ## The request entry points and the current state -/

/-- C30 (The three request entry points agree): in every world reachable by calls of the
public API (each call having returned, with handlers that keep the registries in order), for
every FSM and every registered state `S` whose name no state earlier in the state list has,
`fsm_switch(fsm, S.id)`, `fsm_switch_by_state_handle(fsm, S)` and
`fsm_switch_by_name(fsm, S.name)` are the same call: they return the same value and leave the
same world.  With the pending slot empty they return 0 and put `S` there, everything else
unchanged; with the slot occupied (and the record of the current state alive, which the log
line reads) they return 0 and change nothing. -/
theorem C30_entry_points_agree (hs : handlers) (hst : hs.steady) (w : World)
    (hw : w.reachable hs) (f : Nat) (F : fsm) (pre post : List Nat) (a : Nat) (S : state)
    (hF : w.fsm? f = some F) (hL : w.registry F = .ok (pre ++ a :: post))
    (hS : w.state? a = some S)
    (hname : ∀ b ∈ pre, ∀ t, w.state? b = some t → t.name ≠ S.name) :
    fsm_switch f S.id w = fsm_switch_by_state_handle f a w ∧
    fsm_switch_by_name f S.name w = fsm_switch_by_state_handle f a w ∧
    (F.sta_next = 0 →
      fsm_switch_by_state_handle f a w = .ok (0, w.setFsm f { F with sta_next := a })) ∧
    (F.sta_next ≠ 0 → (w.state? F.sta_curr).isSome →
      fsm_switch_by_state_handle f a w = .ok (0, w)) := by
  have ht := reachable_tidy hs hst w hw
  obtain ⟨hv, -, L, hL0, hnd, hSt⟩ := ht.2 f F hF
  obtain rfl : L = pre ++ a :: post := Except.ok.inj (hL0.symm.trans hL)
  simp only [World.fsm?, World.state?] at hF hS hname
  have hl : F.lock ∉ w.held := by rw [ht.1]; simp
  have hnodup := linked_nodup _ _ _ ((registry_iff w F _).mp hL)
  have hdist := ids_distinct w _ hnd hnodup
  have hapre : a ∉ pre := fun hm =>
    (List.nodup_append.mp hnodup).2.2 hm (List.mem_cons_self _ _)
  have ha0 : a ≠ 0 := (cell_bound hS).1
  obtain ⟨S0, hS0, hSm, -⟩ := hSt a (by simp)
  simp only [World.state?] at hS0
  obtain rfl : S0 = S := Option.some.inj (hS0.symm.trans hS)
  have h1 := request_run_eq f w F pre post a S0 (.by_id S0.id) hF hv hl hL hS
    ⟨rfl, fun b hb t htb => hdist b a t S0 (List.mem_append_left _ hb) (by simp)
      (fun e => hapre (e ▸ hb)) htb hS⟩
  have h2 := request_run_eq f w F pre post a S0 (.by_state_handle a) hF hv hl hL hS
    ⟨rfl, hSm⟩
  have h3 := request_run_eq f w F pre post a S0 (.by_name S0.name) hF hv hl hL hS
    ⟨rfl, hname⟩
  simp only [request.run] at h1 h2 h3
  refine ⟨h1.trans h2.symm, h3.trans h2.symm, ?_, ?_⟩
  · intro hn
    rw [h2]
    exact switch_to_empty f w F a ha0 hn
  · intro hn hc
    rw [h2]
    obtain ⟨c, hc⟩ := Option.isSome_iff_exists.mp hc
    exact switch_to_pending f w F a ha0 hn c S0 hc hS

theorem C30_entry_points_agree_witness :
    w_tree.reachable hs_idle ∧
    fsm_switch 1 2 w_tree = fsm_switch_by_state_handle 1 3 w_tree ∧
    fsm_switch_by_name 1 "Test state 2" w_tree = fsm_switch_by_state_handle 1 3 w_tree ∧
    fsm_switch_by_state_handle 1 3 w_tree = .ok (0, w_tree.setFsm 1
      { magic_number := 4112441695, lock := 2, name := "Test FSM", poll_interval := 10,
        event_queue := 1, parent_state := 0, state_list := 2, sta_prev := 1, sta_curr := 2,
        sta_next := 3, next := 0, os := 1 }) := by
  have h := C30_entry_points_agree hs_idle hs_idle_steady w_tree w_tree_reachable 1
    { magic_number := 4112441695, lock := 2, name := "Test FSM", poll_interval := 10,
      event_queue := 1, parent_state := 0, state_list := 2, sta_prev := 1, sta_curr := 2,
      sta_next := 0, next := 0, os := 1 } [2] [] 3
    { magic_number := 438215115, id := 2, name := "Test state 2", handler := 2,
      ts_poll := 0, poll_interval := 10, poll_interval_next := 10, lock := 6,
      parent_fsm := 1, child_fsm := 0, next := 0 } rfl (by decide) rfl
    (all_cells _ _ _ (by decide))
  exact ⟨w_tree_reachable, h.1, h.2.1, h.2.2.1 rfl⟩

/-- C29, as the code stands: the world of `mk_gone`, after `fsm_new`, `fsm_state_add` of a
state with id 5, a poll at time 10 (which makes that state, at address 2, the current state)
and `fsm_state_del` of id 5, is reachable by calls that all returned; in it the current-state
reference of the FSM is still 2, which is neither ROOT nor a member of the state list (the
list is empty) and whose record is freed, so that `fsm_get_current_state` and the next
`fsm_poll` read freed memory.  `fsm_state_unregister` clears the pending reference to the
state it removes, but not the current and the previous one. -/
theorem C29_dangling_current :
    ∃ w, mk_gone = .ok w ∧ w.reachable hs_idle ∧
      (w.fsm? 1).map (fun F => (F.sta_prev, F.sta_curr, F.sta_next)) = some (ROOT, 2, 0) ∧
      (w.fsm? 1).map (fun F => w.registry F) = some (.ok []) ∧
      w.state? 2 = none ∧
      (fsm_get_current_state 1 w).map (fun r => r.1) = .error .badptr ∧
      (fsm_poll hs_idle 1 1 w).map (fun r => r.ret) = .error .badptr := by
  obtain ⟨w, hw, h1⟩ := map_eq_ok.mp
    (show mk_gone.map (fun w => ((w.fsm? 1).map (fun F => (F.sta_prev, F.sta_curr, F.sta_next)),
        w.state? 2)) = .ok (some (ROOT, 2, 0), none) from by decide)
  obtain ⟨w2, hw2, h2⟩ := map_eq_ok.mp
    (show mk_gone.map (fun w => (w.fsm? 1).map (fun F => w.registry F)) = .ok (some (.ok []))
      from by decide)
  obtain ⟨w3, hw3, h3⟩ := map_eq_ok.mp
    (show mk_gone.map (fun w => ((fsm_get_current_state 1 w).map (fun r => r.1),
        (fsm_poll hs_idle 1 1 w).map (fun r => r.ret))) =
      .ok (.error .badptr, .error .badptr) from by decide)
  rw [hw] at hw2 hw3
  cases hw2
  cases hw3
  simp only [Prod.mk.injEq] at h1 h3
  exact ⟨w, hw, ⟨_, hw⟩, h1.1, h2, h1.2, h3.1, h3.2⟩

/-! ## A new FSM and its first state -/

/-- The child list of a state is the same in a world in which the state has the same head of
the list and the live FSM records have the same `next` links. -/
theorem kids_below_cells {w w1 : World} (rank : Nat → Nat) (g c : Nat)
    (hnext : ∀ p, (cell w.fsms p).isSome →
      (cell w1.fsms p).map (fun F => F.next) = (cell w.fsms p).map (fun F => F.next))
    (hchild : (cell w1.states c).map (fun s => s.child_fsm) =
      (cell w.states c).map (fun s => s.child_fsm))
    (h : w.kids_below rank g c) : w1.kids_below rank g c := by
  obtain ⟨C, buf, hC, hchain, hr⟩ := h
  simp only [World.state?, World.ffuel] at hC hchain
  rw [hC] at hchild
  cases hC1 : cell w1.states c with
  | none => simp [hC1] at hchild
  | some C1 =>
    simp only [hC1, Option.map_some', Option.some.injEq] at hchild
    have hl := fsm_chain_linked _ _ _ _ hchain
    have hl1 : linked (fsm_next w1.fsms) C1.child_fsm buf := by
      rw [hchild]
      refine linked_congr _ _ buf _ ?_ hl
      intro a ha
      have hsome := (linked_mem _ _ _ hl a ha).2
      simp only [fsm_next] at hsome ⊢
      exact hnext a (by
        cases hc : cell w.fsms a with
        | none => simp [hc] at hsome
        | some v => rfl)
    exact ⟨C1, buf, hC1, linked_fsm_chain _ _ _ _ hl1 (linked_fsms_length _ _ _ hl1), hr⟩

/-- A new FSM in a sound world leaves it sound, when the FSMs attached to ROOT have a lower
rank than the new FSM. -/
theorem sound_new {name : Option String} {w w1 : World} {g : Nat} (rank : Nat → Nat)
    (hw : w.sound rank) (hroot : w.kids_below rank (w.fsms.length + 1) ROOT)
    (h : fsm_new name w = .ok (g, w1)) : w1.sound rank := by
  obtain ⟨R, hR, hg, hheld, -, hmx, hst, hqs, -, hfo, hfg⟩ := fsm_new_inv h
  subst hg
  have hnew : cell w.fsms (w.fsms.length + 1) = none := by
    cases hc : cell w.fsms (w.fsms.length + 1) with
    | none => rfl
    | some v => have := (cell_bound hc).2; omega
  have hnext : ∀ p, (cell w.fsms p).isSome →
      (cell w1.fsms p).map (fun F => F.next) = (cell w.fsms p).map (fun F => F.next) := by
    intro p hp
    have hne : p ≠ w.fsms.length + 1 := by
      rintro rfl
      rw [hnew] at hp
      cases hp
    rw [hfo p hne]
  have hcells : ∀ {α : Type} (σ : state → α), (∀ (S : state) (x : Nat), σ { S with lock := x } = σ S) →
      ∀ p, (cell w1.states p).map σ = (cell w.states p).map σ := by
    intro α σ hσ p
    rw [hst]
    split
    · exact cell_put_map _ _ _ _ σ hR (hσ R _) p
    · rfl
  have halive : ∀ p, (cell w.states p).isSome → (cell w1.states p).isSome := by
    intro p hp
    have := hcells (fun _ => ()) (fun _ _ => rfl) p
    cases hc : cell w.states p with
    | none => simp [hc] at hp
    | some v =>
      cases hc1 : cell w1.states p with
      | none => simp [hc, hc1] at this
      | some v1 => rfl
  have hkids : ∀ k c, w.kids_below rank k c → w1.kids_below rank k c := fun k c hk =>
    kids_below_cells rank k c hnext (hcells (fun s => s.child_fsm) (fun _ _ => rfl) c) hk
  refine ⟨hheld.trans hw.1, ?_⟩
  intro p G hG
  simp only [World.fsm?] at hG
  by_cases hp : p = w.fsms.length + 1
  · subst hp
    rw [hfg] at hG
    have hG := (Option.some.inj hG).symm
    subst hG
    have hpos : w1.mutexes ≠ 0 := by rw [hmx]; split <;> omega
    refine ⟨⟨rfl, by simp [fsm_port_os_handle], hpos, by simp⟩, ?_, ?_, hkids _ _ hroot,
      fun h0 => absurd rfl h0⟩
    · simp only [World.queue?, hqs]
      rw [cell_append_new]
      rfl
    · obtain ⟨C, -, hC, -⟩ := hroot
      exact halive ROOT (by simp only [World.state?] at hC; rw [hC]; rfl)
  · rw [hfo p hp] at hG
    obtain ⟨hv, hq, hprev, hcur, hnx⟩ := hw.2 p G hG
    refine ⟨hv, ?_, halive _ hprev, hkids _ _ hcur, fun h0 => hkids _ _ (hnx h0)⟩
    simp only [World.queue?, hqs] at hq ⊢
    obtain ⟨Q, hQ⟩ := Option.isSome_iff_exists.mp hq
    rw [cell_append_old _ _ (cell_bound hQ).2, hQ]
    rfl

/-- An added state with a new id, in a world that is sound and has its registries in order:
the call returns 0, the world stays so, the state is the new tail of the state list, the
pending request becomes the new state when it is the first state and is as before otherwise,
and the states registered before keep their records but for the `next` link. -/
theorem add_step (rank : Nat → Nat) (f : Nat) (name : Option String) (id handler : Nat)
    (w : World) (F : fsm) (L : List Nat) (hw : w.tidy) (hs : w.sound rank)
    (hF : cell w.fsms f = some F) (hL : w.registry F = .ok L)
    (hno : ∀ b ∈ L, ∀ t, cell w.states b = some t → t.id ≠ id) :
    ∃ w1, fsm_state_add f name id handler w = .ok (0, w1) ∧ w1.tidy ∧ w1.sound rank ∧
      cell w1.fsms f = some
        { F with state_list := if L = [] then w.states.length + 1 else F.state_list,
                 sta_next := if L = [] then w.states.length + 1 else F.sta_next } ∧
      w1.registry
        { F with state_list := if L = [] then w.states.length + 1 else F.state_list,
                 sta_next := if L = [] then w.states.length + 1 else F.sta_next } =
        .ok (L ++ [w.states.length + 1]) ∧
      w1.states.length = w.states.length + 1 ∧
      cell w1.states (w.states.length + 1) = some
        { state_new_record name id handler with
            lock := w.mutexes + 1, parent_fsm := f, poll_interval := F.poll_interval,
            poll_interval_next := F.poll_interval, next := 0 } ∧
      (∀ a S, a ≠ w.states.length + 1 → cell w.states a = some S →
        ∃ x, cell w1.states a = some { S with next := x }) := by
  obtain ⟨w1, hrun, ht⟩ := tidy_add_fresh f name id handler w F L hw hF hL hno
  obtain ⟨hv, hlk, L0, hL0, hnd, hS⟩ := hw.2 f F hF
  obtain rfl : L0 = L := Except.ok.inj (hL0.symm.trans hL)
  have hl : F.lock ∉ w.held := by rw [hw.1]; simp
  have hm1 : F.lock ≠ w.mutexes + 1 := by omega
  have hm2 : w.mutexes + 1 ∉ w.held := by rw [hw.1]; simp
  obtain ⟨w2, hrun2, hh1, hq1, hmx, hlen, hnew, hother, hlast, hfo, hff, hchain⟩ :=
    add_fresh_id f name id handler w F L0 hF hv hl hL hno hm1 hm2
  rw [hrun] at hrun2
  obtain rfl : w1 = w2 := (Prod.mk.inj (Except.ok.inj hrun2)).2
  have hold : ∀ a S, a ≠ w.states.length + 1 → cell w.states a = some S →
      ∃ x, cell w1.states a = some { S with next := x } := by
    intro a S hne hSa
    by_cases hla : L0.getLast? = some a
    · exact ⟨_, by rw [hlast a hla, hSa]; rfl⟩
    · exact ⟨S.next, by rw [hother a hne hla, hSa]⟩
  have hchild : ∀ c, (cell w.states c).isSome →
      (cell w1.states c).map (fun s => s.child_fsm) =
        (cell w.states c).map (fun s => s.child_fsm) := by
    intro c hc
    obtain ⟨S, hSc⟩ := Option.isSome_iff_exists.mp hc
    have hne : c ≠ w.states.length + 1 := by have := (cell_bound hSc).2; omega
    obtain ⟨x, hx⟩ := hold c S hne hSc
    rw [hx, hSc]
    rfl
  have halive : ∀ p, (cell w.states p).isSome → (cell w1.states p).isSome := by
    intro p hp
    have := hchild p hp
    obtain ⟨S, hSc⟩ := Option.isSome_iff_exists.mp hp
    cases hc1 : cell w1.states p with
    | none => simp [hSc, hc1] at this
    | some v1 => rfl
  have hnext : ∀ p, (cell w.fsms p).isSome →
      (cell w1.fsms p).map (fun F => F.next) = (cell w.fsms p).map (fun F => F.next) := by
    intro p _
    by_cases hp : p = f
    · rw [hp, hff, hF]
      rfl
    · rw [hfo p hp]
  have hkids : ∀ k c, w.kids_below rank k c → w1.kids_below rank k c := by
    intro k c hk
    refine kids_below_cells rank k c hnext (hchild c ?_) hk
    obtain ⟨C, -, hC, -⟩ := hk
    simp only [World.state?] at hC
    rw [hC]
    rfl
  refine ⟨w1, hrun, ht, ⟨ht.1, ?_⟩, hff, hchain, hlen, hnew, hold⟩
  intro g G hG
  simp only [World.fsm?] at hG
  by_cases hg : g = f
  · subst hg
    rw [hff] at hG
    have hG := (Option.some.inj hG).symm
    subst hG
    obtain ⟨-, hq, hprev, hcur, hnx⟩ := hs.2 g F hF
    refine ⟨hv, by simpa [World.queue?, hq1] using hq, halive _ hprev, hkids _ _ hcur, ?_⟩
    intro h0
    by_cases hnil : L0 = []
    · simp only [hnil, if_true]
      refine ⟨_, [], hnew, ?_, by simp⟩
      simp [fsm_chain, state_new_record]
    · simp only [hnil, if_false] at h0 ⊢
      exact hkids _ _ (hnx h0)
  · rw [hfo g hg] at hG
    obtain ⟨hv1, hq, hprev, hcur, hnx⟩ := hs.2 g G hG
    exact ⟨hv1, by simpa [World.queue?, hq1] using hq, halive _ hprev, hkids _ _ hcur,
      fun h0 => hkids _ _ (hnx h0)⟩

/-- `fsm_new` returns, with a fresh address, when no lock is held and ROOT is alive. -/
theorem fsm_new_ok (name : Option String) (w : World) (R : state) (hh : w.held = [])
    (hR : cell w.states ROOT = some R) :
    ∃ w1, fsm_new name w = .ok (w.fsms.length + 1, w1) := by
  unfold fsm_new fsm_init
  simp only [World.fsm?, World.state?, cell_append_new, hR, ld, ok_bind, mutex_create, ASSERT,
    Nat.add_one_ne_zero, ne_eq, not_false_eq_true, if_true, mutex_lock, queue_create]
  by_cases h0 : R.lock = 0
  · simp [h0, hh]
  · simp [h0, hh]

/-- A list of states with new, pairwise distinct ids added to an FSM that has a state
already: every call returns 0, the world stays sound and its registries in order, the
previous, current and pending state of the FSM are as before, the new states follow the old
ones in the state list, and the old state records are as before but for the `next` link. -/
theorem adds_ok (rank : Nat → Nat) (f : Nat) :
    ∀ (rest : List (Option String × Nat × Nat)) (w : World) (F : fsm) (L : List Nat),
      w.tidy → w.sound rank → cell w.fsms f = some F → w.registry F = .ok L → L ≠ [] →
      (rest.map (fun x => x.2.1)).Nodup →
      (∀ x ∈ rest, ∀ b ∈ L, ∀ t, cell w.states b = some t → t.id ≠ x.2.1) →
      ∃ w2 F2 M, adds f rest w = .ok (List.replicate rest.length 0, w2) ∧ w2.tidy ∧
        w2.sound rank ∧ cell w2.fsms f = some F2 ∧ F2.sta_prev = F.sta_prev ∧
        F2.sta_curr = F.sta_curr ∧ F2.sta_next = F.sta_next ∧
        w2.registry F2 = .ok (L ++ M) ∧
        ∀ a S, cell w.states a = some S → ∃ x, cell w2.states a = some { S with next := x } := by
  intro rest
  induction rest with
  | nil =>
    intro w F L hw hs hF hL _ _ _
    exact ⟨w, F, [], rfl, hw, hs, hF, rfl, rfl, rfl, by simpa using hL,
      fun a S hS => ⟨S.next, hS⟩⟩
  | cons s rest ih =>
    intro w F L hw hs hF hL hne hnd hfresh
    obtain ⟨name, id, handler⟩ := s
    simp only [List.map_cons, List.nodup_cons, List.mem_map, not_exists, not_and] at hnd
    obtain ⟨w1, hrun, ht1, hs1, hF1, hL1, hlen1, hnew1, hold1⟩ :=
      add_step rank f name id handler w F L hw hs hF hL
        (fun b hb t htb => hfresh (name, id, handler) (List.mem_cons_self _ _) b hb t htb)
    simp only [hne, if_false] at hF1 hL1
    obtain ⟨-, -, L0, hL0, -, hS⟩ := hw.2 f F hF
    obtain rfl : L = L0 := Except.ok.inj (hL.symm.trans hL0)
    obtain ⟨w2, F2, M, hrun2, ht2, hs2, hF2, hp2, hc2, hn2, hL2, hold2⟩ :=
      ih w1 _ (L ++ [w.states.length + 1]) ht1 hs1 hF1 hL1 (by simp) hnd.2
        (by
          intro x hx b hb t htb
          rcases List.mem_append.mp hb with hb | hb
          · obtain ⟨T, hT, -⟩ := hS b hb
            simp only [World.state?] at hT
            have hb1 : b ≠ w.states.length + 1 := by have := (cell_bound hT).2; omega
            obtain ⟨y, hy⟩ := hold1 b T hb1 hT
            rw [hy] at htb
            have := Option.some.inj htb
            rw [← this]
            exact hfresh x (List.mem_cons_of_mem _ hx) b hb T hT
          · simp only [List.mem_singleton] at hb
            subst hb
            rw [hnew1] at htb
            have := Option.some.inj htb
            rw [← this]
            simp only [state_new_record]
            exact fun e => hnd.1 x hx e.symm)
    refine ⟨w2, F2, (w.states.length + 1) :: M, ?_, ht2, hs2, hF2, hp2, hc2, hn2,
      by simpa using hL2, ?_⟩
    · simp only [adds, hrun, ok_bind, hrun2, pure_eq_ok, List.length_cons, List.replicate_succ]
    · intro a S hS
      have ha : a ≠ w.states.length + 1 := by have := (cell_bound hS).2; omega
      obtain ⟨x, hx⟩ := hold1 a S ha hS
      obtain ⟨y, hy⟩ := hold2 a _ hx
      exact ⟨y, hy⟩

/-- Polls of an FSM with no pending request, in a sound world whose handlers leave the FSM
records and the state records alone: every poll returns, the record of the FSM stays as it is
and so do the fields of the state at `a` that `fsm_get_current_state` reads. -/
theorem polls_ok (hs : handlers) (rank : Nat → Nat) (n f a : Nat) (R : fsm)
    (v : Nat × Nat × String × Nat) (ht : hs.tame rank) (hkf : hs.keep (fun w => w.fsms))
    (hks : hs.keep (fun w => w.states)) (hn : rank f < n) (hR : R.sta_next = 0) :
    ∀ (ts : List Nat) (w : World), w.sound rank → cell w.fsms f = some R →
      (cell w.states a).map (fun s => (s.magic_number, s.id, s.name, s.lock)) = some v →
      ∃ w3, polls hs n f ts w = .ok w3 ∧ w3.sound rank ∧ cell w3.fsms f = some R ∧
        (cell w3.states a).map (fun s => (s.magic_number, s.id, s.name, s.lock)) = some v := by
  have hkf1 : ∀ h e w, (hs h e w).2.fsms = w.fsms := hkf
  have hks1 : ∀ h e w, (hs h e w).2.states = w.states := hks
  have hkeep : hs.keep (fun w => w.fsm? f) := fun h e w => by
    simp only [World.fsm?, hkf1]
  obtain ⟨k1, k2, k3⟩ := fsm_poll_keeps_settled hs f R hR hkeep
  intro ts
  induction ts with
  | nil => intro w hw hF hK; exact ⟨w, rfl, hw, hF, hK⟩
  | cons t ts ih =>
    intro w hw hF hK
    obtain ⟨r, hr, -⟩ := fsm_poll_total hs rank ht n f { w with now := t }
      (sound_now rank w t hw) (by simp only; rw [hF]; rfl) hn
    have h1 := fsm_poll_sound hs rank ht n f _ r (sound_now rank w t hw) hr
    have h2 := fsm_poll_keeps hs (fun w => cell w.fsms f = some R) (fun _ => True) k1 k2 k3
      n f { w with now := t } r trivial (fun _ _ _ => trivial) hF hr
    have h3 := fsm_poll_keeps hs
      (fun w => (cell w.states a).map (fun s => (s.magic_number, s.id, s.name, s.lock)) = some v)
      (fun _ => True)
      (fun h e w hI => by simp only [hks1]; exact hI)
      (fun w qs hI _ => hI)
      (fun g w l t w1 _ hI hl => by
        rw [← hI]
        exact poll_locked_states (fun s => (s.magic_number, s.id, s.name, s.lock))
          (fun _ _ _ => rfl) hl a)
      n f { w with now := t } r trivial (fun _ _ _ => trivial) hK hr
    obtain ⟨w3, hrun, hw3⟩ := ih r.world h1 h2 h3
    exact ⟨w3, by simp only [polls, hr, ok_bind, hrun], hw3⟩

/-- C25 (First registered state is entered first): in a sound world with its registries in
order (the FSMs attached to ROOT, if any, of lower rank than the new FSM), `fsm_new` returns
a new FSM, and `fsm_state_add` of one or more states with pairwise distinct ids returns 0 for
each.  With handlers that are tame and leave the FSM records and the state records alone (no
transition request, no deletion), the first `fsm_poll`, at any time, returns and makes the
first state added the current state with ROOT as the previous state and no pending request;
`fsm_get_current_state` then reports the id and the name of that state; and after any number
of further polls, at any times, each of which returns, that state is still the current state
and `fsm_get_current_state` reports it. -/
theorem C25_first_state_entered (hs : handlers) (rank : Nat → Nat) (n : Nat) (w0 : World)
    (name : Option String) (s : Option String × Nat × Nat)
    (rest : List (Option String × Nat × Nat))
    (ht : hs.tame rank) (hkf : hs.keep (fun w => w.fsms)) (hks : hs.keep (fun w => w.states))
    (hw : w0.tidy) (hs0 : w0.sound rank)
    (hroot : w0.kids_below rank (w0.fsms.length + 1) ROOT)
    (hn : rank (w0.fsms.length + 1) < n)
    (hids : ((s :: rest).map (fun x => x.2.1)).Nodup) :
    ∃ f w1 rets w2, fsm_new name w0 = .ok (f, w1) ∧
      adds f (s :: rest) w1 = .ok (rets, w2) ∧ rets.length = rest.length + 1 ∧
      (∀ r ∈ rets, r = 0) ∧
      ∀ t ts, ∃ r w3, fsm_poll hs n f { w2 with now := t } = .ok r ∧
        (r.world.fsm? f).map (fun F => (F.sta_prev, F.sta_curr, F.sta_next)) =
          some (ROOT, w1.states.length + 1, 0) ∧
        fsm_get_current_state f r.world =
          .ok ({ id := s.2.1, name := s.1.getD "No name" }, r.world) ∧
        polls hs n f ts r.world = .ok w3 ∧
        (w3.fsm? f).map (fun F => (F.sta_prev, F.sta_curr, F.sta_next)) =
          some (ROOT, w1.states.length + 1, 0) ∧
        fsm_get_current_state f w3 = .ok ({ id := s.2.1, name := s.1.getD "No name" }, w3) := by
  obtain ⟨nm, id, handler⟩ := s
  simp only [List.map_cons, List.nodup_cons, List.mem_map, not_exists, not_and] at hids
  have hroot1 := hroot
  obtain ⟨R0, K0, hR0, -⟩ := hroot
  simp only [World.state?] at hR0
  obtain ⟨w1, hnew⟩ := fsm_new_ok name w0 R0 hw.1 hR0
  have ht1 := tidy_new hw hnew
  have hs1 := sound_new rank hs0 hroot1 hnew
  obtain ⟨R, -, -, -, -, -, -, -, -, -, hfg⟩ := fsm_new_inv hnew
  have hreg0 : w1.registry
      { magic_number := FSM_MAGIC_NUMBER, lock := w1.mutexes, name := name.getD "No name",
        poll_interval := DEFAULT_POLLING_INTERVAL, event_queue := w0.queues.length + 1,
        parent_state := 0, state_list := 0, sta_prev := ROOT, sta_curr := ROOT,
        sta_next := 0, next := 0, os := fsm_port_os_handle } = .ok [] := by
    simp [World.registry, state_chain]
  obtain ⟨wA, hrunA, htA, hsA, hFA, hLA, hlenA, hnewA, -⟩ :=
    add_step rank (w0.fsms.length + 1) nm id handler w1 _ [] ht1 hs1 hfg hreg0
      (fun b hb => by simp at hb)
  simp only [if_true, List.nil_append] at hFA hLA
  obtain ⟨w2, F2, M, hrun2, ht2, hs2, hF2, hp2, hc2, hn2, hL2, hold2⟩ :=
    adds_ok rank (w0.fsms.length + 1) rest wA _ [w1.states.length + 1] htA hsA hFA hLA
      (by simp) hids.2
      (by
        intro x hx b hb t htb
        simp only [List.mem_singleton] at hb
        subst hb
        rw [hnewA] at htb
        rw [← Option.some.inj htb]
        simp only [state_new_record]
        exact fun e => hids.1 x hx e.symm)
  simp only at hp2 hc2 hn2
  obtain ⟨x, hx⟩ := hold2 _ _ hnewA
  obtain ⟨hv2, -, L2, hL2', -, hS2⟩ := ht2.2 _ F2 hF2
  obtain rfl : L2 = [w1.states.length + 1] ++ M := Except.ok.inj (hL2'.symm.trans hL2)
  obtain ⟨S2, hS2a, hS2m, -, hS2l, hS2ne⟩ := hS2 (w1.states.length + 1) (by simp)
  simp only [World.state?] at hS2a
  rw [hx] at hS2a
  have hS2e := (Option.some.inj hS2a).symm
  subst hS2e
  simp only [state_new_record] at hS2m hS2l hS2ne
  refine ⟨w0.fsms.length + 1, w1, 0 :: List.replicate rest.length 0, w2, hnew, ?_, by simp,
    ?_, ?_⟩
  · simp only [adds, hrunA, ok_bind, hrun2, pure_eq_ok]
  · intro r hr
    rcases List.mem_cons.mp hr with rfl | hr
    · rfl
    · exact List.eq_of_mem_replicate hr
  · intro t ts
    have hkf1 : ∀ h e w, (hs h e w).2.fsms = w.fsms := hkf
    have hks1 : ∀ h e w, (hs h e w).2.states = w.states := hks
    have hkeep : hs.keep (fun w => w.fsm? (w0.fsms.length + 1)) := fun h e w => by
      simp only [World.fsm?, hkf1]
    have a0 : w1.states.length + 1 ≠ 0 := by omega
    obtain ⟨r, hr, -⟩ := fsm_poll_total hs rank ht n (w0.fsms.length + 1) { w2 with now := t }
      (sound_now rank w2 t hs2) (by simp only; rw [hF2]; rfl) hn
    have hsr := fsm_poll_sound hs rank ht n _ _ r (sound_now rank w2 t hs2) hr
    have hFr := ((transition_applied hs n _ { w2 with now := t } r F2 hF2 hr).2 hkeep).1
      (by rw [hn2]; exact a0)
    simp only [World.fsm?] at hFr
    rw [hn2, hc2] at hFr
    have hK : (cell ({ w2 with now := t } : World).states (w1.states.length + 1)).map
        (fun s => (s.magic_number, s.id, s.name, s.lock)) =
        some (STATE_MAGIC_NUMBER, id, nm.getD "No name", w1.mutexes + 1) := by
      simp only [hx, Option.map_some', state_new_record]
    have hKr := fsm_poll_keeps hs
      (fun w => (cell w.states (w1.states.length + 1)).map
        (fun s => (s.magic_number, s.id, s.name, s.lock)) =
        some (STATE_MAGIC_NUMBER, id, nm.getD "No name", w1.mutexes + 1))
      (fun _ => True)
      (fun h e w hI => by simp only [hks1]; exact hI)
      (fun w qs hI _ => hI)
      (fun g w l t w1 _ hI hl => by
        rw [← hI]
        exact poll_locked_states (fun s => (s.magic_number, s.id, s.name, s.lock))
          (fun _ _ _ => rfl) hl _)
      n _ { w2 with now := t } r trivial (fun _ _ _ => trivial) hK hr
    obtain ⟨w3, hrun3, hs3, hF3, hK3⟩ := polls_ok hs rank n (w0.fsms.length + 1)
      (w1.states.length + 1)
      { F2 with sta_prev := ROOT, sta_curr := w1.states.length + 1, sta_next := 0 }
      (STATE_MAGIC_NUMBER, id, nm.getD "No name", w1.mutexes + 1) ht hkf hks hn rfl ts
      r.world hsr hFr hKr
    have hget : ∀ w : World, w.sound rank →
        cell w.fsms (w0.fsms.length + 1) = some
          { F2 with sta_prev := ROOT, sta_curr := w1.states.length + 1, sta_next := 0 } →
        (cell w.states (w1.states.length + 1)).map
          (fun s => (s.magic_number, s.id, s.name, s.lock)) =
          some (STATE_MAGIC_NUMBER, id, nm.getD "No name", w1.mutexes + 1) →
        fsm_get_current_state (w0.fsms.length + 1) w =
          .ok ({ id := id, name := nm.getD "No name" }, w) := by
      intro w hsw hFw hKw
      cases hC : cell w.states (w1.states.length + 1) with
      | none => simp [hC] at hKw
      | some C =>
        simp only [hC, Option.map_some', Option.some.injEq, Prod.mk.injEq] at hKw
        obtain ⟨k1, k2, k3, k4⟩ := hKw
        have := get_current_state_eq (w0.fsms.length + 1) w _ C hFw hv2
          (by rw [hsw.1]; simp) a0 hC k1 (by rw [hsw.1]; simp)
          (by simp only; rw [k4]; exact hS2ne)
        rw [this, k2, k3]
    refine ⟨r, w3, hr, ?_, hget r.world hsr hFr hKr, hrun3, ?_, hget w3 hs3 hF3 hK3⟩
    · simp only [World.fsm?, hFr, Option.map_some']
    · simp only [World.fsm?, hF3, Option.map_some']

theorem boot_sound (rank : Nat → Nat) : World.boot.sound rank := by
  refine ⟨rfl, ?_⟩
  intro g G hG
  cases g with
  | zero => simp [World.fsm?, cell] at hG
  | succ k => simp [World.fsm?, cell, World.boot] at hG

theorem C25_first_state_entered_witness :
    ∃ f w1 rets w2, fsm_new (some "Test FSM") World.boot = .ok (f, w1) ∧
      adds f [(some "Test state 1", 5, 1), (some "Test state 2", 2, 2)] w1 = .ok (rets, w2) ∧
      rets.length = 2 ∧ (∀ r ∈ rets, r = 0) ∧
      ∀ t ts, ∃ r w3, fsm_poll hs_idle 1 f { w2 with now := t } = .ok r ∧
        (r.world.fsm? f).map (fun F => (F.sta_prev, F.sta_curr, F.sta_next)) =
          some (ROOT, w1.states.length + 1, 0) ∧
        fsm_get_current_state f r.world = .ok ({ id := 5, name := "Test state 1" }, r.world) ∧
        polls hs_idle 1 f ts r.world = .ok w3 ∧
        (w3.fsm? f).map (fun F => (F.sta_prev, F.sta_curr, F.sta_next)) =
          some (ROOT, w1.states.length + 1, 0) ∧
        fsm_get_current_state f w3 = .ok ({ id := 5, name := "Test state 1" }, w3) :=
  C25_first_state_entered hs_idle (fun _ => 0) 1 World.boot (some "Test FSM")
    (some "Test state 1", 5, 1) [(some "Test state 2", 2, 2)] (hs_idle_tame _)
    (hs_idle_keep _) (hs_idle_keep _) boot_tidy (boot_sound _)
    ⟨root_state, [], rfl, rfl, by simp⟩ (by decide) (by decide)

/-! ## The time of the first poll

What the engine does `d` ms later, in a world whose poll timestamps, queued events and clock
are `d` ms later. -/

theorem cell_map {α β : Type} (g : α → β) (h : List (Option α)) (p : Nat) :
    cell (h.map (Option.map g)) p = (cell h p).map g := by
  cases p with
  | zero => rfl
  | succ a =>
    simp only [cell, List.getElem?_map]
    cases h[a]? with
    | none => rfl
    | some o => cases o <;> rfl

theorem put_map {α β : Type} (g : α → β) (h : List (Option α)) (p : Nat) (v : Option α) :
    put (h.map (Option.map g)) p (v.map g) = (put h p v).map (Option.map g) := by
  cases p with
  | zero => rfl
  | succ a => simp [put, List.map_set]

@[simp] theorem later_states (d : Nat) (w : World) (p : Nat) :
    cell (w.later d).states p = (cell w.states p).map (state.later d) := cell_map _ _ _

@[simp] theorem later_queues (d : Nat) (w : World) (q : Nat) :
    cell (w.later d).queues q = (cell w.queues q).map (queue.later d) := cell_map _ _ _

@[simp] theorem later_fsms (d : Nat) (w : World) : (w.later d).fsms = w.fsms := rfl

@[simp] theorem later_held (d : Nat) (w : World) : (w.later d).held = w.held := rfl

@[simp] theorem later_now (d : Nat) (w : World) : (w.later d).now = w.now + d := rfl

@[simp] theorem later_mutexes (d : Nat) (w : World) : (w.later d).mutexes = w.mutexes := rfl

@[simp] theorem later_states_length (d : Nat) (w : World) :
    (w.later d).states.length = w.states.length := by simp [World.later]

theorem later_setState (d : Nat) (w : World) (p : Nat) (S : state) :
    (w.later d).setState p (S.later d) = (w.setState p S).later d := by
  simp only [World.setState, World.later]
  congr 1
  exact put_map (state.later d) w.states p (some S)

theorem later_setFsm (d : Nat) (w : World) (p : Nat) (F : fsm) :
    (w.later d).setFsm p F = (w.setFsm p F).later d := rfl

theorem later_setQueue (d : Nat) (w : World) (p : Nat) (Q : queue) :
    (w.later d).setQueue p (Q.later d) = (w.setQueue p Q).later d := by
  simp only [World.setQueue, World.later]
  congr 1
  exact put_map (queue.later d) w.queues p (some Q)

theorem later_held_set (d : Nat) (w : World) (H : List Nat) :
    ({ w.later d with held := H } : World) = ({ w with held := H } : World).later d := rfl

theorem later_unlock (d : Nat) (w : World) (m : Nat) :
    mutex_unlock m (w.later d) = (mutex_unlock m w).later d := rfl

theorem later_lock (d : Nat) (w : World) (m : Nat) :
    mutex_lock m (w.later d) = (mutex_lock m w).map (World.later d) := by
  unfold mutex_lock
  by_cases h : m ∈ w.held
  · simp [h]
  · simp only [later_held, h, if_false, map_ok]
    rfl

theorem state_find_later (d : Nat) (h : List (Option state)) (hit : Nat → state → Bool)
    (hhit : ∀ a s, hit a (s.later d) = hit a s) :
    ∀ n p, state_find (h.map (Option.map (state.later d))) hit n p = state_find h hit n p := by
  intro n
  induction n with
  | zero => intro p; rfl
  | succ n ih =>
    intro p
    simp only [state_find, cell_map]
    by_cases hp : p = 0
    · simp [hp]
    · simp only [hp, if_false]
      cases cell h p with
      | none => rfl
      | some s =>
        simp only [Option.map_some', hhit]
        split
        · rfl
        · exact ih _

theorem queue_send_later (d : Nat) (q : Nat) (e : event) (w : World) :
    queue_send q (e.later d) (w.later d) =
      (queue_send q e w).map (fun r => (r.1, r.2.later d)) := by
  unfold queue_send
  simp only [World.queue?, later_queues]
  cases hQ : cell w.queues q with
  | none => rfl
  | some Q =>
    simp only [Option.map_some', queue.later, List.length_map]
    by_cases hlt : Q.items.length < Q.length
    · simp only [hlt, if_true, map_ok]
      have := later_setQueue d w q { Q with items := Q.items ++ [e] }
      simp only [queue.later, List.map_append, List.map_cons, List.map_nil] at this
      rw [this]
    · simp only [hlt, if_false, map_ok]

theorem queue_receive_later (d : Nat) (q : Nat) (w : World) :
    queue_receive q (w.later d) =
      (queue_receive q w).map (fun r => (r.1.map (event.later d), r.2.later d)) := by
  unfold queue_receive
  simp only [World.queue?, later_queues]
  cases hQ : cell w.queues q with
  | none => rfl
  | some Q =>
    simp only [Option.map_some', queue.later]
    cases hi : Q.items with
    | nil => rfl
    | cons e rest =>
      simp only [List.map_cons, map_ok, Option.map_some']
      have := later_setQueue d w q { Q with items := rest }
      simp only [queue.later] at this
      rw [this]

theorem poll_transition_later (d : Nat) (f : Nat) (w : World) :
    poll_transition f (w.later d) =
      (poll_transition f w).map (fun r => (r.1, r.2.1, r.2.2.later d)) := by
  unfold poll_transition
  simp only [World.fsm?, later_fsms, World.state?]
  cases hF : cell w.fsms f with
  | none => rfl
  | some F =>
    simp only [ld, ok_bind]
    by_cases h0 : F.sta_next = 0
    · simp [h0]
    · simp only [h0, ne_eq, not_false_eq_true, if_true, later_setFsm, later_states,
        World.setFsm]
      cases hP : cell w.states F.sta_curr with
      | none => rfl
      | some P =>
        cases hC : cell w.states F.sta_next with
        | none => rfl
        | some C => rfl

theorem timed_iff (w : World) :
    w.timed = true ↔ 0 < w.now ∧
      (∀ a S, cell w.states a = some S → S.timed w.now a = true) ∧
      (∀ g G, cell w.fsms g = some G → G.stepped.sta_curr ≠ ROOT) := by
  unfold World.timed
  simp only [Bool.and_eq_true, decide_eq_true_eq, List.all_eq_true, List.mem_range,
    World.state?, World.fsm?]
  constructor
  · rintro ⟨⟨h1, h2⟩, h3⟩
    refine ⟨h1, ?_, ?_⟩
    · intro a S hS
      have := h2 a (by have := (cell_bound hS).2; omega)
      simpa [hS] using this
    · intro g G hG
      have := h3 g (by have := (cell_bound hG).2; omega)
      simpa [hG] using this
  · rintro ⟨h1, h2, h3⟩
    refine ⟨⟨h1, ?_⟩, ?_⟩
    · intro a _
      cases hS : cell w.states a with
      | none => rfl
      | some S => exact h2 a S hS
    · intro g _
      cases hG : cell w.fsms g with
      | none => rfl
      | some G => simpa using h3 g G hG

theorem sub32_later (ts tsp d : Nat) (h1 : tsp ≤ ts) (h2 : ts + d < 4294967296) :
    sub32 (ts + d) (tsp + d) = sub32 ts tsp := by
  unfold sub32
  have e1 : (tsp + d) % 4294967296 = tsp + d := Nat.mod_eq_of_lt (by omega)
  have e2 : tsp % 4294967296 = tsp := Nat.mod_eq_of_lt (by omega)
  rw [e1, e2]
  have e3 : ts + d + 4294967296 - (tsp + d) = ts + 4294967296 - tsp := by omega
  rw [e3]

theorem sub32_zero (ts : Nat) (h : ts < 4294967296) : sub32 ts 0 = ts := by
  unfold sub32
  simp only [Nat.zero_mod, Nat.sub_zero, Nat.add_mod_right]
  exact Nat.mod_eq_of_lt h

/-- The generation of the polling event `d` ms later, for a current state that is past the
point where the time of the first poll matters. -/
theorem poll_generate_later (d ts q c : Nat) (w : World) (C : state) (hts : 0 < ts)
    (hb : ts + d < 4294967296) (hC : cell w.states c = some C)
    (hT : C.timed ts c = true) (hc : c ≠ ROOT) :
    poll_generate (ts + d) q c (w.later d) =
      (poll_generate ts q c w).map (fun r => (r.1.map (action.later d), r.2.later d)) := by
  unfold state.timed at hT
  simp only [Bool.and_eq_true, decide_eq_true_eq, Bool.or_eq_true, beq_iff_eq, bne_iff_ne,
    ne_eq, hc, false_or] at hT
  obtain ⟨hle, hT⟩ := hT
  unfold poll_generate
  simp only [World.state?, later_states, hC, Option.map_some', ld, ok_bind]
  have hpi : (C.later d).poll_interval = C.poll_interval := rfl
  have hpn : (C.later d).poll_interval_next = C.poll_interval_next := rfl
  by_cases hno : C.poll_interval = FSM_NO_POLL
  · simp only [hpi, hno, ne_eq, not_true_eq_false, if_false, pure_eq_ok, map_ok, List.map_nil]
    rw [← later_setState]
    rfl
  · have hcond : sub32 (ts + d) (C.later d).ts_poll = sub32 ts C.ts_poll ∨
        (C.poll_interval ≤ sub32 (ts + d) (C.later d).ts_poll ∧
          C.poll_interval ≤ sub32 ts C.ts_poll) := by
      by_cases h0 : C.ts_poll = 0
      · right
        have hpi2 : C.poll_interval ≤ ts := by
          rcases hT with hT | hT
          · exact absurd h0 hT
          · simpa [hno] using hT
        simp only [state.later, h0, if_true]
        rw [sub32_zero _ hb, sub32_zero _ (by omega)]
        exact ⟨by omega, hpi2⟩
      · left
        simp only [state.later, h0, if_false]
        exact sub32_later ts C.ts_poll d hle hb
    have hiff : (C.poll_interval ≤ sub32 (ts + d) (C.later d).ts_poll) ↔
        (C.poll_interval ≤ sub32 ts C.ts_poll) := by
      rcases hcond with h | ⟨h1, h2⟩
      · rw [h]
      · exact ⟨fun _ => h2, fun _ => h1⟩
    have hno1 : ¬ (C.later d).poll_interval = FSM_NO_POLL := hno
    by_cases hge : C.poll_interval ≤ sub32 ts C.ts_poll
    · have hge1 : (C.later d).poll_interval ≤ sub32 (ts + d) (C.later d).ts_poll :=
        hiff.mpr hge
      simp only [hno, hno1, ne_eq, not_false_eq_true, if_true, ge_iff_le, hge, hge1]
      have hset : (w.later d).setState c { C.later d with ts_poll := ts + d } =
          (w.setState c { C with ts_poll := ts }).later d := by
        rw [← later_setState]
        congr 1
        simp [state.later, Nat.pos_iff_ne_zero.mp hts]
      have hev : poll_event (ts + d) = (poll_event ts).later d := rfl
      rw [hset, hev, queue_send_later]
      cases hsend : queue_send q (poll_event ts) (w.setState c { C with ts_poll := ts }) with
      | error e => rfl
      | ok r =>
        obtain ⟨ok, w2⟩ := r
        simp only [map_ok, ok_bind, later_states]
        cases hC2 : cell w2.states c with
        | none => rfl
        | some C2 =>
          simp only [Option.map_some', pure_eq_ok, ok_bind, map_ok, List.map_cons,
            List.map_nil]
          rw [← later_setState]
          rfl
    · have hge1 : ¬ (C.later d).poll_interval ≤ sub32 (ts + d) (C.later d).ts_poll :=
        fun h => hge (hiff.mp h)
      simp only [hno, hno1, ne_eq, not_false_eq_true, if_true, ge_iff_le, hge, hge1, if_false,
        pure_eq_ok, map_ok, List.map_nil]

theorem uptime_later (d : Nat) (w : World) (hb : w.now + d < 4294967296) :
    uptime_ms (w.later d) = uptime_ms w + d ∧ uptime_ms w = w.now := by
  unfold uptime_ms
  simp only [later_now]
  rw [Nat.mod_eq_of_lt hb, Nat.mod_eq_of_lt (by omega)]
  exact ⟨rfl, rfl⟩

/-- The part of a poll under the lock, `d` ms later. -/
theorem poll_locked_later (d f : Nat) (w : World) (hT : w.timed = true)
    (hb : w.now + d < 4294967296) :
    poll_locked f (w.later d) =
      (poll_locked f w).map
        (fun r => ({ r.1 with ts := r.1.ts + d }, r.2.1.map (action.later d), r.2.2.later d)) := by
  obtain ⟨hnow, hst, hfs⟩ := (timed_iff w).mp hT
  obtain ⟨hup1, hup2⟩ := uptime_later d w hb
  unfold poll_locked
  simp only [World.fsm?, later_fsms, hup1]
  cases hF : cell w.fsms f with
  | none => rfl
  | some F =>
    simp only [ld, ok_bind, ASSERT]
    by_cases hm : F.magic_number = FSM_MAGIC_NUMBER
    · by_cases hos : F.os = 0
      · simp [hm, hos]
      · by_cases hlk : F.lock = 0
        · simp [hm, hos, hlk]
        · simp only [hm, hos, hlk, ne_eq, not_false_eq_true, if_true, ok_bind, later_lock]
          cases hl : mutex_lock F.lock w with
          | error e => rfl
          | ok w1 =>
            obtain ⟨-, rfl⟩ := mutex_lock_eq_ok.mp hl
            simp only [map_ok, ok_bind]
            by_cases hq : F.event_queue = 0
            · simp [hq]
            · simp only [hq, not_false_eq_true, if_true, ok_bind, poll_transition_later]
              cases htr : poll_transition f { w with held := F.lock :: w.held } with
              | error e => rfl
              | ok r =>
                obtain ⟨x, e, w2⟩ := r
                obtain ⟨F0, hF0, hw2, -, -⟩ := poll_transition_inv htr
                have hF00 : F0 = F := Option.some.inj (hF0.symm.trans hF)
                subst hF00
                have hc2 : cell w2.fsms f = some F0.stepped := by
                  rw [hw2]
                  exact cell_put_same _ hF
                have hs2 : w2.states = w.states := by rw [hw2]
                simp only [map_ok, ok_bind, later_fsms, hc2, World.state?, later_states]
                cases hC : cell w2.states F0.stepped.sta_curr with
                | none => rfl
                | some C =>
                  simp only [Option.map_some', ok_bind, World.ffuel, later_fsms]
                  have hch : (state.later d C).child_fsm = C.child_fsm := rfl
                  rw [hch]
                  cases hchain : fsm_chain w2.fsms (w2.fsms.length + 1) C.child_fsm with
                  | error e => rfl
                  | ok buf =>
                    simp only [ok_bind]
                    rw [hs2] at hC
                    have hgen := poll_generate_later d (uptime_ms w) F0.stepped.event_queue
                      F0.stepped.sta_curr w2 C (by rw [hup2]; exact hnow)
                      (by rw [hup2]; exact hb) (by rw [hs2]; exact hC)
                      (by rw [hup2]; exact hst _ C hC) (hfs f F0 hF)
                    rw [hgen]
                    cases hg : poll_generate (uptime_ms w) F0.stepped.event_queue
                        F0.stepped.sta_curr w2 with
                    | error e => rfl
                    | ok r2 =>
                      obtain ⟨tr, w3⟩ := r2
                      rfl
    · simp [hm]

theorem timed_congr {w w1 : World} (h1 : w1.states = w.states) (h2 : w1.fsms = w.fsms)
    (h3 : w1.now = w.now) : w1.timed = w.timed := by
  unfold World.timed
  simp only [World.state?, World.fsm?, h1, h2, h3]

/-- The part of a poll under the lock keeps a world past the point where the time of the
first poll matters. -/
theorem poll_locked_timed {f : Nat} {w w1 : World} {l : poll_locals} {t : List action}
    (hT : w.timed = true) (hb : w.now < 4294967296)
    (h : poll_locked f w = .ok (l, t, w1)) : w1.timed = true ∧ w1.now = w.now := by
  obtain ⟨hnow, hst, hfs⟩ := (timed_iff w).mp hT
  obtain ⟨F, C, hF, -, -, hC, -, -, -, -, -, -, hfsms, -, hn, -, -, hg1, hg2, hg3⟩ :=
    poll_locked_inv h
  have hup : uptime_ms w = w.now := Nat.mod_eq_of_lt hb
  refine ⟨(timed_iff w1).mpr ⟨by rw [hn]; exact hnow, ?_, ?_⟩, hn⟩
  · intro a S hS
    rw [hn]
    have hTC := hst _ C hC
    by_cases hno : C.poll_interval = FSM_NO_POLL
    · rw [(hg1 hno).2.2] at hS
      by_cases ha : F.stepped.sta_curr = a
      · subst ha
        rw [cell_put_same _ hC] at hS
        rw [← Option.some.inj hS]
        by_cases hnx : C.poll_interval_next = FSM_NO_POLL
        · simp only [state.timed, Bool.and_eq_true, decide_eq_true_eq, Bool.or_eq_true,
            beq_iff_eq, bne_iff_ne, ne_eq, hno, hnx, if_true, true_or, or_true,
            and_true] at hTC ⊢
          exact hTC
        · simp only [state.timed, Bool.and_eq_true, decide_eq_true_eq, Bool.or_eq_true,
            beq_iff_eq, bne_iff_ne, ne_eq, hno, hnx, if_true, if_false, false_or] at hTC ⊢
          exact hTC
      · rw [cell_put_ne _ _ ha] at hS
        exact hst a S hS
    · by_cases hlt : sub32 (uptime_ms w) C.ts_poll < C.poll_interval
      · rw [(hg2 hno hlt).2.2] at hS
        exact hst a S hS
      · obtain ⟨Q, -, -, -, hs1⟩ := hg3 hno (Nat.le_of_not_lt hlt)
        rw [hs1] at hS
        by_cases ha : F.stepped.sta_curr = a
        · subst ha
          rw [cell_put_same _ hC] at hS
          rw [← Option.some.inj hS]
          simp only [state.timed, Bool.and_eq_true, decide_eq_true_eq, Bool.or_eq_true,
            beq_iff_eq, bne_iff_ne, ne_eq, hup]
          exact ⟨Nat.le_refl _, Or.inl (Or.inr (Nat.pos_iff_ne_zero.mp hnow))⟩
        · rw [cell_put_ne _ _ ha] at hS
          exact hst a S hS
  · intro g G hG
    rw [hfsms] at hG
    by_cases hg : f = g
    · subst hg
      rw [cell_put_same _ hF] at hG
      rw [← Option.some.inj hG, stepped_stepped]
      exact hfs f F hF
    · rw [cell_put_ne _ _ hg] at hG
      exact hfs g G hG

theorem poll_exit_later (d f : Nat) (l : poll_locals) (w : World) :
    poll_exit hs_test f { l with ts := l.ts + d } (w.later d) =
      (poll_exit hs_test f l w).map (fun r => (r.1.map (action.later d), r.2.later d)) := by
  unfold poll_exit
  by_cases h0 : l.exit = 0
  · simp [h0]
  · simp only [h0, ne_eq, not_false_eq_true, if_true, World.fsm?, later_fsms, World.state?,
      later_states]
    cases hF : cell w.fsms f with
    | none => rfl
    | some F =>
      simp only [ld, ok_bind]
      cases hC : cell w.states F.sta_curr with
      | none => rfl
      | some C => rfl

theorem poll_enter_later (d f : Nat) (l : poll_locals) (w : World) :
    poll_enter hs_test f { l with ts := l.ts + d } (w.later d) =
      (poll_enter hs_test f l w).map (fun r => (r.1.map (action.later d), r.2.later d)) := by
  unfold poll_enter
  by_cases h0 : l.enter = 0
  · simp [h0]
  · simp only [h0, ne_eq, not_false_eq_true, if_true, World.fsm?, later_fsms, World.state?,
      later_states]
    cases hF : cell w.fsms f with
    | none => rfl
    | some F =>
      simp only [ld, ok_bind]
      cases hC : cell w.states F.sta_prev with
      | none => rfl
      | some C => rfl

theorem poll_dispatch_later (d : Nat) (l : poll_locals) (w : World) :
    poll_dispatch hs_test { l with ts := l.ts + d } (w.later d) =
      (poll_dispatch hs_test l w).map
        (fun r => (r.1.map (event.later d), r.2.1.map (action.later d), r.2.2.later d)) := by
  unfold poll_dispatch
  simp only [queue_receive_later]
  cases hr : queue_receive l.event_queue w with
  | error e => rfl
  | ok r =>
    obtain ⟨o, w1⟩ := r
    cases o with
    | none => rfl
    | some ev =>
      simp only [map_ok, ok_bind, Option.map_some']
      by_cases h0 : l.handler = 0
      · simp [h0, action.later]
      · simp only [h0, ne_eq, not_false_eq_true, if_true, hs_test, pure_eq_ok, map_ok,
          Option.map_some', List.map_cons, List.map_nil, action.later, later_held]

theorem poll_forward_later (d : Nat) (o : Option event) (c : Nat) (w : World) :
    poll_forward (o.map (event.later d)) c (w.later d) =
      (poll_forward o c w).map (fun r => (r.1.map (action.later d), r.2.later d)) := by
  unfold poll_forward
  simp only [World.fsm?, later_fsms]
  cases hC : cell w.fsms c with
  | none => rfl
  | some C =>
    simp only [ld, ok_bind, ASSERT]
    by_cases hm : C.magic_number = FSM_MAGIC_NUMBER
    · by_cases hq : C.event_queue = 0
      · simp [hm, hq]
      · by_cases hlk : C.lock = 0
        · simp [hm, hq, hlk]
        · simp only [hm, hq, hlk, ne_eq, not_false_eq_true, if_true, ok_bind]
          cases o with
          | none => rfl
          | some ev =>
            simp only [Option.map_some']
            have hty : (event.later d ev).type = ev.type := rfl
            by_cases hp : ev.type = FSM_EVT_POLL
            · simp [hty, hp]
            · simp only [hty, hp, not_false_eq_true, if_true, later_lock]
              cases hl : mutex_lock C.lock w with
              | error e => rfl
              | ok w1 =>
                simp only [map_ok, ok_bind, queue_send_later]
                cases hs : queue_send C.event_queue ev w1 with
                | error e => rfl
                | ok r => rfl
    · simp [hm]

theorem here_later (d : Nat) (t : List action) :
    here (t.map (action.later d)) = (here t).map (fun a => (a.1, a.2.later d)) := by
  simp [here, List.map_map, Function.comp_def]

theorem deeper_later (d : Nat) (t : List (Nat × action)) :
    deeper (t.map (fun a => (a.1, a.2.later d))) =
      (deeper t).map (fun a => (a.1, a.2.later d)) := by
  simp [deeper, List.map_map, Function.comp_def]

theorem poll_exit_same {f : Nat} {l : poll_locals} {w w1 : World} {t : List action}
    (h : poll_exit hs_test f l w = .ok (t, w1)) : w1 = w := by
  obtain ⟨h0, h1⟩ := poll_exit_inv h
  by_cases hz : l.exit = 0
  · exact (h0 hz).2
  · obtain ⟨F, C, -, -, -, hw⟩ := h1 hz
    exact hw

theorem poll_enter_same {f : Nat} {l : poll_locals} {w w1 : World} {t : List action}
    (h : poll_enter hs_test f l w = .ok (t, w1)) : w1 = w := by
  obtain ⟨h0, h1⟩ := poll_enter_inv h
  by_cases hz : l.enter = 0
  · exact (h0 hz).2
  · obtain ⟨F, C, -, -, -, hw⟩ := h1 hz
    exact hw

theorem poll_dispatch_same {l : poll_locals} {w w1 : World} {o : Option event}
    {t : List action} (h : poll_dispatch hs_test l w = .ok (o, t, w1)) :
    w1.states = w.states ∧ w1.fsms = w.fsms ∧ w1.now = w.now := by
  obtain ⟨Q, -, h0, h1⟩ := poll_dispatch_inv h
  cases hi : Q.items with
  | nil =>
    obtain ⟨-, -, rfl⟩ := h0 hi
    exact ⟨rfl, rfl, rfl⟩
  | cons e rest =>
    obtain ⟨ha, hb⟩ := h1 e rest hi
    by_cases hz : l.handler = 0
    · obtain ⟨-, -, rfl⟩ := ha hz
      exact ⟨rfl, rfl, rfl⟩
    · obtain ⟨-, -, rfl⟩ := hb hz
      exact ⟨rfl, rfl, rfl⟩

/-- The child loop of a poll, `d` ms later. -/
theorem poll_children_later (d m : Nat)
    (ih : ∀ (f : Nat) (w : World), w.timed = true → w.now + d < 4294967296 →
      fsm_poll hs_test m f (w.later d) = (fsm_poll hs_test m f w).map (poll_result.later d) ∧
      ∀ r, fsm_poll hs_test m f w = .ok r → r.world.timed = true ∧ r.world.now = w.now)
    (o : Option event) :
    ∀ (buf : List Nat) (w : World), w.timed = true → w.now + d < 4294967296 →
      poll_children (fsm_poll hs_test m) (o.map (event.later d)) buf (w.later d) =
        (poll_children (fsm_poll hs_test m) o buf w).map
          (fun r => (r.1.map (fun a => (a.1, a.2.later d)), r.2.later d)) ∧
      ∀ t w1, poll_children (fsm_poll hs_test m) o buf w = .ok (t, w1) →
        w1.timed = true ∧ w1.now = w.now := by
  intro buf
  induction buf with
  | nil =>
    intro w hT hb
    refine ⟨rfl, ?_⟩
    intro t w1 h
    simp only [poll_children, Except.ok.injEq, Prod.mk.injEq] at h
    rw [← h.2]
    exact ⟨hT, rfl⟩
  | cons c rest ihb =>
    intro w hT hb
    simp only [poll_children, poll_forward_later]
    cases hf : poll_forward o c w with
    | error e => exact ⟨rfl, fun t w1 h => by simp at h⟩
    | ok r1 =>
      obtain ⟨t1, w2⟩ := r1
      obtain ⟨C, -, -, -, -, hfs, hss, -, hnw, -⟩ := poll_forward_inv hf
      have hT2 : w2.timed = true := by rw [timed_congr hss hfs hnw]; exact hT
      obtain ⟨hp1, hp2⟩ := ih c w2 hT2 (by rw [hnw]; exact hb)
      simp only [map_ok, ok_bind, hp1]
      cases hr : fsm_poll hs_test m c w2 with
      | error e => exact ⟨rfl, fun t w1 h => by simp at h⟩
      | ok r =>
        obtain ⟨hT3, hn3⟩ := hp2 r hr
        obtain ⟨hb1, hb2⟩ := ihb r.world hT3 (by rw [hn3, hnw]; exact hb)
        simp only [map_ok, ok_bind, poll_result.later, hb1]
        cases hc : poll_children (fsm_poll hs_test m) o rest r.world with
        | error e => exact ⟨rfl, fun t w1 h => by simp at h⟩
        | ok r3 =>
          obtain ⟨t3, w5⟩ := r3
          obtain ⟨hT5, hn5⟩ := hb2 t3 w5 hc
          refine ⟨?_, ?_⟩
          · simp only [map_ok, ok_bind, pure_eq_ok, here_later, deeper_later, List.map_append,
              List.map_cons]
            rfl
          · intro t w1 h
            simp only [ok_bind, pure_eq_ok, Except.ok.injEq, Prod.mk.injEq] at h
            rw [← h.2]
            exact ⟨hT5, by rw [hn5, hn3, hnw]⟩

/-- A poll of the reference test `d` ms later: in a world past the point where the time of
the first poll matters (and with no wrap of the clock) it does what it does now, `d` ms
later, and it leaves the world past that point. -/
theorem fsm_poll_later (d : Nat) :
    ∀ (n f : Nat) (w : World), w.timed = true → w.now + d < 4294967296 →
      fsm_poll hs_test n f (w.later d) = (fsm_poll hs_test n f w).map (poll_result.later d) ∧
      ∀ r, fsm_poll hs_test n f w = .ok r → r.world.timed = true ∧ r.world.now = w.now := by
  intro n
  induction n with
  | zero =>
    intro f w _ _
    exact ⟨rfl, fun r h => by simp [fsm_poll] at h⟩
  | succ m ih =>
    intro f w hT hb
    simp only [fsm_poll, poll_locked_later d f w hT hb]
    cases hl : poll_locked f w with
    | error e => exact ⟨rfl, fun r h => by simp at h⟩
    | ok r0 =>
      obtain ⟨l, t0, w1⟩ := r0
      obtain ⟨hT1, hn1⟩ := poll_locked_timed hT (by omega) hl
      simp only [map_ok, ok_bind, poll_exit_later]
      cases hx : poll_exit hs_test f l w1 with
      | error e => exact ⟨rfl, fun r h => by simp at h⟩
      | ok r1 =>
        obtain ⟨t1, w2⟩ := r1
        obtain rfl := poll_exit_same hx
        simp only [map_ok, ok_bind, poll_enter_later]
        cases he : poll_enter hs_test f l w2 with
        | error e => exact ⟨rfl, fun r h => by simp at h⟩
        | ok r2 =>
          obtain ⟨t2, w3⟩ := r2
          obtain rfl := poll_enter_same he
          simp only [map_ok, ok_bind, poll_dispatch_later]
          cases hd : poll_dispatch hs_test l w3 with
          | error e => exact ⟨rfl, fun r h => by simp at h⟩
          | ok r3 =>
            obtain ⟨o, t3, w4⟩ := r3
            obtain ⟨hs4, hf4, hn4⟩ := poll_dispatch_same hd
            have hT4 : w4.timed = true := by rw [timed_congr hs4 hf4 hn4]; exact hT1
            obtain ⟨hc1, hc2⟩ := poll_children_later d m ih o l.child_fsm_buf w4 hT4
              (by rw [hn4, hn1]; exact hb)
            simp only [map_ok, ok_bind, hc1]
            cases hc : poll_children (fsm_poll hs_test m) o l.child_fsm_buf w4 with
            | error e => exact ⟨rfl, fun r h => by simp at h⟩
            | ok r4 =>
              obtain ⟨t4, w5⟩ := r4
              obtain ⟨hT5, hn5⟩ := hc2 t4 w5 hc
              refine ⟨?_, ?_⟩
              · simp only [map_ok, ok_bind, pure_eq_ok, poll_result.later, ← List.map_append,
                  here_later]
              · intro r h
                simp only [ok_bind, pure_eq_ok, Except.ok.injEq] at h
                rw [← h]
                exact ⟨hT5, by rw [hn5, hn4, hn1]⟩

theorem switch_to_later (d f : Nat) (F : fsm) (node : Nat) (w : World) :
    switch_to f F node (w.later d) =
      (switch_to f F node w).map (fun r => (r.1, r.2.later d)) := by
  unfold switch_to
  by_cases hn : node = 0
  · simp only [hn, ne_eq, not_true_eq_false, if_false, map_ok]
    rfl
  · by_cases hx : F.sta_next = 0
    · simp only [hn, ne_eq, not_false_eq_true, if_true, hx, map_ok]
      rfl
    · simp only [hn, ne_eq, not_false_eq_true, if_true, hx, if_false, World.state?,
        later_states]
      cases hc : cell w.states F.sta_curr with
      | none => rfl
      | some c =>
        cases hs : cell w.states node with
        | none => rfl
        | some s => rfl

theorem switch_tail_later (d f : Nat) (F : fsm) (hit : Nat → state → Bool)
    (hhit : ∀ a s, hit a (s.later d) = hit a s) (p : Nat) (w : World) :
    (state_find (w.later d).states hit (w.later d).sfuel p >>= fun node =>
        switch_to f F node (w.later d)) =
      (state_find w.states hit w.sfuel p >>= fun node => switch_to f F node w).map
        (fun r => (r.1, r.2.later d)) := by
  have h1 : (w.later d).states = w.states.map (Option.map (state.later d)) := rfl
  have h2 : (w.later d).sfuel = w.sfuel := by simp [World.sfuel, World.later]
  rw [h1, h2, state_find_later d w.states hit hhit]
  cases hfind : state_find w.states hit w.sfuel p with
  | error e => rfl
  | ok node => exact switch_to_later d f F node w

/-- A transition request `d` ms later. -/
theorem request_run_later (d f : Nat) (q : request) (w : World) :
    q.run f (w.later d) = (q.run f w).map (fun r => (r.1, r.2.later d)) := by
  cases q with
  | by_id id =>
    simp only [request.run, fsm_switch, World.fsm?, later_fsms]
    cases hF : cell w.fsms f with
    | none => rfl
    | some F =>
      simp only [ld, ok_bind, ASSERT, later_lock]
      by_cases hm : F.magic_number = FSM_MAGIC_NUMBER
      · by_cases hos : F.os = 0
        · simp [hm, hos]
        · by_cases hlk : F.lock = 0
          · simp [hm, hos, hlk]
          · simp only [hm, hos, hlk, ne_eq, not_false_eq_true, if_true, ok_bind]
            cases hl : mutex_lock F.lock w with
            | error e => rfl
            | ok w1 =>
              obtain ⟨-, rfl⟩ := mutex_lock_eq_ok.mp hl
              simp only [map_ok, ok_bind]
              exact switch_tail_later d f F (fun _ s => decide (s.id = id)) (fun _ _ => rfl)
                F.state_list { w with held := F.lock :: w.held }
      · simp [hm]
  | by_state_handle st =>
    simp only [request.run, fsm_switch_by_state_handle, World.fsm?, later_fsms, World.state?,
      later_states]
    cases hF : cell w.fsms f with
    | none => rfl
    | some F =>
      simp only [ld, ok_bind, ASSERT, later_lock]
      by_cases hm : F.magic_number = FSM_MAGIC_NUMBER
      · simp only [hm, if_true, ok_bind]
        cases hS : cell w.states st with
        | none => rfl
        | some S =>
          simp only [Option.map_some', ok_bind]
          have hSm : (state.later d S).magic_number = S.magic_number := rfl
          rw [hSm]
          by_cases hsm : S.magic_number = STATE_MAGIC_NUMBER
          · by_cases hos : F.os = 0
            · simp [hsm, hos]
            · by_cases hlk : F.lock = 0
              · simp [hsm, hos, hlk]
              · simp only [hsm, hos, hlk, ne_eq, not_false_eq_true, if_true, ok_bind]
                cases hl : mutex_lock F.lock w with
                | error e => rfl
                | ok w1 =>
                  obtain ⟨-, rfl⟩ := mutex_lock_eq_ok.mp hl
                  simp only [map_ok, ok_bind]
                  exact switch_tail_later d f F (fun p _ => decide (p = st)) (fun _ _ => rfl)
                    F.state_list { w with held := F.lock :: w.held }
          · simp [hsm]
      · simp [hm]
  | by_name name =>
    simp only [request.run, fsm_switch_by_name, World.fsm?, later_fsms]
    cases hF : cell w.fsms f with
    | none => rfl
    | some F =>
      simp only [ld, ok_bind, ASSERT, later_lock]
      by_cases hm : F.magic_number = FSM_MAGIC_NUMBER
      · by_cases hos : F.os = 0
        · simp [hm, hos]
        · by_cases hlk : F.lock = 0
          · simp [hm, hos, hlk]
          · simp only [hm, hos, hlk, ne_eq, not_false_eq_true, if_true, ok_bind]
            cases hl : mutex_lock F.lock w with
            | error e => rfl
            | ok w1 =>
              obtain ⟨-, rfl⟩ := mutex_lock_eq_ok.mp hl
              simp only [map_ok, ok_bind]
              exact switch_tail_later d f F (fun _ s => decide (s.name = name))
                (fun _ _ => rfl) F.state_list { w with held := F.lock :: w.held }
      · simp [hm]

theorem change_state_later (d st v : Nat) (w : World) :
    fsm_change_state_poll_interval st v (w.later d) =
      (fsm_change_state_poll_interval st v w).map (fun r => (r.1, r.2.later d)) := by
  unfold fsm_change_state_poll_interval
  simp only [World.state?, later_states]
  cases hS : cell w.states st with
  | none => rfl
  | some S =>
    simp only [Option.map_some', ld, ok_bind, ASSERT]
    have hSm : (state.later d S).magic_number = S.magic_number := rfl
    rw [hSm]
    by_cases hsm : S.magic_number = STATE_MAGIC_NUMBER
    · simp only [hsm, if_true, ok_bind, pure_eq_ok, map_ok]
      rw [← later_setState]
      rfl
    · simp [hsm]

theorem event_clear_later (d f : Nat) (w : World) :
    fsm_event_clear f (w.later d) = (fsm_event_clear f w).map (fun r => (r.1, r.2.later d)) := by
  unfold fsm_event_clear
  simp only [World.fsm?, later_fsms]
  cases hF : cell w.fsms f with
  | none => rfl
  | some F =>
    simp only [ld, ok_bind, ASSERT]
    by_cases hm : F.magic_number = FSM_MAGIC_NUMBER
    · by_cases hos : F.os = 0
      · simp [hm, hos]
      · by_cases hq : F.event_queue = 0
        · simp [hm, hos, hq]
        · simp only [hm, hos, hq, ne_eq, not_false_eq_true, if_true, ok_bind, queue_clear,
            World.queue?, later_queues]
          cases hQ : cell w.queues F.event_queue with
          | none => rfl
          | some Q =>
            simp only [Option.map_some', ld, ok_bind, pure_eq_ok, map_ok]
            have := later_setQueue d w F.event_queue { Q with items := [] }
            simp only [queue.later, List.map_nil] at this
            rw [← this]
            rfl
    · simp [hm]

theorem event_send_later (d f type : Nat) (data : payload) (datalen : Nat) (w : World)
    (hb : w.now + d < 4294967296) :
    fsm_event_send f type data datalen (w.later d) =
      (fsm_event_send f type data datalen w).map (fun r => (r.1, r.2.later d)) := by
  obtain ⟨hup1, -⟩ := uptime_later d w hb
  unfold fsm_event_send
  simp only [World.fsm?, later_fsms, hup1]
  cases hF : cell w.fsms f with
  | none => rfl
  | some F =>
    simp only [ld, ok_bind, ASSERT]
    by_cases hm : F.magic_number = FSM_MAGIC_NUMBER
    · by_cases hos : F.os = 0
      · simp [hm, hos]
      · by_cases hlk : F.lock = 0
        · simp [hm, hos, hlk]
        · by_cases hq : F.event_queue = 0
          · simp [hm, hos, hlk, hq]
          · simp only [hm, hos, hlk, hq, ne_eq, not_false_eq_true, if_true, ok_bind,
              later_lock]
            cases hl : mutex_lock F.lock w with
            | error e => rfl
            | ok w1 =>
              simp only [map_ok, ok_bind]
              have hev : ∀ t : Nat,
                  ({ type := type, timestamp := t + d, data := data, datalen := datalen } :
                    event) =
                    event.later d
                      { type := type, timestamp := t, data := data, datalen := datalen } :=
                fun _ => rfl
              rw [hev, queue_send_later]
              cases hs : queue_send F.event_queue
                  { type := type, timestamp := uptime_ms w, data := data, datalen := datalen }
                  w1 with
              | error e => rfl
              | ok r => rfl
    · simp [hm]

theorem set_child_link_later (d st link v : Nat) (w : World) :
    set_child_link st link v (w.later d) = (set_child_link st link v w).map (World.later d) := by
  unfold set_child_link
  by_cases hl : link = 0
  · simp only [hl, if_true, World.state?, later_states]
    cases hS : cell w.states st with
    | none => rfl
    | some S =>
      simp only [Option.map_some', ld, ok_bind, pure_eq_ok, map_ok]
      rw [← later_setState]
      rfl
  · simp only [hl, if_false, World.fsm?, later_fsms]
    cases hF : cell w.fsms link with
    | none => rfl
    | some F => rfl

theorem child_fsm_add_later (d st f : Nat) (w : World) :
    fsm_state_child_fsm_add st f (w.later d) =
      (fsm_state_child_fsm_add st f w).map (fun r => (r.1, r.2.later d)) := by
  unfold fsm_state_child_fsm_add
  simp only [World.state?, later_states, World.fsm?, later_fsms]
  cases hS : cell w.states st with
  | none => rfl
  | some S =>
    simp only [Option.map_some', ld, ok_bind, ASSERT]
    have e1 : (state.later d S).magic_number = S.magic_number := rfl
    have e2 : (state.later d S).lock = S.lock := rfl
    have e3 : (state.later d S).parent_fsm = S.parent_fsm := rfl
    have e4 : (state.later d S).child_fsm = S.child_fsm := rfl
    rw [e1, e2, e3, e4]
    by_cases hsm : S.magic_number = STATE_MAGIC_NUMBER
    · simp only [hsm, if_true, ok_bind]
      cases hF : cell w.fsms f with
      | none => rfl
      | some F =>
        simp only [ok_bind]
        by_cases hm : F.magic_number = FSM_MAGIC_NUMBER
        · by_cases hos : F.os = 0
          · simp [hm, hos]
          · by_cases hlk : F.lock = 0
            · simp [hm, hos, hlk]
            · by_cases hsl : S.lock = 0
              · simp [hm, hos, hlk, hsl]
              · simp only [hm, hos, hlk, hsl, ne_eq, not_false_eq_true, if_true, ok_bind]
                by_cases ho : f = S.parent_fsm
                · simp only [ho, if_true, pure_eq_ok, map_ok]
                · simp only [ho, if_false, later_lock]
                  cases hl1 : mutex_lock S.lock w with
                  | error e => rfl
                  | ok w1 =>
                    simp only [map_ok, ok_bind, World.ffuel, later_fsms]
                    cases hct : child_tail w1.fsms (w1.fsms.length + 1) 0 S.child_fsm with
                    | error e => rfl
                    | ok link =>
                      simp only [ok_bind, later_lock]
                      cases hl2 : mutex_lock F.lock w1 with
                      | error e => rfl
                      | ok w2 =>
                        simp only [map_ok, ok_bind, later_fsms]
                        cases hF1 : cell w2.fsms f with
                        | none => rfl
                        | some F1 =>
                          simp only [ok_bind, later_setFsm, later_unlock,
                            set_child_link_later]
                          cases hset : set_child_link st link f
                              (mutex_unlock F.lock
                                (w2.setFsm f { F1 with parent_state := st, next := 0 })) with
                          | error e => rfl
                          | ok w3 => rfl
        · simp [hm]
    · simp [hsm]

/-- A call of the reference test between its polls, `d` ms later. -/
theorem run_later (d limit : Nat) (o : op) (w : World) (hp : o.plain = true)
    (hT : op.timed_all hs_test limit [o] w = true) (hb : limit + d < 4294967296) :
    o.run hs_test (w.later d) = (o.run hs_test w).map (World.later d) := by
  cases o with
  | new name => cases hp
  | del f => cases hp
  | state_add f name id handler => cases hp
  | state_del f id => cases hp
  | state_del_by_name f name => cases hp
  | change_default_poll_interval f v => cases hp
  | child_fsm_del st f => cases hp
  | switch f q =>
    simp only [op.run, request_run_later]
    cases q.run f w <;> rfl
  | poll n f =>
    simp only [op.timed_all, Bool.and_eq_true, decide_eq_true_eq] at hT
    simp only [op.run, (fsm_poll_later d n f w hT.1.1 (by omega)).1]
    cases fsm_poll hs_test n f w <;> rfl
  | child_fsm_add st f =>
    simp only [op.run, child_fsm_add_later]
    cases fsm_state_child_fsm_add st f w <;> rfl
  | change_state_poll_interval st v =>
    simp only [op.run, change_state_later]
    cases fsm_change_state_poll_interval st v w <;> rfl
  | event_send f type data datalen =>
    simp only [op.timed_all, Bool.and_eq_true, decide_eq_true_eq] at hT
    simp only [op.run, event_send_later d f type data datalen w (by omega)]
    cases fsm_event_send f type data datalen w <;> rfl
  | event_clear f =>
    simp only [op.run, event_clear_later]
    cases fsm_event_clear f w <;> rfl
  | tick ms =>
    simp only [op.run, map_ok, Except.ok.injEq, World.later, later_now]
    congr 1
    omega

theorem all_calls_later (d : Nat) (t : List (Nat × action)) :
    all_calls (t.map (fun a => (a.1, a.2.later d))) =
      (all_calls t).map (fun c => (c.1, c.2.later d)) := by
  unfold all_calls calls
  induction t with
  | nil => rfl
  | cons a t ih =>
    obtain ⟨k, x⟩ := a
    cases x <;> simp_all [action.later]

/-- A sequence of calls of the reference test `d` ms later: when every poll of the sequence
is made past the point where the time of the first poll matters, and no later than `limit`,
the calls do `d` ms later what they do now, and the handlers are called with the same
events, `d` ms later. -/
theorem traced_later (d limit : Nat) (hb : limit + d < 4294967296) :
    ∀ (ops : List op) (w : World), ops.all op.plain = true →
      op.timed_all hs_test limit ops w = true →
      op.traced hs_test ops (w.later d) =
        (op.traced hs_test ops w).map
          (fun r => (r.1.map (fun c => (c.1, c.2.later d)), r.2.later d)) := by
  intro ops
  induction ops with
  | nil => intro w _ _; rfl
  | cons o rest ih =>
    intro w hp hT
    simp only [List.all_cons, Bool.and_eq_true] at hp
    have hT1 : op.timed_all hs_test limit [o] w = true := by
      simp only [op.timed_all, Bool.and_eq_true] at hT ⊢
      refine ⟨hT.1, ?_⟩
      cases o.run hs_test w <;> rfl
    have hrun := run_later d limit o w hp.1 hT1 hb
    have hrest : ∀ w1, o.run hs_test w = .ok w1 → op.timed_all hs_test limit rest w1 = true := by
      intro w1 h1
      simp only [op.timed_all, Bool.and_eq_true, h1] at hT
      exact hT.2
    cases o with
    | poll n f =>
      simp only [op.run] at hrun hrest
      simp only [op.traced]
      cases hr : fsm_poll hs_test n f w with
      | error e =>
        rw [hr] at hrun
        cases hr2 : fsm_poll hs_test n f (w.later d) with
        | error e2 =>
          rw [hr2] at hrun
          simp only [map_error, Except.error.injEq] at hrun
          rw [hrun]
          rfl
        | ok r2 =>
          rw [hr2] at hrun
          simp at hrun
      | ok r =>
        have hr2 := (fsm_poll_later d n f w (by
          simp only [op.timed_all, Bool.and_eq_true, decide_eq_true_eq] at hT1
          exact hT1.1.1) (by
          simp only [op.timed_all, Bool.and_eq_true, decide_eq_true_eq] at hT1
          omega)).1
        rw [hr] at hr2
        simp only [map_ok] at hr2
        have hih := ih r.world hp.2 (hrest r.world (by rw [hr]; rfl))
        simp only [hr2, ok_bind, poll_result.later, hih, all_calls_later]
        cases op.traced hs_test rest r.world with
        | error e => rfl
        | ok r3 =>
          simp only [map_ok, ok_bind, pure_eq_ok, List.map_append]
    | new name => cases hp.1
    | del f => cases hp.1
    | state_add f name id handler => cases hp.1
    | state_del f id => cases hp.1
    | state_del_by_name f name => cases hp.1
    | change_default_poll_interval f v => cases hp.1
    | child_fsm_del st f => cases hp.1
    | switch f q =>
      simp only [op.traced, hrun]
      cases h1 : op.run hs_test (.switch f q) w with
      | error e => rfl
      | ok w1 => simpa using ih w1 hp.2 (hrest w1 h1)
    | child_fsm_add st f =>
      simp only [op.traced, hrun]
      cases h1 : op.run hs_test (.child_fsm_add st f) w with
      | error e => rfl
      | ok w1 => simpa using ih w1 hp.2 (hrest w1 h1)
    | change_state_poll_interval st v =>
      simp only [op.traced, hrun]
      cases h1 : op.run hs_test (.change_state_poll_interval st v) w with
      | error e => rfl
      | ok w1 => simpa using ih w1 hp.2 (hrest w1 h1)
    | event_send f type data datalen =>
      simp only [op.traced, hrun]
      cases h1 : op.run hs_test (.event_send f type data datalen) w with
      | error e => rfl
      | ok w1 => simpa using ih w1 hp.2 (hrest w1 h1)
    | event_clear f =>
      simp only [op.traced, hrun]
      cases h1 : op.run hs_test (.event_clear f) w with
      | error e => rfl
      | ok w1 => simpa using ih w1 hp.2 (hrest w1 h1)
    | tick ms =>
      simp only [op.traced, hrun]
      cases h1 : op.run hs_test (.tick ms) w with
      | error e => rfl
      | ok w1 => simpa using ih w1 hp.2 (hrest w1 h1)

/-! ## The reference test -/

theorem test_record_later (d : Nat) :
    ∀ (t : List (Nat × event)) (v : test_vars),
      test_record v (t.map (fun c => (c.1, c.2.later d))) = test_record v t := by
  intro t
  induction t with
  | nil => intro v; rfl
  | cons c t ih =>
    intro v
    obtain ⟨h, e⟩ := c
    simp only [List.map_cons, test_record]
    rw [ih]
    rfl

theorem test_record_append :
    ∀ (a b : List (Nat × event)) (v : test_vars),
      test_record v (a ++ b) = test_record (test_record v a) b := by
  intro a
  induction a with
  | nil => intro b v; rfl
  | cons c a ih =>
    intro b v
    obtain ⟨h, e⟩ := c
    simp only [List.cons_append, test_record]
    exact ih b _

theorem traced_append (hs : handlers) :
    ∀ (a b : List op) (w : World) (t1 : List (Nat × event)) (w1 : World)
      (t2 : List (Nat × event)) (w2 : World),
      op.traced hs a w = .ok (t1, w1) → op.traced hs b w1 = .ok (t2, w2) →
      op.traced hs (a ++ b) w = .ok (t1 ++ t2, w2) := by
  intro a
  induction a with
  | nil =>
    intro b w t1 w1 t2 w2 h1 h2
    simp only [op.traced] at h1
    obtain ⟨rfl, rfl⟩ := Prod.mk.inj (Except.ok.inj h1)
    simpa using h2
  | cons o a ih =>
    intro b w t1 w1 t2 w2 h1 h2
    cases o
    case poll n f =>
      simp only [op.traced, bind_eq_ok] at h1
      obtain ⟨r, hr, q, hq, h1⟩ := h1
      obtain ⟨rfl, rfl⟩ := Prod.mk.inj (Except.ok.inj h1)
      simp only [List.cons_append, op.traced, bind_eq_ok]
      exact ⟨r, hr, (q.1 ++ t2, w2), ih b r.world q.1 q.2 t2 w2 hq h2,
        by simp [pure, Except.pure]⟩
    all_goals
      simp only [op.traced, bind_eq_ok] at h1
      obtain ⟨w0, hw0, h1⟩ := h1
      simp only [List.cons_append, op.traced, bind_eq_ok]
      exact ⟨w0, hw0, ih b w0 t1 w1 t2 w2 h1 h2⟩

theorem traced_run (hs : handlers) (o : op) (rest : List op) (w : World)
    (q : List (Nat × event) × World) (h : op.traced hs (o :: rest) w = .ok q) :
    ∃ w0 t0 t1, o.run hs w = .ok w0 ∧ op.traced hs rest w0 = .ok (t1, q.2) ∧ q.1 = t0 ++ t1 := by
  cases o
  case poll n f =>
    simp only [op.traced, bind_eq_ok] at h
    obtain ⟨r, hr, p, hp, h⟩ := h
    obtain rfl := Except.ok.inj h
    exact ⟨r.world, all_calls r.trace, p.1, by simp [op.run, hr, Except.map], hp, rfl⟩
  all_goals
    simp only [op.traced, bind_eq_ok] at h
    obtain ⟨w0, hw0, h⟩ := h
    exact ⟨w0, [], q.1, hw0, h, rfl⟩

theorem timed_all_append (hs : handlers) (limit : Nat) :
    ∀ (a b : List op) (w : World) (t1 : List (Nat × event)) (w1 : World),
      op.traced hs a w = .ok (t1, w1) → op.timed_all hs limit a w = true →
      op.timed_all hs limit b w1 = true → op.timed_all hs limit (a ++ b) w = true := by
  intro a
  induction a with
  | nil =>
    intro b w t1 w1 h1 _ h3
    simp only [op.traced] at h1
    obtain ⟨_, rfl⟩ := Prod.mk.inj (Except.ok.inj h1)
    simpa using h3
  | cons o a ih =>
    intro b w t1 w1 h1 h2 h3
    obtain ⟨w0, t0, t2, hw0, hrest, _⟩ := traced_run hs o a w (t1, w1) h1
    simp only [op.timed_all, hw0, Bool.and_eq_true] at h2
    simp only [List.cons_append, op.timed_all, hw0, Bool.and_eq_true]
    exact ⟨h2.1, ih b w0 t2 w1 hrest h2.2 h3⟩

theorem checked_sound (hs : handlers) (limit : Nat) :
    ∀ (ops : List op) (w : World) (q : List (Nat × event) × World),
      op.checked hs limit ops w = some q →
      op.timed_all hs limit ops w = true ∧ op.traced hs ops w = .ok q := by
  intro ops
  induction ops with
  | nil =>
    intro w q h
    simp only [op.checked, Option.some.injEq] at h
    subst h
    exact ⟨rfl, rfl⟩
  | cons o ops ih =>
    intro w q h
    cases o
    case poll n f =>
      simp only [op.checked] at h
      split at h
      · rename_i hc
        split at h
        · rename_i r hr
          simp only [Option.map_eq_some'] at h
          obtain ⟨p, hp, rfl⟩ := h
          obtain ⟨h1, h2⟩ := ih r.world p hp
          refine ⟨?_, ?_⟩
          · simp only [Bool.and_eq_true] at hc
            simp only [op.timed_all, op.run, hr, Except.map, Bool.and_eq_true]
            exact ⟨hc, h1⟩
          · simp only [op.traced, bind_eq_ok]
            exact ⟨r, hr, p, h2, rfl⟩
        · exact absurd h (by simp)
      · exact absurd h (by simp)
    all_goals
      simp only [op.checked] at h
      split at h
      · rename_i hc
        split at h
        · rename_i w0 hw0
          obtain ⟨h1, h2⟩ := ih w0 q h
          refine ⟨?_, ?_⟩
          · simp only [op.timed_all, hw0, Bool.and_eq_true]
            exact ⟨hc, h1⟩
          · simp only [op.traced, bind_eq_ok]
            exact ⟨w0, hw0, h2⟩
        · exact absurd h (by simp)
      · exact absurd h (by simp)

theorem staged_sound (limit : Nat) :
    ∀ (cs : List (List op × World)) (v : test_vars) (w : World) (v1 : test_vars),
      test_staged limit v cs w = some v1 →
      op.timed_all hs_test limit (cs.map Prod.fst).flatten w = true ∧
      ∃ t w1, op.traced hs_test (cs.map Prod.fst).flatten w = .ok (t, w1) ∧
        test_record v t = v1 := by
  intro cs
  induction cs with
  | nil =>
    intro v w v1 h
    simp only [test_staged, Option.some.injEq] at h
    exact ⟨rfl, [], w, rfl, h⟩
  | cons c cs ih =>
    intro v w v1 h
    obtain ⟨c, w1⟩ := c
    simp only [test_staged] at h
    split at h
    · rename_i t w2 hc
      split at h
      · rename_i hw
        subst hw
        obtain ⟨h1, h2⟩ := checked_sound hs_test limit c w (t, w2) hc
        obtain ⟨h3, t3, w3, h4, h5⟩ := ih (test_record v t) w2 v1 h
        simp only [List.map_cons, List.flatten_cons]
        refine ⟨timed_all_append hs_test limit c _ w t w2 h2 h1 h3, t ++ t3, w3,
          traced_append hs_test c _ w t w2 t3 w3 h2 h4, ?_⟩
        rw [test_record_append]
        exact h5
      · exact absurd h (by simp)
    · exact absurd h (by simp)

theorem test_setup_eq : test_setup = .ok ((1, 2, 5, 6, 7), w_case) := by rfl

theorem w_case_later (d : Nat) :
    (w_case_at 10 (0, 10, 10) (0, 10, 100) (0, 4294967295, 4294967295) 0 0 (1, 1, 5)
      (1, 1, 7)).later d = { w_case with now := 10 + d } := by rfl

theorem test_stages_polls : (test_stages.map Prod.fst).flatten = test_polls 1 2 5 6 7 := by
  decide!

theorem test_polls_plain : (test_polls 1 2 5 6 7).all op.plain = true := by
  decide!

theorem test_staged_at_10 :
    test_staged 1161
      { test_seq_buf := "", sta1_run_cnt := 0, sta2_run_cnt := 0, sta3_run_cnt := 0,
        test_event_data := 0 } test_stages
      (w_case_at 10 (0, 10, 10) (0, 10, 100) (0, 4294967295, 4294967295) 0 0 (1, 1, 5)
        (1, 1, 7)) =
    some { test_seq_buf :=
             "1 2 2 2 2 2 2 3 4 5 5 5 5 5 6 7 2 8 9 10 9 10 9 10 9 10 9 10 9 10 9 10 9 10 9 10 9 10 11 11 11 11 11 ",
           sta1_run_cnt := 20, sta2_run_cnt := 7, sta3_run_cnt := 16, test_event_data := 10 } := by
  decide!

theorem test_polls_at (d : Nat) (hd : d + 1161 < 4294967296) :
    ∃ t w1, op.traced hs_test (test_polls 1 2 5 6 7) { w_case with now := 10 + d } = .ok (t, w1) ∧
      test_record
        { test_seq_buf := "", sta1_run_cnt := 0, sta2_run_cnt := 0, sta3_run_cnt := 0,
          test_event_data := 0 } t =
      { test_seq_buf :=
          "1 2 2 2 2 2 2 3 4 5 5 5 5 5 6 7 2 8 9 10 9 10 9 10 9 10 9 10 9 10 9 10 9 10 9 10 9 10 11 11 11 11 11 ",
        sta1_run_cnt := 20, sta2_run_cnt := 7, sta3_run_cnt := 16, test_event_data := 10 } := by
  have h := staged_sound 1161 test_stages
    { test_seq_buf := "", sta1_run_cnt := 0, sta2_run_cnt := 0, sta3_run_cnt := 0,
      test_event_data := 0 }
    (w_case_at 10 (0, 10, 10) (0, 10, 100) (0, 4294967295, 4294967295) 0 0 (1, 1, 5) (1, 1, 7))
    { test_seq_buf :=
        "1 2 2 2 2 2 2 3 4 5 5 5 5 5 6 7 2 8 9 10 9 10 9 10 9 10 9 10 9 10 9 10 9 10 9 10 9 10 11 11 11 11 11 ",
      sta1_run_cnt := 20, sta2_run_cnt := 7, sta3_run_cnt := 16, test_event_data := 10 }
    test_staged_at_10
  obtain ⟨htimed, t, w1, htr, hrec⟩ := h
  rw [test_stages_polls] at htimed htr
  have hlater := traced_later d 1161 (by omega) (test_polls 1 2 5 6 7)
    (w_case_at 10 (0, 10, 10) (0, 10, 100) (0, 4294967295, 4294967295) 0 0 (1, 1, 5) (1, 1, 7))
    test_polls_plain htimed
  rw [w_case_later d, htr] at hlater
  refine ⟨_, _, hlater, ?_⟩
  rw [test_record_later]
  exact hrec

theorem test_case_of (t0 : Nat) (t : List (Nat × event)) (w1 : World) (v : test_vars)
    (htr : op.traced hs_test (test_polls 1 2 5 6 7) { w_case with now := t0 } = .ok (t, w1))
    (hrec : test_record
        { test_seq_buf := "", sta1_run_cnt := 0, sta2_run_cnt := 0, sta3_run_cnt := 0,
          test_event_data := 0 } t = v) :
    test_case t0 = .ok v := by
  unfold test_case
  refine bind_eq_ok.mpr ⟨((1, 2, 5, 6, 7), w_case), test_setup_eq, ?_⟩
  refine bind_eq_ok.mpr ⟨(t, w1), htr, ?_⟩
  rw [← hrec]
  rfl

/-- C26: the reference test under an idealised clock.  With the first poll at a time
`t0 ≥ 10` and no wrap of the 32-bit clock during the test (`t0 + 1151 < 2^32`), the
clock advancing by the delays of the test only, the test case runs to its end and the
handlers have recorded exactly the expected marker trace, 20 calls of the handler of `S1`,
7 of `S2`, 16 of `S3`, and the counter that `S1` increments on each `TEST_EVENT` is 10. -/
theorem C26_reference_scenario (t0 : Nat) (h10 : 10 ≤ t0) (hw : t0 + 1151 < 4294967296) :
    test_case t0 =
      .ok { test_seq_buf :=
              "1 2 2 2 2 2 2 3 4 5 5 5 5 5 6 7 2 8 9 10 9 10 9 10 9 10 9 10 9 10 9 10 9 10 9 10 9 10 11 11 11 11 11 ",
            sta1_run_cnt := 20, sta2_run_cnt := 7, sta3_run_cnt := 16,
            test_event_data := 10 } := by
  obtain ⟨t, w1, htr, hrec⟩ := test_polls_at (t0 - 10) (by omega)
  have ht0 : 10 + (t0 - 10) = t0 := by omega
  rw [ht0] at htr
  exact test_case_of t0 t w1 _ htr hrec

/-- C26 with the first poll at time 123456. -/
theorem C26_reference_scenario_witness :
    10 ≤ 123456 ∧ 123456 + 1151 < 4294967296 ∧
    test_case 123456 =
      .ok { test_seq_buf :=
              "1 2 2 2 2 2 2 3 4 5 5 5 5 5 6 7 2 8 9 10 9 10 9 10 9 10 9 10 9 10 9 10 9 10 9 10 9 10 11 11 11 11 11 ",
            sta1_run_cnt := 20, sta2_run_cnt := 7, sta3_run_cnt := 16,
            test_event_data := 10 } :=
  ⟨by decide, by decide, C26_reference_scenario 123456 (by decide) (by decide)⟩

/-! ## The clock -/

/-- The difference of the clock and a timestamp that lies `d` ms back is `d` in unsigned
32-bit arithmetic, whether or not the clock wrapped in between. -/
theorem sub32_elapsed (L d : Nat) (hd : d < 4294967296) :
    sub32 ((L + d) % 4294967296) L = d := by
  unfold sub32
  omega

/-- C37 (Clock wrap-around): the elapsed-time test of `fsm_poll` is made in unsigned 32-bit
arithmetic.  For every poll timestamp `L` of the state that is current once a pending request
is applied, every true elapsed time `d < 2^32` and the clock at `(L + d) mod 2^32`, with a
poll interval `I` of the state other than `FSM_NO_POLL`: the elapsed time that `fsm_poll`
computes is `d`; the call returns (in a sound world, with tame handlers and enough fuel); and
whenever it returns it has posted one POLL event, stamped with the clock, to the queue of the
FSM if and only if `d ≥ I`, and none if and only if `d < I` - whether or not the clock
wrapped around `2^32` between the two polls. -/
theorem C37_clock_wrap (hs : handlers) (n f : Nat) (w : World) (F : fsm) (C : state)
    (L d : Nat) (hF : w.fsm? f = some F) (hC : w.state? F.stepped.sta_curr = some C)
    (hfin : C.poll_interval ≠ FSM_NO_POLL) (hL : C.ts_poll = L) (hd : d < 4294967296)
    (hts : uptime_ms w = (L + d) % 4294967296) :
    sub32 (uptime_ms w) C.ts_poll = d ∧
    (∀ rank : Nat → Nat, w.sound rank → hs.tame rank → rank f < n →
      ∃ r, fsm_poll hs n f w = .ok r ∧ r.ret = 0) ∧
    (∀ r, fsm_poll hs n f w = .ok r →
      (posted (own r.trace) = [(F.event_queue, poll_event (uptime_ms w))] ↔
        C.poll_interval ≤ d) ∧
      (posted (own r.trace) = [] ↔ d < C.poll_interval)) := by
  have hsub : sub32 (uptime_ms w) C.ts_poll = d := by
    rw [hts, hL]
    exact sub32_elapsed L d hd
  refine ⟨hsub, ?_, ?_⟩
  · intro rank hw ht hr
    exact fsm_poll_total hs rank ht n f w hw (by simp [World.fsm?] at hF; simp [hF]) hr
  · intro r hr
    obtain ⟨hge, hlt, -⟩ := generation_finite hs n f w r F C hF hC hfin hr
    rw [hsub] at hge hlt
    by_cases h : C.poll_interval ≤ d
    · have hp := (hge h).1
      refine ⟨⟨fun _ => h, fun _ => hp⟩, ⟨fun h0 => ?_, fun h1 => absurd h (by omega)⟩⟩
      rw [hp] at h0
      exact absurd h0 (by simp)
    · have hp := (hlt (by omega)).1
      refine ⟨⟨fun h0 => ?_, fun h1 => absurd h1 h⟩, ⟨fun _ => by omega, fun _ => hp⟩⟩
      rw [hp] at h0
      exact absurd h0 (by simp)

/-- C37 on the running FSM of the reference test: `S1` was polled at time 10 with interval 10,
and 4294967290 ms later the clock has wrapped to 4; the poll posts a POLL event. -/
theorem C37_clock_wrap_witness :
    ∃ r, fsm_poll hs_idle 1 1 { w_run with now := 4294967300 } = .ok r ∧
      posted (own r.trace) = [(1, poll_event 4)] := by
  obtain ⟨-, h1, h2⟩ := C37_clock_wrap hs_idle 1 1 { w_run with now := 4294967300 } _ _
    10 4294967290 rfl rfl (by decide) rfl (by decide) (by decide)
  obtain ⟨r, hr, -⟩ := h1 _ (sound_now _ _ 4294967300 w_run_sound) (hs_idle_tame _) (by decide)
  exact ⟨r, hr, (h2 r hr).1.mpr (by decide)⟩

/-! ## The queue of an FSM during a poll -/

theorem queue_of_congr {w w1 : World} (h : w1.fsms = w.fsms) : w1.queue_of = w.queue_of := by
  funext c
  simp only [World.queue_of, World.fsm?, h]

theorem queue_of_eq {w : World} {g : Nat} {G : fsm} (h : cell w.fsms g = some G) :
    w.queue_of g = G.event_queue := by
  simp only [World.queue_of, World.fsm?, h]

theorem mem_deeper_of {t : List (Nat × action)} {d : Nat} {a : action} (h : (d, a) ∈ t) :
    (d + 1, a) ∈ deeper t :=
  List.mem_map.mpr ⟨(d, a), h, rfl⟩

theorem mem_here_of {t : List action} {a : action} (h : a ∈ t) : (0, a) ∈ here t :=
  List.mem_map.mpr ⟨a, h, rfl⟩

/-- The part of `fsm_poll` under the lock leaves every queue but that of the FSM as it
is, and the queue of the FSM holds the events it held, with the POLL event behind them when
one was generated and there was room. -/
theorem poll_locked_queue {g : Nat} {w w1 : World} {l : poll_locals} {t : List action}
    (h : poll_locked g w = .ok (l, t, w1)) :
    ∃ F, cell w.fsms g = some F ∧ l.event_queue = F.event_queue ∧
      (∀ q, q ≠ F.event_queue → cell w1.queues q = cell w.queues q) ∧
      (∀ Q, cell w.queues F.event_queue = some Q →
        ∃ Q0, cell w1.queues F.event_queue = some Q0 ∧ Q0.length = Q.length ∧
          ((t = [] ∧ Q0.items = Q.items) ∨
           (t = [.send F.event_queue (poll_event (uptime_ms w)) 0 false] ∧
             Q0.items = Q.items ∧ Q.length ≤ Q.items.length) ∨
           (t = [.send F.event_queue (poll_event (uptime_ms w)) 0 true] ∧
             Q0.items = Q.items ++ [poll_event (uptime_ms w)] ∧
             Q.items.length < Q.length))) := by
  obtain ⟨F, C, hF, -, -, hC, -, -, -, -, hq, -, -, -, -, -, -, hno, hlt, hge⟩ := poll_locked_inv h
  refine ⟨F, hF, hq, ?_, ?_⟩
  · intro q hne
    by_cases h1 : C.poll_interval = FSM_NO_POLL
    · rw [(hno h1).2.1]
    · by_cases h2 : sub32 (uptime_ms w) C.ts_poll < C.poll_interval
      · rw [(hlt h1 h2).2.1]
      · obtain ⟨Q, hQ, -, hqs, -⟩ := hge h1 (by omega)
        rw [hqs]
        split
        · exact cell_put_ne _ _ (Ne.symm hne)
        · rfl
  · intro Q hQ
    by_cases h1 : C.poll_interval = FSM_NO_POLL
    · exact ⟨Q, by rw [(hno h1).2.1]; exact hQ, rfl, Or.inl ⟨(hno h1).1, rfl⟩⟩
    · by_cases h2 : sub32 (uptime_ms w) C.ts_poll < C.poll_interval
      · exact ⟨Q, by rw [(hlt h1 h2).2.1]; exact hQ, rfl, Or.inl ⟨(hlt h1 h2).1, rfl⟩⟩
      · obtain ⟨Q', hQ', ht, hqs, -⟩ := hge h1 (by omega)
        obtain rfl : Q' = Q := Option.some.inj (hQ'.symm.trans hQ)
        by_cases h3 : Q'.items.length < Q'.length
        · refine ⟨{ Q' with items := Q'.items ++ [poll_event (uptime_ms w)] }, ?_, rfl,
            Or.inr (Or.inr ⟨by simp [ht, h3], rfl, h3⟩)⟩
          rw [hqs, if_pos h3]
          exact cell_put_same _ hQ
        · refine ⟨Q', ?_, rfl, Or.inr (Or.inl ⟨by simp [ht, h3], rfl, by omega⟩)⟩
          rw [hqs, if_neg h3]
          exact hQ

theorem poll_exit_queue {hs : handlers} {q f : Nat} {l : poll_locals} {w w1 : World}
    {t : List action} (hk : hs.keep (fun w => cell w.queues q))
    (h : poll_exit hs f l w = .ok (t, w1)) : cell w1.queues q = cell w.queues q := by
  obtain ⟨h0, h1⟩ := poll_exit_inv h
  by_cases hx : l.exit = 0
  · rw [(h0 hx).2]
  · obtain ⟨_, _, -, -, -, rfl⟩ := h1 hx
    exact hk _ _ _

theorem poll_enter_queue {hs : handlers} {q f : Nat} {l : poll_locals} {w w1 : World}
    {t : List action} (hk : hs.keep (fun w => cell w.queues q))
    (h : poll_enter hs f l w = .ok (t, w1)) : cell w1.queues q = cell w.queues q := by
  obtain ⟨h0, h1⟩ := poll_enter_inv h
  by_cases hx : l.enter = 0
  · rw [(h0 hx).2]
  · obtain ⟨_, _, -, -, -, rfl⟩ := h1 hx
    exact hk _ _ _

/-- The dispatch of `fsm_poll` takes the head of the queue of the FSM, leaves the rest in
order, hands the event to the handler captured under the lock, and leaves every other queue
as it is. -/
theorem poll_dispatch_queue {hs : handlers} {q : Nat} {l : poll_locals} {w w1 : World}
    {o : Option event} {t : List action} (hk : hs.keep (fun w => cell w.queues q))
    (h : poll_dispatch hs l w = .ok (o, t, w1)) :
    (l.event_queue ≠ q → cell w1.queues q = cell w.queues q) ∧
    (l.event_queue = q → ∀ Q0, cell w.queues q = some Q0 →
      cell w1.queues q = some { Q0 with items := Q0.items.tail } ∧
      received t = [(q, Q0.items.head?)] ∧
      (Q0.items = [] → t = [.receive q none] ∧ o = none) ∧
      (∀ e rest, Q0.items = e :: rest →
        (l.handler = 0 → t = [.receive q (some e)]) ∧
        (l.handler ≠ 0 → t = [.receive q (some e), .call l.handler e w.held]))) := by
  obtain ⟨Q, hQ, hnil, hcons⟩ := poll_dispatch_inv h
  constructor
  · intro hne
    cases hi : Q.items with
    | nil => rw [(hnil hi).2.2]
    | cons e rest =>
      obtain ⟨h0, h1⟩ := hcons e rest hi
      by_cases hh : l.handler = 0
      · rw [(h0 hh).2.2]
        exact cell_put_ne _ _ hne
      · rw [(h1 hh).2.2]
        exact (hk _ _ _).trans (cell_put_ne _ _ hne)
  · intro heq Q0 hQ0
    subst heq
    obtain rfl : Q = Q0 := Option.some.inj (hQ.symm.trans hQ0)
    cases hi : Q.items with
    | nil =>
      obtain ⟨ho, ht, hw⟩ := hnil hi
      refine ⟨?_, by simp [ht, received], fun _ => ⟨ht, ho⟩, fun e rest he => by simp at he⟩
      rw [hw, hQ]
      cases Q with
      | mk len items =>
        simp only at hi
        subst hi
        rfl
    | cons e rest =>
      obtain ⟨h0, h1⟩ := hcons e rest hi
      by_cases hh : l.handler = 0
      · obtain ⟨-, ht, hw⟩ := h0 hh
        refine ⟨?_, by simp [ht, received], fun he => by simp at he, ?_⟩
        · rw [hw]
          simp only [List.tail_cons]
          exact cell_put_same _ hQ
        · intro e1 rest1 he
          simp only [List.cons.injEq] at he
          obtain ⟨rfl, rfl⟩ := he
          exact ⟨fun _ => ht, fun hx => absurd hh hx⟩
      · obtain ⟨-, ht, hw⟩ := h1 hh
        refine ⟨?_, by simp [ht, received], fun he => by simp at he, ?_⟩
        · rw [hw]
          simp only [List.tail_cons]
          exact (hk _ _ _).trans (cell_put_same _ hQ)
        · intro e1 rest1 he
          simp only [List.cons.injEq] at he
          obtain ⟨rfl, rfl⟩ := he
          exact ⟨fun hx => absurd hx hh, fun _ => ht⟩

theorem poll_forward_queue {o : Option event} {c q : Nat} {w w1 : World} {t : List action}
    (h : poll_forward o c w = .ok (t, w1)) (hne : w.queue_of c ≠ q) :
    cell w1.queues q = cell w.queues q ∧ w1.queue_of = w.queue_of := by
  obtain ⟨C, hC, -, -, -, hf, -, -, -, -, hnone, hpoll, hsend⟩ := poll_forward_inv h
  rw [queue_of_eq hC] at hne
  refine ⟨?_, queue_of_congr hf⟩
  cases o with
  | none => rw [(hnone rfl).2]
  | some e =>
    by_cases he : e.type = FSM_EVT_POLL
    · rw [(hpoll e rfl he).2]
    · obtain ⟨-, Q, -, -, hq⟩ := hsend e rfl he
      rw [hq]
      split
      · exact cell_put_ne _ _ hne
      · rfl

/-- The child loop of `fsm_poll` leaves the queue `q` as it is when the polls of the FSMs on
the list do, and no FSM polled has that queue. -/
theorem poll_children_other_queue (hs : handlers) (q : Nat)
    (hkf : hs.keep (fun w => w.queue_of)) (Qf : Nat → Nat) (m : Nat)
    (ih : ∀ (g : Nat) (w : World) (r : poll_result), w.queue_of = Qf → Qf g ≠ q →
      (∀ d c, (d, action.poll c) ∈ r.trace → Qf c ≠ q) → fsm_poll hs m g w = .ok r →
      cell r.world.queues q = cell w.queues q)
    (o : Option event) :
    ∀ (buf : List Nat) (w : World) (t : List (Nat × action)) (w1 : World),
      w.queue_of = Qf → (∀ d c, (d, action.poll c) ∈ t → Qf c ≠ q) →
      poll_children (fsm_poll hs m) o buf w = .ok (t, w1) →
      cell w1.queues q = cell w.queues q ∧ w1.queue_of = Qf := by
  intro buf
  induction buf with
  | nil =>
    intro w t w1 hw _ h
    simp only [poll_children, Except.ok.injEq, Prod.mk.injEq] at h
    rw [← h.2]
    exact ⟨rfl, hw⟩
  | cons c rest ihb =>
    intro w t w1 hw hall h
    obtain ⟨t1, w2, r, t2, hfw, hr, hrest, rfl⟩ := poll_children_cons_inv h
    have hc : Qf c ≠ q := hall 0 c (by simp)
    obtain ⟨hq2, hf2⟩ := poll_forward_queue hfw (by rw [hw]; exact hc)
    have hw2 : w2.queue_of = Qf := hf2.trans hw
    have hq3 := ih c w2 r hw2 hc
      (fun d c1 hm => hall (d + 1) c1 (by
        simp only [List.mem_append, List.mem_cons]
        exact Or.inl (Or.inr (Or.inr (mem_deeper_of hm))))) hr
    have hw3 := fsm_poll_queue_of hs hkf Qf m c w2 r hw2 hr
    obtain ⟨hq4, hw4⟩ := ihb r.world t2 w1 hw3
      (fun d c1 hm => hall d c1 (by
        simp only [List.mem_append, List.mem_cons]
        exact Or.inr hm)) hrest
    exact ⟨hq4.trans (hq3.trans hq2), hw4⟩

/-- A poll of an FSM whose queue is not `q`, and in which no FSM with the queue `q` is
polled, leaves the queue `q` as it is. -/
theorem fsm_poll_other_queue (hs : handlers) (q : Nat)
    (hk : hs.keep (fun w => cell w.queues q)) (hkf : hs.keep (fun w => w.queue_of))
    (Qf : Nat → Nat) :
    ∀ (n g : Nat) (w : World) (r : poll_result), w.queue_of = Qf → Qf g ≠ q →
      (∀ d c, (d, action.poll c) ∈ r.trace → Qf c ≠ q) → fsm_poll hs n g w = .ok r →
      cell r.world.queues q = cell w.queues q := by
  intro n
  induction n with
  | zero => intro g w r _ _ _ h; simp [fsm_poll] at h
  | succ n ih =>
    intro g w r hw hg hall h
    obtain ⟨m, l, t0, w1, t1, w2, t2, w3, o, t3, w4, t4, hm, h0, h1, h2, h3, h4, -, htr⟩ :=
      fsm_poll_inv h
    obtain rfl : n = m := by omega
    obtain ⟨F, hF, hlq, hoth, -⟩ := poll_locked_queue h0
    have hFq : F.event_queue ≠ q := by
      rw [← queue_of_eq hF, hw]
      exact hg
    have e1 : cell w1.queues q = cell w.queues q := hoth q (Ne.symm hFq)
    have e2 := poll_exit_queue hk h1
    have e3 := poll_enter_queue hk h2
    have e4 := (poll_dispatch_queue hk h3).1 (by rw [hlq]; exact hFq)
    have hw4 : w4.queue_of = Qf := by
      have := poll_front_keeps (fun w => w.queue_of) hs hkf (fun _ _ => rfl) h1 h2 h3
      exact this.trans ((poll_locked_queue_of h0).trans hw)
    obtain ⟨e5, -⟩ := poll_children_other_queue hs q hkf Qf n ih o l.child_fsm_buf w4 t4
      r.world hw4 (fun d c hm => hall d c (by rw [htr]; exact List.mem_append_right _ hm)) h4
    exact e5.trans (e4.trans (e3.trans (e2.trans e1)))

/-- The phases of one `fsm_poll`, in the order in which they happen: the generation of the
POLL event (behind the events already queued), the EXIT call, the ENTER call, the receive of
the head of the queue with the call of the handler, and the processing of the child FSMs;
with the queue of the FSM at the dispatch (`Q0`) and at the end. -/
theorem fsm_poll_phases {hs : handlers} {n f : Nat} {w : World} {r : poll_result} {F : fsm}
    {Q : queue} {C : state} (hF : cell w.fsms f = some F)
    (hQ : cell w.queues F.event_queue = some Q)
    (hC : cell w.states F.stepped.sta_curr = some C)
    (hr : fsm_poll hs n f w = .ok r) :
    ∃ (t0 t1 t2 t3 t4 : List action) (Q0 Q3 : queue),
      own r.trace = t0 ++ t1 ++ t2 ++ t3 ++ t4 ∧ Q0.length = Q.length ∧
      ((t0 = [] ∧ Q0.items = Q.items) ∨
       (t0 = [.send F.event_queue (poll_event (uptime_ms w)) 0 false] ∧
         Q0.items = Q.items ∧ Q.length ≤ Q.items.length) ∨
       (t0 = [.send F.event_queue (poll_event (uptime_ms w)) 0 true] ∧
         Q0.items = Q.items ++ [poll_event (uptime_ms w)] ∧ Q.items.length < Q.length)) ∧
      (F.sta_next = 0 → t1 = [] ∧ t2 = []) ∧
      (F.sta_next ≠ 0 → ∃ P, cell w.states F.sta_curr = some P ∧
        (P.handler = 0 → t1 = []) ∧
        (P.handler ≠ 0 → ∃ e held, t1 = [.call P.handler e held] ∧ e.type = FSM_EVT_EXIT) ∧
        (C.handler = 0 → t2 = []) ∧
        (C.handler ≠ 0 → ∃ e held, t2 = [.call C.handler e held] ∧ e.type = FSM_EVT_ENTER)) ∧
      (Q3.items = [] → t3 = [.receive F.event_queue none]) ∧
      (∀ e rest, Q3.items = e :: rest →
        (C.handler = 0 → t3 = [.receive F.event_queue (some e)]) ∧
        (C.handler ≠ 0 → ∃ held,
          t3 = [.receive F.event_queue (some e), .call C.handler e held])) ∧
      calls t4 = [] ∧ received t4 = [] ∧ posted t4 = [] ∧ polled t4 = w.children f ∧
      polled (t0 ++ t1 ++ t2 ++ t3) = [] ∧ posted (own r.trace) = posted t0 ∧
      received (own r.trace) = received t3 ∧
      (hs.keep (fun w => cell w.queues F.event_queue) → Q3 = Q0 ∧
        (hs.keep (fun w => w.queue_of) →
          (∀ d c, (d, action.poll c) ∈ r.trace → w.queue_of c ≠ F.event_queue) →
          cell r.world.queues F.event_queue = some { Q0 with items := Q0.items.tail })) := by
  obtain ⟨m, l, t0, w1, t1, w2, t2, w3, o, t3, w4, t4, hm, h0, h1, h2, h3, h4, htr, hown, -,
    hpol, hpost, hrec, -⟩ := fsm_poll_own hr
  obtain ⟨F', C', hF', -, -, hC', hz, hnz, -, hh, hq, -⟩ := poll_locked_inv h0
  have hFe : F' = F := Option.some.inj (hF'.symm.trans hF)
  subst F'
  have hCe : C' = C := Option.some.inj (hC'.symm.trans hC)
  subst C'
  obtain ⟨F2, hF2, -, -, hgen⟩ := poll_locked_queue h0
  have hFe : F2 = F := Option.some.inj (hF2.symm.trans hF)
  subst F2
  obtain ⟨Q0, hQ0, hlen, hcases⟩ := hgen Q hQ
  obtain ⟨hc4, hr4, hp4, hpl4⟩ := poll_children_own _ o l.child_fsm_buf w4 t4 r.world h4
  obtain ⟨Q3, hQ3, hdnil, hdcons⟩ := poll_dispatch_inv h3
  rw [hq] at hQ3 hdnil hdcons
  obtain ⟨hx0, hx1⟩ := poll_exit_inv h1
  obtain ⟨hn0, hn1⟩ := poll_enter_inv h2
  refine ⟨t0, t1, t2, t3, own t4, Q0, Q3, hown, hlen, hcases, ?_, ?_,
    fun hi => (hdnil hi).2.1, ?_, hc4, hr4, hp4, ?_, ?_, hpost, hrec, ?_⟩
  · intro hnext
    exact ⟨(hx0 (hz hnext).1).1, (hn0 (hz hnext).2).1⟩
  · intro hnext
    obtain ⟨P, hP, he, hn⟩ := hnz hnext
    refine ⟨P, hP, ?_, ?_, ?_, ?_⟩
    · intro h; exact (hx0 (he.trans h)).1
    · intro h
      obtain ⟨_, C1, -, -, ht, -⟩ := hx1 (by rw [he]; exact h)
      exact ⟨exit_event l.ts C1, w1.held, by rw [ht, he], rfl⟩
    · intro h; exact (hn0 (hn.trans h)).1
    · intro h
      obtain ⟨_, P1, -, -, ht, -⟩ := hn1 (by rw [hn]; exact h)
      exact ⟨enter_event l.ts P1, w2.held, by rw [ht, hn], rfl⟩
  · intro e rest hi
    obtain ⟨ha, hb⟩ := hdcons e rest hi
    rw [hh] at ha hb
    exact ⟨fun h => (ha h).2.1, fun h => ⟨w3.held, (hb h).2.1⟩⟩
  · rw [hpl4]
    exact (poll_locked_snapshot h0).1.symm
  · rw [hown, polled_append, hpl4] at hpol
    exact List.append_left_eq_self.mp hpol
  · intro hk
    have e2 := poll_exit_queue hk h1
    have e3 := poll_enter_queue hk h2
    have hQ30 : cell w3.queues F.event_queue = some Q0 := by rw [e3, e2]; exact hQ0
    have hQe : Q3 = Q0 := Option.some.inj (hQ3.symm.trans hQ30)
    refine ⟨hQe, ?_⟩
    intro hkf hall
    obtain ⟨hd1, -⟩ := (poll_dispatch_queue hk h3).2 hq Q0 hQ30
    have hw4 : w4.queue_of = w.queue_of := by
      have := poll_front_keeps (fun w => w.queue_of) hs hkf (fun _ _ => rfl) h1 h2 h3
      exact this.trans (poll_locked_queue_of h0)
    obtain ⟨e5, -⟩ := poll_children_other_queue hs F.event_queue hkf w.queue_of m
      (fsm_poll_other_queue hs F.event_queue hk hkf w.queue_of m) o l.child_fsm_buf w4 t4
      r.world hw4 (fun d c hm => hall d c (by rw [htr]; exact List.mem_append_right _ hm)) h4
    rw [e5]
    exact hd1

/-- C31 (Order and single dispatch within one poll): for every call of `fsm_poll` on an FSM
with queue `Q`, where `C` is the state that is current once a pending request is applied:
the call returns (in a sound world, with tame handlers and enough fuel), and whenever it
returns, what it did itself is `t0 ++ t1 ++ t2 ++ t3 ++ t4`, in this order, where `t0` is the
generation of the POLL event (no send, a send that found the queue full, or a send that put
the event behind the events already queued: `Q0` is the queue then); `t1` is the EXIT call of
the handler of the previous state and `t2` the ENTER call of the handler of `C`, both only
if a transition was applied (and the state has a handler); `t3` is one receive from the queue
of the FSM (`Q3` at that moment) that takes its head, followed by the call of the handler of
`C` with that event when there was one; `t4`, the processing of the child FSMs, holds the
polls of the child FSMs of `C` and no handler call, no receive and no POLL event, and no
child is polled before.  With handlers that leave the queue of the FSM alone, `Q3` is `Q0`,
so the event dispatched is the oldest one queued, and (when no FSM polled below has the same
queue) the queue is left with the remaining events in the order they were enqueued. -/
theorem C31_order_single_dispatch (hs : handlers) (n f : Nat) (w : World) (F : fsm)
    (Q : queue) (C : state) (hF : w.fsm? f = some F)
    (hQ : w.queue? F.event_queue = some Q) (hC : w.state? F.stepped.sta_curr = some C) :
    (∀ rank : Nat → Nat, w.sound rank → hs.tame rank → rank f < n →
      ∃ r, fsm_poll hs n f w = .ok r ∧ r.ret = 0) ∧
    (∀ r, fsm_poll hs n f w = .ok r →
      ∃ (t0 t1 t2 t3 t4 : List action) (Q0 Q3 : queue),
        own r.trace = t0 ++ t1 ++ t2 ++ t3 ++ t4 ∧ Q0.length = Q.length ∧
        ((t0 = [] ∧ Q0.items = Q.items) ∨
         (t0 = [.send F.event_queue (poll_event (uptime_ms w)) 0 false] ∧
           Q0.items = Q.items ∧ Q.length ≤ Q.items.length) ∨
         (t0 = [.send F.event_queue (poll_event (uptime_ms w)) 0 true] ∧
           Q0.items = Q.items ++ [poll_event (uptime_ms w)] ∧ Q.items.length < Q.length)) ∧
        (F.sta_next = 0 → t1 = [] ∧ t2 = []) ∧
        (F.sta_next ≠ 0 → ∃ P, w.state? F.sta_curr = some P ∧
          (P.handler = 0 → t1 = []) ∧
          (P.handler ≠ 0 → ∃ e held, t1 = [.call P.handler e held] ∧ e.type = FSM_EVT_EXIT) ∧
          (C.handler = 0 → t2 = []) ∧
          (C.handler ≠ 0 → ∃ e held, t2 = [.call C.handler e held] ∧ e.type = FSM_EVT_ENTER)) ∧
        (Q3.items = [] → t3 = [.receive F.event_queue none]) ∧
        (∀ e rest, Q3.items = e :: rest →
          (C.handler = 0 → t3 = [.receive F.event_queue (some e)]) ∧
          (C.handler ≠ 0 → ∃ held,
            t3 = [.receive F.event_queue (some e), .call C.handler e held])) ∧
        calls t4 = [] ∧ received t4 = [] ∧ posted t4 = [] ∧ polled t4 = w.children f ∧
        polled (t0 ++ t1 ++ t2 ++ t3) = [] ∧
        (hs.keep (fun w => w.queue? F.event_queue) → Q3 = Q0 ∧
          (hs.keep (fun w => w.queue_of) →
            (∀ d c, (d, action.poll c) ∈ r.trace → w.queue_of c ≠ F.event_queue) →
            r.world.queue? F.event_queue = some { Q0 with items := Q0.items.tail }))) := by
  refine ⟨?_, ?_⟩
  · intro rank hw ht hr
    exact fsm_poll_total hs rank ht n f w hw (by simp [World.fsm?] at hF; simp [hF]) hr
  · intro r hr
    obtain ⟨t0, t1, t2, t3, t4, Q0, Q3, h1, h2, h3, h4, h5, h6, h7, h8, h9, h10, h11, h12, -,
      -, h13⟩ := fsm_poll_phases hF hQ hC hr
    exact ⟨t0, t1, t2, t3, t4, Q0, Q3, h1, h2, h3, h4, h5, h6, h7, h8, h9, h10, h11, h12, h13⟩

/-- C31 on the composition tree of the reference test at time 25, with the event `0xA555`
queued and nothing pending: the poll of the parent makes no EXIT and no ENTER call, hands
`0xA555`, the head of the queue, to the handler of `S1`, and polls the two child FSMs
afterwards. -/
theorem C31_order_single_dispatch_witness :
    ∃ r, fsm_poll hs_idle 2 1 { w_tree with now := 25 } = .ok r ∧
      ∃ (t0 t4 : List action) (held : List Nat),
        own r.trace = t0 ++ [] ++ [] ++
          [.receive 1 (some { type := 42325, timestamp := 12, data := .user 7, datalen := 4 }),
           .call 1 { type := 42325, timestamp := 12, data := .user 7, datalen := 4 } held] ++
          t4 ∧
        calls t4 = [] ∧ polled t4 = [2, 3] := by
  obtain ⟨h1, h2⟩ := C31_order_single_dispatch hs_idle 2 1 { w_tree with now := 25 } _ _ _
    rfl rfl rfl
  obtain ⟨r, hr, -⟩ := h1 _ (sound_now _ _ 25 w_tree_sound) (hs_idle_tame _) (by decide)
  obtain ⟨t0, t1, t2, t3, t4, Q0, Q3, ho, -, hgen, hz, -, -, hcons, hc4, -, -, hpl, -,
    hq⟩ := h2 r hr
  obtain ⟨hQ, -⟩ := hq (hs_idle_keep _)
  obtain ⟨rfl, rfl⟩ := hz rfl
  have ht3 : ∃ held, t3 =
      [.receive 1 (some { type := 42325, timestamp := 12, data := .user 7, datalen := 4 }),
       .call 1 { type := 42325, timestamp := 12, data := .user 7, datalen := 4 } held] := by
    rcases hgen with ⟨-, hi⟩ | ⟨-, hi, -⟩ | ⟨-, hi, -⟩
    · exact (hcons _ _ (by rw [hQ, hi])).2 (by decide)
    · exact (hcons _ _ (by rw [hQ, hi])).2 (by decide)
    · exact (hcons _ _ (by rw [hQ, hi]; rfl)).2 (by decide)
  obtain ⟨held, rfl⟩ := ht3
  exact ⟨r, hr, t0, t4, held, ho, hc4, hpl.trans (by decide)⟩

theorem depth_nil : recursion_depth [] = 0 := rfl

theorem depth_cons (a : Nat × action) (t : List (Nat × action)) :
    recursion_depth (a :: t) = max (a.1 + 1) (recursion_depth t) := rfl

theorem depth_append (a b : List (Nat × action)) :
    recursion_depth (a ++ b) = max (recursion_depth a) (recursion_depth b) := by
  induction a with
  | nil => simp [depth_nil]
  | cons x a ih =>
    simp only [List.cons_append, depth_cons, ih]
    omega

theorem depth_here (t : List action) : recursion_depth (here t) ≤ 1 := by
  induction t with
  | nil => simp [here, depth_nil]
  | cons a t ih =>
    simp only [here, List.map_cons, depth_cons] at ih ⊢
    omega

theorem depth_here_cons (a : action) (t : List action) :
    recursion_depth (here (a :: t)) = 1 := by
  have := depth_here t
  simp only [here, List.map_cons, depth_cons] at this ⊢
  omega

theorem depth_deeper (t : List (Nat × action)) (h : 1 ≤ recursion_depth t) :
    recursion_depth (deeper t) = recursion_depth t + 1 := by
  induction t with
  | nil => simp [depth_nil] at h
  | cons a t ih =>
    simp only [deeper, List.map_cons, depth_cons] at ih ⊢
    by_cases ht : 1 ≤ recursion_depth t
    · have := ih ht
      omega
    · have h0 : recursion_depth t = 0 := by omega
      have : t = [] := by
        cases t with
        | nil => rfl
        | cons b t => simp only [depth_cons] at h0; omega
      subst this
      simp [depth_nil]

theorem chain_congr {w w1 : World} (h : w1.children = w.children) :
    ∀ (L : List Nat) (f : Nat), w1.chain f L ↔ w.chain f L := by
  intro L
  induction L with
  | nil => intro f; simp [World.chain]
  | cons c L ih =>
    intro f
    simp only [World.chain, h, ih]

/-- The recursion of a poll that returns goes as deep as the longest chain of FSMs below the
FSM polled, and no deeper than the fuel. -/
theorem poll_depth (hs : handlers) (hk : hs.keep (fun w => w.children)) :
    ∀ (n f : Nat) (w : World) (r : poll_result), fsm_poll hs n f w = .ok r →
      (∃ L, w.chain f L ∧ recursion_depth r.trace = L.length + 1) ∧
      (∀ L, w.chain f L → L.length + 1 ≤ recursion_depth r.trace) ∧
      recursion_depth r.trace ≤ n := by
  intro n
  induction n with
  | zero => intro f w r h; simp [fsm_poll] at h
  | succ n ih =>
    intro f w r h
    obtain ⟨m, l, t0, w1, t1, w2, t2, w3, o, t3, w4, t4, hm, h0, h1, h2, h3, h4, htr, -⟩ :=
      fsm_poll_own h
    have hm1 : m = n := by omega
    subst hm1
    have hw1 : w1.children = w.children := poll_locked_children h0
    have hw4 : w4.children = w.children := by
      rw [poll_front_keeps (fun w => w.children) hs hk children_queues h1 h2 h3, hw1]
    have hkids : ∀ (buf : List Nat) (w' : World) (t : List (Nat × action)) (w1' : World),
        w'.children = w.children → poll_children (fsm_poll hs m) o buf w' = .ok (t, w1') →
        recursion_depth t ≤ m + 1 ∧
        (∀ c ∈ buf, ∀ L, w.chain c L → L.length + 2 ≤ recursion_depth t) ∧
        (recursion_depth t ≤ 1 ∨
          ∃ c ∈ buf, ∃ L, w.chain c L ∧ recursion_depth t = L.length + 2) := by
      intro buf
      induction buf with
      | nil =>
        intro w' t w1' _ hp
        simp [poll_children] at hp
        rw [hp.1]
        exact ⟨by simp [depth_nil], by simp, Or.inl (by simp [depth_nil])⟩
      | cons c rest ihb =>
        intro w' t w1' hc hp
        obtain ⟨tf, wf, rc, t2', hf, hpc, hrest, rfl⟩ := poll_children_cons_inv hp
        have hwf : wf.children = w.children := by
          rw [(poll_forward_queues hf).1, children_queues, hc]
        obtain ⟨⟨Lc, hLc, hDc⟩, hall, hle⟩ := ih c wf rc hpc
        have hrc : rc.world.children = w.children := by
          rw [(fsm_poll_tree hs hk m c wf rc hpc).2, hwf]
        obtain ⟨j1, j2, j3⟩ := ihb rc.world t2' w1' hrc hrest
        have hdeep : recursion_depth (deeper rc.trace) = recursion_depth rc.trace + 1 :=
          depth_deeper _ (by omega)
        have hhere := depth_here tf
        have hD : recursion_depth (here tf ++ (0, action.poll c) :: deeper rc.trace ++ t2') =
            max (recursion_depth rc.trace + 1) (recursion_depth t2') := by
          have : here tf ++ (0, action.poll c) :: deeper rc.trace ++ t2' =
              here tf ++ ((0, action.poll c) :: (deeper rc.trace ++ t2')) := by simp
          rw [this, depth_append, depth_cons, depth_append, hdeep]
          omega
        rw [hD]
        refine ⟨by omega, ?_, ?_⟩
        · intro c1 hc1 L hL
          rcases List.mem_cons.mp hc1 with rfl | hc1
          · have := hall L ((chain_congr hwf L c1).mpr hL)
            omega
          · have := j2 c1 hc1 L hL
            omega
        · by_cases hcmp : recursion_depth t2' ≤ recursion_depth rc.trace + 1
          · refine Or.inr ⟨c, List.mem_cons_self _ _, Lc, (chain_congr hwf Lc c).mp hLc, ?_⟩
            omega
          · rcases j3 with j3 | ⟨c1, hc1, L, hL, hd⟩
            · omega
            · refine Or.inr ⟨c1, List.mem_cons_of_mem _ hc1, L, hL, ?_⟩
              omega
    obtain ⟨k1, k2, k3⟩ := hkids _ _ _ _ hw4 h4
    have hbuf : l.child_fsm_buf = w.children f := (poll_locked_snapshot h0).1.symm
    have hfront : recursion_depth (here (t0 ++ t1 ++ t2 ++ t3)) = 1 := by
      obtain ⟨Q, -, hnil, hcons⟩ := poll_dispatch_inv h3
      have ht3 : ∃ a rest, t3 = a :: rest := by
        cases hi : Q.items with
        | nil => exact ⟨_, _, (hnil hi).2.1⟩
        | cons e rest =>
          obtain ⟨ha, hb⟩ := hcons e rest hi
          by_cases hh : l.handler = 0
          · exact ⟨_, _, (ha hh).2.1⟩
          · exact ⟨_, _, (hb hh).2.1⟩
      obtain ⟨a, rest, rfl⟩ := ht3
      have h1 := depth_here (t0 ++ t1 ++ t2)
      have : here (t0 ++ t1 ++ t2 ++ a :: rest) = here (t0 ++ t1 ++ t2) ++ here (a :: rest) := by
        simp [here]
      rw [this, depth_append, depth_here_cons]
      omega
    have hD : recursion_depth r.trace = max 1 (recursion_depth t4) := by
      rw [htr, depth_append, hfront]
    rw [hD]
    refine ⟨?_, ?_, by omega⟩
    · rcases k3 with k3 | ⟨c, hc, L, hL, hd⟩
      · exact ⟨[], trivial, by simp; omega⟩
      · refine ⟨c :: L, ⟨by rw [← hbuf]; exact hc, hL⟩, ?_⟩
        simp only [List.length_cons]
        omega
    · intro L hL
      cases L with
      | nil => simp
      | cons c L =>
        obtain ⟨hc, hL⟩ := hL
        have := k2 c (by rw [hbuf]; exact hc) L hL
        simp only [List.length_cons]
        omega

/-- C32 (Termination of poll): in a composition tree that is finite and acyclic (a sound
world: the child lists are well formed and a ranking of the FSMs decreases from every FSM to
its child FSMs) `fsm_poll` returns, with tame handlers, once the fuel exceeds the rank of the
FSM; and whenever `fsm_poll` returns, with handlers that keep the composition tree, the depth
its recursion reached is the number of FSMs on the longest chain that starts at the FSM and
descends from an FSM to a child FSM attached under its current state (the state that is
current once a pending request is applied): there is such a chain `f :: L` with that many
FSMs, none has more, and the depth is within the fuel. -/
theorem C32_poll_terminates (hs : handlers) (n f : Nat) (w : World) :
    (∀ rank : Nat → Nat, w.sound rank → hs.tame rank → (cell w.fsms f).isSome → rank f < n →
      ∃ r, fsm_poll hs n f w = .ok r ∧ r.ret = 0) ∧
    (∀ r, fsm_poll hs n f w = .ok r → hs.keep (fun w => w.children) →
      (∃ L, w.chain f L ∧ recursion_depth r.trace = (f :: L).length) ∧
      (∀ L, w.chain f L → (f :: L).length ≤ recursion_depth r.trace) ∧
      recursion_depth r.trace ≤ n) := by
  refine ⟨?_, ?_⟩
  · intro rank hw ht hf hr
    exact fsm_poll_total hs rank ht n f w hw hf hr
  · intro r hr hk
    exact poll_depth hs hk n f w r hr

/-- C32 on the composition tree of the reference test: the poll of the parent returns and
its recursion is two calls deep, the parent and a child FSM. -/
theorem C32_poll_terminates_witness :
    ∃ r, fsm_poll hs_idle 2 1 { w_tree with now := 13 } = .ok r ∧
      recursion_depth r.trace = 2 := by
  obtain ⟨h1, h2⟩ := C32_poll_terminates hs_idle 2 1 { w_tree with now := 13 }
  obtain ⟨r, hr, -⟩ := h1 _ (sound_now _ _ 13 w_tree_sound) (hs_idle_tame _) (by decide)
    (by decide)
  obtain ⟨-, hlow, hup⟩ := h2 r hr (hs_idle_keep _)
  have := hlow [2] ⟨by decide, trivial⟩
  simp only [List.length_cons, List.length_nil] at this
  exact ⟨r, hr, by omega⟩

/-! ## Child lists -/

/-- What a call of `fsm_state_child_fsm_add` that returns has checked. -/
theorem child_fsm_add_pre {st f : Nat} {w w1 : World} {r : Int}
    (h : fsm_state_child_fsm_add st f w = .ok (r, w1)) :
    ∃ S F, cell w.states st = some S ∧ S.magic_number = STATE_MAGIC_NUMBER ∧ S.lock ≠ 0 ∧
      cell w.fsms f = some F ∧ F.magic_number = FSM_MAGIC_NUMBER ∧ F.os ≠ 0 ∧ F.lock ≠ 0 ∧
      ((r = -1 ∧ f = S.parent_fsm ∧ w1 = w) ∨
       (r = 0 ∧ f ≠ S.parent_fsm ∧ S.lock ∉ w.held ∧ F.lock ∉ w.held ∧ F.lock ≠ S.lock)) := by
  unfold fsm_state_child_fsm_add at h
  obtain ⟨S, hS, h⟩ := bind_eq_ok.mp h
  rw [ld_eq_ok] at hS
  obtain ⟨_, hSm, h⟩ := bind_eq_ok.mp h
  rw [ASSERT_eq_ok] at hSm
  obtain ⟨F, hF, h⟩ := bind_eq_ok.mp h
  rw [ld_eq_ok] at hF
  obtain ⟨_, hFm, h⟩ := bind_eq_ok.mp h
  rw [ASSERT_eq_ok] at hFm
  obtain ⟨_, hos, h⟩ := bind_eq_ok.mp h
  rw [ASSERT_eq_ok] at hos
  obtain ⟨_, hlk, h⟩ := bind_eq_ok.mp h
  rw [ASSERT_eq_ok] at hlk
  obtain ⟨_, hSl, h⟩ := bind_eq_ok.mp h
  rw [ASSERT_eq_ok] at hSl
  refine ⟨S, F, hS, hSm, hSl, hF, hFm, hos, hlk, ?_⟩
  by_cases hown : f = S.parent_fsm
  · simp only [hown, if_true, pure_eq_ok, Except.ok.injEq, Prod.mk.injEq] at h
    exact Or.inl ⟨h.1.symm, hown, h.2.symm⟩
  · simp only [hown, if_false] at h
    obtain ⟨w2, hw2, h⟩ := bind_eq_ok.mp h
    obtain ⟨hSh, rfl⟩ := mutex_lock_eq_ok.mp hw2
    obtain ⟨link, -, h⟩ := bind_eq_ok.mp h
    obtain ⟨w3, hw3, h⟩ := bind_eq_ok.mp h
    obtain ⟨hFh, rfl⟩ := mutex_lock_eq_ok.mp hw3
    obtain ⟨F1, -, h⟩ := bind_eq_ok.mp h
    obtain ⟨w4, -, h⟩ := bind_eq_ok.mp h
    simp only [pure_eq_ok, Except.ok.injEq, Prod.mk.injEq] at h
    simp only [List.mem_cons, not_or] at hFh
    exact Or.inr ⟨h.1.symm, hown, hSh, hFh.2, hFh.1⟩

/-- What a call of `fsm_state_child_fsm_del` that returns has checked. -/
theorem child_fsm_del_pre {st f : Nat} {w w1 : World} {r : Int}
    (h : fsm_state_child_fsm_del st f w = .ok (r, w1)) :
    ∃ S F, cell w.states st = some S ∧ S.magic_number = STATE_MAGIC_NUMBER ∧ S.lock ≠ 0 ∧
      cell w.fsms f = some F ∧ F.magic_number = FSM_MAGIC_NUMBER ∧ F.os ≠ 0 ∧ F.lock ≠ 0 ∧
      r = 0 ∧ S.lock ∉ w.held ∧
      (∀ pre post, fsm_chain w.fsms (w.fsms.length + 1) S.child_fsm = .ok (pre ++ f :: post) →
        F.lock ∉ w.held ∧ F.lock ≠ S.lock) := by
  unfold fsm_state_child_fsm_del at h
  obtain ⟨S, hS, h⟩ := bind_eq_ok.mp h
  rw [ld_eq_ok] at hS
  obtain ⟨_, hSm, h⟩ := bind_eq_ok.mp h
  rw [ASSERT_eq_ok] at hSm
  obtain ⟨F, hF, h⟩ := bind_eq_ok.mp h
  rw [ld_eq_ok] at hF
  obtain ⟨_, hFm, h⟩ := bind_eq_ok.mp h
  rw [ASSERT_eq_ok] at hFm
  obtain ⟨_, hos, h⟩ := bind_eq_ok.mp h
  rw [ASSERT_eq_ok] at hos
  obtain ⟨_, hlk, h⟩ := bind_eq_ok.mp h
  rw [ASSERT_eq_ok] at hlk
  obtain ⟨_, hSl, h⟩ := bind_eq_ok.mp h
  rw [ASSERT_eq_ok] at hSl
  obtain ⟨w2, hw2, h⟩ := bind_eq_ok.mp h
  obtain ⟨hSh, rfl⟩ := mutex_lock_eq_ok.mp hw2
  obtain ⟨o, ho, h⟩ := bind_eq_ok.mp h
  refine ⟨S, F, hS, hSm, hSl, hF, hFm, hos, hlk, ?_, hSh, ?_⟩
  · cases o with
    | none =>
      simp only [pure_eq_ok, Except.ok.injEq, Prod.mk.injEq] at h
      exact h.1.symm
    | some link =>
      simp only at h
      obtain ⟨w3, -, h⟩ := bind_eq_ok.mp h
      obtain ⟨F1, -, h⟩ := bind_eq_ok.mp h
      obtain ⟨w4, -, h⟩ := bind_eq_ok.mp h
      obtain ⟨F2, -, h⟩ := bind_eq_ok.mp h
      simp only [pure_eq_ok, Except.ok.injEq, Prod.mk.injEq] at h
      exact h.1.symm
  · intro pre post hL
    have hnd := linked_nodup _ _ _ (fsm_chain_linked _ _ _ _ hL)
    have hpre : f ∉ pre := by
      intro hm
      have := List.nodup_append.mp hnd
      exact this.2.2 hm (List.mem_cons_self _ _)
    have hwalk := child_walk_found w.fsms f post (w.fsms.length + 1) pre 0 S.child_fsm hL hpre
    simp only [World.ffuel] at ho
    rw [hwalk] at ho
    obtain rfl := Except.ok.inj ho
    simp only at h
    obtain ⟨w3, hw3, h⟩ := bind_eq_ok.mp h
    obtain ⟨hFh, -⟩ := mutex_lock_eq_ok.mp hw3
    simp only [List.mem_cons, not_or] at hFh
    exact ⟨hFh.2, hFh.1⟩

theorem fsm_chain_transfer {h h1 : List (Option fsm)} {p : Nat} {L : List Nat}
    (hL : fsm_chain h (h.length + 1) p = .ok L) (hsame : ∀ a ∈ L, cell h1 a = cell h a) :
    fsm_chain h1 (h1.length + 1) p = .ok L := by
  have h0 := fsm_chain_linked _ _ _ _ hL
  have h2 := linked_congr (fsm_next h) (fsm_next h1) L p
    (fun a ha => by simp only [fsm_next, hsame a ha]) h0
  exact linked_fsm_chain h1 _ p L h2 (linked_fsms_length h1 p L h2)

theorem kids_eq {w : World} {st : Nat} {S : state} (hS : cell w.states st = some S) :
    w.kids st = fsm_chain w.fsms (w.fsms.length + 1) S.child_fsm := by
  simp only [World.kids, World.state?, hS, ld, ok_bind, World.ffuel]

theorem kids_dead {w : World} {st : Nat} (hS : cell w.states st = none) :
    w.kids st = .error .badptr := by
  simp only [World.kids, World.state?, hS, ld, error_bind]

/-- The child lists of the other states after a change of the FSM records that leaves the
FSMs on those lists as they are. -/
theorem kids_other {w w1 : World} {st : Nat} (hp : w.paired)
    (hst : ∀ b, b ≠ st → cell w1.states b = cell w.states b)
    (hsame : ∀ g G, cell w.fsms g = some G → G.parent_state ≠ st → G.parent_state ≠ 0 →
      cell w1.fsms g = cell w.fsms g) :
    ∀ b, b ≠ st → w1.kids b = w.kids b := by
  intro b hb
  cases hSb : cell w.states b with
  | none => rw [kids_dead hSb, kids_dead ((hst b hb).trans hSb)]
  | some Sb =>
    obtain ⟨Lb, hLb, hmem⟩ := hp.2.1 b Sb hSb
    rw [hLb, kids_eq ((hst b hb).trans hSb)]
    rw [kids_eq hSb] at hLb
    have hb0 : b ≠ 0 := (cell_bound hSb).1
    refine fsm_chain_transfer hLb (fun a ha => ?_)
    obtain ⟨C, hC, hCp⟩ := hmem a ha
    exact hsame a C hC (by rw [hCp]; exact hb) (by rw [hCp]; exact hb0)

theorem valid_of_fields {G G1 : fsm} (h : G.valid) (h1 : G1.magic_number = G.magic_number)
    (h2 : G1.os = G.os) (h3 : G1.lock = G.lock) (h4 : G1.event_queue = G.event_queue) :
    G1.valid := by
  unfold fsm.valid at h ⊢
  rw [h1, h2, h3, h4]
  exact h

/-- Attaching an FSM that has no parent state keeps the child lists consistent, puts the FSM
at the tail of the child list of the state and leaves the other child lists as they are. -/
theorem paired_add {st f : Nat} {w w1 : World} {F : fsm} (hp : w.paired)
    (hF : cell w.fsms f = some F) (hdet : F.parent_state = 0)
    (h : fsm_state_child_fsm_add st f w = .ok (0, w1)) :
    w1.paired ∧ (∀ b, b ≠ st → w1.kids b = w.kids b) ∧
    ∃ L, w.kids st = .ok L ∧ w1.kids st = .ok (L ++ [f]) := by
  obtain ⟨S, F', hS, hSm, hSl, hF', -, -, -, hcase⟩ := child_fsm_add_pre h
  have hFe : F' = F := Option.some.inj (hF'.symm.trans hF)
  subst F'
  rcases hcase with ⟨hr, -⟩ | ⟨-, hown, hSh, hFh, hne⟩
  · exact absurd hr (by decide)
  obtain ⟨L, hLk, hmem⟩ := hp.2.1 st S hS
  have hL := hLk
  rw [kids_eq hS] at hL
  have hst0 : st ≠ 0 := (cell_bound hS).1
  have hf : f ∉ L := by
    intro hm
    obtain ⟨C, hC, hCp⟩ := hmem f hm
    have : C = F := Option.some.inj (hC.symm.trans hF)
    subst this
    exact hst0 (hCp.symm.trans hdet)
  obtain ⟨w1', hadd, -, -, -, -, hcf, hoth, hlast, hsts, hstst⟩ :=
    child_fsm_add_fresh st f w S F L hS hSm hSl hSh hF (hp.1 f F hF) hFh hne hown hL hf
  have hwe : w1' = w1 := (Prod.mk.inj (Except.ok.inj (hadd.symm.trans h))).2
  subst hwe
  have hnew := attached_chain f w.fsms w1'.fsms S.child_fsm L _ hL hf hcf rfl hoth hlast
  have hk1 : w1'.kids st = .ok (L ++ [f]) := by
    rw [kids_eq hstst]
    exact hnew
  have hsame : ∀ g G, cell w.fsms g = some G → G.parent_state ≠ st → G.parent_state ≠ 0 →
      cell w1'.fsms g = cell w.fsms g := by
    intro g G hG hne1 hne0
    refine hoth g ?_ ?_
    · intro e
      subst e
      have : G = F := Option.some.inj (hG.symm.trans hF)
      subst this
      exact hne0 hdet
    · intro e
      obtain ⟨C, hC, hCp⟩ := hmem g (List.mem_of_mem_getLast? e)
      have : C = G := Option.some.inj (hC.symm.trans hG)
      subst this
      exact hne1 hCp
  have hko := kids_other hp hsts hsame
  have hback : ∀ g G1, g ≠ f → cell w1'.fsms g = some G1 →
      ∃ G, cell w.fsms g = some G ∧ G1.parent_state = G.parent_state ∧
        (G.valid → G1.valid) := by
    intro g G1 hgf hG1
    by_cases hl : L.getLast? = some g
    · rw [hlast g hl] at hG1
      cases hG : cell w.fsms g with
      | none => simp [hG] at hG1
      | some G =>
        simp only [hG, Option.map_some', Option.some.injEq] at hG1
        subst hG1
        exact ⟨G, rfl, rfl, fun hv => valid_of_fields hv rfl rfl rfl rfl⟩
    · rw [hoth g hgf hl] at hG1
      exact ⟨G1, hG1, rfl, id⟩
  refine ⟨⟨?_, ?_, ?_⟩, hko, L, hLk, hk1⟩
  · intro g G1 hG1
    by_cases hgf : g = f
    · subst hgf
      simp only [World.fsm?] at hG1
      rw [hcf] at hG1
      obtain rfl := Option.some.inj hG1
      exact valid_of_fields (hp.1 g F hF) rfl rfl rfl rfl
    · obtain ⟨G, hG, -, hv⟩ := hback g G1 hgf hG1
      exact hv (hp.1 g G hG)
  · intro b Sb1 hSb1
    by_cases hb : b = st
    · subst hb
      refine ⟨L ++ [f], hk1, ?_⟩
      intro c hc
      rcases List.mem_append.mp hc with hc | hc
      · obtain ⟨C, hC, hCp⟩ := hmem c hc
        have hcf1 : c ≠ f := fun e => hf (e ▸ hc)
        by_cases hl : L.getLast? = some c
        · refine ⟨{ C with next := f }, ?_, hCp⟩
          simp only [World.fsm?]
          rw [hlast c hl]
          simp only [World.fsm?] at hC
          rw [hC]
          rfl
        · exact ⟨C, by simp only [World.fsm?] at hC ⊢; rw [hoth c hcf1 hl]; exact hC, hCp⟩
      · simp only [List.mem_singleton] at hc
        subst hc
        exact ⟨_, hcf, rfl⟩
    · have hSb : cell w.states b = some Sb1 := by
        simp only [World.state?] at hSb1
        rw [hsts b hb] at hSb1
        exact hSb1
      obtain ⟨Lb, hLb, hmemb⟩ := hp.2.1 b Sb1 hSb
      refine ⟨Lb, (hko b hb).trans hLb, ?_⟩
      intro c hc
      obtain ⟨C, hC, hCp⟩ := hmemb c hc
      refine ⟨C, ?_, hCp⟩
      simp only [World.fsm?] at hC ⊢
      rw [hsame c C hC (by rw [hCp]; exact hb) (by rw [hCp]; exact (cell_bound hSb).1)]
      exact hC
  · intro c C1 hC1 hpar
    by_cases hcf1 : c = f
    · subst hcf1
      simp only [World.fsm?] at hC1
      rw [hcf] at hC1
      obtain rfl := Option.some.inj hC1
      exact ⟨L ++ [c], hk1, by simp⟩
    · obtain ⟨C, hC, hpe, -⟩ := hback c C1 hcf1 hC1
      rw [hpe] at hpar ⊢
      obtain ⟨Lp, hLp, hcm⟩ := hp.2.2 c C hC hpar
      by_cases hps : C.parent_state = st
      · rw [hps] at hLp ⊢
        have : Lp = L := Except.ok.inj (hLp.symm.trans hLk)
        subst this
        exact ⟨Lp ++ [f], hk1, List.mem_append_left _ hcm⟩
      · exact ⟨Lp, (hko _ hps).trans hLp, hcm⟩

/-- Detaching an FSM keeps the child lists consistent. -/
theorem paired_del {st f : Nat} {w w1 : World} (hp : w.paired)
    (h : fsm_state_child_fsm_del st f w = .ok (0, w1)) : w1.paired := by
  obtain ⟨S, F, hS, hSm, hSl, hF, -, -, -, -, hSh, hfound⟩ := child_fsm_del_pre h
  obtain ⟨L, hLk, hmem⟩ := hp.2.1 st S hS
  have hL := hLk
  rw [kids_eq hS] at hL
  have hst0 : st ≠ 0 := (cell_bound hS).1
  by_cases hm : f ∈ L
  swap
  · have := child_fsm_del_absent st f w S F L hS hSm hSl hSh hF (hp.1 f F hF) hL hm
    have hwe : w = w1 := (Prod.mk.inj (Except.ok.inj (this.symm.trans h))).2
    subst hwe
    exact hp
  obtain ⟨pre, post, rfl⟩ := List.append_of_mem hm
  obtain ⟨hFh, hne⟩ := hfound pre post hL
  have hnd := linked_nodup _ _ _ (fsm_chain_linked _ _ _ _ hL)
  have hfpre : f ∉ pre := fun hx => (List.nodup_append.mp hnd).2.2 hx (List.mem_cons_self _ _)
  have hfpost : f ∉ post := (List.nodup_cons.mp (List.nodup_append.mp hnd).2.1).1
  have hFp : F.parent_state = st := by
    obtain ⟨C, hC, hCp⟩ := hmem f hm
    have : C = F := Option.some.inj (hC.symm.trans hF)
    subst this
    exact hCp
  obtain ⟨w1', hdel, -, -, -, -, hcf, hoth, hlast, hsts, hstst⟩ :=
    child_fsm_del_found st f w S F pre post hS hSm hSl hSh hF (hp.1 f F hF) hFh hne hL
  have hwe : w1' = w1 := (Prod.mk.inj (Except.ok.inj (hdel.symm.trans h))).2
  subst hwe
  have hnew := detached_chain f w.fsms w1'.fsms S.child_fsm pre post F hL hF hoth hlast
  have hk1 : w1'.kids st = .ok (pre ++ post) := by
    rw [kids_eq hstst]
    exact hnew
  have hsame : ∀ g G, cell w.fsms g = some G → G.parent_state ≠ st → G.parent_state ≠ 0 →
      cell w1'.fsms g = cell w.fsms g := by
    intro g G hG hne1 _
    refine hoth g ?_ ?_
    · intro e
      subst e
      have : G = F := Option.some.inj (hG.symm.trans hF)
      subst this
      exact hne1 hFp
    · intro e
      obtain ⟨C, hC, hCp⟩ := hmem g (List.mem_append_left _ (List.mem_of_mem_getLast? e))
      have : C = G := Option.some.inj (hC.symm.trans hG)
      subst this
      exact hne1 hCp
  have hko := kids_other hp hsts hsame
  have hback : ∀ g G1, g ≠ f → cell w1'.fsms g = some G1 →
      ∃ G, cell w.fsms g = some G ∧ G1.parent_state = G.parent_state ∧
        (G.valid → G1.valid) := by
    intro g G1 hgf hG1
    by_cases hl : pre.getLast? = some g
    · rw [hlast g hl] at hG1
      cases hG : cell w.fsms g with
      | none => simp [hG] at hG1
      | some G =>
        simp only [hG, Option.map_some', Option.some.injEq] at hG1
        subst hG1
        exact ⟨G, rfl, rfl, fun hv => valid_of_fields hv rfl rfl rfl rfl⟩
    · rw [hoth g hgf hl] at hG1
      exact ⟨G1, hG1, rfl, id⟩
  have hfwd : ∀ c C, c ≠ f → cell w.fsms c = some C →
      ∃ C1, cell w1'.fsms c = some C1 ∧ C1.parent_state = C.parent_state := by
    intro c C hcf1 hC
    by_cases hl : pre.getLast? = some c
    · exact ⟨{ C with next := F.next }, by rw [hlast c hl, hC]; rfl, rfl⟩
    · exact ⟨C, by rw [hoth c hcf1 hl]; exact hC, rfl⟩
  refine ⟨?_, ?_, ?_⟩
  · intro g G1 hG1
    by_cases hgf : g = f
    · subst hgf
      simp only [World.fsm?] at hG1
      rw [hcf] at hG1
      obtain rfl := Option.some.inj hG1
      exact valid_of_fields (hp.1 g F hF) rfl rfl rfl rfl
    · obtain ⟨G, hG, -, hv⟩ := hback g G1 hgf hG1
      exact hv (hp.1 g G hG)
  · intro b Sb1 hSb1
    by_cases hb : b = st
    · subst hb
      refine ⟨pre ++ post, hk1, ?_⟩
      intro c hc
      have hcL : c ∈ pre ++ f :: post := by
        rcases List.mem_append.mp hc with hc | hc
        · exact List.mem_append_left _ hc
        · exact List.mem_append_right _ (List.mem_cons_of_mem _ hc)
      have hcf1 : c ≠ f := by
        intro e
        subst e
        rcases List.mem_append.mp hc with hc | hc
        · exact hfpre hc
        · exact hfpost hc
      obtain ⟨C, hC, hCp⟩ := hmem c hcL
      obtain ⟨C1, hC1, hpe⟩ := hfwd c C hcf1 hC
      exact ⟨C1, hC1, hpe.trans hCp⟩
    · have hSb : cell w.states b = some Sb1 := by
        simp only [World.state?] at hSb1
        rw [hsts b hb] at hSb1
        exact hSb1
      obtain ⟨Lb, hLb, hmemb⟩ := hp.2.1 b Sb1 hSb
      refine ⟨Lb, (hko b hb).trans hLb, ?_⟩
      intro c hc
      obtain ⟨C, hC, hCp⟩ := hmemb c hc
      refine ⟨C, ?_, hCp⟩
      simp only [World.fsm?] at hC ⊢
      rw [hsame c C hC (by rw [hCp]; exact hb) (by rw [hCp]; exact (cell_bound hSb).1)]
      exact hC
  · intro c C1 hC1 hpar
    by_cases hcf1 : c = f
    · subst hcf1
      simp only [World.fsm?] at hC1
      rw [hcf] at hC1
      obtain rfl := Option.some.inj hC1
      exact absurd rfl hpar
    · obtain ⟨C, hC, hpe, -⟩ := hback c C1 hcf1 hC1
      rw [hpe] at hpar ⊢
      obtain ⟨Lp, hLp, hcm⟩ := hp.2.2 c C hC hpar
      by_cases hps : C.parent_state = st
      · rw [hps] at hLp ⊢
        have : Lp = pre ++ f :: post := Except.ok.inj (hLp.symm.trans hLk)
        subst this
        refine ⟨pre ++ post, hk1, ?_⟩
        rcases List.mem_append.mp hcm with hc | hc
        · exact List.mem_append_left _ hc
        · rcases List.mem_cons.mp hc with hc | hc
          · exact absurd hc hcf1
          · exact List.mem_append_right _ hc
      · exact ⟨Lp, (hko _ hps).trans hLp, hcm⟩

/-- A world in which no FSM is attached has consistent child lists. -/
theorem paired_of_detached (w : World)
    (hF : ∀ g G, cell w.fsms g = some G → G.valid ∧ G.parent_state = 0)
    (hS : ∀ st S, cell w.states st = some S → S.child_fsm = 0) : w.paired := by
  refine ⟨fun g G hG => (hF g G hG).1, ?_, ?_⟩
  · intro st S hSt
    refine ⟨[], ?_, by simp⟩
    rw [kids_eq hSt, hS st S hSt]
    rfl
  · intro c C hC hpar
    exact absurd (hF c C hC).2 hpar

/-- Calls that attach only FSMs without a parent state keep the child lists consistent. -/
theorem paired_calls :
    ∀ (cs : List (Bool × Nat × Nat)) (w0 w : World), w0.paired →
      child_calls cs w0 = some w → w.paired := by
  intro cs
  induction cs with
  | nil =>
    intro w0 w h0 h
    simp only [child_calls, Option.some.injEq] at h
    rw [← h]
    exact h0
  | cons c cs ih =>
    intro w0 w h0 h
    obtain ⟨add, st, f⟩ := c
    cases add with
    | true =>
      simp only [child_calls] at h
      split at h
      · rename_i F r w1 hF hadd
        split at h
        · rename_i hc
          obtain ⟨hdet, rfl⟩ := hc
          exact ih w1 w (paired_add h0 hF hdet hadd).1 h
        · exact absurd h (by simp)
      · exact absurd h (by simp)
    | false =>
      simp only [child_calls] at h
      split at h
      · rename_i r w1 hdel
        split at h
        · rename_i hc
          subst hc
          exact ih w1 w (paired_del h0 hdel) h
        · exact absurd h (by simp)
      · exact absurd h (by simp)

/-- C36 (Child-list consistency): the code breaks the invariant, by a defect of
`fsm_state_child_fsm_add`, which attaches an FSM that is still attached elsewhere without
taking it off the list it is on (`fsm_state_register` asserts `parent_fsm == NULL` for the
like case of a state; `fsm_state_child_fsm_add` has no such check).  In the composition tree
of the reference test the child list of `S1` (at 2) is `[2, 3]`, and both child FSMs have `S1`
as their parent state.  Attaching the FSM 2 under `S2` (at 3) returns `0`; afterwards the
FSM 2 is on the child list of `S1` although its parent state is `S2`, the FSM 3 has `S1` as
its parent state but is not on the child list of `S1`, and the call, which attached under
`S2`, has changed the child list of `S1`. -/
theorem C36_attach_elsewhere :
    mk_tree = .ok w_tree ∧ w_tree.kids 2 = .ok [2, 3] ∧ w_tree.kids 3 = .ok [] ∧
    (w_tree.fsm? 2).map (fun F => F.parent_state) = some 2 ∧
    (w_tree.fsm? 3).map (fun F => F.parent_state) = some 2 ∧
    ∃ w1, fsm_state_child_fsm_add 3 2 w_tree = .ok (0, w1) ∧
      w1.kids 2 = .ok [2] ∧ w1.kids 3 = .ok [2] ∧
      (w1.fsm? 2).map (fun F => F.parent_state) = some 3 ∧
      (w1.fsm? 3).map (fun F => F.parent_state) = some 2 := by
  refine ⟨mk_tree_eq, by decide, by decide, by decide, by decide, ?_⟩
  obtain ⟨r, hr, hv⟩ := map_eq_ok.mp
    (show (fsm_state_child_fsm_add 3 2 w_tree).map
        (fun r => decide (r.1 = 0) && decide (r.2.kids 2 = .ok [2]) &&
          decide (r.2.kids 3 = .ok [2]) &&
          decide ((r.2.fsm? 2).map (fun F => F.parent_state) = some 3) &&
          decide ((r.2.fsm? 3).map (fun F => F.parent_state) = some 2)) =
      .ok true from by decide)
  obtain ⟨r1, w1⟩ := r
  simp only [Bool.and_eq_true, decide_eq_true_eq] at hv
  obtain ⟨⟨⟨⟨h0, h1⟩, h2⟩, h3⟩, h4⟩ := hv
  have h0 : r1 = 0 := h0
  subst h0
  exact ⟨w1, hr, h1, h2, h3, h4⟩

/-- The child lists stay consistent while only detached FSMs are attached: in every world
reached from a world with consistent child lists (in particular one in which no FSM is
attached) by calls of `fsm_state_child_fsm_add` and `fsm_state_child_fsm_del` that return
`0`, where `fsm_state_child_fsm_add` is called only for FSMs that have no parent state at that
moment: the child list of every state is well formed (finite) and holds no FSM twice, an FSM
is on the child list of the state `st` exactly when its parent state is `st`, and a further
such call that attaches an FSM under a state puts it at the tail of the child list of that
state and leaves the child list of every other state as it is. -/
theorem child_lists_consistent (cs : List (Bool × Nat × Nat)) (w0 w : World)
    (h0 : w0.paired) (hrun : child_calls cs w0 = some w) :
    (∀ st S, w.state? st = some S →
      ∃ L, w.kids st = .ok L ∧ L.Nodup ∧
        ∀ c, c ∈ L ↔ ∃ C, w.fsm? c = some C ∧ C.parent_state = st) ∧
    (∀ st f F w1, w.fsm? f = some F → F.parent_state = 0 →
      fsm_state_child_fsm_add st f w = .ok (0, w1) →
      (∀ b, b ≠ st → w1.kids b = w.kids b) ∧
      ∃ L, w.kids st = .ok L ∧ w1.kids st = .ok (L ++ [f])) := by
  have hp := paired_calls cs w0 w h0 hrun
  refine ⟨?_, ?_⟩
  · intro st S hS
    obtain ⟨L, hL, hmem⟩ := hp.2.1 st S hS
    refine ⟨L, hL, ?_, ?_⟩
    · rw [kids_eq hS] at hL
      exact linked_nodup _ _ _ (fsm_chain_linked _ _ _ _ hL)
    · intro c
      refine ⟨hmem c, ?_⟩
      rintro ⟨C, hC, hCp⟩
      obtain ⟨L1, hL1, hc⟩ := hp.2.2 c C hC (by rw [hCp]; exact (cell_bound hS).1)
      rw [hCp] at hL1
      obtain rfl : L1 = L := Except.ok.inj (hL1.symm.trans hL)
      exact hc
  · intro st f F w1 hF hdet hadd
    exact (paired_add hp hF hdet hadd).2

/-- On the world of the reference test before its polls, where no FSM is attached: the
child FSM is attached under `S1` (at 5), detached and attached under `S2` (at 6); afterwards
the child list of `S2` is the child FSM, that of `S1` is empty, and the FSMs on the child list
of `S2` are those with `S2` as their parent state. -/
theorem child_lists_consistent_example :
    ∃ w, child_calls [(true, 5, 2), (false, 5, 2), (true, 6, 2)] w_case = some w ∧
      w.kids 5 = .ok [] ∧
      ∃ L, w.kids 6 = .ok L ∧ L.Nodup ∧
        ∀ c, c ∈ L ↔ ∃ C, w.fsm? c = some C ∧ C.parent_state = 6 := by
  obtain ⟨w, hw, hv⟩ := Option.map_eq_some'.mp
    (show (child_calls [(true, 5, 2), (false, 5, 2), (true, 6, 2)] w_case).map
        (fun w => decide (w.kids 5 = .ok []) && (w.state? 6).isSome) = some true from by
      decide)
  simp only [Bool.and_eq_true, decide_eq_true_eq] at hv
  have h0 : w_case.paired := by
    refine paired_of_detached w_case ?_ ?_
    · intro g G hG
      have hb := (cell_bound hG).2
      exact all_cells w_case.fsms [1, 2] (fun G => G.valid ∧ G.parent_state = 0) (by decide)
        g (by
          have h1 := (cell_bound hG).1
          have : w_case.fsms.length = 2 := rfl
          simp only [List.mem_cons, List.mem_singleton, List.not_mem_nil, or_false]
          omega) G hG
    · intro st S hS
      have hb := (cell_bound hS).2
      exact all_cells w_case.states [1, 2, 3, 4, 5, 6, 7, 8, 9] (fun S => S.child_fsm = 0)
        (by decide) st (by
          have h1 := (cell_bound hS).1
          have : w_case.states.length = 9 := rfl
          simp only [List.mem_cons, List.mem_singleton, List.not_mem_nil, or_false]
          omega) S hS
  obtain ⟨S, hS⟩ := Option.isSome_iff_exists.mp hv.2
  exact ⟨w, hw, hv.1, (child_lists_consistent _ w_case w h0 hw).1 6 S hS⟩

/-! ## The pending requests stay in order -/

theorem registry_alike {w w1 : World} (h : w.alike w1) {G G1 : fsm} {L : List Nat}
    (hc : G1.core = G.core) (hL : w.registry G = .ok L) : w1.registry G1 = .ok L := by
  simp only [fsm.core, Prod.mk.injEq] at hc
  rw [registry_iff] at hL ⊢
  rw [hc.2.2.2.2]
  exact linked_congr _ _ L _ (fun a _ => alike_next h a) hL

/-- The pending requests stay in order when the registries stay as they are and every
pending slot is as it was or empty. -/
theorem poised_alike {w w1 : World} (h : w.alike w1)
    (hpd : ∀ g G1, cell w1.fsms g = some G1 →
      G1.sta_next = 0 ∨ ∃ G, cell w.fsms g = some G ∧ G1.sta_next = G.sta_next)
    (hp : w.poised) : w1.poised := by
  intro g G1 hG1
  rcases hpd g G1 hG1 with h0 | ⟨G, hG, he⟩
  · exact Or.inl h0
  · rcases hp g G hG with h0 | ⟨L, hL, hm⟩
    · exact Or.inl (he.trans h0)
    · obtain ⟨G', hG', hc⟩ := alike_fsm_back h hG1
      obtain rfl : G' = G := Option.some.inj (hG'.symm.trans hG)
      exact Or.inr ⟨L, registry_alike h hc hL, by rw [he]; exact hm⟩

/-- The same, for worlds with the same FSM records. -/
theorem poised_same {w w1 : World} (h : w.alike w1) (hf : w1.fsms = w.fsms) (hp : w.poised) :
    w1.poised :=
  poised_alike h (fun g G1 hG1 => Or.inr ⟨G1, by rw [← hf]; exact hG1, rfl⟩) hp

/-- The same, for a world in which one FSM record was written with its pending slot kept. -/
theorem poised_put {w w1 : World} {f : Nat} {F F1 : fsm} (h : w.alike w1)
    (hF : cell w.fsms f = some F) (hf : w1.fsms = put w.fsms f (some F1))
    (hn : F1.sta_next = F.sta_next ∨ F1.sta_next = 0) (hp : w.poised) : w1.poised := by
  refine poised_alike h (fun g G1 hG1 => ?_) hp
  rw [hf] at hG1
  by_cases hg : g = f
  · subst hg
    rw [cell_put_same _ hF] at hG1
    obtain rfl := Option.some.inj hG1
    rcases hn with hn | hn
    · exact Or.inr ⟨F, hF, hn⟩
    · exact Or.inl hn
  · rw [cell_put_ne _ _ (Ne.symm hg)] at hG1
    exact Or.inr ⟨G1, hG1, rfl⟩

theorem poised_change_default {f v : Nat} {w w1 : World} {r : Int} (hp : w.poised)
    (h : fsm_change_default_poll_interval f v w = .ok (r, w1)) : w1.poised := by
  have hal := change_default_alike h
  unfold fsm_change_default_poll_interval at h
  obtain ⟨F, hF, h⟩ := bind_eq_ok.mp h
  rw [ld_eq_ok] at hF
  obtain ⟨_, -, h⟩ := bind_eq_ok.mp h
  obtain ⟨_, -, h⟩ := bind_eq_ok.mp h
  obtain ⟨_, -, h⟩ := bind_eq_ok.mp h
  obtain ⟨w2, hw2, h⟩ := bind_eq_ok.mp h
  obtain ⟨-, rfl⟩ := mutex_lock_eq_ok.mp hw2
  simp only [pure_eq_ok, Except.ok.injEq, Prod.mk.injEq] at h
  refine @poised_put w w1 f F { F with poll_interval := v } hal hF ?_ (Or.inl rfl) hp
  rw [← h.2]
  rfl

theorem poised_change_state {st v : Nat} {w w1 : World} {r : Int} (hp : w.poised)
    (h : fsm_change_state_poll_interval st v w = .ok (r, w1)) : w1.poised := by
  have hal := change_state_alike h
  unfold fsm_change_state_poll_interval at h
  obtain ⟨S, hS, h⟩ := bind_eq_ok.mp h
  obtain ⟨_, -, h⟩ := bind_eq_ok.mp h
  simp only [pure_eq_ok, Except.ok.injEq, Prod.mk.injEq] at h
  exact poised_same hal (by rw [← h.2]; rfl) hp

theorem poised_event_send {f type datalen : Nat} {data : payload} {w w1 : World} {r : Int}
    (hp : w.poised) (h : fsm_event_send f type data datalen w = .ok (r, w1)) :
    w1.poised := by
  have hal := event_send_alike h
  unfold fsm_event_send at h
  obtain ⟨F, hF, h⟩ := bind_eq_ok.mp h
  obtain ⟨_, -, h⟩ := bind_eq_ok.mp h
  obtain ⟨_, -, h⟩ := bind_eq_ok.mp h
  obtain ⟨_, -, h⟩ := bind_eq_ok.mp h
  obtain ⟨_, -, h⟩ := bind_eq_ok.mp h
  obtain ⟨w2, hw2, h⟩ := bind_eq_ok.mp h
  obtain ⟨-, rfl⟩ := mutex_lock_eq_ok.mp hw2
  obtain ⟨⟨ok, w3⟩, hsend, h⟩ := bind_eq_ok.mp h
  obtain ⟨Q, hQ, rfl, rfl⟩ := queue_send_inv hsend
  simp only [pure_eq_ok, Except.ok.injEq, Prod.mk.injEq] at h
  exact poised_same hal (by rw [← h.2]; rfl) hp

theorem poised_event_clear {f : Nat} {w w1 : World} {r : Int} (hp : w.poised)
    (h : fsm_event_clear f w = .ok (r, w1)) : w1.poised := by
  have hal := event_clear_alike h
  unfold fsm_event_clear at h
  obtain ⟨F, hF, h⟩ := bind_eq_ok.mp h
  obtain ⟨_, -, h⟩ := bind_eq_ok.mp h
  obtain ⟨_, -, h⟩ := bind_eq_ok.mp h
  obtain ⟨_, -, h⟩ := bind_eq_ok.mp h
  obtain ⟨w2, hw2, h⟩ := bind_eq_ok.mp h
  unfold queue_clear at hw2
  obtain ⟨Q, hQ, hw2⟩ := bind_eq_ok.mp hw2
  simp only [pure_eq_ok, Except.ok.injEq, Prod.mk.injEq] at h hw2
  exact poised_same hal (by rw [← h.2, ← hw2]; rfl) hp

/-- The pending requests stay in order when the registries stay as they are and the pending
slots are as they were. -/
theorem poised_pends {w w1 : World} (h : w.alike w1)
    (hn : ∀ g, (cell w1.fsms g).map (fun F => F.sta_next) =
      (cell w.fsms g).map (fun F => F.sta_next))
    (hp : w.poised) : w1.poised := by
  refine poised_alike h (fun g G1 hG1 => ?_) hp
  have := hn g
  rw [hG1] at this
  cases hG : cell w.fsms g with
  | none => simp [hG] at this
  | some G =>
    simp only [hG, Option.map_some', Option.some.injEq] at this
    exact Or.inr ⟨G, rfl, this⟩

theorem set_child_link_next {st link v : Nat} {w w1 : World}
    (h : set_child_link st link v w = .ok w1) (g : Nat) :
    (cell w1.fsms g).map (fun F => F.sta_next) = (cell w.fsms g).map (fun F => F.sta_next) := by
  unfold set_child_link at h
  by_cases hl : link = 0
  · simp only [hl, if_true] at h
    obtain ⟨S, hS, h⟩ := bind_eq_ok.mp h
    simp only [pure_eq_ok, Except.ok.injEq] at h
    rw [← h]
    rfl
  · simp only [hl, if_false] at h
    obtain ⟨F, hF, h⟩ := bind_eq_ok.mp h
    rw [ld_eq_ok] at hF
    simp only [pure_eq_ok, Except.ok.injEq] at h
    rw [← h]
    exact cell_put_map w.fsms link F _ (fun F => F.sta_next) hF (by rfl) g

theorem poised_child_add {st f : Nat} {w w1 : World} {r : Int} (hp : w.poised)
    (h : fsm_state_child_fsm_add st f w = .ok (r, w1)) : w1.poised := by
  refine poised_pends (child_fsm_add_alike h) ?_ hp
  intro g
  unfold fsm_state_child_fsm_add at h
  obtain ⟨S, hS, h⟩ := bind_eq_ok.mp h
  obtain ⟨_, -, h⟩ := bind_eq_ok.mp h
  obtain ⟨F, hF, h⟩ := bind_eq_ok.mp h
  rw [ld_eq_ok] at hF
  obtain ⟨_, -, h⟩ := bind_eq_ok.mp h
  obtain ⟨_, -, h⟩ := bind_eq_ok.mp h
  obtain ⟨_, -, h⟩ := bind_eq_ok.mp h
  obtain ⟨_, -, h⟩ := bind_eq_ok.mp h
  by_cases ho : f = S.parent_fsm
  · simp only [ho, if_true, pure_eq_ok, Except.ok.injEq, Prod.mk.injEq] at h
    rw [← h.2]
  · simp only [ho, if_false] at h
    obtain ⟨w2, hw2, h⟩ := bind_eq_ok.mp h
    obtain ⟨-, rfl⟩ := mutex_lock_eq_ok.mp hw2
    obtain ⟨link, -, h⟩ := bind_eq_ok.mp h
    obtain ⟨w3, hw3, h⟩ := bind_eq_ok.mp h
    obtain ⟨-, rfl⟩ := mutex_lock_eq_ok.mp hw3
    obtain ⟨F1, hF1, h⟩ := bind_eq_ok.mp h
    rw [ld_eq_ok] at hF1
    obtain ⟨w6, hw6, h⟩ := bind_eq_ok.mp h
    simp only [pure_eq_ok, Except.ok.injEq, Prod.mk.injEq] at h
    rw [← h.2]
    refine (set_child_link_next hw6 g).trans ?_
    exact cell_put_map w.fsms f F1 _ (fun F => F.sta_next) hF1 (by rfl) g

theorem poised_child_del {st f : Nat} {w w1 : World} {r : Int} (hp : w.poised)
    (h : fsm_state_child_fsm_del st f w = .ok (r, w1)) : w1.poised := by
  refine poised_pends (child_fsm_del_alike h) ?_ hp
  intro g
  unfold fsm_state_child_fsm_del at h
  obtain ⟨S, hS, h⟩ := bind_eq_ok.mp h
  obtain ⟨_, -, h⟩ := bind_eq_ok.mp h
  obtain ⟨F, hF, h⟩ := bind_eq_ok.mp h
  obtain ⟨_, -, h⟩ := bind_eq_ok.mp h
  obtain ⟨_, -, h⟩ := bind_eq_ok.mp h
  obtain ⟨_, -, h⟩ := bind_eq_ok.mp h
  obtain ⟨_, -, h⟩ := bind_eq_ok.mp h
  obtain ⟨w2, hw2, h⟩ := bind_eq_ok.mp h
  obtain ⟨-, rfl⟩ := mutex_lock_eq_ok.mp hw2
  obtain ⟨o, -, h⟩ := bind_eq_ok.mp h
  cases o with
  | none =>
    simp only [pure_eq_ok, Except.ok.injEq, Prod.mk.injEq] at h
    rw [← h.2]
    rfl
  | some link =>
    simp only at h
    obtain ⟨w3, hw3, h⟩ := bind_eq_ok.mp h
    obtain ⟨-, rfl⟩ := mutex_lock_eq_ok.mp hw3
    obtain ⟨F1, hF1, h⟩ := bind_eq_ok.mp h
    rw [ld_eq_ok] at hF1
    obtain ⟨w5, hw5, h⟩ := bind_eq_ok.mp h
    obtain ⟨F2, hF2, h⟩ := bind_eq_ok.mp h
    rw [ld_eq_ok] at hF2
    simp only [pure_eq_ok, Except.ok.injEq, Prod.mk.injEq] at h
    rw [← h.2]
    have e1 := cell_put_map w.fsms f F1 { F1 with parent_state := 0 } (fun F => F.sta_next)
      hF1 (by rfl) g
    have e2 := set_child_link_next hw5 g
    have e3 := cell_put_map w5.fsms f F2 { F2 with next := 0 } (fun F => F.sta_next)
      hF2 (by rfl) g
    exact e3.trans (e2.trans e1)

/-- The common tail of the request functions, for a node that is `NULL` or in the registry:
the pending requests stay in order. -/
theorem poised_switch_to {f : Nat} {F : fsm} {node : Nat} {w w1 : World} {r : Int}
    {L : List Nat} (hp : w.poised) (hF : cell w.fsms f = some F) (hL : w.registry F = .ok L)
    (hn : node = 0 ∨ node ∈ L)
    (h : switch_to f F node { w with held := F.lock :: w.held } = .ok (r, w1)) :
    w1.poised := by
  have hal := switch_to_alike hF h
  unfold switch_to at h
  by_cases h0 : node = 0
  · simp only [h0, ne_eq, not_true_eq_false, if_false, Except.ok.injEq, Prod.mk.injEq] at h
    exact poised_same hal (by rw [← h.2]; rfl) hp
  · by_cases hx : F.sta_next = 0
    · simp only [h0, ne_eq, not_false_eq_true, if_true, hx, Except.ok.injEq,
        Prod.mk.injEq] at h
      have hf : w1.fsms = put w.fsms f (some { F with sta_next := node }) := by
        rw [← h.2]
        rfl
      intro g G1 hG1
      simp only [World.fsm?] at hG1
      rw [hf] at hG1
      by_cases hg : g = f
      · subst hg
        rw [cell_put_same _ hF] at hG1
        obtain rfl := Option.some.inj hG1
        rcases hn with hn | hn
        · exact absurd hn h0
        · exact Or.inr ⟨L, registry_alike hal (by rfl) hL, hn⟩
      · rw [cell_put_ne _ _ (Ne.symm hg)] at hG1
        rcases hp g G1 hG1 with hz | ⟨Lg, hLg, hm⟩
        · exact Or.inl hz
        · exact Or.inr ⟨Lg, registry_alike hal rfl hLg, hm⟩
    · simp only [h0, ne_eq, not_false_eq_true, if_true, hx, if_false] at h
      obtain ⟨_, -, h⟩ := bind_eq_ok.mp h
      obtain ⟨_, -, h⟩ := bind_eq_ok.mp h
      simp only [pure_eq_ok, Except.ok.injEq, Prod.mk.injEq] at h
      exact poised_same hal (by rw [← h.2]; rfl) hp

theorem first_hit_zero_or_mem (h : List (Option state)) (hit : Nat → state → Bool)
    (L : List Nat) : first_hit h hit L = 0 ∨ first_hit h hit L ∈ L := by
  by_cases h0 : first_hit h hit L = 0
  · exact Or.inl h0
  · exact Or.inr (first_hit_mem _ _ _ h0)

/-- A transition request keeps the pending requests in order. -/
theorem poised_request {f : Nat} {q : request} {w w1 : World} {r : Int} (ht : w.tidy)
    (hp : w.poised) (h : q.run f w = .ok (r, w1)) : w1.poised := by
  cases q with
  | by_id id =>
    simp only [request.run, fsm_switch] at h
    obtain ⟨F, hF, h⟩ := bind_eq_ok.mp h
    rw [ld_eq_ok] at hF
    obtain ⟨_, -, h⟩ := bind_eq_ok.mp h
    obtain ⟨_, -, h⟩ := bind_eq_ok.mp h
    obtain ⟨_, -, h⟩ := bind_eq_ok.mp h
    obtain ⟨w2, hw2, h⟩ := bind_eq_ok.mp h
    obtain ⟨-, rfl⟩ := mutex_lock_eq_ok.mp hw2
    obtain ⟨node, hnode, h⟩ := bind_eq_ok.mp h
    obtain ⟨-, -, L, hL, -⟩ := ht.2 f F hF
    have hfind := state_find_of_chain w.states (fun _ s => decide (s.id = id))
      (w.states.length + 1) F.state_list L hL
    simp only [World.sfuel] at hnode
    rw [hfind] at hnode
    obtain rfl := Except.ok.inj hnode
    exact poised_switch_to hp hF hL (first_hit_zero_or_mem _ _ _) h
  | by_state_handle st =>
    simp only [request.run, fsm_switch_by_state_handle] at h
    obtain ⟨F, hF, h⟩ := bind_eq_ok.mp h
    rw [ld_eq_ok] at hF
    obtain ⟨_, -, h⟩ := bind_eq_ok.mp h
    obtain ⟨_, -, h⟩ := bind_eq_ok.mp h
    obtain ⟨_, -, h⟩ := bind_eq_ok.mp h
    obtain ⟨_, -, h⟩ := bind_eq_ok.mp h
    obtain ⟨_, -, h⟩ := bind_eq_ok.mp h
    obtain ⟨w2, hw2, h⟩ := bind_eq_ok.mp h
    obtain ⟨-, rfl⟩ := mutex_lock_eq_ok.mp hw2
    obtain ⟨node, hnode, h⟩ := bind_eq_ok.mp h
    obtain ⟨-, -, L, hL, -⟩ := ht.2 f F hF
    have hfind := state_find_of_chain w.states (fun p _ => decide (p = st))
      (w.states.length + 1) F.state_list L hL
    simp only [World.sfuel] at hnode
    rw [hfind] at hnode
    obtain rfl := Except.ok.inj hnode
    exact poised_switch_to hp hF hL (first_hit_zero_or_mem _ _ _) h
  | by_name name =>
    simp only [request.run, fsm_switch_by_name] at h
    obtain ⟨F, hF, h⟩ := bind_eq_ok.mp h
    rw [ld_eq_ok] at hF
    obtain ⟨_, -, h⟩ := bind_eq_ok.mp h
    obtain ⟨_, -, h⟩ := bind_eq_ok.mp h
    obtain ⟨_, -, h⟩ := bind_eq_ok.mp h
    obtain ⟨w2, hw2, h⟩ := bind_eq_ok.mp h
    obtain ⟨-, rfl⟩ := mutex_lock_eq_ok.mp hw2
    obtain ⟨node, hnode, h⟩ := bind_eq_ok.mp h
    obtain ⟨-, -, L, hL, -⟩ := ht.2 f F hF
    have hfind := state_find_of_chain w.states (fun _ s => decide (s.name = name))
      (w.states.length + 1) F.state_list L hL
    simp only [World.sfuel] at hnode
    rw [hfind] at hnode
    obtain rfl := Except.ok.inj hnode
    exact poised_switch_to hp hF hL (first_hit_zero_or_mem _ _ _) h

theorem poised_poll_locked {g : Nat} {w w1 : World} {l : poll_locals} {t : List action}
    (hp : w.poised) (h : poll_locked g w = .ok (l, t, w1)) : w1.poised := by
  refine poised_alike (poll_locked_alike h) (fun p G1 hG1 => ?_) hp
  obtain ⟨F, C, hF, -⟩ := poll_locked_inv h
  by_cases hpg : p = g
  · subst hpg
    rw [poll_locked_fsm_self h hF] at hG1
    obtain rfl := Option.some.inj hG1
    exact Or.inl (stepped_sta_next F)
  · rw [poll_locked_fsm_other h (Ne.symm hpg)] at hG1
    exact Or.inr ⟨G1, hG1, rfl⟩

/-- A poll keeps the registries and the pending requests in order when the handlers do. -/
theorem orderly_poll (hs : handlers) (hst : hs.orderly) (n f : Nat) (w : World)
    (r : poll_result) (hw : w.tidy) (hp : w.poised) (h : fsm_poll hs n f w = .ok r) :
    r.world.tidy ∧ r.world.poised :=
  fsm_poll_keeps hs (fun w => w.tidy ∧ w.poised) (fun _ => True)
    (fun h e w hI => hst h e w hI.1 hI.2)
    (fun _ _ hI _ => ⟨tidy_alike (alike_of_eq rfl (Nat.le_refl _) rfl rfl) hI.1,
      poised_same (alike_of_eq rfl (Nat.le_refl _) rfl rfl) rfl hI.2⟩)
    (fun _ _ _ _ _ _ hI hl => ⟨tidy_alike (poll_locked_alike hl) hI.1,
      poised_poll_locked hI.2 hl⟩)
    n f w r trivial (fun _ _ _ => trivial) ⟨hw, hp⟩ h

/-- The registry of an FSM record in a world with the same `next` links of the states. -/
theorem registry_links {w w1 : World} {G G1 : fsm} {L : List Nat}
    (hn : ∀ a ∈ L, state_next w1.states a = state_next w.states a)
    (hl : G1.state_list = G.state_list) (hL : w.registry G = .ok L) :
    w1.registry G1 = .ok L := by
  rw [registry_iff] at hL ⊢
  rw [hl]
  exact linked_congr _ _ L _ hn hL

theorem poised_new {name : Option String} {w w1 : World} {g : Nat} (hp : w.poised)
    (h : fsm_new name w = .ok (g, w1)) : w1.poised := by
  obtain ⟨R, hR, hg, -, -, -, hst, -, -, hfo, hfg⟩ := fsm_new_inv h
  have hnext : ∀ a, state_next w1.states a = state_next w.states a := by
    intro a
    simp only [state_next]
    rw [hst]
    split
    · exact cell_put_map w.states ROOT R _ (fun s => s.next) hR (by rfl) a
    · rfl
  intro p G1 hG1
  simp only [World.fsm?] at hG1
  by_cases hpg : p = g
  · subst hpg
    rw [hfg] at hG1
    obtain rfl := Option.some.inj hG1
    exact Or.inl rfl
  · rw [hfo p hpg] at hG1
    rcases hp p G1 hG1 with h0 | ⟨L, hL, hm⟩
    · exact Or.inl h0
    · exact Or.inr ⟨L, registry_links (fun a _ => hnext a) rfl hL, hm⟩

/-- The registries of two FSMs have no state in common. -/
theorem registry_disjoint {w : World} (ht : w.tidy) {f g : Nat} {F G : fsm} {L Lg : List Nat}
    (hF : cell w.fsms f = some F) (hG : cell w.fsms g = some G) (hne : g ≠ f)
    (hL : w.registry F = .ok L) (hLg : w.registry G = .ok Lg) {a : Nat} (ha : a ∈ Lg) :
    a ∉ L := by
  intro haL
  obtain ⟨-, -, L0, hL0, -, hS⟩ := ht.2 f F hF
  obtain rfl : L0 = L := Except.ok.inj (hL0.symm.trans hL)
  obtain ⟨-, -, L1, hL1, -, hSg⟩ := ht.2 g G hG
  obtain rfl : L1 = Lg := Except.ok.inj (hL1.symm.trans hLg)
  obtain ⟨S, hSa, -, hp, -⟩ := hS a haL
  obtain ⟨T, hTa, -, hpg, -⟩ := hSg a ha
  obtain rfl : S = T := Option.some.inj (hSa.symm.trans hTa)
  exact hne (hpg.symm.trans hp)

theorem poised_state_add {f : Nat} {name : Option String} {id handler : Nat} {w w1 : World}
    {r : Int} (ht : w.tidy) (hp : w.poised)
    (h : fsm_state_add f name id handler w = .ok (r, w1)) : w1.poised := by
  have hF : ∃ F, cell w.fsms f = some F := by
    unfold fsm_state_add at h
    simp only [state_new] at h
    obtain ⟨⟨ret, w2⟩, hreg, -⟩ := bind_eq_ok.mp h
    unfold fsm_state_register at hreg
    obtain ⟨F, hF, -⟩ := bind_eq_ok.mp hreg
    rw [ld_eq_ok] at hF
    exact ⟨F, hF⟩
  obtain ⟨F, hF⟩ := hF
  obtain ⟨hv, hlk, L, hL, hnd, hS⟩ := ht.2 f F hF
  by_cases hdup : ∃ b ∈ L, ∃ t, cell w.states b = some t ∧ t.id = id
  · obtain ⟨b, hb, t, htb, hid⟩ := hdup
    have hrun := (add_duplicate_id f name id handler w F L b t hF hv
      (by rw [ht.1]; simp) hL hb htb hid).1
    rw [hrun] at h
    simp only [Except.ok.injEq, Prod.mk.injEq] at h
    rw [← h.2]
    have hal : w.alike { w with states := w.states ++ [none] } :=
      ⟨rfl, Nat.le_refl _, fun p => by simp only [cell_append_none], fun _ => rfl⟩
    exact poised_same hal rfl hp
  · obtain ⟨w2, hrun, -, -, -, -, hnew, hoth, hlast, hfo, hff, hchain⟩ :=
      add_fresh_id f name id handler w F L hF hv (by rw [ht.1]; simp) hL
        (fun b hb t htb hid => hdup ⟨b, hb, t, htb, hid⟩) (by omega) (by rw [ht.1]; simp)
    rw [hrun] at h
    simp only [Except.ok.injEq, Prod.mk.injEq] at h
    obtain ⟨-, rfl⟩ := h
    intro g G1 hG1
    simp only [World.fsm?] at hG1
    by_cases hg : g = f
    · subst hg
      rw [hff] at hG1
      obtain rfl := Option.some.inj hG1
      by_cases hnil : L = []
      · exact Or.inr ⟨L ++ [w.states.length + 1], hchain, by simp [hnil]⟩
      · simp only [hnil, if_false]
        rcases hp g F hF with h0 | ⟨L0, hL0, hm⟩
        · exact Or.inl h0
        · obtain rfl : L0 = L := Except.ok.inj (hL0.symm.trans hL)
          refine Or.inr ⟨L0 ++ [w.states.length + 1], ?_, List.mem_append_left _ hm⟩
          simp only [hnil, if_false] at hchain
          exact hchain
    · rw [hfo g hg] at hG1
      rcases hp g G1 hG1 with h0 | ⟨Lg, hLg, hm⟩
      · exact Or.inl h0
      · refine Or.inr ⟨Lg, registry_links (fun a ha => ?_) rfl hLg, hm⟩
        have haL := registry_disjoint ht hF hG1 hg hL hLg ha
        obtain ⟨-, -, L1, hL1, -, hSg⟩ := ht.2 g G1 hG1
        obtain rfl : L1 = Lg := Except.ok.inj (hL1.symm.trans hLg)
        obtain ⟨T, hTa, -⟩ := hSg a ha
        have hle := (cell_bound hTa).2
        simp only [state_next]
        rw [hoth a (by omega) (fun e => haL (List.mem_of_mem_getLast? e))]

/-- The deletion of a registered state: what it leaves, in a world with the registries in
order. -/
theorem delete_found {f a : Nat} {w : World} {F : fsm} {pre post : List Nat} (ht : w.tidy)
    (hF : cell w.fsms f = some F) (hL : w.registry F = .ok (pre ++ a :: post)) :
    ∃ w1 S, cell w.states a = some S ∧
      (do let (_, w) ← fsm_state_unregister f a w; state_del a w) = .ok (0, w1) ∧
      w1.held = w.held ∧ w1.queues = w.queues ∧
      cell w1.fsms f = some
        { F with state_list := if pre = [] then S.next else F.state_list,
                 sta_next := if F.sta_next = a then 0 else F.sta_next } ∧
      (∀ g, g ≠ f → cell w1.fsms g = cell w.fsms g) ∧
      cell w1.states a = none ∧
      (∀ b, b ≠ a → pre.getLast? ≠ some b → cell w1.states b = cell w.states b) ∧
      w1.registry { F with state_list := if pre = [] then S.next else F.state_list,
                           sta_next := if F.sta_next = a then 0 else F.sta_next } =
        .ok (pre ++ post) := by
  obtain ⟨hv, hlk, L0, hL0, -, hS⟩ := ht.2 f F hF
  obtain rfl : L0 = pre ++ a :: post := Except.ok.inj (hL0.symm.trans hL)
  obtain ⟨S, hSa, hSm, -, hSl, hne⟩ := hS a (by simp)
  obtain ⟨w1, hrun, hheld, hq, hff, hfo, hna, hoth, -, hchain⟩ :=
    unregister_then_delete f a w F S pre post hF hv (by rw [ht.1]; simp) hL hSa hSm hSl
      (by rw [ht.1]; simp) hne
  exact ⟨w1, S, hSa, hrun, hheld, hq, hff, hfo, hna, hoth, hchain⟩

theorem poised_delete_found {f : Nat} {w w1 : World} {r : Int} {F : fsm} {L : List Nat}
    (st : Nat) (ht : w.tidy) (hp : w.poised) (hF : cell w.fsms f = some F)
    (hL : w.registry F = .ok L) (hst : st = 0 ∨ st ∈ L)
    (h : (if st = 0 then (pure (-1, w) : Except fault (Int × World))
      else do
        let (_, w) ← fsm_state_unregister f st w
        state_del st w) = .ok (r, w1)) : w1.poised := by
  by_cases h0 : st = 0
  · simp only [h0, if_true, pure_eq_ok, Except.ok.injEq, Prod.mk.injEq] at h
    rw [← h.2]
    exact hp
  · rcases hst with hst | hst
    · exact absurd hst h0
    · obtain ⟨pre, post, rfl⟩ := List.append_of_mem hst
      obtain ⟨w2, S, hSa, hrun, -, -, hff, hfo, hna, hoth, hchain⟩ := delete_found ht hF hL
      simp only [h0, if_false] at h
      rw [hrun] at h
      simp only [Except.ok.injEq, Prod.mk.injEq] at h
      obtain ⟨-, rfl⟩ := h
      intro g G1 hG1
      simp only [World.fsm?] at hG1
      by_cases hg : g = f
      · subst hg
        rw [hff] at hG1
        obtain rfl := Option.some.inj hG1
        by_cases hx : F.sta_next = st
        · exact Or.inl (by simp [hx])
        · simp only [hx, if_false]
          rcases hp g F hF with hz | ⟨L0, hL0, hm⟩
          · exact Or.inl hz
          · obtain rfl : L0 = pre ++ st :: post := Except.ok.inj (hL0.symm.trans hL)
            refine Or.inr ⟨pre ++ post, ?_, ?_⟩
            · simp only [hx, if_false] at hchain
              exact hchain
            · rcases List.mem_append.mp hm with hm | hm
              · exact List.mem_append_left _ hm
              · rcases List.mem_cons.mp hm with hm | hm
                · exact absurd hm hx
                · exact List.mem_append_right _ hm
      · rw [hfo g hg] at hG1
        rcases hp g G1 hG1 with hz | ⟨Lg, hLg, hm⟩
        · exact Or.inl hz
        · refine Or.inr ⟨Lg, registry_links (fun b hb => ?_) rfl hLg, hm⟩
          have hbL := registry_disjoint ht hF hG1 hg hL hLg hb
          simp only [state_next]
          rw [hoth b (fun e => hbL (by rw [e]; simp))
            (fun e => hbL (List.mem_append_left _ (List.mem_of_mem_getLast? e)))]

theorem poised_state_del {f id : Nat} {w w1 : World} {r : Int} (ht : w.tidy)
    (hp : w.poised) (h : fsm_state_del f id w = .ok (r, w1)) : w1.poised := by
  have hF : ∃ F, cell w.fsms f = some F := by
    unfold fsm_state_del at h
    obtain ⟨⟨st, w2⟩, hget, -⟩ := bind_eq_ok.mp h
    unfold fsm_get_state at hget
    obtain ⟨F, hF, -⟩ := bind_eq_ok.mp hget
    rw [ld_eq_ok] at hF
    exact ⟨F, hF⟩
  obtain ⟨F, hF⟩ := hF
  obtain ⟨hv, hlk, L, hL, hnd, hS⟩ := ht.2 f F hF
  rw [fsm_state_del, fsm_get_state_eq f id w F L hF hv.1 (by rw [ht.1]; simp) hL] at h
  simp only [ok_bind] at h
  exact poised_delete_found _ ht hp hF hL (first_hit_zero_or_mem _ _ _) h

theorem poised_state_del_by_name {f : Nat} {name : String} {w w1 : World} {r : Int}
    (ht : w.tidy) (hp : w.poised) (h : fsm_state_del_by_name f name w = .ok (r, w1)) :
    w1.poised := by
  have hF : ∃ F, cell w.fsms f = some F := by
    unfold fsm_state_del_by_name at h
    obtain ⟨⟨st, w2⟩, hget, -⟩ := bind_eq_ok.mp h
    unfold fsm_get_state_by_name at hget
    obtain ⟨F, hF, -⟩ := bind_eq_ok.mp hget
    rw [ld_eq_ok] at hF
    exact ⟨F, hF⟩
  obtain ⟨F, hF⟩ := hF
  obtain ⟨hv, hlk, L, hL, hnd, hS⟩ := ht.2 f F hF
  rw [fsm_state_del_by_name,
    fsm_get_state_by_name_eq f name w F L hF hv.1 (by rw [ht.1]; simp) hL] at h
  simp only [ok_bind] at h
  exact poised_delete_found _ ht hp hF hL (first_hit_zero_or_mem _ _ _) h

/-- The steps of `fsm_deinit`: the detachment from the parent state, if there is one, the
walk that deletes the states and the release of the FSM. -/
theorem fsm_deinit_steps {f : Nat} {w w1 : World} {r : Int}
    (h : fsm_deinit f w = .ok (r, w1)) :
    ∃ F wa w3, cell w.fsms f = some F ∧
      (wa = w ∨ ∃ r1, fsm_state_child_fsm_del F.parent_state f w = .ok (r1, wa)) ∧
      deinit_walk f (wa.states.length + 1) F.state_list wa = .ok w3 ∧
      deinit_finish f w3 = .ok (r, w1) := by
  unfold fsm_deinit at h
  obtain ⟨F, hF, h⟩ := bind_eq_ok.mp h
  rw [ld_eq_ok] at hF
  obtain ⟨_, -, h⟩ := bind_eq_ok.mp h
  obtain ⟨_, -, h⟩ := bind_eq_ok.mp h
  obtain ⟨_, -, h⟩ := bind_eq_ok.mp h
  obtain ⟨w2, hw2, h⟩ := bind_eq_ok.mp h
  obtain ⟨-, rfl⟩ := mutex_lock_eq_ok.mp hw2
  simp only [lock_unlock] at h
  by_cases hp : F.parent_state = 0
  · simp only [hp, ne_eq, not_true_eq_false, if_false, pure_eq_ok, ok_bind] at h
    obtain ⟨w3, hw3, h⟩ := bind_eq_ok.mp h
    exact ⟨F, w, w3, hF, Or.inl rfl, hw3, h⟩
  · simp only [hp, ne_eq, not_false_eq_true, if_true] at h
    obtain ⟨wa, hwa, h⟩ := bind_eq_ok.mp h
    obtain ⟨⟨r1, wa1⟩, hdel, hwa⟩ := map_eq_ok.mp hwa
    simp only at hwa
    subst hwa
    obtain ⟨w3, hw3, h⟩ := bind_eq_ok.mp h
    exact ⟨F, wa1, w3, hF, Or.inr ⟨r1, hdel⟩, hw3, h⟩

theorem poised_del {pf : Option Nat} {w w1 : World} {r : Int} {pf1 : Option Nat}
    (ht : w.tidy) (hp : w.poised) (h : fsm_del pf w = .ok (r, pf1, w1)) : w1.poised := by
  unfold fsm_del at h
  cases pf with
  | none =>
    simp only [Except.ok.injEq, Prod.mk.injEq] at h
    rw [← h.2.2]
    exact hp
  | some f =>
    by_cases h0 : f = 0
    · simp only [h0, if_true, Except.ok.injEq, Prod.mk.injEq] at h
      rw [← h.2.2]
      exact hp
    · simp only [h0, if_false] at h
      obtain ⟨⟨r1, w4⟩, hde, h⟩ := bind_eq_ok.mp h
      simp only [pure_eq_ok, Except.ok.injEq, Prod.mk.injEq] at h
      obtain ⟨-, -, rfl⟩ := h
      obtain ⟨F, wa, w3, hF, hstep, hwalk, hfin⟩ := fsm_deinit_steps hde
      have hal : w.alike wa := by
        rcases hstep with rfl | ⟨r1, hdel⟩
        · exact alike_refl _
        · exact child_fsm_del_alike hdel
      have hpa : wa.poised := by
        rcases hstep with rfl | ⟨r1, hdel⟩
        · exact hp
        · exact poised_child_del hp hdel
      have hta := tidy_alike hal ht
      obtain ⟨Fa, hFa, hca⟩ := alike_fsm hal hF
      simp only [fsm.core, Prod.mk.injEq] at hca
      obtain ⟨hv, hlk, L, hL, hnd, hS⟩ := hta.2 f Fa hFa
      have hLl := (registry_iff wa Fa L).mp hL
      obtain ⟨w3a, x, hwalk1, -, -, -, -, -, -, -, ho3, -, hk3⟩ :=
        deinit_walk_ok f L (wa.states.length + 1) wa Fa hFa hv (by rw [hta.1]; simp) hLl
          (by
            intro a ha
            obtain ⟨S, hSa, h1, -, h3, h4⟩ := hS a ha
            exact ⟨S, hSa, h1, h3, by rw [hta.1]; simp, h4⟩)
          (linked_states_length _ _ _ hLl)
      rw [hca.2.2.2.2, hwalk] at hwalk1
      have := Except.ok.inj hwalk1
      subst this
      obtain ⟨-, hs4, -, ho4⟩ := deinit_finish_inv hfin
      intro g G hG
      simp only [World.fsm?, free_fsm] at hG
      by_cases hg : g = f
      · subst hg
        rw [cell_put_none_self] at hG
        cases hG
      · rw [cell_put_ne _ _ (Ne.symm hg), ho4 g hg, ho3 g hg] at hG
        rcases hpa g G hG with hz | ⟨Lg, hLg, hm⟩
        · exact Or.inl hz
        · refine Or.inr ⟨Lg, registry_links (fun b hb => ?_) rfl hLg, hm⟩
          have hbL := registry_disjoint hta hFa hG hg hL hLg hb
          simp only [state_next, free_fsm, hs4]
          rw [hk3 b hbL]

theorem boot_poised : World.boot.poised := by
  intro g G hG
  cases g with
  | zero => simp [World.fsm?, cell] at hG
  | succ k => simp [World.fsm?, cell, World.boot] at hG

/-- Every call of the public API that returns keeps the registries and the pending requests
in order, when the handlers do. -/
theorem orderly_run (hs : handlers) (hst : hs.orderly) (o : op) (w w1 : World) (hw : w.tidy)
    (hp : w.poised) (h : o.run hs w = .ok w1) : w1.tidy ∧ w1.poised := by
  cases o with
  | new name =>
    obtain ⟨⟨g, w2⟩, h1, rfl⟩ := map_eq_ok.mp h
    exact ⟨tidy_new hw h1, poised_new hp h1⟩
  | del f =>
    obtain ⟨⟨r, pf, w2⟩, h1, rfl⟩ := map_eq_ok.mp h
    exact ⟨tidy_del hw h1, poised_del hw hp h1⟩
  | state_add f name id handler =>
    obtain ⟨⟨r, w2⟩, h1, rfl⟩ := map_eq_ok.mp h
    exact ⟨tidy_state_add hw h1, poised_state_add hw hp h1⟩
  | state_del f id =>
    obtain ⟨⟨r, w2⟩, h1, rfl⟩ := map_eq_ok.mp h
    exact ⟨tidy_state_del hw h1, poised_state_del hw hp h1⟩
  | state_del_by_name f name =>
    obtain ⟨⟨r, w2⟩, h1, rfl⟩ := map_eq_ok.mp h
    exact ⟨tidy_state_del_by_name hw h1, poised_state_del_by_name hw hp h1⟩
  | switch f q =>
    obtain ⟨⟨r, w2⟩, h1, rfl⟩ := map_eq_ok.mp h
    exact ⟨tidy_alike (request_run_alike h1) hw, poised_request hw hp h1⟩
  | poll n f =>
    obtain ⟨r, h1, rfl⟩ := map_eq_ok.mp h
    exact orderly_poll hs hst n f w r hw hp h1
  | child_fsm_add st f =>
    obtain ⟨⟨r, w2⟩, h1, rfl⟩ := map_eq_ok.mp h
    exact ⟨tidy_alike (child_fsm_add_alike h1) hw, poised_child_add hp h1⟩
  | child_fsm_del st f =>
    obtain ⟨⟨r, w2⟩, h1, rfl⟩ := map_eq_ok.mp h
    exact ⟨tidy_alike (child_fsm_del_alike h1) hw, poised_child_del hp h1⟩
  | change_default_poll_interval f v =>
    obtain ⟨⟨r, w2⟩, h1, rfl⟩ := map_eq_ok.mp h
    exact ⟨tidy_alike (change_default_alike h1) hw, poised_change_default hp h1⟩
  | change_state_poll_interval st v =>
    obtain ⟨⟨r, w2⟩, h1, rfl⟩ := map_eq_ok.mp h
    exact ⟨tidy_alike (change_state_alike h1) hw, poised_change_state hp h1⟩
  | event_send f type data datalen =>
    obtain ⟨⟨r, w2⟩, h1, rfl⟩ := map_eq_ok.mp h
    exact ⟨tidy_alike (event_send_alike h1) hw, poised_event_send hp h1⟩
  | event_clear f =>
    obtain ⟨⟨r, w2⟩, h1, rfl⟩ := map_eq_ok.mp h
    exact ⟨tidy_alike (event_clear_alike h1) hw, poised_event_clear hp h1⟩
  | tick ms =>
    simp only [op.run, Except.ok.injEq] at h
    rw [← h]
    exact ⟨tidy_alike (alike_of_eq rfl (Nat.le_refl _) rfl rfl) hw,
      poised_same (alike_of_eq rfl (Nat.le_refl _) rfl rfl) rfl hp⟩

theorem orderly_runs (hs : handlers) (hst : hs.orderly) :
    ∀ (ops : List op) (w w1 : World), w.tidy → w.poised → op.runs hs ops w = .ok w1 →
      w1.tidy ∧ w1.poised := by
  intro ops
  induction ops with
  | nil =>
    intro w w1 hw hp h
    simp only [op.runs, Except.ok.injEq] at h
    rw [← h]
    exact ⟨hw, hp⟩
  | cons o rest ih =>
    intro w w1 hw hp h
    simp only [op.runs] at h
    obtain ⟨w2, h1, h2⟩ := bind_eq_ok.mp h
    obtain ⟨hw2, hp2⟩ := orderly_run hs hst o w w2 hw hp h1
    exact ih w2 w1 hw2 hp2 h2

/-- In every reachable world the registries and the pending requests are in order, when the
handlers keep them so. -/
theorem reachable_orderly (hs : handlers) (hst : hs.orderly) (w : World)
    (h : w.reachable hs) : w.tidy ∧ w.poised := by
  obtain ⟨ops, hops⟩ := h
  exact orderly_runs hs hst ops World.boot w boot_tidy boot_poised hops

theorem hs_idle_orderly : hs_idle.orderly := fun _ _ _ hw hp => ⟨hw, hp⟩

/-- In a world with the registries in order, `fsm_state_del` with the id of a registered
state deletes that state. -/
theorem fsm_state_del_found {f a : Nat} {w : World} {F : fsm} {pre post : List Nat}
    (ht : w.tidy) (hF : cell w.fsms f = some F)
    (hL : w.registry F = .ok (pre ++ a :: post)) :
    ∃ w1 S, cell w.states a = some S ∧ fsm_state_del f S.id w = .ok (0, w1) ∧
      w1.held = w.held ∧ w1.queues = w.queues ∧
      cell w1.fsms f = some
        { F with state_list := if pre = [] then S.next else F.state_list,
                 sta_next := if F.sta_next = a then 0 else F.sta_next } ∧
      (∀ g, g ≠ f → cell w1.fsms g = cell w.fsms g) ∧
      cell w1.states a = none ∧
      (∀ b, b ≠ a → pre.getLast? ≠ some b → cell w1.states b = cell w.states b) ∧
      w1.registry { F with state_list := if pre = [] then S.next else F.state_list,
                           sta_next := if F.sta_next = a then 0 else F.sta_next } =
        .ok (pre ++ post) := by
  obtain ⟨w1, S, hSa, hrun, hheld, hq, hff, hfo, hna, hoth, hchain⟩ := delete_found ht hF hL
  obtain ⟨hv, -, L0, hL0, hnd, -⟩ := ht.2 f F hF
  obtain rfl : L0 = pre ++ a :: post := Except.ok.inj (hL0.symm.trans hL)
  have hnodup := linked_nodup _ _ _ ((registry_iff w F _).mp hL)
  have hdist := ids_distinct w _ hnd hnodup
  have hapre : a ∉ pre := fun hm =>
    (List.nodup_append.mp hnodup).2.2 hm (List.mem_cons_self _ _)
  have ha0 : a ≠ 0 := (cell_bound hSa).1
  refine ⟨w1, S, hSa, ?_, hheld, hq, hff, hfo, hna, hoth, hchain⟩
  rw [fsm_state_del, fsm_get_state_eq f S.id w F _ hF hv.1 (by rw [ht.1]; simp) hL,
    first_hit_decomp w.states _ pre post a S hSa (by simp)
      (fun b hb t htb => by
        simp only [decide_eq_false_iff_not]
        exact hdist b a t S (List.mem_append_left _ hb) (by simp)
          (fun e => hapre (e ▸ hb)) htb hSa)]
  simp only [ok_bind, ha0, if_false]
  exact hrun

theorem w_case_reachable (hs : handlers) : w_case.reachable hs :=
  ⟨[.new (some "Test FSM"), .new (some "Test child FSM"),
    .state_add 1 (some STATE_1_NAME) STATE_1_ID 0, .state_add 1 (some STATE_2_NAME) STATE_2_ID 0,
    .state_add 1 (some STATE_3_NAME) STATE_3_ID 0, .state_del 1 STATE_1_ID,
    .state_del 1 STATE_2_ID, .state_del 1 STATE_3_ID,
    .change_default_poll_interval 1 10, .change_default_poll_interval 2 FSM_NO_POLL,
    .state_add 1 (some STATE_1_NAME) STATE_1_ID 1, .state_add 1 (some STATE_2_NAME) STATE_2_ID 2,
    .state_add 2 (some STATE_3_NAME) STATE_3_ID 3, .state_add 1 (some STATE_2_NAME) STATE_2_ID 2,
    .state_add 2 (some STATE_3_NAME) STATE_3_ID 3, .change_state_poll_interval 6 100],
   by rfl⟩

/-! ## The pending slot -/

/-- C34 (Pending target is always registered): in every world reachable from the world before
any call by calls of the public API (each call having returned, with handlers that keep the
registries and the pending slots in order), the pending slot `sta_next` of every FSM is empty
or holds a state of the FSM's registry; in particular it is empty while the registry is empty,
so that the first registration, which writes the slot, overwrites no request.  Deleting the
state in the slot returns 0 and empties the slot, the previous and the current state staying
as they are, and a following `fsm_poll` finds no transition to apply: no exit and no enter
handler is chosen and the record of the FSM stays as it is. -/
theorem C34_pending_registered (hs : handlers) (hst : hs.orderly) (w : World)
    (hw : w.reachable hs) (f : Nat) (F : fsm) (hF : w.fsm? f = some F) :
    ∃ L, w.registry F = .ok L ∧ (F.sta_next = 0 ∨ F.sta_next ∈ L) ∧
      (L = [] → F.sta_next = 0) ∧
      ∀ S, F.sta_next ≠ 0 → w.state? F.sta_next = some S →
        ∃ w1 F1, fsm_state_del f S.id w = .ok (0, w1) ∧ w1.fsm? f = some F1 ∧
          F1.sta_next = 0 ∧ F1.sta_prev = F.sta_prev ∧ F1.sta_curr = F.sta_curr ∧
          F1.stepped = F1 ∧
          ∀ l t w2, poll_locked f w1 = .ok (l, t, w2) →
            l.exit = 0 ∧ l.enter = 0 ∧ w2.fsm? f = some F1 := by
  obtain ⟨ht, hp⟩ := reachable_orderly hs hst w hw
  obtain ⟨-, -, L, hL, -, -⟩ := ht.2 f F hF
  have hin : F.sta_next = 0 ∨ F.sta_next ∈ L := by
    rcases hp f F hF with h0 | ⟨L1, hL1, hm⟩
    · exact Or.inl h0
    · obtain rfl : L1 = L := Except.ok.inj (hL1.symm.trans hL)
      exact Or.inr hm
  refine ⟨L, hL, hin, ?_, ?_⟩
  · rintro rfl
    rcases hin with h0 | hm
    · exact h0
    · exact absurd hm (List.not_mem_nil _)
  · intro S hne hS
    rcases hin with h0 | hm
    · exact absurd h0 hne
    · obtain ⟨pre, post, rfl⟩ := List.append_of_mem hm
      obtain ⟨w1, S1, hS1, hrun, -, -, hff, -⟩ := fsm_state_del_found ht hF hL
      obtain rfl : S1 = S := Option.some.inj (hS1.symm.trans hS)
      rw [if_pos (rfl : F.sta_next = F.sta_next)] at hff
      have hstep : ∀ G : fsm, G.sta_next = 0 → G.stepped = G := fun G hG => by
        simp only [fsm.stepped, hG, ne_eq, not_true_eq_false, if_false]
      refine ⟨w1, _, hrun, hff, rfl, rfl, rfl, hstep _ rfl, ?_⟩
      intro l t w2 hpl
      obtain ⟨F', C, hF', -, -, -, hno, -, -, -, -, -, hfs, -⟩ := poll_locked_inv hpl
      have hFe := Option.some.inj (hF'.symm.trans hff)
      subst hFe
      refine ⟨(hno rfl).1, (hno rfl).2, ?_⟩
      simp only [World.fsm?]
      rw [hfs, cell_put_same _ hff]
      exact congrArg some (hstep _ rfl)

theorem C34_pending_registered_witness :
    w_case.reachable hs_idle ∧
    ∃ L, w_case.registry
        { magic_number := 4112441695, lock := 2, name := "Test FSM", poll_interval := 10,
          event_queue := 1, parent_state := 0, state_list := 5, sta_prev := 1, sta_curr := 1,
          sta_next := 5, next := 0, os := 1 } = .ok L ∧
      ((5 : Nat) = 0 ∨ 5 ∈ L) ∧ (L = [] → (5 : Nat) = 0) ∧
      ∀ S, (5 : Nat) ≠ 0 → w_case.state? 5 = some S →
        ∃ w1 F1, fsm_state_del 1 S.id w_case = .ok (0, w1) ∧ w1.fsm? 1 = some F1 ∧
          F1.sta_next = 0 ∧ F1.sta_prev = 1 ∧ F1.sta_curr = 1 ∧ F1.stepped = F1 ∧
          ∀ l t w2, poll_locked 1 w1 = .ok (l, t, w2) →
            l.exit = 0 ∧ l.enter = 0 ∧ w2.fsm? 1 = some F1 :=
  ⟨w_case_reachable hs_idle,
    C34_pending_registered hs_idle hs_idle_orderly w_case (w_case_reachable hs_idle) 1 _ rfl⟩

/-! ## Adding a state and deleting it again -/

/-- C35 (Add then delete is the identity): in every world reachable by calls of the public
API (each call having returned, with handlers that keep the registries and the pending slots
in order), for every FSM and every id that no state of its registry has,
`fsm_state_add(fsm, name, id, handler)` followed by `fsm_state_del(fsm, id)` returns 0 twice
and leaves the record of the FSM (with it the pending slot, the previous and the current
state) and its registry, members and order, as they were before the add.  With the registry
empty the add makes the new state the pending target and the one member of the registry, and
the delete clears the slot again, which was empty before. -/
theorem C35_add_then_delete (hs : handlers) (hst : hs.orderly) (w : World)
    (hw : w.reachable hs) (f : Nat) (F : fsm) (L : List Nat) (name : Option String)
    (id handler : Nat) (hF : w.fsm? f = some F) (hL : w.registry F = .ok L)
    (hno : ∀ b ∈ L, ∀ t, w.state? b = some t → t.id ≠ id) :
    ∃ w1 w2, fsm_state_add f name id handler w = .ok (0, w1) ∧
      fsm_state_del f id w1 = .ok (0, w2) ∧
      w2.fsm? f = some F ∧ w2.registry F = .ok L ∧
      (L = [] → F.sta_next = 0 ∧ ∃ F1, w1.fsm? f = some F1 ∧
        F1.sta_next = w.states.length + 1 ∧ w1.registry F1 = .ok [w.states.length + 1]) := by
  obtain ⟨ht, hp⟩ := reachable_orderly hs hst w hw
  obtain ⟨hv, hlk, L0, hL0, -, hall⟩ := ht.2 f F hF
  have hLe : L0 = L := Except.ok.inj (hL0.symm.trans hL)
  subst L0
  have hheld : ∀ m, m ∉ w.held := fun m hm => by rw [ht.1] at hm; exact absurd hm (by simp)
  obtain ⟨w1, hadd, -, -, -, hlen, hnew, -, -, -, hF1, hL1⟩ :=
    add_fresh_id f name id handler w F L hF hv (hheld _) hL hno (by omega) (hheld _)
  obtain ⟨w1', hadd', ht1⟩ := tidy_add_fresh f name id handler w F L ht hF hL hno
  have hw1 : w1' = w1 := congrArg (fun x => x.2) (Except.ok.inj (hadd'.symm.trans hadd))
  subst hw1
  have hL1' : w1'.registry
      { F with state_list := if L = [] then w.states.length + 1 else F.state_list,
               sta_next := if L = [] then w.states.length + 1 else F.sta_next } =
      .ok (L ++ (w.states.length + 1) :: []) := hL1
  obtain ⟨w2, S, hS, hdel, -, -, hF2, -, -, -, hL2⟩ := fsm_state_del_found ht1 hF1 hL1'
  have hSe := Option.some.inj (hS.symm.trans hnew)
  subst hSe
  have hnext : F.sta_next = 0 ∨ F.sta_next ∈ L := by
    rcases hp f F hF with h0 | ⟨L1, hL1, hm⟩
    · exact Or.inl h0
    · have hLe : L1 = L := Except.ok.inj (hL1.symm.trans hL)
      subst L1
      exact Or.inr hm
  have hfresh : ∀ a ∈ L, a ≠ w.states.length + 1 := fun a ha e => by
    obtain ⟨S, hS, -⟩ := hall a ha
    have := (cell_bound hS).2
    omega
  rw [List.append_nil] at hL2
  by_cases hnil : L = []
  · subst hnil
    have h0 : F.sta_next = 0 := by
      rcases hnext with h0 | hm
      · exact h0
      · exact absurd hm (List.not_mem_nil _)
    have hs0 : F.state_list = 0 := (registry_iff w F []).mp hL
    simp only [if_true] at hF1 hF2 hL2 hL1
    have hFe : ({ F with state_list := 0, sta_next := 0 } : fsm) = F := by
      cases F
      simp only at h0 hs0
      subst h0 hs0
      rfl
    refine ⟨w1', w2, hadd, hdel, ?_, ?_, fun _ => ⟨h0, _, hF1, rfl, hL1⟩⟩
    · rw [World.fsm?, hF2]
      exact congrArg some hFe
    · rw [← hFe]
      exact hL2
  · have hne : F.sta_next ≠ w.states.length + 1 := by
      rcases hnext with h0 | hm
      · omega
      · exact hfresh _ hm
    simp only [hnil, if_false, hne] at hF1 hF2 hL2
    refine ⟨w1', w2, hadd, hdel, hF2, hL2, fun h => absurd h hnil⟩

theorem C35_add_then_delete_witness :
    w_case.reachable hs_idle ∧
    ∃ w1 w2, fsm_state_add 1 (some "Another state") 9 4 w_case = .ok (0, w1) ∧
      fsm_state_del 1 9 w1 = .ok (0, w2) ∧
      w2.fsm? 1 = some
        { magic_number := 4112441695, lock := 2, name := "Test FSM", poll_interval := 10,
          event_queue := 1, parent_state := 0, state_list := 5, sta_prev := 1, sta_curr := 1,
          sta_next := 5, next := 0, os := 1 } ∧
      w2.registry
        { magic_number := 4112441695, lock := 2, name := "Test FSM", poll_interval := 10,
          event_queue := 1, parent_state := 0, state_list := 5, sta_prev := 1, sta_curr := 1,
          sta_next := 5, next := 0, os := 1 } = .ok [5, 6] ∧
      (([5, 6] : List Nat) = [] → (5 : Nat) = 0 ∧ ∃ F1, w1.fsm? 1 = some F1 ∧
        F1.sta_next = w_case.states.length + 1 ∧
        w1.registry F1 = .ok [w_case.states.length + 1]) :=
  ⟨w_case_reachable hs_idle,
    C35_add_then_delete hs_idle hs_idle_orderly w_case (w_case_reachable hs_idle) 1 _ [5, 6]
      (some "Another state") 9 4 rfl (by rfl) (by decide)⟩

/-! ## An event handed down the composition tree -/

theorem all_calls_append (a b : List (Nat × action)) :
    all_calls (a ++ b) = all_calls a ++ all_calls b := by
  simp only [all_calls, List.map_append, calls_append]

theorem all_calls_here (t : List action) : all_calls (here t) = calls t := by
  simp only [all_calls, here, List.map_map]
  exact congrArg calls (List.map_id _)

theorem all_calls_deeper (t : List (Nat × action)) : all_calls (deeper t) = all_calls t := by
  simp only [all_calls, deeper, List.map_map]
  rfl

theorem all_calls_cons_poll (d c : Nat) (t : List (Nat × action)) :
    all_calls ((d, action.poll c) :: t) = all_calls t := rfl

theorem handed_down_append (H : Nat → Nat) (e : event) (a b : List Nat) :
    handed_down H e (a ++ b) = handed_down H e a ++ handed_down H e b := by
  simp only [handed_down, List.flatMap_append]

theorem handed_down_cons (H : Nat → Nat) (e : event) (g : Nat) (T : List Nat) :
    handed_down H e (g :: T) = (if H g = 0 then [] else [(H g, e)]) ++ handed_down H e T := by
  simp only [handed_down, List.flatMap_cons]

theorem children_same {w w1 : World} (hf : w1.fsms = w.fsms) (hs : w1.states = w.states) :
    w1.children = w.children := by
  funext g
  simp only [World.children, World.fsm?, World.state?, World.ffuel, hf, hs]

theorem handler_of_same {w w1 : World} (hf : w1.fsms = w.fsms) (hs : w1.states = w.states) :
    w1.handler_of = w.handler_of := by
  funext g
  simp only [World.handler_of, World.fsm?, World.state?, hf, hs]

theorem handler_of_eq {w : World} {g : Nat} {G : fsm} {C : state}
    (hG : cell w.fsms g = some G) (hC : cell w.states G.stepped.sta_curr = some C) :
    w.handler_of g = C.handler := by
  simp only [World.handler_of, World.fsm?, World.state?, hG, hC]

theorem handler_of_states {w w1 : World} (hf : w1.fsms = w.fsms)
    (hst : ∀ p, (cell w1.states p).map (fun s => s.handler) =
      (cell w.states p).map (fun s => s.handler)) :
    w1.handler_of = w.handler_of := by
  funext g
  simp only [World.handler_of, World.fsm?, World.state?, hf]
  cases cell w.fsms g with
  | none => rfl
  | some G =>
    have h := hst G.stepped.sta_curr
    simp only
    cases h1 : cell w1.states G.stepped.sta_curr with
    | none =>
      cases h2 : cell w.states G.stepped.sta_curr with
      | none => rfl
      | some C => rw [h1, h2] at h; exact absurd h (by simp)
    | some C1 =>
      cases h2 : cell w.states G.stepped.sta_curr with
      | none => rw [h1, h2] at h; exact absurd h (by simp)
      | some C =>
        rw [h1, h2] at h
        exact Option.some.inj h

theorem stepped_settled (G : fsm) (h : G.sta_next = 0) : G.stepped = G := by
  simp only [fsm.stepped, h, ne_eq, not_true_eq_false, if_false]

/-- The part of `fsm_poll` under the lock when no transition is pending. -/
theorem poll_locked_settled {g : Nat} {w w1 : World} {l : poll_locals} {t : List action}
    (h : poll_locked g w = .ok (l, t, w1))
    (hp : ∀ G, cell w.fsms g = some G → G.sta_next = 0) :
    ∃ F, cell w.fsms g = some F ∧ w1.fsms = w.fsms ∧ w1.children = w.children ∧
      w1.handler_of = w.handler_of ∧ l.exit = 0 ∧ l.enter = 0 ∧
      l.event_queue = F.event_queue ∧ l.handler = w.handler_of g ∧
      l.child_fsm_buf = w.children g ∧ calls t = [] ∧
      (w1.queues = w.queues ∨
        ∃ Q, cell w.queues F.event_queue = some Q ∧
          w1.queues = put w.queues F.event_queue
            (some { Q with items := Q.items ++ [poll_event (uptime_ms w)] })) := by
  have hch := poll_locked_children h
  have hsnap := (poll_locked_snapshot h).1
  have hst := poll_locked_states (fun s => s.handler) (fun _ _ _ => rfl) h
  obtain ⟨F, C, hF, -, -, hC, hno, -, -, hh, hq, -, hfs, -, -, -, -, h1, h2, h3⟩ :=
    poll_locked_inv h
  have h0 := hp F hF
  have hfs1 : w1.fsms = w.fsms := by
    rw [hfs, stepped_settled F h0]
    exact put_cell_self hF
  refine ⟨F, hF, hfs1, hch, handler_of_states hfs1 hst, (hno h0).1, (hno h0).2, hq, ?_,
    hsnap.symm, ?_, ?_⟩
  · rw [hh, handler_of_eq hF hC]
  · by_cases hn : C.poll_interval = FSM_NO_POLL
    · rw [(h1 hn).1]
      rfl
    · by_cases hlt : sub32 (uptime_ms w) C.ts_poll < C.poll_interval
      · rw [(h2 hn hlt).1]
        rfl
      · obtain ⟨Q, -, ht, -⟩ := h3 hn (Nat.le_of_not_lt hlt)
        rw [ht]
        rfl
  · by_cases hn : C.poll_interval = FSM_NO_POLL
    · exact Or.inl (h1 hn).2.1
    · by_cases hlt : sub32 (uptime_ms w) C.ts_poll < C.poll_interval
      · exact Or.inl (h2 hn hlt).2.1
      · obtain ⟨Q, hQ, -, hqs, -⟩ := h3 hn (Nat.le_of_not_lt hlt)
        by_cases hroom : Q.items.length < Q.length
        · rw [if_pos hroom] at hqs
          exact Or.inr ⟨Q, hQ, hqs⟩
        · rw [if_neg hroom] at hqs
          exact Or.inl hqs

/-- The dispatch of `fsm_poll` with handlers that leave the event and the world as they
are. -/
theorem poll_dispatch_passive {hs : handlers} {l : poll_locals} {w w1 : World}
    {o : Option event} {t : List action} (hro : hs.readonly)
    (hkf : hs.keep (fun w => w.fsms)) (hks : hs.keep (fun w => w.states))
    (hkq : hs.keep (fun w => w.queues)) (h : poll_dispatch hs l w = .ok (o, t, w1)) :
    ∃ Q, cell w.queues l.event_queue = some Q ∧ w1.fsms = w.fsms ∧ w1.states = w.states ∧
      o = Q.items.head? ∧
      calls t = (match Q.items.head? with
        | some e => if l.handler = 0 then [] else [(l.handler, e)]
        | none => []) ∧
      w1.queues = put w.queues l.event_queue (some { Q with items := Q.items.tail }) := by
  have hkf1 : ∀ h e w, (hs h e w).2.fsms = w.fsms := hkf
  have hks1 : ∀ h e w, (hs h e w).2.states = w.states := hks
  have hkq1 : ∀ h e w, (hs h e w).2.queues = w.queues := hkq
  obtain ⟨Q, hQ, hnil, hcons⟩ := poll_dispatch_inv h
  refine ⟨Q, hQ, ?_⟩
  cases hi : Q.items with
  | nil =>
    obtain ⟨ho, ht, hw⟩ := hnil hi
    subst hw
    refine ⟨rfl, rfl, ho, by rw [ht]; rfl, ?_⟩
    have hQe : ({ Q with items := ([] : List event).tail } : queue) = Q := by
      cases Q with
      | mk len items =>
        simp only at hi
        subst hi
        rfl
    rw [hQe]
    exact (put_cell_self hQ).symm
  | cons e rest =>
    obtain ⟨h0, h1⟩ := hcons e rest hi
    by_cases hh : l.handler = 0
    · obtain ⟨ho, ht, hw⟩ := h0 hh
      subst hw
      exact ⟨rfl, rfl, ho, by rw [ht]; simp [hh], rfl⟩
    · obtain ⟨ho, ht, hw⟩ := h1 hh
      subst hw
      refine ⟨by rw [hkf1], by rw [hks1], by rw [ho, hro]; rfl, by rw [ht]; simp [hh], ?_⟩
      rw [hkq1]
      rfl

theorem put_all {α : Type} (P : α → Prop) {h : List (Option α)} {p : Nat} {v0 : α} (v : α)
    (hp : cell h p = some v0) (hv : P v) (hall : ∀ q x, cell h q = some x → P x) :
    ∀ q x, cell (put h p (some v)) q = some x → P x := by
  intro q x hx
  by_cases hq : p = q
  · subst hq
    rw [cell_put_same _ hp] at hx
    exact Option.some.inj hx ▸ hv
  · rw [cell_put_ne _ _ hq] at hx
    exact hall q x hx

/-- The child loop of a poll in which no event or a polling event was received: nothing is
passed on, and the polls of the child FSMs hand polling events only to the handlers. -/
theorem poll_children_calm (hs : handlers) (m : Nat)
    (ih : ∀ (g : Nat) (w : World) (r : poll_result),
      (∀ g G, cell w.fsms g = some G → G.sta_next = 0) →
      (∀ q Q, cell w.queues q = some Q → ∀ y ∈ Q.items, y.type = FSM_EVT_POLL) →
      fsm_poll hs m g w = .ok r →
      (∀ c ∈ all_calls r.trace, c.2.type = FSM_EVT_POLL) ∧ r.world.fsms = w.fsms ∧
      (∀ q Q, cell r.world.queues q = some Q → ∀ y ∈ Q.items, y.type = FSM_EVT_POLL))
    (o : Option event) (ho : ∀ e, o = some e → e.type = FSM_EVT_POLL) :
    ∀ (buf : List Nat) (w : World) (t : List (Nat × action)) (w1 : World),
      (∀ g G, cell w.fsms g = some G → G.sta_next = 0) →
      (∀ q Q, cell w.queues q = some Q → ∀ y ∈ Q.items, y.type = FSM_EVT_POLL) →
      poll_children (fsm_poll hs m) o buf w = .ok (t, w1) →
      (∀ c ∈ all_calls t, c.2.type = FSM_EVT_POLL) ∧ w1.fsms = w.fsms ∧
      (∀ q Q, cell w1.queues q = some Q → ∀ y ∈ Q.items, y.type = FSM_EVT_POLL) := by
  intro buf
  induction buf with
  | nil =>
    intro w t w1 hp hq h
    simp only [poll_children, Except.ok.injEq, Prod.mk.injEq] at h
    obtain ⟨rfl, rfl⟩ := h
    exact ⟨fun c hc => absurd hc (by simp [all_calls]), rfl, hq⟩
  | cons c rest ihl =>
    intro w t w1 hp hq h
    obtain ⟨t1, w2, r, t2, hfw, hpoll, hrest, rfl⟩ := poll_children_cons_inv h
    obtain ⟨C, -, -, -, -, -, -, -, -, -, hnone, hpe, -⟩ := poll_forward_inv hfw
    have hsame : t1 = [] ∧ w2 = w := by
      cases o with
      | none => exact hnone rfl
      | some e => exact hpe e rfl (ho e rfl)
    obtain ⟨rfl, rfl⟩ := hsame
    obtain ⟨hc1, hf1, hq1⟩ := ih c w2 r hp hq hpoll
    obtain ⟨hc2, hf2, hq2⟩ := ihl r.world t2 w1 (by rw [hf1]; exact hp) hq1 hrest
    refine ⟨?_, hf2.trans hf1, hq2⟩
    intro x hx
    simp only [all_calls_append, all_calls_here, calls_nil, List.nil_append,
      all_calls_cons_poll, all_calls_deeper] at hx
    rcases List.mem_append.mp hx with hx | hx
    · exact hc1 x hx
    · exact hc2 x hx

/-- A poll in a world in which no transition is pending and the queues hold polling events
only hands polling events only to the handlers, and leaves such a world. -/
theorem fsm_poll_calm (hs : handlers) (hro : hs.readonly)
    (hkf : hs.keep (fun w => w.fsms)) (hks : hs.keep (fun w => w.states))
    (hkq : hs.keep (fun w => w.queues)) :
    ∀ (n g : Nat) (w : World) (r : poll_result),
      (∀ g G, cell w.fsms g = some G → G.sta_next = 0) →
      (∀ q Q, cell w.queues q = some Q → ∀ y ∈ Q.items, y.type = FSM_EVT_POLL) →
      fsm_poll hs n g w = .ok r →
      (∀ c ∈ all_calls r.trace, c.2.type = FSM_EVT_POLL) ∧ r.world.fsms = w.fsms ∧
      (∀ q Q, cell r.world.queues q = some Q → ∀ y ∈ Q.items, y.type = FSM_EVT_POLL) := by
  intro n
  induction n with
  | zero =>
    intro g w r _ _ h
    obtain ⟨m, -, -, -, -, -, -, -, -, -, -, -, hn, -⟩ := fsm_poll_inv h
    omega
  | succ n ih =>
    intro g w r hp hq h
    obtain ⟨m, l, t0, w1, t1, w2, t2, w3, o, t3, w4, t4, hn, h0, h1, h2, h3, h4, -, htr⟩ :=
      fsm_poll_inv h
    have hm : m = n := by omega
    subst hm
    obtain ⟨F, hF, hf1, -, -, hex, hen, -, -, -, hc0, hqs⟩ :=
      poll_locked_settled h0 (fun G hG => hp g G hG)
    obtain ⟨ht1, hw2⟩ := (poll_exit_inv h1).1 hex
    subst hw2
    obtain ⟨ht2, hw3⟩ := (poll_enter_inv h2).1 hen
    subst hw3
    have hq1 : ∀ q Q, cell w3.queues q = some Q → ∀ y ∈ Q.items, y.type = FSM_EVT_POLL := by
      rcases hqs with hqs | ⟨Q, hQ, hqs⟩
      · rw [hqs]
        exact hq
      · rw [hqs]
        refine put_all (fun Q : queue => ∀ y ∈ Q.items, y.type = FSM_EVT_POLL) _ hQ ?_ hq
        intro y hy
        rcases List.mem_append.mp hy with hy | hy
        · exact hq _ Q hQ y hy
        · rw [List.mem_singleton.mp hy]
          rfl
    obtain ⟨Q, hQ, hf4, -, ho, hc3, hq4⟩ := poll_dispatch_passive hro hkf hks hkq h3
    have hQp := hq1 _ Q hQ
    have hq4a : ∀ q Q, cell w4.queues q = some Q → ∀ y ∈ Q.items, y.type = FSM_EVT_POLL := by
      rw [hq4]
      refine put_all (fun Q : queue => ∀ y ∈ Q.items, y.type = FSM_EVT_POLL) _ hQ ?_ hq1
      intro y hy
      exact hQp y (List.mem_of_mem_tail hy)
    have hoe : ∀ e, o = some e → e.type = FSM_EVT_POLL := by
      intro e he
      rw [ho] at he
      exact hQp e (List.mem_of_mem_head? he)
    have hp4 : ∀ g G, cell w4.fsms g = some G → G.sta_next = 0 := by
      rw [hf4, hf1]
      exact hp
    obtain ⟨hc4, hf5, hq5⟩ := poll_children_calm hs m ih o hoe l.child_fsm_buf w4 t4 r.world
      hp4 hq4a h4
    refine ⟨?_, by rw [hf5, hf4, hf1], hq5⟩
    intro x hx
    rw [htr, all_calls_append, all_calls_here, ht1, ht2, List.append_nil, List.append_nil,
      calls_append, hc0, List.nil_append, hc3] at hx
    rcases List.mem_append.mp hx with hx | hx
    · cases hh : Q.items.head? with
      | none => rw [hh] at hx; exact absurd hx (by simp)
      | some e =>
        rw [hh] at hx
        by_cases hl : l.handler = 0
        · simp [hl] at hx
        · simp only [hl, if_false, List.mem_singleton] at hx
          rw [hx]
          exact hQp e (List.mem_of_mem_head? hh)
    · exact hc4 x hx

/-- The child loop of a poll that received the event `e`, not a polling event, in a
composition in which no transition is pending, the FSMs below have queues of their own,
empty and with room: `e` is handed to each of them once. -/
theorem poll_children_handed (hs : handlers) (w0 : World) (e : event)
    (he : e.type ≠ FSM_EVT_POLL) (m : Nat)
    (ih : ∀ (g : Nat) (w : World) (r : poll_result),
      w.fsms = w0.fsms → w.children = w0.children → w.handler_of = w0.handler_of →
      (∃ Q, cell w.queues (w0.queue_of g) = some Q ∧ Q.items = [e]) →
      (∀ x ∈ (poll_tree w0.children m g).tail, ∀ Q,
        cell w.queues (w0.queue_of x) = some Q → Q.items = [] ∧ 0 < Q.length) →
      ((poll_tree w0.children m g).map w0.queue_of).Nodup →
      fsm_poll hs m g w = .ok r →
      all_calls r.trace = handed_down w0.handler_of e (poll_tree w0.children m g) ∧
      r.world.fsms = w0.fsms ∧ r.world.children = w0.children ∧
      r.world.handler_of = w0.handler_of ∧
      (∀ q, q ∉ (poll_tree w0.children m g).map w0.queue_of →
        cell r.world.queues q = cell w.queues q) ∧
      (∀ x ∈ poll_tree w0.children m g, ∀ Q,
        cell r.world.queues (w0.queue_of x) = some Q → ∀ y ∈ Q.items, y.type = FSM_EVT_POLL)) :
    ∀ (buf : List Nat) (w : World) (t : List (Nat × action)) (w1 : World),
      w.fsms = w0.fsms → w.children = w0.children → w.handler_of = w0.handler_of →
      (∀ x ∈ buf.flatMap (poll_tree w0.children m), ∀ Q,
        cell w.queues (w0.queue_of x) = some Q → Q.items = [] ∧ 0 < Q.length) →
      ((buf.flatMap (poll_tree w0.children m)).map w0.queue_of).Nodup →
      poll_children (fsm_poll hs m) (some e) buf w = .ok (t, w1) →
      all_calls t = handed_down w0.handler_of e (buf.flatMap (poll_tree w0.children m)) ∧
      w1.fsms = w0.fsms ∧ w1.children = w0.children ∧ w1.handler_of = w0.handler_of ∧
      (∀ q, q ∉ (buf.flatMap (poll_tree w0.children m)).map w0.queue_of →
        cell w1.queues q = cell w.queues q) ∧
      (∀ x ∈ buf.flatMap (poll_tree w0.children m), ∀ Q,
        cell w1.queues (w0.queue_of x) = some Q → ∀ y ∈ Q.items, y.type = FSM_EVT_POLL) := by
  intro buf
  induction buf with
  | nil =>
    intro w t w1 hf hk hh _ _ h
    simp only [poll_children, Except.ok.injEq, Prod.mk.injEq] at h
    obtain ⟨rfl, rfl⟩ := h
    exact ⟨rfl, hf, hk, hh, fun _ _ => rfl, fun x hx => absurd hx (by simp)⟩
  | cons c rest ihl =>
    intro w t w1 hf hk hh hcl hnd h
    obtain ⟨t1, w2, r, t2, hfw, hpoll, hrest, rfl⟩ := poll_children_cons_inv h
    obtain ⟨C, hC, -, -, -, hf2, hs2, -, -, -, -, -, hsend⟩ := poll_forward_inv hfw
    obtain ⟨-, Q, hQ, ht1, hq2⟩ := hsend e rfl he
    obtain ⟨k, -, -, -, -, -, -, -, -, -, -, -, hm, -⟩ := fsm_poll_inv hpoll
    have htree : poll_tree w0.children m c =
        c :: (w0.children c).flatMap (poll_tree w0.children k) := by
      subst hm
      rfl
    have hqc : w0.queue_of c = C.event_queue := queue_of_eq (by rw [← hf]; exact hC)
    simp only [List.flatMap_cons, List.map_append] at hnd
    obtain ⟨hnd1, hnd2, hdis⟩ := List.nodup_append.mp hnd
    have hcin : c ∈ poll_tree w0.children m c := by
      rw [htree]
      exact List.mem_cons_self _ _
    have hleft : ∀ x, x ∈ poll_tree w0.children m c →
        x ∈ (c :: rest).flatMap (poll_tree w0.children m) := fun x hx => by
      rw [List.flatMap_cons]
      exact List.mem_append_left _ hx
    have hright : ∀ x, x ∈ rest.flatMap (poll_tree w0.children m) →
        x ∈ (c :: rest).flatMap (poll_tree w0.children m) := fun x hx => by
      rw [List.flatMap_cons]
      exact List.mem_append_right _ hx
    obtain ⟨hi, hlen⟩ := hcl c (hleft c hcin) Q (by rw [hqc]; exact hQ)
    have hroom : Q.items.length < Q.length := by
      rw [hi]
      exact hlen
    rw [if_pos hroom, hi, List.nil_append] at hq2
    have hne1 : ∀ x ∈ (poll_tree w0.children m c).tail, C.event_queue ≠ w0.queue_of x := by
      intro x hx hqe
      rw [htree] at hnd1 hx
      simp only [List.map_cons, List.nodup_cons, List.tail_cons] at hnd1 hx
      exact hnd1.1 (by rw [hqc, hqe]; exact List.mem_map_of_mem _ hx)
    obtain ⟨hcalls, hf3, hk3, hh3, hframe, hspent⟩ := ih c w2 r (hf2.trans hf)
      ((children_same hf2 hs2).trans hk) ((handler_of_same hf2 hs2).trans hh)
      ⟨_, by rw [hq2, hqc]; exact cell_put_same _ hQ, rfl⟩
      (fun x hx Q1 hQ1 => by
        rw [hq2, cell_put_ne _ _ (hne1 x hx)] at hQ1
        exact hcl x (hleft x (List.mem_of_mem_tail hx)) Q1 hQ1)
      hnd1 hpoll
    have hne2 : ∀ q, q ∉ (poll_tree w0.children m c).map w0.queue_of → C.event_queue ≠ q := by
      intro q hq hqe
      exact hq (by rw [← hqe, ← hqc]; exact List.mem_map_of_mem _ hcin)
    have hkeep : ∀ q, q ∉ (poll_tree w0.children m c).map w0.queue_of →
        cell r.world.queues q = cell w.queues q := by
      intro q hq
      rw [hframe q hq, hq2, cell_put_ne _ _ (hne2 q hq)]
    obtain ⟨hcalls2, hf4, hk4, hh4, hframe2, hspent2⟩ := ihl r.world t2 w1 hf3 hk3 hh3
      (fun x hx Q1 hQ1 => by
        have hxq : w0.queue_of x ∉ (poll_tree w0.children m c).map w0.queue_of :=
          fun hm1 => hdis hm1 (List.mem_map_of_mem _ hx)
        rw [hkeep _ hxq] at hQ1
        exact hcl x (hright x hx) Q1 hQ1)
      hnd2 hrest
    refine ⟨?_, hf4, hk4, hh4, ?_, ?_⟩
    · simp only [all_calls_append, all_calls_here, all_calls_cons_poll, all_calls_deeper,
        List.flatMap_cons, handed_down_append, hcalls, hcalls2, ht1, calls_cons_send, calls_nil,
        List.nil_append]
    · intro q hq
      simp only [List.flatMap_cons, List.map_append, List.mem_append, not_or] at hq
      rw [hframe2 q hq.2, hkeep q hq.1]
    · intro x hx Q1 hQ1
      rw [List.flatMap_cons] at hx
      rcases List.mem_append.mp hx with hx | hx
      · have hxq : w0.queue_of x ∉ (rest.flatMap (poll_tree w0.children m)).map w0.queue_of :=
          fun hm1 => hdis (List.mem_map_of_mem _ hx) hm1
        rw [hframe2 _ hxq] at hQ1
        exact hspent x hx Q1 hQ1
      · exact hspent2 x hx Q1 hQ1

/-- A poll of an FSM whose queue holds the event `e`, not a polling event, and nothing else,
in a composition in which no transition is pending and the FSMs below have queues of their
own, empty and with room, with handlers that leave the event and the world as they are: `e`
is handed once to the FSM and to each FSM below it, in the order of the polls, and the queues
of these FSMs hold polling events only afterwards. -/
theorem fsm_poll_handed (hs : handlers) (hro : hs.readonly)
    (hkf : hs.keep (fun w => w.fsms)) (hks : hs.keep (fun w => w.states))
    (hkq : hs.keep (fun w => w.queues)) (w0 : World) (e : event)
    (he : e.type ≠ FSM_EVT_POLL)
    (hpend : ∀ g G, cell w0.fsms g = some G → G.sta_next = 0) :
    ∀ (n g : Nat) (w : World) (r : poll_result),
      w.fsms = w0.fsms → w.children = w0.children → w.handler_of = w0.handler_of →
      (∃ Q, cell w.queues (w0.queue_of g) = some Q ∧ Q.items = [e]) →
      (∀ x ∈ (poll_tree w0.children n g).tail, ∀ Q,
        cell w.queues (w0.queue_of x) = some Q → Q.items = [] ∧ 0 < Q.length) →
      ((poll_tree w0.children n g).map w0.queue_of).Nodup →
      fsm_poll hs n g w = .ok r →
      all_calls r.trace = handed_down w0.handler_of e (poll_tree w0.children n g) ∧
      r.world.fsms = w0.fsms ∧ r.world.children = w0.children ∧
      r.world.handler_of = w0.handler_of ∧
      (∀ q, q ∉ (poll_tree w0.children n g).map w0.queue_of →
        cell r.world.queues q = cell w.queues q) ∧
      (∀ x ∈ poll_tree w0.children n g, ∀ Q,
        cell r.world.queues (w0.queue_of x) = some Q →
          ∀ y ∈ Q.items, y.type = FSM_EVT_POLL) := by
  intro n
  induction n with
  | zero =>
    intro g w r _ _ _ _ _ _ h
    obtain ⟨m, -, -, -, -, -, -, -, -, -, -, -, hn, -⟩ := fsm_poll_inv h
    omega
  | succ n ih =>
    intro g w r hf hk hh hpr hcl hnd h
    obtain ⟨m, l, t0, w1, t1, w2, t2, w3, o, t3, w4, t4, hn, h0, h1, h2, h3, h4, -, htr⟩ :=
      fsm_poll_inv h
    have hm : n = m := by omega
    subst hm
    obtain ⟨F, hF, hf1, hk1, hh1, hex, hen, hlq, hlh, hlb, hc0, hqs⟩ :=
      poll_locked_settled h0 (fun G hG => hpend g G (by rw [← hf]; exact hG))
    obtain ⟨ht1, hw2⟩ := (poll_exit_inv h1).1 hex
    subst hw2
    obtain ⟨ht2, hw3⟩ := (poll_enter_inv h2).1 hen
    subst hw3
    have hqg : w0.queue_of g = F.event_queue := queue_of_eq (by rw [← hf]; exact hF)
    obtain ⟨Q, hQ, hQi⟩ := hpr
    rw [hqg] at hQ
    have hq3 : ∃ Q1 rest, cell w3.queues F.event_queue = some Q1 ∧ Q1.items = e :: rest ∧
        (∀ y ∈ rest, y.type = FSM_EVT_POLL) ∧
        ∀ q, F.event_queue ≠ q → cell w3.queues q = cell w.queues q := by
      rcases hqs with hqs | ⟨Q', hQ', hqs⟩
      · exact ⟨Q, [], by rw [hqs]; exact hQ, hQi, fun y hy => absurd hy (by simp),
          fun q _ => by rw [hqs]⟩
      · have hQe : Q' = Q := Option.some.inj (hQ'.symm.trans hQ)
        subst hQe
        refine ⟨_, [poll_event (uptime_ms w)], by rw [hqs]; exact cell_put_same _ hQ,
          by rw [hQi]; rfl, ?_, fun q hq => by rw [hqs]; exact cell_put_ne _ _ hq⟩
        intro y hy
        rw [List.mem_singleton.mp hy]
        rfl
    obtain ⟨Q1, rest, hQ1, hQ1i, hrest, hoth⟩ := hq3
    obtain ⟨Q2, hQ2, hf4, hs4, ho, hc3, hq4⟩ := poll_dispatch_passive hro hkf hks hkq h3
    rw [hlq] at hQ2 hq4
    have hQe : Q2 = Q1 := Option.some.inj (hQ2.symm.trans hQ1)
    subst hQe
    rw [hQ1i] at ho hc3 hq4
    simp only [List.head?_cons, List.tail_cons] at ho hc3 hq4
    subst ho
    have htree : poll_tree w0.children (n + 1) g =
        g :: (w0.children g).flatMap (poll_tree w0.children n) := rfl
    rw [htree] at hnd hcl ⊢
    simp only [List.map_cons, List.nodup_cons, List.tail_cons] at hnd hcl
    have hne : ∀ x ∈ (w0.children g).flatMap (poll_tree w0.children n),
        F.event_queue ≠ w0.queue_of x := by
      intro x hx hqe
      exact hnd.1 (by rw [hqg, hqe]; exact List.mem_map_of_mem _ hx)
    have hbuf : l.child_fsm_buf = w0.children g := by rw [hlb, hk]
    rw [hbuf] at h4
    obtain ⟨hcalls, hf5, hk5, hh5, hframe, hspent⟩ :=
      poll_children_handed hs w0 e he n ih (w0.children g) w4 t4 r.world
        (by rw [hf4, hf1, hf]) ((children_same hf4 hs4).trans (hk1.trans hk))
        ((handler_of_same hf4 hs4).trans (hh1.trans hh))
        (fun x hx Q3 hQ3 => by
          rw [hq4, cell_put_ne _ _ (hne x hx), hoth _ (hne x hx)] at hQ3
          exact hcl x hx Q3 hQ3)
        hnd.2 h4
    have hgq : F.event_queue ∉ ((w0.children g).flatMap (poll_tree w0.children n)).map
        w0.queue_of := by
      rw [← hqg]
      exact hnd.1
    refine ⟨?_, hf5, hk5, hh5, ?_, ?_⟩
    · rw [htr, all_calls_append, all_calls_here, ht1, ht2, List.append_nil, List.append_nil,
        calls_append, hc0, List.nil_append, hc3, hcalls, handed_down_cons, hlh, hh]
    · intro q hq
      simp only [List.map_cons, List.mem_cons, not_or] at hq
      rw [hframe q hq.2, hq4, cell_put_ne _ _ (by rw [← hqg]; exact Ne.symm hq.1),
        hoth _ (by rw [← hqg]; exact Ne.symm hq.1)]
    · intro x hx Q3 hQ3
      rcases List.mem_cons.mp hx with hx | hx
      · subst hx
        rw [hqg, hframe _ hgq, hq4, cell_put_same _ hQ1] at hQ3
        have hQ3e := Option.some.inj hQ3
        subst hQ3e
        exact hrest
      · exact hspent x hx Q3 hQ3

theorem event_send_room {f type datalen : Nat} {data : payload} {w : World} {F : fsm}
    {Q : queue} (hF : cell w.fsms f = some F) (hv : F.valid) (hl : F.lock ∉ w.held)
    (hQ : cell w.queues F.event_queue = some Q) (hroom : Q.items.length < Q.length) :
    fsm_event_send f type data datalen w = .ok (0, w.setQueue F.event_queue
      { Q with items := Q.items ++ [{ type := type, timestamp := uptime_ms w, data := data,
                                      datalen := datalen }] }) := by
  obtain ⟨hm, hos, hlk, hq⟩ := hv
  simp only [fsm_event_send, World.fsm?, hF, ld, ok_bind, ASSERT, hm, hos, hlk, hq, if_true,
    ne_eq, not_false_eq_true, mutex_lock, hl, if_false, queue_send, World.queue?, hQ, hroom]
  simp [mutex_unlock]

theorem chain_in_tree (w : World) :
    ∀ (L : List Nat) (n f : Nat), w.chain f L → (f :: L).length ≤ n →
      ∀ g ∈ f :: L, g ∈ poll_tree w.children n f := by
  intro L
  induction L with
  | nil =>
    intro n f _ hn g hg
    cases n with
    | zero => simp at hn
    | succ k =>
      rw [List.mem_singleton.mp hg]
      exact List.mem_cons_self _ _
  | cons c L ih =>
    intro n f hch hn g hg
    cases n with
    | zero => simp at hn
    | succ k =>
      obtain ⟨hc, hrest⟩ := hch
      rcases List.mem_cons.mp hg with hg | hg
      · rw [hg]
        exact List.mem_cons_self _ _
      · refine List.mem_cons_of_mem _ (List.mem_flatMap.mpr ⟨c, hc, ?_⟩)
        exact ih k c hrest (by simp only [List.length_cons] at hn ⊢; omega) g hg

/-- C33 (A broadcast reaches every level in one poll, exactly once), amended: in a
composition tree that is finite and acyclic (a sound world), in which the FSMs that a poll of
`F0` reaches have pairwise distinct queues (no FSM is reached twice: none is attached under
two states), all queues are empty and have room, no transition is pending, and the handlers
are tame, send no events and leave the event they are handed, the FSM records and the state
records as they are: every FSM of a chain `F0, F1, ..., Fn` in which each `F(k+1)` is
attached under the current state of `Fk` is among the FSMs that the poll reaches;
`fsm_event_send(F0, t, data, len)` with `t` different from `FSM_EVT_POLL` returns 0; a single
`fsm_poll(F0)` then returns, and its handler invocations are, in the order of the polls, one
for each FSM it reaches, of the handler of the current state of that FSM (none where the
current state has no handler) with the event of type `t`, the payload pointer `data`, the
length `len` and the timestamp of the send; and a second `fsm_poll(F0)`, at any time, returns
and hands polling events only to the handlers. -/
theorem C33_broadcast_once (hs : handlers) (rank : Nat → Nat) (n f : Nat) (w0 : World)
    (type : Nat) (data : payload) (datalen : Nat)
    (htame : hs.tame rank) (hro : hs.readonly) (hkf : hs.keep (fun w => w.fsms))
    (hks : hs.keep (fun w => w.states)) (hkq : hs.keep (fun w => w.queues))
    (hsound : w0.sound rank) (hn : rank f < n) (hf : (w0.fsm? f).isSome)
    (hq : ∀ q Q, w0.queue? q = some Q → Q.items = [] ∧ 0 < Q.length)
    (hpend : ∀ g G, w0.fsm? g = some G → G.sta_next = 0)
    (hnd : ((poll_tree w0.children n f).map w0.queue_of).Nodup)
    (ht : type ≠ FSM_EVT_POLL) :
    (∀ L, w0.chain f L → (f :: L).length ≤ n → ∀ g ∈ f :: L, g ∈ poll_tree w0.children n f) ∧
    ∃ w r, fsm_event_send f type data datalen w0 = .ok (0, w) ∧
      fsm_poll hs n f w = .ok r ∧
      all_calls r.trace = handed_down w0.handler_of
        { type := type, timestamp := uptime_ms w0, data := data, datalen := datalen }
        (poll_tree w0.children n f) ∧
      ∀ t2, ∃ r2, fsm_poll hs n f { r.world with now := t2 } = .ok r2 ∧
        ∀ c ∈ all_calls r2.trace, c.2.type = FSM_EVT_POLL := by
  refine ⟨fun L hL hlen => chain_in_tree w0 L n f hL hlen, ?_⟩
  simp only [World.fsm?, World.queue?] at hf hq hpend
  obtain ⟨F, hF⟩ := Option.isSome_iff_exists.mp hf
  obtain ⟨hheld, hall⟩ := hsound
  obtain ⟨hv, hqs, -⟩ := hall f F hF
  obtain ⟨Q, hQ⟩ := Option.isSome_iff_exists.mp hqs
  simp only [World.queue?] at hQ
  obtain ⟨hQi, hQl⟩ := hq _ Q hQ
  have hsend := @event_send_room f type datalen data w0 F Q hF hv
    (by rw [hheld]; exact List.not_mem_nil _) hQ (by rw [hQi]; exact hQl)
  rw [hQi, List.nil_append] at hsend
  have hsound1 : (w0.setQueue F.event_queue
      { Q with items := [{ type := type, timestamp := uptime_ms w0, data := data,
                           datalen := datalen }] }).sound rank := by
    refine sound_queues rank w0 _ ⟨hheld, hall⟩ ?_
    intro q
    by_cases hqe : F.event_queue = q
    · subst hqe
      rw [cell_put_same _ hQ, hQ]
      rfl
    · rw [cell_put_ne _ _ hqe]
  obtain ⟨r, hr, -⟩ := fsm_poll_total hs rank htame n f _ hsound1 (by rw [World.setQueue]; exact hf)
    hn
  have hqf : w0.queue_of f = F.event_queue := queue_of_eq hF
  obtain ⟨k, -, -, -, -, -, -, -, -, -, -, -, hk, -⟩ := fsm_poll_inv hr
  have htree : poll_tree w0.children n f =
      f :: (w0.children f).flatMap (poll_tree w0.children k) := by
    subst hk
    rfl
  have hfin : f ∈ poll_tree w0.children n f := by
    rw [htree]
    exact List.mem_cons_self _ _
  obtain ⟨hcalls, hf1, -, -, hframe, hspent⟩ :=
    fsm_poll_handed hs hro hkf hks hkq w0
      { type := type, timestamp := uptime_ms w0, data := data, datalen := datalen } ht hpend
      n f (w0.setQueue F.event_queue
        { Q with items := [{ type := type, timestamp := uptime_ms w0, data := data,
                             datalen := datalen }] }) r rfl
      (children_same rfl rfl) (handler_of_same rfl rfl)
      ⟨_, by rw [hqf]; exact cell_put_same _ hQ, rfl⟩
      (fun x hx Q1 hQ1 => by
        have hne : F.event_queue ≠ w0.queue_of x := by
          intro hqe
          rw [htree] at hnd hx
          simp only [List.map_cons, List.nodup_cons, List.tail_cons] at hnd hx
          exact hnd.1 (by rw [hqf, hqe]; exact List.mem_map_of_mem _ hx)
        simp only [World.setQueue] at hQ1
        rw [cell_put_ne _ _ hne] at hQ1
        exact hq _ Q1 hQ1)
      hnd hr
  refine ⟨_, r, hsend, hr, hcalls, ?_⟩
  intro t2
  have hsound2 := sound_now rank _ t2 (fsm_poll_sound hs rank htame n f _ r hsound1 hr)
  obtain ⟨r2, hr2, -⟩ := fsm_poll_total hs rank htame n f _ hsound2
    (by show (cell r.world.fsms f).isSome = true; rw [hf1]; exact hf) hn
  refine ⟨r2, hr2, ?_⟩
  refine (fsm_poll_calm hs hro hkf hks hkq n f _ r2 ?_ ?_ hr2).1
  · intro g G hG
    exact hpend g G (by rw [← hf1]; exact hG)
  · intro q Q1 hQ1
    have hQ1a : cell r.world.queues q = some Q1 := hQ1
    by_cases hin : q ∈ (poll_tree w0.children n f).map w0.queue_of
    · obtain ⟨x, hx, rfl⟩ := List.mem_map.mp hin
      exact hspent x hx Q1 hQ1a
    · rw [hframe q hin] at hQ1a
      have hne : F.event_queue ≠ q := by
        intro hqe
        exact hin (by rw [← hqe, ← hqf]; exact List.mem_map_of_mem _ hfin)
      simp only [World.setQueue] at hQ1a
      rw [cell_put_ne _ _ hne] at hQ1a
      intro y hy
      rw [(hq _ Q1 hQ1a).1] at hy
      exact absurd hy (List.not_mem_nil _)

theorem w_chain_sound : w_chain.sound (fun g => 3 - g) := by
  refine ⟨rfl, ?_⟩
  intro g G hG
  rcases g with _ | _ | _ | _ | g
  · simp [World.fsm?] at hG
  · have hG1 := Option.some.inj hG
    subst hG1
    exact ⟨by decide, rfl, rfl, ⟨_, [2], rfl, rfl, by decide⟩, fun h => absurd rfl h⟩
  · have hG1 := Option.some.inj hG
    subst hG1
    exact ⟨by decide, rfl, rfl, ⟨_, [3], rfl, rfl, by decide⟩, fun h => absurd rfl h⟩
  · have hG1 := Option.some.inj hG
    subst hG1
    exact ⟨by decide, rfl, rfl, ⟨_, [], rfl, rfl, by simp⟩, fun h => absurd rfl h⟩
  · simp [World.fsm?, w_chain, cell] at hG

theorem w_chain_queues : ∀ q Q, w_chain.queue? q = some Q → Q.items = [] ∧ 0 < Q.length := by
  intro q Q hQ
  rcases q with _ | _ | _ | _ | q
  · simp [World.queue?] at hQ
  · have hQ1 := Option.some.inj hQ
    subst hQ1
    exact ⟨rfl, by decide⟩
  · have hQ1 := Option.some.inj hQ
    subst hQ1
    exact ⟨rfl, by decide⟩
  · have hQ1 := Option.some.inj hQ
    subst hQ1
    exact ⟨rfl, by decide⟩
  · simp [World.queue?, w_chain, cell] at hQ

theorem w_chain_settled : ∀ g G, w_chain.fsm? g = some G → G.sta_next = 0 := by
  intro g G hG
  rcases g with _ | _ | _ | _ | g
  · simp [World.fsm?] at hG
  · have hG1 := Option.some.inj hG
    subst hG1
    rfl
  · have hG1 := Option.some.inj hG
    subst hG1
    rfl
  · have hG1 := Option.some.inj hG
    subst hG1
    rfl
  · simp [World.fsm?, w_chain, cell] at hG

/-- C33, as stated, does not hold.  In the composition `w_chain` (built by calls that all
return 0) the FSM 2 is attached under the current state of the FSM 1 and the FSM 3 under the
current state of the FSM 2, all queues are empty and no transition is pending.  (1) When the
FSM 3 is attached under the current state of the FSM 1 as well, which returns 0 and leaves it
on the child list of the state of the FSM 2, one poll of the FSM 1 after the send invokes the
handler of the current state of the FSM 3 twice with the event sent, with handlers that do
nothing.  (2) With handlers that send no events but write to the event they are handed, the
FSMs 2 and 3 are handed events of other types.  (3) With handlers that send no events, of
which the handler of the FSM 1 requests a transition of the FSM 2, the poll of the FSM 2
applies the transition and polls the child FSMs of the new state, and the handler 3 of the
current state of the FSM 3 is not invoked at all. -/
theorem C33_counterexample :
    mk_chain = .ok ([0, 0, 0, 0, 0, 0, 0], w_chain) ∧
    w_chain.children 1 = [2] ∧ w_chain.children 2 = [3] ∧ w_chain.children 3 = [] ∧
    w_chain.handler_of 1 = 1 ∧ w_chain.handler_of 2 = 2 ∧ w_chain.handler_of 3 = 3 ∧
    (∀ q Q, w_chain.queue? q = some Q → Q.items = [] ∧ 0 < Q.length) ∧
    (∀ g G, w_chain.fsm? g = some G → G.sta_next = 0) ∧
    (∃ w1 w2 r, fsm_state_child_fsm_add 2 3 w_chain = .ok (0, w1) ∧
      w1.children 1 = [2, 3] ∧ w1.children 2 = [3] ∧ w1.children 3 = [] ∧
      w1.queues = w_chain.queues ∧
      fsm_event_send 1 TEST_EVENT (.user 7) 4 w1 = .ok (0, w2) ∧
      fsm_poll hs_idle 3 1 w2 = .ok r ∧
      (all_calls r.trace).map (fun c : Nat × event => (c.1, c.2.type)) =
        [(1, TEST_EVENT), (2, TEST_EVENT), (3, TEST_EVENT), (3, TEST_EVENT)]) ∧
    (∃ w2 r, fsm_event_send 1 TEST_EVENT (.user 7) 4 w_chain = .ok (0, w2) ∧
      fsm_poll hs_retype 3 1 w2 = .ok r ∧
      (all_calls r.trace).map (fun c : Nat × event => (c.1, c.2.type)) =
        [(1, TEST_EVENT), (2, TEST_EVENT + 1), (3, TEST_EVENT + 2)]) ∧
    (∃ w2 r, fsm_event_send 1 TEST_EVENT (.user 7) 4 w_chain = .ok (0, w2) ∧
      fsm_poll hs_switch 3 1 w2 = .ok r ∧
      (all_calls r.trace).map (fun c : Nat × event => (c.1, c.2.type)) =
        [(1, TEST_EVENT), (2, FSM_EVT_EXIT), (4, FSM_EVT_ENTER), (4, TEST_EVENT)]) := by
  refine ⟨by rfl, by decide, by decide, by decide, by decide, by decide, by decide,
    w_chain_queues, w_chain_settled, ?_, ?_, ?_⟩
  · have h := show (fsm_state_child_fsm_add 2 3 w_chain >>= fun a =>
        fsm_event_send 1 TEST_EVENT (.user 7) 4 a.2 >>= fun b =>
        (fsm_poll hs_idle 3 1 b.2).map (fun r =>
          decide (a.1 = 0) && decide (a.2.children 1 = [2, 3]) &&
          decide (a.2.children 2 = [3]) && decide (a.2.children 3 = []) &&
          decide (a.2.queues = w_chain.queues) && decide (b.1 = 0) &&
          decide ((all_calls r.trace).map (fun c : Nat × event => (c.1, c.2.type)) =
            [(1, TEST_EVENT), (2, TEST_EVENT), (3, TEST_EVENT), (3, TEST_EVENT)]))) =
        .ok true from by decide
    obtain ⟨⟨y, w1⟩, ha, h⟩ := bind_eq_ok.mp h
    obtain ⟨⟨x, w2⟩, hb, h⟩ := bind_eq_ok.mp h
    obtain ⟨r, hr, hv⟩ := map_eq_ok.mp h
    simp only [Bool.and_eq_true, decide_eq_true_eq] at hv
    obtain ⟨⟨⟨⟨⟨⟨h1, h2⟩, h3⟩, h4⟩, h5⟩, h6⟩, h7⟩ := hv
    have h1 : y = 0 := h1
    have h6 : x = 0 := h6
    subst h1 h6
    exact ⟨w1, w2, r, ha, h2, h3, h4, h5, hb, hr, h7⟩
  · have h := show (fsm_event_send 1 TEST_EVENT (.user 7) 4 w_chain >>= fun b =>
        (fsm_poll hs_retype 3 1 b.2).map (fun r =>
          decide (b.1 = 0) &&
          decide ((all_calls r.trace).map (fun c : Nat × event => (c.1, c.2.type)) =
            [(1, TEST_EVENT), (2, TEST_EVENT + 1), (3, TEST_EVENT + 2)]))) =
        .ok true from by decide
    obtain ⟨⟨x, w2⟩, hb, h⟩ := bind_eq_ok.mp h
    obtain ⟨r, hr, hv⟩ := map_eq_ok.mp h
    simp only [Bool.and_eq_true, decide_eq_true_eq] at hv
    obtain ⟨h1, h2⟩ := hv
    have h1 : x = 0 := h1
    subst h1
    exact ⟨w2, r, hb, hr, h2⟩
  · have h := show (fsm_event_send 1 TEST_EVENT (.user 7) 4 w_chain >>= fun b =>
        (fsm_poll hs_switch 3 1 b.2).map (fun r =>
          decide (b.1 = 0) &&
          decide ((all_calls r.trace).map (fun c : Nat × event => (c.1, c.2.type)) =
            [(1, TEST_EVENT), (2, FSM_EVT_EXIT), (4, FSM_EVT_ENTER), (4, TEST_EVENT)]))) =
        .ok true from by decide
    obtain ⟨⟨x, w2⟩, hb, h⟩ := bind_eq_ok.mp h
    obtain ⟨r, hr, hv⟩ := map_eq_ok.mp h
    simp only [Bool.and_eq_true, decide_eq_true_eq] at hv
    obtain ⟨h1, h2⟩ := hv
    have h1 : x = 0 := h1
    subst h1
    exact ⟨w2, r, hb, hr, h2⟩

theorem w_chain_handed :
    handed_down w_chain.handler_of
      { type := TEST_EVENT, timestamp := uptime_ms w_chain, data := .user 7, datalen := 4 }
      (poll_tree w_chain.children 3 1) =
    [(1, { type := TEST_EVENT, timestamp := 0, data := .user 7, datalen := 4 }),
     (2, { type := TEST_EVENT, timestamp := 0, data := .user 7, datalen := 4 }),
     (3, { type := TEST_EVENT, timestamp := 0, data := .user 7, datalen := 4 })] := by
  decide

/-- C33 on the composition `w_chain`, three levels deep: the event is handed once to each of
the three FSMs, and the second poll hands polling events only. -/
theorem C33_broadcast_once_witness :
    ∃ w r, fsm_event_send 1 TEST_EVENT (.user 7) 4 w_chain = .ok (0, w) ∧
      fsm_poll hs_idle 3 1 w = .ok r ∧
      all_calls r.trace =
        [(1, { type := TEST_EVENT, timestamp := 0, data := .user 7, datalen := 4 }),
         (2, { type := TEST_EVENT, timestamp := 0, data := .user 7, datalen := 4 }),
         (3, { type := TEST_EVENT, timestamp := 0, data := .user 7, datalen := 4 })] ∧
      ∀ t2, ∃ r2, fsm_poll hs_idle 3 1 { r.world with now := t2 } = .ok r2 ∧
        ∀ c ∈ all_calls r2.trace, c.2.type = FSM_EVT_POLL := by
  obtain ⟨-, w, r, h1, h2, h3, h4⟩ :=
    C33_broadcast_once hs_idle (fun g => 3 - g) 3 1 w_chain TEST_EVENT (.user 7) 4
      (hs_idle_tame _) hs_idle_readonly (hs_idle_keep _) (hs_idle_keep _) (hs_idle_keep _)
      w_chain_sound (by decide) (by decide) w_chain_queues w_chain_settled (by decide)
      (by decide)
  exact ⟨w, r, h1, h2, h3.trans w_chain_handed, h4⟩

/-! ## Requests by name where two states have one name -/

theorem mk_twin_eq : mk_twin = .ok ([0, 0, 0, 0], w_twin) := by rfl

/-- C12, as stated, does not hold for requests by name: in `w_twin`, where nothing is pending
and the state at 4 is registered with the name `"A"`, which the state at 3, registered before
it, has as well, the request for the state at 4 through `fsm_switch_by_name` with its name
returns `0` and fills the pending slot with the state at 3. -/
theorem C12_counterexample :
    mk_twin = .ok ([0, 0, 0, 0], w_twin) ∧
    (∃ F, w_twin.fsm? 1 = some F ∧ F.sta_next = 0 ∧ w_twin.registry F = .ok [2, 3, 4]) ∧
    (w_twin.state? 4).map (fun s => s.name) = some "A" ∧
    ∃ w1, fsm_switch_by_name 1 "A" w_twin = .ok (0, w1) ∧
      (w1.fsm? 1).map (fun F => F.sta_next) = some 3 := by
  refine ⟨mk_twin_eq, ⟨_, rfl, rfl, by decide⟩, rfl, ?_⟩
  have h := show (fsm_switch_by_name 1 "A" w_twin).map (fun a =>
      decide (a.1 = 0) && decide ((a.2.fsm? 1).map (fun F => F.sta_next) = some 3)) =
      .ok true from by decide
  obtain ⟨⟨x, w1⟩, ha, hv⟩ := map_eq_ok.mp h
  simp only [Bool.and_eq_true, decide_eq_true_eq] at hv
  obtain ⟨h1, h2⟩ := hv
  have h1 : x = 0 := h1
  subst h1
  exact ⟨w1, ha, h2⟩

/-! ## Handlers that write to the event -/

/-- C7, as stated, does not hold: the handler is handed the event by reference, and what
`fsm_poll` tests and passes on afterwards is the event as the handler left it.  In the
composition `w_tree` the FSM 1 has the child FSMs 2 and 3 and the event of type 42325 at the
head of its queue: with a handler that changes the type of the event, the event dequeued has
the type 42325 and the copies sent to the child FSMs have the type 42326; with a handler that
makes it a polling event, nothing is sent to the child FSMs.  In the composition `w_chain`
at time 100 the FSM 1, with the child FSM 2, dequeues the polling event it has generated:
with a handler that gives it the type `TEST_EVENT`, it is sent to the queue of the child
FSM. -/
theorem C7_counterexample :
    w_tree.children 1 = [2, 3] ∧
    (∃ r, fsm_poll hs_retype 2 1 w_tree = .ok r ∧
      received (own r.trace) = [(1, some
        ({ type := 42325, timestamp := 12, data := .user 7, datalen := 4 } : event))] ∧
      forwarded (own r.trace) =
        [(2, ({ type := 42326, timestamp := 12, data := .user 7, datalen := 4 } : event)),
         (3, ({ type := 42326, timestamp := 12, data := .user 7, datalen := 4 } : event))]) ∧
    (∃ r, fsm_poll hs_as_poll 2 1 w_tree = .ok r ∧
      received (own r.trace) = [(1, some
        ({ type := 42325, timestamp := 12, data := .user 7, datalen := 4 } : event))] ∧
      forwarded (own r.trace) = []) ∧
    w_chain.children 1 = [2] ∧
    (∃ r, fsm_poll hs_as_user 3 1 { w_chain with now := 100 } = .ok r ∧
      received (own r.trace) = [(1, some (poll_event 100))] ∧
      (poll_event 100).type = FSM_EVT_POLL ∧
      forwarded (own r.trace) = [(2, { poll_event 100 with type := TEST_EVENT })]) := by
  refine ⟨by decide, ?_, ?_, by decide, ?_⟩
  · obtain ⟨r, hr, hv⟩ := map_eq_ok.mp (show (fsm_poll hs_retype 2 1 w_tree).map
      (fun r => decide (received (own r.trace) = [(1, some
          ({ type := 42325, timestamp := 12, data := .user 7, datalen := 4 } : event))]) &&
        decide (forwarded (own r.trace) =
          [(2, ({ type := 42326, timestamp := 12, data := .user 7, datalen := 4 } : event)),
           (3, ({ type := 42326, timestamp := 12, data := .user 7, datalen := 4 } : event))]))
      = .ok true from by decide)
    simp only [Bool.and_eq_true, decide_eq_true_eq] at hv
    exact ⟨r, hr, hv.1, hv.2⟩
  · obtain ⟨r, hr, hv⟩ := map_eq_ok.mp (show (fsm_poll hs_as_poll 2 1 w_tree).map
      (fun r => decide (received (own r.trace) = [(1, some
          ({ type := 42325, timestamp := 12, data := .user 7, datalen := 4 } : event))]) &&
        decide (forwarded (own r.trace) = []))
      = .ok true from by decide)
    simp only [Bool.and_eq_true, decide_eq_true_eq] at hv
    exact ⟨r, hr, hv.1, hv.2⟩
  · obtain ⟨r, hr, hv⟩ := map_eq_ok.mp
      (show (fsm_poll hs_as_user 3 1 { w_chain with now := 100 }).map
        (fun r => decide (received (own r.trace) = [(1, some (poll_event 100))]) &&
          decide (forwarded (own r.trace) =
            [(2, { poll_event 100 with type := TEST_EVENT })]))
        = .ok true from by decide)
    simp only [Bool.and_eq_true, decide_eq_true_eq] at hv
    exact ⟨r, hr, hv.1, rfl, hv.2⟩

/-! ## Defects of the code -/

theorem mk_chain_eq : mk_chain = .ok ([0, 0, 0, 0, 0, 0, 0], w_chain) := by rfl

theorem mk_orphan_eq : mk_orphan = .ok ([0, 0, 0], w_orphan) := by rfl

theorem map_eq_error {α β : Type} {x : Except fault α} {g : α → β} {e : fault}
    (h : x.map g = .error e) : x = .error e := by
  cases x with
  | error e1 =>
    have h1 : (Except.error e1 : Except fault β) = .error e := h
    rw [Except.error.inj h1]
  | ok a => exact absurd h (by simp [Except.map])

theorem fsm_poll_locked_fault (hs : handlers) (n f : Nat) (w : World) (e : fault)
    (h : poll_locked f w = .error e) : fsm_poll hs (n + 1) f w = .error e := by
  simp only [fsm_poll, h, error_bind]

/-- C17 (Attach): a defect of `fsm_state_child_fsm_add`, which does not look whether the FSM
is on the child list already; it sets `fsm->next = NULL` and links the FSM behind the old
tail.  In the composition `w_tree` the FSMs 2 and 3 are attached, in this order, to the state
`S1` at 2, which the FSM 1 owns: attaching the FSM 2, which does not own `S1`, once more
returns `0`, and afterwards the child list of `S1` is `[2]`, not `[2, 3, 2]`: the earlier
child 3 is no longer on it.  In the composition `w_chain` the FSM 2 is the only child of the
state at 2: attaching it once more returns `0` and makes it its own successor, so that the
child list has no end (the walk over it does not come to `NULL`) and `fsm_poll` of the FSM 1,
which counts the child FSMs of its current state, does not return. -/
theorem C17_attach_twice :
    mk_tree = .ok w_tree ∧ w_tree.kids 2 = .ok [2, 3] ∧
    (w_tree.state? 2).map (fun s => s.parent_fsm) = some 1 ∧
    (∃ w1, fsm_state_child_fsm_add 2 2 w_tree = .ok (0, w1) ∧ w1.kids 2 = .ok [2] ∧
      w1.kids 2 ≠ .ok ([2, 3] ++ [2])) ∧
    mk_chain = .ok ([0, 0, 0, 0, 0, 0, 0], w_chain) ∧ w_chain.kids 2 = .ok [2] ∧
    (w_chain.state? 2).map (fun s => s.parent_fsm) = some 1 ∧
    (w_chain.fsm? 1).map (fun F => F.sta_curr) = some 2 ∧
    ∃ w1, fsm_state_child_fsm_add 2 2 w_chain = .ok (0, w1) ∧
      (w1.fsm? 2).map (fun F => F.next) = some 2 ∧ w1.kids 2 = .error .hang ∧
      ∀ n, fsm_poll hs_idle (n + 1) 1 w1 = .error .hang := by
  refine ⟨mk_tree_eq, rfl, rfl, ?_, mk_chain_eq, rfl, rfl, rfl, ?_⟩
  · obtain ⟨r, hr, hv⟩ := map_eq_ok.mp (show (fsm_state_child_fsm_add 2 2 w_tree).map
      (fun r => (r.1, r.2.kids 2)) = .ok (0, .ok [2]) from by decide)
    obtain ⟨r1, w1⟩ := r
    simp only [Prod.mk.injEq] at hv
    obtain ⟨h1, h2⟩ := hv
    subst h1
    exact ⟨w1, hr, h2, by rw [h2]; decide⟩
  · obtain ⟨r, hr, hv⟩ := map_eq_ok.mp (show (fsm_state_child_fsm_add 2 2 w_chain).map
      (fun r => decide (r.1 = 0) && decide ((r.2.fsm? 2).map (fun F => F.next) = some 2) &&
        decide (r.2.kids 2 = .error .hang) &&
        decide ((poll_locked 1 r.2).map (fun _ => ()) = .error .hang)) = .ok true from by
      decide)
    obtain ⟨r1, w1⟩ := r
    simp only [Bool.and_eq_true, decide_eq_true_eq] at hv
    obtain ⟨⟨⟨h1, h2⟩, h3⟩, h4⟩ := hv
    have h1 : r1 = 0 := h1
    subst h1
    exact ⟨w1, hr, h2, h3, fun n => fsm_poll_locked_fault hs_idle n 1 w1 _ (map_eq_error h4)⟩

/-- C21 (FSM deletion result codes): a defect of the code, which leaves the parent state of
a child FSM dangling when the state is deleted, and reads it in `fsm_del`.  In `w_orphan`,
built by calls that all return `0`, the child FSM at 2 was attached to the state at 2, and
the state was deleted with `fsm_state_del`: the child FSM is valid, its registry is empty,
its parent state is still the state at 2, which is freed.  `fsm_del` of the child FSM, through
`fsm_deinit` and `fsm_state_child_fsm_del`, reads the freed state: it does not return `0`
(here it faults at the bad pointer). -/
theorem C21_orphan_deletion :
    mk_orphan = .ok ([0, 0, 0], w_orphan) ∧
    (∃ F, w_orphan.fsm? 2 = some F ∧ F.valid ∧ F.lock ∉ w_orphan.held ∧
      (w_orphan.queue? F.event_queue).isSome ∧ w_orphan.registry F = .ok [] ∧
      F.parent_state = 2) ∧
    w_orphan.state? 2 = none ∧
    fsm_del (some 2) w_orphan = .error .badptr := by
  refine ⟨mk_orphan_eq, ⟨_, rfl, by decide, by decide, rfl, by decide, rfl⟩, rfl, ?_⟩
  decide

end StateMachine
